import Mathlib

/-!
RV64 backend of the SysY compiler: machine IR, phi elimination, linear scan, stack lowering.

A shallow embedding of the passes in `backend/targets/riscv64` and `backend/ra`.
Containers are lists: a `std::deque` of instructions is a `List MInstruction`, a
`std::map` is an association list kept in key order, a `std::set` is a list used
for membership only. Pointers to instructions are positions in those lists.
-/

namespace RV64

/-! ## Machine IR data model -/

/-- Modelled from the spec: the data type tags of section 3.1 that the backend passes
compare against (`BE::I32`, `BE::I64`, `BE::F32`, `BE::F64`, `BE::PTR`); the declaration
lives in `backend/mir/m_defs.h`, which is not among the sources. -/
inductive DataType where
  | I32
  | I64
  | F32
  | F64
  | PTR
deriving DecidableEq, Repr

/-- The test `dt->dt == BE::DataType::Type::FLOAT`. -/
def DataType.isFloatClass : DataType → Bool
  | .F32 => true
  | .F64 => true
  | _ => false

/-- Modelled from the spec: a Register is `(id, type, is_virtual)` (section 3.4); the class
is declared in `backend/mir/m_defs.h`, which is not among the sources. `dt` is a nullable
pointer, equality is structural. -/
structure Register where
  rId : Nat
  dt : Option DataType
  isVreg : Bool
deriving DecidableEq, Repr

/-- Modelled from the spec: the strict order on registers used by `std::map<Register, _>`
and `std::set<Register>`; it is declared in `backend/mir/m_defs.h`, which is not among the
sources. Ids are compared first, then the virtual flag, then the type tag. -/
def Register.key (r : Register) : Nat × Nat × Nat :=
  (r.rId, (if r.isVreg then 1 else 0),
    match r.dt with
    | none => 0
    | some .I32 => 1
    | some .I64 => 2
    | some .F32 => 3
    | some .F64 => 4
    | some .PTR => 5)

/-- Lexicographic comparison of register keys. -/
def Register.lt (a b : Register) : Bool :=
  let ka := a.key
  let kb := b.key
  decide (ka.1 < kb.1) ||
    (decide (ka.1 = kb.1) &&
      (decide (ka.2.1 < kb.2.1) || (decide (ka.2.1 = kb.2.1) && decide (ka.2.2 < kb.2.2))))

/-- Modelled from the spec: operands are register, immediate or frame index (section 3.4);
the classes are declared in `backend/mir/m_defs.h`, which is not among the sources. -/
inductive Operand where
  | reg (r : Register)
  | immI32 (val : Int)
  | immF32 (bits : Nat)
  | frameIndex (fi : Int)
deriving DecidableEq, Repr

/-- The opcodes of `RV64_INSTS_BASE` (all extension flags are 0). -/
inductive Operator where
  | ADD | ADDW | SUB | SUBW | MUL | MULW | DIV | DIVW
  | FADD_S | FSUB_S | FMUL_S | FDIV_S | REM | REMW
  | SLL | SRL | SRA | AND | OR | XOR | SLT | SLTU
  | FEQ_S | FLT_S | FLE_S | FMIN_S | FMAX_S
  | ADDI | ADDIW | SLLI | SRLI | SRAI | SLLIW | SRLIW | SRAIW
  | ANDI | ORI | XORI | SLTI | SLTIU | JALR | RET | LW | LD | FLW | FLD
  | LI | LUI | LA
  | SW | SD | FSW | FSD
  | BEQ | BNE | BLT | BGE | BLTU | BGEU | BGT | BLE | BGTU | BLEU
  | JAL
  | FMV_W_X | FMV_X_W | FCVT_S_W | FCVT_W_S | FMV_S | FMV_D | ZEXT_W | FNEG_S
  | FMADD_S | FMSUB_S | FNMADD_S | FNMSUB_S
  | CALL
deriving DecidableEq, Repr

/-- The instruction formats of `RV64_INST_TYPES`. -/
inductive OpType where
  | R | I | S | B | U | J | R2 | R4 | CALL
deriving DecidableEq, Repr

/-- The format column of `RV64_INSTS_BASE`. -/
def Operator.opType : Operator → OpType
  | .ADD | .ADDW | .SUB | .SUBW | .MUL | .MULW | .DIV | .DIVW
  | .FADD_S | .FSUB_S | .FMUL_S | .FDIV_S | .REM | .REMW
  | .SLL | .SRL | .SRA | .AND | .OR | .XOR | .SLT | .SLTU
  | .FEQ_S | .FLT_S | .FLE_S | .FMIN_S | .FMAX_S => .R
  | .ADDI | .ADDIW | .SLLI | .SRLI | .SRAI | .SLLIW | .SRLIW | .SRAIW
  | .ANDI | .ORI | .XORI | .SLTI | .SLTIU | .JALR | .RET | .LW | .LD | .FLW | .FLD => .I
  | .LI | .LUI | .LA => .U
  | .SW | .SD | .FSW | .FSD => .S
  | .BEQ | .BNE | .BLT | .BGE | .BLTU | .BGEU | .BGT | .BLE | .BGTU | .BLEU => .B
  | .JAL => .J
  | .FMV_W_X | .FMV_X_W | .FCVT_S_W | .FCVT_W_S | .FMV_S | .FMV_D | .ZEXT_W | .FNEG_S => .R2
  | .FMADD_S | .FMSUB_S | .FNMADD_S | .FNMSUB_S => .R4
  | .CALL => .CALL

/-- The class `Label` of `rv64_defs.h`. -/
structure Label where
  name : String
  lnum : Nat
  is_data : Bool
  is_hi : Bool
  jmp_label : Int
  seq_label : Int
  is_la : Bool
deriving DecidableEq, Repr

/-- The constructor `Label(bool la = false)`. -/
def Label.default : Label :=
  { name := "", lnum := 0, is_data := false, is_hi := false, jmp_label := -1, seq_label := -1,
    is_la := false }

/-- The constructor `Label(int jmp, bool la = false)`. -/
def Label.ofJmp (jmp : Int) : Label :=
  { name := "", lnum := jmp.toNat, is_data := false, is_hi := false, jmp_label := jmp,
    seq_label := -1, is_la := false }

/-- The physical register `getPR(rID)`: ids below 32 are integer registers of type I64,
the others float registers of type F64. -/
def getPR (rID : Nat) : Register :=
  { rId := rID, dt := some (if rID < 32 then DataType.I64 else DataType.F64), isVreg := false }

namespace PR

def x0 : Register := getPR 0
def ra : Register := getPR 1
def sp : Register := getPR 2
def t0 : Register := getPR 5
def t1 : Register := getPR 6
def s0 : Register := getPR 8
def s1 : Register := getPR 9
def a0 : Register := getPR 10
def a1 : Register := getPR 11
def fs0 : Register := getPR 40

end PR

/-- The class `Instr` of `rv64_defs.h` (the comment string of the base class is left out). -/
structure Instr where
  op : Operator
  rd : Register
  rs1 : Register
  rs2 : Register
  imme : Int
  label : Label
  use_label : Bool
  call_ireg_cnt : Int
  call_freg_cnt : Int
  func_name : String
  ins_id : Int
  fiop : Option Operand
  use_ops : Bool
deriving DecidableEq, Repr

/-- The default constructor `Instr()`; the opcode is set by every `create*Inst`. -/
def Instr.new (op : Operator) : Instr :=
  { op := op, rd := getPR 0, rs1 := getPR 0, rs2 := getPR 0, imme := 0, label := Label.default,
    use_label := false, call_ireg_cnt := 0, call_freg_cnt := 0, func_name := "", ins_id := 0,
    fiop := none, use_ops := false }

def createRInst (op : Operator) (rd rs1 rs2 : Register) : Instr :=
  { Instr.new op with rd := rd, rs1 := rs1, rs2 := rs2 }

def createR2Inst (op : Operator) (rd rs : Register) : Instr :=
  { Instr.new op with rd := rd, rs1 := rs }

def createIInst (op : Operator) (rd rs1 : Register) (imme : Int) : Instr :=
  { Instr.new op with rd := rd, rs1 := rs1, imme := imme }

def createIInstOp (op : Operator) (rd rs1 : Register) (op3 : Operand) : Instr :=
  { Instr.new op with rd := rd, rs1 := rs1, fiop := some op3, use_ops := true }

def createSInst (op : Operator) (val ptr : Register) (imme : Int) : Instr :=
  { Instr.new op with rs1 := val, rs2 := ptr, imme := imme }

def createBInst (op : Operator) (rs1 rs2 : Register) (label : Label) : Instr :=
  { Instr.new op with rs1 := rs1, rs2 := rs2, label := label, use_label := true }

def createUInst (op : Operator) (rd : Register) (imme : Int) : Instr :=
  { Instr.new op with rd := rd, imme := imme }

def createJInst (op : Operator) (rd : Register) (label : Label) : Instr :=
  { Instr.new op with rd := rd, label := label, use_label := true }

def createCallInst (op : Operator) (name : String) (ireg freg : Int) : Instr :=
  { Instr.new op with func_name := name, call_ireg_cnt := ireg, call_freg_cnt := freg }

/-- Modelled from the spec: an MInstruction is a Target instruction, a pseudo Move, a Phi,
an FILoad or an FIStore (section 3.4); the classes are declared in
`backend/mir/m_instruction.h`, which is not among the sources. Operand pointers of moves
and phis may be null. -/
inductive MInstruction where
  | target (i : Instr)
  | move (dest : Option Operand) (src : Option Operand)
  | phi (resReg : Register) (incomingVals : List (Nat × Option Operand))
  | fiLoad (dest : Register) (frameIndex : Int)
  | fiStore (src : Register) (frameIndex : Int)
deriving DecidableEq, Repr

/-- The helper `createMove(new RegOperand(dst), src)`. -/
def createMove (dst : Register) (src : Operand) : MInstruction :=
  .move (some (.reg dst)) (some src)

/-- The test `dynamic_cast<PhiInst*>(inst) != nullptr`. -/
def MInstruction.isPhi : MInstruction → Bool
  | .phi _ _ => true
  | _ => false

/-- Modelled from the spec: `getVReg(dt)` hands out the next unused virtual register; the
counter lives in `backend/mir/m_defs.h`, which is not among the sources, and is threaded
through explicitly here. -/
def getVReg (dt : Option DataType) (next : Nat) : Register × Nat :=
  ({ rId := next, dt := dt, isVreg := true }, next + 1)

/-- A basic block: its id and its instruction sequence. -/
structure Block where
  blockId : Nat
  insts : List MInstruction
deriving DecidableEq, Repr

/-- The ordered map `block_id → Block` of a function. -/
abbrev BlockMap := List (Nat × Block)

/-- The assignment `blocks[id] = b` on the ordered map. -/
def blocksInsert (id : Nat) (b : Block) : BlockMap → BlockMap
  | [] => [(id, b)]
  | (k, v) :: rest =>
    if id = k then (k, b) :: rest
    else if id < k then (id, b) :: (k, v) :: rest
    else (k, v) :: blocksInsert id b rest

/-- A machine function: its blocks and the running stack size. -/
structure Function where
  blocks : BlockMap
  stackSize : Int
deriving DecidableEq, Repr

/-! ## Phi elimination (`passes/lowering/phi_elimination.cpp`) -/

def isBranchOp : Operator → Bool
  | .BEQ | .BNE | .BLT | .BGE | .BLTU | .BGEU | .BGT | .BLE | .BGTU | .BLEU | .JAL => true
  | _ => false

def getBranchTarget : MInstruction → Option Nat
  | .target ri =>
    if !ri.use_label then none
    else if !isBranchOp ri.op then none
    else if ri.label.jmp_label < 0 then none
    else some ri.label.jmp_label.toNat
  | _ => none

/-- The set of branch targets of a block, without repetition. -/
def getSuccessors (block : Block) : List Nat :=
  (block.insts.filterMap getBranchTarget).dedup

/-- The test of `findBranchTo`: the instruction is a branch to `target`. -/
def branchesTo (inst : MInstruction) (target : Nat) : Bool :=
  match getBranchTarget inst with
  | some t => decide (t = target)
  | none => false

/-- The assignment `pending[dst] = src` on the map kept in register order. -/
def pendingInsert (dst : Register) (src : Operand) :
    List (Register × Operand) → List (Register × Operand)
  | [] => [(dst, src)]
  | (k, v) :: rest =>
    if dst = k then (k, src) :: rest
    else if Register.lt dst k then (dst, src) :: (k, v) :: rest
    else (k, v) :: pendingInsert dst src rest

/-- The first loop of `buildParallelMoves`: null sources and self copies are dropped. -/
def collectPending :
    List (Register × Option Operand) → List (Register × Operand) → List (Register × Operand)
  | [], pending => pending
  | (_, none) :: rest, pending => collectPending rest pending
  | (dst, some src) :: rest, pending =>
    if src = Operand.reg dst then collectPending rest pending
    else collectPending rest (pendingInsert dst src pending)

/-- The test `srcReg && dests.count(srcReg->reg)`. -/
def srcInDests (src : Operand) (dests : List Register) : Bool :=
  match src with
  | .reg r => decide (r ∈ dests)
  | _ => false

/-- The outcome of one pass of the inner `for` loop over `pending`. -/
structure SweepResult where
  pending : List (Register × Operand)
  dests : List Register
  moves : List MInstruction
  progress : Bool

/-- One pass of the inner `for` loop: every copy whose source is not a pending destination
is emitted and erased, and `dests` is updated as the pass goes. -/
def sweep : List (Register × Operand) → List Register → SweepResult
  | [], dests => { pending := [], dests := dests, moves := [], progress := false }
  | (dst, src) :: rest, dests =>
    if srcInDests src dests then
      let r := sweep rest dests
      { r with pending := (dst, src) :: r.pending }
    else
      let r := sweep rest (dests.filter (fun d => !decide (d = dst)))
      { r with moves := createMove dst src :: r.moves, progress := true }

/-- The `while (!pending.empty())` loop of `buildParallelMoves`, with a bound on the number
of iterations; `none` when the bound is reached. -/
def buildLoop : Nat → List (Register × Operand) → List Register → List MInstruction → Nat →
    Option (List MInstruction × Nat)
  | _, [], _, moves, next => some (moves, next)
  | 0, _ :: _, _, _, _ => none
  | fuel + 1, p :: ps, dests, moves, next =>
    let r := sweep (p :: ps) dests
    if r.progress then buildLoop fuel r.pending r.dests (moves ++ r.moves) next
    else
      match r.pending with
      | [] => some (moves ++ r.moves, next)
      | (dst, src) :: rest =>
        match src with
        | .reg _ =>
          let t := getVReg dst.dt next
          buildLoop fuel ((dst, Operand.reg t.1) :: rest) r.dests
            (moves ++ r.moves ++ [createMove t.1 src]) t.2
        | _ =>
          buildLoop fuel rest (r.dests.filter (fun d => !decide (d = dst)))
            (moves ++ r.moves ++ [createMove dst src]) next

/-- A number above the id of every register of the list. -/
def idBound (l : List Register) : Nat :=
  l.foldr (fun d m => max (d.rId + 1) m) 0

/-- The function `buildParallelMoves`: the moves and the next unused virtual register id.
The bound on the iterations is never reached: a pass without progress hands out a
temporary, the next pass emits the first copy unless that temporary is itself a pending
destination, and that can happen only while the counter is below `idBound`. -/
def buildParallelMoves (copies : List (Register × Option Operand)) (next : Nat) :
    Option (List MInstruction × Nat) :=
  let pending := collectPending copies []
  buildLoop (pending.length * (idBound (pending.map Prod.fst) - next + 2) + 1) pending
    (pending.map Prod.fst) [] next

/-- The key of `edgeCopies`, ordered by predecessor and then successor. -/
abbrev EdgeKey := Nat × Nat

def EdgeKey.lt (a b : EdgeKey) : Bool :=
  if a.1 ≠ b.1 then decide (a.1 < b.1) else decide (a.2 < b.2)

/-- The statement `edgeCopies[key].push_back(c)`. -/
def edgePush (key : EdgeKey) (c : Register × Option Operand) :
    List (EdgeKey × List (Register × Option Operand)) →
    List (EdgeKey × List (Register × Option Operand))
  | [] => [(key, [c])]
  | (k, v) :: rest =>
    if key = k then (k, v ++ [c]) :: rest
    else if EdgeKey.lt key k then (key, [c]) :: (k, v) :: rest
    else (k, v) :: edgePush key c rest

/-- The copies that one phi of block `bid` records, one per incoming value. -/
def collectPhi (blocks : BlockMap) (bid : Nat) (resReg : Register) :
    List (Nat × Option Operand) → List (EdgeKey × List (Register × Option Operand)) →
    List (EdgeKey × List (Register × Option Operand))
  | [], acc => acc
  | (predId, srcOp) :: rest, acc =>
    match srcOp with
    | none => collectPhi blocks bid resReg rest acc
    | some _ =>
      if (blocks.lookup predId).isNone then collectPhi blocks bid resReg rest acc
      else collectPhi blocks bid resReg rest (edgePush (predId, bid) (resReg, srcOp) acc)

/-- The copies recorded by the instructions of one block. -/
def collectBlock (blocks : BlockMap) (bid : Nat) :
    List MInstruction → List (EdgeKey × List (Register × Option Operand)) →
    List (EdgeKey × List (Register × Option Operand))
  | [], acc => acc
  | .phi resReg vals :: rest, acc =>
    collectBlock blocks bid rest (collectPhi blocks bid resReg vals acc)
  | _ :: rest, acc => collectBlock blocks bid rest acc

/-- The first loop of `runOnFunction`: all copies, grouped by edge. -/
def collectEdgeCopies (blocks : BlockMap) :
    BlockMap → List (EdgeKey × List (Register × Option Operand)) →
    List (EdgeKey × List (Register × Option Operand))
  | [], acc => acc
  | (bid, block) :: rest, acc =>
    collectEdgeCopies blocks rest (collectBlock blocks bid block.insts acc)

/-- Insertion of `moves` before the first branch to `target`, or at the end of the block. -/
def insertBeforeBranch : List MInstruction → Nat → List MInstruction → List MInstruction
  | [], _, moves => moves
  | i :: rest, target, moves =>
    if branchesTo i target then moves ++ i :: rest
    else i :: insertBeforeBranch rest target moves

/-- The two assignments `br->label.jmp_label = newId; br->label.lnum = newId`. -/
def setBranchTarget (inst : MInstruction) (newId : Nat) : MInstruction :=
  match inst with
  | .target ri => .target { ri with label := { ri.label with jmp_label := newId, lnum := newId } }
  | other => other

/-- Redirection of the first branch to `target`; `none` when the block has no such branch. -/
def retargetFirst : List MInstruction → Nat → Nat → Option (List MInstruction)
  | [], _, _ => none
  | i :: rest, target, newId =>
    if branchesTo i target then some (setBranchTarget i newId :: rest)
    else (retargetFirst rest target newId).map (fun l => i :: l)

/-- The state carried by the loop over the edges. -/
structure PhiState where
  blocks : BlockMap
  nextId : Nat
  nextVReg : Nat

/-- The body of the loop over `edgeCopies`. -/
def processEdge (succs : List (Nat × List Nat)) (st : PhiState) (edge : EdgeKey)
    (copies : List (Register × Option Operand)) : Option PhiState :=
  match st.blocks.lookup edge.1, st.blocks.lookup edge.2 with
  | some pred, some _ =>
    match buildParallelMoves copies st.nextVReg with
    | none => none
    | some (moves, nv) =>
      if moves.isEmpty then some { st with nextVReg := nv }
      else if !decide (((succs.lookup edge.1).getD []).length > 1) then
        some { st with
          blocks := blocksInsert edge.1
            { pred with insts := insertBeforeBranch pred.insts edge.2 moves } st.blocks
          nextVReg := nv }
      else
        match retargetFirst pred.insts edge.2 st.nextId with
        | none => some { st with nextVReg := nv }
        | some insts =>
          some {
            blocks := blocksInsert st.nextId
              { blockId := st.nextId,
                insts := moves ++
                  [.target (createJInst .JAL PR.x0 (Label.ofJmp (Int.ofNat edge.2)))] }
              (blocksInsert edge.1 { pred with insts := insts } st.blocks)
            nextId := st.nextId + 1
            nextVReg := nv }
  | _, _ => some st

/-- The loop over `edgeCopies`. -/
def processEdges (succs : List (Nat × List Nat)) :
    List (EdgeKey × List (Register × Option Operand)) → PhiState → Option PhiState
  | [], st => some st
  | (edge, copies) :: rest, st =>
    match processEdge succs st edge copies with
    | none => none
    | some st1 => processEdges succs rest st1

/-- The last loop of `runOnFunction`: every phi is erased from every block. -/
def erasePhis (blocks : BlockMap) : BlockMap :=
  blocks.map (fun kb => (kb.1, { kb.2 with insts := kb.2.insts.filter (fun i => !i.isPhi) }))

/-- The pass `PhiEliminationPass::runOnFunction`; the second component is the next unused
virtual register id, `none` means that `buildParallelMoves` did not finish. -/
def runOnFunction (func : Function) (nextVReg : Nat) : Option (Function × Nat) :=
  if func.blocks.isEmpty then some (func, nextVReg)
  else
    let edgeCopies := collectEdgeCopies func.blocks func.blocks []
    let succs := func.blocks.map (fun kb => (kb.1, getSuccessors kb.2))
    let maxId := func.blocks.foldl (fun m kb => if kb.1 > m then kb.1 else m) 0
    match processEdges succs edgeCopies
        { blocks := func.blocks, nextId := maxId + 1, nextVReg := nextVReg } with
    | none => none
    | some st => some ({ func with blocks := erasePhis st.blocks }, st.nextVReg)

/-- Register contents while a move list runs. -/
abbrev RegState := Register → Int

/-- The value an operand denotes in a register state (immediates denote themselves). -/
def evalOperand (σ : RegState) : Operand → Int
  | .reg r => σ r
  | .immI32 v => v
  | .immF32 b => Int.ofNat b
  | .frameIndex fi => fi

/-- The effect of one pseudo move `dest ← src`. -/
def execMove (σ : RegState) : MInstruction → RegState
  | .move (some (.reg d)) (some src) => Function.update σ d (evalOperand σ src)
  | _ => σ

/-- The effect of a move list executed in order. -/
def execMoves (σ : RegState) (moves : List MInstruction) : RegState :=
  moves.foldl execMove σ

/-- A virtual register of type I32. -/
def vreg (n : Nat) : Register := { rId := n, dt := some .I32, isVreg := true }

/-- The chain `{v1 ← v2, v2 ← v3}`. -/
def chainCopies : List (Register × Option Operand) :=
  [(vreg 1, some (.reg (vreg 2))), (vreg 2, some (.reg (vreg 3)))]

/-- The cycle `{v1 ← v2, v2 ← v1}`. -/
def cycleCopies : List (Register × Option Operand) :=
  [(vreg 1, some (.reg (vreg 2))), (vreg 2, some (.reg (vreg 1)))]

/-- The register state in which every register holds its own id. -/
def idState : RegState := fun r => Int.ofNat r.rId

/-- No instruction of any block is a phi. -/
def noPhi (func : Function) : Prop :=
  ∀ kb ∈ func.blocks, ∀ i ∈ kb.2.insts, i.isPhi = false

/-- A diamond whose join block 2 has a phi fed over the critical edge 0 → 2, over the edge
1 → 2, and from the id 7, which is not a block. -/
def diamond : Function :=
  { blocks :=
      [(0, { blockId := 0,
             insts := [.target (createBInst .BNE (vreg 4) PR.x0 (Label.ofJmp 1)),
                       .target (createJInst .JAL PR.x0 (Label.ofJmp 2))] }),
       (1, { blockId := 1, insts := [.target (createJInst .JAL PR.x0 (Label.ofJmp 2))] }),
       (2, { blockId := 2,
             insts := [.phi (vreg 5) [(0, some (.reg (vreg 4))), (1, some (.immI32 3)),
                                      (7, some (.reg (vreg 6)))],
                       .target (createIInst .JALR PR.x0 PR.ra 0)] })],
    stackSize := 0 }

/-! ## Target adapter (`rv64_instr_adapter.cpp`) -/

/-- The first `min(cnt, 8)` argument registers, starting at physical id `base`. -/
def argRegs (base : Nat) (cnt : Int) : List Register :=
  (List.range (if cnt < 8 then cnt else 8).toNat).map (fun i => getPR (base + i))

/-- The register of an operand that is a `RegOperand`. -/
def regOfOperand : Option Operand → List Register
  | some (.reg r) => [r]
  | _ => []

def enumUses : MInstruction → List Register
  | .target ri =>
    if ri.op = .CALL then argRegs 10 ri.call_ireg_cnt ++ argRegs 42 ri.call_freg_cnt
    else
      match ri.op.opType with
      | .R => [ri.rs1, ri.rs2]
      | .I => [ri.rs1]
      | .S => [ri.rs1, ri.rs2]
      | .B => [ri.rs1, ri.rs2]
      | .R2 => [ri.rs1]
      | .R4 => [ri.rs1, ri.rs2]
      | .U => []
      | .J => []
      | .CALL => []
  | .move _ src => regOfOperand src
  | .phi _ vals => vals.flatMap (fun v => regOfOperand v.2)
  | .fiStore src _ => [src]
  | .fiLoad _ _ => []

def enumDefs : MInstruction → List Register
  | .target ri =>
    if ri.op = .CALL then []
    else
      match ri.op.opType with
      | .R => [ri.rd]
      | .I => [ri.rd]
      | .U => [ri.rd]
      | .J => [ri.rd]
      | .R2 => [ri.rd]
      | .R4 => [ri.rd]
      | .S => []
      | .B => []
      | .CALL => []
  | .move dest _ => regOfOperand dest
  | .phi resReg _ => [resReg]
  | .fiLoad dest _ => [dest]
  | .fiStore _ _ => []

/-- The lambda `addPhys`: physical registers only. -/
def addPhys (reg : Register) : List Register :=
  if !reg.isVreg then [reg] else []

def enumPhysRegs : MInstruction → List Register
  | .target ri =>
    if ri.op = .CALL then argRegs 10 ri.call_ireg_cnt ++ argRegs 42 ri.call_freg_cnt
    else
      match ri.op.opType with
      | .R => addPhys ri.rd ++ addPhys ri.rs1 ++ addPhys ri.rs2
      | .I => addPhys ri.rd ++ addPhys ri.rs1
      | .S => addPhys ri.rs1 ++ addPhys ri.rs2
      | .B => addPhys ri.rs1 ++ addPhys ri.rs2
      | .R2 => addPhys ri.rd ++ addPhys ri.rs1
      | .R4 => addPhys ri.rd ++ addPhys ri.rs1 ++ addPhys ri.rs2
      | .U => []
      | .J => []
      | .CALL => []
  | .move dest src => (regOfOperand src).flatMap addPhys ++ (regOfOperand dest).flatMap addPhys
  | .phi resReg vals => addPhys resReg ++ (vals.flatMap (fun v => regOfOperand v.2)).flatMap addPhys
  | .fiStore src _ => addPhys src
  | .fiLoad dest _ => addPhys dest

def replaceReg (slot fromReg toReg : Register) : Register :=
  if slot = fromReg then toReg else slot

/-- The method `replaceUse(inst, from, to)`: only target instructions are rewritten. -/
def replaceUse (inst : MInstruction) (fromReg toReg : Register) : MInstruction :=
  match inst with
  | .target ri =>
    .target { ri with rs1 := replaceReg ri.rs1 fromReg toReg, rs2 := replaceReg ri.rs2 fromReg toReg }
  | other => other

/-- The method `replaceDef(inst, from, to)`: only target instructions are rewritten. -/
def replaceDef (inst : MInstruction) (fromReg toReg : Register) : MInstruction :=
  match inst with
  | .target ri => .target { ri with rd := replaceReg ri.rd fromReg toReg }
  | other => other

/-! ## Register info (`rv64_reg_info.h`) -/

def calleeSavedIntRegs : List Nat := [8, 9, 18, 19, 20, 21, 22, 23, 24, 25, 26, 27]

def calleeSavedFloatRegs : List Nat := [40, 41, 50, 51, 52, 53, 54, 55, 56, 57, 58, 59]

def intArgRegs : List Nat := [10, 11, 12, 13, 14, 15, 16, 17]

def floatArgRegs : List Nat := [42, 43, 44, 45, 46, 47, 48, 49]

def reservedRegs : List Nat :=
  [0, 1, 2, 3, 4, 5, 10, 11, 12, 13, 14, 15, 16, 17, 42, 43, 44, 45, 46, 47, 48, 49]

def intRegs : List Nat := List.range 32

def floatRegs : List Nat := (List.range 32).map (fun i => 32 + i)

/-! ## Stack lowering (`passes/lowering/stack_lowering.cpp`) -/

/-- Modelled from the spec: the frame layout fixed by `calculateOffsets()` (section 3.5): the
size it returns and the three offset queries, which answer a negative number for an index
they do not know; the class is declared in `backend/mir/m_frame_info.h`, which is not among
the sources. -/
structure FrameLayout where
  frameSize : Int
  objectOffset : Int → Int
  spillSlotOffset : Int → Int
  incomingArgOffset : Int → Int

def imm12 (v : Int) : Bool := decide (-2048 ≤ v) && decide (v ≤ 2047)

def selectLoadOp : Option DataType → Operator
  | some .F32 => .FLW
  | some .F64 => .FLD
  | some .I64 => .LD
  | some .PTR => .LD
  | _ => .LW

def selectStoreOp : Option DataType → Operator
  | some .F32 => .FSW
  | some .F64 => .FSD
  | some .I64 => .SD
  | some .PTR => .SD
  | _ => .SW

def isReturnInst (inst : Instr) : Bool :=
  decide (inst.op = .RET) ||
    (decide (inst.op = .JALR) && decide (inst.rd = PR.x0) && decide (inst.rs1 = PR.ra) &&
      decide (inst.imme = 0))

/-- The instructions that `insertSpAdjust` puts in front of the iterator. -/
def insertSpAdjust (delta : Int) : List MInstruction :=
  if delta = 0 then []
  else if imm12 delta then [.target (createIInst .ADDI PR.sp PR.sp delta)]
  else [.target (createUInst .LI PR.t0 delta), .target (createRInst .ADD PR.sp PR.sp PR.t0)]

/-- The instructions that stand in the place of `*it` after `replaceWithLargeOffsetLoad`. -/
def replaceWithLargeOffsetLoad (op : Operator) (dest base : Register) (offset : Int) :
    List MInstruction :=
  if imm12 offset then [.target (createIInst op dest base offset)]
  else [.target (createUInst .LI PR.t0 offset), .target (createRInst .ADD PR.t0 base PR.t0),
        .target (createIInst op dest PR.t0 0)]

/-- The instructions that stand in the place of `*it` after `replaceWithLargeOffsetStore`. -/
def replaceWithLargeOffsetStore (op : Operator) (src base : Register) (offset : Int) :
    List MInstruction :=
  if imm12 offset then [.target (createSInst op src base offset)]
  else [.target (createUInst .LI PR.t0 offset), .target (createRInst .ADD PR.t0 base PR.t0),
        .target (createSInst op src PR.t0 0)]

/-- The lambda `markReg` on the 64 flags of `usedRegs`. -/
def markReg (used : Nat → Bool) (reg : Register) : Nat → Bool :=
  if !reg.isVreg && decide (reg.rId < 64) then Function.update used reg.rId true else used

/-- The registers that the scan of `lowerFunction` marks for one instruction, in order. -/
def markedRegs : MInstruction → List Register
  | .target ri => [ri.rd, ri.rs1, ri.rs2]
  | .move dest src => regOfOperand src ++ regOfOperand dest
  | .phi resReg vals => resReg :: vals.flatMap (fun v => regOfOperand v.2)
  | .fiLoad dest _ => [dest]
  | .fiStore src _ => [src]

/-- All instructions of the function, in block order. -/
def allInsts (func : Function) : List MInstruction :=
  func.blocks.flatMap (fun kb => kb.2.insts)

/-- The flags `usedRegs` after the scan. -/
def usedRegs (func : Function) : Nat → Bool :=
  ((allInsts func).flatMap markedRegs).foldl markReg (fun _ => false)

/-- The test `ri->op == Operator::CALL` of the scan. -/
def isCallInstr : MInstruction → Bool
  | .target ri => decide (ri.op = .CALL)
  | _ => false

/-- The flag `hasCall` after the scan. -/
def hasCall (func : Function) : Bool :=
  (allInsts func).any isCallInstr

/-- The vector `savedRegs`. -/
def savedRegs (func : Function) : List Register :=
  ((calleeSavedIntRegs.filter (fun r => decide (r < 64) && usedRegs func r)).map getPR) ++
  ((calleeSavedFloatRegs.filter (fun r => decide (r < 64) && usedRegs func r)).map getPR) ++
  (if hasCall func then [PR.ra] else [])

/-- The value assigned to `func->stackSize`. -/
def computeStackSize (func : Function) (layout : FrameLayout) : Int :=
  layout.frameSize + Int.ofNat (savedRegs func).length * 8

/-- The offset that the resolution loop computes for a frame-index operand. -/
def resolveOffset (layout : FrameLayout) (stackSize : Int) (frameIndex : Int) : Int :=
  if frameIndex < 0 then
    let offset := layout.incomingArgOffset frameIndex
    if offset ≥ 0 then offset + stackSize else offset
  else
    let offset := layout.objectOffset frameIndex
    if offset < 0 then layout.spillSlotOffset frameIndex else offset

/-- The body of the resolution loop for a target instruction with a frame-index operand. -/
def lowerFrameIndexInstr (ri : Instr) (offset : Int) : List MInstruction :=
  if offset < 0 then [.target ri]
  else if imm12 offset then [.target { ri with imme := offset, use_ops := false, fiop := none }]
  else if ri.op = .ADDI || ri.op = .ADDIW then
    [.target (createUInst .LI PR.t0 offset),
     .target (createRInst (if ri.op = .ADDIW then .ADDW else .ADD) ri.rd ri.rs1 PR.t0)]
  else if ri.op = .LW || ri.op = .LD || ri.op = .FLW || ri.op = .FLD then
    replaceWithLargeOffsetLoad ri.op ri.rd ri.rs1 offset
  else if ri.op = .SW || ri.op = .SD || ri.op = .FSW || ri.op = .FSD then
    replaceWithLargeOffsetStore ri.op ri.rs1 ri.rs2 offset
  else [.target { ri with imme := offset, use_ops := false, fiop := none }]

/-- The body of the resolution loop: what one instruction of the block becomes. The
instructions put in front of the iterator are not visited again. -/
def lowerInst (layout : FrameLayout) (stackSize : Int) : MInstruction → List MInstruction
  | .fiLoad dest frameIndex =>
    replaceWithLargeOffsetLoad (selectLoadOp dest.dt) dest PR.sp (layout.spillSlotOffset frameIndex)
  | .fiStore src frameIndex =>
    replaceWithLargeOffsetStore (selectStoreOp src.dt) src PR.sp
      (layout.spillSlotOffset frameIndex)
  | .target ri =>
    if !ri.use_ops then [.target ri]
    else
      match ri.fiop with
      | some (.frameIndex fi) => lowerFrameIndexInstr ri (resolveOffset layout stackSize fi)
      | _ => [.target ri]
  | other => [other]

/-- The test `reg.dt && reg.dt->dt == FLOAT`. -/
def Register.isFloat (r : Register) : Bool :=
  match r.dt with
  | some d => d.isFloatClass
  | none => false

/-- The stores of the prologue for the saved registers from index `i` on. -/
def saveRegs (frameSize : Int) : Nat → List Register → List MInstruction
  | _, [] => []
  | i, reg :: rest =>
    let off := frameSize + Int.ofNat (i * 8)
    let sop := if reg.isFloat then Operator.FSD else Operator.SD
    (if imm12 off then [.target (createSInst sop reg PR.sp off)]
     else [.target (createUInst .LI PR.t0 off), .target (createRInst .ADD PR.t0 PR.sp PR.t0),
           .target (createSInst sop reg PR.t0 0)]) ++ saveRegs frameSize (i + 1) rest

/-- The loads of an epilogue for the saved registers from index `i` on. -/
def restoreRegs (frameSize : Int) : Nat → List Register → List MInstruction
  | _, [] => []
  | i, reg :: rest =>
    let off := frameSize + Int.ofNat (i * 8)
    let lop := if reg.isFloat then Operator.FLD else Operator.LD
    (if imm12 off then [.target (createIInst lop reg PR.sp off)]
     else [.target (createUInst .LI PR.t0 off), .target (createRInst .ADD PR.t0 PR.sp PR.t0),
           .target (createIInst lop reg PR.t0 0)]) ++ restoreRegs frameSize (i + 1) rest

/-- The instructions inserted at the start of the entry block. -/
def prologue (frameSize stackSize : Int) (saved : List Register) : List MInstruction :=
  (if stackSize > 0 then insertSpAdjust (-stackSize) else []) ++ saveRegs frameSize 0 saved

/-- The body of the epilogue loop: a return gets the restores and the adjustment of `sp` in
front of it. -/
def epilogueInst (frameSize stackSize : Int) (saved : List Register) :
    MInstruction → List MInstruction
  | .target ri =>
    if isReturnInst ri then
      restoreRegs frameSize 0 saved ++ (if stackSize > 0 then insertSpAdjust stackSize else []) ++
        [.target ri]
    else [.target ri]
  | other => [other]

/-- The same function on every block of the map. -/
def mapInsts (f : List MInstruction → List MInstruction) (blocks : BlockMap) : BlockMap :=
  blocks.map (fun kb => (kb.1, { kb.2 with insts := f kb.2.insts }))

/-- The prologue goes in front of the first block of the map. -/
def addPrologue (pro : List MInstruction) : BlockMap → BlockMap
  | [] => []
  | (id, entry) :: rest => (id, { entry with insts := pro ++ entry.insts }) :: rest

/-- The pass `StackLoweringPass::lowerFunction` for the frame layout that
`calculateOffsets()` has fixed. -/
def lowerFunction (func : Function) (layout : FrameLayout) : Function :=
  let saved := savedRegs func
  let stackSize := computeStackSize func layout
  let blocks1 := mapInsts (fun l => l.flatMap (lowerInst layout stackSize)) func.blocks
  if !saved.isEmpty || decide (stackSize > 0) then
    { blocks := mapInsts (fun l => l.flatMap (epilogueInst layout.frameSize stackSize saved))
        (addPrologue (prologue layout.frameSize stackSize saved) blocks1),
      stackSize := stackSize }
  else { blocks := blocks1, stackSize := stackSize }

/-- The instruction is one of the two frame pseudos `FILoadInst`, `FIStoreInst`. -/
def isFIPseudo : MInstruction → Bool
  | .fiLoad _ _ => true
  | .fiStore _ _ => true
  | _ => false

/-- The instruction is a target instruction that carries a frame-index operand: `use_ops`
is set and `fiop` is a `FrameIndexOperand`. -/
def carriesFrameIndex : MInstruction → Bool
  | .target ri =>
    ri.use_ops &&
      (match ri.fiop with
       | some (.frameIndex _) => true
       | _ => false)
  | _ => false

/-- The frame index named by a target instruction resolves: a negative index is a recorded
incoming argument, any other index a recorded local object or spill slot. -/
def frameIndexRecorded (layout : FrameLayout) : MInstruction → Bool
  | .target ri =>
    !ri.use_ops ||
      (match ri.fiop with
       | some (.frameIndex fi) =>
         if fi < 0 then decide (0 ≤ layout.incomingArgOffset fi)
         else decide (0 ≤ layout.objectOffset fi) || decide (0 ≤ layout.spillSlotOffset fi)
       | _ => true)
  | _ => true

/-- The value registers of the store instructions of a list, in order. -/
def storeValueRegs (l : List MInstruction) : List Register :=
  l.filterMap (fun i =>
    match i with
    | .target ri => if ri.op.opType = .S then some ri.rs1 else none
    | _ => none)

/-- A frame layout of 16 bytes that knows no index. -/
def layout16 : FrameLayout :=
  { frameSize := 16, objectOffset := fun _ => -1, spillSlotOffset := fun _ => -1,
    incomingArgOffset := fun _ => -1 }

/-- A leaf function that writes the callee-saved register s1. -/
def writesS1 : Function :=
  { blocks := [(0, { blockId := 0,
                     insts := [.target (createIInst .ADDI PR.s1 PR.a0 0),
                               .target (createIInst .JALR PR.x0 PR.ra 0)] })],
    stackSize := 0 }

/-- A leaf function that reads the callee-saved register s1 and never writes it. -/
def readsS1 : Function :=
  { blocks := [(0, { blockId := 0,
                     insts := [.target (createRInst .ADD PR.a0 PR.s1 PR.a1),
                               .target (createIInst .JALR PR.x0 PR.ra 0)] })],
    stackSize := 0 }

/-- A target instruction without operand array: `use_ops` is false. -/
def plainTarget : MInstruction → Bool
  | .target ri => !ri.use_ops
  | _ => false

/-- The instruction is a return in the sense of `isReturnInst`. -/
def isReturn : MInstruction → Bool
  | .target ri => isReturnInst ri
  | _ => false

/-- The effect on `sp` of the three instruction shapes that `insertSpAdjust` emits and of
nothing else: `ADDI sp, sp, imm`, `LI t0, imm` and `ADD sp, sp, t0`. The state is the pair
of the values of `sp` and `t0`. -/
def stepSp (st : Int × Int) : MInstruction → Int × Int
  | .target ri =>
    if ri.op = .ADDI ∧ ri.rd = PR.sp ∧ ri.rs1 = PR.sp then (st.1 + ri.imme, st.2)
    else if ri.op = .LI ∧ ri.rd = PR.t0 then (st.1, ri.imme)
    else if ri.op = .ADD ∧ ri.rd = PR.sp ∧ ri.rs1 = PR.sp ∧ ri.rs2 = PR.t0 then
      (st.1 + st.2, st.2)
    else st
  | _ => st

/-- The value of `sp` after a list of instructions. -/
def runSp (st : Int × Int) (l : List MInstruction) : Int × Int :=
  l.foldl stepSp st

/-- The instructions of `frameUser`. -/
def frameUserInsts : List MInstruction :=
  [.target (createIInstOp .ADDI (getPR 18) PR.sp (.frameIndex 3)),
   .target (createIInstOp .LD PR.a0 PR.sp (.frameIndex (-1))),
   .target (createIInstOp .LW PR.a1 PR.sp (.frameIndex 0)),
   .fiStore (getPR 18) 0,
   .target (createCallInst .CALL "g" 1 0),
   .fiLoad (getPR 18) 0,
   .target (createIInst .JALR PR.x0 PR.ra 0)]

/-- A function with a local object 3 at offset 0, a spill slot 0 at offset 4096 and an
incoming stack argument -1 at offset 0. -/
def frameUser : Function :=
  { blocks := [(0, { blockId := 0, insts := frameUserInsts })], stackSize := 0 }

/-- The frame layout of `frameUser`. -/
def frameUserLayout : FrameLayout :=
  { frameSize := 4112,
    objectOffset := fun fi => if fi = 3 then 0 else -1,
    spillSlotOffset := fun fi => if fi = 0 then 4096 else -1,
    incomingArgOffset := fun fi => if fi = -1 then 0 else -1 }

/-! ## Linear scan register allocation (`backend/ra/linear_scan.cpp`) -/

/-- The struct `Segment`: the positions `start ≤ p < endPos`. -/
structure Segment where
  start : Int
  endPos : Int
deriving DecidableEq, Repr

/-- The struct `Interval`. A pointer to an interval of the map `intervals` is the interval
itself; two such pointers are equal when the registers are. -/
structure Interval where
  vreg : Register
  segs : List Segment
  crossesCall : Bool
deriving DecidableEq, Repr

/-- The lambda `intervalStart`: `segs.front().start`. -/
def intervalStart (itv : Interval) : Int :=
  match itv.segs.head? with
  | some s => s.start
  | none => 0

/-- The lambda `intervalEnd`: `segs.back().end`. -/
def intervalEnd (itv : Interval) : Int :=
  match itv.segs.getLast? with
  | some s => s.endPos
  | none => 0

/-- The comparison `IntervalOrder`. -/
def intervalOrder (a b : Interval) : Bool :=
  let sa := a.segs.head?.getD { start := 0, endPos := 0 }
  let sb := b.segs.head?.getD { start := 0, endPos := 0 }
  if sa.start ≠ sb.start then decide (sa.start < sb.start)
  else if sa.endPos ≠ sb.endPos then decide (sa.endPos < sb.endPos)
  else Register.lt a.vreg b.vreg

/-- Insertion into a list sorted by `IntervalOrder`. -/
def orderedInsert (x : Interval) : List Interval → List Interval
  | [] => [x]
  | y :: ys => if intervalOrder x y then x :: y :: ys else y :: orderedInsert x ys

/-- The call `std::sort(work.begin(), work.end(), IntervalOrder())`. -/
def sortIntervals (work : List Interval) : List Interval :=
  work.foldr orderedInsert []

/-- The functions `buildAllocatableInt` and `buildAllocatableFloat`. -/
def buildAllocatable (all reserved : List Nat) : List Nat :=
  if reserved.isEmpty then all else all.filter (fun r => !decide (r ∈ reserved))

/-- The lambda `buildOrder`. -/
def buildOrder (all callee : List Nat) (preferCallee : Bool) : List Nat :=
  if callee.isEmpty then all
  else if preferCallee then
    all.filter (fun r => decide (r ∈ callee)) ++ all.filter (fun r => !decide (r ∈ callee))
  else
    all.filter (fun r => !decide (r ∈ callee)) ++ all.filter (fun r => decide (r ∈ callee))

/-- The assignment `m[k] = v` on a map keyed by registers. -/
def regMapInsert {α : Type} (k : Register) (v : α) : List (Register × α) → List (Register × α)
  | [] => [(k, v)]
  | (k1, v1) :: rest =>
    if k = k1 then (k1, v) :: rest
    else if Register.lt k k1 then (k, v) :: (k1, v1) :: rest
    else (k1, v1) :: regMapInsert k v rest

/-- The call `m.erase(k)` on a map keyed by registers. -/
def regMapErase {α : Type} (k : Register) (m : List (Register × α)) : List (Register × α) :=
  m.filter (fun kv => !decide (kv.1 = k))

/-- Modelled from the spec: the width in bytes of a data type, `getDataWidth()` (section
3.1: I64 and PTR are 64-bit); it is declared in `backend/mir/m_defs.h`, which is not among
the sources. -/
def dataWidth : DataType → Int
  | .I32 => 4
  | .F32 => 4
  | .I64 => 8
  | .F64 => 8
  | .PTR => 8

/-- The map `spillFrameIndex` together with the spill slot area of the function's FrameInfo.
Modelled from the spec: spill slots are created on demand (section 3.5), a new slot gets the
next index; `createSpillSlot` is declared in `backend/mir/m_frame_info.h`, which is not among
the sources. -/
structure SpillState where
  spillFrameIndex : List (Register × Int)
  spillSlots : List (Int × Int)
deriving DecidableEq, Repr

/-- The lambda `ensureSpillSlot`. -/
def ensureSpillSlot (sp : SpillState) (r : Register) : SpillState × Int :=
  match sp.spillFrameIndex.lookup r with
  | some fi => (sp, fi)
  | none =>
    let size := match r.dt with
      | some d => dataWidth d
      | none => 8
    let fi := Int.ofNat sp.spillSlots.length
    ({ spillFrameIndex := regMapInsert r fi sp.spillFrameIndex,
       spillSlots := sp.spillSlots ++ [(size, size)] }, fi)

/-- The variables that the allocation loop updates. -/
structure AllocState where
  assignedPhys : List (Register × Nat)
  spill : SpillState
  active : List Interval
deriving DecidableEq, Repr

/-- The lambda `expireOld`. -/
def expireOld (active : List Interval) (startPos : Int) : List Interval :=
  active.filter (fun itv => !decide (intervalEnd itv ≤ startPos))

/-- The test of the inner loop: some active interval holds register `r`. -/
def regInUse (assignedPhys : List (Register × Nat)) (active : List Interval) (r : Nat) : Bool :=
  active.any (fun itv => assignedPhys.lookup itv.vreg == some r)

/-- The search for a spill victim: `none` stands for `spill == current`. -/
def pickVictim (assignedPhys : List (Register × Nat)) (calleeSaved : List Nat)
    (current : Interval) :
    List Interval → Option Interval × Int → Option Interval × Int
  | [], acc => acc
  | itv :: rest, acc =>
    match assignedPhys.lookup itv.vreg with
    | none => pickVictim assignedPhys calleeSaved current rest acc
    | some p =>
      if current.crossesCall && !decide (p ∈ calleeSaved) then
        pickVictim assignedPhys calleeSaved current rest acc
      else if intervalEnd itv > acc.2 then
        pickVictim assignedPhys calleeSaved current rest (some itv, intervalEnd itv)
      else pickVictim assignedPhys calleeSaved current rest acc

/-- The body of the loop `for (Interval* current : work)`. -/
def allocateStep (calleeOnly orderCallerFirst calleeSaved : List Nat) (st : AllocState)
    (current : Interval) : AllocState :=
  let active := expireOld st.active (intervalStart current)
  let order := if current.crossesCall then calleeOnly else orderCallerFirst
  match order.find? (fun r => !regInUse st.assignedPhys active r) with
  | some chosen =>
    { st with assignedPhys := regMapInsert current.vreg chosen st.assignedPhys,
              active := active ++ [current] }
  | none =>
    match (pickVictim st.assignedPhys calleeSaved current active
        (none, intervalEnd current)).1 with
    | some victim =>
      let phys := (st.assignedPhys.lookup victim.vreg).getD 0
      { assignedPhys :=
          regMapInsert current.vreg phys (regMapErase victim.vreg st.assignedPhys),
        spill := (ensureSpillSlot st.spill victim.vreg).1,
        active := active.filter (fun itv => !decide (itv.vreg = victim.vreg)) ++ [current] }
    | none =>
      { st with spill := (ensureSpillSlot st.spill current.vreg).1, active := active }

/-- The lambda `allocateForClass`; `active` starts empty. -/
def allocateForClass (work : List Interval) (allRegs calleeSaved : List Nat)
    (assignedPhys : List (Register × Nat)) (spill : SpillState) : AllocState :=
  if work.isEmpty then { assignedPhys := assignedPhys, spill := spill, active := [] }
  else
    (sortIntervals work).foldl
      (allocateStep (allRegs.filter (fun r => decide (r ∈ calleeSaved)))
        (buildOrder allRegs calleeSaved false) calleeSaved)
      { assignedPhys := assignedPhys, spill := spill, active := [] }

/-- The selection of `floatIntervals`. -/
def isFloatInterval (itv : Interval) : Bool :=
  !itv.segs.isEmpty && itv.vreg.isVreg &&
    (match itv.vreg.dt with
     | some d => d.isFloatClass
     | none => false)

/-- The selection of `intIntervals`. -/
def isIntInterval (itv : Interval) : Bool :=
  !itv.segs.isEmpty && itv.vreg.isVreg &&
    (match itv.vreg.dt with
     | some d => !d.isFloatClass
     | none => false)

/-- The two calls of `allocateForClass` in `allocateFunction`, for the intervals of the map
`intervals` in key order and the register lists of a register info. -/
def allocateIntervals (intervals : List Interval)
    (intRegsAll floatRegsAll reserved calleeInt calleeFloat : List Nat)
    (spill : SpillState) : AllocState :=
  let afterInt := allocateForClass (intervals.filter isIntInterval)
    (buildAllocatable intRegsAll reserved) calleeInt [] spill
  allocateForClass (intervals.filter isFloatInterval)
    (buildAllocatable floatRegsAll reserved) calleeFloat afterInt.assignedPhys afterInt.spill

/-- The loop `if (!callPoints.empty())` that marks `crossesCall`; `callPoints` is sorted, so
`lower_bound(seg.start)` is its first element that is at least `seg.start`. -/
def markCrossesCall (callPoints : List Int) (itv : Interval) : Interval :=
  if itv.segs.any (fun seg =>
      match callPoints.find? (fun p => decide (seg.start ≤ p)) with
      | some p => decide (p < seg.endPos)
      | none => false)
  then { itv with crossesCall := true } else itv

/-- Every interval of `ivs` that crosses a call and has a register in `assigned` has one
that satisfies `C`. -/
def CrossSafe (ivs : List Interval) (C : Nat → Prop) (assigned : List (Register × Nat)) : Prop :=
  ∀ itv ∈ ivs, itv.crossesCall = true → ∀ p, assigned.lookup itv.vreg = some p → C p

/-- The intervals of the map `intervals` have pairwise different registers. -/
def DistinctVregs (ivs : List Interval) : Prop :=
  ∀ a ∈ ivs, ∀ b ∈ ivs, a.vreg = b.vreg → a = b

/-- Three integer intervals: `v1` lives across the call at position 2, `v2` and `v3` do not. -/
def sampleIntervals : List Interval :=
  [{ vreg := vreg 1, segs := [{ start := 0, endPos := 5 }], crossesCall := true },
   { vreg := vreg 2, segs := [{ start := 1, endPos := 2 }], crossesCall := false },
   { vreg := vreg 3, segs := [{ start := 3, endPos := 4 }], crossesCall := false }]

/-! ### Linear scan: the rewrite phase -/

/-- The lambda `isLiveAt`. -/
def isLiveAt : List Segment → Int → Bool
  | [], _ => false
  | seg :: rest, pos =>
    if pos < seg.start then false
    else if pos ≥ seg.start ∧ pos < seg.endPos then true
    else isLiveAt rest pos

/-- What the rewrite phase reads: the result of allocation, the map `intervals`, the
allocatable registers of both classes and the argument registers of the register info. -/
structure RewriteEnv where
  assignedPhys : List (Register × Nat)
  intervals : List Interval
  allIntRegs : List Nat
  allFloatRegs : List Nat
  intArgRegs : List Nat
  floatArgRegs : List Nat

/-- The entry `physToIntervalsFloat[phys]` or `physToIntervalsInt[phys]`. -/
def physIntervals (env : RewriteEnv) (float : Bool) (phys : Nat) : List Interval :=
  env.assignedPhys.flatMap (fun vp =>
    if vp.2 = phys ∧ vp.1.isFloat = float then
      match env.intervals.find? (fun itv => decide (itv.vreg = vp.1)) with
      | some itv => [itv]
      | none => []
    else [])

/-- The lambda `isPhysLive`. -/
def isPhysLive (env : RewriteEnv) (float : Bool) (phys : Nat) (pos : Int) : Bool :=
  (physIntervals env float phys).any (fun itv => isLiveAt itv.segs pos)

/-- The sets `forbidden`, `usedScratchInt` and `usedScratchFloat` of one instruction. -/
structure ScratchState where
  forbidden : List Nat
  usedScratchInt : List Nat
  usedScratchFloat : List Nat
deriving DecidableEq, Repr

/-- The test of both loops of `pickScratch`: register `r` may serve as scratch. -/
def scratchFree (env : RewriteEnv) (sc : ScratchState) (float : Bool) (pos : Int) (r : Nat) :
    Bool :=
  !(decide (r ∈ sc.forbidden) ||
      decide (r ∈ (if float then sc.usedScratchFloat else sc.usedScratchInt))) &&
    !isPhysLive env float r pos

/-- The two inserts `usedScratch.insert(r); forbidden.insert(r)`. -/
def ScratchState.take (sc : ScratchState) (float : Bool) (r : Nat) : ScratchState :=
  if float then
    { sc with forbidden := r :: sc.forbidden, usedScratchFloat := r :: sc.usedScratchFloat }
  else { sc with forbidden := r :: sc.forbidden, usedScratchInt := r :: sc.usedScratchInt }

/-- The lambda `pickScratch`; `none` is the fatal error of the last line. -/
def pickScratch (env : RewriteEnv) (pos : Int) (sc : ScratchState) (v : Register) :
    Option (Register × ScratchState) :=
  match (if v.isFloat then env.allFloatRegs else env.allIntRegs).find?
      (scratchFree env sc v.isFloat pos) with
  | some r => some ({ rId := r, dt := v.dt, isVreg := false }, sc.take v.isFloat r)
  | none =>
    match (if v.isFloat then env.floatArgRegs else env.intArgRegs).find?
        (scratchFree env sc v.isFloat pos) with
    | some r => some ({ rId := r, dt := v.dt, isVreg := false }, sc.take v.isFloat r)
    | none => none

/-- The variables of the rewrite of one instruction: the instruction itself, the maps and
sets of the loop body, and the reloads and spills put in front of and behind it. -/
structure InstState where
  inst : MInstruction
  scratchMap : List (Register × Register)
  reloaded : List Register
  spilledDef : List Register
  scratch : ScratchState
  spill : SpillState
  reloads : List MInstruction
  spills : List MInstruction
deriving DecidableEq, Repr

/-- The lookup `scratchMap.find(r)`, with `pickScratch` and `emplace` when it fails. -/
def getScratch (env : RewriteEnv) (pos : Int) (st : InstState) (r : Register) :
    Option (Register × InstState) :=
  match st.scratchMap.lookup r with
  | some s => some (s, st)
  | none =>
    match pickScratch env pos st.scratch r with
    | none => none
    | some (s, sc) =>
      some (s, { st with scratchMap := regMapInsert r s st.scratchMap, scratch := sc })

/-- The body of the loop over `uses`. -/
def rewriteUse (env : RewriteEnv) (pos : Int) (st : InstState) (u : Register) :
    Option InstState :=
  if !u.isVreg then some st
  else
    match env.assignedPhys.lookup u with
    | some p =>
      some { st with inst := replaceUse st.inst u { rId := p, dt := u.dt, isVreg := false } }
    | none =>
      match getScratch env pos st u with
      | none => none
      | some (s, st1) =>
        if decide (u ∈ st1.reloaded) then some { st1 with inst := replaceUse st1.inst u s }
        else
          let e := ensureSpillSlot st1.spill u
          some { st1 with
            inst := replaceUse st1.inst u s
            reloaded := u :: st1.reloaded
            spill := e.1
            reloads := st1.reloads ++ [.fiLoad s e.2] }

/-- The body of the loop over `defs`. -/
def rewriteDef (env : RewriteEnv) (pos : Int) (st : InstState) (d : Register) :
    Option InstState :=
  if !d.isVreg then some st
  else
    match env.assignedPhys.lookup d with
    | some p =>
      some { st with inst := replaceDef st.inst d { rId := p, dt := d.dt, isVreg := false } }
    | none =>
      match getScratch env pos st d with
      | none => none
      | some (s, st1) =>
        if decide (d ∈ st1.spilledDef) then some { st1 with inst := replaceDef st1.inst d s }
        else
          let e := ensureSpillSlot st1.spill d
          some { st1 with
            inst := replaceDef st1.inst d s
            spilledDef := d :: st1.spilledDef
            spill := e.1
            spills := .fiStore s e.2 :: st1.spills }

/-- The loop over `uses`. -/
def rewriteUses (env : RewriteEnv) (pos : Int) : List Register → InstState → Option InstState
  | [], st => some st
  | u :: rest, st =>
    match rewriteUse env pos st u with
    | none => none
    | some st1 => rewriteUses env pos rest st1

/-- The loop over `defs`. -/
def rewriteDefs (env : RewriteEnv) (pos : Int) : List Register → InstState → Option InstState
  | [], st => some st
  | d :: rest, st =>
    match rewriteDef env pos st d with
    | none => none
    | some st1 => rewriteDefs env pos rest st1

/-- The registers assigned to the virtual registers of a list. -/
def assignedOf (env : RewriteEnv) (regs : List Register) : List Nat :=
  regs.filterMap (fun r => if r.isVreg then env.assignedPhys.lookup r else none)

/-- The state at the start of the rewrite of one instruction. -/
def initInstState (env : RewriteEnv) (spill : SpillState) (inst : MInstruction) : InstState :=
  { inst := inst, scratchMap := [], reloaded := [], spilledDef := [],
    scratch :=
      { forbidden := (enumPhysRegs inst).map (fun r => r.rId) ++
          assignedOf env (enumUses inst) ++ assignedOf env (enumDefs inst),
        usedScratchInt := [], usedScratchFloat := [] },
    spill := spill, reloads := [], spills := [] }

/-- The body of the loop over `original`: the instructions that stand in the place of `inst`
afterwards (reloads, the rewritten instruction, spills) and the spill slots. -/
def rewriteInst (env : RewriteEnv) (spill : SpillState) (pos : Int) (inst : MInstruction) :
    Option (List MInstruction × SpillState) :=
  match rewriteUses env pos (enumUses inst) (initInstState env spill inst) with
  | none => none
  | some st1 =>
    match rewriteDefs env pos (enumDefs inst) st1 with
    | none => none
    | some st2 => some (st2.reloads ++ st2.inst :: st2.spills, st2.spill)

/-- The loop over the instructions of one block, the first of which has position `pos`. -/
def rewriteBlock (env : RewriteEnv) :
    List MInstruction → SpillState → Int → Option (List MInstruction × SpillState)
  | [], spill, _ => some ([], spill)
  | inst :: rest, spill, pos =>
    match rewriteInst env spill pos inst with
    | none => none
    | some (out, sp1) =>
      match rewriteBlock env rest sp1 (pos + 1) with
      | none => none
      | some (outs, sp2) => some (out ++ outs, sp2)

/-- The loop over the blocks of the function. -/
def rewriteBlocks (env : RewriteEnv) :
    BlockMap → SpillState → Int → Option (BlockMap × SpillState)
  | [], spill, _ => some ([], spill)
  | (bid, block) :: rest, spill, pos =>
    match rewriteBlock env block.insts spill pos with
    | none => none
    | some (insts, sp1) =>
      match rewriteBlocks env rest sp1 (pos + Int.ofNat block.insts.length) with
      | none => none
      | some (bs, sp2) => some ((bid, { block with insts := insts }) :: bs, sp2)

/-- An allocation result without any assignment, with the RV64 register lists. -/
def emptyEnv : RewriteEnv :=
  { assignedPhys := [], intervals := [],
    allIntRegs := buildAllocatable intRegs reservedRegs,
    allFloatRegs := buildAllocatable floatRegs reservedRegs,
    intArgRegs := intArgRegs, floatArgRegs := floatArgRegs }

/-- No spill slot yet. -/
def noSpill : SpillState := { spillFrameIndex := [], spillSlots := [] }

/-- The instruction is a target instruction. -/
def isTarget : MInstruction → Bool
  | .target _ => true
  | _ => false

/-- Every register that `enumUses` and `enumDefs` report for the instruction is physical. -/
def physOnly (i : MInstruction) : Prop :=
  (∀ r ∈ enumUses i, r.isVreg = false) ∧ (∀ r ∈ enumDefs i, r.isVreg = false)

/-- Every scratch register recorded in `scratchMap` is physical. -/
def scratchPhys (st : InstState) : Prop :=
  ∀ u s, st.scratchMap.lookup u = some s → s.isVreg = false

/-- Every instruction of every block is a target instruction. -/
def allTargets (blocks : BlockMap) : Bool :=
  blocks.all (fun kb => kb.2.insts.all isTarget)

/-- A block whose only instruction is the pseudo move `v1 ← v2`. -/
def moveBlocks : BlockMap :=
  [(0, { blockId := 0, insts := [.move (some (.reg (vreg 1))) (some (.reg (vreg 2)))] })]

/-- A block that adds two virtual registers and returns. -/
def addBlocks : BlockMap :=
  [(0, { blockId := 0,
         insts := [.target (createRInst .ADD (vreg 1) (vreg 2) (vreg 3)),
                   .target (createIInst .JALR PR.x0 PR.ra 0)] })]

/-- The block of `addBlocks` after the rewrite phase when no register is assigned. -/
def addBlocksRewritten : BlockMap :=
  [(0, { blockId := 0,
         insts := [.fiLoad { rId := 6, dt := some .I32, isVreg := false } 0,
                   .fiLoad { rId := 7, dt := some .I32, isVreg := false } 1,
                   .target (createRInst .ADD { rId := 8, dt := some .I32, isVreg := false }
                     { rId := 6, dt := some .I32, isVreg := false }
                     { rId := 7, dt := some .I32, isVreg := false }),
                   .fiStore { rId := 8, dt := some .I32, isVreg := false } 2,
                   .target (createIInst .JALR PR.x0 PR.ra 0)] })]

/-- The spill slots of `addBlocks` after the rewrite phase. -/
def addBlocksSpill : SpillState :=
  { spillFrameIndex := [(vreg 1, 2), (vreg 2, 0), (vreg 3, 1)],
    spillSlots := [(4, 4), (4, 4), (4, 4)] }

/-- Spill slots already handed out stay as they are. -/
def SpillLe (a b : SpillState) : Prop :=
  ∀ r fi, a.spillFrameIndex.lookup r = some fi → b.spillFrameIndex.lookup r = some fi

/-- The reload of `v` stands in `reloads`: it loads slot `fi`, the spill slot of `v`, into
the scratch `s` recorded for `v`, and every reload behind it writes another register. -/
def ReloadedInto (st : InstState) (v s : Register) (fi : Int) : Prop :=
  st.scratchMap.lookup v = some s ∧ st.spill.spillFrameIndex.lookup v = some fi ∧
    s.rId ∈ st.scratch.forbidden ∧ s.isVreg = false ∧
    ∃ pre mid, st.reloads = pre ++ .fiLoad s fi :: mid ∧
      ∀ m ∈ mid, ∃ s2 fi2, m = .fiLoad s2 fi2 ∧ s2 ≠ s

/-- How a use `x` of the original instruction relates to the register `y` now in its place:
untouched and still to be visited when virtual, or physical and, for `v`, the scratch of
`v`. -/
def UseRel (st : InstState) (v : Register) (rem : List Register) (x y : Register) : Prop :=
  (y = x ∧ (x.isVreg = true → x ∈ rem)) ∨
    (y.isVreg = false ∧ (x = v → st.scratchMap.lookup v = some y))

/-- The invariant of the loop over `uses` for a spilled virtual register `v`. -/
def UseLoopInv (inst0 : MInstruction) (v : Register) (st : InstState) (rem : List Register) :
    Prop :=
  isTarget st.inst = true ∧ scratchPhys st ∧
    (∀ u s, st.scratchMap.lookup u = some s → u ∈ st.reloaded) ∧
    (∀ u, u ∈ st.reloaded → ∃ s, st.scratchMap.lookup u = some s) ∧
    (v ∈ st.reloaded → ∃ s fi, ReloadedInto st v s fi) ∧
    (v ∈ st.reloaded ∨ v ∈ rem) ∧
    List.Forall₂ (UseRel st v rem) (enumUses inst0) (enumUses st.inst)

/-- A block in which `v2` is used twice and `v3` once, none with a register. -/
def reloadBlock : List MInstruction :=
  [.target (createIInst .ADDI (vreg 1) PR.a0 0),
   .target (createRInst .ADD (vreg 4) (vreg 2) (vreg 3)),
   .target (createIInst .JALR PR.x0 PR.ra 0)]

/-- A block in which the pseudo move `a0 ← v2` reads a register that has none. -/
def argMoveBlock : List MInstruction :=
  [.move (some (.reg PR.a0)) (some (.reg (vreg 2)))]

/-- The block `reloadBlock` after the rewrite phase when no register is assigned. -/
def reloadBlockRewritten : List MInstruction :=
  [.target (createIInst .ADDI { rId := 6, dt := some .I32, isVreg := false } PR.a0 0),
   .fiStore { rId := 6, dt := some .I32, isVreg := false } 0,
   .fiLoad { rId := 6, dt := some .I32, isVreg := false } 1,
   .fiLoad { rId := 7, dt := some .I32, isVreg := false } 2,
   .target (createRInst .ADD { rId := 8, dt := some .I32, isVreg := false }
     { rId := 6, dt := some .I32, isVreg := false }
     { rId := 7, dt := some .I32, isVreg := false }),
   .fiStore { rId := 8, dt := some .I32, isVreg := false } 3,
   .target (createIInst .JALR PR.x0 PR.ra 0)]

/-- The spill slots of `reloadBlock` after the rewrite phase. -/
def reloadBlockSpill : SpillState :=
  { spillFrameIndex := [(vreg 1, 0), (vreg 2, 1), (vreg 3, 2), (vreg 4, 3)],
    spillSlots := [(4, 4), (4, 4), (4, 4), (4, 4)] }

/-- The function `diamond` after phi elimination: the copy of the critical edge 0 → 2
sits in the new block 3, the copy of the edge 1 → 2 at the end of block 1. -/
def diamondLowered : Function :=
  { blocks :=
      [(0, { blockId := 0,
             insts := [.target (createBInst .BNE (vreg 4) PR.x0 (Label.ofJmp 1)),
                       .target (createJInst .JAL PR.x0
                         { name := "", lnum := 3, is_data := false, is_hi := false,
                           jmp_label := 3, seq_label := -1, is_la := false })] }),
       (1, { blockId := 1,
             insts := [createMove (vreg 5) (.immI32 3),
                       .target (createJInst .JAL PR.x0 (Label.ofJmp 2))] }),
       (2, { blockId := 2, insts := [.target (createIInst .JALR PR.x0 PR.ra 0)] }),
       (3, { blockId := 3,
             insts := [createMove (vreg 5) (.reg (vreg 4)),
                       .target (createJInst .JAL PR.x0 (Label.ofJmp 2))] })],
    stackSize := 0 }

/-- The second instruction is the first one up to its three register fields: opcode,
immediate, label, call counts and frame-index operand are the same. -/
def sameButRegs (a b : Instr) : Prop :=
  b = { a with rd := b.rd, rs1 := b.rs1, rs2 := b.rs2 }

/-- The instruction is a target instruction that agrees with `ri` up to its registers. -/
def instLike (ri : Instr) (i : MInstruction) : Prop :=
  ∃ r, i = .target r ∧ sameButRegs ri r

/-- Every instruction of the list is an FILoad. -/
def allReloads (l : List MInstruction) : Prop :=
  ∀ m ∈ l, ∃ s fi, m = .fiLoad s fi

/-- Every instruction of the list is an FIStore. -/
def allSpills (l : List MInstruction) : Prop :=
  ∀ m ∈ l, ∃ s fi, m = .fiStore s fi

/-! ## Instruction classification (`rv64_instr_adapter.cpp`) -/

/-- The method `InstrAdapter::isCall`. -/
def InstrAdapter.isCall : MInstruction → Bool
  | .target ri => decide (ri.op = .CALL)
  | _ => false

/-- The method `InstrAdapter::isReturn`. -/
def InstrAdapter.isReturn : MInstruction → Bool
  | .target ri =>
    if ri.op = .RET then true
    else decide (ri.op = .JALR) && decide (ri.rd = PR.x0) && decide (ri.rs1 = PR.ra) &&
      decide (ri.imme = 0)
  | _ => false

/-- The method `InstrAdapter::isUncondBranch`. -/
def InstrAdapter.isUncondBranch : MInstruction → Bool
  | .target ri =>
    if ri.op = .JAL then true
    else decide (ri.op = .JALR) && decide (ri.rd = PR.x0)
  | _ => false

/-- The method `InstrAdapter::isCondBranch`. -/
def InstrAdapter.isCondBranch : MInstruction → Bool
  | .target ri =>
    match ri.op with
    | .BEQ | .BNE | .BLT | .BGE | .BLTU | .BGEU | .BGT | .BLE | .BGTU | .BLEU => true
    | _ => false
  | _ => false

/-- The number of the four classifiers that answer true for the instruction. -/
def classifierCount (inst : MInstruction) : Nat :=
  ([InstrAdapter.isCall inst, InstrAdapter.isReturn inst, InstrAdapter.isUncondBranch inst,
    InstrAdapter.isCondBranch inst].filter id).length

/-- The return instruction that instruction selection emits: `JALR x0, ra, 0`. -/
def retInst : MInstruction := .target (createIInst .JALR PR.x0 PR.ra 0)

/-- The instruction has the shape `JALR x0, ra, 0`. -/
def isJalrReturn : MInstruction → Bool
  | .target ri =>
    decide (ri.op = .JALR) && decide (ri.rd = PR.x0) && decide (ri.rs1 = PR.ra) &&
      decide (ri.imme = 0)
  | _ => false

/-- A target instruction of format U or J (`LI`, `LUI`, `LA`, `JAL`) whose destination is a
physical register. -/
def isUJWithPhysRd : MInstruction → Bool
  | .target ri =>
    (decide (ri.op.opType = .U) || decide (ri.op.opType = .J)) && !ri.rd.isVreg
  | _ => false

/-- Every physical register of `enumUses` and `enumDefs` is in `enumPhysRegs`. -/
def PhysRegsComplete (inst : MInstruction) : Prop :=
  ∀ r ∈ enumUses inst ++ enumDefs inst, r.isVreg = false → r ∈ enumPhysRegs inst

/-- The registers that the description of a call gives as its uses: `a_k` for every
`k < 8` below the integer count, then `fa_k` for every `k < 8` below the float count. -/
def callArgRegs (ni nf : Int) : List Register :=
  ((List.range 8).filter (fun (k : Nat) => decide (Int.ofNat k < ni))).map (fun k => getPR (10 + k)) ++
    ((List.range 8).filter (fun (k : Nat) => decide (Int.ofNat k < nf))).map (fun k => getPR (42 + k))

/-! ## Instruction selection (`isel/rv64_ir_isel.cpp`) -/

/-- Modelled from the spec: the type tags of the IR (section 3.1), under the names that
`mapType` switches on; the IR classes are declared in the middle-end headers, which are not
among the sources. -/
inductive IRType where
  | I1 | I8 | I32 | I64 | PTR | F32 | DOUBLE | TOKEN
deriving DecidableEq, Repr

/-- Modelled from the spec: IR operands are a virtual register, a 32-bit integer immediate,
a float immediate, a global symbol or a block label (section 3.2); the classes are declared
in the middle-end headers, which are not among the sources. -/
inductive IROperand where
  | reg (n : Nat)
  | immI32 (v : Int)
  | immF32 (bits : Nat)
  | global (name : String)
  | label (id : Nat)
deriving DecidableEq, Repr

/-- Modelled from the spec: the binary opcodes that `visit(ArithmeticInst&)` switches on;
`OTHER` stands for every opcode of the IR that the switch does not name. -/
inductive IROperator where
  | ADD | SUB | MUL | DIV | MOD | BITAND | BITXOR | SHL | ASHR | LSHR
  | FADD | FSUB | FMUL | FDIV | OTHER
deriving DecidableEq, Repr

/-- Modelled from the spec: the comparison conditions that `visit(IcmpInst&)` switches on. -/
inductive ICmpOp where
  | EQ | NE | UGT | UGE | ULT | ULE | SGT | SGE | SLT | SLE
deriving DecidableEq, Repr

/-- The helper `mapType`; `none` is the fatal `ERROR("Unsupported IR data type")`. -/
def mapType : IRType → Option DataType
  | .I1 | .I8 | .I32 => some .I32
  | .I64 | .PTR => some .I64
  | .F32 => some .F32
  | .DOUBLE => some .F64
  | .TOKEN => none

/-- The helper `makeVReg(id, dt)`. -/
def makeVReg (id : Nat) (dt : DataType) : Register :=
  { rId := id, dt := some dt, isVreg := true }

/-- The constructor `Label(std::string n, bool hi, bool la)`. -/
def Label.ofName (n : String) (hi la : Bool) : Label :=
  { name := n, lnum := 0, is_data := true, is_hi := hi, jmp_label := -1, seq_label := -1,
    is_la := la }

/-- The overload `createUInst(op, rd, label)`. -/
def createUInstLabel (op : Operator) (rd : Register) (label : Label) : Instr :=
  { Instr.new op with rd := rd, label := label, use_label := true }

/-- A 32-bit `int` after an operation that may leave the range (two's complement). -/
def wrap32 (v : Int) : Int := (v + 2147483648) % 4294967296 - 2147483648

/-- The lambda `materializeOperand` of `visit(ArithmeticInst&)`: the register that holds the
operand, the instructions pushed to the block, and the virtual register counter. -/
def materializeOperand (op : IROperand) (dt : DataType) (next : Nat) :
    Option (Register × List MInstruction × Nat) :=
  match op with
  | .reg n => some (makeVReg n dt, [], next)
  | .immI32 v =>
    let r := getVReg (some dt) next
    some (r.1, [createMove r.1 (.immI32 v)], r.2)
  | .immF32 b =>
    let r := getVReg (some dt) next
    some (r.1, [createMove r.1 (.immF32 b)], r.2)
  | .global name =>
    let r := getVReg (some .PTR) next
    some (r.1, [.target (createUInstLabel .LA r.1 (Label.ofName name false true))], r.2)
  | .label _ => none

/-- The lambda `getImmI32`. -/
def getImmI32 : IROperand → Option Int
  | .immI32 v => some v
  | _ => none

/-- The first opcode switch of `visit(ArithmeticInst&)` for the integer case. -/
def selectArithOp (opcode : IROperator) (is32bit : Bool) : Option Operator :=
  match opcode with
  | .ADD => some (if is32bit then .ADDW else .ADD)
  | .SUB => some (if is32bit then .SUBW else .SUB)
  | .MUL => some (if is32bit then .MULW else .MUL)
  | .DIV => some (if is32bit then .DIVW else .DIV)
  | .MOD => some (if is32bit then .REMW else .REM)
  | .BITAND => some .AND
  | .BITXOR => some .XOR
  | .SHL => some .SLL
  | .ASHR => some .SRA
  | .LSHR => some .SRL
  | _ => none

/-- The switch under `if (rhsIsImm)`: the immediate opcode and the immediate it carries;
`none` is `hasImmForm = false`. -/
def selectImmForm (op : Operator) (is32bit : Bool) (rhsImm : Int) : Option (Operator × Int) :=
  match op with
  | .ADD => some (if is32bit then .ADDIW else .ADDI, rhsImm)
  | .SUB => some (if is32bit then .ADDIW else .ADDI, wrap32 (-rhsImm))
  | .AND => some (.ANDI, rhsImm)
  | .XOR => some (.XORI, rhsImm)
  | .SLL => some (if is32bit then .SLLIW else .SLLI, rhsImm)
  | .SRA => some (if is32bit then .SRAIW else .SRAI, rhsImm)
  | .SRL => some (if is32bit then .SRLIW else .SRLI, rhsImm)
  | _ => none

/-- The float case of `visit(ArithmeticInst&)`. -/
def visitFloatArithmetic (opcode : IROperator) (dstType : DataType) (dst : Register)
    (lhs rhs : IROperand) (next : Nat) : Option (List MInstruction × Nat) :=
  match materializeOperand lhs dstType next with
  | none => none
  | some (lhsReg, i1, n1) =>
    match materializeOperand rhs dstType n1 with
    | none => none
    | some (rhsReg, i2, n2) =>
      let op : Option Operator :=
        match opcode with
        | .FADD => some .FADD_S
        | .FSUB => some .FSUB_S
        | .FMUL => some .FMUL_S
        | .FDIV => some .FDIV_S
        | _ => none
      match op with
      | none => none
      | some o => some (i1 ++ i2 ++ [.target (createRInst o dst lhsReg rhsReg)], n2)

/-- The integer case of `visit(ArithmeticInst&)` after the operands are swapped. -/
def visitIntArithmetic (opcode : IROperator) (dstType : DataType) (dst : Register)
    (lhsOp rhsOp : IROperand) (next : Nat) : Option (List MInstruction × Nat) :=
  let is32bit := decide (dstType = .I32)
  match selectArithOp opcode is32bit with
  | none => none
  | some op =>
    if (op = .SUB ∨ op = .SUBW) ∧ getImmI32 lhsOp = some 0 then
      match materializeOperand rhsOp dstType next with
      | none => none
      | some (rhsReg, i1, n1) => some (i1 ++ [.target (createRInst op dst PR.x0 rhsReg)], n1)
    else
      match (getImmI32 rhsOp).bind (selectImmForm op is32bit) with
      | some (iop, imm) =>
        match materializeOperand lhsOp dstType next with
        | none => none
        | some (lhsReg, i1, n1) => some (i1 ++ [.target (createIInst iop dst lhsReg imm)], n1)
      | none =>
        match materializeOperand lhsOp dstType next with
        | none => none
        | some (lhsReg, i1, n1) =>
          match materializeOperand rhsOp dstType n1 with
          | none => none
          | some (rhsReg, i2, n2) =>
            some (i1 ++ i2 ++ [.target (createRInst op dst lhsReg rhsReg)], n2)

/-- The method `IRIsel::visit(ME::ArithmeticInst&)`: the instructions pushed to the current
block and the virtual register counter; `none` is a fatal `ERROR`. -/
def visitArithmetic (opcode : IROperator) (dt : IRType) (res lhs rhs : IROperand)
    (next : Nat) : Option (List MInstruction × Nat) :=
  match res, mapType dt with
  | .reg resNum, some dstType =>
    let dst := makeVReg resNum dstType
    if dstType = .F32 ∨ dstType = .F64 then visitFloatArithmetic opcode dstType dst lhs rhs next
    else
      let commutative :=
        opcode = .ADD ∨ opcode = .MUL ∨ opcode = .BITAND ∨ opcode = .BITXOR
      if (getImmI32 lhs).isSome ∧ (getImmI32 rhs).isNone ∧ commutative then
        visitIntArithmetic opcode dstType dst rhs lhs next
      else visitIntArithmetic opcode dstType dst lhs rhs next
  | _, _ => none

/-- The constant branch of `DAGIsel::selectBinary` (`rv64_dag_isel.cpp`): what is pushed for
the opcode `op`, the destination, the left register and the constant right operand. -/
def selectBinaryConst (op : Operator) (dst lhsReg : Register) (rhsImm : Int) (next : Nat) :
    List MInstruction × Nat :=
  let is32bit := decide (dst.dt = some .I32)
  let iop : Option Operator :=
    match op with
    | .ADD => some (if is32bit then .ADDIW else .ADDI)
    | .AND => some .ANDI
    | .OR => some .ORI
    | .XOR => some .XORI
    | .SLL => some (if is32bit then .SLLIW else .SLLI)
    | .SRA => some (if is32bit then .SRAIW else .SRAI)
    | .SRL => some (if is32bit then .SRLIW else .SRLI)
    | _ => none
  match iop with
  | some i => ([.target (createIInst i dst lhsReg rhsImm)], next)
  | none =>
    let tmp := getVReg lhsReg.dt next
    ([createMove tmp.1 (.immI32 rhsImm), .target (createRInst op dst lhsReg tmp.1)], tmp.2)

/-- The immediate of an instruction is one that its format can encode: twelve signed bits
for the `-I` arithmetic forms, a shift amount below the operand width for the shifts. -/
def immEncodable (ri : Instr) : Bool :=
  match ri.op with
  | .SLLI | .SRLI | .SRAI => decide (0 ≤ ri.imme) && decide (ri.imme < 64)
  | .SLLIW | .SRLIW | .SRAIW => decide (0 ≤ ri.imme) && decide (ri.imme < 32)
  | .ADDI | .ADDIW | .ANDI | .ORI | .XORI | .SLTI | .SLTIU => imm12 ri.imme
  | _ => true

/-- The lambda `materializeOperand` of `visit(IcmpInst&)`: a float immediate is an error. -/
def materializeIcmpOperand (op : IROperand) (dt : DataType) (next : Nat) :
    Option (Register × List MInstruction × Nat) :=
  match op with
  | .reg n => some (makeVReg n dt, [], next)
  | .immI32 v =>
    let r := getVReg (some dt) next
    some (r.1, [createMove r.1 (.immI32 v)], r.2)
  | .global name =>
    let r := getVReg (some .PTR) next
    some (r.1, [.target (createUInstLabel .LA r.1 (Label.ofName name false true))], r.2)
  | _ => none

/-- The flag `isUnsigned` of `visit(IcmpInst&)`. -/
def ICmpOp.isUnsigned : ICmpOp → Bool
  | .UGT | .UGE | .ULT | .ULE => true
  | _ => false

/-- The lambda `zextIfNeeded`. -/
def zextIfNeeded (isUnsigned : Bool) (opType : DataType) (reg : Register) (next : Nat) :
    Register × List MInstruction × Nat :=
  if !isUnsigned || !decide (opType = .I32) then (reg, [], next)
  else
    let z := getVReg (some .I64) next
    (z.1, [.target (createR2Inst .ZEXT_W z.1 reg)], z.2)

/-- The switch of the branch `if (rhsIsImm && imm12(rhsImm))`; `none` is a `break`, after
which the general path runs. -/
def icmpImm (cond : ICmpOp) (dst lhsReg : Register) (rhsImm : Int) :
    Option (List MInstruction) :=
  match cond with
  | .EQ =>
    if rhsImm = 0 then some [.target (createIInst .SLTIU dst lhsReg 1)]
    else some [.target (createIInst .XORI dst lhsReg rhsImm),
               .target (createIInst .SLTIU dst dst 1)]
  | .NE =>
    if rhsImm = 0 then some [.target (createRInst .SLTU dst PR.x0 lhsReg)]
    else some [.target (createIInst .XORI dst lhsReg rhsImm),
               .target (createRInst .SLTU dst PR.x0 dst)]
  | .SLT => some [.target (createIInst .SLTI dst lhsReg rhsImm)]
  | .ULT => some [.target (createIInst .SLTIU dst lhsReg rhsImm)]
  | .SLE =>
    if imm12 (rhsImm + 1) then some [.target (createIInst .SLTI dst lhsReg (rhsImm + 1))]
    else none
  | .SGE => some [.target (createIInst .SLTI dst lhsReg rhsImm),
                  .target (createIInst .XORI dst dst 1)]
  | .SGT =>
    if imm12 (rhsImm + 1) then
      some [.target (createIInst .SLTI dst lhsReg (rhsImm + 1)),
            .target (createIInst .XORI dst dst 1)]
    else none
  | .ULE =>
    if imm12 (rhsImm + 1) then some [.target (createIInst .SLTIU dst lhsReg (rhsImm + 1))]
    else none
  | .UGE => some [.target (createIInst .SLTIU dst lhsReg rhsImm),
                  .target (createIInst .XORI dst dst 1)]
  | .UGT =>
    if imm12 (rhsImm + 1) then
      some [.target (createIInst .SLTIU dst lhsReg (rhsImm + 1)),
            .target (createIInst .XORI dst dst 1)]
    else none

/-- The last switch of `visit(IcmpInst&)`: both operands are in registers. -/
def icmpReg (cond : ICmpOp) (opType : DataType) (dst lhsReg rhsReg : Register) (next : Nat) :
    List MInstruction × Nat :=
  let tmp := getVReg (some opType) next
  match cond with
  | .EQ => ([.target (createRInst .XOR tmp.1 lhsReg rhsReg),
             .target (createIInst .SLTIU dst tmp.1 1)], tmp.2)
  | .NE => ([.target (createRInst .XOR tmp.1 lhsReg rhsReg),
             .target (createRInst .SLTU dst PR.x0 tmp.1)], tmp.2)
  | .SGT => ([.target (createRInst .SLT dst rhsReg lhsReg)], next)
  | .SGE => ([.target (createRInst .SLT tmp.1 lhsReg rhsReg),
              .target (createIInst .XORI dst tmp.1 1)], tmp.2)
  | .SLT => ([.target (createRInst .SLT dst lhsReg rhsReg)], next)
  | .SLE => ([.target (createRInst .SLT tmp.1 rhsReg lhsReg),
              .target (createIInst .XORI dst tmp.1 1)], tmp.2)
  | .UGT => ([.target (createRInst .SLTU dst rhsReg lhsReg)], next)
  | .UGE => ([.target (createRInst .SLTU tmp.1 lhsReg rhsReg),
              .target (createIInst .XORI dst tmp.1 1)], tmp.2)
  | .ULT => ([.target (createRInst .SLTU dst lhsReg rhsReg)], next)
  | .ULE => ([.target (createRInst .SLTU tmp.1 rhsReg lhsReg),
              .target (createIInst .XORI dst tmp.1 1)], tmp.2)

/-- The general path of `visit(IcmpInst&)`, from the second `materializeOperand(lhsOp)`
on. -/
def icmpGeneral (cond : ICmpOp) (opType : DataType) (dst : Register) (lhsOp rhsOp : IROperand)
    (next : Nat) : Option (List MInstruction × Nat) :=
  match materializeIcmpOperand lhsOp opType next with
  | none => none
  | some (lhsReg, i1, n1) =>
    match materializeIcmpOperand rhsOp opType n1 with
    | none => none
    | some (rhsReg, i2, n2) =>
      let zl := if cond.isUnsigned then zextIfNeeded cond.isUnsigned opType lhsReg n2
                else (lhsReg, [], n2)
      let zr := if cond.isUnsigned then zextIfNeeded cond.isUnsigned opType rhsReg zl.2.2
                else (rhsReg, [], zl.2.2)
      let r := icmpReg cond opType dst zl.1 zr.1 zr.2.2
      some (i1 ++ i2 ++ zl.2.1 ++ zr.2.1 ++ r.1, r.2)

/-- The part of `visit(IcmpInst&)` after the operands are swapped. -/
def icmpSelect (cond : ICmpOp) (opType : DataType) (dst : Register) (lhsOp rhsOp : IROperand)
    (next : Nat) : Option (List MInstruction × Nat) :=
  match getImmI32 rhsOp with
  | some rhsImm =>
    if imm12 rhsImm then
      match materializeIcmpOperand lhsOp opType next with
      | none => none
      | some (lhsReg, i1, n1) =>
        let z := zextIfNeeded cond.isUnsigned opType lhsReg n1
        match icmpImm cond dst z.1 rhsImm with
        | some seq => some (i1 ++ z.2.1 ++ seq, z.2.2)
        | none =>
          (icmpGeneral cond opType dst lhsOp rhsOp z.2.2).map
            (fun r => (i1 ++ z.2.1 ++ r.1, r.2))
    else icmpGeneral cond opType dst lhsOp rhsOp next
  | none => icmpGeneral cond opType dst lhsOp rhsOp next

/-- The method `IRIsel::visit(ME::IcmpInst&)`: the instructions pushed to the current block
and the virtual register counter; `none` is a fatal `ERROR`. -/
def visitIcmp (cond : ICmpOp) (dt : IRType) (res lhs rhs : IROperand) (next : Nat) :
    Option (List MInstruction × Nat) :=
  match res, mapType dt with
  | .reg resNum, some opType =>
    let dst := makeVReg resNum .I32
    if (cond = .EQ ∨ cond = .NE) ∧ (getImmI32 lhs).isSome ∧ (getImmI32 rhs).isNone then
      icmpSelect cond opType dst rhs lhs next
    else icmpSelect cond opType dst lhs rhs next
  | _, _ => none

/-! ### The meaning of the selected comparison instructions

The RISC-V instruction set is not part of the repository; the definitions below give the
architectural meaning of the instructions that `visit(IcmpInst&)` emits, on 64-bit
registers held as natural numbers below `2 ^ 64`. -/

/-- The contents of the registers. -/
abbrev RegFile := Register → Nat

/-- The 64-bit pattern of a sign-extended integer. -/
def sext64 (v : Int) : Nat := (v % 18446744073709551616).toNat

/-- The signed reading of a 64-bit pattern. -/
def toSigned64 (x : Nat) : Int :=
  if x < 9223372036854775808 then Int.ofNat x else Int.ofNat x - 18446744073709551616

/-- Reading a register: `x0` is hard-wired to zero. -/
def readReg (st : RegFile) (r : Register) : Nat :=
  if r = PR.x0 then 0 else st r

/-- Writing a register: a write to `x0` is discarded. -/
def writeReg (st : RegFile) (r : Register) (v : Nat) : RegFile :=
  fun x => if x = r ∧ r ≠ PR.x0 then v else st x

/-- One step: the set-less-than instructions, the exclusive or, the zero extension of the
low word, and the load of an immediate that a pseudo move of an `int` stands for; `none` for
every other instruction. -/
def execInst (st : RegFile) : MInstruction → Option RegFile
  | .target ri =>
    match ri.op with
    | .SLT =>
      some (writeReg st ri.rd
        (if toSigned64 (readReg st ri.rs1) < toSigned64 (readReg st ri.rs2) then 1 else 0))
    | .SLTU => some (writeReg st ri.rd (if readReg st ri.rs1 < readReg st ri.rs2 then 1 else 0))
    | .SLTI =>
      some (writeReg st ri.rd (if toSigned64 (readReg st ri.rs1) < ri.imme then 1 else 0))
    | .SLTIU => some (writeReg st ri.rd (if readReg st ri.rs1 < sext64 ri.imme then 1 else 0))
    | .XOR => some (writeReg st ri.rd (readReg st ri.rs1 ^^^ readReg st ri.rs2))
    | .XORI => some (writeReg st ri.rd (readReg st ri.rs1 ^^^ sext64 ri.imme))
    | .ZEXT_W => some (writeReg st ri.rd (readReg st ri.rs1 % 4294967296))
    | _ => none
  | .move (some (.reg d)) (some (.immI32 v)) => some (writeReg st d (sext64 v))
  | _ => none

/-- A list of instructions executed in order. -/
def execInsts (st : RegFile) : List MInstruction → Option RegFile
  | [] => some st
  | i :: rest =>
    match execInst st i with
    | none => none
    | some st1 => execInsts st1 rest

/-- The comparison on the 32-bit values `a` and `b` (given as signed integers): the unsigned
conditions compare the values modulo `2 ^ 32`. -/
def icmpHolds (cond : ICmpOp) (a b : Int) : Bool :=
  match cond with
  | .EQ => decide (a = b)
  | .NE => decide (a ≠ b)
  | .SLT => decide (a < b)
  | .SLE => decide (a ≤ b)
  | .SGT => decide (a > b)
  | .SGE => decide (a ≥ b)
  | .ULT => decide (a % 4294967296 < b % 4294967296)
  | .ULE => decide (a % 4294967296 ≤ b % 4294967296)
  | .UGT => decide (a % 4294967296 > b % 4294967296)
  | .UGE => decide (a % 4294967296 ≥ b % 4294967296)

/-- The value is a 32-bit signed integer. -/
def isInt32 (v : Int) : Prop := -2147483648 ≤ v ∧ v ≤ 2147483647

/-- A register file in which every register holds the sign-extended value `-1`. -/
def allOnes : RegFile := fun _ => sext64 (-1)

/-- The instructions selected for `%3 = icmp ult i32 %1, -1`. -/
def ultMinusOne : List MInstruction :=
  [.target (createR2Inst .ZEXT_W (getVReg (some .I64) 10).1 (makeVReg 1 .I32)),
   .target (createIInst .SLTIU (makeVReg 3 .I32) (getVReg (some .I64) 10).1 (-1))]

/-- The instructions selected for `%3 = icmp ule i32 %1, -1`. -/
def uleMinusOne : List MInstruction :=
  [.target (createR2Inst .ZEXT_W (getVReg (some .I64) 10).1 (makeVReg 1 .I32)),
   .target (createIInst .SLTIU (makeVReg 3 .I32) (getVReg (some .I64) 10).1 0)]

/-- The value that a list of instructions leaves in a register, started in `st`. -/
def resultIn (st : RegFile) (insts : List MInstruction) (r : Register) : Option Nat :=
  (execInsts st insts).map (fun st1 => st1 r)

/-! ### Calls and incoming arguments (`visit(CallInst&)`, `visit(Function&)`) -/

namespace PR

def t6 : Register := getPR 31
def fa0 : Register := getPR 42

end PR

/-- The local struct `ArgTmp` of `visit(CallInst&)`. -/
structure ArgTmp where
  dt : DataType
  isFloat : Bool
  tmp : Register
deriving DecidableEq, Repr

/-- The test `dt == BE::F32 || dt == BE::F64`. -/
def isFloatType (dt : DataType) : Bool := decide (dt = .F32) || decide (dt = .F64)

/-- The lambda `materializeArg` of `visit(CallInst&)`. -/
def materializeArg (op : IROperand) (dt : DataType) (next : Nat) :
    Option (Register × List MInstruction × Nat) :=
  match op with
  | .reg n => some (makeVReg n dt, [], next)
  | .immI32 v =>
    let r := getVReg (some dt) next
    some (r.1, [createMove r.1 (.immI32 v)], r.2)
  | .immF32 b =>
    let r := getVReg (some dt) next
    some (r.1, [createMove r.1 (.immF32 b)], r.2)
  | .global name =>
    let r := getVReg (some .PTR) next
    some (r.1, [.target (createUInstLabel .LA r.1 (Label.ofName name false true))], r.2)
  | .label _ => none

/-- The first loop of `visit(CallInst&)`: every argument is computed into a temporary; the
result is the vector `prepared`, the instructions pushed, and the register counter. -/
def prepareArgs : List (IRType × IROperand) → Nat →
    Option (List ArgTmp × List MInstruction × Nat)
  | [], next => some ([], [], next)
  | (argType, argOp) :: rest, next =>
    match mapType argType with
    | none => none
    | some dt =>
      match materializeArg argOp dt next with
      | none => none
      | some (tmp, i1, n1) =>
        let norm : List MInstruction :=
          if dt = .I32 then [.target (createIInst .ADDIW tmp tmp 0)] else []
        match prepareArgs rest n1 with
        | none => none
        | some (ps, i2, n2) =>
          some ({ dt := dt, isFloat := isFloatType dt, tmp := tmp } :: ps, i1 ++ norm ++ i2, n2)

/-- The state of the second loop of `visit(CallInst&)`. -/
structure ArgAssign where
  insts : List MInstruction
  stackArgs : List ArgTmp
  iregCnt : Nat
  fregCnt : Nat
deriving DecidableEq, Repr

/-- The body of the second loop: the argument goes to the next argument register of its
class, or to `stackArgs` when eight of them are taken. -/
def assignArg (st : ArgAssign) (a : ArgTmp) : ArgAssign :=
  if a.isFloat then
    if st.fregCnt < 8 then
      { st with insts := st.insts ++ [createMove (getPR (42 + st.fregCnt)) (.reg a.tmp)],
                fregCnt := st.fregCnt + 1 }
    else { st with stackArgs := st.stackArgs ++ [a], fregCnt := st.fregCnt + 1 }
  else
    if st.iregCnt < 8 then
      { st with
        insts := st.insts ++ [createMove (getPR (10 + st.iregCnt)) (.reg a.tmp)] ++
          (if a.dt = .I32 then
            [.target (createIInst .ADDIW (getPR (10 + st.iregCnt)) (getPR (10 + st.iregCnt)) 0)]
           else []),
        iregCnt := st.iregCnt + 1 }
    else { st with stackArgs := st.stackArgs ++ [a], iregCnt := st.iregCnt + 1 }

/-- The second loop of `visit(CallInst&)`. -/
def assignArgs (prepared : List ArgTmp) : ArgAssign :=
  prepared.foldl assignArg { insts := [], stackArgs := [], iregCnt := 0, fregCnt := 0 }

/-- The body of the third loop: the store of `stackArgs[i]` at `sp + 8 * i`. -/
def storeStackArg (i : Nat) (a : ArgTmp) : List MInstruction :=
  let stackOffset : Int := Int.ofNat (i * 8)
  if -2048 ≤ stackOffset ∧ stackOffset ≤ 2047 then
    [.target (createSInst (selectStoreOp (some a.dt)) a.tmp PR.sp stackOffset)]
  else
    [.target (createUInst .LI PR.t6 stackOffset),
     .target (createRInst .ADD PR.t6 PR.sp PR.t6),
     .target (createSInst (selectStoreOp (some a.dt)) a.tmp PR.t6 0)]

/-- The third loop of `visit(CallInst&)`, from index `i` on. -/
def storeStackArgs : Nat → List ArgTmp → List MInstruction
  | _, [] => []
  | i, a :: rest => storeStackArg i a ++ storeStackArgs (i + 1) rest

/-- The redirection of the three intrinsics: the name of the library function. -/
def intrinsicTarget (funcName : String) : Option String :=
  if "llvm.memset".data.isPrefixOf funcName.data then some "memset"
  else if "llvm.memcpy".data.isPrefixOf funcName.data then some "memcpy"
  else if "llvm.memmove".data.isPrefixOf funcName.data then some "memmove"
  else none

/-- The copy of the return value: `dst ← a0` or `dst ← fa0`, normalised for I32. -/
def callResultMoves (res : Option IROperand) (retType : IRType) : Option (List MInstruction) :=
  match res with
  | none => some []
  | some (.reg n) =>
    match mapType retType with
    | none => none
    | some rt =>
      let dst := makeVReg n rt
      let src := if isFloatType rt then PR.fa0 else PR.a0
      some ([createMove dst (.reg src)] ++
        (if rt = .I32 then [.target (createIInst .ADDIW dst dst 0)] else []))
  | some _ => none

/-- What `visit(CallInst&)` does: the instructions pushed to the current block, the register
counter, and the argument of `frameInfo.setParamAreaSize` when it is called. -/
structure CallSelection where
  insts : List MInstruction
  next : Nat
  paramAreaRequest : Option Int
deriving DecidableEq, Repr

/-- The method `IRIsel::visit(ME::CallInst&)`; `none` is a fatal `ERROR`. -/
def visitCall (funcName : String) (args : List (IRType × IROperand)) (res : Option IROperand)
    (retType : IRType) (next : Nat) : Option CallSelection :=
  let actualFuncName := (intrinsicTarget funcName).getD funcName
  let actualArgCount := if (intrinsicTarget funcName).isSome then 3 else args.length
  match prepareArgs (args.take actualArgCount) next with
  | none => none
  | some (prepared, pre, n1) =>
    let asg := assignArgs prepared
    let stores := storeStackArgs 0 asg.stackArgs
    let req : Option Int :=
      if asg.stackArgs.isEmpty then none else some (Int.ofNat (asg.stackArgs.length * 8))
    let call : MInstruction :=
      .target (createCallInst .CALL actualFuncName (Int.ofNat asg.iregCnt)
        (Int.ofNat asg.fregCnt))
    match callResultMoves res retType with
    | none => none
    | some ret =>
      some { insts := pre ++ asg.insts ++ stores ++ [call] ++ ret, next := n1,
             paramAreaRequest := req }

/-- The state of the argument loop of `visit(Function&)`: the instructions inserted at the
start of the entry block, the calls of `createIncomingArgObject(argIdx, offset)`, and the
three counters. -/
structure ParamState where
  insts : List MInstruction
  objects : List (Int × Int)
  iregCnt : Nat
  fregCnt : Nat
  stackArgCnt : Nat
deriving DecidableEq, Repr

/-- The body of the argument loop of `visit(Function&)`. -/
def lowerParam (st : ParamState) (arg : IRType × IROperand) : Option ParamState :=
  match arg.2, mapType arg.1 with
  | .reg n, some dt =>
    let dst := makeVReg n dt
    let fromStack : ParamState :=
      { st with
        insts := st.insts ++
          [.target (createIInstOp (selectLoadOp (some dt)) dst PR.sp
            (.frameIndex (-(Int.ofNat st.stackArgCnt + 1))))],
        objects := st.objects ++
          [(-(Int.ofNat st.stackArgCnt + 1), Int.ofNat (st.stackArgCnt * 8))],
        stackArgCnt := st.stackArgCnt + 1 }
    if isFloatType dt then
      if st.fregCnt < 8 then
        some { st with insts := st.insts ++ [createMove dst (.reg (getPR (42 + st.fregCnt)))],
                       fregCnt := st.fregCnt + 1 }
      else some fromStack
    else
      if st.iregCnt < 8 then
        some { st with insts := st.insts ++ [createMove dst (.reg (getPR (10 + st.iregCnt)))],
                       iregCnt := st.iregCnt + 1 }
      else some fromStack
  | _, _ => none

/-- The argument loop of `visit(Function&)`. -/
def lowerParams : List (IRType × IROperand) → ParamState → Option ParamState
  | [], st => some st
  | arg :: rest, st =>
    match lowerParam st arg with
    | none => none
    | some st1 => lowerParams rest st1

/-- The argument part of `IRIsel::visit(ME::Function&)` for the list `funcDef->argRegs`. -/
def visitParams (argRegs : List (IRType × IROperand)) : Option ParamState :=
  lowerParams argRegs { insts := [], objects := [], iregCnt := 0, fregCnt := 0,
                        stackArgCnt := 0 }

/-- Modelled from the spec: `getIncomingArgOffset(fi)` answers the offset that
`createIncomingArgObject(fi, offset)` recorded for the index, and a negative number for an
index that was never recorded (section 3.5); the class is declared in
`backend/mir/m_frame_info.h`, which is not among the sources. -/
def incomingArgOffsetOf (objects : List (Int × Int)) (fi : Int) : Int :=
  (objects.lookup fi).getD (-1)

/-- The frame layout of a callee whose incoming argument table is `objects`. -/
def calleeLayout (frameSize : Int) (objects : List (Int × Int)) : FrameLayout :=
  { frameSize := frameSize, objectOffset := fun _ => -1, spillSlotOffset := fun _ => -1,
    incomingArgOffset := incomingArgOffsetOf objects }

/-! ### The calling convention, as the description gives it

Positions count from 0 in argument order; `flags` tells for every argument whether it is a
float. -/

/-- The number of arguments before position `i` that have the class of argument `i`. -/
def sameClassBefore (flags : List Bool) (i : Nat) : Nat :=
  ((flags.take i).filter (fun f => f == flags.getD i false)).length

/-- The argument at position `i` does not fit in the eight argument registers of its class:
eight earlier arguments have the same class. -/
def overflows (flags : List Bool) (i : Nat) : Bool :=
  decide (8 ≤ sameClassBefore flags i)

/-- The number of arguments before position `i` that do not fit in registers: argument `i`,
when it does not fit either, is the `stackIndex`-th stack argument. -/
def stackIndex (flags : List Bool) (i : Nat) : Nat :=
  ((List.range i).filter (overflows flags)).length

/-- The instructions that bring the argument at position `i` into its argument register:
`a_k` or `fa_k` for `k = sameClassBefore`, nothing for a stack argument. -/
def regMoveOf (prepared : List ArgTmp) (i : Nat) : List MInstruction :=
  match prepared[i]? with
  | none => []
  | some a =>
    let flags := prepared.map (fun p => p.isFloat)
    let k := sameClassBefore flags i
    if overflows flags i then []
    else if a.isFloat then [createMove (getPR (42 + k)) (.reg a.tmp)]
    else [createMove (getPR (10 + k)) (.reg a.tmp)] ++
      (if a.dt = .I32 then [.target (createIInst .ADDIW (getPR (10 + k)) (getPR (10 + k)) 0)]
       else [])

/-- The arguments that do not fit in registers, in argument order. -/
def stackPassedArgs (prepared : List ArgTmp) : List ArgTmp :=
  ((List.range prepared.length).filter
    (overflows (prepared.map (fun p => p.isFloat)))).filterMap (fun i => prepared[i]?)

/-- The instruction with which the callee fetches the parameter at position `i`: a move
from `a_k` or `fa_k`, or a load from the incoming stack argument `-(j + 1)`. -/
def paramFetchOf (params : List (DataType × Nat)) (i : Nat) : List MInstruction :=
  match params[i]? with
  | none => []
  | some p =>
    let flags := params.map (fun q => isFloatType q.1)
    let k := sameClassBefore flags i
    let dst := makeVReg p.2 p.1
    if overflows flags i then
      [.target (createIInstOp (selectLoadOp (some p.1)) dst PR.sp
        (.frameIndex (-(Int.ofNat (stackIndex flags i) + 1))))]
    else if isFloatType p.1 then [createMove dst (.reg (getPR (42 + k)))]
    else [createMove dst (.reg (getPR (10 + k)))]

/-- Nine integer arguments `v0 .. v8` of type `i32`. -/
def nineArgs : List (IRType × IROperand) :=
  (List.range 9).map (fun i => (IRType.I32, IROperand.reg i))

/-- A call of `llvm.memset.p0.i32` with its four arguments `v0 .. v3`. -/
def memsetArgs : List (IRType × IROperand) :=
  [(.PTR, .reg 0), (.I8, .reg 1), (.I32, .reg 2), (.I1, .reg 3)]

/-- The parameters of a callee with their machine types: `mapType` of the IR type (I32 for
a type that `mapType` rejects, which makes the selection fail before the type is used). -/
def typedParams (params : List (IRType × Nat)) : List (DataType × Nat) :=
  params.map (fun p => ((mapType p.1).getD .I32, p.2))

/-- The float flags of a list of IR types. -/
def floatFlags (tys : List IRType) : List Bool :=
  tys.map (fun t => isFloatType ((mapType t).getD .I32))

/-- The table of incoming stack arguments of a callee with `m` stack parameters: index
`-(j + 1)` at offset `8 * j`. -/
def incomingTable (m : Nat) : List (Int × Int) :=
  (List.range m).map (fun j => (-(Int.ofNat j + 1), Int.ofNat (j * 8)))

/-- What is selected for `call llvm.memset.p0.i32(v0, v1, v2, v3)`: the call goes to
`memset` with three integer arguments. -/
def memsetCall : List MInstruction :=
  [.target (createIInst .ADDIW (makeVReg 1 .I32) (makeVReg 1 .I32) 0),
   .target (createIInst .ADDIW (makeVReg 2 .I32) (makeVReg 2 .I32) 0),
   createMove (getPR 10) (.reg (makeVReg 0 .I64)),
   createMove (getPR 11) (.reg (makeVReg 1 .I32)),
   .target (createIInst .ADDIW (getPR 11) (getPR 11) 0),
   createMove (getPR 12) (.reg (makeVReg 2 .I32)),
   .target (createIInst .ADDIW (getPR 12) (getPR 12) 0),
   .target (createCallInst .CALL "memset" 3 0)]

/-- What is selected for `call f(v0, ..., v8)` with nine `i32` arguments: the nine
normalisations, `a_k ← v_k` for `k < 8`, the store of `v8` at `0(sp)`, the call. -/
def nineArgsCall : List MInstruction :=
  (List.range 9).map
      (fun i => MInstruction.target (createIInst .ADDIW (makeVReg i .I32) (makeVReg i .I32) 0)) ++
    (List.range 8).flatMap
      (fun k => [createMove (getPR (10 + k)) (.reg (makeVReg k .I32)),
                 .target (createIInst .ADDIW (getPR (10 + k)) (getPR (10 + k)) 0)]) ++
    [.target (createSInst .SW (makeVReg 8 .I32) PR.sp 0),
     .target (createCallInst .CALL "f" 9 0)]

/-- The number of integer arguments of a call. -/
def intArgCount (prepared : List ArgTmp) : Nat :=
  ((prepared.map (fun p => p.isFloat)).filter (fun g => g == false)).length

/-- The number of float arguments of a call. -/
def floatArgCount (prepared : List ArgTmp) : Nat :=
  ((prepared.map (fun p => p.isFloat)).filter (fun g => g == true)).length

/-- The arguments that `visit(CallInst&)` passes: all of them, or the first three for the
redirected intrinsics. -/
def passedArgs (funcName : String) (args : List (IRType × IROperand)) :
    List (IRType × IROperand) :=
  args.take (if (intrinsicTarget funcName).isSome then 3 else args.length)

/-- A signature of nine `i32` parameters: the type, the caller's argument `v_i`, and the
number `20 + i` of the callee's parameter register. -/
def nineSig : List (IRType × IROperand × Nat) :=
  (List.range 9).map (fun i => (IRType.I32, IROperand.reg i, 20 + i))

/-- The vector `prepared` of a call with the arguments of `nineSig`. -/
def ninePrepared : List ArgTmp :=
  (List.range 9).map (fun i => { dt := .I32, isFloat := false, tmp := makeVReg i .I32 })

/-- The normalisations `ADDIW v_i, v_i, 0` that the first loop of the call pushes for the
arguments of `nineSig`. -/
def ninePre : List MInstruction :=
  (List.range 9).map
    (fun i => MInstruction.target (createIInst .ADDIW (makeVReg i .I32) (makeVReg i .I32) 0))

/-! ### Linear scan: numbering, liveness and intervals (`allocateFunction`, first half) -/

/-- The register lists that `allocateFunction` reads from the `TargetRegInfo`. -/
structure TargetRegInfo where
  intRegs : List Nat
  floatRegs : List Nat
  reservedRegs : List Nat
  calleeSavedIntRegs : List Nat
  calleeSavedFloatRegs : List Nat
  intArgRegs : List Nat
  floatArgRegs : List Nat

/-- The register info of the RV64 target (`rv64_reg_info.h`). -/
def rv64RegInfo : TargetRegInfo :=
  { intRegs := intRegs, floatRegs := floatRegs, reservedRegs := reservedRegs,
    calleeSavedIntRegs := calleeSavedIntRegs, calleeSavedFloatRegs := calleeSavedFloatRegs,
    intArgRegs := intArgRegs, floatArgRegs := floatArgRegs }

/-- The set `callPoints`: the positions of the calls in the numbering of the instructions,
in ascending order; `pos` is the number of the first instruction of the list. -/
def callPointsFrom : List MInstruction → Int → List Int
  | [], _ => []
  | i :: rest, pos =>
    (if InstrAdapter.isCall i then [pos] else []) ++ callPointsFrom rest (pos + 1)

/-- The insertion `s.insert(r)` into a `std::set<Register>`, held as a list without
regard to order. -/
def setInsert (s : List Register) (r : Register) : List Register :=
  if r ∈ s then s else s ++ [r]

/-- The insertion of a range, `s.insert(first, last)`. -/
def setUnion (a b : List Register) : List Register :=
  b.foldl setInsert a

/-- The comparison of two sets: the same elements. -/
def setEq (a b : List Register) : Bool :=
  a.all (fun r => decide (r ∈ b)) && b.all (fun r => decide (r ∈ a))

/-- The body of the loop that builds `use` and `def` of a block: the definitions of the
instruction enter `def` first, then every use that is not in `def` enters `use`. -/
def useDefStep (ud : List Register × List Register) (inst : MInstruction) :
    List Register × List Register :=
  let def1 := (enumDefs inst).foldl setInsert ud.2
  let use1 := (enumUses inst).foldl (fun u r => if r ∈ def1 then u else setInsert u r) ud.1
  (use1, def1)

/-- The pair `(USE[block], DEF[block])`. -/
def blockUseDef (insts : List MInstruction) : List Register × List Register :=
  insts.foldl useDefStep ([], [])

/-- The map `USE`, by block id (empty for an id that is not a block). -/
def useOf (blocks : BlockMap) (bid : Nat) : List Register :=
  match blocks.lookup bid with
  | some b => (blockUseDef b.insts).1
  | none => []

/-- The map `DEF`, by block id. -/
def defOf (blocks : BlockMap) (bid : Nat) : List Register :=
  match blocks.lookup bid with
  | some b => (blockUseDef b.insts).2
  | none => []

/-- The maps `IN` and `OUT` by block id (a missing entry is the empty set) and the flag
`changed`. -/
structure LiveState where
  liveIn : Nat → List Register
  liveOut : Nat → List Register
  changed : Bool

/-- The set `newOUT` of a block: the union of `IN` over its successors. -/
def newOUT (succs : Nat → List Nat) (liveIn : Nat → List Register) (bid : Nat) :
    List Register :=
  (succs bid).foldl (fun acc s => setUnion acc (liveIn s)) []

/-- The set `newIN`: `USE` and every register of `newOUT` that is not in `DEF`. -/
def newIN (use def1 nOut : List Register) : List Register :=
  nOut.foldl (fun acc r => if r ∈ def1 then acc else setInsert acc r) use

/-- The body of the loop over the blocks inside `while (changed)`. -/
def livenessStep (succs : Nat → List Nat) (blocks : BlockMap) (st : LiveState) (bid : Nat) :
    LiveState :=
  let nOut := newOUT succs st.liveIn bid
  let nIn := newIN (useOf blocks bid) (defOf blocks bid) nOut
  if setEq nOut (st.liveOut bid) && setEq nIn (st.liveIn bid) then st
  else
    { liveIn := Function.update st.liveIn bid nIn,
      liveOut := Function.update st.liveOut bid nOut,
      changed := true }

/-- One round of `while (changed)`: `changed` is reset, then every block is visited. -/
def livenessPass (succs : Nat → List Nat) (blocks : BlockMap) (st : LiveState) : LiveState :=
  (blocks.map (fun kb => kb.1)).foldl (livenessStep succs blocks) { st with changed := false }

/-- The loop `while (changed)`, at most `fuel` rounds; `none` when the fuel runs out. -/
def livenessLoop (succs : Nat → List Nat) (blocks : BlockMap) :
    Nat → LiveState → Option LiveState
  | 0, _ => none
  | fuel + 1, st =>
    let st1 := livenessPass succs blocks st
    if st1.changed then livenessLoop succs blocks fuel st1 else some st1

/-- The maps `IN` and `OUT` before the first round. -/
def emptyLive : LiveState :=
  { liveIn := fun _ => [], liveOut := fun _ => [], changed := true }

/-- The assignment `segs[idx].start = pos`. -/
def setStartAt : List Segment → Nat → Int → List Segment
  | [], _, _ => []
  | s :: rest, 0, pos => { s with start := pos } :: rest
  | s :: rest, idx + 1, pos => s :: setStartAt rest idx pos

/-- The statements `intervals[r].vreg = r; intervals[r].segs.emplace_back(s, e)`; the second
component is the index of the new segment. -/
def pushSegment (intervals : List (Register × Interval)) (r : Register) (seg : Segment) :
    List (Register × Interval) × Nat :=
  match intervals.lookup r with
  | some itv =>
    (regMapInsert r { itv with vreg := r, segs := itv.segs ++ [seg] } intervals,
      itv.segs.length)
  | none => (regMapInsert r { vreg := r, segs := [seg], crossesCall := false } intervals, 0)

/-- The statement `intervals[r].segs[idx].start = pos` for a register that has an
interval. -/
def setSegStart (intervals : List (Register × Interval)) (r : Register) (idx : Nat)
    (pos : Int) : List (Register × Interval) :=
  match intervals.lookup r with
  | some itv => regMapInsert r { itv with segs := setStartAt itv.segs idx pos } intervals
  | none => intervals

/-- The map `intervals` and the map `openSeg` of the block being scanned. -/
structure ScanState where
  intervals : List (Register × Interval)
  openSeg : List (Register × Nat)

/-- The loop over the registers that are live out of the block: an empty segment at the
end of the block is opened for each. -/
def openLiveOut (blockEnd : Int) (st : ScanState) (r : Register) : ScanState :=
  let p := pushSegment st.intervals r { start := blockEnd, endPos := blockEnd }
  { intervals := p.1, openSeg := regMapInsert r p.2 st.openSeg }

/-- The body of the loop over `defs` in the backward scan. -/
def scanDef (pos : Int) (st : ScanState) (d : Register) : ScanState :=
  if !d.isVreg then st
  else
    match st.openSeg.lookup d with
    | some idx =>
      { intervals := setSegStart st.intervals d idx pos, openSeg := regMapErase d st.openSeg }
    | none => st

/-- The body of the loop over `uses` in the backward scan. -/
def scanUse (pos : Int) (st : ScanState) (u : Register) : ScanState :=
  if !u.isVreg then st
  else
    match st.openSeg.lookup u with
    | none =>
      let p := pushSegment st.intervals u { start := pos, endPos := pos + 1 }
      { intervals := p.1, openSeg := regMapInsert u p.2 st.openSeg }
    | some idx => { st with intervals := setSegStart st.intervals u idx pos }

/-- The backward scan over the instructions of a block, given in reverse order; `pos` is the
number of the first instruction of the list. -/
def scanInsts : List MInstruction → Int → ScanState → ScanState
  | [], _, st => st
  | inst :: rest, pos, st =>
    scanInsts rest (pos - 1)
      ((enumUses inst).foldl (scanUse pos) ((enumDefs inst).foldl (scanDef pos) st))

/-- The body of the loop that builds the intervals, for one block with the instruction
numbers `[blockStart, blockEnd)`. The set `live` of the source is only read by the loop that
opens the segments. -/
def scanBlock (liveOut : List Register) (insts : List MInstruction) (blockStart : Int)
    (intervals : List (Register × Interval)) : List (Register × Interval) :=
  let blockEnd := blockStart + Int.ofNat insts.length
  let live := (liveOut.filter (fun r => r.isVreg)).foldl setInsert []
  let st0 := live.foldl (openLiveOut blockEnd) { intervals := intervals, openSeg := [] }
  let st1 := scanInsts insts.reverse (blockEnd - 1) st0
  st1.openSeg.foldl (fun iv ri => setSegStart iv ri.1 ri.2 blockStart) st1.intervals

/-- The loop over the blocks that builds the map `intervals`. -/
def buildIntervals (liveOut : Nat → List Register) :
    BlockMap → Int → List (Register × Interval) → List (Register × Interval)
  | [], _, intervals => intervals
  | (bid, block) :: rest, pos, intervals =>
    buildIntervals liveOut rest (pos + Int.ofNat block.insts.length)
      (scanBlock (liveOut bid) block.insts pos intervals)

/-- The comparison that `Interval::merge` sorts the segments with. -/
def segLess (a b : Segment) : Bool :=
  decide (a.start < b.start) || (decide (a.start = b.start) && decide (a.endPos < b.endPos))

/-- Insertion into a list of segments sorted by `segLess`. -/
def segInsert (x : Segment) : List Segment → List Segment
  | [] => [x]
  | y :: ys => if segLess x y then x :: y :: ys else y :: segInsert x ys

/-- The body of the loop of `Interval::merge` over the sorted segments; `out` holds the
segments kept so far. -/
def mergeStep (out : List Segment) (s : Segment) : List Segment :=
  match out.getLast? with
  | none => [s]
  | some last =>
    if s.start > last.endPos then out ++ [s]
    else if s.endPos > last.endPos then out.dropLast ++ [{ last with endPos := s.endPos }]
    else out

/-- The method `Interval::merge`. -/
def Interval.merge (itv : Interval) : Interval :=
  if itv.segs.length ≤ 1 then itv
  else { itv with segs := (itv.segs.foldr segInsert []).foldl mergeStep [] }

/-- All instructions of the function in the order of their numbers. -/
def linearInsts (blocks : BlockMap) : List MInstruction :=
  blocks.flatMap (fun kb => kb.2.insts)

/-- The method `LinearScanRA::allocateFunction`. The successor lists of the CFG are a
parameter (`CFGBuilder` is declared in `backend/common/cfg_builder.h`, which is not among
the sources); `slots` are the spill slots that the function's FrameInfo holds at the start.
The result is the function after the rewrite and the spill slots of its FrameInfo; `none`
when `fuel` rounds do not complete the liveness analysis or no scratch register is found. -/
def allocateFunction (fuel : Nat) (succs : Nat → List Nat) (ri : TargetRegInfo)
    (func : Function) (slots : List (Int × Int)) : Option (Function × List (Int × Int)) :=
  let callPoints := callPointsFrom (linearInsts func.blocks) 0
  match livenessLoop succs func.blocks fuel emptyLive with
  | none => none
  | some live =>
    let built := (buildIntervals live.liveOut func.blocks 0 []).map (fun ri => ri.2.merge)
    let intervals :=
      if callPoints.isEmpty then built else built.map (markCrossesCall callPoints)
    let alloc := allocateIntervals intervals ri.intRegs ri.floatRegs ri.reservedRegs
      ri.calleeSavedIntRegs ri.calleeSavedFloatRegs
      { spillFrameIndex := [], spillSlots := slots }
    let env : RewriteEnv :=
      { assignedPhys := alloc.assignedPhys, intervals := intervals,
        allIntRegs := buildAllocatable ri.intRegs ri.reservedRegs,
        allFloatRegs := buildAllocatable ri.floatRegs ri.reservedRegs,
        intArgRegs := ri.intArgRegs, floatArgRegs := ri.floatArgRegs }
    match rewriteBlocks env func.blocks alloc.spill 0 with
    | none => none
    | some (blocks, sp) => some ({ func with blocks := blocks }, sp.spillSlots)

/-- No instruction of the function uses or defines a virtual register. -/
def NoVregs (func : Function) : Prop :=
  ∀ kb ∈ func.blocks, ∀ i ∈ kb.2.insts, physOnly i

/-- The number of elements of a set held as a list. -/
def setCard (s : List Register) : Nat := s.toFinset.card

/-- All registers that some instruction of the function uses. -/
def allUses (blocks : BlockMap) : List Register :=
  (linearInsts blocks).flatMap enumUses

/-- A function of three blocks with physical registers only: a loop that counts `a0` down and
calls `f`. -/
def physLoop : Function :=
  { blocks :=
      [(0, { blockId := 0,
             insts := [.target (createIInst .ADDI PR.s1 PR.a0 0),
                       .target (createJInst .JAL PR.x0 (Label.ofJmp 1))] }),
       (1, { blockId := 1,
             insts := [.target (createIInst .ADDI PR.a0 PR.s1 0),
                       .target (createCallInst .CALL "f" 1 0),
                       .target (createIInst .ADDI PR.s1 PR.s1 (-1)),
                       .target (createBInst .BNE PR.s1 PR.x0 (Label.ofJmp 1)),
                       .target (createJInst .JAL PR.x0 (Label.ofJmp 2))] }),
       (2, { blockId := 2, insts := [.target (createIInst .JALR PR.x0 PR.ra 0)] })],
    stackSize := 0 }

/-- The successor lists of `physLoop`. -/
def physLoopSuccs (bid : Nat) : List Nat :=
  if bid = 0 then [1] else if bid = 1 then [1, 2] else []

/-- What holds of `IN` and `OUT` between two visits of a block: every set is below the
value that the next visit computes for it, and holds only registers that some instruction
uses. -/
def LiveInv (succs : Nat → List Nat) (blocks : BlockMap) (st : LiveState) : Prop :=
  (∀ b x, x ∈ st.liveOut b → x ∈ newOUT succs st.liveIn b) ∧
  (∀ b x, x ∈ st.liveIn b →
    x ∈ newIN (useOf blocks b) (defOf blocks b) (newOUT succs st.liveIn b)) ∧
  (∀ b x, x ∈ st.liveIn b → x ∈ allUses blocks) ∧
  (∀ b x, x ∈ st.liveOut b → x ∈ allUses blocks)

/-- The total size of the sets `IN` and `OUT` of the blocks. -/
def liveMeasure (blocks : BlockMap) (st : LiveState) : Nat :=
  Finset.sum (blocks.map (fun kb => kb.1)).toFinset
    (fun b => setCard (st.liveIn b) + setCard (st.liveOut b))

/-- A bound for `liveMeasure`: two sets per block, each within the registers used. -/
def liveBound (blocks : BlockMap) : Nat :=
  (blocks.map (fun kb => kb.1)).toFinset.card * (2 * setCard (allUses blocks))

/-! ## Stack lowering: the place of a lowered instruction -/

/-- What a run of instructions of a block has become after the resolution loop and the
epilogue loop of `lowerFunction`: every instruction is replaced where it stands. -/
def loweredInsts (func : Function) (layout : FrameLayout) (l : List MInstruction) :
    List MInstruction :=
  (l.flatMap (lowerInst layout (computeStackSize func layout))).flatMap
    (epilogueInst layout.frameSize (computeStackSize func layout) (savedRegs func))

/-- A block with a load of `a0` through frame index 7. -/
def farLoadInsts : List MInstruction :=
  [.target (createIInstOp .LW PR.a0 PR.sp (.frameIndex 7)),
   .target (createIInst .JALR PR.x0 PR.ra 0)]

/-- A function whose only block is `farLoadInsts`. -/
def farLoad : Function :=
  { blocks := [(0, { blockId := 0, insts := farLoadInsts })], stackSize := 0 }

/-- A frame layout that puts the object 7 at offset 2100. -/
def farLoadLayout : FrameLayout :=
  { frameSize := 2112,
    objectOffset := fun fi => if fi = 7 then 2100 else -1,
    spillSlotOffset := fun _ => -1,
    incomingArgOffset := fun _ => -1 }

/-! ## Pseudo-move lowering (`rv64_target.cpp`, `lowerPseudoMoves`) -/

/-- The test `isFloatType(dstReg.dt)` on the nullable type pointer of a register. -/
def isFloatReg (r : Register) : Bool :=
  match r.dt with
  | some d => isFloatType d
  | none => false

/-- The body of the loop of `lowerPseudoMoves` for one instruction: the instructions that
stand in its place afterwards and the counter of virtual registers; `none` when a move has
a null operand (`mv->dest->ot` or `mv->src->ot` is read through a null pointer). A move
whose destination is not a register, or whose source is of a kind the `switch` does not
list, stays in place. -/
def lowerPseudoMove (inst : MInstruction) (next : Nat) : Option (List MInstruction × Nat) :=
  match inst with
  | .move dest src =>
    match dest with
    | none => none
    | some (.reg dstReg) =>
      match src with
      | none => none
      | some (.reg srcReg) =>
        if srcReg = dstReg then some ([], next)
        else if isFloatReg dstReg then
          some ([.target (createR2Inst (if dstReg.dt = some .F32 then .FMV_S else .FMV_D)
            dstReg srcReg)], next)
        else
          some ([.target (createIInst (if dstReg.dt = some .I32 then .ADDIW else .ADDI)
            dstReg srcReg 0)], next)
      | some (.immI32 imm) =>
        if isFloatReg dstReg then
          let t := getVReg (some .I32) next
          some ([.target (createUInst .LI t.1 imm),
                 .target (createR2Inst .FMV_W_X dstReg t.1)], t.2)
        else some ([.target (createUInst .LI dstReg imm)], next)
      | some (.immF32 bits) =>
        let t := getVReg (some .I32) next
        some ([.target (createUInst .LI t.1 (wrap32 (Int.ofNat bits))),
               .target (createR2Inst .FMV_W_X dstReg t.1)], t.2)
      | some (.frameIndex _) => some ([inst], next)
    | some _ => some ([inst], next)
  | other => some ([other], next)

/-- The loop of `lowerPseudoMoves` over the instructions of a block. -/
def lowerPseudoMovesBlock : List MInstruction → Nat → Option (List MInstruction × Nat)
  | [], next => some ([], next)
  | inst :: rest, next =>
    match lowerPseudoMove inst next with
    | none => none
    | some (out, n1) =>
      match lowerPseudoMovesBlock rest n1 with
      | none => none
      | some (outs, n2) => some (out ++ outs, n2)

/-- The function `lowerPseudoMoves` on the blocks of one function. -/
def lowerPseudoMoves : BlockMap → Nat → Option (BlockMap × Nat)
  | [], next => some ([], next)
  | (bid, block) :: rest, next =>
    match lowerPseudoMovesBlock block.insts next with
    | none => none
    | some (insts, n1) =>
      match lowerPseudoMoves rest n1 with
      | none => none
      | some (blocks, n2) => some ((bid, { block with insts := insts }) :: blocks, n2)

/-- A move that the `switch` of `lowerPseudoMoves` has a case for: the destination is a
register and the source a register or an immediate. -/
def isLowerableMove : MInstruction → Bool
  | .move (some (.reg _)) (some (.reg _)) => true
  | .move (some (.reg _)) (some (.immI32 _)) => true
  | .move (some (.reg _)) (some (.immF32 _)) => true
  | _ => false

/-- A move of a register to itself. -/
def isSelfMove : MInstruction → Bool
  | .move (some (.reg d)) (some (.reg s)) => decide (s = d)
  | _ => false

/-- The instruction is a pseudo move. -/
def isMove : MInstruction → Bool
  | .move _ _ => true
  | _ => false

/-- No operand pointer of a move is null. -/
def moveOperandsPresent : MInstruction → Bool
  | .move (some _) (some _) => true
  | .move _ _ => false
  | _ => true

/-- How the instructions that stand in the place of `inst` relate to it: an instruction that
is not a lowerable move stays, a self-move leaves nothing, any other lowerable move leaves
one or two target instructions. -/
def ReplacedBy (inst : MInstruction) (chunk : List MInstruction) : Prop :=
  (isLowerableMove inst = false → chunk = [inst]) ∧
  (isSelfMove inst = true → chunk = []) ∧
  (isLowerableMove inst = true → isSelfMove inst = false →
    chunk ≠ [] ∧ ∀ o ∈ chunk, isTarget o = true)

/-- A block with a move to an immediate operand, a move of a frame index and a move of a
register. -/
def oddMoves : BlockMap :=
  [(0, { blockId := 0,
         insts := [.move (some (.immI32 0)) (some (.reg (vreg 1))),
                   .move (some (.reg (vreg 2))) (some (.frameIndex 0)),
                   createMove (vreg 3) (.reg (vreg 1))] })]

/-! ## DAG instruction selection (`isel/rv64_dag_isel.cpp`, `aarch64_dag_isel.cpp`) -/

/-- Modelled from the spec: the opcodes of a DAG node (section 3.3); the enumeration is
declared in `backend/dag/isd.h`, which is not among the sources. -/
inductive ISD where
  | ENTRY_TOKEN | TOKEN_FACTOR | CONST_I32 | CONST_I64 | CONST_F32 | FRAME_INDEX | SYMBOL
  | LABEL | REG | COPY | LOAD | STORE | ADD | SUB | MUL | DIV | MOD | AND | OR | XOR
  | SHL | ASHR | LSHR | FADD | FSUB | FMUL | FDIV | ICMP | FCMP | ZEXT | SITOFP | FPTOSI
  | BR | BRCOND | CALL | RET | PHI
deriving DecidableEq, Repr

/-- Modelled from the spec: a node of the SelectionDAG (section 3.3) with the parts that
`selectAddress` reads: the opcode, the operand edges and the optional 64-bit immediate
(`hasImmI64`, `getImmI64`). A pointer to a node is its index in the node table of the DAG,
a null pointer is `none`; the class is declared in `backend/dag/selection_dag.h`, which is
not among the sources. -/
structure SDNode where
  opcode : ISD
  operands : List (Option Nat)
  immI64 : Option Int
deriving DecidableEq, Repr

/-- The node table of a DAG. -/
abbrev SelectionDAG := Nat → SDNode

/-- The reference parameters `baseNode` and `offset` of `selectAddress`. -/
structure AddrOut where
  baseNode : Option Nat
  offset : Int
deriving DecidableEq, Repr

/-- The wrap-around of a sum of two `int64_t`. -/
def wrapI64 (v : Int) : Int :=
  (v + 9223372036854775808) % 18446744073709551616 - 9223372036854775808

/-- The test `(opcode == CONST_I32 || opcode == CONST_I64) && hasImmI64()` together with
the value `getImmI64()`. -/
def constImm (n : SDNode) : Option Int :=
  if n.opcode = .CONST_I32 ∨ n.opcode = .CONST_I64 then n.immI64 else none

/-- The method `DAGIsel::selectAddress`: the returned flag and the values of the two
reference parameters afterwards. The recursion is bounded by `fuel`; `none` when the fuel
runs out, when an ADD node has fewer than two operands, or when the opcode of a null operand
is read. The local `lhsBase` and `rhsBase` start as null. -/
def selectAddress (dag : SelectionDAG) : Nat → Option Nat → AddrOut → Option (Bool × AddrOut)
  | 0, _, _ => none
  | _ + 1, none, out => some (false, out)
  | fuel + 1, some a, out =>
    if (dag a).opcode = .FRAME_INDEX ∨ (dag a).opcode = .SYMBOL then
      some (true, { baseNode := some a, offset := 0 })
    else if (dag a).opcode = .ADD then
      match (dag a).operands[0]?, (dag a).operands[1]? with
      | some lhs, some rhs =>
        match selectAddress dag fuel lhs { baseNode := none, offset := 0 } with
        | none => none
        | some (true, l) =>
          match rhs with
          | none => none
          | some r =>
            match constImm (dag r) with
            | some c => some (true, { baseNode := l.baseNode, offset := wrapI64 (l.offset + c) })
            | none => some (false, out)
        | some (false, _) =>
          match selectAddress dag fuel rhs { baseNode := none, offset := 0 } with
          | none => none
          | some (true, r) =>
            match lhs with
            | none => none
            | some l =>
              match constImm (dag l) with
              | some c =>
                some (true, { baseNode := r.baseNode, offset := wrapI64 (r.offset + c) })
              | none => some (false, out)
          | some (false, _) => some (false, out)
      | _, _ => none
    else some (false, out)

/-- Every operand of a node has a smaller rank: the DAG has no cycle. -/
def Acyclic (dag : SelectionDAG) (rank : Nat → Nat) : Prop :=
  ∀ a b, some b ∈ (dag a).operands → rank b < rank a

/-- Every ADD node has two operands, neither of them null. -/
def AddsBinary (dag : SelectionDAG) : Prop :=
  ∀ a, (dag a).opcode = .ADD →
    ∃ l r, (dag a).operands[0]? = some (some l) ∧ (dag a).operands[1]? = some (some r)

/-- The values `val` of the nodes, as 64-bit integers, evaluate ADD nodes as addition and
constant nodes as their immediates. -/
def Denotes (dag : SelectionDAG) (val : Nat → Int) : Prop :=
  ∀ a, (∀ l r, (dag a).opcode = .ADD → (dag a).operands[0]? = some (some l) →
        (dag a).operands[1]? = some (some r) → val a = wrapI64 (val l + val r)) ∧
      (∀ c, constImm (dag a) = some c → val a = c)

/-- The address `(fi + 8) + 4` with the constant on the left of the outer ADD: node 0 is a
frame index, nodes 1 and 3 are constants, nodes 2 and 4 are the ADD nodes. -/
def sampleDAG : SelectionDAG := fun a =>
  match a with
  | 0 => { opcode := .FRAME_INDEX, operands := [], immI64 := none }
  | 1 => { opcode := .CONST_I64, operands := [], immI64 := some 8 }
  | 2 => { opcode := .ADD, operands := [some 0, some 1], immI64 := none }
  | 3 => { opcode := .CONST_I32, operands := [], immI64 := some 4 }
  | 4 => { opcode := .ADD, operands := [some 3, some 2], immI64 := none }
  | _ => { opcode := .LABEL, operands := [], immI64 := none }

/-- The values of the nodes of `sampleDAG` when the frame index stands for 1000. -/
def sampleVal (a : Nat) : Int :=
  match a with
  | 0 => 1000
  | 1 => 8
  | 2 => 1008
  | 3 => 4
  | 4 => 1012
  | _ => 0

namespace AArch64

/-- The operators that `selectBinary` chooses among; the full list `A64_INSTS` is declared
in `aarch64_defs.h`, which is not among the sources. -/
inductive Operator where
  | ADD | SUB | MUL | SDIV | FADD | FSUB | FMUL | FDIV | AND | ORR | EOR | LSL | ASR | LSR
deriving DecidableEq, Repr

/-- An AArch64 instruction: the operator and its operands in order. -/
structure Instr where
  op : Operator
  operands : List Operand
deriving DecidableEq, Repr

/-- The helper `createInstr3(op, dst, lhs, rhs)`; it is declared in `aarch64_defs.h`, which
is not among the sources. -/
def createInstr3 (op : Operator) (dst lhs rhs : Operand) : Instr :=
  { op := op, operands := [dst, lhs, rhs] }

/-- The block after a `select*` method and whether the method raised `ERROR`. -/
structure Selected where
  insts : List Instr
  error : Bool
deriving DecidableEq, Repr

/-- The `switch` of `selectBinary`: the operator for the opcode, `none` for the two cases
that raise `ERROR`. -/
def binaryOperator (opcode : ISD) (isFloat : Bool) : Option Operator :=
  match opcode with
  | .ADD => some (if isFloat then .FADD else .ADD)
  | .SUB => some (if isFloat then .FSUB else .SUB)
  | .MUL => some (if isFloat then .FMUL else .MUL)
  | .DIV => some (if isFloat then .FDIV else .SDIV)
  | .FADD => some .FADD
  | .FSUB => some .FSUB
  | .FMUL => some .FMUL
  | .FDIV => some .FDIV
  | .AND => some .AND
  | .OR => some .ORR
  | .XOR => some .EOR
  | .SHL => some .LSL
  | .ASHR => some .ASR
  | .LSHR => some .LSR
  | .MOD => none
  | _ => none

/-- The method `DAGIsel::selectBinary` of the AArch64 target for a node with `numOperands`
operands and the given opcode. `dst` is the register of the node, `lhsReg` and `rhsReg`
are the registers that `getOperandReg` returned for the operands, and `insts` is the block
after those two calls. -/
def selectBinary (numOperands : Nat) (opcode : ISD) (dst lhsReg rhsReg : Register)
    (insts : List Instr) : Selected :=
  if numOperands < 2 then { insts := insts, error := false }
  else
    match binaryOperator opcode (decide (dst.dt = some .F32) || decide (dst.dt = some .F64)) with
    | some op =>
      { insts := insts ++ [createInstr3 op (.reg dst) (.reg lhsReg) (.reg rhsReg)],
        error := false }
    | none => { insts := insts, error := true }

end AArch64

/-! ### Linear scan: what holds of `active` and `assignedPhys` during the allocation loop -/

/-- The state of the allocation loop after the intervals `pre` have been visited, for the
map `assigned0` that the loop started with and the registers `allRegs` of the class: every
active interval has been visited and has a register; two active intervals with the same
register are the same interval; a visited interval that has a register has one of
`allRegs` and is active or ends before a visited interval starts; two visited intervals with
the same register do not overlap; the entries of registers that were not visited are those
of `assigned0`. -/
def AllocInv (assigned0 : List (Register × Nat)) (allRegs : List Nat) (pre : List Interval)
    (st : AllocState) : Prop :=
  (∀ x ∈ st.active, x ∈ pre ∧ ∃ r, st.assignedPhys.lookup x.vreg = some r) ∧
  (∀ x ∈ st.active, ∀ y ∈ st.active,
    st.assignedPhys.lookup x.vreg = st.assignedPhys.lookup y.vreg → x = y) ∧
  (∀ x ∈ pre, ∀ r, st.assignedPhys.lookup x.vreg = some r →
    r ∈ allRegs ∧ (x ∈ st.active ∨ ∃ c ∈ pre, intervalEnd x ≤ intervalStart c)) ∧
  (∀ x ∈ pre, ∀ y ∈ pre, x.vreg ≠ y.vreg → ∀ r, st.assignedPhys.lookup x.vreg = some r →
    st.assignedPhys.lookup y.vreg = some r →
    intervalEnd x ≤ intervalStart y ∨ intervalEnd y ≤ intervalStart x) ∧
  (∀ k, (∀ x ∈ pre, x.vreg ≠ k) → st.assignedPhys.lookup k = assigned0.lookup k)

/-- The state of the allocation loop for the integer intervals after the sorted intervals
`pre` have been visited. -/
def intLoopState (intRegsAll reserved calleeInt : List Nat)
    (spill : SpillState) (pre : List Interval) : AllocState :=
  pre.foldl
    (allocateStep ((buildAllocatable intRegsAll reserved).filter (fun r => decide (r ∈ calleeInt)))
      (buildOrder (buildAllocatable intRegsAll reserved) calleeInt false) calleeInt)
    { assignedPhys := [], spill := spill, active := [] }

/-- The state of the allocation loop for the float intervals after the sorted intervals
`pre` have been visited; the loop starts from what the loop for the integer intervals
left. -/
def floatLoopState (intervals : List Interval)
    (intRegsAll floatRegsAll reserved calleeInt calleeFloat : List Nat)
    (spill : SpillState) (pre : List Interval) : AllocState :=
  let afterInt := allocateForClass (intervals.filter isIntInterval)
    (buildAllocatable intRegsAll reserved) calleeInt [] spill
  pre.foldl
    (allocateStep
      ((buildAllocatable floatRegsAll reserved).filter (fun r => decide (r ∈ calleeFloat)))
      (buildOrder (buildAllocatable floatRegsAll reserved) calleeFloat false) calleeFloat)
    { assignedPhys := afterInt.assignedPhys, spill := afterInt.spill, active := [] }

/-- Integer intervals `v1 .. vn`, all with the one segment `[0, 20)`. -/
def crowd (n : Nat) : List Interval :=
  (List.range n).map (fun i =>
    { vreg := vreg (i + 1), segs := [{ start := 0, endPos := 20 }], crossesCall := false })

/-- The instructions of `sumFunction n`: `n` values are loaded into `v1 .. vn`, then added
up. -/
def sumInsts (n : Nat) : List MInstruction :=
  (List.range n).map (fun i => .target (createUInst .LI (vreg (i + 1)) (Int.ofNat i))) ++
  [.target (createRInst .ADDW (vreg (n + 1)) (vreg 1) (vreg 2))] ++
  (List.range (n - 2)).map (fun i =>
    .target (createRInst .ADDW (vreg (n + 2 + i)) (vreg (n + 1 + i)) (vreg (3 + i)))) ++
  [.target (createIInst .ADDIW PR.a0 (vreg (2 * n - 1)) 0),
   .target (createIInst .JALR PR.x0 PR.ra 0)]

/-- A function of one block in which the `n` integer registers `v1 .. vn` are live at the
same position (at `n - 1`, the last load). -/
def sumFunction (n : Nat) : Function :=
  { blocks := [(0, { blockId := 0, insts := sumInsts n })], stackSize := 0 }

/-! ### Linear scan: what holds of the segments during the backward scan -/

/-- The instruction at position `p` of the numbering writes `v`. -/
def writesAt (prog : List MInstruction) (p : Int) (v : Register) : Prop :=
  ∃ n : Nat, p = Int.ofNat n ∧ ∃ inst, prog[n]? = some inst ∧ v ∈ enumDefs inst

/-- The instruction at position `p` of the numbering reads `v`. -/
def readsAt (prog : List MInstruction) (p : Int) (v : Register) : Prop :=
  ∃ n : Nat, p = Int.ofNat n ∧ ∃ inst, prog[n]? = some inst ∧ v ∈ enumUses inst

/-- Between `q` and the end of the segment `s` the register `v` is written at most by the
last instruction of the segment, and only by one that also reads `v`. -/
def SegFrom (prog : List MInstruction) (v : Register) (s : Segment) (q : Int) : Prop :=
  ∀ p, q ≤ p → p < s.endPos → writesAt prog p v → p = s.endPos - 1 ∧ readsAt prog p v

/-- The segment `intervals[v].segs[i]`, if there is one. -/
def segAt (ivs : List (Register × Interval)) (v : Register) (i : Nat) : Option Segment :=
  match ivs.lookup v with
  | some itv => itv.segs[i]?
  | none => none

/-- The state of the backward scan over a block when the instructions from position `qs`
on have been visited: an open segment belongs to a virtual register, starts at `qs` or
later, ends at `qe` or later and satisfies `SegFrom` from `qs`; every other segment
satisfies it from the position after its start. -/
def ScanInv (prog : List MInstruction) (qs qe : Int) (st : ScanState) : Prop :=
  (∀ v i, (v, i) ∈ st.openSeg → v.isVreg = true ∧ ∃ s, segAt st.intervals v i = some s ∧
    qs ≤ s.start ∧ qe ≤ s.endPos ∧ SegFrom prog v s qs) ∧
  (∀ v i s, segAt st.intervals v i = some s → (v, i) ∉ st.openSeg →
    SegFrom prog v s (s.start + 1))

/-- Every segment of `a` is a segment of `b` with the same index and the same end, and
starts in `b` where it starts in `a` or earlier. -/
def Grow (a b : List (Register × Interval)) : Prop :=
  ∀ v i s, segAt a v i = some s →
    ∃ t, segAt b v i = some t ∧ t.start ≤ s.start ∧ t.endPos = s.endPos

/-- Some segment of `v` contains the position `p`. -/
def Cov (ivs : List (Register × Interval)) (v : Register) (p : Int) : Prop :=
  ∃ i s, segAt ivs v i = some s ∧ s.start ≤ p ∧ p < s.endPos

/-- Every interval of the map carries the register it is stored under. -/
def KeyOK (ivs : List (Register × Interval)) : Prop :=
  ∀ v itv, ivs.lookup v = some itv → itv.vreg = v

/-- Every segment satisfies `SegFrom` from the position after its start. -/
def AllClosed (prog : List MInstruction) (ivs : List (Register × Interval)) : Prop :=
  ∀ v i s, segAt ivs v i = some s → SegFrom prog v s (s.start + 1)

/-- A block in which `v1` is loaded, rewritten in place by `ADDIW v1, v1, 0` and then
read. -/
def selfUpdate : BlockMap :=
  [(0, { blockId := 0,
         insts := [.target (createUInst .LI (vreg 1) 5),
                   .target (createIInst .ADDIW (vreg 1) (vreg 1) 0),
                   .target (createIInst .ADDIW PR.a0 (vreg 1) 0),
                   .target (createIInst .JALR PR.x0 PR.ra 0)] })]

/-- The interval that the scan builds for `v1` in `selfUpdate`, before `merge`. -/
def selfUpdateInterval : Interval :=
  { vreg := vreg 1, segs := [{ start := 1, endPos := 3 }, { start := 0, endPos := 2 }],
    crossesCall := false }

/-- The keys of the map are in strictly ascending order. -/
def KeysSorted {β : Type} (m : List (Register × β)) : Prop :=
  m.Pairwise (fun x y => Register.lt x.1 y.1 = true)

/-! ### Linear scan: registers and spill slots after the allocation loops -/

/-- The state of the allocation loop after the intervals `pre` have been visited, for the
map `assigned0` and the spill slots `spill0` that the loop started with: every active
interval has been visited; the register of a visited interval has either an entry in
`assignedPhys` or one in `spillFrameIndex`, never both; an entry of `spillFrameIndex` names
a slot of the spill area; the entries of registers that were not visited are those of
`assigned0` and `spill0`. -/
def SlotInv (assigned0 : List (Register × Nat)) (spill0 : SpillState) (pre : List Interval)
    (st : AllocState) : Prop :=
  (∀ x ∈ st.active, x ∈ pre) ∧
  (∀ x ∈ pre,
    ((∃ r, st.assignedPhys.lookup x.vreg = some r) ∧
        st.spill.spillFrameIndex.lookup x.vreg = none) ∨
      (st.assignedPhys.lookup x.vreg = none ∧
        ∃ fi, st.spill.spillFrameIndex.lookup x.vreg = some fi)) ∧
  (∀ k fi, st.spill.spillFrameIndex.lookup k = some fi →
    0 ≤ fi ∧ fi < Int.ofNat st.spill.spillSlots.length) ∧
  (∀ k, (∀ x ∈ pre, x.vreg ≠ k) →
    st.assignedPhys.lookup k = assigned0.lookup k ∧
    st.spill.spillFrameIndex.lookup k = spill0.spillFrameIndex.lookup k)

/-- A virtual register without a data type (`dt` is null). -/
def untypedVreg : Register := { rId := 1, dt := none, isVreg := true }

/-- The block `LI u, 5; ADDIW a0, u, 0; JALR x0, ra, 0` for the untyped register `u`. -/
def untypedBlocks : BlockMap :=
  [(0, { blockId := 0,
         insts := [.target (createUInst .LI untypedVreg 5),
                   .target (createIInst .ADDIW PR.a0 untypedVreg 0),
                   .target (createIInst .JALR PR.x0 PR.ra 0)] })]

/-! ### Linear scan: the scratch registers of one instruction -/

/-- The invariant of the two rewrite loops of one instruction, on the map `scratchMap` and
the sets of `pickScratch`, for the registers `ops` that the loops visit and the set
`forbidden0` that the instruction starts with: `forbidden` has only grown; every entry of
`scratchMap` belongs to a virtual register of `ops` without an assigned register, and its
scratch is a physical register of the same type that is in `forbidden` now, was not in
`forbidden0` and passed the test `isPhysLive`; two entries for different registers hold
different scratch registers. -/
def ScratchInv (env : RewriteEnv) (pos : Int) (forbidden0 : List Nat) (ops : List Register)
    (scratchMap : List (Register × Register)) (sc : ScratchState) : Prop :=
  (∀ x ∈ forbidden0, x ∈ sc.forbidden) ∧
  (∀ u s, scratchMap.lookup u = some s →
    u ∈ ops ∧ u.isVreg = true ∧ env.assignedPhys.lookup u = none ∧
    s.isVreg = false ∧ s.dt = u.dt ∧ s.rId ∈ sc.forbidden ∧ s.rId ∉ forbidden0 ∧
    isPhysLive env u.isFloat s.rId pos = false ∧
    (s.rId ∈ (if u.isFloat then env.allFloatRegs else env.allIntRegs) ∨
      s.rId ∈ (if u.isFloat then env.floatArgRegs else env.intArgRegs))) ∧
  (∀ u s u2 s2, scratchMap.lookup u = some s → scratchMap.lookup u2 = some s2 → u ≠ u2 →
    s.rId ≠ s2.rId)

/-- The data that the rewrite phase of `allocateFunction` reads for `sumFunction 19` with
the RV64 register info; the function has no call. -/
def sumEnv : RewriteEnv :=
  { assignedPhys := (allocateIntervals
        ((buildIntervals (fun _ => []) (sumFunction 19).blocks 0 []).map (fun ri => ri.2.merge))
        rv64RegInfo.intRegs rv64RegInfo.floatRegs rv64RegInfo.reservedRegs
        rv64RegInfo.calleeSavedIntRegs rv64RegInfo.calleeSavedFloatRegs
        { spillFrameIndex := [], spillSlots := [] }).assignedPhys,
    intervals :=
      (buildIntervals (fun _ => []) (sumFunction 19).blocks 0 []).map (fun ri => ri.2.merge),
    allIntRegs := buildAllocatable rv64RegInfo.intRegs rv64RegInfo.reservedRegs,
    allFloatRegs := buildAllocatable rv64RegInfo.floatRegs rv64RegInfo.reservedRegs,
    intArgRegs := rv64RegInfo.intArgRegs, floatArgRegs := rv64RegInfo.floatArgRegs }

/-- The instruction at position 35 of `sumFunction 19`: `ADDW v36, v35, v18`; `v18` is one
of the two registers that end up without a physical register. -/
def sumInst35 : MInstruction :=
  .target (createRInst .ADDW (vreg 36) (vreg 35) (vreg 18))

/-! ## Frame lowering before register allocation (`passes/lowering/frame_lowering.cpp`) -/

def isLoadOp (op : Operator) : Bool :=
  decide (op = .LW) || decide (op = .LD) || decide (op = .FLW) || decide (op = .FLD)

def isStoreOp (op : Operator) : Bool :=
  decide (op = .SW) || decide (op = .SD) || decide (op = .FSW) || decide (op = .FSD)

/-- The offset that the loop of `FrameLoweringPass::runOnFunction` looks up for a frame
index: that of the local object, or that of the spill slot when the first is negative. -/
def frameOffset (layout : FrameLayout) (frameIndex : Int) : Int :=
  if layout.objectOffset frameIndex < 0 then layout.spillSlotOffset frameIndex
  else layout.objectOffset frameIndex

/-- The body of the loop of `FrameLoweringPass::runOnFunction`: the instructions that stand
in the place of `inst` afterwards and the next unused virtual register id. The move of an
`int` into a register is the pseudo move with an immediate source. -/
def frameLowerInst (layout : FrameLayout) (inst : MInstruction) (next : Nat) :
    List MInstruction × Nat :=
  match inst with
  | .target ri =>
    if !ri.use_ops then ([inst], next)
    else
      match ri.fiop with
      | some (.frameIndex fi) =>
        let offset := frameOffset layout fi
        if offset < 0 then ([inst], next)
        else if imm12 offset then
          ([.target { ri with imme := offset, use_ops := false, fiop := none }], next)
        else if ri.op = .ADDI || ri.op = .ADDIW then
          let offReg := getVReg (if ri.rd.dt.isSome then ri.rd.dt else some .I64) next
          ([createMove offReg.1 (.immI32 offset),
            .target (createRInst (if ri.op = .ADDIW then .ADDW else .ADD) ri.rd ri.rs1 offReg.1)],
           offReg.2)
        else if isLoadOp ri.op || isStoreOp ri.op then
          let baseReg := if isStoreOp ri.op then ri.rs2 else ri.rs1
          let offReg := getVReg (some .I64) next
          let addrReg := getVReg (some .I64) offReg.2
          ([createMove offReg.1 (.immI32 offset),
            .target (createRInst .ADD addrReg.1 baseReg offReg.1),
            .target (if isStoreOp ri.op then
                { ri with rs2 := addrReg.1, imme := 0, use_ops := false, fiop := none }
              else { ri with rs1 := addrReg.1, imme := 0, use_ops := false, fiop := none })],
           addrReg.2)
        else ([.target { ri with imme := offset, use_ops := false, fiop := none }], next)
      | _ => ([inst], next)
  | other => ([other], next)

/-- The loop over the instructions of one block. -/
def frameLowerInsts (layout : FrameLayout) : List MInstruction → Nat → List MInstruction × Nat
  | [], next => ([], next)
  | inst :: rest, next =>
    let r := frameLowerInst layout inst next
    let r2 := frameLowerInsts layout rest r.2
    (r.1 ++ r2.1, r2.2)

/-- The loop over the blocks of the function. -/
def frameLowerBlocks (layout : FrameLayout) : BlockMap → Nat → BlockMap × Nat
  | [], next => ([], next)
  | (bid, block) :: rest, next =>
    let r := frameLowerInsts layout block.insts next
    let r2 := frameLowerBlocks layout rest r.2
    ((bid, { block with insts := r.1 }) :: r2.1, r2.2)

/-- The pass `FrameLoweringPass::runOnFunction` for the frame layout that
`calculateOffsets()` has fixed; the second component is the next unused virtual register
id. -/
def frameLowering (func : Function) (layout : FrameLayout) (next : Nat) : Function × Nat :=
  let r := frameLowerBlocks layout func.blocks next
  ({ func with blocks := r.1 }, r.2)

/-- The instructions of `localUser`: the address of local object 0, a load from local
object 1 and a store to local object 2. -/
def localUserInsts : List MInstruction :=
  [.target (createIInstOp .ADDI (vreg 1) PR.sp (.frameIndex 0)),
   .target (createIInstOp .LW (vreg 2) PR.sp (.frameIndex 1)),
   .target { createSInst .SW (vreg 2) PR.sp 0 with fiop := some (.frameIndex 2), use_ops := true },
   .target (createIInstOp .ADDIW (vreg 3) (vreg 2) (.frameIndex 7)),
   .target (createIInst .JALR PR.x0 PR.ra 0)]

/-- A function with the local objects 0 at offset 8, 1 at offset 4000 and 2 at offset
8000; frame index 7 is not known to the frame. -/
def localUser : Function :=
  { blocks := [(0, { blockId := 0, insts := localUserInsts })], stackSize := 0 }

/-- The frame layout of `localUser`. -/
def localUserLayout : FrameLayout :=
  { frameSize := 8016,
    objectOffset := fun fi => if fi = 0 then 8 else if fi = 1 then 4000 else
      if fi = 2 then 8000 else -1,
    spillSlotOffset := fun _ => -1,
    incomingArgOffset := fun _ => -1 }

/-! ### Phi elimination: what the split of a critical edge leaves of the predecessor -/

/-- How an instruction `b` of the predecessor of the edge to `succ` relates to the
instruction `a` that stood in its place before the pass: it is the same instruction, or `a`
was a branch to another block and `b` is `a` with the label of a block created by the pass
(an id above `maxId`). -/
def Retargeted (maxId succ : Nat) (a b : MInstruction) : Prop :=
  b = a ∨ ∃ t n, t ≠ succ ∧ branchesTo a t = true ∧ maxId < n ∧ b = setBranchTarget a n

/-! ### Address computation (`visit(GEPInst&)`) -/

/-- Modelled from the spec: the fields of a GEP that `visit(GEPInst&)` reads (section 3.2:
`GEP(base, indices, dims)`): the result, the base pointer, the element type, the type of the
indices, the dimensions and the indices; the class is declared in the middle-end headers,
which are not among the sources. -/
structure GEPInst where
  res : IROperand
  basePtr : IROperand
  dt : IRType
  idxType : IRType
  dims : List Int
  idxs : List IROperand
deriving DecidableEq, Repr

/-- The lambda `elemByteSize`. -/
def elemByteSize : IRType → Int
  | .I1 | .I8 | .I32 => 4
  | .I64 | .PTR => 8
  | .F32 => 4
  | .DOUBLE => 8
  | .TOKEN => 4

/-- The lambda `isPow2`: `v > 0 && (v & (v - 1)) == 0`. -/
def isPow2 (v : Int) : Bool :=
  decide (v > 0) && decide (v.toNat &&& (v.toNat - 1) = 0)

/-- The loop of the lambda `log2i`; a 64-bit value is halved at most 63 times. -/
def log2Loop : Nat → Int → Int → Int
  | 0, _, s => s
  | fuel + 1, v, s => if v > 1 then log2Loop fuel (v / 2) (s + 1) else s

/-- The lambda `log2i`. -/
def log2i (v : Int) : Int := log2Loop 64 v 0

/-- The lambda `strideForIndex`, for `indexCount` indices. -/
def strideForIndex (dims : List Int) (indexCount : Nat) (idxPos : Nat) : Int :=
  if dims.length = 0 then 1
  else if indexCount = dims.length + 1 ∧ idxPos = 0 then dims.foldl (fun s d => s * d) 1
  else
    let pos := if indexCount = dims.length + 1 then idxPos - 1 else idxPos
    if pos ≥ dims.length then 1 else (dims.drop (pos + 1)).foldl (fun s d => s * d) 1

/-- The variables of the loop over the indices: `offsetReg` is `none` while `hasRegOffset`
is false. -/
structure GepState where
  constOffset : Int
  offsetReg : Option Register
  insts : List MInstruction
  next : Nat
deriving DecidableEq, Repr

/-- The zero extension of an index register of type `I32`: the register `idx64`, the
instructions of the block and the virtual register counter. -/
def gepZext (idxReg : Register) (insts : List MInstruction) (next : Nat) :
    Register × List MInstruction × Nat :=
  if idxReg.dt = some .I32 then
    let zextReg := getVReg (some .I64) next
    (zextReg.1, insts ++ [.target (createR2Inst .ZEXT_W zextReg.1 idxReg)], zextReg.2)
  else (idxReg, insts, next)

/-- The scaling of `idx64` by the byte stride: the register `scaledReg`, the instructions of
the block and the virtual register counter. `static_cast<int>(byteStride)` keeps the low 32
bits. -/
def gepScale (byteStride : Int) (idx64 : Register) (insts : List MInstruction) (next : Nat) :
    Register × List MInstruction × Nat :=
  if byteStride ≠ 1 then
    if isPow2 byteStride then
      let shReg := getVReg (some .I64) next
      (shReg.1, insts ++ [.target (createIInst .SLLI shReg.1 idx64 (log2i byteStride))], shReg.2)
    else
      let strideReg := getVReg (some .I64) next
      let mulReg := getVReg (some .I64) strideReg.2
      (mulReg.1,
        insts ++ [createMove strideReg.1 (.immI32 (wrap32 byteStride)),
                  .target (createRInst .MUL mulReg.1 idx64 strideReg.1)], mulReg.2)
  else (idx64, insts, next)

/-- The accumulation of a scaled index into `offsetReg`. -/
def gepAccum (offsetReg : Option Register) (scaledReg : Register) (insts : List MInstruction)
    (next : Nat) : Register × List MInstruction × Nat :=
  match offsetReg with
  | none => (scaledReg, insts, next)
  | some off =>
    let sumReg := getVReg (some .I64) next
    (sumReg.1, insts ++ [.target (createRInst .ADD sumReg.1 off scaledReg)], sumReg.2)

/-- The body of the loop over the indices for an index with the byte stride `byteStride`;
`none` is a fatal error. `constOffset` and the strides are of type `int64_t`; they are kept
as integers here. -/
def gepIndex (idxType : IRType) (byteStride : Int) (idx : IROperand) (s : GepState) :
    Option GepState :=
  if byteStride = 0 then some s
  else
    match idx with
    | .immI32 v => some { s with constOffset := s.constOffset + v * byteStride }
    | .reg n =>
      match mapType idxType with
      | none => none
      | some dt =>
        let z := gepZext (makeVReg n dt) s.insts s.next
        let sc := gepScale byteStride z.1 z.2.1 z.2.2
        let acc := gepAccum s.offsetReg sc.1 sc.2.1 sc.2.2
        some { s with offsetReg := some acc.1, insts := acc.2.1, next := acc.2.2 }
    | _ => none

/-- The loop over the indices, from index `i` on. -/
def gepLoop (inst : GEPInst) : Nat → List IROperand → GepState → Option GepState
  | _, [], s => some s
  | i, idx :: rest, s =>
    match gepIndex inst.idxType
        (strideForIndex inst.dims inst.idxs.length i * elemByteSize inst.dt) idx s with
    | none => none
    | some s1 => gepLoop inst (i + 1) rest s1

/-- What follows the loop over the indices. -/
def gepFinish (dst baseReg : Register) (s : GepState) : List MInstruction × Nat :=
  if s.constOffset ≠ 0 then
    match s.offsetReg with
    | some offsetReg =>
      if imm12 s.constOffset then
        (s.insts ++ [.target (createIInst .ADDI offsetReg offsetReg (wrap32 s.constOffset)),
                     .target (createRInst .ADD dst baseReg offsetReg)], s.next)
      else
        let immReg := getVReg (some .I64) s.next
        let sumReg := getVReg (some .I64) immReg.2
        (s.insts ++ [createMove immReg.1 (.immI32 (wrap32 s.constOffset)),
                     .target (createRInst .ADD sumReg.1 offsetReg immReg.1),
                     .target (createRInst .ADD dst baseReg sumReg.1)], sumReg.2)
    | none =>
      if imm12 s.constOffset then
        (s.insts ++ [.target (createIInst .ADDI dst baseReg (wrap32 s.constOffset))], s.next)
      else
        let immReg := getVReg (some .I64) s.next
        (s.insts ++ [createMove immReg.1 (.immI32 (wrap32 s.constOffset)),
                     .target (createRInst .ADD dst baseReg immReg.1)], immReg.2)
  else
    match s.offsetReg with
    | some offsetReg => (s.insts ++ [.target (createRInst .ADD dst baseReg offsetReg)], s.next)
    | none => (s.insts ++ [createMove dst (.reg baseReg)], s.next)

/-- The register that holds the base pointer, the instructions that put it there and the
virtual register counter; `none` is the fatal error for an unsupported operand. -/
def gepBase (basePtr : IROperand) (next : Nat) : Option (Register × List MInstruction × Nat) :=
  match basePtr with
  | .reg n => some (makeVReg n .PTR, [], next)
  | .global name =>
    let r := getVReg (some .PTR) next
    some (r.1, [.target (createUInstLabel .LA r.1 (Label.ofName name false true))], r.2)
  | _ => none

/-- The part of `visit(ME::GEPInst&)` that follows the selection of the base register:
`baseInsts` are the instructions pushed so far. -/
def gepBody (inst : GEPInst) (dst baseReg : Register) (baseInsts : List MInstruction)
    (next : Nat) : Option (List MInstruction × Nat) :=
  if inst.idxs.isEmpty then some (baseInsts ++ [createMove dst (.reg baseReg)], next)
  else
    match gepLoop inst 0 inst.idxs
        { constOffset := 0, offsetReg := none, insts := baseInsts, next := next } with
    | none => none
    | some s => some (gepFinish dst baseReg s)

/-- The method `visit(ME::GEPInst&)`: the instructions pushed to the current block and the
virtual register counter; `none` is a fatal error. -/
def visitGEP (inst : GEPInst) (next : Nat) : Option (List MInstruction × Nat) :=
  match inst.res with
  | .reg resNum =>
    match gepBase inst.basePtr next with
    | none => none
    | some (baseReg, baseInsts, next1) =>
      gepBody inst (makeVReg resNum .PTR) baseReg baseInsts next1
  | _ => none

/-! ### The meaning of the selected address arithmetic

The definitions below give the architectural meaning of the instructions that
`visit(GEPInst&)` emits, on 64-bit registers held as natural numbers below `2 ^ 64`; `sym`
gives the addresses of the global symbols. -/

/-- One step: addition, addition of an immediate, left shift by an immediate below 64,
multiplication (low 64 bits), zero extension of the low word, the address of a symbol, and
the pseudo moves of an `int` and of a register; `none` for every other instruction. -/
def execAddrInst (sym : String → Nat) (st : RegFile) : MInstruction → Option RegFile
  | .target ri =>
    match ri.op with
    | .ADD =>
      some (writeReg st ri.rd ((readReg st ri.rs1 + readReg st ri.rs2) % 18446744073709551616))
    | .ADDI =>
      some (writeReg st ri.rd ((readReg st ri.rs1 + sext64 ri.imme) % 18446744073709551616))
    | .SLLI =>
      if 0 ≤ ri.imme ∧ ri.imme < 64 then
        some (writeReg st ri.rd
          ((readReg st ri.rs1 * 2 ^ ri.imme.toNat) % 18446744073709551616))
      else none
    | .MUL =>
      some (writeReg st ri.rd ((readReg st ri.rs1 * readReg st ri.rs2) % 18446744073709551616))
    | .ZEXT_W => some (writeReg st ri.rd (readReg st ri.rs1 % 4294967296))
    | .LA => some (writeReg st ri.rd (sym ri.label.name % 18446744073709551616))
    | _ => none
  | .move (some (.reg d)) (some (.immI32 v)) => some (writeReg st d (sext64 v))
  | .move (some (.reg d)) (some (.reg s)) => some (writeReg st d (readReg st s))
  | _ => none

/-- A list of instructions executed in order. -/
def execAddrInsts (sym : String → Nat) (st : RegFile) : List MInstruction → Option RegFile
  | [] => some st
  | i :: rest =>
    match execAddrInst sym st i with
    | none => none
    | some st1 => execAddrInsts sym st1 rest

/-- The stride of index `k` of `m` indices as the description gives it: with one index more
than dimensions the leading index has the product of all dimensions and index `k + 1` the
product of the dimensions after `k`; otherwise index `k` has the product of the dimensions
after `k`. -/
def strideSpec (dims : List Int) (m k : Nat) : Int :=
  if m = dims.length + 1 then
    match k with
    | 0 => dims.prod
    | j + 1 => (dims.drop (j + 1)).prod
  else (dims.drop (k + 1)).prod

/-- The value of an index: an immediate counts as it stands; a register of type `i32` counts
with the zero-extended low word of its contents, a register of type `i64` with its contents
read as a signed number. -/
def indexValue (st : RegFile) (idxType : IRType) : IROperand → Int
  | .immI32 v => v
  | .reg n =>
    match mapType idxType with
    | some .I32 => Int.ofNat (st (makeVReg n .I32) % 4294967296)
    | some dt => toSigned64 (st (makeVReg n dt))
    | none => 0
  | _ => 0

/-- The value of an index read as a signed number of its type. -/
def indexValueSigned (st : RegFile) (idxType : IRType) : IROperand → Int
  | .immI32 v => v
  | .reg n =>
    match mapType idxType with
    | some dt => toSigned64 (st (makeVReg n dt))
    | none => 0
  | _ => 0

/-- The sum over the indices of `value * stride * E`, from index `i` on. -/
def gepOffsetFrom (value : IROperand → Int) (inst : GEPInst) : Nat → List IROperand → Int
  | _, [] => 0
  | i, idx :: rest =>
    value idx * strideSpec inst.dims inst.idxs.length i * elemByteSize inst.dt +
      gepOffsetFrom value inst (i + 1) rest

/-- The address that the description gives for a GEP whose base pointer has the value
`base`. -/
def gepAddress (value : IROperand → Int) (inst : GEPInst) (base : Nat) : Nat :=
  sext64 (Int.ofNat base + gepOffsetFrom value inst 0 inst.idxs)

/-- The value of the base pointer of a GEP. -/
def baseValue (sym : String → Nat) (st : RegFile) : IROperand → Nat
  | .reg n => st (makeVReg n .PTR)
  | .global name => sym name % 18446744073709551616
  | _ => 0

/-- The GEP `%3 = gep i32, ptr %1, i32 %2` (no dimensions, one index in a register). -/
def gepByRegister : GEPInst :=
  { res := .reg 3, basePtr := .reg 1, dt := .I32, idxType := .I32, dims := [],
    idxs := [.reg 2] }

/-- The GEP `%9 = gep i32, ptr @a, i32 %4, i32 2, i32 %5` into an array of dimensions
`[3][5]`, with one index more than dimensions. -/
def gepMixed : GEPInst :=
  { res := .reg 9, basePtr := .global "a", dt := .I32, idxType := .I32, dims := [3, 5],
    idxs := [.reg 4, .immI32 2, .reg 5] }

/-- The GEP `%9 = gep i32, ptr %1, i32 1, i32 2` into an array of dimensions `[3][5]`. -/
def gepConst : GEPInst :=
  { res := .reg 9, basePtr := .reg 1, dt := .I32, idxType := .I32, dims := [3, 5],
    idxs := [.immI32 1, .immI32 2] }

/-- A register file: the pointer `%1` holds 1000, every other register the sign-extended
value `-1`. -/
def gepRegs : RegFile := fun r => if r = makeVReg 1 .PTR then 1000 else sext64 (-1)

/-- The GEP `%3 = gep i32, ptr %1, i32 1073741824` (no dimensions, one immediate index). -/
def gepHuge : GEPInst :=
  { res := .reg 3, basePtr := .reg 1, dt := .I32, idxType := .I32, dims := [],
    idxs := [.immI32 1073741824] }

/-- The part of the offset that the immediate indices contribute, from index `i` on. -/
def immOffsetFrom (inst : GEPInst) : Nat → List IROperand → Int
  | _, [] => 0
  | i, .immI32 v :: rest =>
    v * strideSpec inst.dims inst.idxs.length i * elemByteSize inst.dt +
      immOffsetFrom inst (i + 1) rest
  | i, _ :: rest => immOffsetFrom inst (i + 1) rest

/-- The instructions `insts`, run from `st`, end in `cur`; the registers numbered below `lo`
hold in `cur` what they hold in `st0`; the virtual register counter `next` is at least
`lo`. -/
def Emitted (sym : String → Nat) (st st0 : RegFile) (lo : Nat) (insts : List MInstruction)
    (next : Nat) (cur : RegFile) : Prop :=
  execAddrInsts sym st insts = some cur ∧ lo ≤ next ∧ ∀ r : Register, r.rId < lo → cur r = st0 r

/-- The register `r` is a virtual register numbered below `next` whose contents in `cur` are
`v` modulo `2 ^ 64`. -/
def HoldsMod (next : Nat) (cur : RegFile) (r : Register) (v : Int) : Prop :=
  r.isVreg = true ∧ r.rId < next ∧
    Int.ofNat (cur r) % 18446744073709551616 = v % 18446744073709551616

/-- The state of the loop over the indices: the instructions emitted so far ran from `st` to
`cur`, and `offsetReg`, when set, is a virtual register numbered from `lo` on that holds `R`
modulo `2 ^ 64`; `R` is 0 while it is not set. -/
def GepInv (sym : String → Nat) (st st0 : RegFile) (lo : Nat) (s : GepState) (cur : RegFile)
    (R : Int) : Prop :=
  Emitted sym st st0 lo s.insts s.next cur ∧
    match s.offsetReg with
    | none => R = 0
    | some r => HoldsMod s.next cur r R ∧ lo ≤ r.rId

/-! ### The dominator analyser (`utils/dom_analyser.cpp`)

Vectors are lists indexed from 0; `-1` in `dfs_to_block` and `parent` is `none`; a
`std::set<int>` is a strictly increasing list. -/

/-- The vectors that the depth-first search of `DomAnalyzer::build` fills. -/
structure DfsState where
  block_to_dfs : List Nat
  dfs_to_block : List (Option Nat)
  parent : List (Option Nat)
  semi_dom : List Nat
  dfs_count : Nat
deriving DecidableEq, Repr

/-- The recursive lambda `dfs`; the depth of the recursion is bounded by `fuel` (every call
that goes on numbers a new block, so the number of blocks is enough). -/
def DomAnalyzer.dfs (working_graph : List (List Nat)) : Nat → Nat → DfsState → DfsState
  | 0, _, st => st
  | fuel + 1, block, st =>
    if st.block_to_dfs.getD block 0 ≠ 0 then st
    else
      let cnt := st.dfs_count + 1
      let st1 : DfsState :=
        { st with
          block_to_dfs := st.block_to_dfs.set block cnt
          dfs_to_block := st.dfs_to_block.set cnt (some block)
          semi_dom := st.semi_dom.set block cnt
          dfs_count := cnt }
      (working_graph.getD block []).foldl
        (fun s next =>
          if s.block_to_dfs.getD next 0 = 0 then
            DomAnalyzer.dfs working_graph fuel next
              { s with parent := s.parent.set next (some block) }
          else s)
        st1

/-- The vectors of the union-find forest. -/
structure Dsu where
  dsu_parent : List Nat
  min_ancestor : List Nat
deriving DecidableEq, Repr

/-- The lambda `dsu_find` (path compression that keeps the ancestor of least `semi_dom`);
the depth of the recursion is bounded by `fuel`. -/
def DomAnalyzer.dsu_find (semi_dom : List Nat) : Nat → Nat → Dsu → Nat × Dsu
  | 0, u, d => (u, d)
  | fuel + 1, u, d =>
    let p := d.dsu_parent.getD u u
    if p = u then (u, d)
    else
      let r := DomAnalyzer.dsu_find semi_dom fuel p d
      let d1 := r.2
      let d2 : Dsu :=
        if semi_dom.getD (d1.min_ancestor.getD p p) 0 <
            semi_dom.getD (d1.min_ancestor.getD u u) 0 then
          { d1 with min_ancestor := d1.min_ancestor.set u (d1.min_ancestor.getD p p) }
        else d1
      (r.1, { d2 with dsu_parent := d2.dsu_parent.set u r.1 })

/-- The lambda `dsu_query`. -/
def DomAnalyzer.dsu_query (semi_dom : List Nat) (fuel u : Nat) (d : Dsu) : Nat × Dsu :=
  let r := DomAnalyzer.dsu_find semi_dom fuel u d
  (r.2.min_ancestor.getD u u, r.2)

/-- The vectors that the main loop of `DomAnalyzer::build` updates. -/
structure LtState where
  semi_dom : List Nat
  dsu : Dsu
  semi_children : List (List Nat)
  imm_dom : List Nat
deriving DecidableEq, Repr

/-- The loop over the predecessors of `v` that computes `best`. -/
def DomAnalyzer.bestLoop (dfsSt : DfsState) (node_count v : Nat) (semi_dom : List Nat) :
    List Nat → Nat × Dsu → Nat × Dsu
  | [], acc => acc
  | p :: rest, acc =>
    if dfsSt.block_to_dfs.getD p 0 = 0 then
      DomAnalyzer.bestLoop dfsSt node_count v semi_dom rest acc
    else if dfsSt.block_to_dfs.getD p 0 < dfsSt.block_to_dfs.getD v 0 then
      DomAnalyzer.bestLoop dfsSt node_count v semi_dom rest
        (min acc.1 (dfsSt.block_to_dfs.getD p 0), acc.2)
    else
      let q := DomAnalyzer.dsu_query semi_dom node_count p acc.2
      DomAnalyzer.bestLoop dfsSt node_count v semi_dom rest
        (min acc.1 (semi_dom.getD q.1 0), q.2)

/-- The loop over the bucket of `par`. -/
def DomAnalyzer.bucketLoop (node_count par : Nat) (semi_dom : List Nat) :
    List Nat → Dsu × List Nat → Dsu × List Nat
  | [], acc => acc
  | w :: rest, acc =>
    let q := DomAnalyzer.dsu_query semi_dom node_count w acc.1
    DomAnalyzer.bucketLoop node_count par semi_dom rest
      (q.2, acc.2.set w (if semi_dom.getD q.1 0 = semi_dom.getD w 0 then par else q.1))

/-- The body of the loop `for (dfs_id = dfs_count; dfs_id >= 2; --dfs_id)`. -/
def DomAnalyzer.semiStep (dfsSt : DfsState) (backward_edges : List (List Nat))
    (node_count : Nat) (s : LtState) (dfs_id : Nat) : LtState :=
  match dfsSt.dfs_to_block.getD dfs_id none with
  | none => s
  | some v =>
    let b := DomAnalyzer.bestLoop dfsSt node_count v s.semi_dom (backward_edges.getD v [])
      (s.semi_dom.getD v 0, s.dsu)
    let semi1 := s.semi_dom.set v b.1
    let children1 :=
      match dfsSt.dfs_to_block.getD (semi1.getD v 0) none with
      | some sdom_vertex =>
        if sdom_vertex < node_count then
          s.semi_children.set sdom_vertex (s.semi_children.getD sdom_vertex [] ++ [v])
        else s.semi_children
      | none => s.semi_children
    match dfsSt.parent.getD v none with
    | none => { s with semi_dom := semi1, dsu := b.2, semi_children := children1 }
    | some par =>
      let dsu1 : Dsu := { b.2 with dsu_parent := b.2.dsu_parent.set v par }
      if par < node_count then
        let r := DomAnalyzer.bucketLoop node_count par semi1 (children1.getD par [])
          (dsu1, s.imm_dom)
        { semi_dom := semi1, dsu := r.1, semi_children := children1.set par [],
          imm_dom := r.2 }
      else { s with semi_dom := semi1, dsu := dsu1, semi_children := children1 }

/-- The body of the loop `for (dfs_id = 2; dfs_id <= dfs_count; ++dfs_id)`. -/
def DomAnalyzer.compressStep (dfsSt : DfsState) (semi_dom : List Nat) (imm_dom : List Nat)
    (dfs_id : Nat) : List Nat :=
  match dfsSt.dfs_to_block.getD dfs_id none with
  | none => imm_dom
  | some curr =>
    if some (imm_dom.getD curr 0) ≠ dfsSt.dfs_to_block.getD (semi_dom.getD curr 0) none then
      imm_dom.set curr (imm_dom.getD (imm_dom.getD curr 0) 0)
    else imm_dom

/-- The insertion into a `std::set<int>`. -/
def DomAnalyzer.setInsert (x : Nat) : List Nat → List Nat
  | [] => [x]
  | y :: rest =>
    if x < y then x :: y :: rest
    else if x = y then y :: rest
    else y :: DomAnalyzer.setInsert x rest

/-- The loop `while (runner != stop)`; `fuel` bounds the number of rounds. -/
def DomAnalyzer.runnerLoop (imm_dom : List Nat) (virtual_source succ stop : Nat) :
    Nat → Nat → List (List Nat) → List (List Nat)
  | 0, _, df => df
  | fuel + 1, runner, df =>
    if runner = stop then df
    else
      let df1 := df.set runner (DomAnalyzer.setInsert succ (df.getD runner []))
      let next := imm_dom.getD runner 0
      if next = runner ∨ next ≥ virtual_source then df1
      else DomAnalyzer.runnerLoop imm_dom virtual_source succ stop fuel next df1

/-- Modelled from the spec: the result fields of `DomAnalyzer` that `build` fills (the class
is declared in `dom_analyzer.h`, which is not among the sources): `dom_tree` and `imm_dom`
are vectors, `dom_frontier` is a vector of sets. -/
structure DomAnalyzer where
  dom_tree : List (List Nat)
  dom_frontier : List (List Nat)
  imm_dom : List Nat
deriving DecidableEq, Repr

/-- The vector `backward_edges` of `build`. -/
def DomAnalyzer.backwardEdges (working_graph : List (List Nat)) (node_count : Nat) :
    List (List Nat) :=
  working_graph.enum.foldl
    (fun be uvs =>
      uvs.2.foldl
        (fun be1 v => if v < node_count then be1.set v (be1.getD v [] ++ [uvs.1]) else be1) be)
    (List.replicate node_count [])

/-- The state of the depth-first search from the virtual source. -/
def DomAnalyzer.dfsResult (working_graph : List (List Nat)) (node_count virtual_source : Nat) :
    DfsState :=
  DomAnalyzer.dfs working_graph node_count virtual_source
    { block_to_dfs := List.replicate node_count 0
      dfs_to_block := List.replicate (node_count + 1) none
      parent := List.replicate node_count none
      semi_dom := List.replicate node_count 0
      dfs_count := 0 }

/-- The vector `imm_dom` after the two loops of the Lengauer-Tarjan computation, still with
the entry of the virtual source. -/
def DomAnalyzer.rawImmDom (working_graph : List (List Nat)) (node_count virtual_source : Nat) :
    List Nat :=
  let dfsSt := DomAnalyzer.dfsResult working_graph node_count virtual_source
  let backward_edges := DomAnalyzer.backwardEdges working_graph node_count
  let s0 : LtState :=
    { semi_dom := dfsSt.semi_dom
      dsu := { dsu_parent := List.range node_count, min_ancestor := List.range node_count }
      semi_children := List.replicate node_count []
      imm_dom := List.replicate node_count 0 }
  let s1 := (List.range' 2 (dfsSt.dfs_count - 1)).reverse.foldl
    (DomAnalyzer.semiStep dfsSt backward_edges node_count) s0
  (List.range' 2 (dfsSt.dfs_count - 1)).foldl
    (DomAnalyzer.compressStep dfsSt s1.semi_dom) s1.imm_dom

/-- The method `DomAnalyzer::build`. The first construction of `dom_tree` is left out: the
vector is replaced by `new_dom_tree` before the method returns. -/
def DomAnalyzer.build (working_graph : List (List Nat)) (node_count virtual_source : Nat) :
    DomAnalyzer :=
  let dfsSt := DomAnalyzer.dfsResult working_graph node_count virtual_source
  let imm0 := (DomAnalyzer.rawImmDom working_graph node_count virtual_source).take
    virtual_source
  let imm_dom := (List.range virtual_source).foldl
    (fun imm i =>
      if dfsSt.block_to_dfs.getD i 0 = 0 then imm
      else if dfsSt.parent.getD i none = some virtual_source ∨ imm.getD i 0 ≥ virtual_source
      then imm.set i i
      else imm)
    imm0
  let dom_tree := (List.range virtual_source).foldl
    (fun t i =>
      if dfsSt.block_to_dfs.getD i 0 = 0 then t
      else
        let idom := imm_dom.getD i 0
        if idom < virtual_source ∧ idom ≠ i then t.set idom (t.getD idom [] ++ [i]) else t)
    (List.replicate virtual_source [])
  let dom_frontier := (List.range virtual_source).foldl
    (fun df block =>
      if dfsSt.block_to_dfs.getD block 0 = 0 then df
      else
        (working_graph.getD block []).foldl
          (fun df1 succ =>
            if succ ≥ virtual_source then df1
            else if dfsSt.block_to_dfs.getD succ 0 = 0 then df1
            else
              DomAnalyzer.runnerLoop imm_dom virtual_source succ (imm_dom.getD succ 0)
                (virtual_source + 1) block df1)
          df)
    (List.replicate virtual_source [])
  { dom_tree := dom_tree, dom_frontier := dom_frontier, imm_dom := imm_dom }

/-- The method `DomAnalyzer::solve` with `reverse = false`. -/
def DomAnalyzer.solve (graph : List (List Nat)) (entry_points : List Nat) : DomAnalyzer :=
  DomAnalyzer.build (graph ++ [entry_points]) (graph.length + 1) graph.length

/-! ### Dominance, as the comment at the head of `dom_analyser.cpp` defines it -/

/-- The nodes reachable from the nodes of `from_` along edges that avoid the node `avoid`
(`none`: no node is avoided); `fuel` rounds of adding successors. -/
def reachAvoiding (graph : List (List Nat)) (avoid : Option Nat) : Nat → List Nat → List Nat
  | 0, seen => seen
  | fuel + 1, seen =>
    reachAvoiding graph avoid fuel
      (seen.foldl
        (fun acc u =>
          (graph.getD u []).foldl
            (fun acc1 v => if some v = avoid ∨ v ∈ acc1 then acc1 else acc1 ++ [v]) acc)
        seen)

/-- The node `u` is reachable from an entry. -/
def reachable (graph : List (List Nat)) (entries : List Nat) (u : Nat) : Bool :=
  decide (u ∈ reachAvoiding graph none graph.length entries.eraseDups)

/-- The node `d` dominates `u`: `d` is on every path from an entry to `u`, that is, `u` is
`d` or `u` cannot be reached once `d` is taken away. -/
def dominates (graph : List (List Nat)) (entries : List Nat) (d u : Nat) : Bool :=
  decide (d = u) ||
    !decide (u ∈ reachAvoiding graph (some d) graph.length
      (entries.eraseDups.filter (fun e => e ≠ d)))

/-- The node `d` strictly dominates `u`. -/
def strictlyDominates (graph : List (List Nat)) (entries : List Nat) (d u : Nat) : Bool :=
  decide (d ≠ u) && dominates graph entries d u

/-- The immediate dominator of `u`: the strict dominator of `u` that every strict dominator
of `u` dominates; `none` when no node of the graph strictly dominates `u`. -/
def immediateDominator (graph : List (List Nat)) (entries : List Nat) (u : Nat) : Option Nat :=
  (List.range graph.length).find? (fun d =>
    strictlyDominates graph entries d u &&
      (List.range graph.length).all (fun c =>
        !strictlyDominates graph entries c u || dominates graph entries c d))

/-- The dominance frontier of `x` by definition: the nodes `y` such that `x` dominates a
reachable predecessor of `y` and does not strictly dominate `y`. -/
def frontierSpec (graph : List (List Nat)) (entries : List Nat) (x : Nat) : List Nat :=
  (List.range graph.length).filter (fun y =>
    (List.range graph.length).any (fun p =>
      reachable graph entries p && decide (y ∈ graph.getD p []) &&
        dominates graph entries x p) &&
    !strictlyDominates graph entries x y)

end RV64

/-! ## Theorems -/

namespace RV64

/-! ### Parallel copies: `buildParallelMoves` -/

theorem sweep_length_le (p : List (Register × Operand)) :
    ∀ dests, (sweep p dests).pending.length ≤ p.length := by
  induction p with
  | nil => intro dests; simp [sweep]
  | cons hd tl ih =>
    intro dests
    obtain ⟨dst, src⟩ := hd
    by_cases h : srcInDests src dests = true
    · have := ih dests
      simp [sweep, h]
      omega
    · have := ih (dests.filter (fun d => !decide (d = dst)))
      simp [sweep, h]
      omega

theorem sweep_progress_lt (p : List (Register × Operand)) :
    ∀ dests, (sweep p dests).progress = true → (sweep p dests).pending.length < p.length := by
  induction p with
  | nil => intro dests h; simp [sweep] at h
  | cons hd tl ih =>
    intro dests hp
    obtain ⟨dst, src⟩ := hd
    by_cases h : srcInDests src dests = true
    · simp [sweep, h] at hp ⊢
      exact ih dests hp
    · have := sweep_length_le tl (dests.filter (fun d => !decide (d = dst)))
      simp [sweep, h]
      omega

theorem sweep_dests_subset (p : List (Register × Operand)) :
    ∀ dests x, x ∈ (sweep p dests).dests → x ∈ dests := by
  induction p with
  | nil => intro dests x hx; simpa [sweep] using hx
  | cons hd tl ih =>
    intro dests x hx
    obtain ⟨dst, src⟩ := hd
    by_cases h : srcInDests src dests = true
    · simp [sweep, h] at hx
      exact ih dests x hx
    · simp [sweep, h] at hx
      have := ih _ x hx
      exact (List.mem_filter.mp this).1

theorem sweep_head_unblocked (dst : Register) (src : Operand) (rest : List (Register × Operand))
    (dests : List Register) (h : srcInDests src dests = false) :
    (sweep ((dst, src) :: rest) dests).progress = true := by
  simp [sweep, h]

theorem idBound_gt (l : List Register) : ∀ d ∈ l, d.rId < idBound l := by
  induction l with
  | nil => intro d hd; simp at hd
  | cons hd tl ih =>
    intro d hmem
    simp only [idBound, List.foldr_cons]
    rcases List.mem_cons.mp hmem with h | h
    · subst h; omega
    · have := ih d h
      simp only [idBound] at this
      omega

theorem buildLoop_of_progress (n k : Nat)
    (ih : ∀ (fuel : Nat) (pending : List (Register × Operand)) (dests : List Register)
      (moves : List MInstruction) (next : Nat),
      pending.length ≤ n → (∀ d ∈ dests, d.rId < next + k) → n * (k + 2) + 1 ≤ fuel →
      (buildLoop fuel pending dests moves next).isSome = true)
    (fuel : Nat) (p : Register × Operand) (ps : List (Register × Operand))
    (dests : List Register) (moves : List MInstruction) (next : Nat)
    (hlen : (p :: ps).length ≤ n + 1) (hb : ∀ d ∈ dests, d.rId < next + k)
    (hf : n * (k + 2) + 2 ≤ fuel) (hprog : (sweep (p :: ps) dests).progress = true) :
    (buildLoop fuel (p :: ps) dests moves next).isSome = true := by
  obtain ⟨f1, rfl⟩ : ∃ f1, fuel = f1 + 1 := ⟨fuel - 1, by omega⟩
  have hlt := sweep_progress_lt (p :: ps) dests hprog
  have hsub := sweep_dests_subset (p :: ps) dests
  simp only [buildLoop, hprog, if_true]
  apply ih
  · simp only [List.length_cons] at hlt hlen; omega
  · intro d hd; exact hb d (hsub d hd)
  · omega

theorem buildLoop_terminates (n : Nat) :
    ∀ (k fuel : Nat) (pending : List (Register × Operand)) (dests : List Register)
      (moves : List MInstruction) (next : Nat),
      pending.length ≤ n → (∀ d ∈ dests, d.rId < next + k) → n * (k + 2) + 1 ≤ fuel →
      (buildLoop fuel pending dests moves next).isSome = true := by
  induction n with
  | zero =>
    intro k fuel pending dests moves next hlen _ _
    have : pending = [] := List.length_eq_zero.mp (Nat.le_zero.mp hlen)
    subst this
    simp [buildLoop]
  | succ n ihn =>
    intro k
    induction k with
    | zero =>
      intro fuel pending dests moves next hlen hb hf
      cases pending with
      | nil => simp [buildLoop]
      | cons p ps =>
        simp only [Nat.zero_add, Nat.add_zero] at hf hb
        by_cases hprog : (sweep (p :: ps) dests).progress = true
        · exact buildLoop_of_progress n 0 (ihn 0) fuel p ps dests moves next hlen
            (by simpa using hb) (by omega) hprog
        · obtain ⟨f1, rfl⟩ : ∃ f1, fuel = f1 + 1 := ⟨fuel - 1, by omega⟩
          have hle := sweep_length_le (p :: ps) dests
          have hsub := sweep_dests_subset (p :: ps) dests
          simp only [buildLoop, hprog]
          generalize hr : sweep (p :: ps) dests = r at hle hsub
          cases hrp : r.pending with
          | nil => simp
          | cons hd tl =>
            obtain ⟨d0, s0⟩ := hd
            have hlen2 : tl.length ≤ n := by
              have : r.pending.length ≤ (p :: ps).length := hle
              rw [hrp] at this
              simp only [List.length_cons] at this hlen
              omega
            have hrest : ∀ (ms : List MInstruction),
                (buildLoop f1 tl (r.dests.filter (fun d => !decide (d = d0))) ms next).isSome
                  = true := by
              intro ms
              apply ihn 0
              · exact hlen2
              · intro d hd; simpa using hb d (hsub d (List.mem_filter.mp hd).1)
              · omega
            cases s0 with
            | reg r0 =>
              simp only [Bool.false_eq_true, if_false, getVReg]
              have hun : srcInDests
                  (Operand.reg { rId := next, dt := d0.dt, isVreg := true }) r.dests = false := by
                simp only [srcInDests, decide_eq_false_iff_not]
                intro hmem
                have := hb _ (hsub _ hmem)
                simp at this
              apply buildLoop_of_progress n 0 (ihn 0)
              · simpa using hlen2
              · intro d hd
                have := hb d (hsub d hd)
                omega
              · omega
              · exact sweep_head_unblocked _ _ _ _ hun
            | immI32 v => simpa using hrest _
            | immF32 v => simpa using hrest _
            | frameIndex v => simpa using hrest _
    | succ k ihk =>
      intro fuel pending dests moves next hlen hb hf
      cases pending with
      | nil => simp [buildLoop]
      | cons p ps =>
        have hmul : (n + 1) * (k + 1 + 2) = n * (k + 1 + 2) + (k + 3) := by ring
        have hmul2 : (n + 1) * (k + 2) = n * (k + 2) + (k + 2) := by ring
        have hmul3 : n * (k + 1 + 2) = n * (k + 2) + n := by ring
        by_cases hprog : (sweep (p :: ps) dests).progress = true
        · exact buildLoop_of_progress n (k + 1) (ihn (k + 1)) fuel p ps dests moves next hlen
            hb (by omega) hprog
        · obtain ⟨f1, rfl⟩ : ∃ f1, fuel = f1 + 1 := ⟨fuel - 1, by omega⟩
          have hle := sweep_length_le (p :: ps) dests
          have hsub := sweep_dests_subset (p :: ps) dests
          simp only [buildLoop, hprog]
          generalize hr : sweep (p :: ps) dests = r at hle hsub
          cases hrp : r.pending with
          | nil => simp
          | cons hd tl =>
            obtain ⟨d0, s0⟩ := hd
            have hlen2 : tl.length ≤ n := by
              have : r.pending.length ≤ (p :: ps).length := hle
              rw [hrp] at this
              simp only [List.length_cons] at this hlen
              omega
            have hrest : ∀ (ms : List MInstruction),
                (buildLoop f1 tl (r.dests.filter (fun d => !decide (d = d0))) ms next).isSome
                  = true := by
              intro ms
              apply ihn (k + 1)
              · exact hlen2
              · intro d hd; exact hb d (hsub d (List.mem_filter.mp hd).1)
              · omega
            cases s0 with
            | reg r0 =>
              simp only [Bool.false_eq_true, if_false, getVReg]
              apply ihk
              · simpa using hlen2
              · intro d hd
                have := hb d (hsub d hd)
                omega
              · omega
            | immI32 v => simpa using hrest _
            | immF32 v => simpa using hrest _
            | frameIndex v => simpa using hrest _

theorem buildParallelMoves_isSome (copies : List (Register × Option Operand)) (next : Nat) :
    ∃ res, buildParallelMoves copies next = some res := by
  have hs := buildLoop_terminates (collectPending copies []).length
    (idBound ((collectPending copies []).map Prod.fst) - next)
    ((collectPending copies []).length *
      (idBound ((collectPending copies []).map Prod.fst) - next + 2) + 1)
    (collectPending copies []) ((collectPending copies []).map Prod.fst) [] next
    (Nat.le_refl _)
    (fun d hd => by
      have := idBound_gt _ d hd
      omega)
    (Nat.le_refl _)
  exact Option.isSome_iff_exists.mp hs

/-! ### Phi elimination: `runOnFunction` -/

theorem processEdge_isSome (succs : List (Nat × List Nat)) (st : PhiState) (edge : EdgeKey)
    (copies : List (Register × Option Operand)) :
    ∃ st1, processEdge succs st edge copies = some st1 := by
  obtain ⟨res, hres⟩ := buildParallelMoves_isSome copies st.nextVReg
  obtain ⟨moves, nv⟩ := res
  simp only [processEdge]
  split
  · simp only [hres]
    split
    · exact ⟨_, rfl⟩
    · split
      · exact ⟨_, rfl⟩
      · split
        · exact ⟨_, rfl⟩
        · exact ⟨_, rfl⟩
  · exact ⟨st, rfl⟩

theorem processEdges_isSome (succs : List (Nat × List Nat))
    (ec : List (EdgeKey × List (Register × Option Operand))) :
    ∀ st : PhiState, ∃ st1, processEdges succs ec st = some st1 := by
  induction ec with
  | nil => intro st; exact ⟨st, rfl⟩
  | cons hd tl ih =>
    obtain ⟨edge, copies⟩ := hd
    intro st
    obtain ⟨st1, h1⟩ := processEdge_isSome succs st edge copies
    simp only [processEdges, h1]
    exact ih st1

theorem erasePhis_noPhi (blocks : BlockMap) :
    ∀ kb ∈ erasePhis blocks, ∀ i ∈ kb.2.insts, i.isPhi = false := by
  intro kb hkb i hi
  obtain ⟨kb0, _, rfl⟩ := List.mem_map.mp hkb
  have := (List.mem_filter.mp hi).2
  simpa using this

/-- Claim C4: for every function and every state of the virtual register counter,
`runOnFunction` returns a function, and no block of that function holds a phi; phis naming
a predecessor that is not a block, and edges without a branch, are covered as well. -/
theorem runOnFunction_no_phi (func : Function) (next : Nat) :
    ∃ g n, runOnFunction func next = some (g, n) ∧ noPhi g := by
  unfold runOnFunction
  split
  · rename_i hempty
    refine ⟨func, next, rfl, ?_⟩
    intro kb hkb
    have : func.blocks = [] := by simpa using hempty
    rw [this] at hkb
    simp at hkb
  · obtain ⟨st1, h1⟩ := processEdges_isSome
      (func.blocks.map (fun kb => (kb.1, getSuccessors kb.2)))
      (collectEdgeCopies func.blocks func.blocks [])
      { blocks := func.blocks,
        nextId := func.blocks.foldl (fun m kb => if kb.1 > m then kb.1 else m) 0 + 1,
        nextVReg := next }
    simp only [h1]
    exact ⟨_, _, rfl, erasePhis_noPhi st1.blocks⟩

theorem runOnFunction_diamond :
    runOnFunction diamond 100 = some (diamondLowered, 100) := by
  decide

/-- Claim C1, the chain `{v1 ← v2, v2 ← v3}`: `buildParallelMoves` first emits `v2 ← v3` and
then `v1 ← v2`, so in every register state `v1` ends up with the old value of `v3`; where the
old values of `v2` and `v3` differ, the value that `v1` was to receive is lost. -/
theorem buildParallelMoves_chain_loses_value :
    buildParallelMoves chainCopies 10 =
        some ([createMove (vreg 2) (.reg (vreg 3)), createMove (vreg 1) (.reg (vreg 2))], 10) ∧
      (∀ σ : RegState,
        execMoves σ [createMove (vreg 2) (.reg (vreg 3)), createMove (vreg 1) (.reg (vreg 2))]
          (vreg 1) = σ (vreg 3)) ∧
      execMoves idState [createMove (vreg 2) (.reg (vreg 3)), createMove (vreg 1) (.reg (vreg 2))]
          (vreg 1) ≠ idState (vreg 2) := by
  refine ⟨by decide, ?_, ?_⟩
  · intro σ
    simp [execMoves, execMove, createMove, evalOperand, Function.update, vreg]
  · simp [execMoves, execMove, createMove, evalOperand, Function.update, vreg, idState]

/-- The cycle `{v1 ← v2, v2 ← v1}` of scenario S6: the moves are `tmp ← v2; v1 ← tmp; v2 ← v1`,
after which both registers hold the old value of `v2`. -/
theorem buildParallelMoves_cycle_loses_value :
    buildParallelMoves cycleCopies 10 =
        some ([createMove { rId := 10, dt := some .I32, isVreg := true } (.reg (vreg 2)),
               createMove (vreg 1) (.reg { rId := 10, dt := some .I32, isVreg := true }),
               createMove (vreg 2) (.reg (vreg 1))], 11) ∧
      ∀ σ : RegState,
        execMoves σ [createMove { rId := 10, dt := some .I32, isVreg := true } (.reg (vreg 2)),
               createMove (vreg 1) (.reg { rId := 10, dt := some .I32, isVreg := true }),
               createMove (vreg 2) (.reg (vreg 1))] (vreg 2) = σ (vreg 2) := by
  refine ⟨by decide, ?_⟩
  intro σ
  simp [execMoves, execMove, createMove, evalOperand, Function.update, vreg]

/-! ### Stack lowering: the frame size -/

theorem lowerFunction_stackSize_eq (func : Function) (layout : FrameLayout) :
    (lowerFunction func layout).stackSize = computeStackSize func layout := by
  unfold lowerFunction
  simp only
  split <;> rfl

/-- Claim C6, as stated, fails: a function that writes s1 and has a local area of 16 bytes
gets `stackSize = 24`, which is not a multiple of 16. -/
theorem lowerFunction_stackSize_not_aligned :
    ¬ ((lowerFunction writesS1 layout16).stackSize % 16 = 0) := by
  decide

/-- Claim C6, amended: `stackSize` is the local area plus 8 bytes per saved register, without
rounding; modulo 16 it is the local area modulo 16, plus 8 when the number of saved
registers is odd. -/
theorem lowerFunction_stackSize (func : Function) (layout : FrameLayout) :
    (lowerFunction func layout).stackSize =
        layout.frameSize + 8 * Int.ofNat (savedRegs func).length ∧
      (lowerFunction func layout).stackSize % 16 =
        (layout.frameSize % 16 + 8 * Int.ofNat ((savedRegs func).length % 2)) % 16 := by
  rw [lowerFunction_stackSize_eq]
  unfold computeStackSize
  constructor
  · simp only [Int.ofNat_eq_coe]; ring
  · simp only [Int.ofNat_eq_coe, Int.natCast_mod, Nat.cast_ofNat]
    omega

/-! ### Stack lowering: the saved registers -/

theorem foldl_markReg (l : List Register) :
    ∀ (used : Nat → Bool) (id : Nat),
      l.foldl markReg used id = true ↔
        used id = true ∨ (id < 64 ∧ ∃ m ∈ l, m.isVreg = false ∧ m.rId = id) := by
  induction l with
  | nil => intro used id; simp
  | cons hd tl ih =>
    intro used id
    simp only [List.foldl_cons]
    rw [ih]
    by_cases hm : (!hd.isVreg && decide (hd.rId < 64)) = true
    · have hv : hd.isVreg = false := by
        cases h : hd.isVreg <;> simp [h] at hm ⊢
      have h64 : hd.rId < 64 := by
        simp only [hv, Bool.not_false, Bool.true_and, decide_eq_true_eq] at hm
        exact hm
      simp only [markReg, hm, if_true, List.mem_cons]
      by_cases hid : id = hd.rId
      · subst hid
        simp only [Function.update_same, true_or, true_iff]
        exact Or.inr ⟨h64, hd, Or.inl rfl, hv, rfl⟩
      · rw [Function.update_noteq hid]
        constructor
        · rintro (h | ⟨h1, m, hm1, hm2, hm3⟩)
          · exact Or.inl h
          · exact Or.inr ⟨h1, m, Or.inr hm1, hm2, hm3⟩
        · rintro (h | ⟨h1, m, hm1 | hm1, hm2, hm3⟩)
          · exact Or.inl h
          · subst hm1; exact absurd hm3.symm hid
          · exact Or.inr ⟨h1, m, hm1, hm2, hm3⟩
    · have hm0 : (!hd.isVreg && decide (hd.rId < 64)) = false := by
        simpa using hm
      simp only [markReg, hm0, Bool.false_eq_true, if_false, List.mem_cons]
      constructor
      · rintro (h | ⟨h1, m, hm1, hm2, hm3⟩)
        · exact Or.inl h
        · exact Or.inr ⟨h1, m, Or.inr hm1, hm2, hm3⟩
      · rintro (h | ⟨h1, m, hm1 | hm1, hm2, hm3⟩)
        · exact Or.inl h
        · subst hm1
          exfalso
          rw [hm2] at hm0
          simp only [Bool.not_false, Bool.true_and, decide_eq_false_iff_not] at hm0
          omega
        · exact Or.inr ⟨h1, m, hm1, hm2, hm3⟩

theorem usedRegs_iff (func : Function) (id : Nat) :
    usedRegs func id = true ↔
      id < 64 ∧ ∃ i ∈ allInsts func, ∃ m ∈ markedRegs i, m.isVreg = false ∧ m.rId = id := by
  unfold usedRegs
  rw [foldl_markReg]
  simp only [Bool.false_eq_true, false_or, List.mem_flatMap]
  constructor
  · rintro ⟨h, m, ⟨i, hi, hmi⟩, hv, hid⟩
    exact ⟨h, i, hi, m, hmi, hv, hid⟩
  · rintro ⟨h, i, hi, m, hmi, hv, hid⟩
    exact ⟨h, m, ⟨i, hi, hmi⟩, hv, hid⟩

theorem storeValueRegs_saveRegs (frameSize : Int) (saved : List Register) :
    ∀ i, storeValueRegs (saveRegs frameSize i saved) = saved := by
  induction saved with
  | nil => intro i; rfl
  | cons hd tl ih =>
    intro i
    have := ih (i + 1)
    unfold storeValueRegs at this ⊢
    simp only [saveRegs, List.filterMap_append, this]
    split <;> split <;>
      simp [List.filterMap_cons, createSInst, createUInst, createRInst, Instr.new,
        Operator.opType]

theorem storeValueRegs_insertSpAdjust (delta : Int) :
    storeValueRegs (insertSpAdjust delta) = [] := by
  unfold insertSpAdjust storeValueRegs
  split
  · rfl
  · split <;> simp [createIInst, createUInst, createRInst, Instr.new, Operator.opType]

/-- Claim C10, as stated, fails: `readsS1` only reads s1, no instruction writes it, and s1 is
saved all the same. -/
theorem savedRegs_saves_read_only_register :
    PR.s1 ∈ savedRegs readsS1 ∧ ∀ i ∈ allInsts readsS1, PR.s1 ∉ enumDefs i := by
  decide

/-! ### Stack lowering: the instructions of the lowered function -/

theorem mem_mapInsts (g : List MInstruction → List MInstruction) (bs : BlockMap)
    (kb : Nat × Block) (h : kb ∈ mapInsts g bs) : ∃ kb0 ∈ bs, kb.2.insts = g kb0.2.insts := by
  obtain ⟨kb0, h0, rfl⟩ := List.mem_map.mp h
  exact ⟨kb0, h0, rfl⟩

theorem mem_addPrologue (pro : List MInstruction) (bs : BlockMap) (kb : Nat × Block)
    (h : kb ∈ addPrologue pro bs) (i : MInstruction) (hi : i ∈ kb.2.insts) :
    i ∈ pro ∨ ∃ kb0 ∈ bs, i ∈ kb0.2.insts := by
  cases bs with
  | nil => simp [addPrologue] at h
  | cons hd tl =>
    obtain ⟨id, entry⟩ := hd
    simp only [addPrologue, List.mem_cons] at h
    rcases h with h | h
    · subst h
      rcases List.mem_append.mp hi with h1 | h1
      · exact Or.inl h1
      · exact Or.inr ⟨(id, entry), List.mem_cons_self _ _, h1⟩
    · exact Or.inr ⟨kb, List.mem_cons_of_mem _ h, hi⟩

theorem mem_allInsts (func : Function) (kb : Nat × Block) (h : kb ∈ func.blocks)
    (i : MInstruction) (hi : i ∈ kb.2.insts) : i ∈ allInsts func :=
  List.mem_flatMap.mpr ⟨kb, h, hi⟩

theorem lowerFunction_forall (P : MInstruction → Prop) (func : Function) (layout : FrameLayout)
    (hres : ∀ i ∈ allInsts func, ∀ o ∈ lowerInst layout (computeStackSize func layout) i, P o)
    (hpro : ∀ o ∈ prologue layout.frameSize (computeStackSize func layout) (savedRegs func),
      P o)
    (hepi : ∀ o, P o → ∀ o2 ∈ epilogueInst layout.frameSize (computeStackSize func layout)
      (savedRegs func) o, P o2) :
    ∀ kb ∈ (lowerFunction func layout).blocks, ∀ i ∈ kb.2.insts, P i := by
  have h1 : ∀ kb ∈ mapInsts (fun l => l.flatMap (lowerInst layout (computeStackSize func layout)))
      func.blocks, ∀ i ∈ kb.2.insts, P i := by
    intro kb hkb i hi
    obtain ⟨kb0, h0, heq⟩ := mem_mapInsts _ _ kb hkb
    rw [heq] at hi
    obtain ⟨i0, hi0, ho⟩ := List.mem_flatMap.mp hi
    exact hres i0 (mem_allInsts func kb0 h0 i0 hi0) i ho
  intro kb hkb i hi
  unfold lowerFunction at hkb
  simp only at hkb
  split at hkb
  · obtain ⟨kb1, hkb1, heq⟩ := mem_mapInsts _ _ kb (by simpa using hkb)
    rw [heq] at hi
    obtain ⟨i1, hi1, ho⟩ := List.mem_flatMap.mp hi
    refine hepi i1 ?_ i ho
    rcases mem_addPrologue _ _ kb1 hkb1 i1 hi1 with h | ⟨kb0, h0, h⟩
    · exact hpro i1 h
    · exact h1 kb0 h0 i1 h
  · exact h1 kb (by simpa using hkb) i hi

theorem plain_insertSpAdjust (delta : Int) : ∀ o ∈ insertSpAdjust delta, plainTarget o = true := by
  intro o ho
  unfold insertSpAdjust at ho
  split at ho
  · simp at ho
  · split at ho <;> simp at ho <;> rcases ho with rfl | rfl <;> rfl

theorem plain_replaceLoad (op : Operator) (dest base : Register) (offset : Int) :
    ∀ o ∈ replaceWithLargeOffsetLoad op dest base offset, plainTarget o = true := by
  intro o ho
  unfold replaceWithLargeOffsetLoad at ho
  split at ho
  · simp at ho; subst ho; rfl
  · simp at ho; rcases ho with rfl | rfl | rfl <;> rfl

theorem plain_replaceStore (op : Operator) (src base : Register) (offset : Int) :
    ∀ o ∈ replaceWithLargeOffsetStore op src base offset, plainTarget o = true := by
  intro o ho
  unfold replaceWithLargeOffsetStore at ho
  split at ho
  · simp at ho; subst ho; rfl
  · simp at ho; rcases ho with rfl | rfl | rfl <;> rfl

theorem plain_saveRegs (frameSize : Int) (saved : List Register) :
    ∀ i, ∀ o ∈ saveRegs frameSize i saved, plainTarget o = true := by
  induction saved with
  | nil => intro i o ho; simp [saveRegs] at ho
  | cons hd tl ih =>
    intro i o ho
    simp only [saveRegs, List.mem_append] at ho
    rcases ho with ho | ho
    · split at ho
      · simp at ho; subst ho; rfl
      · simp at ho; rcases ho with rfl | rfl | rfl <;> rfl
    · exact ih _ o ho

theorem plain_restoreRegs (frameSize : Int) (saved : List Register) :
    ∀ i, ∀ o ∈ restoreRegs frameSize i saved, plainTarget o = true := by
  induction saved with
  | nil => intro i o ho; simp [restoreRegs] at ho
  | cons hd tl ih =>
    intro i o ho
    simp only [restoreRegs, List.mem_append] at ho
    rcases ho with ho | ho
    · split at ho
      · simp at ho; subst ho; rfl
      · simp at ho; rcases ho with rfl | rfl | rfl <;> rfl
    · exact ih _ o ho

theorem plain_prologue (frameSize stackSize : Int) (saved : List Register) :
    ∀ o ∈ prologue frameSize stackSize saved, plainTarget o = true := by
  intro o ho
  unfold prologue at ho
  rcases List.mem_append.mp ho with h | h
  · split at h
    · exact plain_insertSpAdjust _ o h
    · simp at h
  · exact plain_saveRegs _ _ _ o h

theorem epilogueInst_mem (frameSize stackSize : Int) (saved : List Register)
    (o o2 : MInstruction) (h : o2 ∈ epilogueInst frameSize stackSize saved o) :
    o2 = o ∨ plainTarget o2 = true := by
  cases o with
  | target ri =>
    simp only [epilogueInst] at h
    split at h
    · simp only [List.mem_append, List.mem_singleton] at h
      rcases h with (h | h) | h
      · exact Or.inr (plain_restoreRegs _ _ _ o2 h)
      · split at h
        · exact Or.inr (plain_insertSpAdjust _ o2 h)
        · simp at h
      · exact Or.inl h
    · simp at h; exact Or.inl h
  | move d s0 => simp [epilogueInst] at h; exact Or.inl h
  | phi r v => simp [epilogueInst] at h; exact Or.inl h
  | fiLoad d fi => simp [epilogueInst] at h; exact Or.inl h
  | fiStore d fi => simp [epilogueInst] at h; exact Or.inl h

theorem plain_not_pseudo (o : MInstruction) (h : plainTarget o = true) : isFIPseudo o = false := by
  cases o <;> simp [plainTarget, isFIPseudo] at h ⊢

theorem plain_not_frameIndex (o : MInstruction) (h : plainTarget o = true) :
    carriesFrameIndex o = false := by
  cases o with
  | target ri =>
    simp only [plainTarget, Bool.not_eq_true'] at h
    simp [carriesFrameIndex, h]
  | move d s0 => rfl
  | phi r v => rfl
  | fiLoad d fi => rfl
  | fiStore d fi => rfl

theorem lowerFrameIndexInstr_mem (ri : Instr) (offset : Int) (o : MInstruction)
    (h : o ∈ lowerFrameIndexInstr ri offset) : o = .target ri ∨ plainTarget o = true := by
  unfold lowerFrameIndexInstr at h
  split at h
  · simp at h; exact Or.inl h
  · split at h
    · simp at h; subst h; exact Or.inr rfl
    · split at h
      · simp at h; rcases h with rfl | rfl <;> exact Or.inr rfl
      · split at h
        · exact Or.inr (plain_replaceLoad _ _ _ _ o h)
        · split at h
          · exact Or.inr (plain_replaceStore _ _ _ _ o h)
          · simp at h; subst h; exact Or.inr rfl

theorem lowerInst_not_pseudo (layout : FrameLayout) (stackSize : Int) (i o : MInstruction)
    (h : o ∈ lowerInst layout stackSize i) : isFIPseudo o = false := by
  cases i with
  | fiLoad d fi => exact plain_not_pseudo o (plain_replaceLoad _ _ _ _ o h)
  | fiStore d fi => exact plain_not_pseudo o (plain_replaceStore _ _ _ _ o h)
  | move d s0 => simp [lowerInst] at h; subst h; rfl
  | phi r v => simp [lowerInst] at h; subst h; rfl
  | target ri =>
    simp only [lowerInst] at h
    split at h
    · simp at h; subst h; rfl
    · split at h
      · rcases lowerFrameIndexInstr_mem _ _ o h with h1 | h1
        · subst h1; rfl
        · exact plain_not_pseudo o h1
      · simp at h; subst h; rfl

theorem lowerInst_no_frame_index (layout : FrameLayout) (stackSize : Int) (hs : 0 ≤ stackSize)
    (i o : MInstruction) (hrec : frameIndexRecorded layout i = true)
    (h : o ∈ lowerInst layout stackSize i) : carriesFrameIndex o = false := by
  cases i with
  | fiLoad d fi => exact plain_not_frameIndex o (plain_replaceLoad _ _ _ _ o h)
  | fiStore d fi => exact plain_not_frameIndex o (plain_replaceStore _ _ _ _ o h)
  | move d s0 => simp [lowerInst] at h; subst h; rfl
  | phi r v => simp [lowerInst] at h; subst h; rfl
  | target ri =>
    simp only [lowerInst] at h
    split at h
    · rename_i hu
      simp at h; subst h
      simp only [Bool.not_eq_true', ] at hu
      simp [carriesFrameIndex, hu]
    · rename_i hu
      have hu1 : ri.use_ops = true := by simpa using hu
      split at h
      · rename_i fi hfi
        rcases lowerFrameIndexInstr_mem _ _ o h with h1 | h1
        · exfalso
          have hoff : 0 ≤ resolveOffset layout stackSize fi := by
            simp only [frameIndexRecorded, hu1, Bool.not_true, Bool.false_or, hfi] at hrec
            unfold resolveOffset
            split at hrec
            · rename_i hneg
              have : 0 ≤ layout.incomingArgOffset fi := by simpa using hrec
              simp only [hneg, if_true, ge_iff_le, this]
              omega
            · rename_i hneg
              simp only [hneg, if_false]
              split
              · rename_i hlt
                simp only [Bool.or_eq_true, decide_eq_true_eq] at hrec
                rcases hrec with h2 | h2
                · omega
                · exact h2
              · omega
          subst h1
          unfold lowerFrameIndexInstr at h
          rw [if_neg (by omega)] at h
          split at h
          · simp at h
            have := congrArg Instr.use_ops h
            simp [hu1] at this
          · split at h
            · simp at h
              rcases h with h | h
              · have := congrArg Instr.use_ops h
                simp [hu1, createUInst, Instr.new] at this
              · have := congrArg Instr.use_ops h
                simp [hu1, createRInst, Instr.new] at this
            · split at h
              · have := plain_replaceLoad _ _ _ _ _ h
                simp [plainTarget, hu1] at this
              · split at h
                · have := plain_replaceStore _ _ _ _ _ h
                  simp [plainTarget, hu1] at this
                · simp at h
                  have := congrArg Instr.use_ops h
                  simp [hu1] at this
        · exact plain_not_frameIndex o h1
      · rename_i hnone
        simp at h; subst h
        simp only [carriesFrameIndex, hu1, Bool.true_and]

/-- Claim C8: when the local area is not negative and every frame index named by a target
instruction resolves in the frame layout (a negative index as an incoming stack argument, any
other as a local object or a spill slot), no instruction of the lowered function carries a
frame-index operand. -/
theorem lowerFunction_no_frame_index (func : Function) (layout : FrameLayout)
    (hsz : 0 ≤ layout.frameSize)
    (hrec : (allInsts func).all (frameIndexRecorded layout) = true) :
    ∀ kb ∈ (lowerFunction func layout).blocks, ∀ i ∈ kb.2.insts, carriesFrameIndex i = false := by
  have hs : 0 ≤ computeStackSize func layout := by
    unfold computeStackSize
    have : (0 : Int) ≤ Int.ofNat (savedRegs func).length * 8 := by
      simp only [Int.ofNat_eq_coe]; omega
    omega
  apply lowerFunction_forall (fun i => carriesFrameIndex i = false)
  · intro i hi o ho
    exact lowerInst_no_frame_index layout _ hs i o (List.all_eq_true.mp hrec i hi) ho
  · intro o ho
    exact plain_not_frameIndex o (plain_prologue _ _ _ o ho)
  · intro o hP o2 ho2
    rcases epilogueInst_mem _ _ _ o o2 ho2 with h | h
    · subst h; exact hP
    · exact plain_not_frameIndex o2 h

theorem lowerFunction_no_frame_index_witness :
    (0 ≤ frameUserLayout.frameSize ∧
      (allInsts frameUser).all (frameIndexRecorded frameUserLayout) = true) ∧
    ∀ kb ∈ (lowerFunction frameUser frameUserLayout).blocks, ∀ i ∈ kb.2.insts,
      carriesFrameIndex i = false :=
  ⟨⟨by decide, by decide⟩,
    lowerFunction_no_frame_index frameUser frameUserLayout (by decide) (by decide)⟩

/-! ### Stack lowering: prologue and epilogue -/

theorem insertSpAdjust_not_return (delta : Int) :
    ∀ o ∈ insertSpAdjust delta, isReturn o = false := by
  intro o ho
  unfold insertSpAdjust at ho
  split at ho
  · simp at ho
  · split at ho <;> simp at ho <;> rcases ho with rfl | rfl <;> rfl

theorem restoreRegs_not_return (frameSize : Int) (saved : List Register) :
    ∀ i, ∀ o ∈ restoreRegs frameSize i saved, isReturn o = false := by
  induction saved with
  | nil => intro i o ho; simp [restoreRegs] at ho
  | cons hd tl ih =>
    intro i o ho
    simp only [restoreRegs, List.mem_append] at ho
    rcases ho with ho | ho
    · split at ho
      · simp at ho; subst ho
        cases h : hd.isFloat <;> simp [isReturn, isReturnInst, createIInst, Instr.new]
      · simp at ho
        rcases ho with rfl | rfl | rfl
        · rfl
        · rfl
        · cases h : hd.isFloat <;> simp [isReturn, isReturnInst, createIInst, Instr.new]
    · exact ih _ o ho

theorem flatMap_epilogue_of_not_return (frameSize stackSize : Int) (saved : List Register)
    (l : List MInstruction) (h : ∀ o ∈ l, isReturn o = false) :
    l.flatMap (epilogueInst frameSize stackSize saved) = l := by
  induction l with
  | nil => rfl
  | cons hd tl ih =>
    have hhd := h hd (List.mem_cons_self _ _)
    have htl := ih (fun o ho => h o (List.mem_cons_of_mem _ ho))
    simp only [List.flatMap_cons, htl]
    cases hd with
    | target ri =>
      simp only [isReturn] at hhd
      simp [epilogueInst, hhd]
    | move d s0 => simp [epilogueInst]
    | phi r v => simp [epilogueInst]
    | fiLoad d fi => simp [epilogueInst]
    | fiStore d fi => simp [epilogueInst]

theorem split_last_of_not_mem (l : List MInstruction) :
    ∀ (x : MInstruction) (pre : List MInstruction) (t : MInstruction) (c : List MInstruction),
      l ++ [x] = pre ++ t :: c → t ∉ l → pre = l := by
  induction l with
  | nil =>
    intro x pre t c h _
    cases pre with
    | nil => rfl
    | cons a as =>
      simp only [List.nil_append, List.cons_append, List.cons.injEq] at h
      have := congrArg List.length h.2
      simp at this
      omega
  | cons a as ih =>
    intro x pre t c h hn
    cases pre with
    | nil =>
      simp only [List.cons_append, List.nil_append, List.cons.injEq] at h
      exact absurd (h.1 ▸ List.mem_cons_self a as) hn
    | cons b bs =>
      simp only [List.cons_append, List.cons.injEq] at h
      rw [h.1, ih x bs t c h.2 (fun hm => hn (List.mem_cons_of_mem _ hm))]

theorem epilogue_return_preceded (frameSize stackSize : Int) (saved : List Register)
    (hpos : 0 < stackSize) (l : List MInstruction) :
    ∀ (pre post : List MInstruction) (ri : Instr),
      l.flatMap (epilogueInst frameSize stackSize saved) = pre ++ .target ri :: post →
      isReturnInst ri = true → insertSpAdjust stackSize <:+ pre := by
  induction l with
  | nil =>
    intro pre post ri h _
    simp at h
  | cons x xs ih =>
    intro pre post ri h hret
    simp only [List.flatMap_cons] at h
    rcases List.append_eq_append_iff.mp h with ⟨a, hpre, hrest⟩ | ⟨c, hx, hrest⟩
    · have := ih a post ri hrest hret
      rw [hpre]
      exact List.IsSuffix.trans this (List.suffix_append _ _)
    · cases c with
      | nil =>
        simp only [List.nil_append, List.append_nil] at hrest hx
        have := ih [] post ri hrest.symm hret
        have hnil : insertSpAdjust stackSize = [] := List.suffix_nil.mp this
        rw [hnil]
        exact List.nil_suffix
      | cons t c2 =>
        simp only [List.cons_append, List.cons.injEq] at hrest
        obtain ⟨ht, _⟩ := hrest
        subst ht
        cases x with
        | target rx =>
          simp only [epilogueInst] at hx
          split at hx
          · have hnot : MInstruction.target ri ∉
                restoreRegs frameSize 0 saved ++ insertSpAdjust stackSize := by
              intro hm
              rcases List.mem_append.mp hm with h1 | h1
              · have := restoreRegs_not_return _ _ _ _ h1
                simp [isReturn, hret] at this
              · have := insertSpAdjust_not_return _ _ h1
                simp [isReturn, hret] at this
            have := split_last_of_not_mem _ _ _ _ _ hx hnot
            rw [this]
            exact List.suffix_append _ _
          · rename_i hnr
            cases pre with
            | nil =>
              simp only [List.nil_append, List.cons.injEq, MInstruction.target.injEq] at hx
              rw [hx.1] at hnr
              exact absurd hret hnr
            | cons b bs =>
              simp only [List.cons_append, List.cons.injEq] at hx
              have := congrArg List.length hx.2
              simp at this
              omega
        | move d s0 =>
          cases pre with
          | nil => simp [epilogueInst] at hx
          | cons b bs =>
            simp only [epilogueInst, List.cons_append, List.cons.injEq] at hx
            have := congrArg List.length hx.2
            simp at this
            omega
        | phi r v =>
          cases pre with
          | nil => simp [epilogueInst] at hx
          | cons b bs =>
            simp only [epilogueInst, List.cons_append, List.cons.injEq] at hx
            have := congrArg List.length hx.2
            simp at this
            omega
        | fiLoad d fi =>
          cases pre with
          | nil => simp [epilogueInst] at hx
          | cons b bs =>
            simp only [epilogueInst, List.cons_append, List.cons.injEq] at hx
            have := congrArg List.length hx.2
            simp at this
            omega
        | fiStore d fi =>
          cases pre with
          | nil => simp [epilogueInst] at hx
          | cons b bs =>
            simp only [epilogueInst, List.cons_append, List.cons.injEq] at hx
            have := congrArg List.length hx.2
            simp at this
            omega

theorem runSp_insertSpAdjust (st : Int × Int) (delta : Int) :
    (runSp st (insertSpAdjust delta)).1 = st.1 + delta := by
  unfold insertSpAdjust runSp
  split
  · rename_i h; simp [h]
  · split
    · simp [stepSp, createIInst, Instr.new]
    · simp [stepSp, createUInst, createRInst, Instr.new, PR.sp, PR.t0, getPR]

theorem lowerFunction_blocks_of_pos (func : Function) (layout : FrameLayout)
    (hpos : 0 < computeStackSize func layout) :
    (lowerFunction func layout).blocks =
      mapInsts (fun l => l.flatMap (epilogueInst layout.frameSize (computeStackSize func layout)
          (savedRegs func)))
        (addPrologue (prologue layout.frameSize (computeStackSize func layout) (savedRegs func))
          (mapInsts (fun l => l.flatMap (lowerInst layout (computeStackSize func layout)))
            func.blocks)) := by
  unfold lowerFunction
  simp only
  rw [if_pos]
  simp [hpos]

/-- Claim C7: in a lowered function with `stackSize > 0` the entry block starts with the
adjustment of `sp` by `-stackSize`, every return (RET or JALR x0, ra, 0) of every block has
the adjustment by `+stackSize` right in front of it, an adjustment by a non-zero `delta` is
`ADDI sp, sp, delta` when `delta` is a 12-bit immediate and `LI t0, delta; ADD sp, sp, t0`
otherwise, it moves `sp` by exactly `delta`, and so the adjustment of the prologue followed
by that of an epilogue leaves `sp` where it was. -/
theorem lowerFunction_sp_adjust (func : Function) (layout : FrameLayout)
    (hpos : 0 < (lowerFunction func layout).stackSize) :
    (∀ id entry rest, (lowerFunction func layout).blocks = (id, entry) :: rest →
        insertSpAdjust (-(lowerFunction func layout).stackSize) <+: entry.insts) ∧
      (∀ kb ∈ (lowerFunction func layout).blocks, ∀ (pre post : List MInstruction) (ri : Instr),
        kb.2.insts = pre ++ .target ri :: post → isReturnInst ri = true →
        insertSpAdjust (lowerFunction func layout).stackSize <:+ pre) ∧
      (∀ delta : Int, delta ≠ 0 →
        insertSpAdjust delta =
          if imm12 delta then [.target (createIInst .ADDI PR.sp PR.sp delta)]
          else [.target (createUInst .LI PR.t0 delta),
                .target (createRInst .ADD PR.sp PR.sp PR.t0)]) ∧
      (∀ (st : Int × Int) (delta : Int), (runSp st (insertSpAdjust delta)).1 = st.1 + delta) ∧
      (∀ st mid : Int × Int,
        mid.1 = (runSp st (insertSpAdjust (-(lowerFunction func layout).stackSize))).1 →
        (runSp mid (insertSpAdjust (lowerFunction func layout).stackSize)).1 = st.1) := by
  rw [lowerFunction_stackSize_eq] at hpos ⊢
  have hb := lowerFunction_blocks_of_pos func layout hpos
  refine ⟨?_, ?_, ?_, ?_, ?_⟩
  · intro id entry rest hblocks
    rw [hb] at hblocks
    cases hfb : func.blocks with
    | nil => rw [hfb] at hblocks; simp [mapInsts, addPrologue] at hblocks
    | cons hd tl =>
      rw [hfb] at hblocks
      simp only [mapInsts, List.map_cons, addPrologue, List.cons.injEq] at hblocks
      obtain ⟨h1, _⟩ := hblocks
      have hentry := congrArg (fun kb : Nat × Block => kb.2.insts) h1
      simp only at hentry
      rw [← hentry]
      simp only [prologue, if_pos hpos, List.flatMap_append]
      rw [flatMap_epilogue_of_not_return _ _ _ _ (insertSpAdjust_not_return _)]
      simp only [List.append_assoc]
      exact List.prefix_append _ _
  · intro kb hkb pre post ri hsplit hret
    rw [hb] at hkb
    obtain ⟨kb0, _, heq⟩ := mem_mapInsts _ _ kb hkb
    rw [heq] at hsplit
    exact epilogue_return_preceded _ _ _ hpos _ pre post ri hsplit hret
  · intro delta hd
    unfold insertSpAdjust
    rw [if_neg hd]
  · exact runSp_insertSpAdjust
  · intro st mid hmid
    rw [runSp_insertSpAdjust] at hmid ⊢
    omega

theorem lowerFunction_sp_adjust_witness :
    0 < (lowerFunction frameUser frameUserLayout).stackSize ∧
      (∀ kb ∈ (lowerFunction frameUser frameUserLayout).blocks,
        ∀ (pre post : List MInstruction) (ri : Instr),
        kb.2.insts = pre ++ .target ri :: post → isReturnInst ri = true →
        insertSpAdjust (lowerFunction frameUser frameUserLayout).stackSize <:+ pre) :=
  ⟨by decide, (lowerFunction_sp_adjust frameUser frameUserLayout (by decide)).2.1⟩

/-! ### Linear scan: registers of intervals that cross a call -/

theorem lookup_regMapInsert_self {α : Type} (k : Register) (v : α) (m : List (Register × α)) :
    (regMapInsert k v m).lookup k = some v := by
  induction m with
  | nil => simp [regMapInsert, List.lookup]
  | cons hd tl ih =>
    obtain ⟨k1, v1⟩ := hd
    simp only [regMapInsert]
    split
    · rename_i h; subst h; simp [List.lookup]
    · rename_i h
      split
      · simp [List.lookup]
      · simp only [List.lookup]
        have : (k == k1) = false := by simpa using h
        rw [this]
        exact ih

theorem lookup_regMapInsert_ne {α : Type} (k k2 : Register) (v : α) (m : List (Register × α))
    (hne : k2 ≠ k) : (regMapInsert k v m).lookup k2 = m.lookup k2 := by
  induction m with
  | nil =>
    have : (k2 == k) = false := by simpa using hne
    simp [regMapInsert, List.lookup, this]
  | cons hd tl ih =>
    obtain ⟨k1, v1⟩ := hd
    have hk : (k2 == k) = false := by simpa using hne
    simp only [regMapInsert]
    split
    · rename_i h
      subst h
      simp [List.lookup, hk]
    · split
      · simp [List.lookup, hk]
      · simp only [List.lookup]
        rw [ih]

theorem lookup_regMapErase_ne {α : Type} (k k2 : Register) (m : List (Register × α))
    (hne : k2 ≠ k) : (regMapErase k m).lookup k2 = m.lookup k2 := by
  induction m with
  | nil => simp [regMapErase]
  | cons hd tl ih =>
    obtain ⟨k1, v1⟩ := hd
    unfold regMapErase at ih ⊢
    by_cases h1 : k1 = k
    · subst h1
      have hk : (k2 == k1) = false := by simpa using hne
      simp [List.filter_cons, List.lookup, hk, ih]
    · simp only [List.filter_cons, h1, decide_False, Bool.not_false, if_true, List.lookup]
      rw [ih]

theorem lookup_regMapErase_self {α : Type} (k : Register) (m : List (Register × α)) :
    (regMapErase k m).lookup k = none := by
  induction m with
  | nil => simp [regMapErase]
  | cons hd tl ih =>
    obtain ⟨k1, v1⟩ := hd
    unfold regMapErase at ih ⊢
    by_cases h1 : k1 = k
    · subst h1
      simp [List.filter_cons, ih]
    · have hk : (k == k1) = false := by
        simpa using (fun h : k = k1 => h1 h.symm)
      simp only [List.filter_cons, h1, decide_False, Bool.not_false, if_true, List.lookup, hk]
      exact ih

theorem mem_orderedInsert (x y : Interval) (l : List Interval) :
    y ∈ orderedInsert x l ↔ y = x ∨ y ∈ l := by
  induction l with
  | nil => simp [orderedInsert]
  | cons hd tl ih =>
    simp only [orderedInsert]
    split
    · simp
    · simp only [List.mem_cons, ih]
      tauto

theorem mem_sortIntervals (y : Interval) (l : List Interval) :
    y ∈ sortIntervals l ↔ y ∈ l := by
  induction l with
  | nil => simp [sortIntervals]
  | cons hd tl ih =>
    unfold sortIntervals at ih ⊢
    simp only [List.foldr_cons, mem_orderedInsert, ih, List.mem_cons]

theorem pickVictim_spec (assigned : List (Register × Nat)) (calleeSaved : List Nat)
    (current : Interval) (l : List Interval) :
    ∀ acc : Option Interval × Int,
      (∀ v, acc.1 = some v → ∃ p, assigned.lookup v.vreg = some p ∧
        (current.crossesCall = true → p ∈ calleeSaved)) →
      ∀ v, (pickVictim assigned calleeSaved current l acc).1 = some v →
        ∃ p, assigned.lookup v.vreg = some p ∧ (current.crossesCall = true → p ∈ calleeSaved) := by
  induction l with
  | nil => intro acc h v hv; exact h v hv
  | cons hd tl ih =>
    intro acc h v hv
    simp only [pickVictim] at hv
    split at hv
    · exact ih acc h v hv
    · rename_i p hp
      split at hv
      · exact ih acc h v hv
      · rename_i hc
        split at hv
        · refine ih _ ?_ v hv
          intro w hw
          simp only [Option.some.injEq] at hw
          subst hw
          refine ⟨p, hp, ?_⟩
          intro hcc
          simp only [hcc, Bool.true_and, Bool.not_eq_true', decide_eq_false_iff_not,
            not_not, Bool.not_eq_true] at hc
          simpa using hc
        · exact ih acc h v hv

theorem allocateStep_crossSafe (ivs : List Interval) (C : Nat → Prop)
    (allRegs calleeSaved : List Nat) (orderCallerFirst : List Nat)
    (hC : ∀ p ∈ calleeSaved, C p) (hinj : DistinctVregs ivs)
    (st : AllocState) (current : Interval) (hcur : current ∈ ivs)
    (h : CrossSafe ivs C st.assignedPhys) :
    CrossSafe ivs C
      (allocateStep (allRegs.filter (fun r => decide (r ∈ calleeSaved))) orderCallerFirst
        calleeSaved st current).assignedPhys := by
  unfold allocateStep
  simp only
  split
  · rename_i chosen hfind
    intro itv hitv hcc p hp
    simp only at hp
    by_cases hv : itv.vreg = current.vreg
    · have heq : itv = current := hinj itv hitv current hcur hv
      subst heq
      rw [lookup_regMapInsert_self] at hp
      simp only [Option.some.injEq] at hp
      subst hp
      have hmem := List.mem_of_find?_eq_some hfind
      rw [if_pos hcc] at hmem
      have := (List.mem_filter.mp hmem).2
      exact hC _ (by simpa using this)
    · rw [lookup_regMapInsert_ne _ _ _ _ hv] at hp
      exact h itv hitv hcc p hp
  · split
    · rename_i victim hvict
      obtain ⟨pv, hpv, hpc⟩ := pickVictim_spec st.assignedPhys calleeSaved current _
        (none, intervalEnd current) (fun v hv => by simp at hv) victim hvict
      intro itv hitv hcc p hp
      simp only at hp
      by_cases hv : itv.vreg = current.vreg
      · have heq : itv = current := hinj itv hitv current hcur hv
        subst heq
        rw [lookup_regMapInsert_self] at hp
        simp only [hpv, Option.getD_some, Option.some.injEq] at hp
        subst hp
        exact hC _ (hpc hcc)
      · rw [lookup_regMapInsert_ne _ _ _ _ hv] at hp
        by_cases hv2 : itv.vreg = victim.vreg
        · rw [hv2, lookup_regMapErase_self] at hp
          simp at hp
        · rw [lookup_regMapErase_ne _ _ _ hv2] at hp
          exact h itv hitv hcc p hp
    · exact h

theorem foldl_allocateStep_crossSafe (ivs : List Interval) (C : Nat → Prop)
    (allRegs calleeSaved : List Nat) (orderCallerFirst : List Nat)
    (hC : ∀ p ∈ calleeSaved, C p) (hinj : DistinctVregs ivs) (l : List Interval) :
    ∀ st : AllocState, (∀ x ∈ l, x ∈ ivs) → CrossSafe ivs C st.assignedPhys →
      CrossSafe ivs C
        (l.foldl (allocateStep (allRegs.filter (fun r => decide (r ∈ calleeSaved)))
          orderCallerFirst calleeSaved) st).assignedPhys := by
  induction l with
  | nil => intro st _ h; simpa using h
  | cons hd tl ih =>
    intro st hl h
    simp only [List.foldl_cons]
    apply ih
    · intro x hx; exact hl x (List.mem_cons_of_mem _ hx)
    · exact allocateStep_crossSafe ivs C allRegs calleeSaved orderCallerFirst hC hinj st hd
        (hl hd (List.mem_cons_self _ _)) h

theorem allocateForClass_crossSafe (ivs : List Interval) (C : Nat → Prop)
    (work : List Interval) (allRegs calleeSaved : List Nat)
    (hC : ∀ p ∈ calleeSaved, C p) (hinj : DistinctVregs ivs) (hw : ∀ x ∈ work, x ∈ ivs)
    (assigned : List (Register × Nat)) (spill : SpillState) (h : CrossSafe ivs C assigned) :
    CrossSafe ivs C (allocateForClass work allRegs calleeSaved assigned spill).assignedPhys := by
  unfold allocateForClass
  split
  · exact h
  · apply foldl_allocateStep_crossSafe ivs C allRegs calleeSaved _ hC hinj
    · intro x hx
      exact hw x ((mem_sortIntervals x work).mp hx)
    · exact h

theorem markCrossesCall_vreg (cp : List Int) (itv : Interval) :
    (markCrossesCall cp itv).vreg = itv.vreg := by
  unfold markCrossesCall
  split <;> rfl

theorem find_call_in_segment (seg : Segment) (cp : List Int) (hs : cp.Pairwise (· < ·))
    (p : Int) (hp : p ∈ cp) (h1 : seg.start ≤ p) (h2 : p < seg.endPos) :
    (match cp.find? (fun q => decide (seg.start ≤ q)) with
      | some q => decide (q < seg.endPos)
      | none => false) = true := by
  induction cp with
  | nil => simp at hp
  | cons q rest ih =>
    rw [List.pairwise_cons] at hs
    simp only [List.find?_cons]
    by_cases hq : seg.start ≤ q
    · simp only [hq, decide_True, decide_eq_true_eq]
      rcases List.mem_cons.mp hp with h | h
      · omega
      · have := hs.1 p h
        omega
    · simp only [hq, decide_False]
      rcases List.mem_cons.mp hp with h | h
      · omega
      · exact ih hs.2 h

theorem markCrossesCall_of_call_inside (cp : List Int) (hs : cp.Pairwise (· < ·))
    (itv : Interval) (seg : Segment) (hseg : seg ∈ itv.segs) (p : Int) (hp : p ∈ cp)
    (h1 : seg.start ≤ p) (h2 : p < seg.endPos) :
    (markCrossesCall cp itv).crossesCall = true := by
  unfold markCrossesCall
  split
  · rfl
  · rename_i hno
    exfalso
    apply hno
    rw [List.any_eq_true]
    exact ⟨seg, hseg, find_call_in_segment seg cp hs p hp h1 h2⟩

theorem distinctVregs_mark (cp : List Int) (ivs : List Interval) (h : DistinctVregs ivs) :
    DistinctVregs (ivs.map (markCrossesCall cp)) := by
  intro a ha b hb hab
  obtain ⟨a0, ha0, rfl⟩ := List.mem_map.mp ha
  obtain ⟨b0, hb0, rfl⟩ := List.mem_map.mp hb
  rw [markCrossesCall_vreg, markCrossesCall_vreg] at hab
  rw [h a0 ha0 b0 hb0 hab]

theorem allocateIntervals_crossSafe (intervals : List Interval)
    (intRegsAll floatRegsAll reserved calleeInt calleeFloat : List Nat) (spill : SpillState)
    (hinj : DistinctVregs intervals) :
    CrossSafe intervals (fun p => p ∈ calleeInt ∨ p ∈ calleeFloat)
      (allocateIntervals intervals intRegsAll floatRegsAll reserved calleeInt calleeFloat
        spill).assignedPhys := by
  unfold allocateIntervals
  simp only
  apply allocateForClass_crossSafe intervals (fun p => p ∈ calleeInt ∨ p ∈ calleeFloat)
  · intro p hp; exact Or.inr hp
  · exact hinj
  · intro x hx; exact (List.mem_filter.mp hx).1
  · apply allocateForClass_crossSafe intervals (fun p => p ∈ calleeInt ∨ p ∈ calleeFloat)
    · intro p hp; exact Or.inl hp
    · exact hinj
    · intro x hx; exact (List.mem_filter.mp hx).1
    · intro itv _ _ p hp
      simp at hp

/-- Claim C5: for the intervals of the map `intervals` (pairwise different registers), in the
state the two allocation loops leave `assignedPhys`, every interval marked `crossesCall` that
has a physical register has one of the callee-saved lists, be it picked free or taken over
from a spill victim; and when the marks are set by the marking loop from the sorted call
positions, every interval with a segment that contains a call position, if it has a
register at all, has a callee-saved one. -/
theorem allocateIntervals_crossesCall_calleeSaved (intervals : List Interval)
    (intRegsAll floatRegsAll reserved calleeInt calleeFloat : List Nat) (spill : SpillState)
    (hinj : DistinctVregs intervals) :
    (∀ itv ∈ intervals, itv.crossesCall = true → ∀ p,
      (allocateIntervals intervals intRegsAll floatRegsAll reserved calleeInt calleeFloat
        spill).assignedPhys.lookup itv.vreg = some p →
      p ∈ calleeInt ∨ p ∈ calleeFloat) ∧
    (∀ callPoints : List Int, callPoints.Pairwise (· < ·) →
      ∀ itv ∈ intervals, ∀ seg ∈ itv.segs, ∀ c ∈ callPoints, seg.start ≤ c → c < seg.endPos →
      ∀ p, (allocateIntervals (intervals.map (markCrossesCall callPoints)) intRegsAll
          floatRegsAll reserved calleeInt calleeFloat spill).assignedPhys.lookup itv.vreg
            = some p →
      p ∈ calleeInt ∨ p ∈ calleeFloat) := by
  constructor
  · exact allocateIntervals_crossSafe intervals intRegsAll floatRegsAll reserved calleeInt
      calleeFloat spill hinj
  · intro cp hs itv hitv seg hseg c hc h1 h2 p hp
    have hsafe := allocateIntervals_crossSafe (intervals.map (markCrossesCall cp)) intRegsAll
      floatRegsAll reserved calleeInt calleeFloat spill (distinctVregs_mark cp intervals hinj)
    refine hsafe (markCrossesCall cp itv) (List.mem_map_of_mem _ hitv)
      (markCrossesCall_of_call_inside cp hs itv seg hseg c hc h1 h2) p ?_
    rw [markCrossesCall_vreg]
    exact hp

theorem sampleIntervals_distinct : DistinctVregs sampleIntervals := by
  intro a ha b hb hab
  simp only [sampleIntervals, List.mem_cons, List.mem_singleton, List.not_mem_nil,
    or_false] at ha hb
  rcases ha with rfl | rfl | rfl <;> rcases hb with rfl | rfl | rfl <;>
    first | rfl | (simp [vreg] at hab)

theorem allocateIntervals_crossesCall_calleeSaved_witness :
    DistinctVregs sampleIntervals ∧
      (allocateIntervals sampleIntervals intRegs floatRegs reservedRegs calleeSavedIntRegs
          calleeSavedFloatRegs { spillFrameIndex := [], spillSlots := [] }).assignedPhys.lookup
            (vreg 1) = some 8 ∧
      (8 ∈ calleeSavedIntRegs ∨ 8 ∈ calleeSavedFloatRegs) :=
  ⟨sampleIntervals_distinct, by decide,
    (allocateIntervals_crossesCall_calleeSaved sampleIntervals intRegs floatRegs reservedRegs
      calleeSavedIntRegs calleeSavedFloatRegs { spillFrameIndex := [], spillSlots := [] }
      sampleIntervals_distinct).1
      { vreg := vreg 1, segs := [{ start := 0, endPos := 5 }], crossesCall := true }
      (by simp [sampleIntervals]) rfl 8 (by decide)⟩

theorem sampleIntervals_allocation :
    (allocateIntervals sampleIntervals intRegs floatRegs reservedRegs calleeSavedIntRegs
      calleeSavedFloatRegs { spillFrameIndex := [], spillSlots := [] }).assignedPhys =
      [(vreg 1, 8), (vreg 2, 6), (vreg 3, 6)] := by
  decide

/-! ### Linear scan: the rewrite phase -/

theorem rewriteInst_example :
    rewriteInst emptyEnv noSpill 0 (.target (createRInst .ADD (vreg 1) (vreg 2) (vreg 3))) =
      some ([.fiLoad { rId := 6, dt := some .I32, isVreg := false } 0,
             .fiLoad { rId := 7, dt := some .I32, isVreg := false } 1,
             .target (createRInst .ADD { rId := 8, dt := some .I32, isVreg := false }
               { rId := 6, dt := some .I32, isVreg := false }
               { rId := 7, dt := some .I32, isVreg := false }),
             .fiStore { rId := 8, dt := some .I32, isVreg := false } 2],
            { spillFrameIndex := [(vreg 1, 2), (vreg 2, 0), (vreg 3, 1)],
              spillSlots := [(4, 4), (4, 4), (4, 4)] }) := by
  decide

theorem argRegs_phys (base : Nat) (cnt : Int) : ∀ r ∈ argRegs base cnt, r.isVreg = false := by
  intro r hr
  unfold argRegs at hr
  obtain ⟨i, _, rfl⟩ := List.mem_map.mp hr
  rfl

theorem enumUses_replaceUse (ri : Instr) (u t : Register) :
    enumUses (replaceUse (.target ri) u t) =
      if ri.op = .CALL then enumUses (.target ri)
      else (enumUses (.target ri)).map (fun x => replaceReg x u t) := by
  simp only [replaceUse, enumUses]
  split
  · rfl
  · cases ri.op.opType <;> rfl

theorem enumDefs_replaceUse (i : MInstruction) (u t : Register) :
    enumDefs (replaceUse i u t) = enumDefs i := by
  cases i <;> rfl

theorem enumUses_replaceDef (i : MInstruction) (d t : Register) :
    enumUses (replaceDef i d t) = enumUses i := by
  cases i <;> rfl

theorem enumDefs_replaceDef (ri : Instr) (d t : Register) :
    enumDefs (replaceDef (.target ri) d t) =
      (enumDefs (.target ri)).map (fun x => replaceReg x d t) := by
  simp only [replaceDef, enumDefs]
  split
  · rfl
  · cases ri.op.opType <;> rfl

theorem isTarget_replaceUse (i : MInstruction) (u t : Register) :
    isTarget (replaceUse i u t) = isTarget i := by
  cases i <;> rfl

theorem isTarget_replaceDef (i : MInstruction) (d t : Register) :
    isTarget (replaceDef i d t) = isTarget i := by
  cases i <;> rfl

theorem call_uses_phys (ri : Instr) (h : ri.op = .CALL) :
    ∀ r ∈ enumUses (.target ri), r.isVreg = false := by
  intro r hr
  simp only [enumUses, h, if_true, List.mem_append] at hr
  rcases hr with hr | hr <;> exact argRegs_phys _ _ r hr

theorem uses_after_replace (i : MInstruction) (hi : isTarget i = true) (u t : Register)
    (ht : t.isVreg = false) (rest : List Register)
    (h : ∀ x ∈ enumUses i, x.isVreg = true → x ∈ u :: rest) :
    ∀ x ∈ enumUses (replaceUse i u t), x.isVreg = true → x ∈ rest := by
  cases i with
  | target ri =>
    intro x hx hv
    rw [enumUses_replaceUse] at hx
    split at hx
    · rename_i hc
      have := call_uses_phys ri hc x hx
      rw [this] at hv
      simp at hv
    · obtain ⟨y, hy, rfl⟩ := List.mem_map.mp hx
      unfold replaceReg at hv ⊢
      split at hv
      · rw [ht] at hv; simp at hv
      · rename_i hne
        rw [if_neg hne]
        rcases List.mem_cons.mp (h y hy hv) with h1 | h1
        · exact absurd h1 hne
        · exact h1
  | move d s0 => simp [isTarget] at hi
  | phi r v => simp [isTarget] at hi
  | fiLoad d fi => simp [isTarget] at hi
  | fiStore d fi => simp [isTarget] at hi

theorem defs_after_replace (i : MInstruction) (hi : isTarget i = true) (d t : Register)
    (ht : t.isVreg = false) (rest : List Register)
    (h : ∀ x ∈ enumDefs i, x.isVreg = true → x ∈ d :: rest) :
    ∀ x ∈ enumDefs (replaceDef i d t), x.isVreg = true → x ∈ rest := by
  cases i with
  | target ri =>
    intro x hx hv
    rw [enumDefs_replaceDef] at hx
    obtain ⟨y, hy, rfl⟩ := List.mem_map.mp hx
    unfold replaceReg at hv ⊢
    split at hv
    · rw [ht] at hv; simp at hv
    · rename_i hne
      rw [if_neg hne]
      rcases List.mem_cons.mp (h y hy hv) with h1 | h1
      · exact absurd h1 hne
      · exact h1
  | move d s0 => simp [isTarget] at hi
  | phi r v => simp [isTarget] at hi
  | fiLoad d fi => simp [isTarget] at hi
  | fiStore d fi => simp [isTarget] at hi

theorem skip_head_of_phys (l : List Register) (u : Register) (hu : u.isVreg = false)
    (rest : List Register) (h : ∀ x ∈ l, x.isVreg = true → x ∈ u :: rest) :
    ∀ x ∈ l, x.isVreg = true → x ∈ rest := by
  intro x hx hv
  rcases List.mem_cons.mp (h x hx hv) with h1 | h1
  · subst h1; rw [hu] at hv; simp at hv
  · exact h1

theorem pickScratch_phys (env : RewriteEnv) (pos : Int) (sc sc1 : ScratchState)
    (v s : Register) (h : pickScratch env pos sc v = some (s, sc1)) : s.isVreg = false := by
  unfold pickScratch at h
  split at h
  · simp only [Option.some.injEq, Prod.mk.injEq] at h
    rw [← h.1]
  · split at h
    · simp only [Option.some.injEq, Prod.mk.injEq] at h
      rw [← h.1]
    · simp at h

theorem lookup_regMapInsert_some {α : Type} (k k2 : Register) (v v2 : α)
    (m : List (Register × α)) (h : (regMapInsert k v m).lookup k2 = some v2) :
    (k2 = k ∧ v2 = v) ∨ m.lookup k2 = some v2 := by
  by_cases hk : k2 = k
  · subst hk
    rw [lookup_regMapInsert_self] at h
    simp only [Option.some.injEq] at h
    exact Or.inl ⟨rfl, h.symm⟩
  · rw [lookup_regMapInsert_ne _ _ _ _ hk] at h
    exact Or.inr h

theorem getScratch_spec (env : RewriteEnv) (pos : Int) (st st1 : InstState) (r s : Register)
    (h : getScratch env pos st r = some (s, st1)) (hs : scratchPhys st) :
    s.isVreg = false ∧ scratchPhys st1 ∧ st1.inst = st.inst ∧ st1.reloads = st.reloads ∧
      st1.spills = st.spills ∧ st1.spill = st.spill ∧ st1.reloaded = st.reloaded ∧
      st1.spilledDef = st.spilledDef ∧ st1.scratchMap.lookup r = some s := by
  unfold getScratch at h
  split at h
  · rename_i s0 hl
    simp only [Option.some.injEq, Prod.mk.injEq] at h
    obtain ⟨h1, h2⟩ := h
    subst h1 h2
    exact ⟨hs r _ hl, hs, rfl, rfl, rfl, rfl, rfl, rfl, hl⟩
  · split at h
    · simp at h
    · rename_i s0 sc hp
      simp only [Option.some.injEq, Prod.mk.injEq] at h
      obtain ⟨h1, h2⟩ := h
      subst h1 h2
      have hphys := pickScratch_phys env pos _ _ _ _ hp
      refine ⟨hphys, ?_, rfl, rfl, rfl, rfl, rfl, rfl, lookup_regMapInsert_self _ _ _⟩
      intro u s2 hl
      rcases lookup_regMapInsert_some _ _ _ _ _ hl with ⟨_, h2⟩ | h2
      · rw [h2]; exact hphys
      · exact hs u s2 h2

theorem physOnly_fiLoad (s : Register) (fi : Int) (hs : s.isVreg = false) :
    physOnly (.fiLoad s fi) := by
  constructor
  · intro r hr; simp [enumUses] at hr
  · intro r hr; simp only [enumDefs, List.mem_singleton] at hr; rw [hr]; exact hs

theorem physOnly_fiStore (s : Register) (fi : Int) (hs : s.isVreg = false) :
    physOnly (.fiStore s fi) := by
  constructor
  · intro r hr; simp only [enumUses, List.mem_singleton] at hr; rw [hr]; exact hs
  · intro r hr; simp [enumDefs] at hr

theorem rewriteUse_step (env : RewriteEnv) (pos : Int) (st st1 : InstState) (u : Register)
    (rest : List Register) (h : rewriteUse env pos st u = some st1)
    (hi : isTarget st.inst = true)
    (hu : ∀ x ∈ enumUses st.inst, x.isVreg = true → x ∈ u :: rest)
    (hs : scratchPhys st) (hr : ∀ m ∈ st.reloads, physOnly m) :
    isTarget st1.inst = true ∧ (∀ x ∈ enumUses st1.inst, x.isVreg = true → x ∈ rest) ∧
      scratchPhys st1 ∧ (∀ m ∈ st1.reloads, physOnly m) ∧
      enumDefs st1.inst = enumDefs st.inst ∧ st1.spills = st.spills := by
  unfold rewriteUse at h
  split at h
  · rename_i hv
    simp only [Option.some.injEq] at h
    subst h
    have hv2 : u.isVreg = false := by simpa using hv
    exact ⟨hi, skip_head_of_phys _ u hv2 rest hu, hs, hr, rfl, rfl⟩
  · split at h
    · simp only [Option.some.injEq] at h
      subst h
      refine ⟨?_, ?_, hs, hr, enumDefs_replaceUse _ _ _, rfl⟩
      · rw [isTarget_replaceUse]; exact hi
      · exact uses_after_replace st.inst hi u _ rfl rest hu
    · split at h
      · simp at h
      · rename_i s st0 hg
        obtain ⟨hsp, hs0, hinst, hrel, hspl, _, _, _, _⟩ := getScratch_spec env pos st st0 u s hg hs
        split at h
        · simp only [Option.some.injEq] at h
          subst h
          refine ⟨?_, ?_, hs0, ?_, ?_, hspl⟩
          · simp only [isTarget_replaceUse, hinst]; exact hi
          · simp only [hinst]; exact uses_after_replace st.inst hi u s hsp rest hu
          · simp only [hrel]; exact hr
          · simp only [enumDefs_replaceUse, hinst]
        · simp only [Option.some.injEq] at h
          subst h
          refine ⟨?_, ?_, hs0, ?_, ?_, hspl⟩
          · simp only [isTarget_replaceUse, hinst]; exact hi
          · simp only [hinst]; exact uses_after_replace st.inst hi u s hsp rest hu
          · intro m hm
            simp only [hrel, List.mem_append, List.mem_singleton] at hm
            rcases hm with hm | hm
            · exact hr m hm
            · rw [hm]; exact physOnly_fiLoad _ _ hsp
          · simp only [enumDefs_replaceUse, hinst]

theorem rewriteUses_spec (env : RewriteEnv) (pos : Int) (l : List Register) :
    ∀ st stf : InstState, rewriteUses env pos l st = some stf →
      isTarget st.inst = true → (∀ x ∈ enumUses st.inst, x.isVreg = true → x ∈ l) →
      scratchPhys st → (∀ m ∈ st.reloads, physOnly m) →
      isTarget stf.inst = true ∧ (∀ x ∈ enumUses stf.inst, x.isVreg = false) ∧
        scratchPhys stf ∧ (∀ m ∈ stf.reloads, physOnly m) ∧
        enumDefs stf.inst = enumDefs st.inst ∧ stf.spills = st.spills := by
  induction l with
  | nil =>
    intro st stf h hi hu hs hr
    simp only [rewriteUses, Option.some.injEq] at h
    subst h
    refine ⟨hi, ?_, hs, hr, rfl, rfl⟩
    intro x hx
    cases hv : x.isVreg
    · rfl
    · have := hu x hx hv
      simp at this
  | cons u rest ih =>
    intro st stf h hi hu hs hr
    simp only [rewriteUses] at h
    split at h
    · simp at h
    · rename_i st1 h1
      obtain ⟨a, b, c, d, e, f⟩ := rewriteUse_step env pos st st1 u rest h1 hi hu hs hr
      obtain ⟨a2, b2, c2, d2, e2, f2⟩ := ih st1 stf h a b c d
      exact ⟨a2, b2, c2, d2, e2.trans e, f2.trans f⟩

theorem rewriteDef_step (env : RewriteEnv) (pos : Int) (st st1 : InstState) (d : Register)
    (rest : List Register) (h : rewriteDef env pos st d = some st1)
    (hi : isTarget st.inst = true)
    (hd : ∀ x ∈ enumDefs st.inst, x.isVreg = true → x ∈ d :: rest)
    (hs : scratchPhys st) (hr : ∀ m ∈ st.spills, physOnly m) :
    isTarget st1.inst = true ∧ (∀ x ∈ enumDefs st1.inst, x.isVreg = true → x ∈ rest) ∧
      scratchPhys st1 ∧ (∀ m ∈ st1.spills, physOnly m) ∧
      enumUses st1.inst = enumUses st.inst ∧ st1.reloads = st.reloads := by
  unfold rewriteDef at h
  split at h
  · rename_i hv
    simp only [Option.some.injEq] at h
    subst h
    have hv2 : d.isVreg = false := by simpa using hv
    exact ⟨hi, skip_head_of_phys _ d hv2 rest hd, hs, hr, rfl, rfl⟩
  · split at h
    · simp only [Option.some.injEq] at h
      subst h
      refine ⟨?_, ?_, hs, hr, enumUses_replaceDef _ _ _, rfl⟩
      · rw [isTarget_replaceDef]; exact hi
      · exact defs_after_replace st.inst hi d _ rfl rest hd
    · split at h
      · simp at h
      · rename_i s st0 hg
        obtain ⟨hsp, hs0, hinst, hrel, hspl, _, _, _, _⟩ := getScratch_spec env pos st st0 d s hg hs
        split at h
        · simp only [Option.some.injEq] at h
          subst h
          refine ⟨?_, ?_, hs0, ?_, ?_, hrel⟩
          · simp only [isTarget_replaceDef, hinst]; exact hi
          · simp only [hinst]; exact defs_after_replace st.inst hi d s hsp rest hd
          · simp only [hspl]; exact hr
          · simp only [enumUses_replaceDef, hinst]
        · simp only [Option.some.injEq] at h
          subst h
          refine ⟨?_, ?_, hs0, ?_, ?_, hrel⟩
          · simp only [isTarget_replaceDef, hinst]; exact hi
          · simp only [hinst]; exact defs_after_replace st.inst hi d s hsp rest hd
          · intro m hm
            simp only [hspl, List.mem_cons] at hm
            rcases hm with hm | hm
            · rw [hm]; exact physOnly_fiStore _ _ hsp
            · exact hr m hm
          · simp only [enumUses_replaceDef, hinst]

theorem rewriteDefs_spec (env : RewriteEnv) (pos : Int) (l : List Register) :
    ∀ st stf : InstState, rewriteDefs env pos l st = some stf →
      isTarget st.inst = true → (∀ x ∈ enumDefs st.inst, x.isVreg = true → x ∈ l) →
      scratchPhys st → (∀ m ∈ st.spills, physOnly m) →
      (∀ x ∈ enumDefs stf.inst, x.isVreg = false) ∧ (∀ m ∈ stf.spills, physOnly m) ∧
        enumUses stf.inst = enumUses st.inst ∧ stf.reloads = st.reloads := by
  induction l with
  | nil =>
    intro st stf h hi hd hs hr
    simp only [rewriteDefs, Option.some.injEq] at h
    subst h
    refine ⟨?_, hr, rfl, rfl⟩
    intro x hx
    cases hv : x.isVreg
    · rfl
    · have := hd x hx hv
      simp at this
  | cons d rest ih =>
    intro st stf h hi hd hs hr
    simp only [rewriteDefs] at h
    split at h
    · simp at h
    · rename_i st1 h1
      obtain ⟨a, b, c, d1, e, f⟩ := rewriteDef_step env pos st st1 d rest h1 hi hd hs hr
      obtain ⟨a2, b2, c2, d2⟩ := ih st1 stf h a b c d1
      exact ⟨a2, b2, c2.trans e, d2.trans f⟩

theorem rewriteInst_physOnly (env : RewriteEnv) (spill sp1 : SpillState) (pos : Int)
    (inst : MInstruction) (out : List MInstruction) (hi : isTarget inst = true)
    (h : rewriteInst env spill pos inst = some (out, sp1)) : ∀ m ∈ out, physOnly m := by
  unfold rewriteInst at h
  split at h
  · simp at h
  · rename_i st1 h1
    split at h
    · simp at h
    · rename_i st2 h2
      simp only [Option.some.injEq, Prod.mk.injEq] at h
      obtain ⟨hout, _⟩ := h
      subst hout
      obtain ⟨a, b, c, d, e, f⟩ := rewriteUses_spec env pos _ _ _ h1 hi
        (fun x hx _ => hx) (fun u s hl => by simp [initInstState] at hl)
        (fun m hm => by simp [initInstState] at hm)
      have hd0 : ∀ x ∈ enumDefs st1.inst, x.isVreg = true → x ∈ enumDefs inst := by
        intro x hx _
        rw [e] at hx
        exact hx
      obtain ⟨a2, b2, c2, d2⟩ := rewriteDefs_spec env pos _ _ _ h2 a hd0 c
        (fun m hm => by rw [f] at hm; simp [initInstState] at hm)
      intro m hm
      simp only [List.mem_append, List.mem_cons] at hm
      rcases hm with hm | hm | hm
      · rw [d2] at hm; exact d m hm
      · rw [hm]
        exact ⟨fun r hr => b r (by rw [c2] at hr; exact hr), a2⟩
      · exact b2 m hm

theorem rewriteBlock_physOnly (env : RewriteEnv) (insts : List MInstruction) :
    ∀ (spill sp1 : SpillState) (pos : Int) (out : List MInstruction),
      insts.all isTarget = true → rewriteBlock env insts spill pos = some (out, sp1) →
      ∀ m ∈ out, physOnly m := by
  induction insts with
  | nil =>
    intro spill sp1 pos out _ h m hm
    simp only [rewriteBlock, Option.some.injEq, Prod.mk.injEq] at h
    rw [← h.1] at hm
    simp at hm
  | cons i rest ih =>
    intro spill sp1 pos out hall h m hm
    simp only [List.all_cons, Bool.and_eq_true] at hall
    simp only [rewriteBlock] at h
    split at h
    · simp at h
    · rename_i o1 s1 h1
      split at h
      · simp at h
      · rename_i o2 s2 h2
        simp only [Option.some.injEq, Prod.mk.injEq] at h
        rw [← h.1] at hm
        rcases List.mem_append.mp hm with hm | hm
        · exact rewriteInst_physOnly env spill s1 pos i o1 hall.1 h1 m hm
        · exact ih s1 s2 (pos + 1) o2 hall.2 h2 m hm

/-- Claim C3, as stated, fails: the rewrite phase puts a reload and a spill around the pseudo
move `v1 ← v2` and leaves the move itself as it was, so `enumUses` still reports the
virtual register `v2` for it. -/
theorem rewrite_leaves_vreg_in_move :
    ∃ out sp, rewriteBlocks emptyEnv moveBlocks noSpill 0 = some (out, sp) ∧
      ∃ kb ∈ out, ∃ i ∈ kb.2.insts, ∃ r ∈ enumUses i, r.isVreg = true :=
  ⟨_, _, (by decide : rewriteBlocks emptyEnv moveBlocks noSpill 0 =
      some ([(0, { blockId := 0,
                   insts := [.fiLoad { rId := 6, dt := some .I32, isVreg := false } 0,
                             .move (some (.reg (vreg 1))) (some (.reg (vreg 2))),
                             .fiStore { rId := 7, dt := some .I32, isVreg := false } 1] })],
            { spillFrameIndex := [(vreg 1, 1), (vreg 2, 0)], spillSlots := [(4, 4), (4, 4)] })),
    _, List.mem_cons_self _ _, .move (some (.reg (vreg 1))) (some (.reg (vreg 2))),
    by simp, vreg 2, by simp [enumUses, regOfOperand], rfl⟩

theorem rewriteBlocks_physOnly (env : RewriteEnv) (blocks : BlockMap) :
    ∀ (spill sp1 : SpillState) (pos : Int) (out : BlockMap),
      allTargets blocks = true → rewriteBlocks env blocks spill pos = some (out, sp1) →
      ∀ kb ∈ out, ∀ i ∈ kb.2.insts,
        (∀ r ∈ enumUses i, r.isVreg = false) ∧ (∀ r ∈ enumDefs i, r.isVreg = false) := by
  induction blocks with
  | nil =>
    intro spill sp1 pos out _ h kb hkb
    simp only [rewriteBlocks, Option.some.injEq, Prod.mk.injEq] at h
    rw [← h.1] at hkb
    simp at hkb
  | cons b rest ih =>
    obtain ⟨bid, block⟩ := b
    intro spill sp1 pos out hall h kb hkb i hi
    simp only [allTargets, List.all_cons, Bool.and_eq_true] at hall
    simp only [rewriteBlocks] at h
    split at h
    · simp at h
    · rename_i o1 s1 h1
      split at h
      · simp at h
      · rename_i o2 s2 h2
        simp only [Option.some.injEq, Prod.mk.injEq] at h
        rw [← h.1] at hkb
        rcases List.mem_cons.mp hkb with hk | hk
        · subst hk
          exact rewriteBlock_physOnly env block.insts spill s1 pos o1 hall.1 h1 i hi
        · exact ih s1 s2 _ o2 hall.2 h2 kb hk i hi

/-! ### Linear scan: reloads in front of uses -/

theorem spillLe_refl (a : SpillState) : SpillLe a a := fun _ _ h => h

theorem spillLe_trans (a b c : SpillState) (h1 : SpillLe a b) (h2 : SpillLe b c) :
    SpillLe a c := fun r fi h => h2 r fi (h1 r fi h)

theorem ensureSpillSlot_le (sp : SpillState) (r : Register) :
    SpillLe sp (ensureSpillSlot sp r).1 := by
  intro r2 fi h
  unfold ensureSpillSlot
  split
  · exact h
  · rename_i hnone
    simp only
    have hne : r2 ≠ r := by
      intro he
      subst he
      rw [hnone] at h
      simp at h
    rw [lookup_regMapInsert_ne _ _ _ _ hne]
    exact h

theorem ensureSpillSlot_lookup (sp : SpillState) (r : Register) :
    (ensureSpillSlot sp r).1.spillFrameIndex.lookup r = some (ensureSpillSlot sp r).2 := by
  unfold ensureSpillSlot
  split
  · rename_i fi h; exact h
  · simp only
    exact lookup_regMapInsert_self _ _ _

theorem pickScratch_fresh (env : RewriteEnv) (pos : Int) (sc sc1 : ScratchState)
    (v s : Register) (h : pickScratch env pos sc v = some (s, sc1)) :
    s.rId ∉ sc.forbidden ∧ sc1.forbidden = s.rId :: sc.forbidden := by
  have key : ∀ (l : List Nat) (r : Nat), l.find? (scratchFree env sc v.isFloat pos) = some r →
      r ∉ sc.forbidden := by
    intro l r hf
    have := List.find?_some hf
    unfold scratchFree at this
    simp only [Bool.and_eq_true, Bool.not_eq_true', Bool.or_eq_false_iff,
      decide_eq_false_iff_not] at this
    exact this.1.1
  have htake : ∀ r, (sc.take v.isFloat r).forbidden = r :: sc.forbidden := by
    intro r
    unfold ScratchState.take
    split <;> rfl
  unfold pickScratch at h
  split at h
  · rename_i r hf
    simp only [Option.some.injEq, Prod.mk.injEq] at h
    obtain ⟨h1, h2⟩ := h
    subst h1 h2
    exact ⟨key _ r hf, htake r⟩
  · split at h
    · rename_i r hf
      simp only [Option.some.injEq, Prod.mk.injEq] at h
      obtain ⟨h1, h2⟩ := h
      subst h1 h2
      exact ⟨key _ r hf, htake r⟩
    · simp at h

theorem getScratch_more (env : RewriteEnv) (pos : Int) (st st1 : InstState) (r s : Register)
    (h : getScratch env pos st r = some (s, st1)) :
    (∀ u s2, st.scratchMap.lookup u = some s2 → st1.scratchMap.lookup u = some s2) ∧
      (∀ u s2, st1.scratchMap.lookup u = some s2 → u = r ∨ st.scratchMap.lookup u = some s2) ∧
      (∀ x ∈ st.scratch.forbidden, x ∈ st1.scratch.forbidden) ∧
      (st.scratchMap.lookup r = none →
        s.rId ∉ st.scratch.forbidden ∧ s.rId ∈ st1.scratch.forbidden) := by
  unfold getScratch at h
  split at h
  · rename_i s0 hl
    simp only [Option.some.injEq, Prod.mk.injEq] at h
    obtain ⟨h1, h2⟩ := h
    subst h1 h2
    refine ⟨fun _ _ hx => hx, fun _ _ hx => Or.inr hx, fun _ hx => hx, ?_⟩
    intro hn
    rw [hl] at hn
    simp at hn
  · rename_i hnone
    split at h
    · simp at h
    · rename_i s0 sc hp
      simp only [Option.some.injEq, Prod.mk.injEq] at h
      obtain ⟨h1, h2⟩ := h
      subst h1 h2
      obtain ⟨hf1, hf2⟩ := pickScratch_fresh env pos _ _ _ _ hp
      refine ⟨?_, ?_, ?_, ?_⟩
      · intro u s2 hl
        have hne : u ≠ r := by
          intro he
          subst he
          rw [hnone] at hl
          simp at hl
        simp only
        rw [lookup_regMapInsert_ne _ _ _ _ hne]
        exact hl
      · intro u s2 hl
        rcases lookup_regMapInsert_some _ _ _ _ _ hl with ⟨h3, _⟩ | h3
        · exact Or.inl h3
        · exact Or.inr h3
      · intro x hx
        simp only [hf2]
        exact List.mem_cons_of_mem _ hx
      · intro _
        refine ⟨hf1, ?_⟩
        simp only [hf2]
        exact List.mem_cons_self _ _

theorem reloadedInto_congr (st st1 : InstState) (v s : Register) (fi : Int)
    (h : ReloadedInto st v s fi) (h1 : st1.scratchMap = st.scratchMap)
    (h2 : st1.spill = st.spill) (h3 : st1.scratch = st.scratch)
    (h4 : st1.reloads = st.reloads) : ReloadedInto st1 v s fi := by
  unfold ReloadedInto at h ⊢
  rw [h1, h2, h3, h4]
  exact h

theorem useRel_replace (st st1 : InstState) (v u t : Register) (rest : List Register)
    (hu : u.isVreg = true) (ht : t.isVreg = false)
    (hpers : ∀ w s2, st.scratchMap.lookup w = some s2 → st1.scratchMap.lookup w = some s2)
    (hv : u = v → st1.scratchMap.lookup v = some t) (x y : Register)
    (h : UseRel st v (u :: rest) x y) : UseRel st1 v rest x (replaceReg y u t) := by
  unfold UseRel at h ⊢
  unfold replaceReg
  rcases h with ⟨hyx, hrem⟩ | ⟨hy, hxv⟩
  · subst hyx
    by_cases hyu : y = u
    · rw [if_pos hyu]
      right
      exact ⟨ht, fun hx => hv (hyu.symm.trans hx)⟩
    · rw [if_neg hyu]
      left
      refine ⟨rfl, fun hvr => ?_⟩
      rcases List.mem_cons.mp (hrem hvr) with h1 | h1
      · exact absurd h1 hyu
      · exact h1
  · have hyu : y ≠ u := by
      intro he
      rw [he, hu] at hy
      simp at hy
    rw [if_neg hyu]
    right
    exact ⟨hy, fun hx => hpers v y (hxv hx)⟩

theorem forall2_imp_mem {R S : Register → Register → Prop} {l1 l2 : List Register}
    (h : List.Forall₂ R l1 l2) (himp : ∀ x y, y ∈ l2 → R x y → S x y) :
    List.Forall₂ S l1 l2 := by
  induction h with
  | nil => exact List.Forall₂.nil
  | cons hxy _ ih =>
    refine List.Forall₂.cons (himp _ _ (List.mem_cons_self _ _) hxy) (ih ?_)
    intro x y hy hr
    exact himp x y (List.mem_cons_of_mem _ hy) hr

theorem forall2_uses_replace (st st1 : InstState) (inst0 : MInstruction) (v u t : Register)
    (rest : List Register) (hi : isTarget st.inst = true)
    (hu : u.isVreg = true) (ht : t.isVreg = false)
    (hpers : ∀ w s2, st.scratchMap.lookup w = some s2 → st1.scratchMap.lookup w = some s2)
    (hv : u = v → st1.scratchMap.lookup v = some t)
    (h : List.Forall₂ (UseRel st v (u :: rest)) (enumUses inst0) (enumUses st.inst)) :
    List.Forall₂ (UseRel st1 v rest) (enumUses inst0) (enumUses (replaceUse st.inst u t)) := by
  cases hst : st.inst with
  | target ri =>
    rw [hst] at h
    rw [enumUses_replaceUse]
    split
    · rename_i hc
      refine forall2_imp_mem h ?_
      intro x y hy hxy
      have hphys := call_uses_phys ri hc y hy
      unfold UseRel at hxy ⊢
      rcases hxy with ⟨hyx, _⟩ | ⟨hy2, hxv⟩
      · left
        refine ⟨hyx, fun hvr => ?_⟩
        rw [← hyx, hphys] at hvr
        simp at hvr
      · right
        exact ⟨hy2, fun hx => hpers v y (hxv hx)⟩
    · rw [List.forall₂_map_right_iff]
      refine List.Forall₂.imp ?_ h
      intro x y hxy
      exact useRel_replace st st1 v u t rest hu ht hpers hv x y hxy
  | move d s0 => rw [hst] at hi; simp [isTarget] at hi
  | phi r v0 => rw [hst] at hi; simp [isTarget] at hi
  | fiLoad d fi => rw [hst] at hi; simp [isTarget] at hi
  | fiStore d fi => rw [hst] at hi; simp [isTarget] at hi

theorem reloadedInto_mono (st st1 : InstState) (v s : Register) (fi : Int)
    (h : ReloadedInto st v s fi) (h1 : st1.scratchMap.lookup v = some s)
    (h2 : SpillLe st.spill st1.spill)
    (h3 : ∀ x ∈ st.scratch.forbidden, x ∈ st1.scratch.forbidden)
    (extra : List MInstruction) (h4 : st1.reloads = st.reloads ++ extra)
    (h5 : ∀ m ∈ extra, ∃ s2 fi2, m = .fiLoad s2 fi2 ∧ s2 ≠ s) : ReloadedInto st1 v s fi := by
  obtain ⟨_, b, c, d, pre, mid, e, f⟩ := h
  refine ⟨h1, h2 v fi b, h3 _ c, d, pre, mid ++ extra, ?_, ?_⟩
  · rw [h4, e]; simp
  · intro m hm
    rcases List.mem_append.mp hm with hm | hm
    · exact f m hm
    · exact h5 m hm

theorem rewriteUse_inv (env : RewriteEnv) (pos : Int) (inst0 : MInstruction) (v : Register)
    (hv : v.isVreg = true) (hva : env.assignedPhys.lookup v = none)
    (st st1 : InstState) (u : Register) (rest : List Register)
    (h : rewriteUse env pos st u = some st1) (hinv : UseLoopInv inst0 v st (u :: rest)) :
    UseLoopInv inst0 v st1 rest ∧ SpillLe st.spill st1.spill ∧ st1.spills = st.spills := by
  obtain ⟨hi, hs, hk, hk2, hrel, hmem, hf⟩ := hinv
  unfold rewriteUse at h
  split at h
  · rename_i hnv
    have hu : u.isVreg = false := by simpa using hnv
    simp only [Option.some.injEq] at h
    subst h
    refine ⟨⟨hi, hs, hk, hk2, hrel, ?_, ?_⟩, spillLe_refl _, rfl⟩
    · rcases hmem with h1 | h1
      · exact Or.inl h1
      · rcases List.mem_cons.mp h1 with h2 | h2
        · rw [h2, hu] at hv; simp at hv
        · exact Or.inr h2
    · refine List.Forall₂.imp ?_ hf
      intro x y hxy
      unfold UseRel at hxy ⊢
      rcases hxy with ⟨hyx, hrem⟩ | hxy
      · left
        refine ⟨hyx, fun hvr => ?_⟩
        rcases List.mem_cons.mp (hrem hvr) with h2 | h2
        · rw [h2, hu] at hvr; simp at hvr
        · exact h2
      · exact Or.inr hxy
  · rename_i hnv
    have hu : u.isVreg = true := by simpa using hnv
    split at h
    · rename_i p hp
      have hne : u ≠ v := by
        intro he
        rw [he, hva] at hp
        simp at hp
      simp only [Option.some.injEq] at h
      subst h
      refine ⟨⟨?_, hs, hk, hk2, ?_, ?_, ?_⟩, spillLe_refl _, rfl⟩
      · simp only [isTarget_replaceUse]; exact hi
      · intro hvr
        obtain ⟨s, fi, hr⟩ := hrel hvr
        exact ⟨s, fi, reloadedInto_congr st _ v s fi hr rfl rfl rfl rfl⟩
      · rcases hmem with h1 | h1
        · exact Or.inl h1
        · rcases List.mem_cons.mp h1 with h2 | h2
          · exact absurd h2.symm hne
          · exact Or.inr h2
      · exact forall2_uses_replace st _ inst0 v u _ rest hi hu rfl (fun _ _ hx => hx)
          (fun he => absurd he hne) hf
    · split at h
      · simp at h
      · rename_i s st0 hg
        obtain ⟨hsp, hs0, hinst, hrl, hspl, hspill, hrld, _, hlu⟩ :=
          getScratch_spec env pos st st0 u s hg hs
        obtain ⟨hpers, hinv2, hforb, hfresh⟩ := getScratch_more env pos st st0 u s hg
        split at h
        · rename_i hin
          have hin2 : u ∈ st.reloaded := by
            rw [← hrld]; simpa using hin
          simp only [Option.some.injEq] at h
          subst h
          refine ⟨⟨?_, hs0, ?_, ?_, ?_, ?_, ?_⟩, ?_, hspl⟩
          · simp only [isTarget_replaceUse, hinst]; exact hi
          · intro w s2 hw
            simp only [hrld]
            rcases hinv2 w s2 hw with h1 | h1
            · rw [h1]; exact hin2
            · exact hk w s2 h1
          · intro w hw
            simp only [hrld] at hw
            obtain ⟨s2, h2⟩ := hk2 w hw
            exact ⟨s2, hpers w s2 h2⟩
          · intro hvr
            simp only [hrld] at hvr
            obtain ⟨sv, fi, hr⟩ := hrel hvr
            refine ⟨sv, fi, reloadedInto_mono st _ v sv fi hr (hpers v sv hr.1) ?_ hforb []
              (by simp [hrl]) (by simp)⟩
            simp only [hspill]
            exact spillLe_refl _
          · simp only [hrld]
            rcases hmem with h1 | h1
            · exact Or.inl h1
            · rcases List.mem_cons.mp h1 with h2 | h2
              · rw [h2]; exact Or.inl hin2
              · exact Or.inr h2
          · simp only [hinst]
            exact forall2_uses_replace st _ inst0 v u s rest hi hu hsp hpers
              (fun he => by rw [← he]; exact hlu) hf
          · simp only [hspill]
            exact spillLe_refl _
        · rename_i hnin
          have hnin2 : u ∉ st.reloaded := by
            rw [← hrld]; simpa using hnin
          have hnone : st.scratchMap.lookup u = none := by
            cases hl : st.scratchMap.lookup u with
            | none => rfl
            | some s2 => exact absurd (hk u s2 hl) hnin2
          obtain ⟨hfr1, hfr2⟩ := hfresh hnone
          simp only [Option.some.injEq] at h
          subst h
          refine ⟨⟨?_, hs0, ?_, ?_, ?_, ?_, ?_⟩, ?_, hspl⟩
          · simp only [isTarget_replaceUse, hinst]; exact hi
          · intro w s2 hw
            simp only [hrld]
            rcases hinv2 w s2 hw with h1 | h1
            · rw [h1]; exact List.mem_cons_self _ _
            · exact List.mem_cons_of_mem _ (hk w s2 h1)
          · intro w hw
            simp only [hrld, List.mem_cons] at hw
            rcases hw with h1 | h1
            · rw [h1]; exact ⟨s, hlu⟩
            · obtain ⟨s2, h2⟩ := hk2 w h1
              exact ⟨s2, hpers w s2 h2⟩
          · intro hvr
            simp only [hrld, List.mem_cons] at hvr
            by_cases hvu : v = u
            · subst hvu
              refine ⟨s, (ensureSpillSlot st0.spill v).2, hlu, ?_, hfr2, hsp, st0.reloads, [],
                rfl, by simp⟩
              exact ensureSpillSlot_lookup _ _
            · rcases hvr with h1 | h1
              · exact absurd h1 hvu
              · obtain ⟨sv, fi, hr⟩ := hrel h1
                refine ⟨sv, fi, reloadedInto_mono st _ v sv fi hr (hpers v sv hr.1) ?_ hforb
                  [.fiLoad s (ensureSpillSlot st0.spill u).2] (by simp [hrl]) ?_⟩
                · simp only [hspill]
                  exact ensureSpillSlot_le _ _
                · intro m hm
                  simp only [List.mem_singleton] at hm
                  refine ⟨s, _, hm, ?_⟩
                  intro he
                  rw [he] at hfr1
                  exact hfr1 hr.2.2.1
          · simp only [hrld]
            rcases hmem with h1 | h1
            · exact Or.inl (List.mem_cons_of_mem _ h1)
            · rcases List.mem_cons.mp h1 with h2 | h2
              · rw [h2]; exact Or.inl (List.mem_cons_self _ _)
              · exact Or.inr h2
          · simp only [hinst]
            exact forall2_uses_replace st _ inst0 v u s rest hi hu hsp hpers
              (fun he => by rw [← he]; exact hlu) hf
          · simp only [hspill]
            exact ensureSpillSlot_le _ _

theorem rewriteUses_inv (env : RewriteEnv) (pos : Int) (inst0 : MInstruction) (v : Register)
    (hv : v.isVreg = true) (hva : env.assignedPhys.lookup v = none) (l : List Register) :
    ∀ st stf : InstState, rewriteUses env pos l st = some stf → UseLoopInv inst0 v st l →
      UseLoopInv inst0 v stf [] ∧ SpillLe st.spill stf.spill ∧ stf.spills = st.spills := by
  induction l with
  | nil =>
    intro st stf h hinv
    simp only [rewriteUses, Option.some.injEq] at h
    subst h
    exact ⟨hinv, spillLe_refl _, rfl⟩
  | cons u rest ih =>
    intro st stf h hinv
    simp only [rewriteUses] at h
    split at h
    · simp at h
    · rename_i st1 h1
      obtain ⟨a, b, c⟩ := rewriteUse_inv env pos inst0 v hv hva st st1 u rest h1 hinv
      obtain ⟨a2, b2, c2⟩ := ih st1 stf h a
      exact ⟨a2, spillLe_trans _ _ _ b b2, c2.trans c⟩

theorem rewriteDef_inv (env : RewriteEnv) (pos : Int) (v s : Register) (fi : Int)
    (st st1 : InstState) (d : Register) (h : rewriteDef env pos st d = some st1)
    (hs : scratchPhys st) (hr : ReloadedInto st v s fi) :
    scratchPhys st1 ∧ ReloadedInto st1 v s fi ∧ enumUses st1.inst = enumUses st.inst ∧
      SpillLe st.spill st1.spill ∧ st1.reloads = st.reloads := by
  unfold rewriteDef at h
  split at h
  · simp only [Option.some.injEq] at h
    subst h
    exact ⟨hs, hr, rfl, spillLe_refl _, rfl⟩
  · split at h
    · simp only [Option.some.injEq] at h
      subst h
      exact ⟨hs, reloadedInto_congr st _ v s fi hr rfl rfl rfl rfl, enumUses_replaceDef _ _ _,
        spillLe_refl _, rfl⟩
    · split at h
      · simp at h
      · rename_i sd st0 hg
        obtain ⟨_, hs0, hinst, hrl, _, hspill, _, _, _⟩ :=
          getScratch_spec env pos st st0 d sd hg hs
        obtain ⟨hpers, _, hforb, _⟩ := getScratch_more env pos st st0 d sd hg
        split at h
        · simp only [Option.some.injEq] at h
          subst h
          refine ⟨hs0, ?_, ?_, ?_, hrl⟩
          · refine reloadedInto_mono st _ v s fi hr (hpers v s hr.1) ?_ hforb []
              (by simp [hrl]) (by simp)
            simp only [hspill]
            exact spillLe_refl _
          · simp only [enumUses_replaceDef, hinst]
          · simp only [hspill]
            exact spillLe_refl _
        · simp only [Option.some.injEq] at h
          subst h
          refine ⟨hs0, ?_, ?_, ?_, hrl⟩
          · refine reloadedInto_mono st _ v s fi hr (hpers v s hr.1) ?_ hforb []
              (by simp [hrl]) (by simp)
            simp only [hspill]
            exact ensureSpillSlot_le _ _
          · simp only [enumUses_replaceDef, hinst]
          · simp only [hspill]
            exact ensureSpillSlot_le _ _

theorem rewriteDefs_inv (env : RewriteEnv) (pos : Int) (v s : Register) (fi : Int)
    (l : List Register) :
    ∀ st stf : InstState, rewriteDefs env pos l st = some stf → scratchPhys st →
      ReloadedInto st v s fi →
      ReloadedInto stf v s fi ∧ enumUses stf.inst = enumUses st.inst ∧
        SpillLe st.spill stf.spill ∧ stf.reloads = st.reloads := by
  induction l with
  | nil =>
    intro st stf h _ hr
    simp only [rewriteDefs, Option.some.injEq] at h
    subst h
    exact ⟨hr, rfl, spillLe_refl _, rfl⟩
  | cons d rest ih =>
    intro st stf h hs hr
    simp only [rewriteDefs] at h
    split at h
    · simp at h
    · rename_i st1 h1
      obtain ⟨a, b, c, d1, e⟩ := rewriteDef_inv env pos v s fi st st1 d h1 hs hr
      obtain ⟨a2, b2, c2, d2⟩ := ih st1 stf h a b
      exact ⟨a2, b2.trans c, spillLe_trans _ _ _ d1 c2, d2.trans e⟩

theorem getScratch_spill (env : RewriteEnv) (pos : Int) (st st1 : InstState) (r s : Register)
    (h : getScratch env pos st r = some (s, st1)) : st1.spill = st.spill := by
  unfold getScratch at h
  split at h
  · simp only [Option.some.injEq, Prod.mk.injEq] at h
    rw [← h.2]
  · split at h
    · simp at h
    · simp only [Option.some.injEq, Prod.mk.injEq] at h
      rw [← h.2]

theorem rewriteUse_spillLe (env : RewriteEnv) (pos : Int) (st st1 : InstState) (u : Register)
    (h : rewriteUse env pos st u = some st1) : SpillLe st.spill st1.spill := by
  unfold rewriteUse at h
  split at h
  · simp only [Option.some.injEq] at h; subst h; exact spillLe_refl _
  · split at h
    · simp only [Option.some.injEq] at h; subst h; exact spillLe_refl _
    · split at h
      · simp at h
      · rename_i s st0 hg
        have hsp := getScratch_spill env pos st st0 u s hg
        split at h
        · simp only [Option.some.injEq] at h; subst h
          simp only [hsp]; exact spillLe_refl _
        · simp only [Option.some.injEq] at h; subst h
          simp only [hsp]; exact ensureSpillSlot_le _ _

theorem rewriteDef_spillLe (env : RewriteEnv) (pos : Int) (st st1 : InstState) (d : Register)
    (h : rewriteDef env pos st d = some st1) : SpillLe st.spill st1.spill := by
  unfold rewriteDef at h
  split at h
  · simp only [Option.some.injEq] at h; subst h; exact spillLe_refl _
  · split at h
    · simp only [Option.some.injEq] at h; subst h; exact spillLe_refl _
    · split at h
      · simp at h
      · rename_i s st0 hg
        have hsp := getScratch_spill env pos st st0 d s hg
        split at h
        · simp only [Option.some.injEq] at h; subst h
          simp only [hsp]; exact spillLe_refl _
        · simp only [Option.some.injEq] at h; subst h
          simp only [hsp]; exact ensureSpillSlot_le _ _

theorem rewriteUses_spillLe (env : RewriteEnv) (pos : Int) (l : List Register) :
    ∀ st stf : InstState, rewriteUses env pos l st = some stf → SpillLe st.spill stf.spill := by
  induction l with
  | nil =>
    intro st stf h
    simp only [rewriteUses, Option.some.injEq] at h
    subst h
    exact spillLe_refl _
  | cons u rest ih =>
    intro st stf h
    simp only [rewriteUses] at h
    split at h
    · simp at h
    · rename_i st1 h1
      exact spillLe_trans _ _ _ (rewriteUse_spillLe env pos st st1 u h1) (ih st1 stf h)

theorem rewriteDefs_spillLe (env : RewriteEnv) (pos : Int) (l : List Register) :
    ∀ st stf : InstState, rewriteDefs env pos l st = some stf → SpillLe st.spill stf.spill := by
  induction l with
  | nil =>
    intro st stf h
    simp only [rewriteDefs, Option.some.injEq] at h
    subst h
    exact spillLe_refl _
  | cons d rest ih =>
    intro st stf h
    simp only [rewriteDefs] at h
    split at h
    · simp at h
    · rename_i st1 h1
      exact spillLe_trans _ _ _ (rewriteDef_spillLe env pos st st1 d h1) (ih st1 stf h)

theorem rewriteInst_spillLe (env : RewriteEnv) (spill sp1 : SpillState) (pos : Int)
    (inst : MInstruction) (out : List MInstruction)
    (h : rewriteInst env spill pos inst = some (out, sp1)) : SpillLe spill sp1 := by
  unfold rewriteInst at h
  split at h
  · simp at h
  · rename_i st1 h1
    split at h
    · simp at h
    · rename_i st2 h2
      simp only [Option.some.injEq, Prod.mk.injEq] at h
      rw [← h.2]
      exact spillLe_trans _ _ _ (rewriteUses_spillLe env pos _ _ _ h1)
        (rewriteDefs_spillLe env pos _ _ _ h2)

theorem rewriteBlock_spillLe (env : RewriteEnv) (insts : List MInstruction) :
    ∀ (spill sp1 : SpillState) (pos : Int) (out : List MInstruction),
      rewriteBlock env insts spill pos = some (out, sp1) → SpillLe spill sp1 := by
  induction insts with
  | nil =>
    intro spill sp1 pos out h
    simp only [rewriteBlock, Option.some.injEq, Prod.mk.injEq] at h
    rw [← h.2]
    exact spillLe_refl _
  | cons i rest ih =>
    intro spill sp1 pos out h
    simp only [rewriteBlock] at h
    split at h
    · simp at h
    · rename_i o1 s1 h1
      split at h
      · simp at h
      · rename_i o2 s2 h2
        simp only [Option.some.injEq, Prod.mk.injEq] at h
        rw [← h.2]
        exact spillLe_trans _ _ _ (rewriteInst_spillLe env spill s1 pos i o1 h1)
          (ih s1 s2 (pos + 1) o2 h2)

theorem rewriteBlock_split (env : RewriteEnv) (l1 : List MInstruction) :
    ∀ (spill sp2 : SpillState) (pos : Int) (i : MInstruction) (l2 out : List MInstruction),
      rewriteBlock env (l1 ++ i :: l2) spill pos = some (out, sp2) →
      ∃ o1 oi o2 spA spB, rewriteInst env spA (pos + Int.ofNat l1.length) i = some (oi, spB) ∧
        out = o1 ++ oi ++ o2 ∧ SpillLe spB sp2 := by
  induction l1 with
  | nil =>
    intro spill sp2 pos i l2 out h
    simp only [List.nil_append, rewriteBlock] at h
    split at h
    · simp at h
    · rename_i oi s1 h1
      split at h
      · simp at h
      · rename_i o2 s2 h2
        simp only [Option.some.injEq, Prod.mk.injEq] at h
        refine ⟨[], oi, o2, spill, s1, ?_, ?_, ?_⟩
        · simpa using h1
        · simp [← h.1]
        · rw [← h.2]
          exact rewriteBlock_spillLe env l2 s1 s2 (pos + 1) o2 h2
  | cons x xs ih =>
    intro spill sp2 pos i l2 out h
    simp only [List.cons_append, rewriteBlock] at h
    split at h
    · simp at h
    · rename_i ox s1 h1
      split at h
      · simp at h
      · rename_i orest s2 h2
        simp only [Option.some.injEq, Prod.mk.injEq] at h
        obtain ⟨o1, oi, o2, spA, spB, ha, hb, hc⟩ := ih s1 s2 (pos + 1) i l2 orest h2
        refine ⟨ox ++ o1, oi, o2, spA, spB, ?_, ?_, ?_⟩
        · have : pos + Int.ofNat (x :: xs).length = pos + 1 + Int.ofNat xs.length := by
            simp only [List.length_cons, Int.ofNat_eq_coe, Nat.cast_add, Nat.cast_one]
            ring
          rw [this]
          exact ha
        · rw [← h.1, hb]
          simp
        · rw [← h.2]
          exact hc

theorem rewriteInst_reload (env : RewriteEnv) (spill sp1 : SpillState) (pos : Int)
    (ri : Instr) (out : List MInstruction) (v : Register) (hv : v.isVreg = true)
    (hva : env.assignedPhys.lookup v = none) (hmem : v ∈ enumUses (.target ri))
    (h : rewriteInst env spill pos (.target ri) = some (out, sp1)) :
    ∃ s fi pre mid inst1 post, out = pre ++ .fiLoad s fi :: (mid ++ inst1 :: post) ∧
      s.isVreg = false ∧ sp1.spillFrameIndex.lookup v = some fi ∧
      (∀ m ∈ mid, ∃ s2 fi2, m = .fiLoad s2 fi2 ∧ s2 ≠ s) ∧
      List.Forall₂ (fun x y => x = v → y = s) (enumUses (.target ri)) (enumUses inst1) := by
  unfold rewriteInst at h
  split at h
  · simp at h
  · rename_i st1 h1
    split at h
    · simp at h
    · rename_i st2 h2
      simp only [Option.some.injEq, Prod.mk.injEq] at h
      obtain ⟨hout, hsp⟩ := h
      have hinit : UseLoopInv (.target ri) v (initInstState env spill (.target ri))
          (enumUses (.target ri)) := by
        refine ⟨rfl, ?_, ?_, ?_, ?_, Or.inr hmem, ?_⟩
        · intro u s hl; simp [initInstState] at hl
        · intro u s hl; simp [initInstState] at hl
        · intro u hu; simp [initInstState] at hu
        · intro hu; simp [initInstState] at hu
        · rw [show (initInstState env spill (.target ri)).inst = .target ri from rfl]
          rw [List.forall₂_same]
          intro x hx
          exact Or.inl ⟨rfl, fun _ => hx⟩
      obtain ⟨⟨_, hs1, _, _, hrel, hmem1, hf⟩, _, _⟩ :=
        rewriteUses_inv env pos (.target ri) v hv hva _ _ _ h1 hinit
      have hvr : v ∈ st1.reloaded := by
        rcases hmem1 with h3 | h3
        · exact h3
        · simp at h3
      obtain ⟨s, fi, hr1⟩ := hrel hvr
      obtain ⟨hr2, huses, _, _⟩ := rewriteDefs_inv env pos v s fi _ _ _ h2 hs1 hr1
      obtain ⟨_, hslot, _, hphys, pre, mid, hreloads, hmid⟩ := hr2
      refine ⟨s, fi, pre, mid, st2.inst, st2.spills, ?_, hphys, ?_, hmid, ?_⟩
      · rw [← hout, hreloads]
        simp
      · rw [← hsp]; exact hslot
      · rw [huses]
        refine List.Forall₂.imp ?_ hf
        intro x y hxy hx
        unfold UseRel at hxy
        rcases hxy with ⟨_, hrem⟩ | ⟨_, hxv⟩
        · have := hrem (by rw [hx]; exact hv)
          simp at this
        · have h5 := hxv hx
          rw [hr1.1] at h5
          simp only [Option.some.injEq] at h5
          exact h5.symm

/-- Claim C2, as stated, fails for a pseudo move: for `a0 ← v2`, with `v2` left without a
register, the rewrite phase inserts the reload of the slot of `v2` into the scratch `t1`, but
the move is not rewritten; it still reads `v2`, and `t1` replaces nothing in it. -/
theorem rewrite_reload_not_used_by_move :
    rewriteBlock emptyEnv argMoveBlock noSpill 0 =
        some ([.fiLoad { rId := 6, dt := some .I32, isVreg := false } 0,
               .move (some (.reg PR.a0)) (some (.reg (vreg 2)))],
              { spillFrameIndex := [(vreg 2, 0)], spillSlots := [(4, 4)] }) ∧
      vreg 2 ∈ enumUses (.move (some (.reg PR.a0)) (some (.reg (vreg 2)))) ∧
      ({ rId := 6, dt := some .I32, isVreg := false } : Register) ∉
        enumUses (.move (some (.reg PR.a0)) (some (.reg (vreg 2)))) := by
  decide

/-- Claim C2, amended: for every target instruction `i` of a block and every virtual
register `v` among its uses that allocation left without a physical register, when the
rewrite of the block completes, its result holds, in this order, an FILoad of the spill slot
of `v` into a physical scratch `s`, then only further FILoads, each into a register other
than `s`, then the rewritten `i`, in which `s` stands at every use position where `v`
stood. -/
theorem rewriteBlock_reload_before_use (env : RewriteEnv) (l1 l2 : List MInstruction)
    (ri : Instr) (spill sp2 : SpillState) (pos : Int) (out : List MInstruction) (v : Register)
    (hv : v.isVreg = true) (hva : env.assignedPhys.lookup v = none)
    (hmem : v ∈ enumUses (.target ri))
    (h : rewriteBlock env (l1 ++ .target ri :: l2) spill pos = some (out, sp2)) :
    ∃ s fi o1 mid inst1 o2, out = o1 ++ .fiLoad s fi :: (mid ++ inst1 :: o2) ∧
      s.isVreg = false ∧ sp2.spillFrameIndex.lookup v = some fi ∧
      (∀ m ∈ mid, ∃ s2 fi2, m = .fiLoad s2 fi2 ∧ s2 ≠ s) ∧
      List.Forall₂ (fun x y => x = v → y = s) (enumUses (.target ri)) (enumUses inst1) := by
  obtain ⟨o1, oi, o2, spA, spB, ha, hb, hc⟩ :=
    rewriteBlock_split env l1 spill sp2 pos (.target ri) l2 out h
  obtain ⟨s, fi, pre, mid, inst1, post, hout, hphys, hslot, hmid, hf⟩ :=
    rewriteInst_reload env spA spB _ ri oi v hv hva hmem ha
  refine ⟨s, fi, o1 ++ pre, mid, inst1, post ++ o2, ?_, hphys, hc v fi hslot, hmid, hf⟩
  rw [hb, hout]
  simp

theorem rewriteBlock_reload_before_use_witness :
    ((vreg 2).isVreg = true ∧ emptyEnv.assignedPhys.lookup (vreg 2) = none ∧
      vreg 2 ∈ enumUses (.target (createRInst .ADD (vreg 4) (vreg 2) (vreg 3))) ∧
      rewriteBlock emptyEnv reloadBlock noSpill 0 = some (reloadBlockRewritten, reloadBlockSpill))
    ∧ ∃ s fi o1 mid inst1 o2, reloadBlockRewritten = o1 ++ .fiLoad s fi :: (mid ++ inst1 :: o2) ∧
      s.isVreg = false ∧ reloadBlockSpill.spillFrameIndex.lookup (vreg 2) = some fi ∧
      (∀ m ∈ mid, ∃ s2 fi2, m = .fiLoad s2 fi2 ∧ s2 ≠ s) ∧
      List.Forall₂ (fun x y => x = vreg 2 → y = s)
        (enumUses (.target (createRInst .ADD (vreg 4) (vreg 2) (vreg 3)))) (enumUses inst1) :=
  ⟨⟨rfl, rfl, by decide, by decide⟩,
    rewriteBlock_reload_before_use emptyEnv [.target (createIInst .ADDI (vreg 1) PR.a0 0)]
      [.target (createIInst .JALR PR.x0 PR.ra 0)] (createRInst .ADD (vreg 4) (vreg 2) (vreg 3))
      noSpill reloadBlockSpill 0 reloadBlockRewritten (vreg 2) rfl rfl (by decide) (by decide)⟩

/-! ### Stack lowering: what becomes of a reload and of a spill -/

theorem selectLoadOp_mem (dt : Option DataType) :
    selectLoadOp dt ∈ [Operator.LW, .LD, .FLW, .FLD] := by
  rcases dt with _ | dt
  · simp [selectLoadOp]
  · cases dt <;> simp [selectLoadOp]

theorem selectStoreOp_mem (dt : Option DataType) :
    selectStoreOp dt ∈ [Operator.SW, .SD, .FSW, .FSD] := by
  rcases dt with _ | dt
  · simp [selectStoreOp]
  · cases dt <;> simp [selectStoreOp]

theorem replaceLoad_not_return (op : Operator) (hop : op ∈ [Operator.LW, .LD, .FLW, .FLD])
    (dest base : Register) (offset : Int) :
    ∀ o ∈ replaceWithLargeOffsetLoad op dest base offset, isReturn o = false := by
  intro o ho
  have hop2 : op ≠ .RET ∧ op ≠ .JALR := by
    simp only [List.mem_cons, List.mem_singleton, List.not_mem_nil, or_false] at hop
    rcases hop with h | h | h | h <;> subst h <;> simp
  unfold replaceWithLargeOffsetLoad at ho
  split at ho
  · simp at ho; subst ho
    simp [isReturn, isReturnInst, createIInst, Instr.new, hop2.1, hop2.2]
  · simp at ho
    rcases ho with rfl | rfl | rfl
    · rfl
    · rfl
    · simp [isReturn, isReturnInst, createIInst, Instr.new, hop2.1, hop2.2]

theorem replaceStore_not_return (op : Operator) (hop : op ∈ [Operator.SW, .SD, .FSW, .FSD])
    (src base : Register) (offset : Int) :
    ∀ o ∈ replaceWithLargeOffsetStore op src base offset, isReturn o = false := by
  intro o ho
  have hop2 : op ≠ .RET ∧ op ≠ .JALR := by
    simp only [List.mem_cons, List.mem_singleton, List.not_mem_nil, or_false] at hop
    rcases hop with h | h | h | h <;> subst h <;> simp
  unfold replaceWithLargeOffsetStore at ho
  split at ho
  · simp at ho; subst ho
    simp [isReturn, isReturnInst, createSInst, Instr.new, hop2.1, hop2.2]
  · simp at ho
    rcases ho with rfl | rfl | rfl
    · rfl
    · rfl
    · simp [isReturn, isReturnInst, createSInst, Instr.new, hop2.1, hop2.2]

theorem mem_addPrologue_of_mem (pro : List MInstruction) (bs : BlockMap) (kb : Nat × Block)
    (h : kb ∈ bs) :
    ∃ kb1 ∈ addPrologue pro bs, kb1.1 = kb.1 ∧ ∃ pre, kb1.2.insts = pre ++ kb.2.insts := by
  cases bs with
  | nil => simp at h
  | cons hd tl =>
    obtain ⟨id, entry⟩ := hd
    rcases List.mem_cons.mp h with h1 | h1
    · subst h1
      exact ⟨_, List.mem_cons_self _ _, rfl, pro, rfl⟩
    · exact ⟨kb, List.mem_cons_of_mem _ h1, rfl, [], rfl⟩

theorem mem_mapInsts_of_mem (g : List MInstruction → List MInstruction) (bs : BlockMap)
    (kb : Nat × Block) (h : kb ∈ bs) :
    ∃ kb1 ∈ mapInsts g bs, kb1.1 = kb.1 ∧ kb1.2.insts = g kb.2.insts :=
  ⟨_, List.mem_map_of_mem _ h, rfl, rfl⟩

theorem lowerFunction_keeps_sequence (func : Function) (layout : FrameLayout)
    (kb : Nat × Block) (hkb : kb ∈ func.blocks) (l1 l2 : List MInstruction) (x : MInstruction)
    (hsplit : kb.2.insts = l1 ++ x :: l2)
    (hnr : ∀ o ∈ lowerInst layout (computeStackSize func layout) x, isReturn o = false) :
    ∃ kb1 ∈ (lowerFunction func layout).blocks, kb1.1 = kb.1 ∧
      ∃ pre post, kb1.2.insts =
        pre ++ lowerInst layout (computeStackSize func layout) x ++ post := by
  obtain ⟨kbA, hA, hA1, hA2⟩ := mem_mapInsts_of_mem
    (fun l => l.flatMap (lowerInst layout (computeStackSize func layout))) func.blocks kb hkb
  have hA3 : kbA.2.insts = l1.flatMap (lowerInst layout (computeStackSize func layout)) ++
      lowerInst layout (computeStackSize func layout) x ++
      l2.flatMap (lowerInst layout (computeStackSize func layout)) := by
    rw [hA2, hsplit]
    simp [List.flatMap_append, List.flatMap_cons]
  unfold lowerFunction
  simp only
  split
  · obtain ⟨kbB, hB, hB1, pre, hB2⟩ := mem_addPrologue_of_mem
      (prologue layout.frameSize (computeStackSize func layout) (savedRegs func)) _ kbA hA
    obtain ⟨kbC, hC, hC1, hC2⟩ := mem_mapInsts_of_mem
      (fun l => l.flatMap (epilogueInst layout.frameSize (computeStackSize func layout)
        (savedRegs func))) _ kbB hB
    refine ⟨kbC, hC, by rw [hC1, hB1, hA1], ?_⟩
    refine ⟨(pre ++ l1.flatMap (lowerInst layout (computeStackSize func layout))).flatMap
        (epilogueInst layout.frameSize (computeStackSize func layout) (savedRegs func)),
      (l2.flatMap (lowerInst layout (computeStackSize func layout))).flatMap
        (epilogueInst layout.frameSize (computeStackSize func layout) (savedRegs func)), ?_⟩
    rw [hC2, hB2, hA3]
    simp only [List.flatMap_append]
    rw [flatMap_epilogue_of_not_return _ _ _ _ hnr]
    simp only [List.append_assoc]
  · exact ⟨kbA, hA, hA1, _, _, hA3⟩

/-- Claim C9: after `lowerFunction` no block holds an FILoad or FIStore; where a block held
a reload of `dest` from slot `fi`, the block of the same id now holds the load chosen by the
type of `dest` (FLW, FLD, LD or else LW) at `offset(sp)`, or `LI t0, offset; ADD t0, sp, t0;
load dest, 0(t0)` when the offset of the slot is not a 12-bit immediate; a spill becomes
the matching store (FSW, FSD, SD or else SW) in the same way. -/
theorem lowerFunction_no_frame_pseudo (func : Function) (layout : FrameLayout) :
    (∀ kb ∈ (lowerFunction func layout).blocks, ∀ i ∈ kb.2.insts, isFIPseudo i = false) ∧
      (∀ kb ∈ func.blocks, ∀ (l1 l2 : List MInstruction) (dest : Register) (fi : Int),
        kb.2.insts = l1 ++ .fiLoad dest fi :: l2 →
        selectLoadOp dest.dt ∈ [Operator.LW, .LD, .FLW, .FLD] ∧
        ∃ kb1 ∈ (lowerFunction func layout).blocks, kb1.1 = kb.1 ∧
          ∃ pre post, kb1.2.insts = pre ++
            (if imm12 (layout.spillSlotOffset fi) then
              [.target (createIInst (selectLoadOp dest.dt) dest PR.sp
                (layout.spillSlotOffset fi))]
            else
              [.target (createUInst .LI PR.t0 (layout.spillSlotOffset fi)),
               .target (createRInst .ADD PR.t0 PR.sp PR.t0),
               .target (createIInst (selectLoadOp dest.dt) dest PR.t0 0)]) ++ post) ∧
      (∀ kb ∈ func.blocks, ∀ (l1 l2 : List MInstruction) (src : Register) (fi : Int),
        kb.2.insts = l1 ++ .fiStore src fi :: l2 →
        selectStoreOp src.dt ∈ [Operator.SW, .SD, .FSW, .FSD] ∧
        ∃ kb1 ∈ (lowerFunction func layout).blocks, kb1.1 = kb.1 ∧
          ∃ pre post, kb1.2.insts = pre ++
            (if imm12 (layout.spillSlotOffset fi) then
              [.target (createSInst (selectStoreOp src.dt) src PR.sp
                (layout.spillSlotOffset fi))]
            else
              [.target (createUInst .LI PR.t0 (layout.spillSlotOffset fi)),
               .target (createRInst .ADD PR.t0 PR.sp PR.t0),
               .target (createSInst (selectStoreOp src.dt) src PR.t0 0)]) ++ post) := by
  refine ⟨?_, ?_, ?_⟩
  · apply lowerFunction_forall (fun i => isFIPseudo i = false)
    · intro i _ o ho
      exact lowerInst_not_pseudo _ _ i o ho
    · intro o ho
      exact plain_not_pseudo o (plain_prologue _ _ _ o ho)
    · intro o hP o2 ho2
      rcases epilogueInst_mem _ _ _ o o2 ho2 with h | h
      · subst h; exact hP
      · exact plain_not_pseudo o2 h
  · intro kb hkb l1 l2 dest fi hsplit
    refine ⟨selectLoadOp_mem dest.dt, ?_⟩
    exact lowerFunction_keeps_sequence func layout kb hkb l1 l2 (.fiLoad dest fi) hsplit
      (replaceLoad_not_return _ (selectLoadOp_mem dest.dt) _ _ _)
  · intro kb hkb l1 l2 src fi hsplit
    refine ⟨selectStoreOp_mem src.dt, ?_⟩
    exact lowerFunction_keeps_sequence func layout kb hkb l1 l2 (.fiStore src fi) hsplit
      (replaceStore_not_return _ (selectStoreOp_mem src.dt) _ _ _)

theorem lowerFunction_no_frame_pseudo_witness :
    frameUserInsts = frameUserInsts.take 5 ++ .fiLoad (getPR 18) 0 :: frameUserInsts.drop 6 ∧
      ∃ kb1 ∈ (lowerFunction frameUser frameUserLayout).blocks, kb1.1 = 0 ∧
        ∃ pre post, kb1.2.insts = pre ++
          [.target (createUInst .LI PR.t0 4096), .target (createRInst .ADD PR.t0 PR.sp PR.t0),
           .target (createIInst .LD (getPR 18) PR.t0 0)] ++ post :=
  ⟨rfl,
    ((lowerFunction_no_frame_pseudo frameUser frameUserLayout).2.1
      (0, { blockId := 0, insts := frameUserInsts }) (by simp [frameUser])
      (frameUserInsts.take 5) (frameUserInsts.drop 6) (getPR 18) 0 rfl).2⟩

/-! ### Stack lowering: the saved registers and the prologue -/

theorem saveRegs_not_return (frameSize : Int) (saved : List Register) :
    ∀ i, ∀ o ∈ saveRegs frameSize i saved, isReturn o = false := by
  induction saved with
  | nil => intro i o ho; simp [saveRegs] at ho
  | cons hd tl ih =>
    intro i o ho
    simp only [saveRegs, List.mem_append] at ho
    rcases ho with ho | ho
    · split at ho
      · simp at ho; subst ho
        cases h : hd.isFloat <;> simp [isReturn, isReturnInst, createSInst, Instr.new]
      · simp at ho
        rcases ho with rfl | rfl | rfl
        · rfl
        · rfl
        · cases h : hd.isFloat <;> simp [isReturn, isReturnInst, createSInst, Instr.new]
    · exact ih _ o ho

theorem prologue_not_return (frameSize stackSize : Int) (saved : List Register) :
    ∀ o ∈ prologue frameSize stackSize saved, isReturn o = false := by
  intro o ho
  unfold prologue at ho
  rcases List.mem_append.mp ho with h | h
  · split at h
    · exact insertSpAdjust_not_return _ o h
    · simp at h
  · exact saveRegs_not_return _ _ _ o h

theorem lowerFunction_entry_prologue (func : Function) (layout : FrameLayout)
    (hsaved : savedRegs func ≠ []) (id : Nat) (entry : Block) (rest : BlockMap)
    (hblocks : (lowerFunction func layout).blocks = (id, entry) :: rest) :
    prologue layout.frameSize (computeStackSize func layout) (savedRegs func) <+:
      entry.insts := by
  unfold lowerFunction at hblocks
  simp only at hblocks
  rw [if_pos] at hblocks
  · cases hfb : func.blocks with
    | nil => rw [hfb] at hblocks; simp [mapInsts, addPrologue] at hblocks
    | cons hd tl =>
      rw [hfb] at hblocks
      simp only [mapInsts, List.map_cons, addPrologue, List.cons.injEq] at hblocks
      obtain ⟨h1, _⟩ := hblocks
      have hentry := congrArg (fun kb : Nat × Block => kb.2.insts) h1
      simp only at hentry
      rw [← hentry]
      simp only [List.flatMap_append]
      rw [flatMap_epilogue_of_not_return _ _ _ _ (prologue_not_return _ _ _)]
      exact List.prefix_append _ _
  · have : (savedRegs func).isEmpty = false := by
      cases h : savedRegs func with
      | nil => exact absurd h hsaved
      | cons a b => rfl
    simp [this]

/-- Claim C10, amended: when there is a register to save, the entry block of the lowered
function starts with the prologue, whose stores save exactly `savedRegs`; and a register is
in `savedRegs` exactly when it is a callee-saved register (s0-s11, fs0-fs11) that occurs as
a physical register in some instruction of the function, read or written (the fields `rd`,
`rs1`, `rs2` of a target instruction, the register operands of a move or phi, the register
of an FILoad or FIStore), or it is `ra` and the function contains a CALL. -/
theorem savedRegs_iff (func : Function) (layout : FrameLayout) (r : Register) :
    (savedRegs func ≠ [] → ∀ id entry rest,
        (lowerFunction func layout).blocks = (id, entry) :: rest →
        prologue layout.frameSize (computeStackSize func layout) (savedRegs func) <+:
          entry.insts) ∧
      storeValueRegs (prologue layout.frameSize (computeStackSize func layout) (savedRegs func))
        = savedRegs func ∧
      (r ∈ savedRegs func ↔
        (∃ id, (id ∈ calleeSavedIntRegs ∨ id ∈ calleeSavedFloatRegs) ∧ r = getPR id ∧
            ∃ i ∈ allInsts func, ∃ m ∈ markedRegs i, m.isVreg = false ∧ m.rId = id) ∨
          (r = PR.ra ∧ ∃ i ∈ allInsts func, isCallInstr i = true)) := by
  refine ⟨?_, ?_, ?_⟩
  · intro hsaved id entry rest hblocks
    exact lowerFunction_entry_prologue func layout hsaved id entry rest hblocks
  · unfold prologue
    have h1 := storeValueRegs_saveRegs layout.frameSize (savedRegs func) 0
    have h2 := storeValueRegs_insertSpAdjust (-(computeStackSize func layout))
    unfold storeValueRegs at h1 h2 ⊢
    split <;> simp [List.filterMap_append, h1, h2]
  · unfold savedRegs hasCall
    simp only [List.mem_append, List.mem_map, List.mem_filter, Bool.and_eq_true,
      decide_eq_true_eq, usedRegs_iff, List.any_eq_true]
    constructor
    · rintro ((⟨id, ⟨hid, _, _, hex⟩, rfl⟩ | ⟨id, ⟨hid, _, _, hex⟩, rfl⟩) | hra)
      · exact Or.inl ⟨id, Or.inl hid, rfl, hex⟩
      · exact Or.inl ⟨id, Or.inr hid, rfl, hex⟩
      · split at hra
        · rename_i hc
          simp only [List.mem_singleton] at hra
          exact Or.inr ⟨hra, hc⟩
        · simp at hra
    · rintro (⟨id, hid, rfl, hex⟩ | ⟨rfl, hc⟩)
      · have h64 : id < 64 := by
          rcases hid with h | h <;>
            simp [calleeSavedIntRegs, calleeSavedFloatRegs] at h <;> omega
        rcases hid with h | h
        · exact Or.inl (Or.inl ⟨id, ⟨h, h64, h64, hex⟩, rfl⟩)
        · exact Or.inl (Or.inr ⟨id, ⟨h, h64, h64, hex⟩, rfl⟩)
      · right
        rw [if_pos hc]
        simp

theorem savedRegs_iff_witness :
    savedRegs readsS1 ≠ [] ∧
      ∀ id entry rest, (lowerFunction readsS1 layout16).blocks = (id, entry) :: rest →
        prologue layout16.frameSize (computeStackSize readsS1 layout16) (savedRegs readsS1) <+:
          entry.insts :=
  ⟨by decide, (savedRegs_iff readsS1 layout16 PR.s1).1 (by decide)⟩

/-! ### Linear scan: what the rewrite phase leaves of an instruction -/

theorem getScratch_inst (env : RewriteEnv) (pos : Int) (st st1 : InstState) (r s : Register)
    (h : getScratch env pos st r = some (s, st1)) :
    st1.inst = st.inst ∧ st1.reloads = st.reloads ∧ st1.spills = st.spills := by
  unfold getScratch at h
  split at h
  · simp only [Option.some.injEq, Prod.mk.injEq] at h
    rw [← h.2]
    exact ⟨rfl, rfl, rfl⟩
  · split at h
    · simp at h
    · simp only [Option.some.injEq, Prod.mk.injEq] at h
      rw [← h.2]
      exact ⟨rfl, rfl, rfl⟩

theorem instLike_replaceUse (ri : Instr) (i : MInstruction) (u t : Register)
    (h : instLike ri i) : instLike ri (replaceUse i u t) := by
  obtain ⟨r, rfl, hr⟩ := h
  refine ⟨_, rfl, ?_⟩
  unfold sameButRegs at hr ⊢
  rw [hr]

theorem instLike_replaceDef (ri : Instr) (i : MInstruction) (d t : Register)
    (h : instLike ri i) : instLike ri (replaceDef i d t) := by
  obtain ⟨r, rfl, hr⟩ := h
  refine ⟨_, rfl, ?_⟩
  unfold sameButRegs at hr ⊢
  rw [hr]

theorem rewriteUse_shape (env : RewriteEnv) (pos : Int) (ri : Instr) (st st1 : InstState)
    (u : Register) (h : rewriteUse env pos st u = some st1)
    (hi : instLike ri st.inst) (hr : allReloads st.reloads) (hs : allSpills st.spills) :
    instLike ri st1.inst ∧ allReloads st1.reloads ∧ allSpills st1.spills := by
  unfold rewriteUse at h
  split at h
  · simp only [Option.some.injEq] at h; subst h; exact ⟨hi, hr, hs⟩
  · split at h
    · simp only [Option.some.injEq] at h; subst h
      exact ⟨instLike_replaceUse ri _ _ _ hi, hr, hs⟩
    · split at h
      · simp at h
      · rename_i s st0 hg
        obtain ⟨h1, h2, h3⟩ := getScratch_inst env pos st st0 u s hg
        split at h
        · simp only [Option.some.injEq] at h; subst h
          refine ⟨?_, ?_, ?_⟩
          · simp only [h1]; exact instLike_replaceUse ri _ _ _ hi
          · simp only [h2]; exact hr
          · simp only [h3]; exact hs
        · simp only [Option.some.injEq] at h; subst h
          refine ⟨?_, ?_, ?_⟩
          · simp only [h1]; exact instLike_replaceUse ri _ _ _ hi
          · intro m hm
            simp only [h2, List.mem_append, List.mem_singleton] at hm
            rcases hm with hm | hm
            · exact hr m hm
            · exact ⟨_, _, hm⟩
          · simp only [h3]; exact hs

theorem rewriteDef_shape (env : RewriteEnv) (pos : Int) (ri : Instr) (st st1 : InstState)
    (d : Register) (h : rewriteDef env pos st d = some st1)
    (hi : instLike ri st.inst) (hr : allReloads st.reloads) (hs : allSpills st.spills) :
    instLike ri st1.inst ∧ allReloads st1.reloads ∧ allSpills st1.spills := by
  unfold rewriteDef at h
  split at h
  · simp only [Option.some.injEq] at h; subst h; exact ⟨hi, hr, hs⟩
  · split at h
    · simp only [Option.some.injEq] at h; subst h
      exact ⟨instLike_replaceDef ri _ _ _ hi, hr, hs⟩
    · split at h
      · simp at h
      · rename_i s st0 hg
        obtain ⟨h1, h2, h3⟩ := getScratch_inst env pos st st0 d s hg
        split at h
        · simp only [Option.some.injEq] at h; subst h
          refine ⟨?_, ?_, ?_⟩
          · simp only [h1]; exact instLike_replaceDef ri _ _ _ hi
          · simp only [h2]; exact hr
          · simp only [h3]; exact hs
        · simp only [Option.some.injEq] at h; subst h
          refine ⟨?_, ?_, ?_⟩
          · simp only [h1]; exact instLike_replaceDef ri _ _ _ hi
          · simp only [h2]; exact hr
          · intro m hm
            simp only [h3, List.mem_cons] at hm
            rcases hm with hm | hm
            · exact ⟨_, _, hm⟩
            · exact hs m hm

theorem rewriteUses_shape (env : RewriteEnv) (pos : Int) (ri : Instr) (l : List Register) :
    ∀ st stf : InstState, rewriteUses env pos l st = some stf →
      instLike ri st.inst → allReloads st.reloads → allSpills st.spills →
      instLike ri stf.inst ∧ allReloads stf.reloads ∧ allSpills stf.spills := by
  induction l with
  | nil =>
    intro st stf h hi hr hs
    simp only [rewriteUses, Option.some.injEq] at h
    subst h
    exact ⟨hi, hr, hs⟩
  | cons u rest ih =>
    intro st stf h hi hr hs
    simp only [rewriteUses] at h
    split at h
    · simp at h
    · rename_i st1 h1
      obtain ⟨a, b, c⟩ := rewriteUse_shape env pos ri st st1 u h1 hi hr hs
      exact ih st1 stf h a b c

theorem rewriteDefs_shape (env : RewriteEnv) (pos : Int) (ri : Instr) (l : List Register) :
    ∀ st stf : InstState, rewriteDefs env pos l st = some stf →
      instLike ri st.inst → allReloads st.reloads → allSpills st.spills →
      instLike ri stf.inst ∧ allReloads stf.reloads ∧ allSpills stf.spills := by
  induction l with
  | nil =>
    intro st stf h hi hr hs
    simp only [rewriteDefs, Option.some.injEq] at h
    subst h
    exact ⟨hi, hr, hs⟩
  | cons d rest ih =>
    intro st stf h hi hr hs
    simp only [rewriteDefs] at h
    split at h
    · simp at h
    · rename_i st1 h1
      obtain ⟨a, b, c⟩ := rewriteDef_shape env pos ri st st1 d h1 hi hr hs
      exact ih st1 stf h a b c

theorem rewriteInst_shape (env : RewriteEnv) (spill sp1 : SpillState) (pos : Int) (ri : Instr)
    (out : List MInstruction) (h : rewriteInst env spill pos (.target ri) = some (out, sp1)) :
    ∃ pre r post, out = pre ++ .target r :: post ∧ sameButRegs ri r ∧ allReloads pre ∧
      allSpills post := by
  unfold rewriteInst at h
  split at h
  · simp at h
  · rename_i st1 h1
    split at h
    · simp at h
    · rename_i st2 h2
      simp only [Option.some.injEq, Prod.mk.injEq] at h
      have h0 : instLike ri (initInstState env spill (.target ri)).inst :=
        ⟨ri, rfl, rfl⟩
      obtain ⟨a, b, c⟩ := rewriteUses_shape env pos ri _ _ _ h1 h0
        (fun m hm => by simp [initInstState] at hm) (fun m hm => by simp [initInstState] at hm)
      obtain ⟨⟨r, hr, hsame⟩, b2, c2⟩ := rewriteDefs_shape env pos ri _ _ _ h2 a b c
      refine ⟨st2.reloads, r, st2.spills, ?_, hsame, b2, c2⟩
      rw [← h.1, hr]

/-- Claim C3, amended: for a function whose instructions are all target instructions (pseudo
moves and phis are lowered before allocation), whatever registers allocation has assigned,
when the rewrite phase completes (no scratch register runs out), every register that
`enumUses` and `enumDefs` report for any instruction of the result, the inserted reloads and
spills included, is physical; and a target instruction comes out between its reloads and
its spills with only its three register fields changed, so a frame-index operand stays. -/
theorem rewriteBlocks_all_physical (env : RewriteEnv) :
    (∀ (blocks : BlockMap) (spill sp1 : SpillState) (pos : Int) (out : BlockMap),
      allTargets blocks = true → rewriteBlocks env blocks spill pos = some (out, sp1) →
      ∀ kb ∈ out, ∀ i ∈ kb.2.insts,
        (∀ r ∈ enumUses i, r.isVreg = false) ∧ (∀ r ∈ enumDefs i, r.isVreg = false)) ∧
    (∀ (spill sp1 : SpillState) (pos : Int) (ri : Instr) (out : List MInstruction),
      rewriteInst env spill pos (.target ri) = some (out, sp1) →
      ∃ pre r post, out = pre ++ .target r :: post ∧ sameButRegs ri r ∧ allReloads pre ∧
        allSpills post) :=
  ⟨fun blocks spill sp1 pos out => rewriteBlocks_physOnly env blocks spill sp1 pos out,
    fun spill sp1 pos ri out => rewriteInst_shape env spill sp1 pos ri out⟩

theorem rewriteBlocks_all_physical_witness :
    (allTargets addBlocks = true ∧
      rewriteBlocks emptyEnv addBlocks noSpill 0 = some (addBlocksRewritten, addBlocksSpill)) ∧
    ∀ kb ∈ addBlocksRewritten, ∀ i ∈ kb.2.insts,
        (∀ r ∈ enumUses i, r.isVreg = false) ∧ (∀ r ∈ enumDefs i, r.isVreg = false) :=
  ⟨⟨by decide, by decide⟩,
    (rewriteBlocks_all_physical emptyEnv).1 addBlocks noSpill addBlocksSpill 0
      addBlocksRewritten (by decide) (by decide)⟩

/-! ### Target adapter: classification, register enumeration, replacement -/

/-- Claim C15: the return instruction `JALR x0, ra, 0` that instruction selection emits is
classified both as a return and as an unconditional branch, so two of the four classifiers
answer true for it; for every machine instruction at most one classifier answers true
exactly when the instruction does not have that shape, and for that shape exactly two do. -/
theorem classifiers_overlap_on_return :
    (InstrAdapter.isReturn retInst = true ∧ InstrAdapter.isUncondBranch retInst = true ∧
      classifierCount retInst = 2) ∧
    (∀ inst : MInstruction, classifierCount inst ≤ 1 ↔ isJalrReturn inst = false) ∧
    (∀ inst : MInstruction, isJalrReturn inst = true → classifierCount inst = 2) := by
  refine ⟨by decide, ?_, ?_⟩
  · intro inst
    cases inst with
    | target ri =>
      obtain ⟨op, rd, rs1, rs2, imme, label, use_label, ic, fc, fn, id, fiop, uo⟩ := ri
      by_cases h1 : rd = PR.x0 <;> by_cases h2 : rs1 = PR.ra <;> by_cases h3 : imme = 0 <;>
        cases op <;>
        simp [classifierCount, InstrAdapter.isCall, InstrAdapter.isReturn,
          InstrAdapter.isUncondBranch, InstrAdapter.isCondBranch, isJalrReturn, h1, h2, h3]
    | move d s => simp [classifierCount, InstrAdapter.isCall, InstrAdapter.isReturn,
          InstrAdapter.isUncondBranch, InstrAdapter.isCondBranch, isJalrReturn]
    | phi r v => simp [classifierCount, InstrAdapter.isCall, InstrAdapter.isReturn,
          InstrAdapter.isUncondBranch, InstrAdapter.isCondBranch, isJalrReturn]
    | fiLoad d fi => simp [classifierCount, InstrAdapter.isCall, InstrAdapter.isReturn,
          InstrAdapter.isUncondBranch, InstrAdapter.isCondBranch, isJalrReturn]
    | fiStore d fi => simp [classifierCount, InstrAdapter.isCall, InstrAdapter.isReturn,
          InstrAdapter.isUncondBranch, InstrAdapter.isCondBranch, isJalrReturn]
  · intro inst h
    cases inst with
    | target ri =>
      obtain ⟨op, rd, rs1, rs2, imme, label, use_label, ic, fc, fn, id, fiop, uo⟩ := ri
      simp only [isJalrReturn, Bool.and_eq_true, decide_eq_true_eq] at h
      obtain ⟨⟨⟨h0, h1⟩, h2⟩, h3⟩ := h
      subst h0 h1 h2 h3
      simp [classifierCount, InstrAdapter.isCall, InstrAdapter.isReturn,
          InstrAdapter.isUncondBranch, InstrAdapter.isCondBranch]
    | move d s => simp [isJalrReturn] at h
    | phi r v => simp [isJalrReturn] at h
    | fiLoad d fi => simp [isJalrReturn] at h
    | fiStore d fi => simp [isJalrReturn] at h

theorem mem_addPhys (r x : Register) : r ∈ addPhys x ↔ r = x ∧ x.isVreg = false := by
  unfold addPhys
  cases h : x.isVreg <;> simp

theorem mem_flatMap_addPhys (r : Register) (l : List Register) :
    r ∈ l.flatMap addPhys ↔ r ∈ l ∧ r.isVreg = false := by
  simp only [List.mem_flatMap, mem_addPhys]
  constructor
  · rintro ⟨x, hx, rfl, hv⟩
    exact ⟨hx, hv⟩
  · rintro ⟨hx, hv⟩
    exact ⟨r, hx, rfl, hv⟩

/-- Claim C16: for `LI t0, 5` and for `JAL ra, L1` the destination is a physical register
that `enumDefs` reports and `enumPhysRegs` does not; for every machine instruction, every
physical register of `enumUses` and `enumDefs` is reported by `enumPhysRegs` exactly when
the instruction is not a U-type or J-type instruction with a physical destination. -/
theorem enumPhysRegs_misses_U_J :
    (PR.t0 ∈ enumDefs (.target (createUInst .LI PR.t0 5)) ∧ PR.t0.isVreg = false ∧
      PR.t0 ∉ enumPhysRegs (.target (createUInst .LI PR.t0 5))) ∧
    (PR.ra ∈ enumDefs (.target (createJInst .JAL PR.ra (Label.ofJmp 1))) ∧
      PR.ra.isVreg = false ∧
      PR.ra ∉ enumPhysRegs (.target (createJInst .JAL PR.ra (Label.ofJmp 1)))) ∧
    (∀ inst : MInstruction, PhysRegsComplete inst ↔ isUJWithPhysRd inst = false) := by
  refine ⟨by decide, by decide, ?_⟩
  intro inst
  cases inst with
  | target ri =>
    by_cases hc : ri.op = .CALL
    · have ht : ri.op.opType = .CALL := by rw [hc]; rfl
      simp only [PhysRegsComplete, enumUses, enumDefs, enumPhysRegs, isUJWithPhysRd, hc,
        if_true, List.append_nil, ht]
      constructor
      · intro _
        simp [Operator.opType]
      · intro _ r hr _
        exact hr
    · simp only [PhysRegsComplete, enumUses, enumDefs, enumPhysRegs, isUJWithPhysRd, hc,
        if_false]
      cases ht : ri.op.opType <;>
        simp only [List.mem_append, mem_addPhys, List.mem_cons, List.mem_singleton,
          List.not_mem_nil, or_false, false_or] <;>
        simp
      all_goals first
        | (intro r hr hv
           rcases hr with (rfl | rfl) | rfl <;> simp [hv])
        | tauto
  | move d s =>
    simp only [PhysRegsComplete, enumUses, enumDefs, enumPhysRegs, isUJWithPhysRd,
      List.mem_append, mem_flatMap_addPhys]
    constructor
    · intro _
      trivial
    · intro _ r hr hv
      rcases hr with hr | hr
      · exact Or.inl ⟨hr, hv⟩
      · exact Or.inr ⟨hr, hv⟩
  | phi res vals =>
    simp only [PhysRegsComplete, enumUses, enumDefs, enumPhysRegs, isUJWithPhysRd,
      List.mem_append, mem_flatMap_addPhys, mem_addPhys, List.mem_singleton]
    constructor
    · intro _
      trivial
    · intro _ r hr hv
      rcases hr with hr | hr
      · exact Or.inr ⟨hr, hv⟩
      · subst hr
        exact Or.inl ⟨rfl, hv⟩
  | fiLoad d fi =>
    simp [PhysRegsComplete, enumUses, enumDefs, enumPhysRegs, isUJWithPhysRd, mem_addPhys]
  | fiStore d fi =>
    simp [PhysRegsComplete, enumUses, enumDefs, enumPhysRegs, isUJWithPhysRd, mem_addPhys]

/-- Claim C17, as stated, fails for pseudo instructions: for the pseudo move `v1 ← v0`, `replaceUse` with `v0` and
`t0` leaves the instruction as it was, and `v0` is still the register that `enumUses`
reports; the same holds for a spill store of `v0` and for a phi fed by `v0`. -/
theorem replaceUse_keeps_pseudo_source :
    vreg 0 ≠ PR.t0 ∧
    enumUses (replaceUse (createMove (vreg 1) (.reg (vreg 0))) (vreg 0) PR.t0)
      = [vreg 0] ∧
    enumUses (replaceUse (.fiStore (vreg 0) 0) (vreg 0) PR.t0) = [vreg 0] ∧
    enumUses (replaceUse (.phi (vreg 1) [(0, some (.reg (vreg 0)))]) (vreg 0) PR.t0)
      = [vreg 0] := by
  decide

/-- Claim C17: for every target instruction that is not a call and registers
`from ≠ to`, after `replaceUse` the register `from` is no longer in `enumUses`, the list
`enumUses` is the old one with `to` put wherever `from` stood, and `enumDefs` is the old
one; when `from` is in neither source field the instruction is unchanged; an instruction
that is not a target instruction is returned unchanged whatever it uses, and so are the
registers that `enumUses` reports for a call. -/
theorem replaceUse_target (ri : Instr) (fromReg toReg : Register) (hne : fromReg ≠ toReg)
    (hc : ri.op ≠ .CALL) :
    fromReg ∉ enumUses (replaceUse (.target ri) fromReg toReg) ∧
    enumUses (replaceUse (.target ri) fromReg toReg) =
      (enumUses (.target ri)).map (fun x => if x = fromReg then toReg else x) ∧
    enumDefs (replaceUse (.target ri) fromReg toReg) = enumDefs (.target ri) ∧
    (ri.rs1 ≠ fromReg → ri.rs2 ≠ fromReg →
      replaceUse (.target ri) fromReg toReg = .target ri) ∧
    (∀ inst : MInstruction, isTarget inst = false → replaceUse inst fromReg toReg = inst) ∧
    (∀ ci : Instr, ci.op = .CALL →
      enumUses (replaceUse (.target ci) fromReg toReg) = enumUses (.target ci)) := by
  have hmap : enumUses (replaceUse (.target ri) fromReg toReg) =
      (enumUses (.target ri)).map (fun x => if x = fromReg then toReg else x) := by
    rw [enumUses_replaceUse, if_neg hc]
    rfl
  refine ⟨?_, hmap, enumDefs_replaceUse _ _ _, ?_, ?_, ?_⟩
  · rw [hmap]
    intro hmem
    obtain ⟨y, _, hy⟩ := List.mem_map.mp hmem
    by_cases h : y = fromReg
    · rw [if_pos h] at hy
      exact hne hy.symm
    · rw [if_neg h] at hy
      exact h hy
  · intro h1 h2
    simp [replaceUse, replaceReg, h1, h2]
  · intro inst hi
    cases inst with
    | target r => simp [isTarget] at hi
    | move d s => rfl
    | phi r v => rfl
    | fiLoad d fi => rfl
    | fiStore d fi => rfl
  · intro ci hci
    rw [enumUses_replaceUse, if_pos hci]

theorem replaceUse_target_witness :
    (vreg 1 ≠ PR.t0 ∧ (createRInst .ADD (vreg 3) (vreg 1) (vreg 2)).op ≠ .CALL) ∧
    enumUses (replaceUse (.target (createRInst .ADD (vreg 3) (vreg 1) (vreg 2)))
      (vreg 1) PR.t0) = [PR.t0, vreg 2] :=
  ⟨⟨by decide, by decide⟩,
    ((replaceUse_target (createRInst .ADD (vreg 3) (vreg 1) (vreg 2)) (vreg 1) PR.t0
      (by decide) (by decide)).2.1).trans (by decide)⟩

theorem argRegs_eq_filter (base : Nat) (cnt : Int) :
    argRegs base cnt =
      ((List.range 8).filter (fun (k : Nat) => decide (Int.ofNat k < cnt))).map
        (fun k => getPR (base + k)) := by
  unfold argRegs
  rcases le_or_lt cnt 0 with h | h
  · have h1 : (if cnt < 8 then cnt else 8).toNat = 0 := by
      rw [if_pos (by omega)]
      omega
    have h2 : (List.range 8).filter (fun (k : Nat) => decide (Int.ofNat k < cnt)) = [] := by
      rw [List.filter_eq_nil_iff]
      intro k _
      simp only [Int.ofNat_eq_coe, decide_eq_true_eq]
      omega
    rw [h1, h2]
    rfl
  · rcases le_or_lt 8 cnt with h8 | h8
    · have h1 : (if cnt < 8 then cnt else 8).toNat = 8 := by
        rw [if_neg (by omega)]
        rfl
      have h2 : (List.range 8).filter (fun (k : Nat) => decide (Int.ofNat k < cnt))
          = List.range 8 := by
        rw [List.filter_eq_self]
        intro k hk
        have := List.mem_range.mp hk
        simp only [Int.ofNat_eq_coe, decide_eq_true_eq]
        omega
      rw [h1, h2]
    · rw [if_pos h8]
      interval_cases cnt <;> rfl

/-- Claim C18: for every CALL instruction with integer and float argument counts `ni` and
`nf`, `enumDefs` is empty and `enumUses` is `a_k` for every `k < 8` below `ni` in ascending
order followed by `fa_k` for every `k < 8` below `nf`; a count of 8 or more gives all eight
registers of the class and nothing more, a count of 0 or less gives none. -/
theorem call_enumUses_enumDefs (ri : Instr) (h : ri.op = .CALL) :
    enumDefs (.target ri) = [] ∧
    enumUses (.target ri) = callArgRegs ri.call_ireg_cnt ri.call_freg_cnt ∧
    (8 ≤ ri.call_ireg_cnt → 8 ≤ ri.call_freg_cnt →
      enumUses (.target ri) = intArgRegs.map getPR ++ floatArgRegs.map getPR) ∧
    (ri.call_ireg_cnt ≤ 0 → ri.call_freg_cnt ≤ 0 → enumUses (.target ri) = []) := by
  have huse : enumUses (.target ri) = callArgRegs ri.call_ireg_cnt ri.call_freg_cnt := by
    simp only [enumUses, h, if_true, callArgRegs, argRegs_eq_filter]
  refine ⟨by simp [enumDefs, h], huse, ?_, ?_⟩
  · intro hi hf
    rw [huse]
    unfold callArgRegs
    have h1 : (List.range 8).filter (fun (k : Nat) => decide (Int.ofNat k < ri.call_ireg_cnt))
        = List.range 8 := by
      rw [List.filter_eq_self]
      intro k hk
      have := List.mem_range.mp hk
      simp only [Int.ofNat_eq_coe, decide_eq_true_eq]
      omega
    have h2 : (List.range 8).filter (fun (k : Nat) => decide (Int.ofNat k < ri.call_freg_cnt))
        = List.range 8 := by
      rw [List.filter_eq_self]
      intro k hk
      have := List.mem_range.mp hk
      simp only [Int.ofNat_eq_coe, decide_eq_true_eq]
      omega
    rw [h1, h2]
    rfl
  · intro hi hf
    rw [huse]
    unfold callArgRegs
    have h1 : (List.range 8).filter (fun (k : Nat) => decide (Int.ofNat k < ri.call_ireg_cnt))
        = [] := by
      rw [List.filter_eq_nil_iff]
      intro k _
      simp only [Int.ofNat_eq_coe, decide_eq_true_eq]
      omega
    have h2 : (List.range 8).filter (fun (k : Nat) => decide (Int.ofNat k < ri.call_freg_cnt))
        = [] := by
      rw [List.filter_eq_nil_iff]
      intro k _
      simp only [Int.ofNat_eq_coe, decide_eq_true_eq]
      omega
    rw [h1, h2]
    rfl

theorem call_enumUses_enumDefs_witness :
    (createCallInst .CALL "f" 9 2).op = .CALL ∧
    enumUses (.target (createCallInst .CALL "f" 9 2)) =
      [getPR 10, getPR 11, getPR 12, getPR 13, getPR 14, getPR 15, getPR 16, getPR 17,
       getPR 42, getPR 43] :=
  ⟨rfl, ((call_enumUses_enumDefs (createCallInst .CALL "f" 9 2) rfl).2.1).trans (by decide)⟩

/-! ### Phi elimination: running the pass again -/

theorem collectBlock_noPhi (blocks : BlockMap) (bid : Nat) :
    ∀ (insts : List MInstruction) (acc : List (EdgeKey × List (Register × Option Operand))),
      (∀ i ∈ insts, i.isPhi = false) → collectBlock blocks bid insts acc = acc := by
  intro insts
  induction insts with
  | nil => intro acc _; rfl
  | cons i rest ih =>
    intro acc h
    have hi := h i (List.mem_cons_self _ _)
    have hrest : ∀ j ∈ rest, j.isPhi = false := fun j hj => h j (List.mem_cons_of_mem _ hj)
    cases i with
    | phi r v => simp [MInstruction.isPhi] at hi
    | target ri => simp only [collectBlock]; exact ih acc hrest
    | move d s => simp only [collectBlock]; exact ih acc hrest
    | fiLoad d fi => simp only [collectBlock]; exact ih acc hrest
    | fiStore d fi => simp only [collectBlock]; exact ih acc hrest

theorem collectEdgeCopies_noPhi (blocks : BlockMap) :
    ∀ (bl : BlockMap) (acc : List (EdgeKey × List (Register × Option Operand))),
      (∀ kb ∈ bl, ∀ i ∈ kb.2.insts, i.isPhi = false) →
      collectEdgeCopies blocks bl acc = acc := by
  intro bl
  induction bl with
  | nil => intro acc _; rfl
  | cons kb rest ih =>
    intro acc h
    obtain ⟨bid, block⟩ := kb
    simp only [collectEdgeCopies]
    rw [collectBlock_noPhi blocks bid block.insts acc (h (bid, block) (List.mem_cons_self _ _))]
    exact ih acc (fun kb hkb => h kb (List.mem_cons_of_mem _ hkb))

theorem erasePhis_of_noPhi (blocks : BlockMap)
    (h : ∀ kb ∈ blocks, ∀ i ∈ kb.2.insts, i.isPhi = false) : erasePhis blocks = blocks := by
  unfold erasePhis
  conv_rhs => rw [← List.map_id blocks]
  apply List.map_congr_left
  intro kb hkb
  have hf : kb.2.insts.filter (fun i => !i.isPhi) = kb.2.insts := by
    rw [List.filter_eq_self]
    intro i hi
    simp [h kb hkb i hi]
  rw [hf]
  rfl

theorem runOnFunction_of_noPhi (func : Function) (next : Nat) (h : noPhi func) :
    runOnFunction func next = some (func, next) := by
  unfold runOnFunction
  split
  · rfl
  · simp only [collectEdgeCopies_noPhi func.blocks func.blocks [] h, processEdges]
    rw [erasePhis_of_noPhi func.blocks h]

theorem runOnFunction_result (func : Function) (next : Nat) :
    ∃ g n, runOnFunction func next = some (g, n) ∧
      ∀ kb ∈ g.blocks, ∀ i ∈ kb.2.insts, i.isPhi = false := by
  unfold runOnFunction
  split
  · rename_i hempty
    refine ⟨func, next, rfl, ?_⟩
    intro kb hkb
    have : func.blocks = [] := by simpa using hempty
    rw [this] at hkb
    simp at hkb
  · obtain ⟨st1, h1⟩ := processEdges_isSome
      (func.blocks.map (fun kb => (kb.1, getSuccessors kb.2)))
      (collectEdgeCopies func.blocks func.blocks [])
      { blocks := func.blocks,
        nextId := func.blocks.foldl (fun m kb => if kb.1 > m then kb.1 else m) 0 + 1,
        nextVReg := next }
    simp only [h1]
    exact ⟨_, _, rfl, erasePhis_noPhi st1.blocks⟩

/-- Claim C19: for every function and every state of the virtual register counter, phi
elimination returns a function, and running it again on that function returns the same
function and the same counter; on a function without a phi the pass returns the function
itself: the same blocks with the same instructions and the same branch targets. -/
theorem runOnFunction_twice (func : Function) (next : Nat) :
    (∃ g n, runOnFunction func next = some (g, n) ∧ runOnFunction g n = some (g, n)) ∧
    (noPhi func → runOnFunction func next = some (func, next)) := by
  refine ⟨?_, runOnFunction_of_noPhi func next⟩
  obtain ⟨g, n, h1, h2⟩ := runOnFunction_result func next
  exact ⟨g, n, h1, runOnFunction_of_noPhi g n h2⟩

theorem runOnFunction_twice_witness :
    noPhi diamondLowered ∧ runOnFunction diamondLowered 100 = some (diamondLowered, 100) :=
  ⟨by unfold noPhi; decide,
    (runOnFunction_twice diamondLowered 100).2 (by unfold noPhi; decide)⟩

/-! ### Instruction selection: immediates of arithmetic instructions -/

/-- Claim C14, as stated, fails: for `and i32 %1, 4096` the selection is the single
instruction `ANDI v3, v1, 4096`, and for `shl i32 %1, 32` it is `SLLIW v3, v1, 32`; neither
immediate can be encoded. For every constant `c` the opcodes BITAND, BITXOR, SHL, ASHR and
LSHR on I32, and ADD and SUB on I64, are selected as one `-I` instruction that carries `c`
(for SUB the negated constant) without any range test, so the immediate is encodable only
when `c` happens to be; the constant branch of `DAGIsel::selectBinary` does the same. -/
theorem visitArithmetic_folds_any_immediate :
    (visitArithmetic .BITAND .I32 (.reg 3) (.reg 1) (.immI32 4096) 10 =
        some ([.target (createIInst .ANDI (makeVReg 3 .I32) (makeVReg 1 .I32) 4096)], 10) ∧
      immEncodable (createIInst .ANDI (makeVReg 3 .I32) (makeVReg 1 .I32) 4096) = false) ∧
    (visitArithmetic .SHL .I32 (.reg 3) (.reg 1) (.immI32 32) 10 =
        some ([.target (createIInst .SLLIW (makeVReg 3 .I32) (makeVReg 1 .I32) 32)], 10) ∧
      immEncodable (createIInst .SLLIW (makeVReg 3 .I32) (makeVReg 1 .I32) 32) = false) ∧
    (∀ (res l next : Nat) (c : Int),
      visitArithmetic .BITAND .I32 (.reg res) (.reg l) (.immI32 c) next =
        some ([.target (createIInst .ANDI (makeVReg res .I32) (makeVReg l .I32) c)], next) ∧
      visitArithmetic .BITXOR .I32 (.reg res) (.reg l) (.immI32 c) next =
        some ([.target (createIInst .XORI (makeVReg res .I32) (makeVReg l .I32) c)], next) ∧
      visitArithmetic .SHL .I32 (.reg res) (.reg l) (.immI32 c) next =
        some ([.target (createIInst .SLLIW (makeVReg res .I32) (makeVReg l .I32) c)], next) ∧
      visitArithmetic .ASHR .I32 (.reg res) (.reg l) (.immI32 c) next =
        some ([.target (createIInst .SRAIW (makeVReg res .I32) (makeVReg l .I32) c)], next) ∧
      visitArithmetic .LSHR .I32 (.reg res) (.reg l) (.immI32 c) next =
        some ([.target (createIInst .SRLIW (makeVReg res .I32) (makeVReg l .I32) c)], next) ∧
      visitArithmetic .ADD .I64 (.reg res) (.reg l) (.immI32 c) next =
        some ([.target (createIInst .ADDI (makeVReg res .I64) (makeVReg l .I64) c)], next) ∧
      visitArithmetic .SUB .I64 (.reg res) (.reg l) (.immI32 c) next =
        some ([.target (createIInst .ADDI (makeVReg res .I64) (makeVReg l .I64)
          (wrap32 (-c)))], next) ∧
      immEncodable (createIInst .ANDI (makeVReg res .I32) (makeVReg l .I32) c) = imm12 c ∧
      immEncodable (createIInst .ADDI (makeVReg res .I64) (makeVReg l .I64) c) = imm12 c) ∧
    (∀ (dst lhsReg : Register) (c : Int) (next : Nat),
      selectBinaryConst .AND dst lhsReg c next =
        ([.target (createIInst .ANDI dst lhsReg c)], next) ∧
      selectBinaryConst .OR dst lhsReg c next =
        ([.target (createIInst .ORI dst lhsReg c)], next) ∧
      selectBinaryConst .XOR dst lhsReg c next =
        ([.target (createIInst .XORI dst lhsReg c)], next) ∧
      selectBinaryConst .ADD dst lhsReg c next =
        ([.target (createIInst (if dst.dt = some .I32 then .ADDIW else .ADDI) dst lhsReg c)],
          next)) := by
  refine ⟨⟨by decide, by decide⟩, ⟨by decide, by decide⟩, ?_, ?_⟩
  · intro res l next c
    refine ⟨?_, ?_, ?_, ?_, ?_, ?_, ?_, ?_, ?_⟩ <;>
      simp [visitArithmetic, mapType, visitIntArithmetic, selectArithOp, selectImmForm,
        getImmI32, materializeOperand, immEncodable, createIInst, Instr.new]
  · intro dst lhsReg c next
    refine ⟨?_, ?_, ?_, ?_⟩ <;> simp [selectBinaryConst]

/-! ### Instruction selection: integer comparisons -/

theorem toSigned64_sext64 (a : Int) (ha : isInt32 a) : toSigned64 (sext64 a) = a := by
  unfold isInt32 at ha
  unfold toSigned64 sext64
  simp only [Int.ofNat_eq_coe]
  split <;> omega

theorem sext64_mod (a : Int) (ha : isInt32 a) :
    sext64 a % 4294967296 = (a % 4294967296).toNat := by
  unfold isInt32 at ha
  unfold sext64
  omega

theorem sext64_inj (a b : Int) (ha : isInt32 a) (hb : isInt32 b) :
    sext64 a = sext64 b ↔ a = b := by
  unfold isInt32 at ha hb
  unfold sext64
  omega

theorem sext64_nonneg (b : Int) (h0 : 0 ≤ b) (hb : isInt32 b) : sext64 b = b.toNat := by
  unfold isInt32 at hb
  unfold sext64
  omega

theorem xor_lt_one (x y : Nat) : x ^^^ y < 1 ↔ x = y := by
  rw [Nat.lt_one_iff, Nat.xor_eq_zero]

theorem xor_pos (x y : Nat) : 0 < x ^^^ y ↔ x ≠ y := by
  rw [Nat.pos_iff_ne_zero, Ne, Nat.xor_eq_zero]

theorem sext64_one : sext64 1 = 1 := by decide

theorem ite_xor_one (c : Prop) [Decidable c] :
    (if c then 1 else 0) ^^^ 1 = if c then 0 else 1 := by
  split <;> decide



set_option maxHeartbeats 1000000 in
theorem visitIcmp_reg_correct (cond : ICmpOp) (res l r next : Nat) (a b : Int)
    (st : RegFile) (ha : isInt32 a) (hb : isInt32 b)
    (hl : st (makeVReg l .I32) = sext64 a) (hr : st (makeVReg r .I32) = sext64 b) :
    ∃ insts n st', visitIcmp cond .I32 (.reg res) (.reg l) (.reg r) next = some (insts, n) ∧
      execInsts st insts = some st' ∧
      st' (makeVReg res .I32) = if icmpHolds cond a b then 1 else 0 := by
  simp only [makeVReg] at hl hr
  cases cond <;>
    simp [visitIcmp, mapType, getImmI32, icmpSelect, icmpGeneral, materializeIcmpOperand,
      ICmpOp.isUnsigned, zextIfNeeded, icmpReg, getVReg, execInsts, execInst, createRInst,
      createR2Inst, createIInst, Instr.new, writeReg, readReg, makeVReg, PR.x0, getPR,
      icmpHolds, hl, hr, sext64_one, ite_xor_one, xor_lt_one, xor_pos,
      toSigned64_sext64 _ ha, toSigned64_sext64 _ hb, sext64_inj _ _ ha hb,
      sext64_mod _ ha, sext64_mod _ hb]
  all_goals (split_ifs <;> omega)

set_option maxHeartbeats 4000000 in
theorem visitIcmp_imm12_correct (cond : ICmpOp) (res l next : Nat) (a b : Int)
    (st : RegFile) (ha : isInt32 a) (hb : isInt32 b) (hfl : l < next)
    (hl : st (makeVReg l .I32) = sext64 a) (h12i : imm12 b = true)
    (hok : ¬ (cond.isUnsigned = true ∧ b < 0)) :
    ∃ insts n st', visitIcmp cond .I32 (.reg res) (.reg l) (.immI32 b) next
        = some (insts, n) ∧
      execInsts st insts = some st' ∧
      st' (makeVReg res .I32) = if icmpHolds cond a b then 1 else 0 := by
  simp only [makeVReg] at hl
  have hb2 := hb
  unfold isInt32 at hb2
  have ha2 := ha
  unfold isInt32 at ha2
  have hn1 : ¬ l = next := by omega
  have hn2 : ¬ l = next + 1 := by omega
  have hn3 : ¬ next = l := by omega
  have hn4 : ¬ next + 1 = l := by omega
  have h12 : -2048 ≤ b ∧ b ≤ 2047 := by simpa [imm12] using h12i
  have hq : -2048 ≤ b + 1 := by omega
  by_cases h0 : b = 0 <;> by_cases hp : b + 1 ≤ 2047 <;> cases cond <;>
    simp [visitIcmp, mapType, getImmI32, icmpSelect, icmpGeneral, materializeIcmpOperand,
      ICmpOp.isUnsigned, zextIfNeeded, icmpReg, icmpImm, imm12, getVReg, execInsts,
      execInst, createRInst, createR2Inst, createIInst, createMove, Instr.new, writeReg,
      readReg, makeVReg, PR.x0, getPR, icmpHolds, hl, sext64_one, ite_xor_one,
      xor_lt_one, xor_pos, toSigned64_sext64 _ ha, toSigned64_sext64 _ hb,
      sext64_inj _ _ ha hb, sext64_mod _ ha, sext64_mod _ hb, h12, h0, hp, hq,
      hn1, hn2, hn3, hn4]
  all_goals (try simp [ICmpOp.isUnsigned] at hok)
  all_goals (try unfold sext64)
  all_goals (split_ifs <;> omega)

set_option maxHeartbeats 1000000 in
theorem visitIcmp_large_imm_correct (cond : ICmpOp) (res l next : Nat) (a b : Int)
    (st : RegFile) (ha : isInt32 a) (hb : isInt32 b) (hfl : l < next)
    (hl : st (makeVReg l .I32) = sext64 a) (h12i : imm12 b = false) :
    ∃ insts n st', visitIcmp cond .I32 (.reg res) (.reg l) (.immI32 b) next
        = some (insts, n) ∧
      execInsts st insts = some st' ∧
      st' (makeVReg res .I32) = if icmpHolds cond a b then 1 else 0 := by
  simp only [makeVReg] at hl
  have hn1 : ¬ l = next := by omega
  have hn2 : ¬ l = next + 1 := by omega
  have hn3 : ¬ next = l := by omega
  have hn4 : ¬ next + 1 = l := by omega
  have hsel : ∀ c, visitIcmp c .I32 (.reg res) (.reg l) (.immI32 b) next =
      icmpGeneral c .I32 (makeVReg res .I32) (.reg l) (.immI32 b) next := by
    intro c
    simp [visitIcmp, mapType, getImmI32, icmpSelect, h12i]
  rw [hsel]
  cases cond <;>
    simp [icmpGeneral, materializeIcmpOperand,
      ICmpOp.isUnsigned, zextIfNeeded, icmpReg, getVReg, execInsts,
      execInst, createRInst, createR2Inst, createIInst, createMove, Instr.new, writeReg,
      readReg, makeVReg, PR.x0, getPR, icmpHolds, hl, sext64_one, ite_xor_one,
      xor_lt_one, xor_pos, toSigned64_sext64 _ ha, toSigned64_sext64 _ hb,
      sext64_inj _ _ ha hb, sext64_mod _ ha, sext64_mod _ hb,
      hn1, hn2, hn3, hn4]
  all_goals (split_ifs <;> omega)

/-- The sequence selected for an integer comparison of two 32-bit values leaves 1 in the
destination when the comparison holds and 0 otherwise, for every condition, with the left
operand in a register and the right operand in a register or given as an immediate, unless
the condition is unsigned and the immediate is negative and fits in twelve bits. -/
theorem visitIcmp_correct (cond : ICmpOp) (res l next : Nat) (rhs : IROperand) (a b : Int)
    (st : RegFile) (ha : isInt32 a) (hb : isInt32 b) (hfl : l < next)
    (hl : st (makeVReg l .I32) = sext64 a)
    (hrhs : (∃ r, rhs = .reg r ∧ st (makeVReg r .I32) = sext64 b) ∨ rhs = .immI32 b)
    (hok : ¬ (cond.isUnsigned = true ∧ rhs = .immI32 b ∧ -2048 ≤ b ∧ b < 0)) :
    ∃ insts n st', visitIcmp cond .I32 (.reg res) (.reg l) rhs next = some (insts, n) ∧
      execInsts st insts = some st' ∧
      st' (makeVReg res .I32) = if icmpHolds cond a b then 1 else 0 := by
  rcases hrhs with ⟨r, rfl, hr⟩ | rfl
  · exact visitIcmp_reg_correct cond res l r next a b st ha hb hl hr
  · by_cases h12 : imm12 b = true
    · refine visitIcmp_imm12_correct cond res l next a b st ha hb hfl hl h12 ?_
      rintro ⟨hu, hneg⟩
      have : -2048 ≤ b ∧ b ≤ 2047 := by simpa [imm12] using h12
      exact hok ⟨hu, rfl, this.1, hneg⟩
    · exact visitIcmp_large_imm_correct cond res l next a b st ha hb hfl hl (by simpa using h12)

theorem visitIcmp_correct_witness :
    ∃ insts n st', visitIcmp .ULT .I32 (.reg 3) (.reg 1) (.immI32 5) 10 = some (insts, n) ∧
      execInsts allOnes insts = some st' ∧
      st' (makeVReg 3 .I32) = if icmpHolds .ULT (-1) 5 then 1 else 0 :=
  visitIcmp_correct .ULT 3 1 10 (.immI32 5) (-1) 5 allOnes (by unfold isInt32; decide) (by unfold isInt32; decide)
    (by decide)
    rfl (Or.inr rfl) (by decide)

/-- Claim C13, as stated, fails for an unsigned comparison against a negative immediate:
for `icmp ult i32 %1, -1` the selection is `ZEXT_W t, v1; SLTIU v3, t, -1`, which compares
the zero-extended left operand with the sign-extended immediate; with `%1 = -1` it leaves 1
although `0xFFFFFFFF < 0xFFFFFFFF` is false. For `icmp ule i32 %1, -1` the selection is
`ZEXT_W t, v1; SLTIU v3, t, 0`, which leaves 0 although the comparison holds. -/
theorem visitIcmp_unsigned_negative_immediate :
    (visitIcmp .ULT .I32 (.reg 3) (.reg 1) (.immI32 (-1)) 10 = some (ultMinusOne, 11) ∧
      allOnes (makeVReg 1 .I32) = sext64 (-1) ∧
      resultIn allOnes ultMinusOne (makeVReg 3 .I32) = some 1 ∧
      icmpHolds .ULT (-1) (-1) = false) ∧
    (visitIcmp .ULE .I32 (.reg 3) (.reg 1) (.immI32 (-1)) 10 = some (uleMinusOne, 11) ∧
      resultIn allOnes uleMinusOne (makeVReg 3 .I32) = some 0 ∧
      icmpHolds .ULE (-1) (-1) = true) := by
  refine ⟨⟨by decide, rfl, by decide, by decide⟩, by decide, by decide, by decide⟩

/-! ### Instruction selection: calls and incoming arguments -/

theorem take_snoc_lt {α : Type} (l : List α) (x : α) (i : Nat) (h : i ≤ l.length) :
    (l ++ [x]).take i = l.take i := by
  rw [List.take_append_eq_append_take]
  have : i - l.length = 0 := by omega
  simp [this]

theorem getD_snoc_lt {α : Type} (l : List α) (x d : α) (i : Nat) (h : i < l.length) :
    (l ++ [x]).getD i d = l.getD i d := by
  simp [List.getD_eq_getElem?_getD, List.getElem?_append_left h]

theorem sameClassBefore_snoc_lt (flags : List Bool) (f : Bool) (i : Nat)
    (h : i < flags.length) :
    sameClassBefore (flags ++ [f]) i = sameClassBefore flags i := by
  unfold sameClassBefore
  rw [take_snoc_lt flags f i (by omega), getD_snoc_lt flags f false i h]

theorem sameClassBefore_snoc_last (flags : List Bool) (f : Bool) :
    sameClassBefore (flags ++ [f]) flags.length = (flags.filter (fun g => g == f)).length := by
  unfold sameClassBefore
  simp [List.getD_eq_getElem?_getD]

theorem overflows_snoc_lt (flags : List Bool) (f : Bool) (i : Nat) (h : i < flags.length) :
    overflows (flags ++ [f]) i = overflows flags i := by
  unfold overflows
  rw [sameClassBefore_snoc_lt flags f i h]

theorem filter_overflows_snoc (flags : List Bool) (f : Bool) (n : Nat)
    (h : n ≤ flags.length) :
    (List.range n).filter (overflows (flags ++ [f])) = (List.range n).filter (overflows flags) := by
  apply List.filter_congr
  intro i hi
  exact overflows_snoc_lt flags f i (by have := List.mem_range.mp hi; omega)

theorem stackIndex_snoc_le (flags : List Bool) (f : Bool) (i : Nat) (h : i ≤ flags.length) :
    stackIndex (flags ++ [f]) i = stackIndex flags i := by
  unfold stackIndex
  rw [filter_overflows_snoc flags f i h]

theorem flatMap_range_congr {β : Type} (f g : Nat → List β) (n : Nat)
    (h : ∀ i, i < n → f i = g i) : (List.range n).flatMap f = (List.range n).flatMap g := by
  induction n with
  | zero => rfl
  | succ n ih =>
    rw [List.range_succ, List.flatMap_append, List.flatMap_append,
      ih (fun i hi => h i (by omega))]
    simp [h n (by omega)]

theorem filterMap_getElem_snoc {α : Type} (l : List α) (a : α) (idx : List Nat)
    (h : ∀ i ∈ idx, i < l.length) :
    idx.filterMap (fun i => (l ++ [a])[i]?) = idx.filterMap (fun i => l[i]?) := by
  apply List.filterMap_congr
  intro i hi
  exact List.getElem?_append_left (h i hi)

theorem regMoveOf_snoc_lt (l : List ArgTmp) (a : ArgTmp) (i : Nat) (h : i < l.length) :
    regMoveOf (l ++ [a]) i = regMoveOf l i := by
  unfold regMoveOf
  have hl : i < (l.map (fun p => p.isFloat)).length := by simpa using h
  simp only [List.getElem?_append_left h, List.map_append, List.map_singleton,
    sameClassBefore_snoc_lt _ _ i hl, overflows_snoc_lt _ _ i hl]

theorem regMoveOf_snoc_last (l : List ArgTmp) (a : ArgTmp) :
    regMoveOf (l ++ [a]) l.length =
      if 8 ≤ ((l.map (fun p => p.isFloat)).filter (fun g => g == a.isFloat)).length then []
      else if a.isFloat then
        [createMove (getPR (42 +
          ((l.map (fun p => p.isFloat)).filter (fun g => g == a.isFloat)).length)) (.reg a.tmp)]
      else [createMove (getPR (10 +
          ((l.map (fun p => p.isFloat)).filter (fun g => g == a.isFloat)).length)) (.reg a.tmp)]
        ++ (if a.dt = .I32 then
          [.target (createIInst .ADDIW
            (getPR (10 + ((l.map (fun p => p.isFloat)).filter (fun g => g == a.isFloat)).length))
            (getPR (10 + ((l.map (fun p => p.isFloat)).filter (fun g => g == a.isFloat)).length))
            0)]
         else []) := by
  have hlen : l.length = (l.map (fun p => p.isFloat)).length := by simp
  have hs := sameClassBefore_snoc_last (l.map (fun p => p.isFloat)) a.isFloat
  rw [← hlen] at hs
  unfold regMoveOf overflows
  simp only [List.map_append, List.map_singleton, hs]
  simp

theorem stackPassedArgs_snoc (l : List ArgTmp) (a : ArgTmp) :
    stackPassedArgs (l ++ [a]) = stackPassedArgs l ++
      (if 8 ≤ ((l.map (fun p => p.isFloat)).filter (fun g => g == a.isFloat)).length then [a]
       else []) := by
  have hlen : l.length = (l.map (fun p => p.isFloat)).length := by simp
  unfold stackPassedArgs
  rw [List.length_append, List.length_singleton, List.range_succ, List.filter_append,
    List.filterMap_append, List.map_append, List.map_singleton]
  congr 1
  · rw [filter_overflows_snoc _ _ _ (by simp)]
    apply filterMap_getElem_snoc
    intro i hi
    exact List.mem_range.mp (List.mem_filter.mp hi).1
  · have hs := sameClassBefore_snoc_last (l.map (fun p => p.isFloat)) a.isFloat
    rw [← hlen] at hs
    simp only [List.filter_cons, List.filter_nil, overflows, hs]
    split <;> simp_all

theorem assignArgs_snoc (l : List ArgTmp) (a : ArgTmp) :
    assignArgs (l ++ [a]) = assignArg (assignArgs l) a := by
  unfold assignArgs
  rw [List.foldl_append]
  rfl

theorem assignArgs_spec (prepared : List ArgTmp) :
    (assignArgs prepared).insts = (List.range prepared.length).flatMap (regMoveOf prepared) ∧
    (assignArgs prepared).stackArgs = stackPassedArgs prepared ∧
    (assignArgs prepared).iregCnt =
      ((prepared.map (fun p => p.isFloat)).filter (fun g => g == false)).length ∧
    (assignArgs prepared).fregCnt =
      ((prepared.map (fun p => p.isFloat)).filter (fun g => g == true)).length := by
  induction prepared using List.reverseRecOn with
  | nil => exact ⟨rfl, rfl, rfl, rfl⟩
  | append_singleton l a ih =>
    obtain ⟨h1, h2, h3, h4⟩ := ih
    rw [assignArgs_snoc, stackPassedArgs_snoc, List.length_append, List.length_singleton,
      List.range_succ, List.flatMap_append,
      flatMap_range_congr _ _ _ (fun i hi => regMoveOf_snoc_lt l a i hi)]
    simp only [List.flatMap_singleton, regMoveOf_snoc_last, List.map_append,
      List.map_singleton, List.filter_append, List.length_append]
    rw [← h1, ← h2]
    cases hf : a.isFloat
    · rw [← h3, ← h4]
      generalize assignArgs l = st
      unfold assignArg
      simp only [hf, Bool.false_eq_true, if_false]
      by_cases h8 : st.iregCnt < 8
      · have h8' : ¬ 8 ≤ st.iregCnt := by omega
        simp [h8, h8']
      · simp [h8, Nat.le_of_not_lt h8]
    · rw [← h3, ← h4]
      generalize assignArgs l = st
      unfold assignArg
      simp only [hf, if_true]
      by_cases h8 : st.fregCnt < 8
      · have h8' : ¬ 8 ≤ st.fregCnt := by omega
        simp [h8, h8']
      · simp [h8, Nat.le_of_not_lt h8]

theorem lowerParams_snoc (l : List (IRType × IROperand)) (a : IRType × IROperand) :
    ∀ st : ParamState,
      lowerParams (l ++ [a]) st = (lowerParams l st).bind (fun s => lowerParam s a) := by
  induction l with
  | nil =>
    intro st
    simp only [List.nil_append, lowerParams, Option.some_bind]
    cases lowerParam st a <;> rfl
  | cons b rest ih =>
    intro st
    simp only [List.cons_append, lowerParams]
    cases lowerParam st b with
    | none => rfl
    | some st1 => exact ih st1

theorem paramFetchOf_snoc_lt (l : List (DataType × Nat)) (a : DataType × Nat) (i : Nat)
    (h : i < l.length) : paramFetchOf (l ++ [a]) i = paramFetchOf l i := by
  unfold paramFetchOf
  have hl : i < (l.map (fun q => isFloatType q.1)).length := by simpa using h
  simp only [List.getElem?_append_left h, List.map_append, List.map_singleton,
    sameClassBefore_snoc_lt _ _ i hl, overflows_snoc_lt _ _ i hl,
    stackIndex_snoc_le _ _ i (Nat.le_of_lt hl)]

theorem paramFetchOf_snoc_last (l : List (DataType × Nat)) (a : DataType × Nat) :
    paramFetchOf (l ++ [a]) l.length =
      if 8 ≤ ((l.map (fun q => isFloatType q.1)).filter (fun g => g == isFloatType a.1)).length
      then
        [.target (createIInstOp (selectLoadOp (some a.1)) (makeVReg a.2 a.1) PR.sp
          (.frameIndex (-(Int.ofNat (stackIndex (l.map (fun q => isFloatType q.1)) l.length)
            + 1))))]
      else if isFloatType a.1 then
        [createMove (makeVReg a.2 a.1) (.reg (getPR (42 +
          ((l.map (fun q => isFloatType q.1)).filter
            (fun g => g == isFloatType a.1)).length)))]
      else
        [createMove (makeVReg a.2 a.1) (.reg (getPR (10 +
          ((l.map (fun q => isFloatType q.1)).filter
            (fun g => g == isFloatType a.1)).length)))] := by
  have hlen : l.length = (l.map (fun q => isFloatType q.1)).length := by simp
  have hs := sameClassBefore_snoc_last (l.map (fun q => isFloatType q.1)) (isFloatType a.1)
  rw [← hlen] at hs
  have hi := stackIndex_snoc_le (l.map (fun q => isFloatType q.1)) (isFloatType a.1) l.length
    (by simp)
  unfold paramFetchOf overflows
  simp only [List.map_append, List.map_singleton, hs, hi]
  simp

theorem stackIndex_succ (flags : List Bool) (n : Nat) :
    stackIndex flags (n + 1) = stackIndex flags n + (if overflows flags n then 1 else 0) := by
  unfold stackIndex
  rw [List.range_succ, List.filter_append, List.length_append]
  simp only [List.filter_cons, List.filter_nil]
  split <;> simp

theorem incomingTable_succ (m : Nat) :
    incomingTable (m + 1) = incomingTable m ++ [(-(Int.ofNat m + 1), Int.ofNat (m * 8))] := by
  unfold incomingTable
  rw [List.range_succ, List.map_append, List.map_singleton]

theorem visitParams_spec (params : List (IRType × Nat))
    (hty : ∀ p ∈ params, (mapType p.1).isSome = true) :
    ∃ st, visitParams (params.map (fun p => (p.1, IROperand.reg p.2))) = some st ∧
      st.insts = (List.range params.length).flatMap (paramFetchOf (typedParams params)) ∧
      st.objects = incomingTable st.stackArgCnt ∧
      st.stackArgCnt = stackIndex (floatFlags (params.map (fun p => p.1))) params.length ∧
      st.iregCnt =
        min 8 ((floatFlags (params.map (fun p => p.1))).filter (fun g => g == false)).length ∧
      st.fregCnt =
        min 8 ((floatFlags (params.map (fun p => p.1))).filter (fun g => g == true)).length
      := by
  induction params using List.reverseRecOn with
  | nil => exact ⟨_, rfl, rfl, rfl, rfl, rfl, rfl⟩
  | append_singleton l a ih =>
    obtain ⟨st, hst, h1, h2, h3, h4, h5⟩ :=
      ih (fun p hp => hty p (List.mem_append_left _ hp))
    obtain ⟨dt, hdt⟩ := Option.isSome_iff_exists.mp (hty a (by simp))
    have hflags : floatFlags (l.map (fun p => p.1)) =
        (typedParams l).map (fun q => isFloatType q.1) := by
      simp [floatFlags, typedParams]
    have hlen : l.length = (floatFlags (l.map (fun p => p.1))).length := by simp [floatFlags]
    have hlen2 : (typedParams l).length = l.length := by simp [typedParams]
    unfold visitParams at hst ⊢
    rw [List.map_append, List.map_singleton, lowerParams_snoc, hst, Option.some_bind]
    have htp : typedParams (l ++ [a]) = typedParams l ++ [(dt, a.2)] := by
      simp [typedParams, hdt]
    have hff : floatFlags ((l ++ [a]).map (fun p => p.1)) =
        floatFlags (l.map (fun p => p.1)) ++ [isFloatType dt] := by
      simp [floatFlags, hdt]
    rw [htp, hff, List.length_append, List.length_singleton, List.range_succ,
      List.flatMap_append,
      flatMap_range_congr _ _ _
        (fun i hi => paramFetchOf_snoc_lt (typedParams l) (dt, a.2) i (by omega))]
    have hlast := paramFetchOf_snoc_last (typedParams l) (dt, a.2)
    rw [hlen2] at hlast
    simp only [List.flatMap_singleton, hlast, List.filter_append, List.length_append,
      stackIndex_succ, stackIndex_snoc_le _ _ l.length (Nat.le_of_eq hlen)]
    have hov : overflows (floatFlags (l.map (fun p => p.1)) ++ [isFloatType dt]) l.length =
        decide (8 ≤ ((floatFlags (l.map (fun p => p.1))).filter
          (fun g => g == isFloatType dt)).length) := by
      have hs := sameClassBefore_snoc_last (floatFlags (l.map (fun p => p.1))) (isFloatType dt)
      rw [← hlen] at hs
      unfold overflows
      rw [hs]
    rw [hov, ← hflags, ← h1]
    simp only [lowerParam, hdt]
    generalize hci : ((floatFlags (l.map (fun p => p.1))).filter (fun g => g == false)).length
      = ci at *
    generalize hcf : ((floatFlags (l.map (fun p => p.1))).filter (fun g => g == true)).length
      = cf at *
    cases hf : isFloatType dt
    · rw [hci, ← h3]
      by_cases h8 : st.iregCnt < 8
      · have h8' : ¬ 8 ≤ ci := by omega
        have hc : ci = st.iregCnt := by omega
        have h8'' : ¬ 8 ≤ st.iregCnt := by omega
        simp [h8, h8'', hf, h2, hc, h5]
        omega
      · have h8' : 8 ≤ ci := by omega
        simp [h8, h8', hf, h2, incomingTable_succ, h5]
        omega
    · rw [hcf, ← h3]
      by_cases h8 : st.fregCnt < 8
      · have h8' : ¬ 8 ≤ cf := by omega
        have hc : cf = st.fregCnt := by omega
        have h8'' : ¬ 8 ≤ st.fregCnt := by omega
        simp [h8, h8'', hf, h2, hc, h4]
        omega
      · have h8' : 8 ≤ cf := by omega
        simp [h8, h8', hf, h2, incomingTable_succ, h4]
        omega

theorem overflows_snoc_last (flags : List Bool) (f : Bool) :
    overflows (flags ++ [f]) flags.length =
      decide (8 ≤ (flags.filter (fun g => g == f)).length) := by
  unfold overflows
  rw [sameClassBefore_snoc_last]

theorem stackPassedArgs_length (l : List ArgTmp) :
    (stackPassedArgs l).length = stackIndex (l.map (fun p => p.isFloat)) l.length := by
  induction l using List.reverseRecOn with
  | nil => rfl
  | append_singleton l a ih =>
    have hlen : l.length = (l.map (fun p => p.isFloat)).length := by simp
    have hov := overflows_snoc_last (l.map (fun p => p.isFloat)) a.isFloat
    rw [← hlen] at hov
    rw [stackPassedArgs_snoc, List.length_append, List.length_append, List.length_singleton,
      List.map_append, List.map_singleton, stackIndex_succ,
      stackIndex_snoc_le _ _ _ (Nat.le_of_eq hlen), hov, ih]
    by_cases h8 : 8 ≤ ((l.map (fun p => p.isFloat)).filter (fun g => g == a.isFloat)).length
    · simp [h8]
    · simp [h8]

theorem stackPassedArgs_index (l : List ArgTmp) :
    ∀ i, i < l.length → overflows (l.map (fun p => p.isFloat)) i = true →
      (stackPassedArgs l)[stackIndex (l.map (fun p => p.isFloat)) i]? = l[i]? := by
  induction l using List.reverseRecOn with
  | nil => intro i hi; simp at hi
  | append_singleton l a ih =>
    intro i hi hov
    have hlen : l.length = (l.map (fun p => p.isFloat)).length := by simp
    rw [List.length_append, List.length_singleton] at hi
    rw [List.map_append, List.map_singleton] at hov ⊢
    rw [stackPassedArgs_snoc]
    by_cases hlt : i < l.length
    · rw [overflows_snoc_lt _ _ i (by omega)] at hov
      rw [stackIndex_snoc_le _ _ i (by omega), List.getElem?_append_left hlt]
      have h := ih i hlt hov
      have hb : stackIndex (l.map (fun p => p.isFloat)) i < (stackPassedArgs l).length := by
        by_contra hc
        rw [List.getElem?_eq_none (Nat.le_of_not_lt hc)] at h
        rw [List.getElem?_eq_getElem hlt] at h
        exact Option.noConfusion h
      rw [List.getElem?_append_left hb]
      exact h
    · have hi' : i = l.length := by omega
      subst hi'
      have hov2 := overflows_snoc_last (l.map (fun p => p.isFloat)) a.isFloat
      rw [← hlen] at hov2
      rw [hov2] at hov
      have h8 : 8 ≤ ((l.map (fun p => p.isFloat)).filter (fun g => g == a.isFloat)).length := by
        simpa using hov
      rw [if_pos h8, stackIndex_snoc_le _ _ _ (Nat.le_of_eq hlen), ← stackPassedArgs_length]
      simp

theorem storeStackArgs_infix (stack : List ArgTmp) :
    ∀ (k j : Nat) (a : ArgTmp), stack[j]? = some a →
      storeStackArg (k + j) a <:+: storeStackArgs k stack := by
  induction stack with
  | nil => intro k j a h; simp at h
  | cons b rest ih =>
    intro k j a h
    cases j with
    | zero =>
      simp only [List.getElem?_cons_zero, Option.some.injEq] at h
      subst h
      exact ⟨[], storeStackArgs (k + 1) rest, by simp [storeStackArgs]⟩
    | succ j =>
      simp only [List.getElem?_cons_succ] at h
      obtain ⟨s, t, hst⟩ := ih (k + 1) j a h
      have hk : k + 1 + j = k + (j + 1) := by omega
      rw [hk] at hst
      exact ⟨storeStackArg k b ++ s, t, by simp [storeStackArgs, ← hst]⟩

theorem incomingTable_lookup (m j : Nat) (h : j < m) :
    incomingArgOffsetOf (incomingTable m) (-(Int.ofNat j + 1)) = Int.ofNat (j * 8) := by
  unfold incomingArgOffsetOf
  have : (incomingTable m).lookup (-(Int.ofNat j + 1)) = some (Int.ofNat (j * 8)) := by
    induction m with
    | zero => omega
    | succ m ih =>
      rw [incomingTable_succ]
      by_cases hj : j < m
      · have h1 := ih hj
        rw [List.lookup_append, h1]
        rfl
      · have hjm : j = m := by omega
        subst hjm
        have hnone : (incomingTable j).lookup (-(Int.ofNat j + 1)) = none := by
          rw [List.lookup_eq_none_iff]
          intro p hp
          unfold incomingTable at hp
          obtain ⟨k, hk, rfl⟩ := List.mem_map.mp hp
          have := List.mem_range.mp hk
          simp only [Int.ofNat_eq_coe, bne_iff_ne, ne_eq]
          omega
        rw [List.lookup_append, hnone]
        simp [List.lookup]
  rw [this]
  rfl

theorem prepareArgs_flags :
    ∀ (args : List (IRType × IROperand)) (next : Nat) (prepared : List ArgTmp)
      (pre : List MInstruction) (n : Nat),
      prepareArgs args next = some (prepared, pre, n) →
      prepared.map (fun p => p.isFloat) = floatFlags (args.map (fun a => a.1)) ∧
      prepared.map (fun p => some p.dt) = args.map (fun a => mapType a.1) ∧
      prepared.length = args.length := by
  intro args
  induction args with
  | nil =>
    intro next prepared pre n h
    simp only [prepareArgs, Option.some.injEq, Prod.mk.injEq] at h
    obtain ⟨rfl, _, _⟩ := h
    exact ⟨rfl, rfl, rfl⟩
  | cons a rest ih =>
    intro next prepared pre n h
    obtain ⟨ty, op⟩ := a
    simp only [prepareArgs] at h
    cases hm : mapType ty with
    | none => simp [hm] at h
    | some dt =>
      simp only [hm] at h
      cases hmat : materializeArg op dt next with
      | none => simp [hmat] at h
      | some r =>
        obtain ⟨tmp, i1, n1⟩ := r
        simp only [hmat] at h
        cases hrest : prepareArgs rest n1 with
        | none => simp [hrest] at h
        | some r2 =>
          obtain ⟨ps, i2, n2⟩ := r2
          simp only [hrest, Option.some.injEq, Prod.mk.injEq] at h
          obtain ⟨rfl, _, _⟩ := h
          obtain ⟨h1, h2, h3⟩ := ih n1 ps i2 n2 hrest
          refine ⟨?_, ?_, ?_⟩
          · simp [floatFlags, hm] at h1 ⊢
            exact h1
          · simp [hm, h2]
          · simp [h3]

theorem visitCall_eq (funcName : String) (args : List (IRType × IROperand))
    (res : Option IROperand) (retType : IRType) (next : Nat) (r : CallSelection)
    (h : visitCall funcName args res retType next = some r) :
    ∃ prepared pre ret,
      prepareArgs (passedArgs funcName args) next = some (prepared, pre, r.next) ∧
      callResultMoves res retType = some ret ∧
      r.insts = pre ++ (List.range prepared.length).flatMap (regMoveOf prepared) ++
        storeStackArgs 0 (stackPassedArgs prepared) ++
        [.target (createCallInst .CALL ((intrinsicTarget funcName).getD funcName)
          (Int.ofNat (intArgCount prepared)) (Int.ofNat (floatArgCount prepared)))] ++ ret ∧
      r.paramAreaRequest =
        (if (stackPassedArgs prepared).isEmpty then none
         else some (Int.ofNat ((stackPassedArgs prepared).length * 8))) := by
  unfold visitCall at h
  simp only at h
  cases hp : prepareArgs (List.take (if (intrinsicTarget funcName).isSome = true then 3
      else args.length) args) next with
  | none => simp [hp] at h
  | some p =>
    obtain ⟨prepared, pre, n1⟩ := p
    simp only [hp] at h
    cases hr : callResultMoves res retType with
    | none => simp [hr] at h
    | some ret =>
      simp only [hr, Option.some.injEq] at h
      obtain ⟨h1, h2, h3, h4⟩ := assignArgs_spec prepared
      subst h
      refine ⟨prepared, pre, ret, ?_, rfl, ?_, ?_⟩
      · exact hp
      · simp only [h1, h2, h3, h4, intArgCount, floatArgCount]
      · simp only [h2]

theorem regMove_mem (prepared : List ArgTmp) (i : Nat) (a : ArgTmp)
    (ha : prepared[i]? = some a)
    (hov : overflows (prepared.map (fun p => p.isFloat)) i = false) :
    createMove (getPR ((if a.isFloat then 42 else 10) +
        sameClassBefore (prepared.map (fun p => p.isFloat)) i)) (.reg a.tmp) ∈
      (List.range prepared.length).flatMap (regMoveOf prepared) := by
  have hi : i < prepared.length := by
    by_contra hc
    rw [List.getElem?_eq_none (Nat.le_of_not_lt hc)] at ha
    exact Option.noConfusion ha
  rw [List.mem_flatMap]
  refine ⟨i, List.mem_range.mpr hi, ?_⟩
  unfold regMoveOf
  simp only [ha, hov, Bool.false_eq_true, if_false]
  cases a.isFloat <;> simp

/-- Claim C12, as stated, fails for the redirected intrinsics: for
`call llvm.memset.p0.i32(v0, v1, v2, v3)` only the first three arguments are passed; the
fourth integer argument `v3` is not moved to `a3` (no selected instruction writes `a3` or
reads `v3`), and the call is a call of `memset` with three integer arguments. -/
theorem visitCall_memset_drops_argument :
    visitCall "llvm.memset.p0.i32" memsetArgs none .TOKEN 100 =
      some { insts := memsetCall, next := 100, paramAreaRequest := none } ∧
    memsetArgs[3]? = some (IRType.I1, IROperand.reg 3) ∧
    (∀ i ∈ memsetCall, getPR 13 ∉ enumDefs i ∧ makeVReg 3 .I32 ∉ enumUses i) := by
  decide

/-- Claim C12: whenever `visit(CallInst&)` succeeds, the instructions it pushes are, in this
order: the computation of the passed arguments into temporaries; for every passed argument
in argument order that has fewer than eight predecessors of its class, the move of its
temporary to `a_k` or `fa_k`, `k` being the number of those predecessors; the stores of the
remaining arguments, in argument order, the `j`-th at `sp + 8 * j`; the CALL; the copy of the
result. The outgoing area requested is 8 bytes per stack argument (no request without stack
argument). The passed arguments are all arguments, except for the intrinsics
`llvm.memset`, `llvm.memcpy` and `llvm.memmove`, for which they are the first three. -/
theorem visitCall_argument_passing (funcName : String) (args : List (IRType × IROperand))
    (res : Option IROperand) (retType : IRType) (next : Nat) (r : CallSelection)
    (h : visitCall funcName args res retType next = some r) :
    ∃ prepared pre ret,
      prepareArgs (passedArgs funcName args) next = some (prepared, pre, r.next) ∧
      callResultMoves res retType = some ret ∧
      r.insts = pre ++ (List.range prepared.length).flatMap (regMoveOf prepared) ++
        storeStackArgs 0 (stackPassedArgs prepared) ++
        [.target (createCallInst .CALL ((intrinsicTarget funcName).getD funcName)
          (Int.ofNat (intArgCount prepared)) (Int.ofNat (floatArgCount prepared)))] ++ ret ∧
      r.paramAreaRequest =
        (if (stackPassedArgs prepared).isEmpty then none
         else some (Int.ofNat ((stackPassedArgs prepared).length * 8))) ∧
      (∀ i a, prepared[i]? = some a →
        overflows (prepared.map (fun p => p.isFloat)) i = false →
        sameClassBefore (prepared.map (fun p => p.isFloat)) i < 8 ∧
        createMove (getPR ((if a.isFloat then 42 else 10) +
            sameClassBefore (prepared.map (fun p => p.isFloat)) i)) (.reg a.tmp) ∈
          (List.range prepared.length).flatMap (regMoveOf prepared)) ∧
      (∀ i a, prepared[i]? = some a →
        overflows (prepared.map (fun p => p.isFloat)) i = true →
        storeStackArg (stackIndex (prepared.map (fun p => p.isFloat)) i) a <:+:
          storeStackArgs 0 (stackPassedArgs prepared)) ∧
      (∀ j a, j * 8 ≤ 2047 → storeStackArg j a =
        [.target (createSInst (selectStoreOp (some a.dt)) a.tmp PR.sp (Int.ofNat (j * 8)))]) ∧
      (intrinsicTarget funcName = none → passedArgs funcName args = args) := by
  obtain ⟨prepared, pre, ret, h1, h2, h3, h4⟩ :=
    visitCall_eq funcName args res retType next r h
  refine ⟨prepared, pre, ret, h1, h2, h3, h4, ?_, ?_, ?_, ?_⟩
  · intro i a ha hov
    refine ⟨?_, regMove_mem prepared i a ha hov⟩
    unfold overflows at hov
    simpa using hov
  · intro i a ha hov
    have hi : i < prepared.length := by
      by_contra hc
      rw [List.getElem?_eq_none (Nat.le_of_not_lt hc)] at ha
      exact Option.noConfusion ha
    have := storeStackArgs_infix (stackPassedArgs prepared) 0
      (stackIndex (prepared.map (fun p => p.isFloat)) i) a
      (by rw [stackPassedArgs_index prepared i hi hov]; exact ha)
    simpa using this
  · intro j a hj
    unfold storeStackArg
    simp only [Int.ofNat_eq_coe]
    rw [if_pos (by omega)]
  · intro hn
    simp [passedArgs, hn]

theorem visitCall_argument_passing_witness :
    visitCall "f" (nineSig.map (fun s => (s.1, s.2.1))) none .TOKEN 100 =
      some { insts := nineArgsCall, next := 100, paramAreaRequest := some 8 } ∧
    ∃ prepared pre ret,
      prepareArgs (passedArgs "f" (nineSig.map (fun s => (s.1, s.2.1)))) 100 =
        some (prepared, pre, 100) ∧
      callResultMoves none .TOKEN = some ret ∧
      nineArgsCall = pre ++ (List.range prepared.length).flatMap (regMoveOf prepared) ++
        storeStackArgs 0 (stackPassedArgs prepared) ++
        [.target (createCallInst .CALL ((intrinsicTarget "f").getD "f")
          (Int.ofNat (intArgCount prepared)) (Int.ofNat (floatArgCount prepared)))] ++ ret :=
  ⟨by decide,
    match visitCall_argument_passing "f" (nineSig.map (fun s => (s.1, s.2.1))) none .TOKEN 100
      { insts := nineArgsCall, next := 100, paramAreaRequest := some 8 } (by decide) with
    | ⟨prepared, pre, ret, h1, h2, h3, _⟩ => ⟨prepared, pre, ret, h1, h2, h3⟩⟩

theorem getElem?_lt_length {α : Type} (l : List α) (i : Nat) (a : α) (h : l[i]? = some a) :
    i < l.length := by
  by_contra hc
  rw [List.getElem?_eq_none (Nat.le_of_not_lt hc)] at h
  exact Option.noConfusion h

theorem stackIndex_lt_of_overflows (flags : List Bool) (i n : Nat) (hi : i < n)
    (hov : overflows flags i = true) : stackIndex flags i < stackIndex flags n := by
  induction n with
  | zero => omega
  | succ n ih =>
    rw [stackIndex_succ]
    by_cases hlt : i < n
    · have := ih hlt
      omega
    · have : i = n := by omega
      subst this
      simp [hov]

/-- Claim C11: for every signature, when the call sequence is selected for arguments of
these types and the parameter loop of the callee runs for parameters of the same types,
every argument position `i` that does not fit in the eight registers of its class is the
`j`-th stack argument on both sides (`j` counts the earlier positions that do not fit): the
caller stores its temporary with the store of `8 * j (sp)`, the callee loads the parameter
from the incoming frame index `-(j + 1)`, recorded at offset `8 * j`, and stack lowering
resolves that index to `8 * j + stackSize`, so that after the prologue the load reads
`sp + stackSize + 8 * j`. -/
theorem stack_arguments_agree (sig : List (IRType × IROperand × Nat)) (next : Nat)
    (prepared : List ArgTmp) (pre : List MInstruction) (n1 : Nat)
    (hprep : prepareArgs (sig.map (fun s => (s.1, s.2.1))) next = some (prepared, pre, n1)) :
    ∃ callee : ParamState,
      visitParams (sig.map (fun s => (s.1, IROperand.reg s.2.2))) = some callee ∧
      ∀ i a s, prepared[i]? = some a → sig[i]? = some s →
        overflows (floatFlags (sig.map (fun s => s.1))) i = true →
        (assignArgs prepared).stackArgs[stackIndex (floatFlags (sig.map (fun s => s.1))) i]?
          = some a ∧
        storeStackArg (stackIndex (floatFlags (sig.map (fun s => s.1))) i) a <:+:
          storeStackArgs 0 (assignArgs prepared).stackArgs ∧
        some a.dt = mapType s.1 ∧
        MInstruction.target (createIInstOp (selectLoadOp (some a.dt)) (makeVReg s.2.2 a.dt)
          PR.sp (.frameIndex
            (-(Int.ofNat (stackIndex (floatFlags (sig.map (fun s => s.1))) i) + 1))))
          ∈ callee.insts ∧
        incomingArgOffsetOf callee.objects
            (-(Int.ofNat (stackIndex (floatFlags (sig.map (fun s => s.1))) i) + 1))
          = Int.ofNat (stackIndex (floatFlags (sig.map (fun s => s.1))) i * 8) ∧
        (∀ frameSize stackSize : Int,
          resolveOffset (calleeLayout frameSize callee.objects) stackSize
              (-(Int.ofNat (stackIndex (floatFlags (sig.map (fun s => s.1))) i) + 1))
            = Int.ofNat (stackIndex (floatFlags (sig.map (fun s => s.1))) i * 8)
              + stackSize) ∧
        (∀ frameSize stackSize : Int, 0 ≤ stackSize →
          imm12 (Int.ofNat (stackIndex (floatFlags (sig.map (fun s => s.1))) i * 8)
            + stackSize) = true →
          lowerInst (calleeLayout frameSize callee.objects) stackSize
            (.target (createIInstOp (selectLoadOp (some a.dt)) (makeVReg s.2.2 a.dt)
              PR.sp (.frameIndex
                (-(Int.ofNat (stackIndex (floatFlags (sig.map (fun s => s.1))) i) + 1)))))
          = [.target (createIInst (selectLoadOp (some a.dt)) (makeVReg s.2.2 a.dt) PR.sp
              (Int.ofNat (stackIndex (floatFlags (sig.map (fun s => s.1))) i * 8)
                + stackSize))]) ∧
        (∀ (funcName : String) (res : Option IROperand) (retType : IRType)
          (r : CallSelection), intrinsicTarget funcName = none →
          visitCall funcName (sig.map (fun s => (s.1, s.2.1))) res retType next = some r →
          storeStackArg (stackIndex (floatFlags (sig.map (fun s => s.1))) i) a <:+:
            r.insts) := by
  obtain ⟨hfl, hdt, hlen⟩ := prepareArgs_flags _ next prepared pre n1 hprep
  rw [List.map_map] at hfl hdt
  have hfl' : prepared.map (fun p => p.isFloat) = floatFlags (sig.map (fun s => s.1)) := hfl
  have hty : ∀ p ∈ sig.map (fun s => (s.1, s.2.2)), (mapType p.1).isSome = true := by
    intro p hp
    obtain ⟨s, hs, rfl⟩ := List.mem_map.mp hp
    have hmem : mapType s.1 ∈ sig.map ((fun a => mapType a.1) ∘ fun s => (s.1, s.2.1)) :=
      List.mem_map.mpr ⟨s, hs, rfl⟩
    rw [← hdt] at hmem
    obtain ⟨q, _, hq⟩ := List.mem_map.mp hmem
    simp only at hq ⊢
    rw [← hq]
    rfl
  obtain ⟨callee, hc, c1, c2, c3, _, _⟩ := visitParams_spec (sig.map (fun s => (s.1, s.2.2))) hty
  rw [List.map_map] at hc
  rw [List.map_map] at c3
  have hsigfl : floatFlags (List.map ((fun p => p.1) ∘ fun s => (s.1, s.2.2)) sig) =
      floatFlags (sig.map (fun s => s.1)) := rfl
  rw [hsigfl] at c3
  refine ⟨callee, hc, ?_⟩
  intro i a s ha hs hov
  have hi : i < prepared.length := getElem?_lt_length prepared i a ha
  have hisig : i < sig.length := getElem?_lt_length sig i s hs
  have hov' : overflows (prepared.map (fun p => p.isFloat)) i = true := by rw [hfl']; exact hov
  have hstack : (assignArgs prepared).stackArgs[
      stackIndex (floatFlags (sig.map (fun s => s.1))) i]? = some a := by
    rw [(assignArgs_spec prepared).2.1, ← hfl', stackPassedArgs_index prepared i hi hov']
    exact ha
  have hadt : some a.dt = mapType s.1 := by
    have h1 : (prepared.map (fun p => some p.dt))[i]? = some (some a.dt) := by
      rw [List.getElem?_map, ha]
      rfl
    rw [hdt, List.getElem?_map, hs] at h1
    simp only [Option.map_some', Function.comp_apply, Option.some.injEq] at h1
    exact h1.symm
  have hjlt : stackIndex (floatFlags (sig.map (fun s => s.1))) i < callee.stackArgCnt := by
    rw [c3, List.length_map]
    exact stackIndex_lt_of_overflows _ i sig.length hisig hov
  have hlook := incomingTable_lookup callee.stackArgCnt _ hjlt
  rw [← c2] at hlook
  have hres : ∀ frameSize stackSize : Int,
      resolveOffset (calleeLayout frameSize callee.objects) stackSize
          (-(Int.ofNat (stackIndex (floatFlags (sig.map (fun s => s.1))) i) + 1))
        = Int.ofNat (stackIndex (floatFlags (sig.map (fun s => s.1))) i * 8) + stackSize := by
    intro frameSize stackSize
    unfold resolveOffset calleeLayout
    simp only
    rw [if_pos (by simp only [Int.ofNat_eq_coe]; omega), hlook]
    rw [if_pos (by simp only [Int.ofNat_eq_coe]; omega)]
  have hinf : storeStackArg (stackIndex (floatFlags (sig.map (fun s => s.1))) i) a <:+:
      storeStackArgs 0 (assignArgs prepared).stackArgs := by
    have := storeStackArgs_infix (assignArgs prepared).stackArgs 0 _ a hstack
    simpa using this
  refine ⟨hstack, hinf, hadt, ?_, hlook, hres, ?_, ?_⟩
  · rw [c1, List.mem_flatMap]
    refine ⟨i, List.mem_range.mpr (by simpa using hisig), ?_⟩
    have htp : (typedParams (sig.map (fun s => (s.1, s.2.2))))[i]? = some (a.dt, s.2.2) := by
      unfold typedParams
      rw [List.map_map, List.getElem?_map, hs]
      simp [← hadt]
    have hflt : (typedParams (sig.map (fun s => (s.1, s.2.2)))).map (fun q => isFloatType q.1)
        = floatFlags (sig.map (fun s => s.1)) := by
      simp [typedParams, floatFlags]
    unfold paramFetchOf
    simp only [htp, hflt, hov, if_true]
    exact List.mem_singleton.mpr rfl
  · intro frameSize stackSize h0 h12
    simp only [lowerInst, createIInstOp, Bool.not_true, Bool.false_eq_true, if_false, hres]
    unfold lowerFrameIndexInstr
    rw [if_neg (by simp only [Int.ofNat_eq_coe]; omega), if_pos h12]
    rfl
  · intro funcName res retType r hn hv
    obtain ⟨prepared', pre', ret, h1, _, h3, _⟩ :=
      visitCall_eq funcName _ res retType next r hv
    have hpa : passedArgs funcName (sig.map (fun s => (s.1, s.2.1))) =
        sig.map (fun s => (s.1, s.2.1)) := by simp [passedArgs, hn]
    rw [hpa, hprep] at h1
    simp only [Option.some.injEq, Prod.mk.injEq] at h1
    obtain ⟨rfl, rfl, _⟩ := h1
    rw [(assignArgs_spec prepared).2.1] at hinf
    obtain ⟨u, v, huv⟩ := hinf
    rw [h3, ← huv]
    exact ⟨pre ++ (List.range prepared.length).flatMap (regMoveOf prepared) ++ u,
      v ++ [.target (createCallInst .CALL ((intrinsicTarget funcName).getD funcName)
        (Int.ofNat (intArgCount prepared)) (Int.ofNat (floatArgCount prepared)))] ++ ret,
      by simp⟩

theorem stack_arguments_agree_witness :
    prepareArgs (nineSig.map (fun s => (s.1, s.2.1))) 100 =
      some (ninePrepared, ninePre, 100) ∧
    ∃ callee : ParamState,
      visitParams (nineSig.map (fun s => (s.1, IROperand.reg s.2.2))) = some callee ∧
      storeStackArg (stackIndex (floatFlags (nineSig.map (fun s => s.1))) 8)
          { dt := .I32, isFloat := false, tmp := makeVReg 8 .I32 } <:+:
        storeStackArgs 0 (assignArgs ninePrepared).stackArgs ∧
      MInstruction.target (createIInstOp (selectLoadOp (some .I32)) (makeVReg 28 .I32) PR.sp
        (.frameIndex (-(Int.ofNat (stackIndex (floatFlags (nineSig.map (fun s => s.1))) 8)
          + 1)))) ∈ callee.insts :=
  ⟨by decide,
    match stack_arguments_agree nineSig 100 ninePrepared ninePre 100 (by decide) with
    | ⟨callee, hc, h⟩ =>
      ⟨callee, hc,
        (h 8 { dt := .I32, isFloat := false, tmp := makeVReg 8 .I32 }
          (IRType.I32, IROperand.reg 8, 28) (by decide) (by decide) (by decide)).2.1,
        (h 8 { dt := .I32, isFloat := false, tmp := makeVReg 8 .I32 }
          (IRType.I32, IROperand.reg 8, 28) (by decide) (by decide) (by decide)).2.2.2.1⟩⟩

/-! ### Linear scan: a function without virtual registers -/

theorem mem_setInsert (s : List Register) (r x : Register) :
    x ∈ setInsert s r ↔ x ∈ s ∨ x = r := by
  unfold setInsert
  split
  · rename_i h
    constructor
    · exact Or.inl
    · rintro (h1 | rfl)
      · exact h1
      · exact h
  · simp

theorem mem_foldl_setInsert (b : List Register) :
    ∀ (a : List Register) (x : Register), x ∈ b.foldl setInsert a ↔ x ∈ a ∨ x ∈ b := by
  induction b with
  | nil => intro a x; simp
  | cons r rest ih =>
    intro a x
    simp only [List.foldl_cons, ih, mem_setInsert, List.mem_cons]
    tauto

theorem mem_setUnion (a b : List Register) (x : Register) :
    x ∈ setUnion a b ↔ x ∈ a ∨ x ∈ b :=
  mem_foldl_setInsert b a x

theorem mem_foldl_union (liveIn : Nat → List Register) (ss : List Nat) :
    ∀ (acc : List Register) (x : Register),
      x ∈ ss.foldl (fun acc s => setUnion acc (liveIn s)) acc ↔
        x ∈ acc ∨ ∃ s ∈ ss, x ∈ liveIn s := by
  induction ss with
  | nil => intro acc x; simp
  | cons s rest ih =>
    intro acc x
    simp only [List.foldl_cons, ih, mem_setUnion, List.mem_cons, exists_eq_or_imp]
    tauto

theorem mem_newOUT (succs : Nat → List Nat) (liveIn : Nat → List Register) (bid : Nat)
    (x : Register) : x ∈ newOUT succs liveIn bid ↔ ∃ s ∈ succs bid, x ∈ liveIn s := by
  unfold newOUT
  rw [mem_foldl_union]
  simp

theorem mem_foldl_newIN (def1 : List Register) (nOut : List Register) :
    ∀ (acc : List Register) (x : Register),
      x ∈ nOut.foldl (fun acc r => if r ∈ def1 then acc else setInsert acc r) acc ↔
        x ∈ acc ∨ (x ∈ nOut ∧ x ∉ def1) := by
  induction nOut with
  | nil => intro acc x; simp
  | cons r rest ih =>
    intro acc x
    simp only [List.foldl_cons, ih, List.mem_cons]
    by_cases hr : r ∈ def1
    · simp only [hr, if_true]
      constructor
      · rintro (h | ⟨h1, h2⟩)
        · exact Or.inl h
        · exact Or.inr ⟨Or.inr h1, h2⟩
      · rintro (h | ⟨h1 | h1, h2⟩)
        · exact Or.inl h
        · subst h1; exact absurd hr h2
        · exact Or.inr ⟨h1, h2⟩
    · simp only [hr, if_false, mem_setInsert]
      constructor
      · rintro ((h | h) | ⟨h1, h2⟩)
        · exact Or.inl h
        · subst h; exact Or.inr ⟨Or.inl rfl, hr⟩
        · exact Or.inr ⟨Or.inr h1, h2⟩
      · rintro (h | ⟨h1 | h1, h2⟩)
        · exact Or.inl (Or.inl h)
        · exact Or.inl (Or.inr h1)
        · exact Or.inr ⟨h1, h2⟩

theorem mem_newIN (use def1 nOut : List Register) (x : Register) :
    x ∈ newIN use def1 nOut ↔ x ∈ use ∨ (x ∈ nOut ∧ x ∉ def1) :=
  mem_foldl_newIN def1 nOut use x

theorem setEq_iff (a b : List Register) : setEq a b = true ↔ ∀ x, x ∈ a ↔ x ∈ b := by
  unfold setEq
  simp only [Bool.and_eq_true, List.all_eq_true, decide_eq_true_eq]
  constructor
  · rintro ⟨h1, h2⟩ x
    exact ⟨h1 x, h2 x⟩
  · intro h
    exact ⟨fun x hx => (h x).mp hx, fun x hx => (h x).mpr hx⟩

theorem mem_useDefStep_use (inst : MInstruction) (ud : List Register × List Register)
    (x : Register) (h : x ∈ (useDefStep ud inst).1) : x ∈ ud.1 ∨ x ∈ enumUses inst := by
  unfold useDefStep at h
  simp only at h
  rcases (mem_foldl_newIN _ _ _ _).mp h with h1 | ⟨h1, _⟩
  · exact Or.inl h1
  · exact Or.inr h1

theorem mem_blockUseDef_use (insts : List MInstruction) (x : Register) :
    ∀ ud : List Register × List Register, x ∈ (insts.foldl useDefStep ud).1 →
      x ∈ ud.1 ∨ ∃ i ∈ insts, x ∈ enumUses i := by
  induction insts with
  | nil => intro ud h; exact Or.inl h
  | cons i rest ih =>
    intro ud h
    simp only [List.foldl_cons] at h
    rcases ih _ h with h1 | ⟨j, hj, hx⟩
    · rcases mem_useDefStep_use i ud x h1 with h2 | h2
      · exact Or.inl h2
      · exact Or.inr ⟨i, List.mem_cons_self _ _, h2⟩
    · exact Or.inr ⟨j, List.mem_cons_of_mem _ hj, hx⟩

theorem lookup_mem {β : Type} (l : List (Nat × β)) (k : Nat) (v : β)
    (h : l.lookup k = some v) : (k, v) ∈ l := by
  induction l with
  | nil => simp at h
  | cons kv rest ih =>
    obtain ⟨k1, v1⟩ := kv
    simp only [List.lookup] at h
    by_cases hk : k = k1
    · subst hk
      simp at h
      subst h
      exact List.mem_cons_self _ _
    · have : (k == k1) = false := by simpa using hk
      rw [this] at h
      exact List.mem_cons_of_mem _ (ih h)

theorem mem_useOf (blocks : BlockMap) (bid : Nat) (x : Register) (h : x ∈ useOf blocks bid) :
    x ∈ allUses blocks := by
  unfold useOf at h
  cases hb : blocks.lookup bid with
  | none => simp [hb] at h
  | some b =>
    simp only [hb] at h
    rcases mem_blockUseDef_use b.insts x ([], []) h with h1 | ⟨i, hi, hx⟩
    · simp at h1
    · unfold allUses linearInsts
      simp only [List.mem_flatMap]
      exact ⟨i, ⟨(bid, b), lookup_mem blocks bid b hb, hi⟩, hx⟩

theorem setCard_le_of_subset (a b : List Register) (h : ∀ x, x ∈ a → x ∈ b) :
    setCard a ≤ setCard b := by
  unfold setCard
  apply Finset.card_le_card
  intro x hx
  exact List.mem_toFinset.mpr (h x (List.mem_toFinset.mp hx))

theorem setCard_lt_of_ssubset (a b : List Register) (h : ∀ x, x ∈ a → x ∈ b)
    (hne : setEq b a = false) : setCard a < setCard b := by
  unfold setCard
  apply Finset.card_lt_card
  rw [Finset.ssubset_iff_subset_ne]
  refine ⟨fun x hx => List.mem_toFinset.mpr (h x (List.mem_toFinset.mp hx)), ?_⟩
  intro heq
  have : setEq b a = true := by
    rw [setEq_iff]
    intro x
    rw [← List.mem_toFinset, ← List.mem_toFinset (l := a), heq]
  rw [this] at hne
  exact Bool.noConfusion hne

theorem livenessStep_spec (succs : Nat → List Nat) (blocks : BlockMap) (st : LiveState)
    (bid : Nat) (hinv : LiveInv succs blocks st)
    (hb : bid ∈ (blocks.map (fun kb => kb.1)).toFinset) :
    LiveInv succs blocks (livenessStep succs blocks st bid) ∧
    (livenessStep succs blocks st bid = st ∨
      ((livenessStep succs blocks st bid).changed = true ∧
        liveMeasure blocks st < liveMeasure blocks (livenessStep succs blocks st bid))) := by
  obtain ⟨h1, h2, h3, h4⟩ := hinv
  unfold livenessStep
  simp only
  split
  · exact ⟨⟨h1, h2, h3, h4⟩, Or.inl rfl⟩
  · rename_i hcond
    have hmono : ∀ b x, x ∈ st.liveIn b →
        x ∈ Function.update st.liveIn bid
          (newIN (useOf blocks bid) (defOf blocks bid) (newOUT succs st.liveIn bid)) b := by
      intro b x hx
      by_cases hbb : b = bid
      · subst hbb
        rw [Function.update_same]
        exact h2 b x hx
      · rw [Function.update_noteq hbb]
        exact hx
    have hmonoOut : ∀ b x, x ∈ newOUT succs st.liveIn b →
        x ∈ newOUT succs (Function.update st.liveIn bid
          (newIN (useOf blocks bid) (defOf blocks bid) (newOUT succs st.liveIn bid))) b := by
      intro b x hx
      obtain ⟨s, hs, hxs⟩ := (mem_newOUT _ _ _ _).mp hx
      exact (mem_newOUT _ _ _ _).mpr ⟨s, hs, hmono s x hxs⟩
    have hmonoIn : ∀ b x, x ∈ newIN (useOf blocks b) (defOf blocks b) (newOUT succs st.liveIn b) →
        x ∈ newIN (useOf blocks b) (defOf blocks b)
          (newOUT succs (Function.update st.liveIn bid
            (newIN (useOf blocks bid) (defOf blocks bid) (newOUT succs st.liveIn bid))) b) := by
      intro b x hx
      rcases (mem_newIN _ _ _ _).mp hx with hu | ⟨ho, hd⟩
      · exact (mem_newIN _ _ _ _).mpr (Or.inl hu)
      · exact (mem_newIN _ _ _ _).mpr (Or.inr ⟨hmonoOut b x ho, hd⟩)
    have hOutU : ∀ b x, x ∈ newOUT succs st.liveIn b → x ∈ allUses blocks := by
      intro b x hx
      obtain ⟨s, _, hxs⟩ := (mem_newOUT _ _ _ _).mp hx
      exact h3 s x hxs
    have hInU : ∀ b x, x ∈ newIN (useOf blocks b) (defOf blocks b) (newOUT succs st.liveIn b) →
        x ∈ allUses blocks := by
      intro b x hx
      rcases (mem_newIN _ _ _ _).mp hx with hu | ⟨ho, _⟩
      · exact mem_useOf blocks b x hu
      · exact hOutU b x ho
    refine ⟨⟨?_, ?_, ?_, ?_⟩, Or.inr ⟨rfl, ?_⟩⟩
    · intro b x hx
      dsimp only at hx ⊢
      by_cases hbb : b = bid
      · subst hbb
        rw [Function.update_same] at hx
        exact hmonoOut b x hx
      · rw [Function.update_noteq hbb] at hx
        exact hmonoOut b x (h1 b x hx)
    · intro b x hx
      dsimp only at hx ⊢
      by_cases hbb : b = bid
      · subst hbb
        rw [Function.update_same] at hx
        exact hmonoIn b x hx
      · rw [Function.update_noteq hbb] at hx
        exact hmonoIn b x (h2 b x hx)
    · intro b x hx
      dsimp only at hx ⊢
      by_cases hbb : b = bid
      · subst hbb
        rw [Function.update_same] at hx
        exact hInU b x hx
      · rw [Function.update_noteq hbb] at hx
        exact h3 b x hx
    · intro b x hx
      dsimp only at hx ⊢
      by_cases hbb : b = bid
      · subst hbb
        rw [Function.update_same] at hx
        exact hOutU b x hx
      · rw [Function.update_noteq hbb] at hx
        exact h4 b x hx
    · unfold liveMeasure
      apply Finset.sum_lt_sum
      · intro b _
        simp only
        by_cases hbb : b = bid
        · subst hbb
          rw [Function.update_same, Function.update_same]
          exact Nat.add_le_add (setCard_le_of_subset _ _ (h2 b))
            (setCard_le_of_subset _ _ (h1 b))
        · rw [Function.update_noteq hbb, Function.update_noteq hbb]
      · refine ⟨bid, hb, ?_⟩
        simp only
        rw [Function.update_same, Function.update_same]
        have hle1 := setCard_le_of_subset _ _ (h2 bid)
        have hle2 := setCard_le_of_subset _ _ (h1 bid)
        simp only [Bool.and_eq_true, not_and_or, Bool.not_eq_true] at hcond
        rcases hcond with hc | hc
        · have := setCard_lt_of_ssubset _ _ (h1 bid) hc
          omega
        · have := setCard_lt_of_ssubset _ _ (h2 bid) hc
          omega

theorem liveMeasure_le_bound (succs : Nat → List Nat) (blocks : BlockMap) (st : LiveState)
    (hinv : LiveInv succs blocks st) : liveMeasure blocks st ≤ liveBound blocks := by
  obtain ⟨_, _, h3, h4⟩ := hinv
  unfold liveMeasure liveBound
  have := Finset.sum_le_card_nsmul (blocks.map (fun kb => kb.1)).toFinset
    (fun b => setCard (st.liveIn b) + setCard (st.liveOut b)) (2 * setCard (allUses blocks))
    (by
      intro b _
      have a1 := setCard_le_of_subset _ _ (h3 b)
      have a2 := setCard_le_of_subset _ _ (h4 b)
      simp only
      omega)
  simpa using this

theorem livenessFold_spec (succs : Nat → List Nat) (blocks : BlockMap) (l : List Nat)
    (hl : ∀ b ∈ l, b ∈ (blocks.map (fun kb => kb.1)).toFinset) :
    ∀ st : LiveState, LiveInv succs blocks st →
      LiveInv succs blocks (l.foldl (livenessStep succs blocks) st) ∧
      liveMeasure blocks st ≤ liveMeasure blocks (l.foldl (livenessStep succs blocks) st) ∧
      ((l.foldl (livenessStep succs blocks) st).changed = true →
        st.changed = true ∨
          liveMeasure blocks st < liveMeasure blocks (l.foldl (livenessStep succs blocks) st))
    := by
  induction l with
  | nil => intro st hinv; exact ⟨hinv, Nat.le_refl _, fun h => Or.inl h⟩
  | cons b rest ih =>
    intro st hinv
    obtain ⟨hinv1, hstep⟩ := livenessStep_spec succs blocks st b hinv
      (hl b (List.mem_cons_self _ _))
    obtain ⟨i1, i2, i3⟩ := ih (fun c hc => hl c (List.mem_cons_of_mem _ hc))
      (livenessStep succs blocks st b) hinv1
    simp only [List.foldl_cons]
    rcases hstep with heq | ⟨_, hlt⟩
    · rw [heq] at i1 i2 i3 ⊢
      exact ⟨i1, i2, i3⟩
    · refine ⟨i1, by omega, fun _ => Or.inr (by omega)⟩

theorem livenessPass_spec (succs : Nat → List Nat) (blocks : BlockMap) (st : LiveState)
    (hinv : LiveInv succs blocks st) :
    LiveInv succs blocks (livenessPass succs blocks st) ∧
    ((livenessPass succs blocks st).changed = true →
      liveMeasure blocks st < liveMeasure blocks (livenessPass succs blocks st)) := by
  have hinv0 : LiveInv succs blocks { st with changed := false } := hinv
  obtain ⟨i1, _, i3⟩ := livenessFold_spec succs blocks (blocks.map (fun kb => kb.1))
    (fun b hb => List.mem_toFinset.mpr hb) { st with changed := false } hinv0
  refine ⟨i1, fun hc => ?_⟩
  rcases i3 hc with h | h
  · exact Bool.noConfusion h
  · exact h

theorem livenessLoop_terminates (succs : Nat → List Nat) (blocks : BlockMap) :
    ∀ (fuel : Nat) (st : LiveState), LiveInv succs blocks st →
      liveBound blocks - liveMeasure blocks st < fuel →
      ∃ r, livenessLoop succs blocks fuel st = some r ∧ LiveInv succs blocks r := by
  intro fuel
  induction fuel with
  | zero => intro st _ h; omega
  | succ fuel ih =>
    intro st hinv hfuel
    obtain ⟨hinv1, hch⟩ := livenessPass_spec succs blocks st hinv
    simp only [livenessLoop]
    split
    · rename_i hc
      have hlt := hch hc
      have hle := liveMeasure_le_bound succs blocks _ hinv1
      exact ih _ hinv1 (by omega)
    · exact ⟨_, rfl, hinv1⟩

theorem liveInv_emptyLive (succs : Nat → List Nat) (blocks : BlockMap) :
    LiveInv succs blocks emptyLive := by
  refine ⟨?_, ?_, ?_, ?_⟩ <;> intro b x hx <;> simp [emptyLive] at hx

theorem livenessLoop_physLoop :
    (livenessLoop physLoopSuccs physLoop.blocks 3 emptyLive).isNone = true ∧
    (livenessLoop physLoopSuccs physLoop.blocks 4 emptyLive).map
        (fun st => (st.liveIn 0, st.liveOut 0, st.liveIn 1, st.liveOut 1, st.liveIn 2))
      = some ([PR.a0, PR.ra], [PR.s1, PR.x0, PR.ra], [PR.s1, PR.x0, PR.ra],
          [PR.s1, PR.x0, PR.ra], [PR.ra]) := by
  decide

theorem allUses_phys (func : Function) (h : NoVregs func) :
    ∀ x ∈ allUses func.blocks, x.isVreg = false := by
  intro x hx
  unfold allUses linearInsts at hx
  simp only [List.mem_flatMap] at hx
  obtain ⟨i, ⟨kb, hkb, hi⟩, hxi⟩ := hx
  exact (h kb hkb i hi).1 x hxi

theorem foldl_scanDef_phys (pos : Int) (ds : List Register)
    (h : ∀ d ∈ ds, d.isVreg = false) : ∀ st : ScanState, ds.foldl (scanDef pos) st = st := by
  induction ds with
  | nil => intro st; rfl
  | cons d rest ih =>
    intro st
    have hd := h d (List.mem_cons_self _ _)
    simp only [List.foldl_cons, scanDef, hd, Bool.not_false, if_true]
    exact ih (fun x hx => h x (List.mem_cons_of_mem _ hx)) st

theorem foldl_scanUse_phys (pos : Int) (us : List Register)
    (h : ∀ u ∈ us, u.isVreg = false) : ∀ st : ScanState, us.foldl (scanUse pos) st = st := by
  induction us with
  | nil => intro st; rfl
  | cons u rest ih =>
    intro st
    have hu := h u (List.mem_cons_self _ _)
    simp only [List.foldl_cons, scanUse, hu, Bool.not_false, if_true]
    exact ih (fun x hx => h x (List.mem_cons_of_mem _ hx)) st

theorem scanInsts_phys (insts : List MInstruction) (h : ∀ i ∈ insts, physOnly i) :
    ∀ (pos : Int) (st : ScanState), scanInsts insts pos st = st := by
  induction insts with
  | nil => intro pos st; rfl
  | cons i rest ih =>
    intro pos st
    have hi := h i (List.mem_cons_self _ _)
    simp only [scanInsts, foldl_scanDef_phys pos _ hi.2, foldl_scanUse_phys pos _ hi.1]
    exact ih (fun x hx => h x (List.mem_cons_of_mem _ hx)) _ st

theorem scanBlock_phys (liveOut : List Register) (insts : List MInstruction) (blockStart : Int)
    (intervals : List (Register × Interval)) (hl : ∀ x ∈ liveOut, x.isVreg = false)
    (h : ∀ i ∈ insts, physOnly i) : scanBlock liveOut insts blockStart intervals = intervals := by
  have hf : liveOut.filter (fun r => r.isVreg) = [] := by
    rw [List.filter_eq_nil_iff]
    intro x hx
    simp [hl x hx]
  unfold scanBlock
  simp only [hf, List.foldl_nil]
  rw [scanInsts_phys insts.reverse (fun i hi => h i (List.mem_reverse.mp hi))]
  rfl

theorem buildIntervals_phys (liveOut : Nat → List Register)
    (hl : ∀ b, ∀ x ∈ liveOut b, x.isVreg = false) :
    ∀ (blocks : BlockMap) (pos : Int) (intervals : List (Register × Interval)),
      (∀ kb ∈ blocks, ∀ i ∈ kb.2.insts, physOnly i) →
      buildIntervals liveOut blocks pos intervals = intervals := by
  intro blocks
  induction blocks with
  | nil => intro pos intervals _; rfl
  | cons kb rest ih =>
    intro pos intervals h
    obtain ⟨bid, block⟩ := kb
    simp only [buildIntervals]
    rw [scanBlock_phys _ _ _ _ (hl bid) (h (bid, block) (List.mem_cons_self _ _))]
    exact ih _ _ (fun kb hkb => h kb (List.mem_cons_of_mem _ hkb))

theorem rewriteUses_phys (env : RewriteEnv) (pos : Int) (us : List Register)
    (h : ∀ u ∈ us, u.isVreg = false) :
    ∀ st : InstState, rewriteUses env pos us st = some st := by
  induction us with
  | nil => intro st; rfl
  | cons u rest ih =>
    intro st
    have hu := h u (List.mem_cons_self _ _)
    simp only [rewriteUses, rewriteUse, hu, Bool.not_false, if_true]
    exact ih (fun x hx => h x (List.mem_cons_of_mem _ hx)) st

theorem rewriteDefs_phys (env : RewriteEnv) (pos : Int) (ds : List Register)
    (h : ∀ d ∈ ds, d.isVreg = false) :
    ∀ st : InstState, rewriteDefs env pos ds st = some st := by
  induction ds with
  | nil => intro st; rfl
  | cons d rest ih =>
    intro st
    have hd := h d (List.mem_cons_self _ _)
    simp only [rewriteDefs, rewriteDef, hd, Bool.not_false, if_true]
    exact ih (fun x hx => h x (List.mem_cons_of_mem _ hx)) st

theorem rewriteInst_phys (env : RewriteEnv) (spill : SpillState) (pos : Int)
    (inst : MInstruction) (h : physOnly inst) :
    rewriteInst env spill pos inst = some ([inst], spill) := by
  unfold rewriteInst
  rw [rewriteUses_phys env pos _ h.1]
  simp only
  rw [rewriteDefs_phys env pos _ h.2]
  rfl

theorem rewriteBlock_phys (env : RewriteEnv) (insts : List MInstruction)
    (h : ∀ i ∈ insts, physOnly i) :
    ∀ (spill : SpillState) (pos : Int), rewriteBlock env insts spill pos = some (insts, spill)
    := by
  induction insts with
  | nil => intro spill pos; rfl
  | cons i rest ih =>
    intro spill pos
    simp only [rewriteBlock, rewriteInst_phys env spill pos i (h i (List.mem_cons_self _ _)),
      ih (fun x hx => h x (List.mem_cons_of_mem _ hx))]
    rfl

theorem rewriteBlocks_phys (env : RewriteEnv) (blocks : BlockMap)
    (h : ∀ kb ∈ blocks, ∀ i ∈ kb.2.insts, physOnly i) :
    ∀ (spill : SpillState) (pos : Int),
      rewriteBlocks env blocks spill pos = some (blocks, spill) := by
  induction blocks with
  | nil => intro spill pos; rfl
  | cons kb rest ih =>
    intro spill pos
    obtain ⟨bid, block⟩ := kb
    simp only [rewriteBlocks,
      rewriteBlock_phys env block.insts (h (bid, block) (List.mem_cons_self _ _)),
      ih (fun kb hkb => h kb (List.mem_cons_of_mem _ hkb))]

/-- Claim C20: on a function in which no instruction uses or defines a virtual register,
`allocateFunction` returns, once the fuel covers the rounds of the liveness analysis (the
bound `liveBound` is enough, whatever the successor lists and the register info are), the
function itself, with the same blocks, instructions and operands, and the spill slots of the
FrameInfo as they were. -/
theorem allocateFunction_no_vregs (succs : Nat → List Nat) (ri : TargetRegInfo)
    (func : Function) (slots : List (Int × Int)) (h : NoVregs func) :
    ∀ fuel, liveBound func.blocks < fuel →
      allocateFunction fuel succs ri func slots = some (func, slots) := by
  intro fuel hfuel
  obtain ⟨live, hlive, hinv⟩ := livenessLoop_terminates succs func.blocks fuel emptyLive
    (liveInv_emptyLive succs func.blocks) (by omega)
  have hout : ∀ b, ∀ x ∈ live.liveOut b, x.isVreg = false :=
    fun b x hx => allUses_phys func h x (hinv.2.2.2 b x hx)
  unfold allocateFunction
  simp only [hlive, buildIntervals_phys live.liveOut hout func.blocks 0 [] h, List.map_nil,
    ite_self, allocateIntervals, List.filter_nil, allocateForClass, List.isEmpty_nil, if_true,
    rewriteBlocks_phys _ func.blocks h]

theorem allocateFunction_no_vregs_witness :
    NoVregs physLoop ∧
    allocateFunction (liveBound physLoop.blocks + 1) physLoopSuccs rv64RegInfo physLoop []
      = some (physLoop, []) :=
  ⟨by unfold NoVregs physOnly; decide,
    allocateFunction_no_vregs physLoopSuccs rv64RegInfo physLoop []
      (by unfold NoVregs physOnly; decide) _ (Nat.lt_succ_self _)⟩

/-! ### Stack lowering: offsets outside the 12-bit range -/

theorem flatMap_epilogue_nil (frameSize stackSize : Int) (h : ¬ stackSize > 0)
    (l : List MInstruction) : l.flatMap (epilogueInst frameSize stackSize []) = l := by
  induction l with
  | nil => rfl
  | cons hd tl ih =>
    simp only [List.flatMap_cons, ih]
    cases hd with
    | target ri =>
      simp only [epilogueInst, restoreRegs, if_neg h]
      split <;> rfl
    | move d s0 => rfl
    | phi r v => rfl
    | fiLoad d fi => rfl
    | fiStore d fi => rfl

theorem lowerFunction_block_shape (func : Function) (layout : FrameLayout)
    (kb : Nat × Block) (hkb : kb ∈ func.blocks) :
    ∃ kb1 ∈ (lowerFunction func layout).blocks, kb1.1 = kb.1 ∧
      ∃ pro, kb1.2.insts = pro ++ loweredInsts func layout kb.2.insts := by
  obtain ⟨kbA, hA, hA1, hA2⟩ := mem_mapInsts_of_mem
    (fun l => l.flatMap (lowerInst layout (computeStackSize func layout))) func.blocks kb hkb
  unfold lowerFunction
  simp only
  split
  · obtain ⟨kbB, hB, hB1, pre, hB2⟩ := mem_addPrologue_of_mem
      (prologue layout.frameSize (computeStackSize func layout) (savedRegs func)) _ kbA hA
    obtain ⟨kbC, hC, hC1, hC2⟩ := mem_mapInsts_of_mem
      (fun l => l.flatMap (epilogueInst layout.frameSize (computeStackSize func layout)
        (savedRegs func))) _ kbB hB
    refine ⟨kbC, hC, by rw [hC1, hB1, hA1], ?_⟩
    refine ⟨pre.flatMap (epilogueInst layout.frameSize (computeStackSize func layout)
      (savedRegs func)), ?_⟩
    rw [hC2, hB2, hA2]
    simp only [List.flatMap_append, loweredInsts]
  · rename_i hcond
    simp only [Bool.or_eq_true, Bool.not_eq_true', decide_eq_true_eq, not_or,
      Bool.not_eq_false] at hcond
    obtain ⟨hs, hz⟩ := hcond
    have hnil : savedRegs func = [] := by simpa using hs
    refine ⟨kbA, hA, hA1, [], ?_⟩
    rw [hA2]
    simp only [List.nil_append, loweredInsts, hnil]
    rw [flatMap_epilogue_nil _ _ hz]

theorem lowerFunction_inst_place (func : Function) (layout : FrameLayout)
    (kb : Nat × Block) (hkb : kb ∈ func.blocks) (l1 l2 : List MInstruction) (x : MInstruction)
    (hsplit : kb.2.insts = l1 ++ x :: l2)
    (hnr : ∀ o ∈ lowerInst layout (computeStackSize func layout) x, isReturn o = false) :
    ∃ kb1 ∈ (lowerFunction func layout).blocks, kb1.1 = kb.1 ∧
      ∃ pro, kb1.2.insts = pro ++ loweredInsts func layout l1 ++
        lowerInst layout (computeStackSize func layout) x ++ loweredInsts func layout l2 := by
  obtain ⟨kb1, h1, h2, pro, h3⟩ := lowerFunction_block_shape func layout kb hkb
  refine ⟨kb1, h1, h2, pro, ?_⟩
  rw [h3, hsplit]
  simp only [loweredInsts, List.flatMap_append, List.flatMap_cons]
  rw [flatMap_epilogue_of_not_return _ _ _ _ hnr]
  simp only [List.append_assoc]

theorem resolved_not_return (ri : Instr) (offset : Int) (h : ri.op ≠ .RET ∧ ri.op ≠ .JALR) :
    isReturn (.target { ri with imme := offset, use_ops := false, fiop := none }) = false := by
  simp [isReturn, isReturnInst, h.1, h.2]

theorem lowerInst_frame_load (layout : FrameLayout) (stackSize : Int) (ri : Instr) (fi : Int)
    (hu : ri.use_ops = true) (hf : ri.fiop = some (.frameIndex fi))
    (hop : ri.op ∈ [Operator.LW, .LD, .FLW, .FLD])
    (hoff : 0 ≤ resolveOffset layout stackSize fi) :
    lowerInst layout stackSize (.target ri) =
      if imm12 (resolveOffset layout stackSize fi) then
        [.target { ri with imme := resolveOffset layout stackSize fi, use_ops := false,
                           fiop := none }]
      else
        [.target (createUInst .LI PR.t0 (resolveOffset layout stackSize fi)),
         .target (createRInst .ADD PR.t0 ri.rs1 PR.t0),
         .target (createIInst ri.op ri.rd PR.t0 0)] := by
  have hneg : ¬ resolveOffset layout stackSize fi < 0 := by omega
  simp only [lowerInst, hu, hf, Bool.not_true, Bool.false_eq_true, if_false,
    lowerFrameIndexInstr, if_neg hneg]
  split
  · rfl
  · simp only [List.mem_cons, List.mem_singleton, List.not_mem_nil, or_false] at hop
    rcases hop with h | h | h | h <;> simp [h, replaceWithLargeOffsetLoad, *]

theorem lowerInst_frame_store (layout : FrameLayout) (stackSize : Int) (ri : Instr) (fi : Int)
    (hu : ri.use_ops = true) (hf : ri.fiop = some (.frameIndex fi))
    (hop : ri.op ∈ [Operator.SW, .SD, .FSW, .FSD])
    (hoff : 0 ≤ resolveOffset layout stackSize fi) :
    lowerInst layout stackSize (.target ri) =
      if imm12 (resolveOffset layout stackSize fi) then
        [.target { ri with imme := resolveOffset layout stackSize fi, use_ops := false,
                           fiop := none }]
      else
        [.target (createUInst .LI PR.t0 (resolveOffset layout stackSize fi)),
         .target (createRInst .ADD PR.t0 ri.rs2 PR.t0),
         .target (createSInst ri.op ri.rs1 PR.t0 0)] := by
  have hneg : ¬ resolveOffset layout stackSize fi < 0 := by omega
  simp only [lowerInst, hu, hf, Bool.not_true, Bool.false_eq_true, if_false,
    lowerFrameIndexInstr, if_neg hneg]
  split
  · rfl
  · simp only [List.mem_cons, List.mem_singleton, List.not_mem_nil, or_false] at hop
    rcases hop with h | h | h | h <;> simp [h, replaceWithLargeOffsetStore, *]

/-- Claim C25: in `lowerFunction` a reload, a spill, a load or a store through a frame
index is replaced where it stands, between what the instructions before it and the
instructions after it have become. When the offset is not a 12-bit immediate the
replacement is `LI t0, off; ADD t0, base, t0; op rd, 0(t0)` in that order (for a store
`op src, 0(t0)`); when it is one, the replacement is the single load or store with that
immediate. The base of a reload or spill is `sp`, its operator is chosen by the type of the
register; for a frame-indexed instruction the offset is one the frame layout knows (not
negative), the base and the operator are those of the instruction. -/
theorem lowerFunction_large_offset (func : Function) (layout : FrameLayout)
    (kb : Nat × Block) (hkb : kb ∈ func.blocks) (l1 l2 : List MInstruction) (x : MInstruction)
    (hsplit : kb.2.insts = l1 ++ x :: l2) :
    (∀ dest fi, x = .fiLoad dest fi →
      ∃ kb1 ∈ (lowerFunction func layout).blocks, kb1.1 = kb.1 ∧
        ∃ pro, kb1.2.insts = pro ++ loweredInsts func layout l1 ++
          (if imm12 (layout.spillSlotOffset fi) then
            [.target (createIInst (selectLoadOp dest.dt) dest PR.sp (layout.spillSlotOffset fi))]
          else
            [.target (createUInst .LI PR.t0 (layout.spillSlotOffset fi)),
             .target (createRInst .ADD PR.t0 PR.sp PR.t0),
             .target (createIInst (selectLoadOp dest.dt) dest PR.t0 0)]) ++
          loweredInsts func layout l2) ∧
    (∀ src fi, x = .fiStore src fi →
      ∃ kb1 ∈ (lowerFunction func layout).blocks, kb1.1 = kb.1 ∧
        ∃ pro, kb1.2.insts = pro ++ loweredInsts func layout l1 ++
          (if imm12 (layout.spillSlotOffset fi) then
            [.target (createSInst (selectStoreOp src.dt) src PR.sp (layout.spillSlotOffset fi))]
          else
            [.target (createUInst .LI PR.t0 (layout.spillSlotOffset fi)),
             .target (createRInst .ADD PR.t0 PR.sp PR.t0),
             .target (createSInst (selectStoreOp src.dt) src PR.t0 0)]) ++
          loweredInsts func layout l2) ∧
    (∀ ri fi, x = .target ri → ri.use_ops = true → ri.fiop = some (.frameIndex fi) →
      ri.op ∈ [Operator.LW, .LD, .FLW, .FLD] →
      0 ≤ resolveOffset layout (computeStackSize func layout) fi →
      ∃ kb1 ∈ (lowerFunction func layout).blocks, kb1.1 = kb.1 ∧
        ∃ pro, kb1.2.insts = pro ++ loweredInsts func layout l1 ++
          (if imm12 (resolveOffset layout (computeStackSize func layout) fi) then
            [.target { ri with imme := resolveOffset layout (computeStackSize func layout) fi,
                               use_ops := false, fiop := none }]
          else
            [.target (createUInst .LI PR.t0
               (resolveOffset layout (computeStackSize func layout) fi)),
             .target (createRInst .ADD PR.t0 ri.rs1 PR.t0),
             .target (createIInst ri.op ri.rd PR.t0 0)]) ++
          loweredInsts func layout l2) ∧
    (∀ ri fi, x = .target ri → ri.use_ops = true → ri.fiop = some (.frameIndex fi) →
      ri.op ∈ [Operator.SW, .SD, .FSW, .FSD] →
      0 ≤ resolveOffset layout (computeStackSize func layout) fi →
      ∃ kb1 ∈ (lowerFunction func layout).blocks, kb1.1 = kb.1 ∧
        ∃ pro, kb1.2.insts = pro ++ loweredInsts func layout l1 ++
          (if imm12 (resolveOffset layout (computeStackSize func layout) fi) then
            [.target { ri with imme := resolveOffset layout (computeStackSize func layout) fi,
                               use_ops := false, fiop := none }]
          else
            [.target (createUInst .LI PR.t0
               (resolveOffset layout (computeStackSize func layout) fi)),
             .target (createRInst .ADD PR.t0 ri.rs2 PR.t0),
             .target (createSInst ri.op ri.rs1 PR.t0 0)]) ++
          loweredInsts func layout l2) := by
  refine ⟨?_, ?_, ?_, ?_⟩
  · intro dest fi hx
    subst hx
    exact lowerFunction_inst_place func layout kb hkb l1 l2 _ hsplit
      (replaceLoad_not_return _ (selectLoadOp_mem dest.dt) _ _ _)
  · intro src fi hx
    subst hx
    exact lowerFunction_inst_place func layout kb hkb l1 l2 _ hsplit
      (replaceStore_not_return _ (selectStoreOp_mem src.dt) _ _ _)
  · intro ri fi hx hu hf hop hoff
    subst hx
    have hl := lowerInst_frame_load layout (computeStackSize func layout) ri fi hu hf hop hoff
    have hop2 : ri.op ≠ .RET ∧ ri.op ≠ .JALR := by
      simp only [List.mem_cons, List.mem_singleton, List.not_mem_nil, or_false] at hop
      rcases hop with h | h | h | h <;> rw [h] <;> simp
    have hnr : ∀ o ∈ lowerInst layout (computeStackSize func layout) (.target ri),
        isReturn o = false := by
      intro o ho
      rw [hl] at ho
      split at ho
      · simp only [List.mem_singleton] at ho
        subst ho
        exact resolved_not_return ri _ hop2
      · have := replaceLoad_not_return ri.op hop ri.rd ri.rs1
          (resolveOffset layout (computeStackSize func layout) fi) o
        apply this
        unfold replaceWithLargeOffsetLoad
        rename_i hi
        rw [if_neg hi]
        exact ho
    have := lowerFunction_inst_place func layout kb hkb l1 l2 _ hsplit hnr
    rw [hl] at this
    exact this
  · intro ri fi hx hu hf hop hoff
    subst hx
    have hl := lowerInst_frame_store layout (computeStackSize func layout) ri fi hu hf hop hoff
    have hop2 : ri.op ≠ .RET ∧ ri.op ≠ .JALR := by
      simp only [List.mem_cons, List.mem_singleton, List.not_mem_nil, or_false] at hop
      rcases hop with h | h | h | h <;> rw [h] <;> simp
    have hnr : ∀ o ∈ lowerInst layout (computeStackSize func layout) (.target ri),
        isReturn o = false := by
      intro o ho
      rw [hl] at ho
      split at ho
      · simp only [List.mem_singleton] at ho
        subst ho
        exact resolved_not_return ri _ hop2
      · have := replaceStore_not_return ri.op hop ri.rs1 ri.rs2
          (resolveOffset layout (computeStackSize func layout) fi) o
        apply this
        unfold replaceWithLargeOffsetStore
        rename_i hi
        rw [if_neg hi]
        exact ho
    have := lowerFunction_inst_place func layout kb hkb l1 l2 _ hsplit hnr
    rw [hl] at this
    exact this

theorem lowerFunction_large_offset_witness :
    (0, ({ blockId := 0, insts := farLoadInsts } : Block)) ∈ farLoad.blocks ∧
    farLoadInsts = [] ++ .target (createIInstOp .LW PR.a0 PR.sp (.frameIndex 7)) ::
      [.target (createIInst .JALR PR.x0 PR.ra 0)] ∧
    resolveOffset farLoadLayout (computeStackSize farLoad farLoadLayout) 7 = 2100 ∧
    ∃ kb1 ∈ (lowerFunction farLoad farLoadLayout).blocks, kb1.1 = 0 ∧
      ∃ pro, kb1.2.insts = pro ++ loweredInsts farLoad farLoadLayout [] ++
        [.target (createUInst .LI PR.t0 2100),
         .target (createRInst .ADD PR.t0 PR.sp PR.t0),
         .target (createIInst .LW PR.a0 PR.t0 0)] ++
        loweredInsts farLoad farLoadLayout [.target (createIInst .JALR PR.x0 PR.ra 0)] :=
  ⟨by simp [farLoad], rfl, by decide,
    (lowerFunction_large_offset farLoad farLoadLayout
      (0, { blockId := 0, insts := farLoadInsts }) (by simp [farLoad]) []
      [.target (createIInst .JALR PR.x0 PR.ra 0)]
      (.target (createIInstOp .LW PR.a0 PR.sp (.frameIndex 7))) rfl).2.2.1
      (createIInstOp .LW PR.a0 PR.sp (.frameIndex 7)) 7 rfl rfl rfl (by decide) (by decide)⟩

/-! ### Pseudo-move lowering -/

theorem lowerPseudoMove_spec (inst : MInstruction) (next : Nat) (chunk : List MInstruction)
    (n : Nat) (h : lowerPseudoMove inst next = some (chunk, n)) :
    ReplacedBy inst chunk ∧ ∀ o ∈ chunk, isLowerableMove o = false := by
  unfold ReplacedBy
  cases inst with
  | target ri =>
    simp only [lowerPseudoMove, Option.some.injEq, Prod.mk.injEq] at h
    obtain ⟨rfl, _⟩ := h
    simp [isLowerableMove, isSelfMove]
  | phi r v =>
    simp only [lowerPseudoMove, Option.some.injEq, Prod.mk.injEq] at h
    obtain ⟨rfl, _⟩ := h
    simp [isLowerableMove, isSelfMove]
  | fiLoad d fi =>
    simp only [lowerPseudoMove, Option.some.injEq, Prod.mk.injEq] at h
    obtain ⟨rfl, _⟩ := h
    simp [isLowerableMove, isSelfMove]
  | fiStore s fi =>
    simp only [lowerPseudoMove, Option.some.injEq, Prod.mk.injEq] at h
    obtain ⟨rfl, _⟩ := h
    simp [isLowerableMove, isSelfMove]
  | move dest src =>
    cases dest with
    | none => simp [lowerPseudoMove] at h
    | some d =>
      cases d with
      | immI32 v =>
        simp only [lowerPseudoMove, Option.some.injEq, Prod.mk.injEq] at h
        obtain ⟨rfl, _⟩ := h
        simp [isLowerableMove, isSelfMove]
      | immF32 v =>
        simp only [lowerPseudoMove, Option.some.injEq, Prod.mk.injEq] at h
        obtain ⟨rfl, _⟩ := h
        simp [isLowerableMove, isSelfMove]
      | frameIndex v =>
        simp only [lowerPseudoMove, Option.some.injEq, Prod.mk.injEq] at h
        obtain ⟨rfl, _⟩ := h
        simp [isLowerableMove, isSelfMove]
      | reg dstReg =>
        cases src with
        | none => simp [lowerPseudoMove] at h
        | some s =>
          cases s with
          | frameIndex v =>
            simp only [lowerPseudoMove, Option.some.injEq, Prod.mk.injEq] at h
            obtain ⟨rfl, _⟩ := h
            simp [isLowerableMove, isSelfMove]
          | reg srcReg =>
            simp only [lowerPseudoMove] at h
            by_cases hs : srcReg = dstReg
            · rw [if_pos hs] at h
              simp only [Option.some.injEq, Prod.mk.injEq] at h
              obtain ⟨rfl, _⟩ := h
              simp [isLowerableMove, isSelfMove, hs]
            · rw [if_neg hs] at h
              split at h <;>
                (simp only [Option.some.injEq, Prod.mk.injEq] at h
                 obtain ⟨rfl, _⟩ := h
                 simp [isLowerableMove, isSelfMove, hs, isTarget])
          | immI32 v =>
            simp only [lowerPseudoMove] at h
            split at h <;>
              (simp only [Option.some.injEq, Prod.mk.injEq] at h
               obtain ⟨rfl, _⟩ := h
               simp [isLowerableMove, isSelfMove, isTarget])
          | immF32 v =>
            simp only [lowerPseudoMove, Option.some.injEq, Prod.mk.injEq] at h
            obtain ⟨rfl, _⟩ := h
            simp [isLowerableMove, isSelfMove, isTarget]

theorem lowerPseudoMove_isSome (inst : MInstruction) (next : Nat)
    (h : moveOperandsPresent inst = true) : ∃ r, lowerPseudoMove inst next = some r := by
  cases inst with
  | target ri => exact ⟨_, rfl⟩
  | phi r v => exact ⟨_, rfl⟩
  | fiLoad d fi => exact ⟨_, rfl⟩
  | fiStore s fi => exact ⟨_, rfl⟩
  | move dest src =>
    cases dest with
    | none => simp [moveOperandsPresent] at h
    | some d =>
      cases src with
      | none => simp [moveOperandsPresent] at h
      | some s =>
        cases d with
        | immI32 v => exact ⟨_, rfl⟩
        | immF32 v => exact ⟨_, rfl⟩
        | frameIndex v => exact ⟨_, rfl⟩
        | reg dstReg =>
          cases s with
          | frameIndex v => exact ⟨_, rfl⟩
          | immF32 v => exact ⟨_, rfl⟩
          | reg srcReg =>
            simp only [lowerPseudoMove]
            split
            · exact ⟨_, rfl⟩
            · split <;> exact ⟨_, rfl⟩
          | immI32 v =>
            simp only [lowerPseudoMove]
            split <;> exact ⟨_, rfl⟩

theorem lowerPseudoMovesBlock_spec (insts : List MInstruction) :
    ∀ (next : Nat) (out : List MInstruction) (n : Nat),
      lowerPseudoMovesBlock insts next = some (out, n) →
      (∃ chunks, List.Forall₂ ReplacedBy insts chunks ∧ out = chunks.flatten) ∧
        ∀ o ∈ out, isLowerableMove o = false := by
  induction insts with
  | nil =>
    intro next out n h
    simp only [lowerPseudoMovesBlock, Option.some.injEq, Prod.mk.injEq] at h
    obtain ⟨rfl, _⟩ := h
    exact ⟨⟨[], List.Forall₂.nil, rfl⟩, by simp⟩
  | cons hd tl ih =>
    intro next out n h
    simp only [lowerPseudoMovesBlock] at h
    cases h1 : lowerPseudoMove hd next with
    | none => simp [h1] at h
    | some r1 =>
      obtain ⟨chunk, n1⟩ := r1
      simp only [h1] at h
      cases h2 : lowerPseudoMovesBlock tl n1 with
      | none => simp [h2] at h
      | some r2 =>
        obtain ⟨outs, n2⟩ := r2
        simp only [h2, Option.some.injEq, Prod.mk.injEq] at h
        obtain ⟨rfl, _⟩ := h
        obtain ⟨hrep, hno⟩ := lowerPseudoMove_spec hd next chunk n1 h1
        obtain ⟨⟨chunks, hall, hflat⟩, hnos⟩ := ih n1 outs n2 h2
        refine ⟨⟨chunk :: chunks, List.Forall₂.cons hrep hall, by simp [hflat]⟩, ?_⟩
        intro o ho
        rcases List.mem_append.mp ho with ho | ho
        · exact hno o ho
        · exact hnos o ho

theorem lowerPseudoMovesBlock_isSome (insts : List MInstruction) :
    ∀ next : Nat, (∀ i ∈ insts, moveOperandsPresent i = true) →
      ∃ r, lowerPseudoMovesBlock insts next = some r := by
  induction insts with
  | nil => intro next _; exact ⟨_, rfl⟩
  | cons hd tl ih =>
    intro next h
    obtain ⟨r1, h1⟩ := lowerPseudoMove_isSome hd next (h hd (List.mem_cons_self _ _))
    obtain ⟨r2, h2⟩ := ih r1.2 (fun i hi => h i (List.mem_cons_of_mem _ hi))
    simp only [lowerPseudoMovesBlock, h1, h2]
    exact ⟨_, rfl⟩

theorem lowerPseudoMoves_spec (blocks : BlockMap) :
    ∀ (next : Nat) (out : BlockMap) (n : Nat), lowerPseudoMoves blocks next = some (out, n) →
      List.Forall₂ (fun kb kb1 => kb1.1 = kb.1 ∧
        ∃ chunks, List.Forall₂ ReplacedBy kb.2.insts chunks ∧ kb1.2.insts = chunks.flatten)
        blocks out ∧
      ∀ kb1 ∈ out, ∀ o ∈ kb1.2.insts, isLowerableMove o = false := by
  induction blocks with
  | nil =>
    intro next out n h
    simp only [lowerPseudoMoves, Option.some.injEq, Prod.mk.injEq] at h
    obtain ⟨rfl, _⟩ := h
    exact ⟨List.Forall₂.nil, by simp⟩
  | cons hd tl ih =>
    intro next out n h
    obtain ⟨bid, block⟩ := hd
    simp only [lowerPseudoMoves] at h
    cases h1 : lowerPseudoMovesBlock block.insts next with
    | none => simp [h1] at h
    | some r1 =>
      obtain ⟨insts, n1⟩ := r1
      simp only [h1] at h
      cases h2 : lowerPseudoMoves tl n1 with
      | none => simp [h2] at h
      | some r2 =>
        obtain ⟨bs, n2⟩ := r2
        simp only [h2, Option.some.injEq, Prod.mk.injEq] at h
        obtain ⟨rfl, _⟩ := h
        obtain ⟨hch, hno⟩ := lowerPseudoMovesBlock_spec block.insts next insts n1 h1
        obtain ⟨hall, hnos⟩ := ih n1 bs n2 h2
        refine ⟨List.Forall₂.cons ⟨rfl, hch⟩ hall, ?_⟩
        intro kb1 hkb1 o ho
        rcases List.mem_cons.mp hkb1 with rfl | hkb1
        · exact hno o ho
        · exact hnos kb1 hkb1 o ho

theorem lowerPseudoMoves_isSome (blocks : BlockMap) :
    ∀ next : Nat, (∀ kb ∈ blocks, ∀ i ∈ kb.2.insts, moveOperandsPresent i = true) →
      ∃ r, lowerPseudoMoves blocks next = some r := by
  induction blocks with
  | nil => intro next _; exact ⟨_, rfl⟩
  | cons hd tl ih =>
    intro next h
    obtain ⟨bid, block⟩ := hd
    obtain ⟨r1, h1⟩ := lowerPseudoMovesBlock_isSome block.insts next
      (h (bid, block) (List.mem_cons_self _ _))
    obtain ⟨r2, h2⟩ := ih r1.2 (fun kb hkb => h kb (List.mem_cons_of_mem _ hkb))
    simp only [lowerPseudoMoves, h1, h2]
    exact ⟨_, rfl⟩

/-- Counterexample to claim C26: a move whose destination is an immediate operand and a
move whose source is a frame index are both still in the block after `lowerPseudoMoves`;
the move of a register next to them has become `ADDIW v3, v1, 0`. -/
theorem lowerPseudoMoves_keeps_move :
    lowerPseudoMoves oddMoves 0 =
      some ([(0, { blockId := 0,
                   insts := [.move (some (.immI32 0)) (some (.reg (vreg 1))),
                             .move (some (.reg (vreg 2))) (some (.frameIndex 0)),
                             .target (createIInst .ADDIW (vreg 3) (vreg 1) 0)] })], 0) ∧
    isMove (.move (some (.immI32 0)) (some (.reg (vreg 1)))) = true := by
  decide

/-- Claim C26, amended: when no move has a null operand, `lowerPseudoMoves` returns, the
blocks keep their ids and their order, and the instructions of every block are the
instructions it had with each one replaced where it stands: a move of a register to
itself by nothing, any other move with a register destination and a register or immediate
source by one or two target instructions, every other instruction by itself. So no move
with a register destination and a register or immediate source remains; a move whose
destination is not a register or whose source is a frame index stays. -/
theorem lowerPseudoMoves_lowers_register_moves (blocks : BlockMap) (next : Nat)
    (hp : ∀ kb ∈ blocks, ∀ i ∈ kb.2.insts, moveOperandsPresent i = true) :
    ∃ out n, lowerPseudoMoves blocks next = some (out, n) ∧
      List.Forall₂ (fun kb kb1 => kb1.1 = kb.1 ∧
        ∃ chunks, List.Forall₂ ReplacedBy kb.2.insts chunks ∧ kb1.2.insts = chunks.flatten)
        blocks out ∧
      ∀ kb1 ∈ out, ∀ o ∈ kb1.2.insts, isLowerableMove o = false := by
  obtain ⟨r, hr⟩ := lowerPseudoMoves_isSome blocks next hp
  obtain ⟨out, n⟩ := r
  exact ⟨out, n, hr, lowerPseudoMoves_spec blocks next out n hr⟩

theorem lowerPseudoMoves_lowers_register_moves_witness :
    (∀ kb ∈ oddMoves, ∀ i ∈ kb.2.insts, moveOperandsPresent i = true) ∧
    ∃ out n, lowerPseudoMoves oddMoves 0 = some (out, n) ∧
      List.Forall₂ (fun kb kb1 => kb1.1 = kb.1 ∧
        ∃ chunks, List.Forall₂ ReplacedBy kb.2.insts chunks ∧ kb1.2.insts = chunks.flatten)
        oddMoves out ∧
      ∀ kb1 ∈ out, ∀ o ∈ kb1.2.insts, isLowerableMove o = false :=
  ⟨by decide, lowerPseudoMoves_lowers_register_moves oddMoves 0 (by decide)⟩

/-! ### RV64 DAG instruction selection: address folding -/

theorem selectAddress_spec (dag : SelectionDAG) (val : Nat → Int) (rank : Nat → Nat)
    (hacyc : Acyclic dag rank) (hwf : AddsBinary dag) (hval : Denotes dag val) :
    ∀ (fuel a : Nat) (out : AddrOut), rank a < fuel →
      ∃ ret res, selectAddress dag fuel (some a) out = some (ret, res) ∧
        (ret = true → ∃ b, res.baseNode = some b ∧
          ((dag b).opcode = .FRAME_INDEX ∨ (dag b).opcode = .SYMBOL) ∧
          wrapI64 (val a) = wrapI64 (val b + res.offset)) ∧
        (ret = false → res = out) := by
  intro fuel
  induction fuel with
  | zero => intro a out h; omega
  | succ fuel ih =>
    intro a out hrank
    simp only [selectAddress]
    by_cases hfi : (dag a).opcode = .FRAME_INDEX ∨ (dag a).opcode = .SYMBOL
    · rw [if_pos hfi]
      refine ⟨true, _, rfl, fun _ => ⟨a, rfl, hfi, by simp⟩, fun h => by simp at h⟩
    · rw [if_neg hfi]
      by_cases hadd : (dag a).opcode = .ADD
      · rw [if_pos hadd]
        obtain ⟨l, r, hl, hr⟩ := hwf a hadd
        have hlmem : some l ∈ (dag a).operands := List.getElem?_mem hl
        have hrmem : some r ∈ (dag a).operands := List.getElem?_mem hr
        have hlr := hacyc a l hlmem
        have hrr := hacyc a r hrmem
        have hva := (hval a).1 l r hadd hl hr
        rw [hl, hr]
        simp only
        obtain ⟨retL, resL, hL, hLt, _⟩ := ih l { baseNode := none, offset := 0 } (by omega)
        rw [hL]
        cases retL with
        | true =>
          simp only
          obtain ⟨b, hb, hbk, hbv⟩ := hLt rfl
          cases hc : constImm (dag r) with
          | some c =>
            simp only
            refine ⟨true, _, rfl, fun _ => ⟨b, hb, hbk, ?_⟩, fun h => by simp at h⟩
            have hvr := (hval r).2 c hc
            simp only
            rw [hva, hvr]
            unfold wrapI64 at hbv ⊢
            omega
          | none =>
            exact ⟨false, out, rfl, fun h => by simp at h, fun _ => rfl⟩
        | false =>
          simp only
          obtain ⟨retR, resR, hR, hRt, _⟩ := ih r { baseNode := none, offset := 0 } (by omega)
          rw [hR]
          cases retR with
          | true =>
            simp only
            obtain ⟨b, hb, hbk, hbv⟩ := hRt rfl
            cases hc : constImm (dag l) with
            | some c =>
              simp only
              refine ⟨true, _, rfl, fun _ => ⟨b, hb, hbk, ?_⟩, fun h => by simp at h⟩
              have hvl := (hval l).2 c hc
              simp only
              rw [hva, hvl]
              unfold wrapI64 at hbv ⊢
              omega
            | none =>
              exact ⟨false, out, rfl, fun h => by simp at h, fun _ => rfl⟩
          | false =>
            exact ⟨false, out, rfl, fun h => by simp at h, fun _ => rfl⟩
      · rw [if_neg hadd]
        exact ⟨false, out, rfl, fun h => by simp at h, fun _ => rfl⟩

/-- Claim C23: on a DAG without cycles whose ADD nodes have two operands, `selectAddress(a)`
returns for every node `a` (a recursion depth above the rank of `a` is enough); when it
returns true with base node `b` and offset `k`, then `b` is a FRAME_INDEX or SYMBOL node and
the value of `a` equals the value of `b` plus `k` as 64-bit integers, for every valuation
that reads ADD nodes as addition and constant nodes as their immediates; when it returns
false, `baseNode` and `offset` of the caller are what they were. -/
theorem selectAddress_consistent (dag : SelectionDAG) (val : Nat → Int) (rank : Nat → Nat)
    (hacyc : Acyclic dag rank) (hwf : AddsBinary dag) (hval : Denotes dag val)
    (a : Nat) (out : AddrOut) :
    ∀ fuel, rank a < fuel →
      ∃ ret res, selectAddress dag fuel (some a) out = some (ret, res) ∧
        (ret = true → ∃ b, res.baseNode = some b ∧
          ((dag b).opcode = .FRAME_INDEX ∨ (dag b).opcode = .SYMBOL) ∧
          wrapI64 (val a) = wrapI64 (val b + res.offset)) ∧
        (ret = false → res = out) :=
  fun fuel h => selectAddress_spec dag val rank hacyc hwf hval fuel a out h

theorem sampleDAG_acyclic : Acyclic sampleDAG id := by
  intro a b h
  match a with
  | 0 => simp [sampleDAG] at h
  | 1 => simp [sampleDAG] at h
  | 2 =>
    simp [sampleDAG] at h
    rcases h with rfl | rfl <;> simp
  | 3 => simp [sampleDAG] at h
  | 4 =>
    simp [sampleDAG] at h
    rcases h with rfl | rfl <;> simp
  | n + 5 => simp [sampleDAG] at h

theorem sampleDAG_addsBinary : AddsBinary sampleDAG := by
  intro a h
  match a with
  | 0 => simp [sampleDAG] at h
  | 1 => simp [sampleDAG] at h
  | 2 => exact ⟨0, 1, rfl, rfl⟩
  | 3 => simp [sampleDAG] at h
  | 4 => exact ⟨3, 2, rfl, rfl⟩
  | n + 5 => simp [sampleDAG] at h

theorem sampleDAG_denotes : Denotes sampleDAG sampleVal := by
  intro a
  match a with
  | 0 => exact ⟨fun l r h => by simp [sampleDAG] at h, fun c h => by simp [sampleDAG, constImm] at h⟩
  | 1 =>
    refine ⟨fun l r h => by simp [sampleDAG] at h, fun c h => ?_⟩
    simp [sampleDAG, constImm] at h
    subst h
    rfl
  | 2 =>
    refine ⟨fun l r _ hl hr => ?_, fun c h => by simp [sampleDAG, constImm] at h⟩
    simp [sampleDAG] at hl hr
    subst hl hr
    decide
  | 3 =>
    refine ⟨fun l r h => by simp [sampleDAG] at h, fun c h => ?_⟩
    simp [sampleDAG, constImm] at h
    subst h
    rfl
  | 4 =>
    refine ⟨fun l r _ hl hr => ?_, fun c h => by simp [sampleDAG, constImm] at h⟩
    simp [sampleDAG] at hl hr
    subst hl hr
    decide
  | n + 5 =>
    exact ⟨fun l r h => by simp [sampleDAG] at h, fun c h => by simp [sampleDAG, constImm] at h⟩

theorem selectAddress_consistent_witness :
    selectAddress sampleDAG 5 (some 4) { baseNode := none, offset := 77 } =
        some (true, { baseNode := some 0, offset := 12 }) ∧
    selectAddress sampleDAG 5 (some 3) { baseNode := none, offset := 77 } =
        some (false, { baseNode := none, offset := 77 }) ∧
    ∃ ret res, selectAddress sampleDAG 5 (some 4) { baseNode := none, offset := 77 } =
        some (ret, res) ∧
      (ret = true → ∃ b, res.baseNode = some b ∧
        ((sampleDAG b).opcode = .FRAME_INDEX ∨ (sampleDAG b).opcode = .SYMBOL) ∧
        wrapI64 (sampleVal 4) = wrapI64 (sampleVal b + res.offset)) ∧
      (ret = false → res = { baseNode := none, offset := 77 }) :=
  ⟨by decide, by decide,
    selectAddress_consistent sampleDAG sampleVal id sampleDAG_acyclic sampleDAG_addsBinary
      sampleDAG_denotes 4 { baseNode := none, offset := 77 } 5 (by decide)⟩

/-! ### AArch64 DAG instruction selection: the MOD node -/

/-- Claim C27: `selectBinary` of the AArch64 target does not expand a MOD node: for a node
with two operands (indeed for any number of operands) it leaves the block as it is, so
no divide, multiply or subtract is emitted, and it raises `ERROR`; for a DIV node on
integer registers it appends the single `SDIV dst, lhs, rhs`. -/
theorem selectBinary_mod_raises_error (dst lhsReg rhsReg : Register)
    (insts : List AArch64.Instr) :
    AArch64.selectBinary 2 .MOD dst lhsReg rhsReg insts = { insts := insts, error := true } ∧
    (∀ n, (AArch64.selectBinary n .MOD dst lhsReg rhsReg insts).insts = insts) ∧
    (dst.dt = some .I32 →
      AArch64.selectBinary 2 .DIV dst lhsReg rhsReg insts =
        { insts := insts ++ [AArch64.createInstr3 .SDIV (.reg dst) (.reg lhsReg) (.reg rhsReg)],
          error := false }) := by
  refine ⟨?_, ?_, ?_⟩
  · simp [AArch64.selectBinary, AArch64.binaryOperator]
  · intro n
    unfold AArch64.selectBinary
    split
    · rfl
    · simp [AArch64.binaryOperator]
  · intro h
    simp [AArch64.selectBinary, AArch64.binaryOperator, h]

/-! ### Linear scan: the sets USE and DEF -/

theorem mem_foldl_useDefStep (insts : List MInstruction) (x : Register) :
    ∀ ud : List Register × List Register,
      (x ∈ (insts.foldl useDefStep ud).1 ↔
        x ∈ ud.1 ∨ ∃ pre i post, insts = pre ++ i :: post ∧ x ∈ enumUses i ∧ x ∉ ud.2 ∧
          ∀ j ∈ pre ++ [i], x ∉ enumDefs j) ∧
      (x ∈ (insts.foldl useDefStep ud).2 ↔ x ∈ ud.2 ∨ ∃ i ∈ insts, x ∈ enumDefs i) := by
  induction insts with
  | nil => intro ud; simp
  | cons hd tl ih =>
    intro ud
    have hU : x ∈ (useDefStep ud hd).1 ↔
        x ∈ ud.1 ∨ (x ∈ enumUses hd ∧ x ∉ ud.2 ∧ x ∉ enumDefs hd) := by
      unfold useDefStep
      simp only
      rw [mem_foldl_newIN, mem_foldl_setInsert]
      tauto
    have hD : x ∈ (useDefStep ud hd).2 ↔ x ∈ ud.2 ∨ x ∈ enumDefs hd := by
      unfold useDefStep
      simp only
      rw [mem_foldl_setInsert]
    obtain ⟨ih1, ih2⟩ := ih (useDefStep ud hd)
    simp only [List.foldl_cons]
    constructor
    · rw [ih1, hU, hD]
      constructor
      · rintro ((h | ⟨h1, h2, h3⟩) | ⟨pre, i, post, he, hu, hnd, hall⟩)
        · exact Or.inl h
        · exact Or.inr ⟨[], hd, tl, rfl, h1, h2, by simpa using h3⟩
        · refine Or.inr ⟨hd :: pre, i, post, by rw [he]; rfl, hu, fun h => hnd (Or.inl h), ?_⟩
          intro j hj
          simp only [List.cons_append, List.mem_cons] at hj
          rcases hj with rfl | hj
          · exact fun h => hnd (Or.inr h)
          · exact hall j hj
      · rintro (h | ⟨pre, i, post, he, hu, hnd, hall⟩)
        · exact Or.inl (Or.inl h)
        · cases pre with
          | nil =>
            simp only [List.nil_append, List.cons.injEq] at he
            obtain ⟨rfl, rfl⟩ := he
            exact Or.inl (Or.inr ⟨hu, hnd, hall _ (by simp)⟩)
          | cons p pre =>
            simp only [List.cons_append, List.cons.injEq] at he
            obtain ⟨rfl, rfl⟩ := he
            refine Or.inr ⟨pre, i, post, rfl, hu, ?_, ?_⟩
            · rintro (h | h)
              · exact hnd h
              · exact hall _ (by simp) h
            · intro j hj
              exact hall j (by simp only [List.cons_append, List.mem_cons]; exact Or.inr hj)
    · rw [ih2, hD]
      simp only [List.mem_cons, exists_eq_or_imp]
      rw [or_assoc]

/-- Claim C28: the loop that builds `USE` and `DEF` enters the registers an instruction
writes into `DEF` before it looks at the registers the instruction reads, so the block
that consists of `ADDIW r, r, 0` has `USE = {}` although `r` is read before anything has
written it. In general `USE[b]` holds the registers `x` read by an instruction `i` of the
block such that neither an earlier instruction nor `i` itself writes `x`; `DEF[b]` holds
the registers written by some instruction of the block. -/
theorem blockUseDef_misses_read_of_self_update :
    (∀ r : Register, blockUseDef [.target (createIInst .ADDIW r r 0)] = ([], [r])) ∧
    (∀ (insts : List MInstruction) (x : Register),
      (x ∈ (blockUseDef insts).1 ↔
        ∃ pre i post, insts = pre ++ i :: post ∧ x ∈ enumUses i ∧
          ∀ j ∈ pre ++ [i], x ∉ enumDefs j) ∧
      (x ∈ (blockUseDef insts).2 ↔ ∃ i ∈ insts, x ∈ enumDefs i)) := by
  constructor
  · intro r
    have hu : enumUses (.target (createIInst .ADDIW r r 0)) = [r] := rfl
    have hd : enumDefs (.target (createIInst .ADDIW r r 0)) = [r] := rfl
    simp only [blockUseDef, List.foldl_cons, List.foldl_nil, useDefStep, hu, hd]
    simp [setInsert]
  · intro insts x
    obtain ⟨h1, h2⟩ := mem_foldl_useDefStep insts x ([], [])
    unfold blockUseDef
    constructor
    · rw [h1]
      simp
    · rw [h2]
      simp

/-! ### Linear scan: the fixed point of the liveness analysis -/

theorem livenessStep_changed (succs : Nat → List Nat) (blocks : BlockMap) (st : LiveState)
    (b : Nat) (h : st.changed = true) : (livenessStep succs blocks st b).changed = true := by
  unfold livenessStep
  simp only
  split
  · exact h
  · rfl

theorem livenessFold_changed (succs : Nat → List Nat) (blocks : BlockMap) (l : List Nat) :
    ∀ st : LiveState, st.changed = true →
      (l.foldl (livenessStep succs blocks) st).changed = true := by
  induction l with
  | nil => intro st h; exact h
  | cons b rest ih =>
    intro st h
    simp only [List.foldl_cons]
    exact ih _ (livenessStep_changed succs blocks st b h)

theorem livenessFold_unchanged (succs : Nat → List Nat) (blocks : BlockMap) (l : List Nat) :
    ∀ st : LiveState, (l.foldl (livenessStep succs blocks) st).changed = false →
      l.foldl (livenessStep succs blocks) st = st ∧
      ∀ b ∈ l, setEq (newOUT succs st.liveIn b) (st.liveOut b) = true ∧
        setEq (newIN (useOf blocks b) (defOf blocks b) (newOUT succs st.liveIn b))
          (st.liveIn b) = true := by
  induction l with
  | nil => intro st _; exact ⟨rfl, by simp⟩
  | cons b rest ih =>
    intro st h
    simp only [List.foldl_cons] at h ⊢
    by_cases hc : (setEq (newOUT succs st.liveIn b) (st.liveOut b) &&
        setEq (newIN (useOf blocks b) (defOf blocks b) (newOUT succs st.liveIn b))
          (st.liveIn b)) = true
    · have hst : livenessStep succs blocks st b = st := by
        unfold livenessStep
        simp only
        rw [if_pos hc]
      rw [hst] at h ⊢
      obtain ⟨h1, h2⟩ := ih st h
      refine ⟨h1, ?_⟩
      intro c hcm
      rcases List.mem_cons.mp hcm with rfl | hcm
      · simpa using hc
      · exact h2 c hcm
    · exfalso
      have hst : (livenessStep succs blocks st b).changed = true := by
        unfold livenessStep
        simp only
        rw [if_neg hc]
      have := livenessFold_changed succs blocks rest _ hst
      rw [this] at h
      exact Bool.noConfusion h

theorem livenessLoop_fixpoint (succs : Nat → List Nat) (blocks : BlockMap) :
    ∀ (fuel : Nat) (st r : LiveState), livenessLoop succs blocks fuel st = some r →
      ∀ b ∈ blocks.map (fun kb => kb.1),
        setEq (newOUT succs r.liveIn b) (r.liveOut b) = true ∧
        setEq (newIN (useOf blocks b) (defOf blocks b) (newOUT succs r.liveIn b))
          (r.liveIn b) = true := by
  intro fuel
  induction fuel with
  | zero => intro st r h; simp [livenessLoop] at h
  | succ fuel ih =>
    intro st r h
    simp only [livenessLoop] at h
    split at h
    · exact ih _ r h
    · rename_i hc
      simp only [Option.some.injEq] at h
      subst h
      have hc2 : (livenessPass succs blocks st).changed = false := by simpa using hc
      unfold livenessPass at hc2 ⊢
      obtain ⟨h1, h2⟩ := livenessFold_unchanged succs blocks _ _ hc2
      rw [h1]
      exact h2

/-- The sets of `st` lie within the pair `(I, O)`. -/
theorem livenessStep_below (succs : Nat → List Nat) (blocks : BlockMap)
    (I O : Nat → Register → Prop) (l : List Nat)
    (hO : ∀ b ∈ l, ∀ x, (∃ s ∈ succs b, I s x) → O b x)
    (hI : ∀ b ∈ l, ∀ x, (x ∈ useOf blocks b ∨ (O b x ∧ x ∉ defOf blocks b)) → I b x)
    (st : LiveState) (b : Nat) (hb : b ∈ l)
    (h : (∀ c x, x ∈ st.liveIn c → I c x) ∧ (∀ c x, x ∈ st.liveOut c → O c x)) :
    (∀ c x, x ∈ (livenessStep succs blocks st b).liveIn c → I c x) ∧
    (∀ c x, x ∈ (livenessStep succs blocks st b).liveOut c → O c x) := by
  obtain ⟨h1, h2⟩ := h
  have hout : ∀ x, x ∈ newOUT succs st.liveIn b → O b x := by
    intro x hx
    obtain ⟨s, hs, hxs⟩ := (mem_newOUT _ _ _ _).mp hx
    exact hO b hb x ⟨s, hs, h1 s x hxs⟩
  have hin : ∀ x, x ∈ newIN (useOf blocks b) (defOf blocks b) (newOUT succs st.liveIn b) →
      I b x := by
    intro x hx
    rcases (mem_newIN _ _ _ _).mp hx with hu | ⟨ho, hd⟩
    · exact hI b hb x (Or.inl hu)
    · exact hI b hb x (Or.inr ⟨hout x ho, hd⟩)
  unfold livenessStep
  simp only
  split
  · exact ⟨h1, h2⟩
  · constructor
    · intro c x hx
      dsimp only at hx
      by_cases hcb : c = b
      · subst hcb
        rw [Function.update_same] at hx
        exact hin x hx
      · rw [Function.update_noteq hcb] at hx
        exact h1 c x hx
    · intro c x hx
      dsimp only at hx
      by_cases hcb : c = b
      · subst hcb
        rw [Function.update_same] at hx
        exact hout x hx
      · rw [Function.update_noteq hcb] at hx
        exact h2 c x hx

theorem livenessFold_below (succs : Nat → List Nat) (blocks : BlockMap)
    (I O : Nat → Register → Prop) (l : List Nat)
    (hO : ∀ b ∈ l, ∀ x, (∃ s ∈ succs b, I s x) → O b x)
    (hI : ∀ b ∈ l, ∀ x, (x ∈ useOf blocks b ∨ (O b x ∧ x ∉ defOf blocks b)) → I b x)
    (l1 : List Nat) (hl1 : ∀ b ∈ l1, b ∈ l) :
    ∀ st : LiveState,
      ((∀ c x, x ∈ st.liveIn c → I c x) ∧ (∀ c x, x ∈ st.liveOut c → O c x)) →
      (∀ c x, x ∈ (l1.foldl (livenessStep succs blocks) st).liveIn c → I c x) ∧
      (∀ c x, x ∈ (l1.foldl (livenessStep succs blocks) st).liveOut c → O c x) := by
  induction l1 with
  | nil => intro st h; exact h
  | cons b rest ih =>
    intro st h
    simp only [List.foldl_cons]
    exact ih (fun c hc => hl1 c (List.mem_cons_of_mem _ hc)) _
      (livenessStep_below succs blocks I O l hO hI st b (hl1 b (List.mem_cons_self _ _)) h)

theorem livenessLoop_below (succs : Nat → List Nat) (blocks : BlockMap)
    (I O : Nat → Register → Prop)
    (hO : ∀ b ∈ blocks.map (fun kb => kb.1), ∀ x, (∃ s ∈ succs b, I s x) → O b x)
    (hI : ∀ b ∈ blocks.map (fun kb => kb.1), ∀ x,
      (x ∈ useOf blocks b ∨ (O b x ∧ x ∉ defOf blocks b)) → I b x) :
    ∀ (fuel : Nat) (st r : LiveState), livenessLoop succs blocks fuel st = some r →
      ((∀ c x, x ∈ st.liveIn c → I c x) ∧ (∀ c x, x ∈ st.liveOut c → O c x)) →
      (∀ c x, x ∈ r.liveIn c → I c x) ∧ (∀ c x, x ∈ r.liveOut c → O c x) := by
  intro fuel
  induction fuel with
  | zero => intro st r h; simp [livenessLoop] at h
  | succ fuel ih =>
    intro st r h hst
    have hpass : (∀ c x, x ∈ (livenessPass succs blocks st).liveIn c → I c x) ∧
        (∀ c x, x ∈ (livenessPass succs blocks st).liveOut c → O c x) := by
      unfold livenessPass
      exact livenessFold_below succs blocks I O _ hO hI _ (fun b hb => hb) _ hst
    simp only [livenessLoop] at h
    split at h
    · exact ih _ r h hpass
    · simp only [Option.some.injEq] at h
      subst h
      exact hpass

/-- Claim C29: for every function and every successor map the loop `while (changed)` stops
(more rounds than `liveBound` are never needed), and then every block `b` of the function
has `OUT[b]` equal to the union of `IN[s]` over the successors `s` of `b` and `IN[b]` equal
to `USE[b]` joined with `OUT[b]` less `DEF[b]`; the sets are the least such: they lie
within every pair of families `I`, `O` that is closed under the two equations. -/
theorem livenessLoop_least_fixpoint (succs : Nat → List Nat) (blocks : BlockMap) :
    ∀ fuel, liveBound blocks < fuel →
      ∃ r, livenessLoop succs blocks fuel emptyLive = some r ∧
        (∀ b ∈ blocks.map (fun kb => kb.1),
          (∀ x, x ∈ r.liveOut b ↔ ∃ s ∈ succs b, x ∈ r.liveIn s) ∧
          (∀ x, x ∈ r.liveIn b ↔
            x ∈ useOf blocks b ∨ (x ∈ r.liveOut b ∧ x ∉ defOf blocks b))) ∧
        (∀ I O : Nat → Register → Prop,
          (∀ b ∈ blocks.map (fun kb => kb.1), ∀ x, (∃ s ∈ succs b, I s x) → O b x) →
          (∀ b ∈ blocks.map (fun kb => kb.1), ∀ x,
            (x ∈ useOf blocks b ∨ (O b x ∧ x ∉ defOf blocks b)) → I b x) →
          ∀ b x, (x ∈ r.liveIn b → I b x) ∧ (x ∈ r.liveOut b → O b x)) := by
  intro fuel hfuel
  obtain ⟨r, hr, _⟩ := livenessLoop_terminates succs blocks fuel emptyLive
    (liveInv_emptyLive succs blocks) (by omega)
  refine ⟨r, hr, ?_, ?_⟩
  · intro b hb
    obtain ⟨h1, h2⟩ := livenessLoop_fixpoint succs blocks fuel emptyLive r hr b hb
    rw [setEq_iff] at h1 h2
    have hout : ∀ x, x ∈ r.liveOut b ↔ ∃ s ∈ succs b, x ∈ r.liveIn s := by
      intro x
      rw [← h1 x, mem_newOUT]
    refine ⟨hout, ?_⟩
    intro x
    rw [← h2 x, mem_newIN, mem_newOUT, ← hout x]
  · intro I O hO hI b x
    have := livenessLoop_below succs blocks I O hO hI fuel emptyLive r hr
      ⟨fun c y hy => by simp [emptyLive] at hy, fun c y hy => by simp [emptyLive] at hy⟩
    exact ⟨this.1 b x, this.2 b x⟩

theorem livenessLoop_least_fixpoint_witness :
    (livenessLoop physLoopSuccs physLoop.blocks 4 emptyLive).map
        (fun st => (st.liveIn 1, st.liveOut 1)) =
      some ([PR.s1, PR.x0, PR.ra], [PR.s1, PR.x0, PR.ra]) ∧
    ∃ r, livenessLoop physLoopSuccs physLoop.blocks (liveBound physLoop.blocks + 1) emptyLive
        = some r ∧
      (∀ b ∈ physLoop.blocks.map (fun kb => kb.1),
        (∀ x, x ∈ r.liveOut b ↔ ∃ s ∈ physLoopSuccs b, x ∈ r.liveIn s) ∧
        (∀ x, x ∈ r.liveIn b ↔
          x ∈ useOf physLoop.blocks b ∨ (x ∈ r.liveOut b ∧ x ∉ defOf physLoop.blocks b))) ∧
      (∀ I O : Nat → Register → Prop,
        (∀ b ∈ physLoop.blocks.map (fun kb => kb.1), ∀ x,
          (∃ s ∈ physLoopSuccs b, I s x) → O b x) →
        (∀ b ∈ physLoop.blocks.map (fun kb => kb.1), ∀ x,
          (x ∈ useOf physLoop.blocks b ∨ (O b x ∧ x ∉ defOf physLoop.blocks b)) → I b x) →
        ∀ b x, (x ∈ r.liveIn b → I b x) ∧ (x ∈ r.liveOut b → O b x)) :=
  ⟨by decide,
    livenessLoop_least_fixpoint physLoopSuccs physLoop.blocks _ (Nat.lt_succ_self _)⟩

/-! ### Linear scan: the allocation loop -/

theorem intervalStart_eq (a : Interval) :
    intervalStart a = (a.segs.head?.getD { start := 0, endPos := 0 }).start := by
  unfold intervalStart
  cases a.segs.head? <;> rfl

theorem intervalOrder_true (a b : Interval) (h : intervalOrder a b = true) :
    intervalStart a ≤ intervalStart b := by
  rw [intervalStart_eq, intervalStart_eq]
  unfold intervalOrder at h
  simp only at h
  split at h
  · have := of_decide_eq_true h
    omega
  · rename_i heq
    simp only [ne_eq, not_not] at heq
    omega

theorem intervalOrder_false (a b : Interval) (h : intervalOrder a b = false) :
    intervalStart b ≤ intervalStart a := by
  rw [intervalStart_eq, intervalStart_eq]
  unfold intervalOrder at h
  simp only at h
  split at h
  · have := of_decide_eq_false h
    omega
  · rename_i heq
    simp only [ne_eq, not_not] at heq
    omega

theorem orderedInsert_sorted (x : Interval) (l : List Interval)
    (h : l.Pairwise (fun a b => intervalStart a ≤ intervalStart b)) :
    (orderedInsert x l).Pairwise (fun a b => intervalStart a ≤ intervalStart b) := by
  induction l with
  | nil => simp [orderedInsert]
  | cons y ys ih =>
    rw [List.pairwise_cons] at h
    simp only [orderedInsert]
    cases hxy : intervalOrder x y with
    | true =>
      simp only [if_true]
      have hle := intervalOrder_true x y hxy
      rw [List.pairwise_cons]
      refine ⟨?_, List.pairwise_cons.mpr h⟩
      intro z hz
      rcases List.mem_cons.mp hz with rfl | hz
      · exact hle
      · exact le_trans hle (h.1 z hz)
    | false =>
      simp only [Bool.false_eq_true, if_false]
      have hle := intervalOrder_false x y hxy
      rw [List.pairwise_cons]
      refine ⟨?_, ih h.2⟩
      intro z hz
      rcases (mem_orderedInsert x z ys).mp hz with rfl | hz
      · exact hle
      · exact h.1 z hz

theorem sortIntervals_sorted (l : List Interval) :
    (sortIntervals l).Pairwise (fun a b => intervalStart a ≤ intervalStart b) := by
  induction l with
  | nil => simp [sortIntervals]
  | cons hd tl ih =>
    unfold sortIntervals at ih ⊢
    simp only [List.foldr_cons]
    exact orderedInsert_sorted hd _ ih

theorem orderedInsert_perm (x : Interval) (l : List Interval) :
    (orderedInsert x l).Perm (x :: l) := by
  induction l with
  | nil => simp [orderedInsert]
  | cons y ys ih =>
    simp only [orderedInsert]
    split
    · exact List.Perm.refl _
    · exact (List.Perm.cons y ih).trans (List.Perm.swap x y ys)

theorem sortIntervals_perm (l : List Interval) : (sortIntervals l).Perm l := by
  induction l with
  | nil => simp [sortIntervals]
  | cons hd tl ih =>
    unfold sortIntervals at ih ⊢
    simp only [List.foldr_cons]
    exact (orderedInsert_perm hd _).trans (List.Perm.cons hd ih)

theorem pickVictim_mem (assigned : List (Register × Nat)) (calleeSaved : List Nat)
    (current : Interval) (l : List Interval) :
    ∀ (acc : Option Interval × Int) (v : Interval),
      (pickVictim assigned calleeSaved current l acc).1 = some v → v ∈ l ∨ acc.1 = some v := by
  induction l with
  | nil => intro acc v h; exact Or.inr h
  | cons hd tl ih =>
    intro acc v h
    simp only [pickVictim] at h
    split at h
    · rcases ih acc v h with h1 | h1
      · exact Or.inl (List.mem_cons_of_mem _ h1)
      · exact Or.inr h1
    · split at h
      · rcases ih acc v h with h1 | h1
        · exact Or.inl (List.mem_cons_of_mem _ h1)
        · exact Or.inr h1
      · split at h
        · rcases ih _ v h with h1 | h1
          · exact Or.inl (List.mem_cons_of_mem _ h1)
          · simp only [Option.some.injEq] at h1
            subst h1
            exact Or.inl (List.mem_cons_self _ _)
        · rcases ih acc v h with h1 | h1
          · exact Or.inl (List.mem_cons_of_mem _ h1)
          · exact Or.inr h1

theorem mem_expireOld (active : List Interval) (pos : Int) (x : Interval) :
    x ∈ expireOld active pos ↔ x ∈ active ∧ ¬ intervalEnd x ≤ pos := by
  unfold expireOld
  simp [List.mem_filter]

theorem regInUse_false (assigned : List (Register × Nat)) (active : List Interval) (r : Nat)
    (h : regInUse assigned active r = false) :
    ∀ x ∈ active, assigned.lookup x.vreg ≠ some r := by
  unfold regInUse at h
  intro x hx heq
  have : active.any (fun itv => assigned.lookup itv.vreg == some r) = true := by
    rw [List.any_eq_true]
    exact ⟨x, hx, by simp [heq]⟩
  rw [this] at h
  exact Bool.noConfusion h

theorem allocateStep_inv (assigned0 : List (Register × Nat)) (allRegs : List Nat)
    (calleeOnly orderCallerFirst calleeSaved : List Nat)
    (hco : ∀ r ∈ calleeOnly, r ∈ allRegs) (hcf : ∀ r ∈ orderCallerFirst, r ∈ allRegs)
    (pre : List Interval) (st : AllocState) (c : Interval)
    (hinv : AllocInv assigned0 allRegs pre st)
    (hfresh : ∀ x ∈ pre, x.vreg ≠ c.vreg)
    (hsorted : ∀ x ∈ pre, intervalStart x ≤ intervalStart c)
    (hc0 : assigned0.lookup c.vreg = none) :
    AllocInv assigned0 allRegs (pre ++ [c])
      (allocateStep calleeOnly orderCallerFirst calleeSaved st c) := by
  obtain ⟨i1, i2, i3, i4, i0⟩ := hinv
  have hcnone : st.assignedPhys.lookup c.vreg = none := by
    rw [i0 c.vreg hfresh, hc0]
  have hexp : ∀ x, x ∈ expireOld st.active (intervalStart c) ↔
      x ∈ st.active ∧ ¬ intervalEnd x ≤ intervalStart c := mem_expireOld _ _
  have hmemc : ∀ x, x ∈ pre ++ [c] ↔ x ∈ pre ∨ x = c := by
    intro x; simp
  -- an interval visited before that has a register and is not active any more
  -- has ended before `c` starts
  have hgone : ∀ x ∈ pre, ∀ r, st.assignedPhys.lookup x.vreg = some r →
      x ∉ expireOld st.active (intervalStart c) → intervalEnd x ≤ intervalStart c := by
    intro x hx r hr hnot
    rcases (i3 x hx r hr).2 with hact | ⟨c1, hc1, hle⟩
    · by_contra hgt
      exact hnot ((hexp x).mpr ⟨hact, hgt⟩)
    · exact le_trans hle (hsorted c1 hc1)
  unfold allocateStep
  simp only
  split
  · -- a free register is chosen
    rename_i chosen hfind
    have hchosen : chosen ∈ allRegs := by
      have hm := List.mem_of_find?_eq_some hfind
      split at hm
      · exact hco _ hm
      · exact hcf _ hm
    have hfree := regInUse_false _ _ _ (by
      have := List.find?_some hfind
      simpa using this)
    have hl : ∀ k, k ≠ c.vreg →
        (regMapInsert c.vreg chosen st.assignedPhys).lookup k = st.assignedPhys.lookup k :=
      fun k hk => lookup_regMapInsert_ne _ _ _ _ hk
    have hlc : (regMapInsert c.vreg chosen st.assignedPhys).lookup c.vreg = some chosen :=
      lookup_regMapInsert_self _ _ _
    refine ⟨?_, ?_, ?_, ?_, ?_⟩
    · intro x hx
      simp only [List.mem_append, List.mem_singleton] at hx
      rcases hx with hx | rfl
      · have hxa := ((hexp x).mp hx).1
        obtain ⟨hxp, r, hr⟩ := i1 x hxa
        exact ⟨(hmemc x).mpr (Or.inl hxp), r, by rw [hl _ (hfresh x hxp)]; exact hr⟩
      · exact ⟨(hmemc x).mpr (Or.inr rfl), chosen, hlc⟩
    · intro x hx y hy heq
      simp only [List.mem_append, List.mem_singleton] at hx hy
      rcases hx with hx | rfl
      · have hxa := ((hexp x).mp hx).1
        have hxp := (i1 x hxa).1
        rcases hy with hy | rfl
        · have hya := ((hexp y).mp hy).1
          have hyp := (i1 y hya).1
          rw [hl _ (hfresh x hxp), hl _ (hfresh y hyp)] at heq
          exact i2 x hxa y hya heq
        · rw [hl _ (hfresh x hxp), hlc] at heq
          exact absurd heq (hfree x hx)
      · rcases hy with hy | rfl
        · have hya := ((hexp y).mp hy).1
          have hyp := (i1 y hya).1
          rw [hl _ (hfresh y hyp), hlc] at heq
          exact absurd heq.symm (hfree y hy)
        · rfl
    · intro x hx r hr
      rcases (hmemc x).mp hx with hxp | rfl
      · rw [hl _ (hfresh x hxp)] at hr
        refine ⟨(i3 x hxp r hr).1, ?_⟩
        by_cases hin : x ∈ expireOld st.active (intervalStart c)
        · exact Or.inl (List.mem_append.mpr (Or.inl hin))
        · exact Or.inr ⟨c, (hmemc c).mpr (Or.inr rfl), hgone x hxp r hr hin⟩
      · rw [hlc] at hr
        simp only [Option.some.injEq] at hr
        subst hr
        exact ⟨hchosen, Or.inl (List.mem_append.mpr (Or.inr (List.mem_singleton.mpr rfl)))⟩
    · intro x hx y hy hne r hrx hry
      rcases (hmemc x).mp hx with hxp | rfl
      · rw [hl _ (hfresh x hxp)] at hrx
        rcases (hmemc y).mp hy with hyp | rfl
        · rw [hl _ (hfresh y hyp)] at hry
          exact i4 x hxp y hyp hne r hrx hry
        · rw [hlc] at hry
          simp only [Option.some.injEq] at hry
          subst hry
          refine Or.inl (hgone x hxp _ hrx ?_)
          intro hin
          exact hfree x hin hrx
      · rcases (hmemc y).mp hy with hyp | rfl
        · rw [hl _ (hfresh y hyp)] at hry
          rw [hlc] at hrx
          simp only [Option.some.injEq] at hrx
          subst hrx
          refine Or.inr (hgone y hyp _ hry ?_)
          intro hin
          exact hfree y hin hry
        · exact absurd rfl hne
    · intro k hk
      have hkc : k ≠ c.vreg := fun h => hk c ((hmemc c).mpr (Or.inr rfl)) h.symm
      rw [hl _ hkc]
      exact i0 k (fun x hx => hk x ((hmemc x).mpr (Or.inl hx)))
  · split
    · -- a victim gives its register to `c`
      rename_i victim hvict
      obtain ⟨pv, hpv, _⟩ := pickVictim_spec st.assignedPhys calleeSaved c _
        (none, intervalEnd c) (fun v hv => by simp at hv) victim hvict
      have hvin : victim ∈ expireOld st.active (intervalStart c) := by
        rcases pickVictim_mem st.assignedPhys calleeSaved c _ _ victim hvict with h | h
        · exact h
        · simp at h
      have hva := ((hexp victim).mp hvin).1
      have hvp := (i1 victim hva).1
      have hvc : victim.vreg ≠ c.vreg := hfresh victim hvp
      have hl : ∀ k, k ≠ c.vreg → k ≠ victim.vreg →
          (regMapInsert c.vreg ((st.assignedPhys.lookup victim.vreg).getD 0)
            (regMapErase victim.vreg st.assignedPhys)).lookup k = st.assignedPhys.lookup k := by
        intro k hk1 hk2
        rw [lookup_regMapInsert_ne _ _ _ _ hk1, lookup_regMapErase_ne _ _ _ hk2]
      have hlc : (regMapInsert c.vreg ((st.assignedPhys.lookup victim.vreg).getD 0)
          (regMapErase victim.vreg st.assignedPhys)).lookup c.vreg = some pv := by
        rw [lookup_regMapInsert_self, hpv]
        rfl
      have hlv : (regMapInsert c.vreg ((st.assignedPhys.lookup victim.vreg).getD 0)
          (regMapErase victim.vreg st.assignedPhys)).lookup victim.vreg = none := by
        rw [lookup_regMapInsert_ne _ _ _ _ hvc, lookup_regMapErase_self]
      have hmemf : ∀ x, x ∈ (expireOld st.active (intervalStart c)).filter
          (fun itv => !decide (itv.vreg = victim.vreg)) ↔
          x ∈ expireOld st.active (intervalStart c) ∧ x.vreg ≠ victim.vreg := by
        intro x
        simp [List.mem_filter]
      -- an interval other than the victim with the register of the victim is not active
      have hother : ∀ x ∈ pre, x.vreg ≠ victim.vreg → st.assignedPhys.lookup x.vreg = some pv →
          x ∉ expireOld st.active (intervalStart c) := by
        intro x _ hxv hr hin
        have hxa := ((hexp x).mp hin).1
        have := i2 x hxa victim hva (by rw [hr, hpv])
        exact hxv (by rw [this])
      refine ⟨?_, ?_, ?_, ?_, ?_⟩
      · intro x hx
        simp only [List.mem_append, List.mem_singleton] at hx
        rcases hx with hx | rfl
        · obtain ⟨hxe, hxv⟩ := (hmemf x).mp hx
          have hxa := ((hexp x).mp hxe).1
          obtain ⟨hxp, r, hr⟩ := i1 x hxa
          exact ⟨(hmemc x).mpr (Or.inl hxp), r, by rw [hl _ (hfresh x hxp) hxv]; exact hr⟩
        · exact ⟨(hmemc x).mpr (Or.inr rfl), pv, hlc⟩
      · intro x hx y hy heq
        simp only [List.mem_append, List.mem_singleton] at hx hy
        rcases hx with hx | rfl
        · obtain ⟨hxe, hxv⟩ := (hmemf x).mp hx
          have hxa := ((hexp x).mp hxe).1
          have hxp := (i1 x hxa).1
          rcases hy with hy | rfl
          · obtain ⟨hye, hyv⟩ := (hmemf y).mp hy
            have hya := ((hexp y).mp hye).1
            have hyp := (i1 y hya).1
            rw [hl _ (hfresh x hxp) hxv, hl _ (hfresh y hyp) hyv] at heq
            exact i2 x hxa y hya heq
          · rw [hl _ (hfresh x hxp) hxv, hlc] at heq
            exact absurd hxe (hother x hxp hxv heq)
        · rcases hy with hy | rfl
          · obtain ⟨hye, hyv⟩ := (hmemf y).mp hy
            have hya := ((hexp y).mp hye).1
            have hyp := (i1 y hya).1
            rw [hl _ (hfresh y hyp) hyv, hlc] at heq
            exact absurd hye (hother y hyp hyv heq.symm)
          · rfl
      · intro x hx r hr
        rcases (hmemc x).mp hx with hxp | rfl
        · have hxv : x.vreg ≠ victim.vreg := by
            intro h
            rw [h, hlv] at hr
            exact Option.noConfusion hr
          rw [hl _ (hfresh x hxp) hxv] at hr
          refine ⟨(i3 x hxp r hr).1, ?_⟩
          by_cases hin : x ∈ expireOld st.active (intervalStart c)
          · exact Or.inl (List.mem_append.mpr (Or.inl ((hmemf x).mpr ⟨hin, hxv⟩)))
          · exact Or.inr ⟨c, (hmemc c).mpr (Or.inr rfl), hgone x hxp r hr hin⟩
        · rw [hlc] at hr
          simp only [Option.some.injEq] at hr
          subst hr
          exact ⟨(i3 victim hvp pv hpv).1,
            Or.inl (List.mem_append.mpr (Or.inr (List.mem_singleton.mpr rfl)))⟩
      · intro x hx y hy hne r hrx hry
        have hnv : ∀ z ∈ pre, ∀ q, (regMapInsert c.vreg
            ((st.assignedPhys.lookup victim.vreg).getD 0)
            (regMapErase victim.vreg st.assignedPhys)).lookup z.vreg = some q →
            z.vreg ≠ victim.vreg ∧ st.assignedPhys.lookup z.vreg = some q := by
          intro z hz q hq
          have hzv : z.vreg ≠ victim.vreg := by
            intro h
            rw [h, hlv] at hq
            exact Option.noConfusion hq
          rw [hl _ (hfresh z hz) hzv] at hq
          exact ⟨hzv, hq⟩
        rcases (hmemc x).mp hx with hxp | rfl
        · obtain ⟨hxv, hrx1⟩ := hnv x hxp r hrx
          rcases (hmemc y).mp hy with hyp | rfl
          · obtain ⟨_, hry1⟩ := hnv y hyp r hry
            exact i4 x hxp y hyp hne r hrx1 hry1
          · rw [hlc] at hry
            simp only [Option.some.injEq] at hry
            subst hry
            exact Or.inl (hgone x hxp _ hrx1 (hother x hxp hxv hrx1))
        · rcases (hmemc y).mp hy with hyp | rfl
          · obtain ⟨hyv, hry1⟩ := hnv y hyp r hry
            rw [hlc] at hrx
            simp only [Option.some.injEq] at hrx
            subst hrx
            exact Or.inr (hgone y hyp _ hry1 (hother y hyp hyv hry1))
          · exact absurd rfl hne
      · intro k hk
        have hkc : k ≠ c.vreg := fun h => hk c ((hmemc c).mpr (Or.inr rfl)) h.symm
        have hkv : k ≠ victim.vreg := fun h => hk victim ((hmemc victim).mpr (Or.inl hvp)) h.symm
        rw [hl _ hkc hkv]
        exact i0 k (fun x hx => hk x ((hmemc x).mpr (Or.inl hx)))
    · -- `c` itself is spilled
      refine ⟨?_, ?_, ?_, ?_, ?_⟩
      · intro x hx
        have hxa := ((hexp x).mp hx).1
        obtain ⟨hxp, r, hr⟩ := i1 x hxa
        exact ⟨(hmemc x).mpr (Or.inl hxp), r, hr⟩
      · intro x hx y hy heq
        exact i2 x ((hexp x).mp hx).1 y ((hexp y).mp hy).1 heq
      · intro x hx r hr
        rcases (hmemc x).mp hx with hxp | rfl
        · refine ⟨(i3 x hxp r hr).1, ?_⟩
          by_cases hin : x ∈ expireOld st.active (intervalStart c)
          · exact Or.inl hin
          · exact Or.inr ⟨c, (hmemc c).mpr (Or.inr rfl), hgone x hxp r hr hin⟩
        · simp only at hr
          rw [hcnone] at hr
          exact Option.noConfusion hr
      · intro x hx y hy hne r hrx hry
        simp only at hrx hry
        rcases (hmemc x).mp hx with hxp | rfl
        · rcases (hmemc y).mp hy with hyp | rfl
          · exact i4 x hxp y hyp hne r hrx hry
          · rw [hcnone] at hry
            exact Option.noConfusion hry
        · rw [hcnone] at hrx
          exact Option.noConfusion hrx
      · intro k hk
        exact i0 k (fun x hx => hk x ((hmemc x).mpr (Or.inl hx)))

theorem allocInv_init (assigned0 : List (Register × Nat)) (allRegs : List Nat)
    (spill : SpillState) :
    AllocInv assigned0 allRegs [] { assignedPhys := assigned0, spill := spill, active := [] } := by
  refine ⟨?_, ?_, ?_, ?_, ?_⟩
  · intro x hx; simp at hx
  · intro x hx; simp at hx
  · intro x hx; simp at hx
  · intro x hx; simp at hx
  · intro k _; rfl

theorem foldl_allocateStep_inv (assigned0 : List (Register × Nat)) (allRegs : List Nat)
    (calleeOnly orderCallerFirst calleeSaved : List Nat)
    (hco : ∀ r ∈ calleeOnly, r ∈ allRegs) (hcf : ∀ r ∈ orderCallerFirst, r ∈ allRegs)
    (suf : List Interval) :
    ∀ (pre : List Interval) (st : AllocState), AllocInv assigned0 allRegs pre st →
      ((pre ++ suf).map (fun x => x.vreg)).Nodup →
      (pre ++ suf).Pairwise (fun a b => intervalStart a ≤ intervalStart b) →
      (∀ x ∈ suf, assigned0.lookup x.vreg = none) →
      AllocInv assigned0 allRegs (pre ++ suf)
        (suf.foldl (allocateStep calleeOnly orderCallerFirst calleeSaved) st) := by
  induction suf with
  | nil => intro pre st h _ _ _; simpa using h
  | cons c rest ih =>
    intro pre st h hnd hs h0
    have hfresh : ∀ x ∈ pre, x.vreg ≠ c.vreg := by
      intro x hx heq
      rw [List.map_append, List.nodup_append] at hnd
      exact hnd.2.2 (List.mem_map_of_mem _ hx)
        (by rw [heq]; exact List.mem_map_of_mem _ (List.mem_cons_self c rest))
    have hsorted : ∀ x ∈ pre, intervalStart x ≤ intervalStart c := by
      intro x hx
      rw [List.pairwise_append] at hs
      exact hs.2.2 x hx c (List.mem_cons_self _ _)
    have hstep := allocateStep_inv assigned0 allRegs calleeOnly orderCallerFirst calleeSaved
      hco hcf pre st c h hfresh hsorted (h0 c (List.mem_cons_self _ _))
    have heq : pre ++ c :: rest = (pre ++ [c]) ++ rest := by simp
    simp only [List.foldl_cons]
    rw [heq] at hnd hs ⊢
    exact ih (pre ++ [c]) _ hstep hnd hs (fun x hx => h0 x (List.mem_cons_of_mem _ hx))

theorem mem_buildOrder (all callee : List Nat) (b : Bool) (r : Nat)
    (h : r ∈ buildOrder all callee b) : r ∈ all := by
  unfold buildOrder at h
  split at h
  · exact h
  · split at h <;>
      (rcases List.mem_append.mp h with h1 | h1 <;> exact (List.mem_filter.mp h1).1)

theorem allocateForClass_eq (work : List Interval) (allRegs calleeSaved : List Nat)
    (assigned : List (Register × Nat)) (spill : SpillState) :
    allocateForClass work allRegs calleeSaved assigned spill =
      (sortIntervals work).foldl
        (allocateStep (allRegs.filter (fun r => decide (r ∈ calleeSaved)))
          (buildOrder allRegs calleeSaved false) calleeSaved)
        { assignedPhys := assigned, spill := spill, active := [] } := by
  unfold allocateForClass
  split
  · rename_i h
    have : work = [] := by simpa using h
    subst this
    rfl
  · rfl

theorem sortIntervals_nodup (work : List Interval)
    (h : (work.map (fun x => x.vreg)).Nodup) :
    ((sortIntervals work).map (fun x => x.vreg)).Nodup :=
  (((sortIntervals_perm work).map (fun x => x.vreg)).nodup_iff).mpr h

/-- The loop over the sorted prefix `pre` of the work list keeps `AllocInv`. -/
theorem allocLoop_inv (work : List Interval) (allRegs calleeSaved : List Nat)
    (assigned : List (Register × Nat)) (spill : SpillState)
    (hnd : (work.map (fun x => x.vreg)).Nodup)
    (h0 : ∀ x ∈ work, assigned.lookup x.vreg = none)
    (pre suf : List Interval) (hsplit : sortIntervals work = pre ++ suf) :
    AllocInv assigned allRegs pre
      (pre.foldl
        (allocateStep (allRegs.filter (fun r => decide (r ∈ calleeSaved)))
          (buildOrder allRegs calleeSaved false) calleeSaved)
        { assignedPhys := assigned, spill := spill, active := [] }) := by
  have hnd1 := sortIntervals_nodup work hnd
  have hs1 := sortIntervals_sorted work
  rw [hsplit] at hnd1 hs1
  rw [List.map_append, List.nodup_append] at hnd1
  rw [List.pairwise_append] at hs1
  have := foldl_allocateStep_inv assigned allRegs
    (allRegs.filter (fun r => decide (r ∈ calleeSaved))) (buildOrder allRegs calleeSaved false)
    calleeSaved (fun r hr => (List.mem_filter.mp hr).1) (fun r hr => mem_buildOrder _ _ _ r hr)
    pre [] _ (allocInv_init assigned allRegs spill) (by simpa using hnd1.1)
    (by simpa using hs1.1)
    (fun x hx => h0 x ((mem_sortIntervals x work).mp (by rw [hsplit]; simp [hx])))
  simpa using this

theorem allocateForClass_inv (work : List Interval) (allRegs calleeSaved : List Nat)
    (assigned : List (Register × Nat)) (spill : SpillState)
    (hnd : (work.map (fun x => x.vreg)).Nodup)
    (h0 : ∀ x ∈ work, assigned.lookup x.vreg = none) :
    AllocInv assigned allRegs (sortIntervals work)
      (allocateForClass work allRegs calleeSaved assigned spill) := by
  rw [allocateForClass_eq]
  exact allocLoop_inv work allRegs calleeSaved assigned spill hnd h0 (sortIntervals work) []
    (by simp)

theorem int_not_float (x : Interval) (hi : isIntInterval x = true)
    (hf : isFloatInterval x = true) : False := by
  unfold isIntInterval at hi
  unfold isFloatInterval at hf
  cases hd : x.vreg.dt with
  | none => simp [hd] at hi
  | some d => simp [hd] at hi hf; simp [hi.2] at hf

theorem nodup_filter_map (intervals : List Interval) (p : Interval → Bool)
    (h : (intervals.map (fun x => x.vreg)).Nodup) :
    ((intervals.filter p).map (fun x => x.vreg)).Nodup :=
  List.Nodup.sublist ((List.filter_sublist intervals).map _) h

/-- The two allocation loops: the facts about the final map `assignedPhys` that the claims
about registers of overlapping intervals rest on. -/
theorem allocateIntervals_inv (intervals : List Interval)
    (intRegsAll floatRegsAll reserved calleeInt calleeFloat : List Nat) (spill : SpillState)
    (hnd : (intervals.map (fun x => x.vreg)).Nodup) :
    AllocInv [] (buildAllocatable intRegsAll reserved)
      (sortIntervals (intervals.filter isIntInterval))
      (allocateForClass (intervals.filter isIntInterval)
        (buildAllocatable intRegsAll reserved) calleeInt [] spill) ∧
    AllocInv (allocateForClass (intervals.filter isIntInterval)
        (buildAllocatable intRegsAll reserved) calleeInt [] spill).assignedPhys
      (buildAllocatable floatRegsAll reserved)
      (sortIntervals (intervals.filter isFloatInterval))
      (allocateIntervals intervals intRegsAll floatRegsAll reserved calleeInt calleeFloat
        spill) ∧
    (∀ x ∈ intervals.filter isFloatInterval,
      (allocateForClass (intervals.filter isIntInterval)
        (buildAllocatable intRegsAll reserved) calleeInt [] spill).assignedPhys.lookup x.vreg
        = none) := by
  have hint := allocateForClass_inv (intervals.filter isIntInterval)
    (buildAllocatable intRegsAll reserved) calleeInt [] spill
    (nodup_filter_map intervals _ hnd) (fun x _ => rfl)
  have hnone : ∀ x ∈ intervals.filter isFloatInterval,
      (allocateForClass (intervals.filter isIntInterval)
        (buildAllocatable intRegsAll reserved) calleeInt [] spill).assignedPhys.lookup x.vreg
        = none := by
    intro x hx
    obtain ⟨hxi, hxf⟩ := List.mem_filter.mp hx
    rw [hint.2.2.2.2 x.vreg]
    · rfl
    · intro y hy heq
      obtain ⟨hyi, hyint⟩ := List.mem_filter.mp ((mem_sortIntervals y _).mp hy)
      have := List.inj_on_of_nodup_map hnd hyi hxi heq
      subst this
      exact int_not_float y hyint hxf
  refine ⟨hint, ?_, hnone⟩
  unfold allocateIntervals
  simp only
  exact allocateForClass_inv (intervals.filter isFloatInterval)
    (buildAllocatable floatRegsAll reserved) calleeFloat _ _
    (nodup_filter_map intervals _ hnd) hnone

theorem active_distinct_of_inv (assigned0 : List (Register × Nat)) (allRegs : List Nat)
    (pre : List Interval) (st : AllocState) (h : AllocInv assigned0 allRegs pre st) :
    ∀ x ∈ st.active, ∀ y ∈ st.active, x ≠ y →
      ∃ rx ry, st.assignedPhys.lookup x.vreg = some rx ∧
        st.assignedPhys.lookup y.vreg = some ry ∧ rx ≠ ry := by
  intro x hx y hy hne
  obtain ⟨_, rx, hrx⟩ := h.1 x hx
  obtain ⟨_, ry, hry⟩ := h.1 y hy
  refine ⟨rx, ry, hrx, hry, ?_⟩
  intro heq
  exact hne (h.2.1 x hx y hy (by rw [hrx, hry, heq]))

/-- Claim C30: let the map `intervals` hold one interval per register and let no register be
allocatable for both classes (as with the RV64 register info). Then at every point of the
two allocation loops, that is after any number of intervals of the sorted work list, two
different intervals of `active` have registers, and different ones; and in the map
`assignedPhys` that the loops leave, two intervals of different virtual registers with the
same physical register have disjoint ranges: one ends, with the end of its last segment, at
or before the start of the first segment of the other. -/
theorem allocateIntervals_distinct_registers (intervals : List Interval)
    (intRegsAll floatRegsAll reserved calleeInt calleeFloat : List Nat) (spill : SpillState)
    (hnd : (intervals.map (fun x => x.vreg)).Nodup)
    (hdisj : ∀ r ∈ buildAllocatable intRegsAll reserved,
      r ∉ buildAllocatable floatRegsAll reserved) :
    (∀ pre suf, sortIntervals (intervals.filter isIntInterval) = pre ++ suf →
      ∀ x ∈ (intLoopState intRegsAll reserved calleeInt spill pre).active,
      ∀ y ∈ (intLoopState intRegsAll reserved calleeInt spill pre).active, x ≠ y →
        ∃ rx ry,
          (intLoopState intRegsAll reserved calleeInt spill pre).assignedPhys.lookup x.vreg
            = some rx ∧
          (intLoopState intRegsAll reserved calleeInt spill pre).assignedPhys.lookup y.vreg
            = some ry ∧ rx ≠ ry) ∧
    (∀ pre suf, sortIntervals (intervals.filter isFloatInterval) = pre ++ suf →
      ∀ x ∈ (floatLoopState intervals intRegsAll floatRegsAll reserved calleeInt calleeFloat
        spill pre).active,
      ∀ y ∈ (floatLoopState intervals intRegsAll floatRegsAll reserved calleeInt calleeFloat
        spill pre).active, x ≠ y →
        ∃ rx ry,
          (floatLoopState intervals intRegsAll floatRegsAll reserved calleeInt calleeFloat
            spill pre).assignedPhys.lookup x.vreg = some rx ∧
          (floatLoopState intervals intRegsAll floatRegsAll reserved calleeInt calleeFloat
            spill pre).assignedPhys.lookup y.vreg = some ry ∧ rx ≠ ry) ∧
    (∀ a ∈ intervals, ∀ b ∈ intervals, a.vreg ≠ b.vreg → ∀ r,
      (allocateIntervals intervals intRegsAll floatRegsAll reserved calleeInt calleeFloat
        spill).assignedPhys.lookup a.vreg = some r →
      (allocateIntervals intervals intRegsAll floatRegsAll reserved calleeInt calleeFloat
        spill).assignedPhys.lookup b.vreg = some r →
      intervalEnd a ≤ intervalStart b ∨ intervalEnd b ≤ intervalStart a) := by
  obtain ⟨hI, hF, hnone⟩ := allocateIntervals_inv intervals intRegsAll floatRegsAll reserved
    calleeInt calleeFloat spill hnd
  refine ⟨?_, ?_, ?_⟩
  · intro pre suf hsplit
    exact active_distinct_of_inv _ _ pre _
      (allocLoop_inv (intervals.filter isIntInterval) (buildAllocatable intRegsAll reserved)
        calleeInt [] spill (nodup_filter_map intervals _ hnd) (fun x _ => rfl) pre suf hsplit)
  · intro pre suf hsplit
    exact active_distinct_of_inv _ _ pre _
      (allocLoop_inv (intervals.filter isFloatInterval)
        (buildAllocatable floatRegsAll reserved) calleeFloat _ _
        (nodup_filter_map intervals _ hnd) hnone pre suf hsplit)
  · -- the entry of a register that is not of a float interval is the one the first loop left
    have hkeep : ∀ a ∈ intervals, isFloatInterval a = false →
        (allocateIntervals intervals intRegsAll floatRegsAll reserved calleeInt calleeFloat
          spill).assignedPhys.lookup a.vreg =
        (allocateForClass (intervals.filter isIntInterval)
          (buildAllocatable intRegsAll reserved) calleeInt [] spill).assignedPhys.lookup
            a.vreg := by
      intro a ha hfa
      apply hF.2.2.2.2
      intro x hx heq
      obtain ⟨hxi, hxf⟩ := List.mem_filter.mp ((mem_sortIntervals x _).mp hx)
      have := List.inj_on_of_nodup_map hnd hxi ha heq
      subst this
      rw [hxf] at hfa
      exact Bool.noConfusion hfa
    have hintOf : ∀ a ∈ intervals, ∀ r,
        (allocateForClass (intervals.filter isIntInterval)
          (buildAllocatable intRegsAll reserved) calleeInt [] spill).assignedPhys.lookup
            a.vreg = some r →
        a ∈ sortIntervals (intervals.filter isIntInterval) := by
      intro a ha r hr
      by_contra hnot
      have : (allocateForClass (intervals.filter isIntInterval)
          (buildAllocatable intRegsAll reserved) calleeInt [] spill).assignedPhys.lookup
            a.vreg = ([] : List (Register × Nat)).lookup a.vreg := by
        apply hI.2.2.2.2
        intro x hx heq
        have hxi := (List.mem_filter.mp ((mem_sortIntervals x _).mp hx)).1
        have := List.inj_on_of_nodup_map hnd hxi ha heq
        subst this
        exact hnot hx
      rw [this] at hr
      simp at hr
    have hfloatMem : ∀ a ∈ intervals, isFloatInterval a = true →
        a ∈ sortIntervals (intervals.filter isFloatInterval) :=
      fun a ha hfa => (mem_sortIntervals a _).mpr (List.mem_filter.mpr ⟨ha, hfa⟩)
    intro a ha b hb hne r hra hrb
    cases hfa : isFloatInterval a with
    | true =>
      have haF := hfloatMem a ha hfa
      cases hfb : isFloatInterval b with
      | true => exact hF.2.2.2.1 a haF b (hfloatMem b hb hfb) hne r hra hrb
      | false =>
        rw [hkeep b hb hfb] at hrb
        have h1 := (hF.2.2.1 a haF r hra).1
        have h2 := (hI.2.2.1 b (hintOf b hb r hrb) r hrb).1
        exact absurd h1 (hdisj r h2)
    | false =>
      rw [hkeep a ha hfa] at hra
      have haI := hintOf a ha r hra
      cases hfb : isFloatInterval b with
      | true =>
        have h1 := (hF.2.2.1 b (hfloatMem b hb hfb) r hrb).1
        have h2 := (hI.2.2.1 a haI r hra).1
        exact absurd h1 (hdisj r h2)
      | false =>
        rw [hkeep b hb hfb] at hrb
        exact hI.2.2.2.1 a haI b (hintOf b hb r hrb) hne r hra hrb

theorem allocateIntervals_distinct_registers_witness :
    (sampleIntervals.map (fun x => x.vreg)).Nodup ∧
    (allocateIntervals sampleIntervals intRegs floatRegs reservedRegs calleeSavedIntRegs
      calleeSavedFloatRegs noSpill).assignedPhys = [(vreg 1, 8), (vreg 2, 6), (vreg 3, 6)] ∧
    ∀ a ∈ sampleIntervals, ∀ b ∈ sampleIntervals, a.vreg ≠ b.vreg → ∀ r,
      (allocateIntervals sampleIntervals intRegs floatRegs reservedRegs calleeSavedIntRegs
        calleeSavedFloatRegs noSpill).assignedPhys.lookup a.vreg = some r →
      (allocateIntervals sampleIntervals intRegs floatRegs reservedRegs calleeSavedIntRegs
        calleeSavedFloatRegs noSpill).assignedPhys.lookup b.vreg = some r →
      intervalEnd a ≤ intervalStart b ∨ intervalEnd b ≤ intervalStart a :=
  ⟨by decide, by decide,
    (allocateIntervals_distinct_registers sampleIntervals intRegs floatRegs reservedRegs
      calleeSavedIntRegs calleeSavedFloatRegs noSpill (by decide) (by decide)).2.2⟩

/-! ### Linear scan: more live intervals than registers -/

theorem ensureSpillSlot_length (sp : SpillState) (r : Register) :
    sp.spillSlots.length ≤ (ensureSpillSlot sp r).1.spillSlots.length := by
  unfold ensureSpillSlot
  split
  · exact Nat.le_refl _
  · simp

theorem ensureSpillSlot_first (sp : SpillState) (r : Register)
    (h : sp.spillFrameIndex = []) :
    sp.spillSlots.length < (ensureSpillSlot sp r).1.spillSlots.length := by
  unfold ensureSpillSlot
  rw [h]
  simp

theorem allocateStep_slots (calleeOnly orderCallerFirst calleeSaved : List Nat)
    (st : AllocState) (c : Interval) :
    st.spill.spillSlots.length ≤
      (allocateStep calleeOnly orderCallerFirst calleeSaved st c).spill.spillSlots.length := by
  unfold allocateStep
  simp only
  split
  · exact Nat.le_refl _
  · split
    · exact ensureSpillSlot_length _ _
    · exact ensureSpillSlot_length _ _

theorem foldl_allocateStep_slots (calleeOnly orderCallerFirst calleeSaved : List Nat)
    (l : List Interval) :
    ∀ st : AllocState, st.spill.spillSlots.length ≤
      (l.foldl (allocateStep calleeOnly orderCallerFirst calleeSaved) st).spill.spillSlots.length
    := by
  induction l with
  | nil => intro st; exact Nat.le_refl _
  | cons c rest ih =>
    intro st
    simp only [List.foldl_cons]
    exact le_trans (allocateStep_slots _ _ _ st c) (ih _)

theorem allocateForClass_slots (work : List Interval) (allRegs calleeSaved : List Nat)
    (assigned : List (Register × Nat)) (spill : SpillState) :
    spill.spillSlots.length ≤
      (allocateForClass work allRegs calleeSaved assigned spill).spill.spillSlots.length := by
  rw [allocateForClass_eq]
  exact foldl_allocateStep_slots _ _ _ (sortIntervals work)
    { assignedPhys := assigned, spill := spill, active := [] }

/-- While nothing has been spilled, every visited interval that is live at `p` is active,
as long as the visited intervals start at or before `p`. -/
theorem allocateStep_crowd (calleeOnly orderCallerFirst calleeSaved : List Nat)
    (spill0 : SpillState) (hs0 : spill0.spillFrameIndex = []) (p : Int)
    (pre : List Interval) (st : AllocState) (c : Interval)
    (h : spill0.spillSlots.length < st.spill.spillSlots.length ∨
      (st.spill = spill0 ∧ ∀ x ∈ pre, p < intervalEnd x → x ∈ st.active))
    (hcp : intervalStart c ≤ p) :
    spill0.spillSlots.length <
        (allocateStep calleeOnly orderCallerFirst calleeSaved st c).spill.spillSlots.length ∨
      ((allocateStep calleeOnly orderCallerFirst calleeSaved st c).spill = spill0 ∧
        ∀ x ∈ pre ++ [c], p < intervalEnd x →
          x ∈ (allocateStep calleeOnly orderCallerFirst calleeSaved st c).active) := by
  rcases h with h | ⟨hsp, hact⟩
  · exact Or.inl (lt_of_lt_of_le h (allocateStep_slots _ _ _ st c))
  · have hkeep : ∀ x ∈ pre, p < intervalEnd x →
        x ∈ expireOld st.active (intervalStart c) := by
      intro x hx hpx
      rw [mem_expireOld]
      exact ⟨hact x hx hpx, by omega⟩
    unfold allocateStep
    simp only
    split
    · refine Or.inr ⟨hsp, ?_⟩
      intro x hx hpx
      simp only [List.mem_append, List.mem_singleton] at hx ⊢
      rcases hx with hx | rfl
      · exact Or.inl (hkeep x hx hpx)
      · exact Or.inr rfl
    · split
      · left
        simp only
        rw [hsp]
        exact ensureSpillSlot_first spill0 _ hs0
      · left
        simp only
        rw [hsp]
        exact ensureSpillSlot_first spill0 _ hs0

theorem foldl_allocateStep_crowd (calleeOnly orderCallerFirst calleeSaved : List Nat)
    (spill0 : SpillState) (hs0 : spill0.spillFrameIndex = []) (p : Int) (suf : List Interval) :
    ∀ (pre : List Interval) (st : AllocState),
      (spill0.spillSlots.length < st.spill.spillSlots.length ∨
        (st.spill = spill0 ∧ ∀ x ∈ pre, p < intervalEnd x → x ∈ st.active)) →
      (∀ c ∈ suf, intervalStart c ≤ p) →
      spill0.spillSlots.length <
          (suf.foldl (allocateStep calleeOnly orderCallerFirst calleeSaved)
            st).spill.spillSlots.length ∨
        ((suf.foldl (allocateStep calleeOnly orderCallerFirst calleeSaved) st).spill = spill0 ∧
          ∀ x ∈ pre ++ suf, p < intervalEnd x →
            x ∈ (suf.foldl (allocateStep calleeOnly orderCallerFirst calleeSaved) st).active)
    := by
  induction suf with
  | nil => intro pre st h _; simpa using h
  | cons c rest ih =>
    intro pre st h hall
    have hstep := allocateStep_crowd calleeOnly orderCallerFirst calleeSaved spill0 hs0 p pre
      st c h (hall c (List.mem_cons_self _ _))
    have heq : pre ++ c :: rest = (pre ++ [c]) ++ rest := by simp
    simp only [List.foldl_cons]
    rw [heq]
    exact ih (pre ++ [c]) _ hstep (fun x hx => hall x (List.mem_cons_of_mem _ hx))

theorem mem_takeWhile_of_sorted (p : Int) (l : List Interval)
    (hs : l.Pairwise (fun a b => intervalStart a ≤ intervalStart b)) (x : Interval)
    (hx : x ∈ l) (hxp : intervalStart x ≤ p) :
    x ∈ l.takeWhile (fun y => decide (intervalStart y ≤ p)) := by
  induction l with
  | nil => simp at hx
  | cons hd tl ih =>
    rw [List.pairwise_cons] at hs
    have hhd : intervalStart hd ≤ p := by
      rcases List.mem_cons.mp hx with rfl | hx
      · exact hxp
      · exact le_trans (hs.1 x hx) hxp
    rw [List.takeWhile_cons_of_pos (by simpa using hhd)]
    rcases List.mem_cons.mp hx with rfl | hx
    · exact List.mem_cons_self _ _
    · exact List.mem_cons_of_mem _ (ih hs.2 hx)

/-- The registers of the intervals of a list without repetition that are all active are as
many as the intervals. -/
theorem crowd_le_registers (assigned0 : List (Register × Nat)) (allRegs : List Nat)
    (pre : List Interval) (st : AllocState) (hinv : AllocInv assigned0 allRegs pre st)
    (L : List Interval) (hL : L.Nodup) (hact : ∀ x ∈ L, x ∈ st.active) :
    L.length ≤ allRegs.length := by
  obtain ⟨i1, i2, i3, _, _⟩ := hinv
  have hnd : (L.map (fun x => (st.assignedPhys.lookup x.vreg).getD 0)).Nodup := by
    apply List.Nodup.map_on _ hL
    intro x hx y hy heq
    obtain ⟨_, rx, hrx⟩ := i1 x (hact x hx)
    obtain ⟨_, ry, hry⟩ := i1 y (hact y hy)
    simp only [hrx, hry, Option.getD_some] at heq
    exact i2 x (hact x hx) y (hact y hy) (by rw [hrx, hry, heq])
  have hsub : L.map (fun x => (st.assignedPhys.lookup x.vreg).getD 0) ⊆ allRegs := by
    intro r hr
    obtain ⟨x, hx, rfl⟩ := List.mem_map.mp hr
    obtain ⟨hxp, rx, hrx⟩ := i1 x (hact x hx)
    simp only [hrx, Option.getD_some]
    exact (i3 x hxp rx hrx).1
  have := (List.subperm_of_subset hnd hsub).length_le
  simpa using this

theorem allocateForClass_crowd (work : List Interval) (allRegs calleeSaved : List Nat)
    (assigned : List (Register × Nat)) (spill : SpillState)
    (hs0 : spill.spillFrameIndex = [])
    (hnd : (work.map (fun x => x.vreg)).Nodup)
    (h0 : ∀ x ∈ work, assigned.lookup x.vreg = none)
    (L : List Interval) (p : Int) (hL : L.Nodup)
    (hmem : ∀ x ∈ L, x ∈ work ∧ intervalStart x ≤ p ∧ p < intervalEnd x)
    (hmany : allRegs.length < L.length) :
    spill.spillSlots.length <
      (allocateForClass work allRegs calleeSaved assigned spill).spill.spillSlots.length := by
  rw [allocateForClass_eq]
  have hsplit := (List.takeWhile_append_dropWhile
    (fun y => decide (intervalStart y ≤ p)) (sortIntervals work)).symm
  have hinv := allocLoop_inv work allRegs calleeSaved assigned spill hnd h0 _ _ hsplit
  have hcrowd := foldl_allocateStep_crowd
    (allRegs.filter (fun r => decide (r ∈ calleeSaved))) (buildOrder allRegs calleeSaved false)
    calleeSaved spill hs0 p
    ((sortIntervals work).takeWhile (fun y => decide (intervalStart y ≤ p))) []
    { assignedPhys := assigned, spill := spill, active := [] }
    (Or.inr ⟨rfl, by intro x hx; simp at hx⟩)
    (fun c hc => by simpa using List.mem_takeWhile_imp hc)
  rw [hsplit, List.foldl_append]
  refine lt_of_lt_of_le ?_ (foldl_allocateStep_slots _ _ _ _ _)
  rcases hcrowd with h | ⟨_, hact⟩
  · exact h
  · exfalso
    have hle := crowd_le_registers assigned allRegs _ _ hinv L hL (by
      intro x hx
      obtain ⟨hxw, hxs, hxe⟩ := hmem x hx
      apply hact x _ hxe
      simp only [List.nil_append]
      exact mem_takeWhile_of_sorted p _ (sortIntervals_sorted work) x
        ((mem_sortIntervals x work).mpr hxw) hxs)
    omega

theorem buildAllocatable_rv64 :
    buildAllocatable intRegs reservedRegs =
      [6, 7, 8, 9, 18, 19, 20, 21, 22, 23, 24, 25, 26, 27, 28, 29, 30, 31] := by
  decide

set_option maxRecDepth 100000 in
/-- Counterexample to claim C24: in the one block of `sumFunction 16` the sixteen integer
registers `v1 .. v16` are live at the same position (each has a segment that contains
position 15), and linear scan with the RV64 register info gives every virtual register a
physical one: the spill slot area stays empty. -/
theorem sum16_needs_no_spill_slot :
    (((buildIntervals (fun _ => []) (sumFunction 16).blocks 0 []).map
        (fun ri => ri.2.merge)).filter
      (fun itv => isLiveAt itv.segs 15)).map (fun itv => itv.vreg) =
        (List.range 16).map (fun i => vreg (i + 1)) ∧
    (allocateFunction 2 (fun _ => []) rv64RegInfo (sumFunction 16) []).map (fun r => r.2)
      = some [] := by
  decide

/-- Claim C24, amended: the RV64 register info leaves eighteen integer registers to the
allocator (the 32 less `x0 .. x5` and `a0 .. a7`). When the map `intervals` holds one
interval per register and at least nineteen integer intervals are live at the same
position `p` (each starts at or before `p` and ends after it), the two allocation loops
create at least one spill slot. -/
theorem allocateIntervals_crowded_spills (intervals : List Interval) (spill : SpillState)
    (hs0 : spill.spillFrameIndex = [])
    (hnd : (intervals.map (fun x => x.vreg)).Nodup)
    (L : List Interval) (p : Int) (hL : L.Nodup)
    (hmem : ∀ x ∈ L, x ∈ intervals ∧ isIntInterval x = true ∧ intervalStart x ≤ p ∧
      p < intervalEnd x)
    (hmany : 19 ≤ L.length) :
    (buildAllocatable intRegs reservedRegs).length = 18 ∧
    spill.spillSlots.length <
      (allocateIntervals intervals intRegs floatRegs reservedRegs calleeSavedIntRegs
        calleeSavedFloatRegs spill).spill.spillSlots.length := by
  refine ⟨by rw [buildAllocatable_rv64]; rfl, ?_⟩
  unfold allocateIntervals
  simp only
  refine lt_of_lt_of_le ?_ (allocateForClass_slots _ _ _ _ _)
  apply allocateForClass_crowd (intervals.filter isIntInterval) _ calleeSavedIntRegs [] spill
    hs0 (nodup_filter_map intervals _ hnd) (fun x _ => rfl) L p hL
  · intro x hx
    obtain ⟨h1, h2, h3, h4⟩ := hmem x hx
    exact ⟨List.mem_filter.mpr ⟨h1, h2⟩, h3, h4⟩
  · rw [buildAllocatable_rv64]
    simp only [List.length_cons, List.length_nil]
    omega

set_option maxRecDepth 100000 in
theorem allocateIntervals_crowded_spills_witness :
    (crowd 19).length = 19 ∧
    (allocateIntervals (crowd 19) intRegs floatRegs reservedRegs calleeSavedIntRegs
      calleeSavedFloatRegs noSpill).spill.spillSlots = [(4, 4)] ∧
    (allocateFunction 2 (fun _ => []) rv64RegInfo (sumFunction 19) []).map (fun r => r.2)
      = some [(4, 4), (4, 4)] ∧
    ((buildAllocatable intRegs reservedRegs).length = 18 ∧
    noSpill.spillSlots.length <
      (allocateIntervals (crowd 19) intRegs floatRegs reservedRegs calleeSavedIntRegs
        calleeSavedFloatRegs noSpill).spill.spillSlots.length) :=
  ⟨by decide, by decide, by decide,
    allocateIntervals_crowded_spills (crowd 19) noSpill rfl (by decide) (crowd 19) 10
      (by decide) (by decide) (by decide)⟩

/-! ### Linear scan: the construction of the intervals -/

theorem lookup_mem_reg {β : Type} (l : List (Register × β)) (k : Register) (v : β)
    (h : l.lookup k = some v) : (k, v) ∈ l := by
  induction l with
  | nil => simp at h
  | cons kv rest ih =>
    obtain ⟨k1, v1⟩ := kv
    simp only [List.lookup] at h
    by_cases hk : k = k1
    · subst hk
      simp at h
      subst h
      exact List.mem_cons_self _ _
    · have : (k == k1) = false := by simpa using hk
      rw [this] at h
      exact List.mem_cons_of_mem _ (ih h)

theorem lookup_none_not_mem {β : Type} (l : List (Register × β)) (k : Register)
    (h : l.lookup k = none) : ∀ v, (k, v) ∉ l := by
  induction l with
  | nil => intro v; simp
  | cons kv rest ih =>
    obtain ⟨k1, v1⟩ := kv
    intro v hv
    simp only [List.lookup] at h
    by_cases hk : k = k1
    · subst hk
      simp at h
    · have : (k == k1) = false := by simpa using hk
      rw [this] at h
      rcases List.mem_cons.mp hv with heq | hmem
      · simp only [Prod.mk.injEq] at heq
        exact hk heq.1
      · exact ih h v hmem

theorem mem_regMapInsert {β : Type} (k : Register) (v : β) (m : List (Register × β))
    (x : Register × β) (h : x ∈ regMapInsert k v m) : x = (k, v) ∨ x ∈ m := by
  induction m with
  | nil =>
    simp only [regMapInsert, List.mem_singleton] at h
    exact Or.inl h
  | cons hd tl ih =>
    obtain ⟨k1, v1⟩ := hd
    simp only [regMapInsert] at h
    split at h
    · rename_i hk
      rcases List.mem_cons.mp h with h1 | h1
      · left; rw [h1, hk]
      · exact Or.inr (List.mem_cons_of_mem _ h1)
    · split at h
      · rcases List.mem_cons.mp h with h1 | h1
        · exact Or.inl h1
        · exact Or.inr h1
      · rcases List.mem_cons.mp h with h1 | h1
        · exact Or.inr (by rw [h1]; exact List.mem_cons_self _ _)
        · rcases ih h1 with h2 | h2
          · exact Or.inl h2
          · exact Or.inr (List.mem_cons_of_mem _ h2)

theorem mem_regMapInsert_self {β : Type} (k : Register) (v : β) (m : List (Register × β)) :
    (k, v) ∈ regMapInsert k v m :=
  lookup_mem_reg _ k v (lookup_regMapInsert_self k v m)

theorem mem_regMapErase {β : Type} (k : Register) (m : List (Register × β))
    (x : Register × β) : x ∈ regMapErase k m ↔ x ∈ m ∧ x.1 ≠ k := by
  unfold regMapErase
  simp [List.mem_filter]

theorem getElem?_setStartAt (segs : List Segment) :
    ∀ (idx : Nat) (pos : Int) (i : Nat),
      (setStartAt segs idx pos)[i]? =
        if i = idx then (segs[i]?).map (fun s => { s with start := pos }) else segs[i]? := by
  induction segs with
  | nil => intro idx pos i; simp [setStartAt]
  | cons s rest ih =>
    intro idx pos i
    cases idx with
    | zero =>
      cases i with
      | zero => simp [setStartAt]
      | succ j => simp [setStartAt]
    | succ k =>
      cases i with
      | zero => simp [setStartAt]
      | succ j =>
        simp only [setStartAt, List.getElem?_cons_succ, ih k pos j, Nat.succ.injEq]

theorem segAt_pushSegment_new (ivs : List (Register × Interval)) (r : Register)
    (seg : Segment) :
    segAt (pushSegment ivs r seg).1 r (pushSegment ivs r seg).2 = some seg ∧
    segAt ivs r (pushSegment ivs r seg).2 = none := by
  unfold pushSegment segAt
  cases h : ivs.lookup r with
  | none => simp [lookup_regMapInsert_self]
  | some itv => simp [lookup_regMapInsert_self]

theorem segAt_pushSegment_old (ivs : List (Register × Interval)) (r : Register)
    (seg : Segment) (v : Register) (i : Nat) (s : Segment) (h : segAt ivs v i = some s) :
    segAt (pushSegment ivs r seg).1 v i = some s := by
  unfold pushSegment
  unfold segAt at h ⊢
  by_cases hv : v = r
  · subst hv
    cases hl : ivs.lookup v with
    | none => simp [hl] at h
    | some itv =>
      simp only [hl] at h ⊢
      rw [lookup_regMapInsert_self]
      simp only
      have hi : i < itv.segs.length := by
        by_contra hge
        rw [List.getElem?_eq_none (by omega)] at h
        exact Option.noConfusion h
      rw [List.getElem?_append_left hi]
      exact h
  · cases hl : ivs.lookup r with
    | none =>
      simp only
      rw [lookup_regMapInsert_ne _ _ _ _ hv]
      exact h
    | some itv =>
      simp only
      rw [lookup_regMapInsert_ne _ _ _ _ hv]
      exact h

theorem segAt_pushSegment_inv (ivs : List (Register × Interval)) (r : Register)
    (seg : Segment) (v : Register) (i : Nat) (s : Segment)
    (h : segAt (pushSegment ivs r seg).1 v i = some s) :
    (v = r ∧ i = (pushSegment ivs r seg).2 ∧ s = seg) ∨ segAt ivs v i = some s := by
  unfold pushSegment at h ⊢
  unfold segAt at h ⊢
  by_cases hv : v = r
  · subst hv
    cases hl : ivs.lookup v with
    | none =>
      simp only [hl] at h ⊢
      rw [lookup_regMapInsert_self] at h
      simp only at h
      cases i with
      | zero =>
        simp at h
        exact Or.inl ⟨by trivial, by trivial, h.symm⟩
      | succ j => simp at h
    | some itv =>
      simp only [hl] at h ⊢
      rw [lookup_regMapInsert_self] at h
      simp only at h
      by_cases hi : i < itv.segs.length
      · rw [List.getElem?_append_left hi] at h
        exact Or.inr h
      · have hge : itv.segs.length ≤ i := by omega
        rw [List.getElem?_append_right hge] at h
        by_cases hz : i - itv.segs.length = 0
        · rw [hz] at h
          simp at h
          exact Or.inl ⟨by trivial, by omega, h.symm⟩
        · obtain ⟨k, hk⟩ := Nat.exists_eq_succ_of_ne_zero hz
          rw [hk] at h
          simp at h
  · right
    cases hl : ivs.lookup r with
    | none =>
      simp only [hl] at h
      rw [lookup_regMapInsert_ne _ _ _ _ hv] at h
      exact h
    | some itv =>
      simp only [hl] at h
      rw [lookup_regMapInsert_ne _ _ _ _ hv] at h
      exact h

theorem segAt_setSegStart (ivs : List (Register × Interval)) (r : Register) (idx : Nat)
    (pos : Int) (v : Register) (i : Nat) :
    segAt (setSegStart ivs r idx pos) v i =
      if v = r ∧ i = idx then (segAt ivs v i).map (fun s => { s with start := pos })
      else segAt ivs v i := by
  unfold setSegStart
  cases hl : ivs.lookup r with
  | none =>
    simp only
    split
    · rename_i h
      obtain ⟨rfl, _⟩ := h
      simp [segAt, hl]
    · rfl
  | some itv =>
    simp only
    by_cases hv : v = r
    · subst hv
      unfold segAt
      rw [lookup_regMapInsert_self, hl]
      simp only [getElem?_setStartAt, true_and]
    · unfold segAt
      rw [lookup_regMapInsert_ne _ _ _ _ hv]
      simp [hv]

theorem keyOK_pushSegment (ivs : List (Register × Interval)) (r : Register) (seg : Segment)
    (h : KeyOK ivs) : KeyOK (pushSegment ivs r seg).1 := by
  intro v itv hl
  unfold pushSegment at hl
  by_cases hv : v = r
  · subst hv
    cases hr : ivs.lookup v with
    | none =>
      simp only [hr] at hl
      rw [lookup_regMapInsert_self] at hl
      simp only [Option.some.injEq] at hl
      rw [← hl]
    | some old =>
      simp only [hr] at hl
      rw [lookup_regMapInsert_self] at hl
      simp only [Option.some.injEq] at hl
      rw [← hl]
  · cases hr : ivs.lookup r with
    | none =>
      simp only [hr] at hl
      rw [lookup_regMapInsert_ne _ _ _ _ hv] at hl
      exact h v itv hl
    | some old =>
      simp only [hr] at hl
      rw [lookup_regMapInsert_ne _ _ _ _ hv] at hl
      exact h v itv hl

theorem keyOK_setSegStart (ivs : List (Register × Interval)) (r : Register) (idx : Nat)
    (pos : Int) (h : KeyOK ivs) : KeyOK (setSegStart ivs r idx pos) := by
  intro v itv hl
  unfold setSegStart at hl
  cases hr : ivs.lookup r with
  | none =>
    simp only [hr] at hl
    exact h v itv hl
  | some old =>
    simp only [hr] at hl
    by_cases hv : v = r
    · subst hv
      rw [lookup_regMapInsert_self] at hl
      simp only [Option.some.injEq] at hl
      rw [← hl]
      exact h v old hr
    · rw [lookup_regMapInsert_ne _ _ _ _ hv] at hl
      exact h v itv hl

theorem segFrom_mono (prog : List MInstruction) (v : Register) (s : Segment) (q q1 : Int)
    (hq : q ≤ q1) (h : SegFrom prog v s q) : SegFrom prog v s q1 :=
  fun p hp1 hp2 hw => h p (le_trans hq hp1) hp2 hw

theorem grow_refl (a : List (Register × Interval)) : Grow a a :=
  fun _ _ s h => ⟨s, h, le_refl _, rfl⟩

theorem grow_trans (a b c : List (Register × Interval)) (h1 : Grow a b) (h2 : Grow b c) :
    Grow a c := by
  intro v i s hs
  obtain ⟨t, ht, ht1, ht2⟩ := h1 v i s hs
  obtain ⟨u, hu, hu1, hu2⟩ := h2 v i t ht
  exact ⟨u, hu, le_trans hu1 ht1, by rw [hu2, ht2]⟩

theorem cov_grow (a b : List (Register × Interval)) (h : Grow a b) (v : Register) (p : Int)
    (hc : Cov a v p) : Cov b v p := by
  obtain ⟨i, s, hs, h1, h2⟩ := hc
  obtain ⟨t, ht, ht1, ht2⟩ := h v i s hs
  exact ⟨i, t, ht, le_trans ht1 h1, by rw [ht2]; exact h2⟩

theorem scanInv_open (prog : List MInstruction) (qs qe : Int) (st : ScanState) (r : Register)
    (seg : Segment) (h : ScanInv prog qs qe st) (hr : r.isVreg = true)
    (hb1 : qs ≤ seg.start) (hb2 : qe ≤ seg.endPos) (hseg : SegFrom prog r seg qs) :
    ScanInv prog qs qe
      { intervals := (pushSegment st.intervals r seg).1,
        openSeg := regMapInsert r (pushSegment st.intervals r seg).2 st.openSeg } ∧
    Grow st.intervals (pushSegment st.intervals r seg).1 := by
  obtain ⟨h1, h2⟩ := h
  refine ⟨⟨?_, ?_⟩, ?_⟩
  · intro v i hm
    rcases mem_regMapInsert _ _ _ _ hm with heq | hold
    · simp only [Prod.mk.injEq] at heq
      obtain ⟨rfl, rfl⟩ := heq
      exact ⟨hr, seg, (segAt_pushSegment_new _ _ _).1, hb1, hb2, hseg⟩
    · obtain ⟨hv, s, hs, a, b, c⟩ := h1 v i hold
      exact ⟨hv, s, segAt_pushSegment_old _ _ _ _ _ _ hs, a, b, c⟩
  · intro v i s hs hno
    rcases segAt_pushSegment_inv _ _ _ _ _ _ hs with ⟨rfl, rfl, rfl⟩ | hold
    · exact absurd (mem_regMapInsert_self _ _ _) hno
    · by_cases hm : (v, i) ∈ st.openSeg
      · obtain ⟨_, t, ht, a, _, c⟩ := h1 v i hm
        rw [hold] at ht
        simp only [Option.some.injEq] at ht
        subst ht
        exact segFrom_mono prog v s qs _ (by omega) c
      · exact h2 v i s hold hm
  · intro v i s hs
    exact ⟨s, segAt_pushSegment_old _ _ _ _ _ _ hs, le_refl _, rfl⟩

theorem scanInv_setStart (prog : List MInstruction) (qs qe : Int) (st : ScanState)
    (v : Register) (idx : Nat) (h : ScanInv prog qs qe st) (hopen : (v, idx) ∈ st.openSeg) :
    ScanInv prog qs qe { st with intervals := setSegStart st.intervals v idx qs } ∧
    Grow st.intervals (setSegStart st.intervals v idx qs) ∧
    ∃ s, segAt (setSegStart st.intervals v idx qs) v idx = some s ∧ s.start = qs ∧
      qe ≤ s.endPos := by
  obtain ⟨h1, h2⟩ := h
  obtain ⟨_, s0, hs0, a0, b0, c0⟩ := h1 v idx hopen
  refine ⟨⟨?_, ?_⟩, ?_, ?_⟩
  · intro w i hm
    obtain ⟨hw, s, hs, a, b, c⟩ := h1 w i hm
    refine ⟨hw, ?_⟩
    simp only [segAt_setSegStart]
    by_cases hc : w = v ∧ i = idx
    · rw [if_pos hc, hs]
      exact ⟨{ s with start := qs }, rfl, le_refl _, b, c⟩
    · rw [if_neg hc]
      exact ⟨s, hs, a, b, c⟩
  · intro w i t ht hno
    simp only [segAt_setSegStart] at ht
    by_cases hc : w = v ∧ i = idx
    · obtain ⟨rfl, rfl⟩ := hc
      exact absurd hopen hno
    · rw [if_neg hc] at ht
      exact h2 w i t ht hno
  · intro w i s hs
    simp only [segAt_setSegStart]
    by_cases hc : w = v ∧ i = idx
    · obtain ⟨rfl, rfl⟩ := hc
      rw [hs] at hs0
      simp only [Option.some.injEq] at hs0
      subst hs0
      rw [if_pos ⟨rfl, rfl⟩, hs]
      exact ⟨{ s with start := qs }, rfl, a0, rfl⟩
    · rw [if_neg hc]
      exact ⟨s, hs, le_refl _, rfl⟩
  · simp only [segAt_setSegStart, and_self, if_true, hs0]
    exact ⟨{ s0 with start := qs }, rfl, rfl, b0⟩

theorem scanInv_close (prog : List MInstruction) (q : Int) (st : ScanState) (d : Register)
    (idx : Nat) (pos : Int) (hpos : pos + 1 = q) (h : ScanInv prog q q st)
    (hopen : (d, idx) ∈ st.openSeg) :
    ScanInv prog q q
      { intervals := setSegStart st.intervals d idx pos,
        openSeg := regMapErase d st.openSeg } ∧
    Grow st.intervals (setSegStart st.intervals d idx pos) := by
  obtain ⟨h1, h2⟩ := h
  obtain ⟨_, s0, hs0, a0, b0, c0⟩ := h1 d idx hopen
  refine ⟨⟨?_, ?_⟩, ?_⟩
  · intro w i hm
    obtain ⟨hmo, hne⟩ := (mem_regMapErase _ _ _).mp hm
    obtain ⟨hw, s, hs, a, b, c⟩ := h1 w i hmo
    refine ⟨hw, s, ?_, a, b, c⟩
    simp only [segAt_setSegStart]
    rw [if_neg (fun hc => hne hc.1)]
    exact hs
  · intro w i t ht hno
    simp only [segAt_setSegStart] at ht
    by_cases hc : w = d ∧ i = idx
    · obtain ⟨rfl, rfl⟩ := hc
      rw [if_pos ⟨rfl, rfl⟩, hs0] at ht
      simp only [Option.map_some', Option.some.injEq] at ht
      subst ht
      intro p hp1 hp2 hw
      exact c0 p (by simp only at hp1; omega) hp2 hw
    · rw [if_neg hc] at ht
      by_cases hm : (w, i) ∈ st.openSeg
      · obtain ⟨_, s, hs, a, _, c⟩ := h1 w i hm
        rw [ht] at hs
        simp only [Option.some.injEq] at hs
        subst hs
        exact segFrom_mono prog w t q _ (by omega) c
      · exact h2 w i t ht hm
  · intro w i s hs
    simp only [segAt_setSegStart]
    by_cases hc : w = d ∧ i = idx
    · obtain ⟨rfl, rfl⟩ := hc
      rw [hs] at hs0
      simp only [Option.some.injEq] at hs0
      subst hs0
      rw [if_pos ⟨rfl, rfl⟩, hs]
      exact ⟨{ s with start := pos }, rfl, by simp only; omega, rfl⟩
    · rw [if_neg hc]
      exact ⟨s, hs, le_refl _, rfl⟩

theorem scanDef_inv (prog : List MInstruction) (pos : Int) (st : ScanState) (d : Register)
    (h : ScanInv prog (pos + 1) (pos + 1) st) :
    ScanInv prog (pos + 1) (pos + 1) (scanDef pos st d) ∧
    Grow st.intervals (scanDef pos st d).intervals ∧
    (d.isVreg = true → ∀ i, (d, i) ∉ (scanDef pos st d).openSeg) ∧
    (∀ x, x ∈ (scanDef pos st d).openSeg → x ∈ st.openSeg) := by
  unfold scanDef
  cases hv : d.isVreg with
  | false =>
    simp only [Bool.not_false, if_true]
    exact ⟨h, grow_refl _, fun hc => by simp at hc, fun x hx => hx⟩
  | true =>
    simp only [Bool.not_true, Bool.false_eq_true, if_false]
    cases hl : st.openSeg.lookup d with
    | none =>
      simp only
      exact ⟨h, grow_refl _, fun _ i => lookup_none_not_mem _ _ hl i, fun x hx => hx⟩
    | some idx =>
      simp only
      obtain ⟨a, b⟩ := scanInv_close prog (pos + 1) st d idx pos rfl h
        (lookup_mem_reg _ _ _ hl)
      refine ⟨a, b, ?_, ?_⟩
      · intro _ i hm
        exact ((mem_regMapErase _ _ _).mp hm).2 rfl
      · intro x hx
        exact ((mem_regMapErase _ _ _).mp hx).1

theorem foldl_scanDef_inv (prog : List MInstruction) (pos : Int) (ds : List Register) :
    ∀ st : ScanState, ScanInv prog (pos + 1) (pos + 1) st →
      ScanInv prog (pos + 1) (pos + 1) (ds.foldl (scanDef pos) st) ∧
      Grow st.intervals (ds.foldl (scanDef pos) st).intervals ∧
      (∀ d ∈ ds, d.isVreg = true → ∀ i, (d, i) ∉ (ds.foldl (scanDef pos) st).openSeg) ∧
      (∀ x, x ∈ (ds.foldl (scanDef pos) st).openSeg → x ∈ st.openSeg) := by
  induction ds with
  | nil => intro st h; exact ⟨h, grow_refl _, by simp, fun x hx => hx⟩
  | cons d rest ih =>
    intro st h
    obtain ⟨a1, b1, c1, d1⟩ := scanDef_inv prog pos st d h
    obtain ⟨a2, b2, c2, d2⟩ := ih _ a1
    simp only [List.foldl_cons]
    refine ⟨a2, grow_trans _ _ _ b1 b2, ?_, fun x hx => d1 x (d2 x hx)⟩
    intro e he hev i hm
    rcases List.mem_cons.mp he with rfl | he
    · exact c1 hev i (d2 _ hm)
    · exact c2 e he hev i hm

/-- After the definitions of the instruction at `pos` have been visited, the open segments
satisfy `SegFrom` from `pos`. -/
theorem scanInv_after_defs (prog : List MInstruction) (pos : Int) (n : Nat)
    (hn : pos = Int.ofNat n) (inst : MInstruction) (hinst : prog[n]? = some inst)
    (st : ScanState) (h : ScanInv prog (pos + 1) (pos + 1) st)
    (hno : ∀ d ∈ enumDefs inst, d.isVreg = true → ∀ i, (d, i) ∉ st.openSeg) :
    ScanInv prog pos (pos + 1) st := by
  obtain ⟨h1, h2⟩ := h
  refine ⟨?_, h2⟩
  intro v i hm
  obtain ⟨hv, s, hs, a, b, c⟩ := h1 v i hm
  refine ⟨hv, s, hs, by omega, b, ?_⟩
  intro p hp1 hp2 hw
  by_cases hp : p = pos
  · exfalso
    obtain ⟨m, hm1, inst1, hi1, hd1⟩ := hw
    have hmn : m = n := by
      rw [hp, hn] at hm1
      exact (Int.ofNat.inj hm1).symm
    subst hmn
    rw [hinst] at hi1
    simp only [Option.some.injEq] at hi1
    subst hi1
    exact hno v hd1 hv i hm
  · exact c p (by omega) hp2 hw

theorem scanUse_inv (prog : List MInstruction) (pos : Int) (n : Nat)
    (hn : pos = Int.ofNat n) (inst : MInstruction) (hinst : prog[n]? = some inst)
    (st : ScanState) (u : Register) (hu : u ∈ enumUses inst)
    (h : ScanInv prog pos (pos + 1) st) :
    ScanInv prog pos (pos + 1) (scanUse pos st u) ∧
    Grow st.intervals (scanUse pos st u).intervals ∧
    (u.isVreg = true → Cov (scanUse pos st u).intervals u pos) := by
  unfold scanUse
  cases hv : u.isVreg with
  | false =>
    simp only [Bool.not_false, if_true]
    exact ⟨h, grow_refl _, fun hc => by simp at hc⟩
  | true =>
    simp only [Bool.not_true, Bool.false_eq_true, if_false]
    cases hl : st.openSeg.lookup u with
    | none =>
      simp only
      have hseg : SegFrom prog u { start := pos, endPos := pos + 1 } pos := by
        intro p hp1 hp2 _
        simp only at hp2
        refine ⟨by simp only; omega, n, by omega, inst, hinst, hu⟩
      obtain ⟨a, b⟩ := scanInv_open prog pos (pos + 1) st u
        { start := pos, endPos := pos + 1 } h hv (le_refl _) (le_refl _) hseg
      refine ⟨a, b, fun _ => ?_⟩
      exact ⟨_, _, (segAt_pushSegment_new _ _ _).1, le_refl _, by simp⟩
    | some idx =>
      simp only
      obtain ⟨a, b, s, hs, hs1, hs2⟩ := scanInv_setStart prog pos (pos + 1) st u idx h
        (lookup_mem_reg _ _ _ hl)
      refine ⟨a, b, fun _ => ?_⟩
      exact ⟨idx, s, hs, by omega, by omega⟩

theorem foldl_scanUse_inv (prog : List MInstruction) (pos : Int) (n : Nat)
    (hn : pos = Int.ofNat n) (inst : MInstruction) (hinst : prog[n]? = some inst)
    (us : List Register) :
    ∀ st : ScanState, (∀ u ∈ us, u ∈ enumUses inst) → ScanInv prog pos (pos + 1) st →
      ScanInv prog pos (pos + 1) (us.foldl (scanUse pos) st) ∧
      Grow st.intervals (us.foldl (scanUse pos) st).intervals ∧
      (∀ u ∈ us, u.isVreg = true → Cov (us.foldl (scanUse pos) st).intervals u pos) := by
  induction us with
  | nil => intro st _ h; exact ⟨h, grow_refl _, by simp⟩
  | cons u rest ih =>
    intro st hsub h
    obtain ⟨a1, b1, c1⟩ := scanUse_inv prog pos n hn inst hinst st u
      (hsub u (List.mem_cons_self _ _)) h
    obtain ⟨a2, b2, c2⟩ := ih _ (fun w hw => hsub w (List.mem_cons_of_mem _ hw)) a1
    simp only [List.foldl_cons]
    refine ⟨a2, grow_trans _ _ _ b1 b2, ?_⟩
    intro w hw hwv
    rcases List.mem_cons.mp hw with rfl | hw
    · exact cov_grow _ _ b2 w pos (c1 hwv)
    · exact c2 w hw hwv

theorem scanInv_weaken (prog : List MInstruction) (pos : Int) (st : ScanState)
    (h : ScanInv prog pos (pos + 1) st) : ScanInv prog pos pos st := by
  obtain ⟨h1, h2⟩ := h
  refine ⟨?_, h2⟩
  intro v i hm
  obtain ⟨hv, s, hs, a, b, c⟩ := h1 v i hm
  exact ⟨hv, s, hs, a, by omega, c⟩

theorem scanInsts_inv (prog : List MInstruction) (l : List MInstruction) :
    ∀ (pos : Int) (st : ScanState), ScanInv prog (pos + 1) (pos + 1) st →
      (∀ (j : Nat) (inst : MInstruction), l[j]? = some inst →
        ∃ n : Nat, pos - (j : Int) = Int.ofNat n ∧ prog[n]? = some inst) →
      ScanInv prog (pos + 1 - (l.length : Int)) (pos + 1 - (l.length : Int))
        (scanInsts l pos st) ∧
      Grow st.intervals (scanInsts l pos st).intervals ∧
      (∀ (j : Nat) (inst : MInstruction), l[j]? = some inst →
        ∀ u ∈ enumUses inst, u.isVreg = true →
          Cov (scanInsts l pos st).intervals u (pos - (j : Int))) := by
  induction l with
  | nil =>
    intro pos st h _
    simp only [scanInsts, List.length_nil, Nat.cast_zero, sub_zero]
    exact ⟨h, grow_refl _, fun j inst hj => by simp at hj⟩
  | cons inst rest ih =>
    intro pos st h hprog
    obtain ⟨n, hn, hinst⟩ := hprog 0 inst (by simp)
    simp only [Nat.cast_zero, sub_zero] at hn
    obtain ⟨a1, b1, c1, _⟩ := foldl_scanDef_inv prog pos (enumDefs inst) st h
    have hmid := scanInv_after_defs prog pos n hn inst hinst _ a1 c1
    obtain ⟨a2, b2, c2⟩ := foldl_scanUse_inv prog pos n hn inst hinst (enumUses inst) _
      (fun u hu => hu) hmid
    have hw := scanInv_weaken prog pos _ a2
    have hpos : pos - 1 + 1 = pos := by omega
    have hw1 : ScanInv prog (pos - 1 + 1) (pos - 1 + 1)
        ((enumUses inst).foldl (scanUse pos) ((enumDefs inst).foldl (scanDef pos) st)) := by
      rw [hpos]; exact hw
    obtain ⟨a3, b3, c3⟩ := ih (pos - 1) _ hw1 (by
      intro j i1 hj
      obtain ⟨m, hm1, hm2⟩ := hprog (j + 1) i1 (by simpa using hj)
      refine ⟨m, ?_, hm2⟩
      rw [← hm1]
      push_cast
      omega)
    simp only [scanInsts]
    refine ⟨?_, grow_trans _ _ _ (grow_trans _ _ _ b1 b2) b3, ?_⟩
    · have he : pos + 1 - ((inst :: rest).length : Int) = pos - 1 + 1 - (rest.length : Int) := by
        simp only [List.length_cons]
        push_cast
        omega
      rw [he]
      exact a3
    · intro j i1 hj u hu huv
      cases j with
      | zero =>
        simp only [List.getElem?_cons_zero, Option.some.injEq] at hj
        subst hj
        simp only [Nat.cast_zero, sub_zero]
        exact cov_grow _ _ b3 u pos (c2 u hu huv)
      | succ k =>
        simp only [List.getElem?_cons_succ] at hj
        have := c3 k i1 hj u hu huv
        have he : pos - ((k + 1 : Nat) : Int) = pos - 1 - (k : Int) := by
          push_cast
          omega
        rw [he]
        exact this

theorem foldl_openLiveOut_inv (prog : List MInstruction) (blockEnd : Int)
    (rs : List Register) :
    ∀ st : ScanState, (∀ r ∈ rs, r.isVreg = true) → ScanInv prog blockEnd blockEnd st →
      ScanInv prog blockEnd blockEnd (rs.foldl (openLiveOut blockEnd) st) ∧
      Grow st.intervals (rs.foldl (openLiveOut blockEnd) st).intervals := by
  induction rs with
  | nil => intro st _ h; exact ⟨h, grow_refl _⟩
  | cons r rest ih =>
    intro st hv h
    have hseg : SegFrom prog r { start := blockEnd, endPos := blockEnd } blockEnd := by
      intro p hp1 hp2 _
      simp only at hp2
      omega
    obtain ⟨a1, b1⟩ := scanInv_open prog blockEnd blockEnd st r
      { start := blockEnd, endPos := blockEnd } h (hv r (List.mem_cons_self _ _))
      (le_refl _) (le_refl _) hseg
    obtain ⟨a2, b2⟩ := ih (openLiveOut blockEnd st r)
      (fun x hx => hv x (List.mem_cons_of_mem _ hx)) a1
    simp only [List.foldl_cons]
    exact ⟨a2, grow_trans _ _ _ b1 b2⟩

theorem foldl_closeOpen_inv (prog : List MInstruction) (q : Int)
    (es : List (Register × Nat)) :
    ∀ st : ScanState, (∀ e ∈ es, e ∈ st.openSeg) → ScanInv prog q q st →
      ScanInv prog q q
        { st with intervals :=
            es.foldl (fun iv ri => setSegStart iv ri.1 ri.2 q) st.intervals } ∧
      Grow st.intervals (es.foldl (fun iv ri => setSegStart iv ri.1 ri.2 q) st.intervals) := by
  induction es with
  | nil => intro st _ h; exact ⟨h, grow_refl _⟩
  | cons e rest ih =>
    intro st hsub h
    obtain ⟨a1, b1, _⟩ := scanInv_setStart prog q q st e.1 e.2 h
      (hsub e (List.mem_cons_self _ _))
    obtain ⟨a2, b2⟩ := ih { st with intervals := setSegStart st.intervals e.1 e.2 q }
      (fun x hx => hsub x (List.mem_cons_of_mem _ hx)) a1
    simp only [List.foldl_cons]
    exact ⟨a2, grow_trans _ _ _ b1 b2⟩

theorem allClosed_of_scanInv (prog : List MInstruction) (q : Int) (st : ScanState)
    (h : ScanInv prog q q st) : AllClosed prog st.intervals := by
  intro v i s hs
  by_cases hm : (v, i) ∈ st.openSeg
  · obtain ⟨_, t, ht, a, _, c⟩ := h.1 v i hm
    rw [hs] at ht
    simp only [Option.some.injEq] at ht
    subst ht
    exact segFrom_mono prog v s q _ (by omega) c
  · exact h.2 v i s hs hm

theorem scanInv_of_allClosed (prog : List MInstruction) (q : Int)
    (ivs : List (Register × Interval)) (h : AllClosed prog ivs) :
    ScanInv prog q q { intervals := ivs, openSeg := [] } :=
  ⟨fun v i hm => by simp at hm, fun v i s hs _ => h v i s hs⟩

theorem scanBlock_inv (prog : List MInstruction) (liveOut : List Register)
    (insts : List MInstruction) (n0 : Nat) (ivs : List (Register × Interval))
    (hclosed : AllClosed prog ivs)
    (hprog : ∀ (j : Nat) (inst : MInstruction), insts[j]? = some inst →
      prog[n0 + j]? = some inst) :
    AllClosed prog (scanBlock liveOut insts (Int.ofNat n0) ivs) ∧
    Grow ivs (scanBlock liveOut insts (Int.ofNat n0) ivs) ∧
    (∀ (j : Nat) (inst : MInstruction), insts[j]? = some inst →
      ∀ u ∈ enumUses inst, u.isVreg = true →
        Cov (scanBlock liveOut insts (Int.ofNat n0) ivs) u (Int.ofNat (n0 + j))) := by
  unfold scanBlock
  simp only
  have hlive : ∀ r ∈ (liveOut.filter (fun r => r.isVreg)).foldl setInsert [],
      r.isVreg = true := by
    intro r hr
    rcases (mem_foldl_setInsert _ _ _).mp hr with h | h
    · simp at h
    · exact (List.mem_filter.mp h).2
  obtain ⟨a0, b0⟩ := foldl_openLiveOut_inv prog (Int.ofNat n0 + Int.ofNat insts.length) _
    { intervals := ivs, openSeg := [] } hlive (scanInv_of_allClosed prog _ ivs hclosed)
  have hpos : Int.ofNat n0 + Int.ofNat insts.length - 1 + 1 =
      Int.ofNat n0 + Int.ofNat insts.length := by omega
  obtain ⟨a1, b1, c1⟩ := scanInsts_inv prog insts.reverse
    (Int.ofNat n0 + Int.ofNat insts.length - 1) _ (by rw [hpos]; exact a0) (by
      intro j inst hj
      have hjlt : j < insts.length := by
        by_contra hge
        rw [List.getElem?_eq_none (by simp; omega)] at hj
        exact Option.noConfusion hj
      rw [List.getElem?_reverse hjlt] at hj
      refine ⟨n0 + (insts.length - 1 - j), ?_, hprog _ inst hj⟩
      simp only [Int.ofNat_eq_coe]
      push_cast
      omega)
  have hq : Int.ofNat n0 + Int.ofNat insts.length - 1 + 1 - (insts.reverse.length : Int) =
      Int.ofNat n0 := by
    simp only [List.length_reverse, Int.ofNat_eq_coe]
    omega
  rw [hq] at a1
  obtain ⟨a2, b2⟩ := foldl_closeOpen_inv prog (Int.ofNat n0) _ _ (fun e he => he) a1
  refine ⟨allClosed_of_scanInv prog _ _ a2, grow_trans _ _ _ (grow_trans _ _ _ b0 b1) b2, ?_⟩
  intro j inst hj u hu huv
  have hjlt : j < insts.length := by
    by_contra hge
    rw [List.getElem?_eq_none (by omega)] at hj
    exact Option.noConfusion hj
  have hrev : insts.reverse[insts.length - 1 - j]? = some inst := by
    rw [List.getElem?_reverse (by omega)]
    have : insts.length - 1 - (insts.length - 1 - j) = j := by omega
    rw [this]
    exact hj
  have hc := c1 _ inst hrev u hu huv
  have he : Int.ofNat n0 + Int.ofNat insts.length - 1 - ((insts.length - 1 - j : Nat) : Int) =
      Int.ofNat (n0 + j) := by
    simp only [Int.ofNat_eq_coe]
    push_cast
    omega
  rw [he] at hc
  exact cov_grow _ _ b2 u _ hc

theorem buildIntervals_inv (prog : List MInstruction) (liveOut : Nat → List Register) :
    ∀ (blocks : BlockMap) (n0 : Nat) (ivs : List (Register × Interval)),
      AllClosed prog ivs →
      (∀ (j : Nat) (inst : MInstruction), (linearInsts blocks)[j]? = some inst →
        prog[n0 + j]? = some inst) →
      AllClosed prog (buildIntervals liveOut blocks (Int.ofNat n0) ivs) ∧
      Grow ivs (buildIntervals liveOut blocks (Int.ofNat n0) ivs) ∧
      (∀ (j : Nat) (inst : MInstruction), (linearInsts blocks)[j]? = some inst →
        ∀ u ∈ enumUses inst, u.isVreg = true →
          Cov (buildIntervals liveOut blocks (Int.ofNat n0) ivs) u (Int.ofNat (n0 + j))) := by
  intro blocks
  induction blocks with
  | nil =>
    intro n0 ivs h _
    simp only [buildIntervals]
    exact ⟨h, grow_refl _, fun j inst hj => by simp [linearInsts] at hj⟩
  | cons kb rest ih =>
    intro n0 ivs h hprog
    obtain ⟨bid, block⟩ := kb
    have hlin : linearInsts ((bid, block) :: rest) = block.insts ++ linearInsts rest := by
      simp [linearInsts]
    rw [hlin] at hprog
    obtain ⟨a1, b1, c1⟩ := scanBlock_inv prog (liveOut bid) block.insts n0 ivs h (by
      intro j inst hj
      have hjlt : j < block.insts.length := by
        by_contra hge
        rw [List.getElem?_eq_none (by omega)] at hj
        exact Option.noConfusion hj
      apply hprog j inst
      rw [List.getElem?_append_left hjlt]
      exact hj)
    have hcast : Int.ofNat n0 + Int.ofNat block.insts.length =
        Int.ofNat (n0 + block.insts.length) := by
      simp only [Int.ofNat_eq_coe]
      push_cast
      rfl
    obtain ⟨a2, b2, c2⟩ := ih (n0 + block.insts.length) _ a1 (by
      intro j inst hj
      have := hprog (block.insts.length + j) inst (by
        rw [List.getElem?_append_right (by omega)]
        have : block.insts.length + j - block.insts.length = j := by omega
        rw [this]
        exact hj)
      rw [← Nat.add_assoc] at this
      exact this)
    simp only [buildIntervals]
    rw [hcast]
    refine ⟨a2, grow_trans _ _ _ b1 b2, ?_⟩
    intro j inst hj u hu huv
    rw [hlin] at hj
    by_cases hjlt : j < block.insts.length
    · rw [List.getElem?_append_left hjlt] at hj
      exact cov_grow _ _ b2 u _ (c1 j inst hj u hu huv)
    · rw [List.getElem?_append_right (by omega)] at hj
      have := c2 (j - block.insts.length) inst hj u hu huv
      have he : n0 + block.insts.length + (j - block.insts.length) = n0 + j := by omega
      rw [he] at this
      exact this

/-- A property of the map `intervals` that appending a segment and moving the start of a
segment keep is kept by the construction of the intervals. -/
theorem preserved_openLiveOut (P : List (Register × Interval) → Prop)
    (hpush : ∀ ivs r seg, P ivs → P (pushSegment ivs r seg).1)
    (blockEnd : Int) (rs : List Register) :
    ∀ st : ScanState, P st.intervals → P (rs.foldl (openLiveOut blockEnd) st).intervals := by
  induction rs with
  | nil => intro st h; exact h
  | cons r rest ih =>
    intro st h
    simp only [List.foldl_cons]
    exact ih _ (hpush _ _ _ h)

theorem preserved_scanDef (P : List (Register × Interval) → Prop)
    (hset : ∀ ivs r idx pos, P ivs → P (setSegStart ivs r idx pos))
    (pos : Int) (st : ScanState) (d : Register) (h : P st.intervals) :
    P (scanDef pos st d).intervals := by
  unfold scanDef
  split
  · exact h
  · split
    · exact hset _ _ _ _ h
    · exact h

theorem preserved_scanUse (P : List (Register × Interval) → Prop)
    (hpush : ∀ ivs r seg, P ivs → P (pushSegment ivs r seg).1)
    (hset : ∀ ivs r idx pos, P ivs → P (setSegStart ivs r idx pos))
    (pos : Int) (st : ScanState) (u : Register) (h : P st.intervals) :
    P (scanUse pos st u).intervals := by
  unfold scanUse
  split
  · exact h
  · split
    · exact hpush _ _ _ h
    · exact hset _ _ _ _ h

theorem preserved_foldl_scanDef (P : List (Register × Interval) → Prop)
    (hset : ∀ ivs r idx pos, P ivs → P (setSegStart ivs r idx pos))
    (pos : Int) (ds : List Register) :
    ∀ st : ScanState, P st.intervals → P (ds.foldl (scanDef pos) st).intervals := by
  induction ds with
  | nil => intro st h; exact h
  | cons d rest ih =>
    intro st h
    simp only [List.foldl_cons]
    exact ih _ (preserved_scanDef P hset pos st d h)

theorem preserved_foldl_scanUse (P : List (Register × Interval) → Prop)
    (hpush : ∀ ivs r seg, P ivs → P (pushSegment ivs r seg).1)
    (hset : ∀ ivs r idx pos, P ivs → P (setSegStart ivs r idx pos))
    (pos : Int) (us : List Register) :
    ∀ st : ScanState, P st.intervals → P (us.foldl (scanUse pos) st).intervals := by
  induction us with
  | nil => intro st h; exact h
  | cons u rest ih =>
    intro st h
    simp only [List.foldl_cons]
    exact ih _ (preserved_scanUse P hpush hset pos st u h)

theorem preserved_scanInsts (P : List (Register × Interval) → Prop)
    (hpush : ∀ ivs r seg, P ivs → P (pushSegment ivs r seg).1)
    (hset : ∀ ivs r idx pos, P ivs → P (setSegStart ivs r idx pos))
    (l : List MInstruction) :
    ∀ (pos : Int) (st : ScanState), P st.intervals → P (scanInsts l pos st).intervals := by
  induction l with
  | nil => intro pos st h; exact h
  | cons inst rest ih =>
    intro pos st h
    simp only [scanInsts]
    exact ih _ _ (preserved_foldl_scanUse P hpush hset pos _ _
      (preserved_foldl_scanDef P hset pos _ _ h))

theorem preserved_closeOpen (P : List (Register × Interval) → Prop)
    (hset : ∀ ivs r idx pos, P ivs → P (setSegStart ivs r idx pos))
    (q : Int) (es : List (Register × Nat)) :
    ∀ ivs : List (Register × Interval), P ivs →
      P (es.foldl (fun iv ri => setSegStart iv ri.1 ri.2 q) ivs) := by
  induction es with
  | nil => intro ivs h; exact h
  | cons e rest ih =>
    intro ivs h
    simp only [List.foldl_cons]
    exact ih _ (hset _ _ _ _ h)

theorem preserved_scanBlock (P : List (Register × Interval) → Prop)
    (hpush : ∀ ivs r seg, P ivs → P (pushSegment ivs r seg).1)
    (hset : ∀ ivs r idx pos, P ivs → P (setSegStart ivs r idx pos))
    (liveOut : List Register) (insts : List MInstruction)
    (blockStart : Int) (ivs : List (Register × Interval)) (h : P ivs) :
    P (scanBlock liveOut insts blockStart ivs) := by
  unfold scanBlock
  simp only
  apply preserved_closeOpen P hset
  apply preserved_scanInsts P hpush hset
  apply preserved_openLiveOut P hpush
  exact h

theorem preserved_buildIntervals (P : List (Register × Interval) → Prop)
    (hpush : ∀ ivs r seg, P ivs → P (pushSegment ivs r seg).1)
    (hset : ∀ ivs r idx pos, P ivs → P (setSegStart ivs r idx pos))
    (liveOut : Nat → List Register) :
    ∀ (blocks : BlockMap) (pos : Int) (ivs : List (Register × Interval)), P ivs →
      P (buildIntervals liveOut blocks pos ivs) := by
  intro blocks
  induction blocks with
  | nil => intro pos ivs h; exact h
  | cons kb rest ih =>
    intro pos ivs h
    obtain ⟨bid, block⟩ := kb
    simp only [buildIntervals]
    exact ih _ _ (preserved_scanBlock P hpush hset _ _ _ _ h)

theorem keyOK_buildIntervals (liveOut : Nat → List Register) (blocks : BlockMap) (pos : Int)
    (ivs : List (Register × Interval)) (h : KeyOK ivs) :
    KeyOK (buildIntervals liveOut blocks pos ivs) :=
  preserved_buildIntervals KeyOK keyOK_pushSegment keyOK_setSegStart liveOut blocks pos ivs h

theorem register_key_inj (a b : Register) (h : a.key = b.key) : a = b := by
  obtain ⟨ia, da, va⟩ := a
  obtain ⟨ib, db, vb⟩ := b
  simp only [Register.key, Prod.mk.injEq] at h
  obtain ⟨h1, h2, h3⟩ := h
  subst h1
  have hv : va = vb := by
    cases va <;> cases vb <;> simp at h2 ⊢
  subst hv
  have hd : da = db := by
    cases da with
    | none =>
      cases db with
      | none => rfl
      | some y => cases y <;> simp at h3
    | some x =>
      cases db with
      | none => cases x <;> simp at h3
      | some y => cases x <;> cases y <;> simp at h3 ⊢
  subst hd
  rfl

theorem register_lt_iff (a b : Register) :
    Register.lt a b = true ↔
      a.key.1 < b.key.1 ∨ (a.key.1 = b.key.1 ∧
        (a.key.2.1 < b.key.2.1 ∨ (a.key.2.1 = b.key.2.1 ∧ a.key.2.2 < b.key.2.2))) := by
  unfold Register.lt
  simp only [Bool.or_eq_true, Bool.and_eq_true, decide_eq_true_eq]

theorem register_lt_irrefl (a : Register) : Register.lt a a = false := by
  rw [Bool.eq_false_iff]
  intro h
  rw [register_lt_iff] at h
  omega

theorem register_lt_trans (a b c : Register) (h1 : Register.lt a b = true)
    (h2 : Register.lt b c = true) : Register.lt a c = true := by
  rw [register_lt_iff] at h1 h2 ⊢
  omega

theorem register_lt_total (a b : Register) (hne : a ≠ b) (h : Register.lt a b = false) :
    Register.lt b a = true := by
  have hk : a.key ≠ b.key := fun hk => hne (register_key_inj a b hk)
  have hk2 : ¬ (a.key.1 = b.key.1 ∧ a.key.2.1 = b.key.2.1 ∧ a.key.2.2 = b.key.2.2) := by
    intro ⟨e1, e2, e3⟩
    exact hk (Prod.ext e1 (Prod.ext e2 e3))
  rw [Bool.eq_false_iff, ne_eq, register_lt_iff] at h
  rw [register_lt_iff]
  omega

theorem regMapInsert_sorted {β : Type} (k : Register) (v : β) (m : List (Register × β))
    (h : KeysSorted m) : KeysSorted (regMapInsert k v m) := by
  unfold KeysSorted at h ⊢
  induction m with
  | nil => simp [regMapInsert]
  | cons hd tl ih =>
    obtain ⟨k1, v1⟩ := hd
    rw [List.pairwise_cons] at h
    simp only [regMapInsert]
    by_cases hk : k = k1
    · subst hk
      simp only [if_true]
      exact List.pairwise_cons.mpr h
    · rw [if_neg hk]
      cases hlt : Register.lt k k1 with
      | true =>
        simp only [if_true]
        rw [List.pairwise_cons]
        refine ⟨?_, List.pairwise_cons.mpr h⟩
        intro x hx
        rcases List.mem_cons.mp hx with rfl | hx
        · exact hlt
        · exact register_lt_trans _ _ _ hlt (h.1 x hx)
      | false =>
        simp only [Bool.false_eq_true, if_false]
        rw [List.pairwise_cons]
        refine ⟨?_, ih h.2⟩
        intro x hx
        rcases mem_regMapInsert _ _ _ _ hx with rfl | hx
        · exact register_lt_total k k1 hk hlt
        · exact h.1 x hx

theorem keysSorted_pushSegment (ivs : List (Register × Interval)) (r : Register)
    (seg : Segment) (h : KeysSorted ivs) : KeysSorted (pushSegment ivs r seg).1 := by
  unfold pushSegment
  split <;> exact regMapInsert_sorted _ _ _ h

theorem keysSorted_setSegStart (ivs : List (Register × Interval)) (r : Register) (idx : Nat)
    (pos : Int) (h : KeysSorted ivs) : KeysSorted (setSegStart ivs r idx pos) := by
  unfold setSegStart
  split
  · exact regMapInsert_sorted _ _ _ h
  · exact h

theorem keysSorted_buildIntervals (liveOut : Nat → List Register) (blocks : BlockMap)
    (pos : Int) : KeysSorted (buildIntervals liveOut blocks pos []) :=
  preserved_buildIntervals KeysSorted keysSorted_pushSegment keysSorted_setSegStart liveOut
    blocks pos [] List.Pairwise.nil

theorem keysSorted_nodup {β : Type} (m : List (Register × β)) (h : KeysSorted m) :
    (m.map (fun x => x.1)).Nodup := by
  unfold KeysSorted at h
  rw [List.Nodup, List.pairwise_map]
  refine h.imp ?_
  intro x y hxy heq
  rw [heq, register_lt_irrefl] at hxy
  exact Bool.noConfusion hxy

theorem lookup_of_mem_sorted {β : Type} (m : List (Register × β)) (h : KeysSorted m)
    (k : Register) (v : β) (hm : (k, v) ∈ m) : m.lookup k = some v := by
  unfold KeysSorted at h
  induction m with
  | nil => simp at hm
  | cons hd tl ih =>
    obtain ⟨k1, v1⟩ := hd
    rw [List.pairwise_cons] at h
    simp only [List.lookup]
    rcases List.mem_cons.mp hm with heq | hm2
    · simp only [Prod.mk.injEq] at heq
      obtain ⟨rfl, rfl⟩ := heq
      simp
    · have hne : k ≠ k1 := by
        intro heq
        have := h.1 (k, v) hm2
        simp only at this
        rw [heq, register_lt_irrefl] at this
        exact Bool.noConfusion this
      have : (k == k1) = false := by simpa using hne
      rw [this]
      exact ih h.2 hm2

theorem segLess_true (a b : Segment) (h : segLess a b = true) : a.start ≤ b.start := by
  unfold segLess at h
  simp only [Bool.or_eq_true, Bool.and_eq_true, decide_eq_true_eq] at h
  rcases h with h | ⟨h, _⟩ <;> omega

theorem segLess_false (a b : Segment) (h : segLess a b = false) : b.start ≤ a.start := by
  unfold segLess at h
  simp only [Bool.or_eq_false_iff, decide_eq_false_iff_not, Bool.and_eq_false_imp,
    decide_eq_true_eq] at h
  omega

theorem mem_segInsert (x y : Segment) (l : List Segment) :
    y ∈ segInsert x l ↔ y = x ∨ y ∈ l := by
  induction l with
  | nil => simp [segInsert]
  | cons hd tl ih =>
    simp only [segInsert]
    split
    · simp
    · simp only [List.mem_cons, ih]
      tauto

theorem mem_segSort (y : Segment) (l : List Segment) :
    y ∈ l.foldr segInsert [] ↔ y ∈ l := by
  induction l with
  | nil => simp
  | cons hd tl ih => simp only [List.foldr_cons, mem_segInsert, ih, List.mem_cons]

theorem segInsert_sorted (x : Segment) (l : List Segment)
    (h : l.Pairwise (fun a b => a.start ≤ b.start)) :
    (segInsert x l).Pairwise (fun a b => a.start ≤ b.start) := by
  induction l with
  | nil => simp [segInsert]
  | cons y ys ih =>
    rw [List.pairwise_cons] at h
    simp only [segInsert]
    cases hxy : segLess x y with
    | true =>
      simp only [if_true]
      have hle := segLess_true x y hxy
      rw [List.pairwise_cons]
      refine ⟨?_, List.pairwise_cons.mpr h⟩
      intro z hz
      rcases List.mem_cons.mp hz with rfl | hz
      · exact hle
      · exact le_trans hle (h.1 z hz)
    | false =>
      simp only [Bool.false_eq_true, if_false]
      have hle := segLess_false x y hxy
      rw [List.pairwise_cons]
      refine ⟨?_, ih h.2⟩
      intro z hz
      rcases (mem_segInsert x z ys).mp hz with rfl | hz
      · exact hle
      · exact h.1 z hz

theorem segSort_sorted (l : List Segment) :
    (l.foldr segInsert []).Pairwise (fun a b => a.start ≤ b.start) := by
  induction l with
  | nil => simp
  | cons hd tl ih =>
    simp only [List.foldr_cons]
    exact segInsert_sorted hd _ ih

/-- What the loop of `merge` keeps covers what the sorted segments cover. -/
theorem mergeFold_covers (l : List Segment) :
    ∀ out : List Segment, l.Pairwise (fun a b => a.start ≤ b.start) →
      (∀ last, out.getLast? = some last → ∀ s ∈ l, last.start ≤ s.start) →
      ∀ p : Int, ((∃ t ∈ out, t.start ≤ p ∧ p < t.endPos) ∨
          (∃ s ∈ l, s.start ≤ p ∧ p < s.endPos)) →
        ∃ t ∈ l.foldl mergeStep out, t.start ≤ p ∧ p < t.endPos := by
  induction l with
  | nil =>
    intro out _ _ p h
    rcases h with h | ⟨s, hs, _⟩
    · exact h
    · simp at hs
  | cons s rest ih =>
    intro out hs hlast p h
    rw [List.pairwise_cons] at hs
    simp only [List.foldl_cons]
    apply ih (mergeStep out s) hs.2
    · -- the last kept segment starts before the remaining ones
      intro last1 hl1 s1 hs1
      unfold mergeStep at hl1
      cases hout : out.getLast? with
      | none =>
        simp only [hout, List.getLast?_singleton, Option.some.injEq] at hl1
        subst hl1
        exact hs.1 s1 hs1
      | some last =>
        simp only [hout] at hl1
        split at hl1
        · rw [List.getLast?_concat] at hl1
          simp only [Option.some.injEq] at hl1
          subst hl1
          exact hs.1 s1 hs1
        · split at hl1
          · rw [List.getLast?_concat] at hl1
            simp only [Option.some.injEq] at hl1
            subst hl1
            exact hlast last hout s1 (List.mem_cons_of_mem _ hs1)
          · rw [hout] at hl1
            simp only [Option.some.injEq] at hl1
            subst hl1
            exact hlast last hout s1 (List.mem_cons_of_mem _ hs1)
    · -- coverage
      have hcov : (∃ t ∈ out, t.start ≤ p ∧ p < t.endPos) ∨ (s.start ≤ p ∧ p < s.endPos) ∨
          (∃ s1 ∈ rest, s1.start ≤ p ∧ p < s1.endPos) := by
        rcases h with h | ⟨s1, hs1, hp⟩
        · exact Or.inl h
        · rcases List.mem_cons.mp hs1 with rfl | hs1
          · exact Or.inr (Or.inl hp)
          · exact Or.inr (Or.inr ⟨s1, hs1, hp⟩)
      rcases hcov with ⟨t, ht, hp⟩ | hp | h3
      · left
        unfold mergeStep
        cases hout : out.getLast? with
        | none =>
          rw [List.getLast?_eq_none_iff] at hout
          subst hout
          simp at ht
        | some last =>
          simp only
          obtain ⟨ys, hys⟩ := List.getLast?_eq_some_iff.mp hout
          split
          · exact ⟨t, List.mem_append.mpr (Or.inl ht), hp⟩
          · split
            · rename_i h1 h2
              rw [hys, List.dropLast_concat]
              rw [hys] at ht
              rcases List.mem_append.mp ht with ht | ht
              · exact ⟨t, List.mem_append.mpr (Or.inl ht), hp⟩
              · simp only [List.mem_singleton] at ht
                subst ht
                exact ⟨_, List.mem_append.mpr (Or.inr (List.mem_singleton.mpr rfl)),
                  hp.1, by simp only; omega⟩
            · exact ⟨t, ht, hp⟩
      · left
        unfold mergeStep
        cases hout : out.getLast? with
        | none => exact ⟨s, by simp, hp⟩
        | some last =>
          simp only
          have hls := hlast last hout s (List.mem_cons_self _ _)
          obtain ⟨ys, hys⟩ := List.getLast?_eq_some_iff.mp hout
          split
          · exact ⟨s, List.mem_append.mpr (Or.inr (List.mem_singleton.mpr rfl)), hp⟩
          · split
            · exact ⟨_, List.mem_append.mpr (Or.inr (List.mem_singleton.mpr rfl)),
                by simp only; omega, by simp only; omega⟩
            · rename_i h1 h2
              refine ⟨last, ?_, by omega, by omega⟩
              rw [hys]
              simp
      · exact Or.inr h3

/-- What the loop of `merge` keeps is covered by the segments it has read. -/
theorem mergeFold_covered (segs : List Segment) (l : List Segment) :
    ∀ out : List Segment, (∀ s ∈ l, s ∈ segs) →
      (∀ t ∈ out, ∀ p : Int, t.start ≤ p → p < t.endPos →
        ∃ s ∈ segs, s.start ≤ p ∧ p < s.endPos) →
      ∀ t ∈ l.foldl mergeStep out, ∀ p : Int, t.start ≤ p → p < t.endPos →
        ∃ s ∈ segs, s.start ≤ p ∧ p < s.endPos := by
  induction l with
  | nil => intro out _ h; exact h
  | cons s rest ih =>
    intro out hl h
    simp only [List.foldl_cons]
    apply ih (mergeStep out s) (fun x hx => hl x (List.mem_cons_of_mem _ hx))
    have hs := hl s (List.mem_cons_self _ _)
    intro t ht p hp1 hp2
    unfold mergeStep at ht
    cases hout : out.getLast? with
    | none =>
      simp only [hout, List.mem_singleton] at ht
      subst ht
      exact ⟨t, hs, hp1, hp2⟩
    | some last =>
      simp only [hout] at ht
      obtain ⟨ys, hys⟩ := List.getLast?_eq_some_iff.mp hout
      split at ht
      · rcases List.mem_append.mp ht with ht | ht
        · exact h t ht p hp1 hp2
        · simp only [List.mem_singleton] at ht
          subst ht
          exact ⟨t, hs, hp1, hp2⟩
      · split at ht
        · rename_i h1 h2
          rw [hys, List.dropLast_concat] at ht
          rcases List.mem_append.mp ht with ht | ht
          · exact h t (by rw [hys]; exact List.mem_append.mpr (Or.inl ht)) p hp1 hp2
          · simp only [List.mem_singleton] at ht
            subst ht
            simp only at hp1 hp2
            by_cases hpl : p < last.endPos
            · exact h last (by rw [hys]; simp) p hp1 hpl
            · exact ⟨s, hs, by omega, hp2⟩
        · exact h t ht p hp1 hp2

theorem merge_covers (itv : Interval) (s : Segment) (hs : s ∈ itv.segs) (p : Int)
    (h1 : s.start ≤ p) (h2 : p < s.endPos) :
    ∃ t ∈ itv.merge.segs, t.start ≤ p ∧ p < t.endPos := by
  unfold Interval.merge
  split
  · exact ⟨s, hs, h1, h2⟩
  · simp only
    exact mergeFold_covers _ [] (segSort_sorted itv.segs) (fun last hl => by simp at hl) p
      (Or.inr ⟨s, (mem_segSort s itv.segs).mpr hs, h1, h2⟩)

theorem merge_covered (itv : Interval) (t : Segment) (ht : t ∈ itv.merge.segs) (p : Int)
    (h1 : t.start ≤ p) (h2 : p < t.endPos) :
    ∃ s ∈ itv.segs, s.start ≤ p ∧ p < s.endPos := by
  unfold Interval.merge at ht
  split at ht
  · exact ⟨t, ht, h1, h2⟩
  · simp only at ht
    exact mergeFold_covered itv.segs _ [] (fun s hs => (mem_segSort s itv.segs).mp hs)
      (fun t ht => by simp at ht) t ht p h1 h2

theorem merge_vreg (itv : Interval) : itv.merge.vreg = itv.vreg := by
  unfold Interval.merge
  split <;> rfl

theorem allClosed_nil (prog : List MInstruction) : AllClosed prog [] := by
  intro v i s hs
  simp [segAt] at hs

theorem keyOK_nil : KeyOK [] := by
  intro v itv h
  simp at h

theorem buildIntervals_facts (liveOut : Nat → List Register) (blocks : BlockMap) :
    AllClosed (linearInsts blocks) (buildIntervals liveOut blocks 0 []) ∧
    KeyOK (buildIntervals liveOut blocks 0 []) ∧
    (∀ (p : Nat) (inst : MInstruction), (linearInsts blocks)[p]? = some inst →
      ∀ u ∈ enumUses inst, u.isVreg = true →
        Cov (buildIntervals liveOut blocks 0 []) u (Int.ofNat p)) := by
  obtain ⟨a, _, c⟩ := buildIntervals_inv (linearInsts blocks) liveOut blocks 0 []
    (allClosed_nil _) (by intro j inst hj; simpa using hj)
  refine ⟨a, keyOK_buildIntervals liveOut blocks 0 [] keyOK_nil, ?_⟩
  intro p inst hp u hu huv
  have := c p inst hp u hu huv
  simpa using this

/-- The map `intervals` holds one interval per register, also after `merge` and after the
marking of the intervals that cross a call. -/
theorem builtIntervals_nodup (liveOut : Nat → List Register) (blocks : BlockMap)
    (callPoints : List Int) :
    (((buildIntervals liveOut blocks 0 []).map (fun ri => ri.2.merge)).map
      (fun x => x.vreg)).Nodup ∧
    ((((buildIntervals liveOut blocks 0 []).map (fun ri => ri.2.merge)).map
      (markCrossesCall callPoints)).map (fun x => x.vreg)).Nodup := by
  have hs := keysSorted_buildIntervals liveOut blocks 0
  have hk := (buildIntervals_facts liveOut blocks).2.1
  have h1 : ((buildIntervals liveOut blocks 0 []).map (fun ri => ri.2.merge)).map
      (fun x => x.vreg) = (buildIntervals liveOut blocks 0 []).map (fun x => x.1) := by
    rw [List.map_map]
    apply List.map_congr_left
    intro ri hri
    simp only [Function.comp_apply]
    rw [merge_vreg]
    exact hk ri.1 ri.2 (lookup_of_mem_sorted _ hs ri.1 ri.2 hri)
  have h2 : (((buildIntervals liveOut blocks 0 []).map (fun ri => ri.2.merge)).map
      (markCrossesCall callPoints)).map (fun x => x.vreg) =
      ((buildIntervals liveOut blocks 0 []).map (fun ri => ri.2.merge)).map
        (fun x => x.vreg) := by
    rw [List.map_map]
    apply List.map_congr_left
    intro x _
    simp only [Function.comp_apply]
    exact markCrossesCall_vreg callPoints x
  rw [h2, h1]
  exact ⟨keysSorted_nodup _ hs, keysSorted_nodup _ hs⟩

/-- Claim C21: whatever the sets `OUT` of the liveness analysis are, for every virtual
register `v` and every position `p` of the numbering whose instruction has `v` among its
uses, the map `intervals` holds an interval for `v` and, after `merge`, this interval has
a segment `[s, e)` with `s ≤ p < e`. -/
theorem buildIntervals_covers_uses (liveOut : Nat → List Register) (blocks : BlockMap)
    (p : Nat) (inst : MInstruction) (v : Register)
    (hp : (linearInsts blocks)[p]? = some inst) (hv : v ∈ enumUses inst)
    (hvreg : v.isVreg = true) :
    ∃ itv ∈ (buildIntervals liveOut blocks 0 []).map (fun ri => ri.2.merge),
      itv.vreg = v ∧ ∃ s ∈ itv.segs, s.start ≤ Int.ofNat p ∧ Int.ofNat p < s.endPos := by
  obtain ⟨_, hkey, hcov⟩ := buildIntervals_facts liveOut blocks
  obtain ⟨i, s, hs, h1, h2⟩ := hcov p inst hp v hv hvreg
  unfold segAt at hs
  cases hl : (buildIntervals liveOut blocks 0 []).lookup v with
  | none => simp [hl] at hs
  | some itv =>
    simp only [hl] at hs
    obtain ⟨t, ht, ht1, ht2⟩ := merge_covers itv s (List.getElem?_mem hs) _ h1 h2
    refine ⟨itv.merge, List.mem_map.mpr ⟨(v, itv), lookup_mem_reg _ _ _ hl, rfl⟩, ?_,
      t, ht, ht1, ht2⟩
    rw [merge_vreg]
    exact hkey v itv hl

theorem buildIntervals_covers_uses_witness :
    (linearInsts selfUpdate)[2]? = some (.target (createIInst .ADDIW PR.a0 (vreg 1) 0)) ∧
    (buildIntervals (fun _ => []) selfUpdate 0 []).map (fun ri => ri.2.merge) =
      [{ vreg := vreg 1, segs := [{ start := 0, endPos := 3 }], crossesCall := false }] ∧
    ∃ itv ∈ (buildIntervals (fun _ => []) selfUpdate 0 []).map (fun ri => ri.2.merge),
      itv.vreg = vreg 1 ∧ ∃ s ∈ itv.segs, s.start ≤ Int.ofNat 2 ∧ Int.ofNat 2 < s.endPos :=
  ⟨by decide, by decide,
    buildIntervals_covers_uses (fun _ => []) selfUpdate 2
      (.target (createIInst .ADDIW PR.a0 (vreg 1) 0)) (vreg 1) (by decide) (by decide) rfl⟩

/-- Counterexample to claim C22: in the block `LI v1, 5; ADDIW v1, v1, 0; ADDIW a0, v1, 0;
ret` the scan builds the segments `[1, 3)` and `[0, 2)` for `v1`, `merge` joins them to
`[0, 3)`, and the instruction at position 1, which lies strictly inside, writes `v1`. -/
theorem selfUpdate_written_inside_segment :
    (buildIntervals (fun _ => []) selfUpdate 0 []).map (fun ri => (ri.2.segs, ri.2.merge.segs))
      = [([{ start := 1, endPos := 3 }, { start := 0, endPos := 2 }],
          [{ start := 0, endPos := 3 }])] ∧
    (linearInsts selfUpdate)[1]? = some (.target (createIInst .ADDIW (vreg 1) (vreg 1) 0)) ∧
    vreg 1 ∈ enumDefs (.target (createIInst .ADDIW (vreg 1) (vreg 1) 0)) ∧
    (0 : Int) < 1 ∧ (1 : Int) < 3 := by
  decide

/-- Claim C22, amended: let `itv` be the interval of the map `intervals` for `v` and let the
instruction at position `p` write `v`. If `p` lies strictly inside a segment `[s, e)` of
`itv` as built, before `merge`, then `p` is the last position `e - 1` of the segment and the
instruction also reads `v` (as `ADDIW r, r, 0` does). If `p` lies strictly inside a segment
of `itv` after `merge`, then the instruction also reads `v`, or `p` is the start of one of
the segments that `merge` has joined. -/
theorem buildIntervals_writes_inside (liveOut : Nat → List Register) (blocks : BlockMap)
    (v : Register) (itv : Interval)
    (hmem : (v, itv) ∈ buildIntervals liveOut blocks 0 [])
    (p : Nat) (inst : MInstruction) (hp : (linearInsts blocks)[p]? = some inst)
    (hw : v ∈ enumDefs inst) :
    (∀ s ∈ itv.segs, s.start < Int.ofNat p → Int.ofNat p < s.endPos →
      Int.ofNat p = s.endPos - 1 ∧ v ∈ enumUses inst) ∧
    (∀ t ∈ itv.merge.segs, t.start < Int.ofNat p → Int.ofNat p < t.endPos →
      v ∈ enumUses inst ∨ ∃ s ∈ itv.segs, s.start = Int.ofNat p) := by
  obtain ⟨hclosed, _, _⟩ := buildIntervals_facts liveOut blocks
  have hl := lookup_of_mem_sorted _ (keysSorted_buildIntervals liveOut blocks 0) v itv hmem
  have hA : ∀ s ∈ itv.segs, s.start < Int.ofNat p → Int.ofNat p < s.endPos →
      Int.ofNat p = s.endPos - 1 ∧ v ∈ enumUses inst := by
    intro s hs h1 h2
    obtain ⟨i, hi⟩ := List.getElem?_of_mem hs
    have hseg : segAt (buildIntervals liveOut blocks 0 []) v i = some s := by
      unfold segAt
      rw [hl]
      exact hi
    obtain ⟨e1, n, hn, inst1, hi1, hu1⟩ := hclosed v i s hseg (Int.ofNat p) (by omega) h2
      ⟨p, rfl, inst, hp, hw⟩
    have hnp : n = p := (Int.ofNat.inj hn).symm
    subst hnp
    rw [hp] at hi1
    simp only [Option.some.injEq] at hi1
    subst hi1
    exact ⟨e1, hu1⟩
  refine ⟨hA, ?_⟩
  intro t ht h1 h2
  obtain ⟨s, hs, hs1, hs2⟩ := merge_covered itv t ht (Int.ofNat p) (le_of_lt h1) h2
  by_cases hlt : s.start < Int.ofNat p
  · exact Or.inl (hA s hs hlt hs2).2
  · exact Or.inr ⟨s, hs, by omega⟩

theorem buildIntervals_writes_inside_witness :
    (vreg 1, selfUpdateInterval) ∈ buildIntervals (fun _ => []) selfUpdate 0 [] ∧
    (linearInsts selfUpdate)[1]? = some (.target (createIInst .ADDIW (vreg 1) (vreg 1) 0)) ∧
    selfUpdateInterval.merge.segs = [{ start := 0, endPos := 3 }] ∧
    ((∀ s ∈ selfUpdateInterval.segs, s.start < Int.ofNat 1 → Int.ofNat 1 < s.endPos →
        Int.ofNat 1 = s.endPos - 1 ∧
          vreg 1 ∈ enumUses (.target (createIInst .ADDIW (vreg 1) (vreg 1) 0))) ∧
      (∀ t ∈ selfUpdateInterval.merge.segs, t.start < Int.ofNat 1 → Int.ofNat 1 < t.endPos →
        vreg 1 ∈ enumUses (.target (createIInst .ADDIW (vreg 1) (vreg 1) 0)) ∨
          ∃ s ∈ selfUpdateInterval.segs, s.start = Int.ofNat 1)) :=
  ⟨by decide, by decide, by decide,
    buildIntervals_writes_inside (fun _ => []) selfUpdate (vreg 1) selfUpdateInterval
      (by decide) 1 (.target (createIInst .ADDIW (vreg 1) (vreg 1) 0)) (by decide)
      (by decide)⟩

/-! ### Linear scan: the segments that `Interval::merge` leaves -/

theorem segLess_total (x y : Segment) (h : segLess x y = false) :
    segLess y x = true ∨ y = x := by
  unfold segLess at h ⊢
  simp only [Bool.or_eq_false_iff, decide_eq_false_iff_not, Bool.and_eq_false_imp,
    decide_eq_true_eq, Bool.or_eq_true, Bool.and_eq_true] at h ⊢
  obtain ⟨h1, h2⟩ := h
  by_cases hs : y.start < x.start
  · exact Or.inl (Or.inl hs)
  · have hse : x.start = y.start := by omega
    have h3 := h2 hse
    by_cases he : y.endPos < x.endPos
    · exact Or.inl (Or.inr ⟨hse.symm, he⟩)
    · right
      cases x; cases y
      simp only [Segment.mk.injEq] at *
      omega

theorem segLess_trans (x y z : Segment) (h1 : segLess x y = true ∨ x = y)
    (h2 : segLess y z = true ∨ y = z) : segLess x z = true ∨ x = z := by
  rcases h1 with h1 | rfl
  · rcases h2 with h2 | rfl
    · left
      unfold segLess at h1 h2 ⊢
      simp only [Bool.or_eq_true, Bool.and_eq_true, decide_eq_true_eq] at h1 h2 ⊢
      omega
    · exact Or.inl h1
  · exact h2

/-- Insertion keeps a list sorted by the comparison of `merge`. -/
theorem segInsert_ordered (x : Segment) (l : List Segment)
    (h : l.Pairwise (fun a b => segLess a b = true ∨ a = b)) :
    (segInsert x l).Pairwise (fun a b => segLess a b = true ∨ a = b) := by
  induction l with
  | nil => simp [segInsert]
  | cons y ys ih =>
    rw [List.pairwise_cons] at h
    simp only [segInsert]
    cases hxy : segLess x y with
    | true =>
      simp only [if_true]
      rw [List.pairwise_cons]
      refine ⟨?_, List.pairwise_cons.mpr h⟩
      intro z hz
      rcases List.mem_cons.mp hz with rfl | hz
      · exact Or.inl hxy
      · exact segLess_trans x y z (Or.inl hxy) (h.1 z hz)
    | false =>
      simp only [Bool.false_eq_true, if_false]
      rw [List.pairwise_cons]
      refine ⟨?_, ih h.2⟩
      intro z hz
      rcases (mem_segInsert x z ys).mp hz with rfl | hz
      · exact segLess_total _ _ hxy
      · exact h.1 z hz

theorem segSort_ordered (l : List Segment) :
    (l.foldr segInsert []).Pairwise (fun a b => segLess a b = true ∨ a = b) := by
  induction l with
  | nil => simp
  | cons hd tl ih =>
    simp only [List.foldr_cons]
    exact segInsert_ordered hd _ ih

theorem segInsert_front (x : Segment) (l : List Segment)
    (h : ∀ z ∈ l, segLess x z = true ∨ x = z) : segInsert x l = x :: l := by
  induction l with
  | nil => rfl
  | cons y ys ih =>
    simp only [segInsert]
    rcases h y (List.mem_cons_self _ _) with hy | rfl
    · rw [if_pos hy]
    · split
      · rfl
      · rw [ih (fun z hz => h z (List.mem_cons_of_mem _ hz))]

/-- Sorting a list that is sorted already changes nothing. -/
theorem segSort_of_ordered (l : List Segment)
    (h : l.Pairwise (fun a b => segLess a b = true ∨ a = b)) : l.foldr segInsert [] = l := by
  induction l with
  | nil => rfl
  | cons x xs ih =>
    rw [List.pairwise_cons] at h
    simp only [List.foldr_cons]
    rw [ih h.2]
    exact segInsert_front x xs h.1

/-- The loop of `merge` keeps every segment of a list whose segments end before the later
ones start. -/
theorem mergeFold_of_separate (l : List Segment) :
    ∀ out : List Segment, (out ++ l).Pairwise (fun a b => a.endPos < b.start) →
      l.foldl mergeStep out = out ++ l := by
  induction l with
  | nil => intro out _; simp
  | cons s rest ih =>
    intro out h
    simp only [List.foldl_cons]
    have hstep : mergeStep out s = out ++ [s] := by
      unfold mergeStep
      cases hout : out.getLast? with
      | none =>
        rw [List.getLast?_eq_none_iff] at hout
        subst hout
        rfl
      | some last =>
        simp only
        obtain ⟨ys, hys⟩ := List.getLast?_eq_some_iff.mp hout
        have hmem : last ∈ out := by rw [hys]; simp
        have hlt : last.endPos < s.start := by
          rw [List.pairwise_append] at h
          exact h.2.2 last hmem s (List.mem_cons_self _ _)
        rw [if_pos (by omega)]
    rw [hstep, ih (out ++ [s]) (by simpa using h)]
    simp

/-- The loop of `merge` over segments sorted by its comparison: the segments kept are sorted
by that comparison and each ends before the later ones start. -/
theorem mergeFold_separate (l : List Segment) :
    ∀ out : List Segment, l.Pairwise (fun a b => segLess a b = true ∨ a = b) →
      out.Pairwise (fun a b => (segLess a b = true ∨ a = b) ∧ a.endPos < b.start) →
      (∀ x ∈ out, ∀ s ∈ l, x.start ≤ s.start ∧
        (x.endPos < s.start → (segLess x s = true ∨ x = s))) →
      (l.foldl mergeStep out).Pairwise
        (fun a b => (segLess a b = true ∨ a = b) ∧ a.endPos < b.start) := by
  induction l with
  | nil => intro out _ h _; exact h
  | cons s rest ih =>
    intro out hl hout hinv
    rw [List.pairwise_cons] at hl
    simp only [List.foldl_cons]
    have hsrest : ∀ s1 ∈ rest, s.start ≤ s1.start ∧
        (s.endPos < s1.start → (segLess s s1 = true ∨ s = s1)) := by
      intro s1 hs1
      refine ⟨?_, fun _ => hl.1 s1 hs1⟩
      rcases hl.1 s1 hs1 with h | h
      · exact segLess_true s s1 h
      · rw [h]
    have hinvrest : ∀ x ∈ out, ∀ s1 ∈ rest, x.start ≤ s1.start ∧
        (x.endPos < s1.start → (segLess x s1 = true ∨ x = s1)) :=
      fun x hx s1 hs1 => hinv x hx s1 (List.mem_cons_of_mem _ hs1)
    unfold mergeStep
    cases hlast : out.getLast? with
    | none =>
      simp only
      apply ih [s] hl.2 (List.pairwise_singleton _ _)
      intro x hx
      rw [List.mem_singleton] at hx
      subst hx
      exact hsrest
    | some last =>
      simp only
      obtain ⟨ys, hys⟩ := List.getLast?_eq_some_iff.mp hlast
      have hlastmem : last ∈ out := by rw [hys]; simp
      have hls := hinv last hlastmem s (List.mem_cons_self _ _)
      rw [hys, List.pairwise_append] at hout
      obtain ⟨hpys, _, hcross⟩ := hout
      split
      · -- the segment is appended
        rename_i hgt
        apply ih (out ++ [s]) hl.2
        · rw [List.pairwise_append]
          refine ⟨by rw [hys, List.pairwise_append]; exact ⟨hpys, List.pairwise_singleton _ _, hcross⟩,
            List.pairwise_singleton _ _, ?_⟩
          intro x hx y hy
          rw [List.mem_singleton] at hy
          subst hy
          have hxs : x.endPos < y.start := by
            rw [hys] at hx
            rcases List.mem_append.mp hx with hx1 | hx1
            · have := (hcross x hx1 last (List.mem_singleton.mpr rfl)).2
              omega
            · rw [List.mem_singleton] at hx1
              subst hx1
              omega
          exact ⟨(hinv x hx y (List.mem_cons_self _ _)).2 hxs, hxs⟩
        · intro x hx
          rcases List.mem_append.mp hx with hx1 | hx1
          · exact hinvrest x hx1
          · rw [List.mem_singleton] at hx1
            subst hx1
            exact hsrest
      · rename_i hngt
        split
        · -- the last segment is extended
          rename_i hext
          rw [hys, List.dropLast_concat]
          apply ih _ hl.2
          · rw [List.pairwise_append]
            refine ⟨hpys, List.pairwise_singleton _ _, ?_⟩
            intro x hx y hy
            rw [List.mem_singleton] at hy
            subst hy
            have hxl := hcross x hx last (List.mem_singleton.mpr rfl)
            refine ⟨?_, hxl.2⟩
            rcases hxl.1 with h | h
            · left
              unfold segLess at h ⊢
              simp only [Bool.or_eq_true, Bool.and_eq_true, decide_eq_true_eq] at h ⊢
              omega
            · exfalso
              have := hxl.2
              rw [h] at this
              omega
          · intro x hx
            rcases List.mem_append.mp hx with hx1 | hx1
            · exact hinvrest x (by rw [hys]; exact List.mem_append.mpr (Or.inl hx1))
            · rw [List.mem_singleton] at hx1
              subst hx1
              intro s1 hs1
              have h1 := hinvrest last hlastmem s1 hs1
              refine ⟨h1.1, ?_⟩
              intro hlt
              left
              unfold segLess
              simp only [Bool.or_eq_true, Bool.and_eq_true, decide_eq_true_eq] at hlt ⊢
              omega
        · -- the segment is dropped
          apply ih out hl.2
          · rw [hys, List.pairwise_append]
            exact ⟨hpys, List.pairwise_singleton _ _, hcross⟩
          · exact hinvrest

/-- The loop of `merge` keeps segments with `start ≤ end` when it reads such segments. -/
theorem mergeFold_wellFormed (l : List Segment) :
    ∀ out : List Segment, (∀ s ∈ l, s.start ≤ s.endPos) → (∀ t ∈ out, t.start ≤ t.endPos) →
      ∀ t ∈ l.foldl mergeStep out, t.start ≤ t.endPos := by
  induction l with
  | nil => intro out _ h; exact h
  | cons s rest ih =>
    intro out hl h
    simp only [List.foldl_cons]
    apply ih (mergeStep out s) (fun x hx => hl x (List.mem_cons_of_mem _ hx))
    have hs := hl s (List.mem_cons_self _ _)
    intro t ht
    unfold mergeStep at ht
    cases hout : out.getLast? with
    | none =>
      simp only [hout, List.mem_singleton] at ht
      subst ht
      exact hs
    | some last =>
      simp only [hout] at ht
      obtain ⟨ys, hys⟩ := List.getLast?_eq_some_iff.mp hout
      have hlw := h last (by rw [hys]; simp)
      split at ht
      · rcases List.mem_append.mp ht with ht | ht
        · exact h t ht
        · simp only [List.mem_singleton] at ht
          subst ht
          exact hs
      · split at ht
        · rw [hys, List.dropLast_concat] at ht
          rcases List.mem_append.mp ht with ht | ht
          · exact h t (by rw [hys]; exact List.mem_append.mpr (Or.inl ht))
          · simp only [List.mem_singleton] at ht
            subst ht
            simp only
            omega
        · exact h t ht

theorem merge_separate (itv : Interval) :
    itv.merge.segs.Pairwise (fun a b => (segLess a b = true ∨ a = b) ∧ a.endPos < b.start) := by
  unfold Interval.merge
  split
  · rename_i h
    match hs : itv.segs with
    | [] => simp
    | [x] => simp
    | x :: y :: rest => rw [hs] at h; simp at h
  · simp only
    exact mergeFold_separate _ [] (segSort_ordered itv.segs) List.Pairwise.nil
      (fun x hx => by simp at hx)

theorem merge_idem (itv : Interval) : itv.merge.merge = itv.merge := by
  have hsep := merge_separate itv
  generalize itv.merge = m at hsep
  unfold Interval.merge
  split
  · rfl
  · have h1 : m.segs.foldr segInsert [] = m.segs :=
      segSort_of_ordered m.segs (hsep.imp (fun h => h.1))
    have h2 : m.segs.foldl mergeStep [] = m.segs := by
      rw [mergeFold_of_separate m.segs [] (by simpa using hsep.imp (fun h => h.2))]
      simp
    rw [h1, h2]

theorem merge_wellFormed (itv : Interval) (h : ∀ s ∈ itv.segs, s.start ≤ s.endPos) :
    ∀ t ∈ itv.merge.segs, t.start ≤ t.endPos := by
  unfold Interval.merge
  split
  · exact h
  · simp only
    exact mergeFold_wellFormed _ [] (fun s hs => h s ((mem_segSort s itv.segs).mp hs))
      (fun t ht => by simp at ht)

theorem merge_touching (v : Register) (cc : Bool) (a b c : Int) (hab : a ≤ b) (hbc : b ≤ c) :
    (Interval.merge { vreg := v, segs := [⟨a, b⟩, ⟨b, c⟩], crossesCall := cc }).segs = [⟨a, c⟩] ∧
    (Interval.merge { vreg := v, segs := [⟨b, c⟩, ⟨a, b⟩], crossesCall := cc }).segs = [⟨a, c⟩] := by
  rcases lt_or_eq_of_le hab with h1 | rfl <;> rcases lt_or_eq_of_le hbc with h2 | rfl
  · have h3 : ¬ b < a := by omega
    have h4 : ¬ a = b := by omega
    have h5 : ¬ c < b := by omega
    have h6 : ¬ b = a := by omega
    simp [Interval.merge, segInsert, segLess, mergeStep, h1, h2, h3, h4, h5, h6]
  · have h3 : ¬ b < a := by omega
    have h4 : ¬ a = b := by omega
    have h6 : ¬ b = a := by omega
    simp [Interval.merge, segInsert, segLess, mergeStep, h1, h3, h4, h6]
  · have h5 : ¬ c < a := by omega
    simp [Interval.merge, segInsert, segLess, mergeStep, h2, h5]
  · simp [Interval.merge, segInsert, segLess, mergeStep]

/-- Claim C40: for every list of segments, the segments that `Interval::merge` leaves are
sorted by start, each ends strictly before every later one starts (so the starts are
strictly increasing when no segment has its end before its start), and they cover exactly
the positions that the segments before the call cover; a second call changes nothing; two
touching segments `[a, b)` and `[b, c)`, in either order, become the one segment `[a, c)`. -/
theorem merge_normal_form (itv : Interval) :
    itv.merge.segs.Pairwise (fun s t => s.start ≤ t.start ∧ s.endPos < t.start) ∧
    ((∀ s ∈ itv.segs, s.start ≤ s.endPos) →
      itv.merge.segs.Pairwise (fun s t => s.start < t.start)) ∧
    (∀ p : Int, (∃ t ∈ itv.merge.segs, t.start ≤ p ∧ p < t.endPos) ↔
      (∃ s ∈ itv.segs, s.start ≤ p ∧ p < s.endPos)) ∧
    itv.merge.merge = itv.merge ∧
    (∀ a b c : Int, a ≤ b → b ≤ c →
      (Interval.merge { itv with segs := [⟨a, b⟩, ⟨b, c⟩] }).segs = [⟨a, c⟩] ∧
      (Interval.merge { itv with segs := [⟨b, c⟩, ⟨a, b⟩] }).segs = [⟨a, c⟩]) := by
  refine ⟨?_, ?_, ?_, merge_idem itv, ?_⟩
  · refine (merge_separate itv).imp ?_
    intro s t h
    refine ⟨?_, h.2⟩
    rcases h.1 with h1 | h1
    · exact segLess_true s t h1
    · rw [h1]
  · intro hwf
    have hw := merge_wellFormed itv hwf
    have hsep := merge_separate itv
    have : itv.merge.segs.Pairwise (fun s t => s.start ≤ s.endPos ∧ s.endPos < t.start) := by
      rw [List.pairwise_iff_forall_sublist] at hsep ⊢
      intro s t hst
      exact ⟨hw s (hst.subset (by simp)), (hsep hst).2⟩
    exact this.imp (fun h => by omega)
  · intro p
    constructor
    · rintro ⟨t, ht, h1, h2⟩
      exact merge_covered itv t ht p h1 h2
    · rintro ⟨s, hs, h1, h2⟩
      exact merge_covers itv s hs p h1 h2
  · intro a b c hab hbc
    exact merge_touching itv.vreg itv.crossesCall a b c hab hbc

/-- Claim C40 at the segments `[4, 6)`, `[1, 4)`, `[9, 12)`: the result is `[1, 6)`,
`[9, 12)`. -/
theorem merge_normal_form_witness :
    (Interval.merge { vreg := vreg 1, segs := [⟨4, 6⟩, ⟨1, 4⟩, ⟨9, 12⟩], crossesCall := false }).segs
      = [⟨1, 6⟩, ⟨9, 12⟩] ∧
    (Interval.merge { vreg := vreg 1, segs := [⟨4, 6⟩, ⟨1, 4⟩, ⟨9, 12⟩], crossesCall := false }).segs.Pairwise
      (fun s t => s.start < t.start) ∧
    (Interval.merge { vreg := vreg 1, segs := [⟨1, 4⟩, ⟨4, 6⟩], crossesCall := false }).segs
      = [⟨1, 6⟩] :=
  ⟨by decide,
   (merge_normal_form
      { vreg := vreg 1, segs := [⟨4, 6⟩, ⟨1, 4⟩, ⟨9, 12⟩], crossesCall := false }).2.1
      (by decide),
   ((merge_normal_form
      { vreg := vreg 1, segs := [⟨4, 6⟩, ⟨1, 4⟩, ⟨9, 12⟩], crossesCall := false }).2.2.2.2
      1 4 6 (by decide) (by decide)).1⟩

/-! ### Linear scan: the registers that allocation and `pickScratch` can hand out -/

/-- One step of the allocation loop: the intervals in `active` are intervals of `work`, and
an entry of `assignedPhys` belongs to the map that the loop started with or gives the
register of an interval of `work` one of the registers `allRegs`. -/
theorem allocateStep_from (assigned0 : List (Register × Nat)) (allRegs : List Nat)
    (calleeOnly orderCallerFirst calleeSaved : List Nat)
    (hco : ∀ r ∈ calleeOnly, r ∈ allRegs) (hcf : ∀ r ∈ orderCallerFirst, r ∈ allRegs)
    (work : List Interval) (st : AllocState) (c : Interval) (hc : c ∈ work)
    (h0 : ∀ x ∈ work, ∀ r, (x.vreg, r) ∉ assigned0)
    (hact : ∀ x ∈ st.active, x ∈ work)
    (hval : ∀ kr ∈ st.assignedPhys,
      ((∃ x ∈ work, x.vreg = kr.1) ∧ kr.2 ∈ allRegs) ∨ kr ∈ assigned0) :
    (∀ x ∈ (allocateStep calleeOnly orderCallerFirst calleeSaved st c).active, x ∈ work) ∧
    (∀ kr ∈ (allocateStep calleeOnly orderCallerFirst calleeSaved st c).assignedPhys,
      ((∃ x ∈ work, x.vreg = kr.1) ∧ kr.2 ∈ allRegs) ∨ kr ∈ assigned0) := by
  have hexp : ∀ x ∈ expireOld st.active (intervalStart c), x ∈ work :=
    fun x hx => hact x ((mem_expireOld _ _ x).mp hx).1
  unfold allocateStep
  simp only
  split
  · rename_i chosen hfind
    have hmem := List.mem_of_find?_eq_some hfind
    have hch : chosen ∈ allRegs := by
      split at hmem
      · exact hco _ hmem
      · exact hcf _ hmem
    refine ⟨?_, ?_⟩
    · intro x hx
      rcases List.mem_append.mp hx with h | h
      · exact hexp x h
      · rw [List.mem_singleton] at h; rw [h]; exact hc
    · intro kr hkr
      rcases mem_regMapInsert _ _ _ kr hkr with h | h
      · rw [h]; exact Or.inl ⟨⟨c, hc, rfl⟩, hch⟩
      · exact hval kr h
  · split
    · rename_i victim hv
      have hvmem : victim ∈ expireOld st.active (intervalStart c) := by
        rcases pickVictim_mem _ _ _ _ _ _ hv with h | h
        · exact h
        · simp at h
      obtain ⟨p, hp, _⟩ := pickVictim_spec st.assignedPhys calleeSaved c _ (none, intervalEnd c)
        (by intro v hv1; simp at hv1) victim hv
      have hpreg : p ∈ allRegs := by
        rcases hval (victim.vreg, p) (lookup_mem_reg _ _ _ hp) with h | h
        · exact h.2
        · exact absurd h (h0 victim (hexp victim hvmem) p)
      refine ⟨?_, ?_⟩
      · intro x hx
        rcases List.mem_append.mp hx with h | h
        · exact hexp x (List.mem_filter.mp h).1
        · rw [List.mem_singleton] at h; rw [h]; exact hc
      · intro kr hkr
        rcases mem_regMapInsert _ _ _ kr hkr with h | h
        · rw [h, hp]
          exact Or.inl ⟨⟨c, hc, rfl⟩, hpreg⟩
        · exact hval kr ((mem_regMapErase _ _ kr).mp h).1
    · exact ⟨hexp, hval⟩

theorem foldl_allocateStep_from (assigned0 : List (Register × Nat)) (allRegs : List Nat)
    (calleeOnly orderCallerFirst calleeSaved : List Nat)
    (hco : ∀ r ∈ calleeOnly, r ∈ allRegs) (hcf : ∀ r ∈ orderCallerFirst, r ∈ allRegs)
    (work : List Interval) (h0 : ∀ x ∈ work, ∀ r, (x.vreg, r) ∉ assigned0)
    (l : List Interval) :
    ∀ st : AllocState, (∀ c ∈ l, c ∈ work) → (∀ x ∈ st.active, x ∈ work) →
      (∀ kr ∈ st.assignedPhys,
        ((∃ x ∈ work, x.vreg = kr.1) ∧ kr.2 ∈ allRegs) ∨ kr ∈ assigned0) →
      (∀ x ∈ (l.foldl (allocateStep calleeOnly orderCallerFirst calleeSaved) st).active,
        x ∈ work) ∧
      (∀ kr ∈ (l.foldl (allocateStep calleeOnly orderCallerFirst calleeSaved) st).assignedPhys,
        ((∃ x ∈ work, x.vreg = kr.1) ∧ kr.2 ∈ allRegs) ∨ kr ∈ assigned0) := by
  induction l with
  | nil => intro st _ ha hv; exact ⟨ha, hv⟩
  | cons c rest ih =>
    intro st hl ha hv
    simp only [List.foldl_cons]
    have hs := allocateStep_from assigned0 allRegs calleeOnly orderCallerFirst calleeSaved
      hco hcf work st c (hl c (List.mem_cons_self _ _)) h0 ha hv
    exact ih _ (fun x hx => hl x (List.mem_cons_of_mem _ hx)) hs.1 hs.2

/-- The registers that one allocation loop hands out: an entry of `assignedPhys` belongs to
the map that the loop started with or gives the register of an interval of `work` one of
the registers `allRegs`. -/
theorem allocateForClass_from (work : List Interval) (allRegs calleeSaved : List Nat)
    (assigned : List (Register × Nat)) (spill : SpillState)
    (h0 : ∀ x ∈ work, ∀ r, (x.vreg, r) ∉ assigned) :
    ∀ kr ∈ (allocateForClass work allRegs calleeSaved assigned spill).assignedPhys,
      ((∃ x ∈ work, x.vreg = kr.1) ∧ kr.2 ∈ allRegs) ∨ kr ∈ assigned := by
  rw [allocateForClass_eq]
  exact (foldl_allocateStep_from assigned allRegs _ _ calleeSaved
    (fun r hr => (List.mem_filter.mp hr).1) (fun r hr => mem_buildOrder _ _ _ r hr)
    work h0 (sortIntervals work) _ (fun c hc => (mem_sortIntervals c work).mp hc)
    (fun x hx => by simp at hx) (fun kr hkr => Or.inr hkr)).2

theorem isIntInterval_class (x : Interval) (h : isIntInterval x = true) :
    x.vreg.isFloat = false ∧ x.vreg.isVreg = true ∧ x.segs ≠ [] ∧ x.vreg.dt ≠ none := by
  unfold isIntInterval at h
  unfold Register.isFloat
  cases hdt : x.vreg.dt with
  | none => simp [hdt] at h
  | some d =>
    simp only [hdt, Bool.and_eq_true, Bool.not_eq_true', List.isEmpty_eq_false] at h
    refine ⟨h.2, h.1.2, ?_, by simp⟩
    intro he
    rw [he] at h
    simp at h

theorem isFloatInterval_class (x : Interval) (h : isFloatInterval x = true) :
    x.vreg.isFloat = true ∧ x.vreg.isVreg = true ∧ x.segs ≠ [] ∧ x.vreg.dt ≠ none := by
  unfold isFloatInterval at h
  unfold Register.isFloat
  cases hdt : x.vreg.dt with
  | none => simp [hdt] at h
  | some d =>
    simp only [hdt, Bool.and_eq_true, Bool.not_eq_true', List.isEmpty_eq_false] at h
    refine ⟨h.2, h.1.2, ?_, by simp⟩
    intro he
    rw [he] at h
    simp at h

/-- The registers that the two allocation loops hand out: the register of an integer
interval gets an allocatable integer register, that of a float interval an allocatable
float register, and no other register has an entry. -/
theorem allocateIntervals_from (intervals : List Interval)
    (intRegsAll floatRegsAll reserved calleeInt calleeFloat : List Nat) (spill : SpillState) :
    ∀ kr ∈ (allocateIntervals intervals intRegsAll floatRegsAll reserved calleeInt calleeFloat
        spill).assignedPhys,
      (∃ x ∈ intervals, isIntInterval x = true ∧ x.vreg = kr.1 ∧
        kr.2 ∈ buildAllocatable intRegsAll reserved) ∨
      (∃ x ∈ intervals, isFloatInterval x = true ∧ x.vreg = kr.1 ∧
        kr.2 ∈ buildAllocatable floatRegsAll reserved) := by
  have hint := allocateForClass_from (intervals.filter isIntInterval)
    (buildAllocatable intRegsAll reserved) calleeInt [] spill (fun _ _ _ h => by simp at h)
  have hint1 : ∀ kr ∈ (allocateForClass (intervals.filter isIntInterval)
      (buildAllocatable intRegsAll reserved) calleeInt [] spill).assignedPhys,
      ∃ x ∈ intervals, isIntInterval x = true ∧ x.vreg = kr.1 ∧
        kr.2 ∈ buildAllocatable intRegsAll reserved := by
    intro kr hkr
    rcases hint kr hkr with ⟨⟨x, hx, hxk⟩, hr⟩ | h
    · obtain ⟨hx1, hx2⟩ := List.mem_filter.mp hx
      exact ⟨x, hx1, hx2, hxk, hr⟩
    · simp at h
  intro kr hkr
  unfold allocateIntervals at hkr
  simp only at hkr
  have hfl := allocateForClass_from (intervals.filter isFloatInterval)
    (buildAllocatable floatRegsAll reserved) calleeFloat
    (allocateForClass (intervals.filter isIntInterval)
      (buildAllocatable intRegsAll reserved) calleeInt [] spill).assignedPhys
    (allocateForClass (intervals.filter isIntInterval)
      (buildAllocatable intRegsAll reserved) calleeInt [] spill).spill
    (by
      intro x hx r hmem
      obtain ⟨y, _, hyint, hyk, _⟩ := hint1 _ hmem
      simp only at hyk
      have h1 := (isIntInterval_class y hyint).1
      have h2 := (isFloatInterval_class x (List.mem_filter.mp hx).2).1
      rw [hyk, h2] at h1
      exact Bool.noConfusion h1) kr hkr
  rcases hfl with ⟨⟨x, hx, hxk⟩, hr⟩ | h
  · obtain ⟨hx1, hx2⟩ := List.mem_filter.mp hx
    exact Or.inr ⟨x, hx1, hx2, hxk, hr⟩
  · exact Or.inl (hint1 kr h)

theorem pickScratch_mem (env : RewriteEnv) (pos : Int) (sc sc1 : ScratchState)
    (v s : Register) (h : pickScratch env pos sc v = some (s, sc1)) :
    s.dt = v.dt ∧
    (s.rId ∈ (if v.isFloat then env.allFloatRegs else env.allIntRegs) ∨
      s.rId ∈ (if v.isFloat then env.floatArgRegs else env.intArgRegs)) ∧
    scratchFree env sc v.isFloat pos s.rId = true := by
  unfold pickScratch at h
  split at h
  · rename_i r hf
    simp only [Option.some.injEq, Prod.mk.injEq] at h
    rw [← h.1]
    exact ⟨rfl, Or.inl (List.mem_of_find?_eq_some hf), List.find?_some hf⟩
  · split at h
    · rename_i r hf
      simp only [Option.some.injEq, Prod.mk.injEq] at h
      rw [← h.1]
      exact ⟨rfl, Or.inr (List.mem_of_find?_eq_some hf), List.find?_some hf⟩
    · simp at h

theorem rv64_scratch_candidates :
    (∀ r ∈ buildAllocatable rv64RegInfo.intRegs rv64RegInfo.reservedRegs, r ∉ [0, 1, 2, 3, 4, 5]) ∧
    (∀ r ∈ buildAllocatable rv64RegInfo.floatRegs rv64RegInfo.reservedRegs,
      r ∉ [0, 1, 2, 3, 4, 5]) ∧
    (∀ r ∈ rv64RegInfo.intArgRegs, r ∉ [0, 1, 2, 3, 4, 5]) ∧
    (∀ r ∈ rv64RegInfo.floatArgRegs, r ∉ [0, 1, 2, 3, 4, 5]) := by
  decide

/-- Claim C31: with the RV64 register info the allocation loops never leave a virtual
register with one of `x0`, `ra`, `sp`, `gp`, `tp`, `t0` (the ids 0 to 5) in `assignedPhys`,
and `pickScratch`, which reads the allocatable registers and then the argument registers of
that register info, never returns one of them; the register it returns is physical. In
particular `t0`, the scratch of stack lowering, is never assigned and never a scratch. -/
theorem linearScan_avoids_reserved :
    (∀ (intervals : List Interval) (spill : SpillState) (kr : Register × Nat),
      kr ∈ (allocateIntervals intervals rv64RegInfo.intRegs rv64RegInfo.floatRegs
        rv64RegInfo.reservedRegs rv64RegInfo.calleeSavedIntRegs
        rv64RegInfo.calleeSavedFloatRegs spill).assignedPhys →
      kr.2 ∉ [PR.x0.rId, PR.ra.rId, PR.sp.rId, 3, 4, PR.t0.rId]) ∧
    (∀ (env : RewriteEnv) (pos : Int) (sc sc1 : ScratchState) (v s : Register),
      env.allIntRegs = buildAllocatable rv64RegInfo.intRegs rv64RegInfo.reservedRegs →
      env.allFloatRegs = buildAllocatable rv64RegInfo.floatRegs rv64RegInfo.reservedRegs →
      env.intArgRegs = rv64RegInfo.intArgRegs →
      env.floatArgRegs = rv64RegInfo.floatArgRegs →
      pickScratch env pos sc v = some (s, sc1) →
      s.isVreg = false ∧ s.rId ∉ [PR.x0.rId, PR.ra.rId, PR.sp.rId, 3, 4, PR.t0.rId]) := by
  obtain ⟨c1, c2, c3, c4⟩ := rv64_scratch_candidates
  refine ⟨?_, ?_⟩
  · intro intervals spill kr hkr
    rcases allocateIntervals_from intervals _ _ _ _ _ spill kr hkr with
      ⟨_, _, _, _, h⟩ | ⟨_, _, _, _, h⟩
    · exact c1 _ h
    · exact c2 _ h
  · intro env pos sc sc1 v s h1 h2 h3 h4 hp
    refine ⟨pickScratch_phys env pos sc sc1 v s hp, ?_⟩
    obtain ⟨_, hmem, _⟩ := pickScratch_mem env pos sc sc1 v s hp
    rw [h1, h2, h3, h4] at hmem
    rcases hmem with h | h
    · split at h
      · exact c2 _ h
      · exact c1 _ h
    · split at h
      · exact c4 _ h
      · exact c3 _ h

/-- Claim C31 at the intervals `sampleIntervals` and at an instruction without forbidden
registers: `v1` is given `s0`, and the scratch picked for `v1` is `t1`. -/
theorem linearScan_avoids_reserved_witness :
    (vreg 1, 8) ∈ (allocateIntervals sampleIntervals rv64RegInfo.intRegs rv64RegInfo.floatRegs
        rv64RegInfo.reservedRegs rv64RegInfo.calleeSavedIntRegs
        rv64RegInfo.calleeSavedFloatRegs noSpill).assignedPhys ∧
    (8 : Nat) ∉ [PR.x0.rId, PR.ra.rId, PR.sp.rId, 3, 4, PR.t0.rId] ∧
    pickScratch emptyEnv 0 { forbidden := [], usedScratchInt := [], usedScratchFloat := [] }
        (vreg 1) =
      some ({ rId := 6, dt := some .I32, isVreg := false },
        { forbidden := [6], usedScratchInt := [6], usedScratchFloat := [] }) ∧
    (6 : Nat) ∉ [PR.x0.rId, PR.ra.rId, PR.sp.rId, 3, 4, PR.t0.rId] :=
  ⟨by decide,
   linearScan_avoids_reserved.1 sampleIntervals noSpill (vreg 1, 8) (by decide),
   by decide,
   (linearScan_avoids_reserved.2 emptyEnv 0
      { forbidden := [], usedScratchInt := [], usedScratchFloat := [] }
      { forbidden := [6], usedScratchInt := [6], usedScratchFloat := [] } (vreg 1)
      { rId := 6, dt := some .I32, isVreg := false } rfl rfl rfl rfl (by decide)).2⟩

/-! ### Linear scan: a register or a spill slot for every typed virtual register -/

theorem ensureSpillSlot_lookup_ne (sp : SpillState) (r k : Register) (hne : k ≠ r) :
    (ensureSpillSlot sp r).1.spillFrameIndex.lookup k = sp.spillFrameIndex.lookup k := by
  unfold ensureSpillSlot
  split
  · rfl
  · simp only
    exact lookup_regMapInsert_ne _ _ _ _ hne

theorem ensureSpillSlot_valid (sp : SpillState) (r : Register)
    (h : ∀ k fi, sp.spillFrameIndex.lookup k = some fi →
      0 ≤ fi ∧ fi < Int.ofNat sp.spillSlots.length) :
    ∀ k fi, (ensureSpillSlot sp r).1.spillFrameIndex.lookup k = some fi →
      0 ≤ fi ∧ fi < Int.ofNat (ensureSpillSlot sp r).1.spillSlots.length := by
  intro k fi hk
  unfold ensureSpillSlot at hk ⊢
  split at hk
  · rename_i fi0 h0
    simp only [h0]
    exact h k fi hk
  · rename_i h0
    simp only [h0] at hk ⊢
    rcases lookup_regMapInsert_some _ _ _ _ _ hk with ⟨_, h2⟩ | h2
    · subst h2
      simp only [List.length_append, List.length_singleton, Int.ofNat_eq_coe]
      omega
    · have := h k fi h2
      simp only [List.length_append, List.length_singleton, Int.ofNat_eq_coe] at this ⊢
      omega

theorem allocateStep_slotInv (assigned0 : List (Register × Nat)) (spill0 : SpillState)
    (calleeOnly orderCallerFirst calleeSaved : List Nat)
    (pre : List Interval) (st : AllocState) (c : Interval)
    (hinv : SlotInv assigned0 spill0 pre st)
    (hfresh : ∀ x ∈ pre, x.vreg ≠ c.vreg)
    (hc0 : assigned0.lookup c.vreg = none)
    (hs0 : spill0.spillFrameIndex.lookup c.vreg = none) :
    SlotInv assigned0 spill0 (pre ++ [c])
      (allocateStep calleeOnly orderCallerFirst calleeSaved st c) := by
  obtain ⟨i1, i2, i3, i4⟩ := hinv
  have hcur := i4 c.vreg hfresh
  rw [hc0, hs0] at hcur
  have hexp : ∀ x ∈ expireOld st.active (intervalStart c), x ∈ pre :=
    fun x hx => i1 x ((mem_expireOld _ _ x).mp hx).1
  have hmemc : ∀ x, x ∈ pre ++ [c] ↔ x ∈ pre ∨ x = c := by
    intro x; simp
  unfold allocateStep
  simp only
  split
  · -- a free register is chosen
    rename_i chosen hfind
    refine ⟨?_, ?_, i3, ?_⟩
    · intro x hx
      rcases List.mem_append.mp hx with h | h
      · exact (hmemc x).mpr (Or.inl (hexp x h))
      · rw [List.mem_singleton] at h; exact (hmemc x).mpr (Or.inr h)
    · intro x hx
      rcases (hmemc x).mp hx with h | h
      · simp only
        rw [lookup_regMapInsert_ne _ _ _ _ (hfresh x h)]
        exact i2 x h
      · subst h
        left
        simp only
        exact ⟨⟨chosen, lookup_regMapInsert_self _ _ _⟩, hcur.2⟩
    · intro k hk
      have hkc : k ≠ c.vreg := fun h => hk c ((hmemc c).mpr (Or.inr rfl)) h.symm
      simp only
      rw [lookup_regMapInsert_ne _ _ _ _ hkc]
      exact i4 k (fun x hx => hk x ((hmemc x).mpr (Or.inl hx)))
  · split
    · -- a victim gives its register to the current interval
      rename_i victim hv
      have hvmem : victim ∈ expireOld st.active (intervalStart c) := by
        rcases pickVictim_mem _ _ _ _ _ _ hv with h | h
        · exact h
        · simp at h
      have hvpre := hexp victim hvmem
      have hvc : victim.vreg ≠ c.vreg := hfresh victim hvpre
      refine ⟨?_, ?_, ensureSpillSlot_valid _ _ i3, ?_⟩
      · intro x hx
        rcases List.mem_append.mp hx with h | h
        · exact (hmemc x).mpr (Or.inl (hexp x (List.mem_filter.mp h).1))
        · rw [List.mem_singleton] at h; exact (hmemc x).mpr (Or.inr h)
      · intro x hx
        simp only
        rcases (hmemc x).mp hx with h | h
        · have hxc := hfresh x h
          rw [lookup_regMapInsert_ne _ _ _ _ hxc]
          by_cases hxv : x.vreg = victim.vreg
          · right
            rw [hxv, lookup_regMapErase_self]
            exact ⟨rfl, _, ensureSpillSlot_lookup _ _⟩
          · rw [lookup_regMapErase_ne _ _ _ hxv, ensureSpillSlot_lookup_ne _ _ _ hxv]
            exact i2 x h
        · subst h
          left
          refine ⟨⟨_, lookup_regMapInsert_self _ _ _⟩, ?_⟩
          rw [ensureSpillSlot_lookup_ne _ _ _ (fun h => hvc h.symm)]
          exact hcur.2
      · intro k hk
        have hkc : k ≠ c.vreg := fun h => hk c ((hmemc c).mpr (Or.inr rfl)) h.symm
        have hkv : k ≠ victim.vreg := fun h => hk victim ((hmemc victim).mpr (Or.inl hvpre)) h.symm
        simp only
        rw [lookup_regMapInsert_ne _ _ _ _ hkc, lookup_regMapErase_ne _ _ _ hkv,
          ensureSpillSlot_lookup_ne _ _ _ hkv]
        exact i4 k (fun x hx => hk x ((hmemc x).mpr (Or.inl hx)))
    · -- the current interval is spilled
      refine ⟨?_, ?_, ensureSpillSlot_valid _ _ i3, ?_⟩
      · intro x hx
        exact (hmemc x).mpr (Or.inl (hexp x hx))
      · intro x hx
        simp only
        rcases (hmemc x).mp hx with h | h
        · rw [ensureSpillSlot_lookup_ne _ _ _ (hfresh x h)]
          exact i2 x h
        · subst h
          right
          exact ⟨hcur.1, _, ensureSpillSlot_lookup _ _⟩
      · intro k hk
        have hkc : k ≠ c.vreg := fun h => hk c ((hmemc c).mpr (Or.inr rfl)) h.symm
        simp only
        rw [ensureSpillSlot_lookup_ne _ _ _ hkc]
        exact i4 k (fun x hx => hk x ((hmemc x).mpr (Or.inl hx)))

theorem foldl_allocateStep_slotInv (assigned0 : List (Register × Nat)) (spill0 : SpillState)
    (calleeOnly orderCallerFirst calleeSaved : List Nat) (suf : List Interval) :
    ∀ (pre : List Interval) (st : AllocState), SlotInv assigned0 spill0 pre st →
      ((pre ++ suf).map (fun x => x.vreg)).Nodup →
      (∀ x ∈ suf, assigned0.lookup x.vreg = none ∧
        spill0.spillFrameIndex.lookup x.vreg = none) →
      SlotInv assigned0 spill0 (pre ++ suf)
        (suf.foldl (allocateStep calleeOnly orderCallerFirst calleeSaved) st) := by
  induction suf with
  | nil => intro pre st h _ _; simpa using h
  | cons c rest ih =>
    intro pre st h hnd h0
    have hfresh : ∀ x ∈ pre, x.vreg ≠ c.vreg := by
      intro x hx heq
      rw [List.map_append, List.nodup_append] at hnd
      exact hnd.2.2 (List.mem_map_of_mem _ hx)
        (by rw [heq]; exact List.mem_map_of_mem _ (List.mem_cons_self c rest))
    have hc := h0 c (List.mem_cons_self _ _)
    have hstep := allocateStep_slotInv assigned0 spill0 calleeOnly orderCallerFirst calleeSaved
      pre st c h hfresh hc.1 hc.2
    have heq : pre ++ c :: rest = (pre ++ [c]) ++ rest := by simp
    simp only [List.foldl_cons]
    rw [heq] at hnd ⊢
    exact ih (pre ++ [c]) _ hstep hnd (fun x hx => h0 x (List.mem_cons_of_mem _ hx))

/-- One allocation loop: afterwards the register of every interval of the work list has
either a physical register or a spill slot, and the entries of all other registers are as
before. -/
theorem allocateForClass_slotInv (work : List Interval) (allRegs calleeSaved : List Nat)
    (assigned : List (Register × Nat)) (spill : SpillState)
    (hnd : (work.map (fun x => x.vreg)).Nodup)
    (hv : ∀ k fi, spill.spillFrameIndex.lookup k = some fi →
      0 ≤ fi ∧ fi < Int.ofNat spill.spillSlots.length)
    (h0 : ∀ x ∈ work, assigned.lookup x.vreg = none ∧
      spill.spillFrameIndex.lookup x.vreg = none) :
    SlotInv assigned spill (sortIntervals work)
      (allocateForClass work allRegs calleeSaved assigned spill) := by
  rw [allocateForClass_eq]
  have := foldl_allocateStep_slotInv assigned spill
    (allRegs.filter (fun r => decide (r ∈ calleeSaved))) (buildOrder allRegs calleeSaved false)
    calleeSaved (sortIntervals work) []
    { assignedPhys := assigned, spill := spill, active := [] }
    ⟨fun x hx => by simp at hx, fun x hx => by simp at hx, hv, fun k _ => ⟨rfl, rfl⟩⟩
    (by simpa using sortIntervals_nodup work hnd)
    (fun x hx => h0 x ((mem_sortIntervals x work).mp hx))
  simpa using this

set_option maxRecDepth 100000 in
/-- Counterexample to claim C36: the register `u` of `untypedBlocks` is virtual and has a
live interval with the one segment `[0, 2)`, but no data type. The allocation loops leave
it out of both work lists: afterwards it has neither a physical register nor a spill
slot. -/
theorem untyped_vreg_without_register_and_slot :
    untypedVreg.isVreg = true ∧
    ((buildIntervals (fun _ => []) untypedBlocks 0 []).map (fun ri => ri.2.merge)) =
      [{ vreg := untypedVreg, segs := [⟨0, 2⟩], crossesCall := false }] ∧
    (allocateIntervals
        ((buildIntervals (fun _ => []) untypedBlocks 0 []).map (fun ri => ri.2.merge))
        rv64RegInfo.intRegs rv64RegInfo.floatRegs rv64RegInfo.reservedRegs
        rv64RegInfo.calleeSavedIntRegs rv64RegInfo.calleeSavedFloatRegs
        { spillFrameIndex := [], spillSlots := [] }).assignedPhys.lookup untypedVreg = none ∧
    (allocateIntervals
        ((buildIntervals (fun _ => []) untypedBlocks 0 []).map (fun ri => ri.2.merge))
        rv64RegInfo.intRegs rv64RegInfo.floatRegs rv64RegInfo.reservedRegs
        rv64RegInfo.calleeSavedIntRegs rv64RegInfo.calleeSavedFloatRegs
        { spillFrameIndex := [], spillSlots := [] }).spill.spillFrameIndex.lookup untypedVreg
      = none := by
  decide

/-- Claim C36, amended: let the map `intervals` hold one interval per register and let
`spillFrameIndex` be empty at the start. After the two allocation loops every virtual
register that has a data type and a non-empty live interval has either an entry in
`assignedPhys` and none in `spillFrameIndex`, or none in `assignedPhys` and one in
`spillFrameIndex`, which then names a slot of the spill area. -/
theorem allocateIntervals_register_xor_slot (intervals : List Interval)
    (intRegsAll floatRegsAll reserved calleeInt calleeFloat : List Nat)
    (slots : List (Int × Int))
    (hnd : (intervals.map (fun x => x.vreg)).Nodup)
    (x : Interval) (hx : x ∈ intervals) (hsegs : x.segs ≠ []) (hvreg : x.vreg.isVreg = true)
    (hdt : x.vreg.dt ≠ none) :
    ((∃ r, (allocateIntervals intervals intRegsAll floatRegsAll reserved calleeInt calleeFloat
          { spillFrameIndex := [], spillSlots := slots }).assignedPhys.lookup x.vreg = some r) ∧
      (allocateIntervals intervals intRegsAll floatRegsAll reserved calleeInt calleeFloat
          { spillFrameIndex := [], spillSlots := slots }).spill.spillFrameIndex.lookup x.vreg
        = none) ∨
    ((allocateIntervals intervals intRegsAll floatRegsAll reserved calleeInt calleeFloat
          { spillFrameIndex := [], spillSlots := slots }).assignedPhys.lookup x.vreg = none ∧
      ∃ fi, (allocateIntervals intervals intRegsAll floatRegsAll reserved calleeInt calleeFloat
          { spillFrameIndex := [], spillSlots := slots }).spill.spillFrameIndex.lookup x.vreg
          = some fi ∧ 0 ≤ fi ∧
        fi < Int.ofNat (allocateIntervals intervals intRegsAll floatRegsAll reserved calleeInt
          calleeFloat { spillFrameIndex := [], spillSlots := slots }).spill.spillSlots.length) := by
  have hint := allocateForClass_slotInv (intervals.filter isIntInterval)
    (buildAllocatable intRegsAll reserved) calleeInt []
    { spillFrameIndex := [], spillSlots := slots }
    (nodup_filter_map intervals _ hnd) (fun k fi h => by simp at h)
    (fun _ _ => ⟨rfl, rfl⟩)
  have hnotint : ∀ y ∈ intervals.filter isFloatInterval,
      ∀ z ∈ sortIntervals (intervals.filter isIntInterval), z.vreg ≠ y.vreg := by
    intro y hy z hz heq
    have hz1 := List.mem_filter.mp ((mem_sortIntervals z _).mp hz)
    have hy1 := List.mem_filter.mp hy
    have h1 := (isIntInterval_class z hz1.2).1
    have h2 := (isFloatInterval_class y hy1.2).1
    rw [heq, h2] at h1
    exact Bool.noConfusion h1
  have hfl := allocateForClass_slotInv (intervals.filter isFloatInterval)
    (buildAllocatable floatRegsAll reserved) calleeFloat
    (allocateForClass (intervals.filter isIntInterval)
      (buildAllocatable intRegsAll reserved) calleeInt []
      { spillFrameIndex := [], spillSlots := slots }).assignedPhys
    (allocateForClass (intervals.filter isIntInterval)
      (buildAllocatable intRegsAll reserved) calleeInt []
      { spillFrameIndex := [], spillSlots := slots }).spill
    (nodup_filter_map intervals _ hnd) hint.2.2.1
    (by
      intro y hy
      have := hint.2.2.2 y.vreg (hnotint y hy)
      exact ⟨by rw [this.1]; rfl, by rw [this.2]; rfl⟩)
  have hall : allocateIntervals intervals intRegsAll floatRegsAll reserved calleeInt calleeFloat
      { spillFrameIndex := [], spillSlots := slots } =
      allocateForClass (intervals.filter isFloatInterval)
        (buildAllocatable floatRegsAll reserved) calleeFloat
        (allocateForClass (intervals.filter isIntInterval)
          (buildAllocatable intRegsAll reserved) calleeInt []
          { spillFrameIndex := [], spillSlots := slots }).assignedPhys
        (allocateForClass (intervals.filter isIntInterval)
          (buildAllocatable intRegsAll reserved) calleeInt []
          { spillFrameIndex := [], spillSlots := slots }).spill := rfl
  rw [hall]
  have hfinish : ∀ st : AllocState,
      (∀ k fi, st.spill.spillFrameIndex.lookup k = some fi →
        0 ≤ fi ∧ fi < Int.ofNat st.spill.spillSlots.length) →
      (((∃ r, st.assignedPhys.lookup x.vreg = some r) ∧
          st.spill.spillFrameIndex.lookup x.vreg = none) ∨
        (st.assignedPhys.lookup x.vreg = none ∧
          ∃ fi, st.spill.spillFrameIndex.lookup x.vreg = some fi)) →
      ((∃ r, st.assignedPhys.lookup x.vreg = some r) ∧
          st.spill.spillFrameIndex.lookup x.vreg = none) ∨
        (st.assignedPhys.lookup x.vreg = none ∧
          ∃ fi, st.spill.spillFrameIndex.lookup x.vreg = some fi ∧ 0 ≤ fi ∧
            fi < Int.ofNat st.spill.spillSlots.length) := by
    intro st hv h
    rcases h with h | ⟨h1, fi, h2⟩
    · exact Or.inl h
    · exact Or.inr ⟨h1, fi, h2, hv _ _ h2⟩
  apply hfinish _ hfl.2.2.1
  -- the class of the interval
  obtain ⟨d, hd⟩ := Option.ne_none_iff_exists'.mp hdt
  by_cases hfloat : d.isFloatClass = true
  · have hxf : isFloatInterval x = true := by
      unfold isFloatInterval
      simp only [hd, hfloat, hvreg, Bool.and_true, Bool.not_eq_true', List.isEmpty_eq_false]
      simpa using hsegs
    exact hfl.2.1 x ((mem_sortIntervals x _).mpr (List.mem_filter.mpr ⟨hx, hxf⟩))
  · have hxi : isIntInterval x = true := by
      unfold isIntInterval
      simp only [hd, hfloat, hvreg, Bool.and_true, Bool.not_eq_true', List.isEmpty_eq_false]
      simpa using hsegs
    have hxpre : x ∈ sortIntervals (intervals.filter isIntInterval) :=
      (mem_sortIntervals x _).mpr (List.mem_filter.mpr ⟨hx, hxi⟩)
    have hkeep := hfl.2.2.2 x.vreg (by
      intro y hy heq
      exact hnotint y ((mem_sortIntervals y _).mp hy) x hxpre heq.symm)
    rw [hkeep.1, hkeep.2]
    exact hint.2.1 x hxpre

/-- Claim C36, amended, at the intervals `crowd 19`: the register `v1` of the first interval
has one of the two. -/
theorem allocateIntervals_register_xor_slot_witness :
    ((crowd 19).map (fun x => x.vreg)).Nodup ∧
    (((∃ r, (allocateIntervals (crowd 19) rv64RegInfo.intRegs rv64RegInfo.floatRegs
          rv64RegInfo.reservedRegs rv64RegInfo.calleeSavedIntRegs
          rv64RegInfo.calleeSavedFloatRegs
          { spillFrameIndex := [], spillSlots := [] }).assignedPhys.lookup (vreg 1) = some r) ∧
      (allocateIntervals (crowd 19) rv64RegInfo.intRegs rv64RegInfo.floatRegs
          rv64RegInfo.reservedRegs rv64RegInfo.calleeSavedIntRegs
          rv64RegInfo.calleeSavedFloatRegs
          { spillFrameIndex := [], spillSlots := [] }).spill.spillFrameIndex.lookup (vreg 1)
        = none) ∨
    ((allocateIntervals (crowd 19) rv64RegInfo.intRegs rv64RegInfo.floatRegs
          rv64RegInfo.reservedRegs rv64RegInfo.calleeSavedIntRegs
          rv64RegInfo.calleeSavedFloatRegs
          { spillFrameIndex := [], spillSlots := [] }).assignedPhys.lookup (vreg 1) = none ∧
      ∃ fi, (allocateIntervals (crowd 19) rv64RegInfo.intRegs rv64RegInfo.floatRegs
          rv64RegInfo.reservedRegs rv64RegInfo.calleeSavedIntRegs
          rv64RegInfo.calleeSavedFloatRegs
          { spillFrameIndex := [], spillSlots := [] }).spill.spillFrameIndex.lookup (vreg 1)
          = some fi ∧ 0 ≤ fi ∧
        fi < Int.ofNat (allocateIntervals (crowd 19) rv64RegInfo.intRegs rv64RegInfo.floatRegs
          rv64RegInfo.reservedRegs rv64RegInfo.calleeSavedIntRegs
          rv64RegInfo.calleeSavedFloatRegs
          { spillFrameIndex := [], spillSlots := [] }).spill.spillSlots.length)) :=
  ⟨by decide,
   allocateIntervals_register_xor_slot (crowd 19) rv64RegInfo.intRegs rv64RegInfo.floatRegs
     rv64RegInfo.reservedRegs rv64RegInfo.calleeSavedIntRegs rv64RegInfo.calleeSavedFloatRegs []
     (by decide)
     { vreg := vreg 1, segs := [{ start := 0, endPos := 20 }], crossesCall := false }
     (by decide) (by decide) (by decide) (by decide)⟩

/-! ### Linear scan: what the scratch register of a spilled operand avoids -/

/-- When an instruction has a virtual operand, `enumPhysRegs` reports every physical
register that `enumUses` or `enumDefs` reports. -/
theorem enumPhysRegs_covers (inst : MInstruction) (r u : Register)
    (hr : r ∈ enumUses inst ++ enumDefs inst) (hphys : r.isVreg = false)
    (hu : u ∈ enumUses inst ++ enumDefs inst) (hvirt : u.isVreg = true) :
    r ∈ enumPhysRegs inst := by
  have hadd : ∀ x : Register, r = x → r ∈ addPhys x := by
    intro x hx
    subst hx
    simp [addPhys, hphys]
  have hne : r ≠ u := by
    intro h
    rw [h, hvirt] at hphys
    exact Bool.noConfusion hphys
  cases inst with
  | target ri =>
    simp only [enumUses, enumDefs, enumPhysRegs] at hr hu ⊢
    by_cases hcall : ri.op = .CALL
    · simp only [hcall, if_true, List.append_nil] at hr ⊢
      exact hr
    · simp only [hcall, if_false] at hr hu ⊢
      cases hty : ri.op.opType <;> simp only [hty, List.mem_append, List.mem_cons,
        List.mem_singleton, List.not_mem_nil, or_false, false_or] at hr hu ⊢
      all_goals first
        | (rcases hr with (h | h) | h <;> simp [hadd _ h])
        | (rcases hr with h | h | h <;> simp [hadd _ h])
        | (rcases hr with h | h <;> simp [hadd _ h])
        | (exfalso; subst hr; subst hu; exact hne rfl)
  | move dest src =>
    simp only [enumUses, enumDefs, enumPhysRegs, List.mem_append, List.mem_flatMap] at hr ⊢
    rcases hr with h | h
    · exact Or.inl ⟨r, h, hadd r rfl⟩
    · exact Or.inr ⟨r, h, hadd r rfl⟩
  | phi resReg vals =>
    simp only [enumUses, enumDefs, enumPhysRegs, List.mem_append, List.mem_singleton] at hr ⊢
    rcases hr with h | h
    · exact Or.inr (List.mem_flatMap.mpr ⟨r, h, hadd r rfl⟩)
    · exact Or.inl (hadd _ h)
  | fiLoad dest fi =>
    simp only [enumUses, enumDefs, enumPhysRegs, List.nil_append, List.mem_singleton] at hr ⊢
    exact hadd _ hr
  | fiStore src fi =>
    simp only [enumUses, enumDefs, enumPhysRegs, List.append_nil, List.mem_singleton] at hr ⊢
    exact hadd _ hr

/-- On segments sorted by start, `isLiveAt` answers false only when no segment contains the
position. -/
theorem isLiveAt_false (segs : List Segment) (pos : Int)
    (hs : segs.Pairwise (fun a b => a.start ≤ b.start)) (h : isLiveAt segs pos = false) :
    ∀ seg ∈ segs, ¬ (seg.start ≤ pos ∧ pos < seg.endPos) := by
  induction segs with
  | nil => intro seg hseg; simp at hseg
  | cons s rest ih =>
    rw [List.pairwise_cons] at hs
    intro seg hseg
    simp only [isLiveAt] at h
    split at h
    · rename_i hlt
      rcases List.mem_cons.mp hseg with rfl | hmem
      · omega
      · have := hs.1 seg hmem
        omega
    · split at h
      · exact Bool.noConfusion h
      · rename_i h1 h2
        rcases List.mem_cons.mp hseg with rfl | hmem
        · exact h2
        · exact ih hs.2 h seg hmem

theorem find_interval_of_nodup (intervals : List Interval)
    (hnd : (intervals.map (fun x => x.vreg)).Nodup) (itv : Interval) (h : itv ∈ intervals) :
    intervals.find? (fun i => decide (i.vreg = itv.vreg)) = some itv := by
  induction intervals with
  | nil => simp at h
  | cons hd tl ih =>
    simp only [List.map_cons, List.nodup_cons] at hnd
    rcases List.mem_cons.mp h with rfl | hmem
    · simp
    · have hne : hd.vreg ≠ itv.vreg := by
        intro heq
        exact hnd.1 (by rw [heq]; exact List.mem_map_of_mem _ hmem)
      rw [List.find?_cons_of_neg _ (by simpa using hne)]
      exact ih hnd.2 hmem

/-- What the test `isPhysLive` excludes, when the map `intervals` holds one interval per
register and the segments of every interval are sorted by start. -/
theorem isPhysLive_false (env : RewriteEnv) (float : Bool) (r : Nat) (pos : Int)
    (hnd : (env.intervals.map (fun x => x.vreg)).Nodup)
    (hsorted : ∀ itv ∈ env.intervals, itv.segs.Pairwise (fun a b => a.start ≤ b.start))
    (h : isPhysLive env float r pos = false) :
    ∀ w, (w, r) ∈ env.assignedPhys → w.isFloat = float → ∀ itv ∈ env.intervals, itv.vreg = w →
      ∀ seg ∈ itv.segs, ¬ (seg.start ≤ pos ∧ pos < seg.endPos) := by
  intro w hw hfl itv hitv hv
  unfold isPhysLive at h
  rw [List.any_eq_false] at h
  have hmem : itv ∈ physIntervals env float r := by
    unfold physIntervals
    rw [List.mem_flatMap]
    refine ⟨(w, r), hw, ?_⟩
    simp only [hfl, and_self, if_true]
    rw [← hv, find_interval_of_nodup env.intervals hnd itv hitv]
    simp
  have := h itv hmem
  exact isLiveAt_false itv.segs pos (hsorted itv hitv) (by simpa using this)

theorem scratchInv_getScratch (env : RewriteEnv) (pos : Int) (f0 : List Nat)
    (ops : List Register) (st st1 : InstState) (r s : Register)
    (h : getScratch env pos st r = some (s, st1))
    (hr : r ∈ ops) (hv : r.isVreg = true) (hna : env.assignedPhys.lookup r = none)
    (hinv : ScratchInv env pos f0 ops st.scratchMap st.scratch) :
    ScratchInv env pos f0 ops st1.scratchMap st1.scratch := by
  unfold getScratch at h
  split at h
  · simp only [Option.some.injEq, Prod.mk.injEq] at h
    rw [← h.2]
    exact hinv
  · rename_i hnone
    split at h
    · simp at h
    · rename_i s0 sc hp
      simp only [Option.some.injEq, Prod.mk.injEq] at h
      obtain ⟨h1, h2⟩ := h
      subst h1 h2
      simp only
      obtain ⟨i1, i2, i3⟩ := hinv
      obtain ⟨hfresh, hforb⟩ := pickScratch_fresh env pos _ _ _ _ hp
      obtain ⟨hdt, hcand, hfree⟩ := pickScratch_mem env pos _ _ _ _ hp
      have hphys := pickScratch_phys env pos _ _ _ _ hp
      have hlive : isPhysLive env r.isFloat s0.rId pos = false := by
        unfold scratchFree at hfree
        simp only [Bool.and_eq_true, Bool.not_eq_true'] at hfree
        exact hfree.2
      refine ⟨?_, ?_, ?_⟩
      · intro x hx
        rw [hforb]
        exact List.mem_cons_of_mem _ (i1 x hx)
      · intro u s hl
        rcases lookup_regMapInsert_some _ _ _ _ _ hl with ⟨hu, hs⟩ | hold
        · subst hu hs
          refine ⟨hr, hv, hna, hphys, hdt, ?_, ?_, hlive, hcand⟩
          · rw [hforb]; exact List.mem_cons_self _ _
          · intro hin
            exact hfresh (i1 _ hin)
        · obtain ⟨a, b, c, d, e, f, g, k⟩ := i2 u s hold
          refine ⟨a, b, c, d, e, ?_, g, k⟩
          rw [hforb]
          exact List.mem_cons_of_mem _ f
      · intro u s u2 s2 hl hl2 hne
        rcases lookup_regMapInsert_some _ _ _ _ _ hl with ⟨hu, hs⟩ | hold
        · rcases lookup_regMapInsert_some _ _ _ _ _ hl2 with ⟨hu2, hs2⟩ | hold2
          · exact absurd (hu.trans hu2.symm) hne
          · subst hs
            intro heq
            have := (i2 u2 s2 hold2).2.2.2.2.2.1
            rw [← heq] at this
            exact hfresh this
        · rcases lookup_regMapInsert_some _ _ _ _ _ hl2 with ⟨hu2, hs2⟩ | hold2
          · subst hs2
            intro heq
            have := (i2 u s hold).2.2.2.2.2.1
            rw [heq] at this
            exact hfresh this
          · exact i3 u s u2 s2 hold hold2 hne

theorem scratchInv_rewriteUse (env : RewriteEnv) (pos : Int) (f0 : List Nat)
    (ops : List Register) (st st1 : InstState) (u : Register)
    (h : rewriteUse env pos st u = some st1) (hu : u ∈ ops)
    (hinv : ScratchInv env pos f0 ops st.scratchMap st.scratch) :
    ScratchInv env pos f0 ops st1.scratchMap st1.scratch := by
  unfold rewriteUse at h
  split at h
  · simp only [Option.some.injEq] at h
    rw [← h]; exact hinv
  · rename_i hv
    split at h
    · simp only [Option.some.injEq] at h
      rw [← h]; exact hinv
    · rename_i hna
      split at h
      · simp at h
      · rename_i s st2 hg
        have := scratchInv_getScratch env pos f0 ops st st2 u s hg hu (by simpa using hv) hna hinv
        split at h
        · simp only [Option.some.injEq] at h
          rw [← h]; exact this
        · simp only [Option.some.injEq] at h
          rw [← h]; exact this

theorem scratchInv_rewriteDef (env : RewriteEnv) (pos : Int) (f0 : List Nat)
    (ops : List Register) (st st1 : InstState) (d : Register)
    (h : rewriteDef env pos st d = some st1) (hd : d ∈ ops)
    (hinv : ScratchInv env pos f0 ops st.scratchMap st.scratch) :
    ScratchInv env pos f0 ops st1.scratchMap st1.scratch := by
  unfold rewriteDef at h
  split at h
  · simp only [Option.some.injEq] at h
    rw [← h]; exact hinv
  · rename_i hv
    split at h
    · simp only [Option.some.injEq] at h
      rw [← h]; exact hinv
    · rename_i hna
      split at h
      · simp at h
      · rename_i s st2 hg
        have := scratchInv_getScratch env pos f0 ops st st2 d s hg hd (by simpa using hv) hna hinv
        split at h
        · simp only [Option.some.injEq] at h
          rw [← h]; exact this
        · simp only [Option.some.injEq] at h
          rw [← h]; exact this

theorem scratchInv_rewriteUses (env : RewriteEnv) (pos : Int) (f0 : List Nat)
    (ops : List Register) (l : List Register) :
    ∀ st stf : InstState, rewriteUses env pos l st = some stf → (∀ u ∈ l, u ∈ ops) →
      ScratchInv env pos f0 ops st.scratchMap st.scratch →
      ScratchInv env pos f0 ops stf.scratchMap stf.scratch := by
  induction l with
  | nil =>
    intro st stf h _ hinv
    simp only [rewriteUses, Option.some.injEq] at h
    rw [← h]; exact hinv
  | cons u rest ih =>
    intro st stf h hl hinv
    simp only [rewriteUses] at h
    split at h
    · simp at h
    · rename_i st1 h1
      exact ih st1 stf h (fun x hx => hl x (List.mem_cons_of_mem _ hx))
        (scratchInv_rewriteUse env pos f0 ops st st1 u h1 (hl u (List.mem_cons_self _ _)) hinv)

theorem scratchInv_rewriteDefs (env : RewriteEnv) (pos : Int) (f0 : List Nat)
    (ops : List Register) (l : List Register) :
    ∀ st stf : InstState, rewriteDefs env pos l st = some stf → (∀ u ∈ l, u ∈ ops) →
      ScratchInv env pos f0 ops st.scratchMap st.scratch →
      ScratchInv env pos f0 ops stf.scratchMap stf.scratch := by
  induction l with
  | nil =>
    intro st stf h _ hinv
    simp only [rewriteDefs, Option.some.injEq] at h
    rw [← h]; exact hinv
  | cons u rest ih =>
    intro st stf h hl hinv
    simp only [rewriteDefs] at h
    split at h
    · simp at h
    · rename_i st1 h1
      exact ih st1 stf h (fun x hx => hl x (List.mem_cons_of_mem _ hx))
        (scratchInv_rewriteDef env pos f0 ops st st1 u h1 (hl u (List.mem_cons_self _ _)) hinv)

/-- The scratch registers of one instruction, for the state that the two rewrite loops
leave. -/
theorem scratchInv_rewriteInst (env : RewriteEnv) (spill : SpillState) (pos : Int)
    (inst : MInstruction) (st1 st2 : InstState)
    (h1 : rewriteUses env pos (enumUses inst) (initInstState env spill inst) = some st1)
    (h2 : rewriteDefs env pos (enumDefs inst) st1 = some st2) :
    ScratchInv env pos (initInstState env spill inst).scratch.forbidden
      (enumUses inst ++ enumDefs inst) st2.scratchMap st2.scratch := by
  have h0 : ScratchInv env pos (initInstState env spill inst).scratch.forbidden
      (enumUses inst ++ enumDefs inst) (initInstState env spill inst).scratchMap
      (initInstState env spill inst).scratch := by
    refine ⟨fun x hx => hx, ?_, ?_⟩
    · intro u s hl
      simp [initInstState] at hl
    · intro u s u2 s2 hl
      simp [initInstState] at hl
  have ha := scratchInv_rewriteUses env pos _ _ (enumUses inst) _ st1 h1
    (fun u hu => List.mem_append.mpr (Or.inl hu)) h0
  exact scratchInv_rewriteDefs env pos _ _ (enumDefs inst) _ st2 h2
    (fun u hu => List.mem_append.mpr (Or.inr hu)) ha

theorem mem_assignedOf (env : RewriteEnv) (regs : List Register) (w : Register) (p : Nat)
    (hw : w ∈ regs) (hv : w.isVreg = true) (hp : env.assignedPhys.lookup w = some p) :
    p ∈ assignedOf env regs := by
  unfold assignedOf
  rw [List.mem_filterMap]
  exact ⟨w, hw, by simp [hv, hp]⟩

theorem markCrossesCall_segs (cp : List Int) (itv : Interval) :
    (markCrossesCall cp itv).segs = itv.segs := by
  unfold markCrossesCall
  split <;> rfl

theorem rv64_classes_apart :
    (∀ r ∈ buildAllocatable rv64RegInfo.intRegs rv64RegInfo.reservedRegs,
      r ∉ buildAllocatable rv64RegInfo.floatRegs rv64RegInfo.reservedRegs ∧
      r ∉ rv64RegInfo.floatArgRegs) ∧
    (∀ r ∈ rv64RegInfo.intArgRegs,
      r ∉ buildAllocatable rv64RegInfo.floatRegs rv64RegInfo.reservedRegs) ∧
    (∀ r ∈ rv64RegInfo.floatArgRegs,
      r ∉ buildAllocatable rv64RegInfo.intRegs rv64RegInfo.reservedRegs) := by
  decide

/-- The intervals that `allocateFunction` hands to allocation and rewriting: one per
register, each with segments sorted by start. -/
theorem allocIntervals_sorted (liveOut : Nat → List Register) (blocks : BlockMap)
    (callPoints : List Int) (intervals : List Interval)
    (hint : intervals =
      if callPoints.isEmpty then (buildIntervals liveOut blocks 0 []).map (fun ri => ri.2.merge)
      else ((buildIntervals liveOut blocks 0 []).map (fun ri => ri.2.merge)).map
        (markCrossesCall callPoints)) :
    (intervals.map (fun x => x.vreg)).Nodup ∧
    ∀ itv ∈ intervals, itv.segs.Pairwise (fun a b => a.start ≤ b.start) := by
  have hnd := builtIntervals_nodup liveOut blocks callPoints
  have hm : ∀ itv ∈ (buildIntervals liveOut blocks 0 []).map (fun ri => ri.2.merge),
      itv.segs.Pairwise (fun a b => a.start ≤ b.start) := by
    intro itv hitv
    obtain ⟨ri, _, rfl⟩ := List.mem_map.mp hitv
    refine (merge_separate ri.2).imp ?_
    intro a b h
    rcases h.1 with h1 | h1
    · exact segLess_true a b h1
    · rw [h1]
  subst hint
  split
  · exact ⟨hnd.1, hm⟩
  · refine ⟨hnd.2, ?_⟩
    intro itv hitv
    obtain ⟨x, hx, rfl⟩ := List.mem_map.mp hitv
    rw [markCrossesCall_segs]
    exact hm x hx

/-- Claim C32: take the data that the rewrite phase of `allocateFunction` reads with the
RV64 register info: the intervals built for the function (merged, marked), the map
`assignedPhys` of the allocation loops and the register lists. Let the loops over the uses
and the definitions of the instruction `inst` at position `pos` end with `scratchMap`
holding the scratch `s` for the register `v`. Then `v` is a virtual operand of `inst`
without an assigned register, and `s` is a physical register that is none of: a physical
register that `enumUses` or `enumDefs` report for `inst`; the register assigned to a virtual
operand of `inst`; the scratch recorded for another register; a register assigned to a
virtual register whose interval has a segment that contains `pos`. -/
theorem pickScratch_avoids_operands (liveOut : Nat → List Register) (blocks : BlockMap)
    (callPoints : List Int) (slots : List (Int × Int)) (env : RewriteEnv)
    (hint : env.intervals =
      if callPoints.isEmpty then (buildIntervals liveOut blocks 0 []).map (fun ri => ri.2.merge)
      else ((buildIntervals liveOut blocks 0 []).map (fun ri => ri.2.merge)).map
        (markCrossesCall callPoints))
    (hasg : env.assignedPhys = (allocateIntervals env.intervals rv64RegInfo.intRegs
      rv64RegInfo.floatRegs rv64RegInfo.reservedRegs rv64RegInfo.calleeSavedIntRegs
      rv64RegInfo.calleeSavedFloatRegs { spillFrameIndex := [], spillSlots := slots }).assignedPhys)
    (hai : env.allIntRegs = buildAllocatable rv64RegInfo.intRegs rv64RegInfo.reservedRegs)
    (haf : env.allFloatRegs = buildAllocatable rv64RegInfo.floatRegs rv64RegInfo.reservedRegs)
    (hia : env.intArgRegs = rv64RegInfo.intArgRegs)
    (hfa : env.floatArgRegs = rv64RegInfo.floatArgRegs)
    (spill : SpillState) (pos : Int) (inst : MInstruction) (st1 st2 : InstState)
    (h1 : rewriteUses env pos (enumUses inst) (initInstState env spill inst) = some st1)
    (h2 : rewriteDefs env pos (enumDefs inst) st1 = some st2)
    (v s : Register) (hvs : st2.scratchMap.lookup v = some s) :
    (v ∈ enumUses inst ++ enumDefs inst ∧ v.isVreg = true ∧
      env.assignedPhys.lookup v = none) ∧
    s.isVreg = false ∧
    (∀ r ∈ enumUses inst ++ enumDefs inst, r.isVreg = false → r.rId ≠ s.rId) ∧
    (∀ w ∈ enumUses inst ++ enumDefs inst, w.isVreg = true →
      ∀ p, env.assignedPhys.lookup w = some p → p ≠ s.rId) ∧
    (∀ v2 s2, st2.scratchMap.lookup v2 = some s2 → v2 ≠ v → s2.rId ≠ s.rId) ∧
    (∀ w p, env.assignedPhys.lookup w = some p → ∀ itv ∈ env.intervals, itv.vreg = w →
      (∃ seg ∈ itv.segs, seg.start ≤ pos ∧ pos < seg.endPos) → p ≠ s.rId) := by
  obtain ⟨i1, i2, i3⟩ := scratchInv_rewriteInst env spill pos inst st1 st2 h1 h2
  obtain ⟨hvops, hvv, hvna, hsphys, _, _, hsf0, hlive, hcand⟩ := i2 v s hvs
  have hf0 : (initInstState env spill inst).scratch.forbidden =
      (enumPhysRegs inst).map (fun r => r.rId) ++ assignedOf env (enumUses inst) ++
        assignedOf env (enumDefs inst) := rfl
  rw [hf0] at hsf0
  simp only [List.mem_append, not_or] at hsf0
  refine ⟨⟨hvops, hvv, hvna⟩, hsphys, ?_, ?_, ?_, ?_⟩
  · intro r hr hphys heq
    have := enumPhysRegs_covers inst r v hr hphys hvops hvv
    exact hsf0.1.1 (by rw [← heq]; exact List.mem_map_of_mem _ this)
  · intro w hw hwv p hp heq
    rcases List.mem_append.mp hw with h | h
    · exact hsf0.1.2 (by rw [← heq]; exact mem_assignedOf env _ w p h hwv hp)
    · exact hsf0.2 (by rw [← heq]; exact mem_assignedOf env _ w p h hwv hp)
  · intro v2 s2 hl hne
    exact i3 v2 s2 v s hl hvs hne
  · intro w p hp itv hitv hitvw hseg heq
    obtain ⟨hnd, hsorted⟩ := allocIntervals_sorted liveOut blocks callPoints env.intervals hint
    have hmem : (w, p) ∈ env.assignedPhys := lookup_mem_reg _ _ _ hp
    have hclass := allocateIntervals_from env.intervals rv64RegInfo.intRegs
      rv64RegInfo.floatRegs rv64RegInfo.reservedRegs rv64RegInfo.calleeSavedIntRegs
      rv64RegInfo.calleeSavedFloatRegs { spillFrameIndex := [], spillSlots := slots } (w, p)
      (by rw [← hasg]; exact hmem)
    obtain ⟨c1, c2, c3⟩ := rv64_classes_apart
    have hsame : w.isFloat = v.isFloat := by
      rw [hai, haf, hia, hfa] at hcand
      rw [heq] at hclass
      rcases hclass with ⟨x, _, hxi, hxw, hr⟩ | ⟨x, _, hxf, hxw, hr⟩
      · simp only at hxw hr
        rw [← hxw, (isIntInterval_class x hxi).1]
        cases hvf : v.isFloat
        · rfl
        · exfalso
          simp only [hvf, if_true] at hcand
          rcases hcand with h | h
          · exact (c1 _ hr).1 h
          · exact (c1 _ hr).2 h
      · simp only at hxw hr
        rw [← hxw, (isFloatInterval_class x hxf).1]
        cases hvf : v.isFloat
        · exfalso
          simp only [hvf, Bool.false_eq_true, if_false] at hcand
          rcases hcand with h | h
          · exact (c1 _ h).1 hr
          · exact c2 _ h hr
        · rfl
    obtain ⟨seg, hsm, hs1, hs2⟩ := hseg
    rw [heq] at hmem
    exact isPhysLive_false env v.isFloat s.rId pos hnd hsorted hlive w hmem hsame itv hitv hitvw
      seg hsm ⟨hs1, hs2⟩

set_option maxRecDepth 100000 in
/-- Claim C32 at the instruction `ADDW v36, v35, v18` of `sumFunction 19`, position 35: the
scratch picked for `v18` is `s0`. -/
theorem pickScratch_avoids_operands_witness :
    (sumInsts 19)[35]? = some sumInst35 ∧
    (∃ st1 st2,
      rewriteUses sumEnv 35 (enumUses sumInst35) (initInstState sumEnv noSpill sumInst35)
        = some st1 ∧
      rewriteDefs sumEnv 35 (enumDefs sumInst35) st1 = some st2 ∧
      st2.scratchMap.lookup (vreg 18) = some { rId := 8, dt := some .I32, isVreg := false }) ∧
    (vreg 18 ∈ enumUses sumInst35 ++ enumDefs sumInst35 ∧ (vreg 18).isVreg = true ∧
      sumEnv.assignedPhys.lookup (vreg 18) = none) ∧
    (∀ w ∈ enumUses sumInst35 ++ enumDefs sumInst35, w.isVreg = true →
      ∀ p, sumEnv.assignedPhys.lookup w = some p → p ≠ 8) ∧
    (∀ w p, sumEnv.assignedPhys.lookup w = some p → ∀ itv ∈ sumEnv.intervals, itv.vreg = w →
      (∃ seg ∈ itv.segs, seg.start ≤ 35 ∧ (35 : Int) < seg.endPos) → p ≠ 8) :=
  have h1 : rewriteUses sumEnv 35 (enumUses sumInst35) (initInstState sumEnv noSpill sumInst35)
      = some ((rewriteUses sumEnv 35 (enumUses sumInst35)
          (initInstState sumEnv noSpill sumInst35)).getD
            (initInstState sumEnv noSpill sumInst35)) := by decide
  have h2 : rewriteDefs sumEnv 35 (enumDefs sumInst35)
      ((rewriteUses sumEnv 35 (enumUses sumInst35)
          (initInstState sumEnv noSpill sumInst35)).getD
            (initInstState sumEnv noSpill sumInst35))
      = some ((rewriteDefs sumEnv 35 (enumDefs sumInst35)
          ((rewriteUses sumEnv 35 (enumUses sumInst35)
            (initInstState sumEnv noSpill sumInst35)).getD
              (initInstState sumEnv noSpill sumInst35))).getD
                (initInstState sumEnv noSpill sumInst35)) := by decide
  have hl : ((rewriteDefs sumEnv 35 (enumDefs sumInst35)
          ((rewriteUses sumEnv 35 (enumUses sumInst35)
            (initInstState sumEnv noSpill sumInst35)).getD
              (initInstState sumEnv noSpill sumInst35))).getD
                (initInstState sumEnv noSpill sumInst35)).scratchMap.lookup (vreg 18)
      = some { rId := 8, dt := some .I32, isVreg := false } := by decide
  have hthm := pickScratch_avoids_operands (fun _ => []) (sumFunction 19).blocks [] [] sumEnv
    rfl rfl rfl rfl rfl rfl noSpill 35 sumInst35 _ _ h1 h2 (vreg 18)
    { rId := 8, dt := some .I32, isVreg := false } hl
  ⟨by decide, ⟨_, _, h1, h2, hl⟩, hthm.1, hthm.2.2.2.1, hthm.2.2.2.2.2⟩

/-! ### Stack lowering: where the saved registers go -/

/-- The blocks of the lowered function, also when neither a prologue nor an epilogue is
inserted: both are empty then. -/
theorem lowerFunction_blocks_eq (func : Function) (layout : FrameLayout) :
    (lowerFunction func layout).blocks =
      mapInsts (fun l => l.flatMap (epilogueInst layout.frameSize (computeStackSize func layout)
          (savedRegs func)))
        (addPrologue (prologue layout.frameSize (computeStackSize func layout) (savedRegs func))
          (mapInsts (fun l => l.flatMap (lowerInst layout (computeStackSize func layout)))
            func.blocks)) := by
  unfold lowerFunction
  simp only
  split
  · rfl
  · rename_i hcond
    simp only [Bool.or_eq_true, Bool.not_eq_true', decide_eq_true_eq, not_or,
      Bool.not_eq_false] at hcond
    obtain ⟨hs, hz⟩ := hcond
    have hnil : savedRegs func = [] := by simpa using hs
    rw [hnil]
    have hpro : prologue layout.frameSize (computeStackSize func layout) [] = [] := by
      simp [prologue, saveRegs, hz]
    rw [hpro]
    have hadd : ∀ b : BlockMap, addPrologue [] b = b := by
      intro b
      cases b with
      | nil => rfl
      | cons hd tl => obtain ⟨id, e⟩ := hd; simp [addPrologue]
    rw [hadd]
    unfold mapInsts
    rw [List.map_map]
    apply List.map_congr_left
    intro kb _
    simp only [Function.comp_apply]
    rw [flatMap_epilogue_nil _ _ hz]

/-- The stores of the prologue, one group per saved register: the register with index `k`
goes to `frameSize + 8 * k` above `sp`. -/
theorem saveRegs_eq (frameSize : Int) (saved : List Register) :
    ∀ i, saveRegs frameSize i saved =
      (saved.enumFrom i).flatMap (fun kr =>
        if imm12 (frameSize + Int.ofNat (kr.1 * 8)) then
          [.target (createSInst (if kr.2.isFloat then Operator.FSD else Operator.SD) kr.2 PR.sp
            (frameSize + Int.ofNat (kr.1 * 8)))]
        else
          [.target (createUInst .LI PR.t0 (frameSize + Int.ofNat (kr.1 * 8))),
           .target (createRInst .ADD PR.t0 PR.sp PR.t0),
           .target (createSInst (if kr.2.isFloat then Operator.FSD else Operator.SD) kr.2
             PR.t0 0)]) := by
  induction saved with
  | nil => intro i; rfl
  | cons hd tl ih =>
    intro i
    simp only [saveRegs, List.enumFrom_cons, List.flatMap_cons]
    rw [ih (i + 1)]

/-- The loads of an epilogue, one group per saved register: the register with index `k`
comes from `frameSize + 8 * k` above `sp`. -/
theorem restoreRegs_eq (frameSize : Int) (saved : List Register) :
    ∀ i, restoreRegs frameSize i saved =
      (saved.enumFrom i).flatMap (fun kr =>
        if imm12 (frameSize + Int.ofNat (kr.1 * 8)) then
          [.target (createIInst (if kr.2.isFloat then Operator.FLD else Operator.LD) kr.2 PR.sp
            (frameSize + Int.ofNat (kr.1 * 8)))]
        else
          [.target (createUInst .LI PR.t0 (frameSize + Int.ofNat (kr.1 * 8))),
           .target (createRInst .ADD PR.t0 PR.sp PR.t0),
           .target (createIInst (if kr.2.isFloat then Operator.FLD else Operator.LD) kr.2
             PR.t0 0)]) := by
  induction saved with
  | nil => intro i; rfl
  | cons hd tl ih =>
    intro i
    simp only [restoreRegs, List.enumFrom_cons, List.flatMap_cons]
    rw [ih (i + 1)]

/-- In a block after the epilogue loop every return has the reloads of the saved registers
and then the adjustment of `sp` right in front of it. -/
theorem epilogue_return_restores (frameSize stackSize : Int) (saved : List Register)
    (l : List MInstruction) :
    ∀ (pre post : List MInstruction) (ri : Instr),
      l.flatMap (epilogueInst frameSize stackSize saved) = pre ++ .target ri :: post →
      isReturnInst ri = true →
      (restoreRegs frameSize 0 saved ++
        (if stackSize > 0 then insertSpAdjust stackSize else [])) <:+ pre := by
  have hE : ∀ o ∈ restoreRegs frameSize 0 saved ++
      (if stackSize > 0 then insertSpAdjust stackSize else []), isReturn o = false := by
    intro o ho
    rcases List.mem_append.mp ho with h1 | h1
    · exact restoreRegs_not_return _ _ _ _ h1
    · split at h1
      · exact insertSpAdjust_not_return _ _ h1
      · simp at h1
  induction l with
  | nil =>
    intro pre post ri h _
    simp at h
  | cons x xs ih =>
    intro pre post ri h hret
    simp only [List.flatMap_cons] at h
    rcases List.append_eq_append_iff.mp h with ⟨a, hpre, hrest⟩ | ⟨c, hx, hrest⟩
    · have := ih a post ri hrest hret
      rw [hpre]
      exact List.IsSuffix.trans this (List.suffix_append _ _)
    · cases c with
      | nil =>
        simp only [List.nil_append, List.append_nil] at hrest hx
        have := ih [] post ri hrest.symm hret
        rw [List.suffix_nil.mp this]
        exact List.nil_suffix
      | cons t c2 =>
        simp only [List.cons_append, List.cons.injEq] at hrest
        obtain ⟨ht, _⟩ := hrest
        subst ht
        have hone : ∀ y : MInstruction, [y] = pre ++ MInstruction.target ri :: c2 →
            y = .target ri ∧ pre = [] := by
          intro y hy
          cases pre with
          | nil =>
            simp only [List.nil_append, List.cons.injEq] at hy
            exact ⟨hy.1, rfl⟩
          | cons b bs =>
            simp only [List.cons_append, List.cons.injEq] at hy
            have := congrArg List.length hy.2
            simp at this
            omega
        cases x with
        | target rx =>
          simp only [epilogueInst] at hx
          split at hx
          · have hnot : MInstruction.target ri ∉ restoreRegs frameSize 0 saved ++
                (if stackSize > 0 then insertSpAdjust stackSize else []) := by
              intro hm
              have := hE _ hm
              simp [isReturn, hret] at this
            have := split_last_of_not_mem _ _ _ _ _ hx hnot
            rw [this]
          · rename_i hnr
            have := (hone _ hx).1
            simp only [MInstruction.target.injEq] at this
            rw [this] at hnr
            exact absurd hret hnr
        | move d s0 =>
          have := (hone _ (by simpa [epilogueInst] using hx)).1
          exact MInstruction.noConfusion this
        | phi r v =>
          have := (hone _ (by simpa [epilogueInst] using hx)).1
          exact MInstruction.noConfusion this
        | fiLoad d fi =>
          have := (hone _ (by simpa [epilogueInst] using hx)).1
          exact MInstruction.noConfusion this
        | fiStore d fi =>
          have := (hone _ (by simpa [epilogueInst] using hx)).1
          exact MInstruction.noConfusion this

/-- Claim C35: in the lowered function the entry block starts with the adjustment of `sp`
by `-stackSize` followed by the stores of the prologue, and every return of every block has
right in front of it the reloads of the epilogue followed by the adjustment of `sp` by
`+stackSize`. Stores and reloads run over the same list `savedRegs`, in the same order: the
register with index `i` is stored to and reloaded from `frameSize + 8 * i` above the
adjusted `sp` (directly, or through `t0 = sp + offset` when the offset is not a 12-bit
immediate), that is just above the local area of `frameSize` bytes. With a saved register and
a local area that is not negative the frame is not empty, so the adjustments are there. -/
theorem lowerFunction_save_restore (func : Function) (layout : FrameLayout) :
    (∀ id entry rest, (lowerFunction func layout).blocks = (id, entry) :: rest →
      ((if (lowerFunction func layout).stackSize > 0 then
          insertSpAdjust (-(lowerFunction func layout).stackSize) else []) ++
        saveRegs layout.frameSize 0 (savedRegs func)) <+: entry.insts) ∧
    (∀ kb ∈ (lowerFunction func layout).blocks, ∀ (pre post : List MInstruction) (ri : Instr),
      kb.2.insts = pre ++ .target ri :: post → isReturnInst ri = true →
      (restoreRegs layout.frameSize 0 (savedRegs func) ++
        (if (lowerFunction func layout).stackSize > 0 then
          insertSpAdjust (lowerFunction func layout).stackSize else [])) <:+ pre) ∧
    saveRegs layout.frameSize 0 (savedRegs func) =
      (savedRegs func).enum.flatMap (fun kr =>
        if imm12 (layout.frameSize + Int.ofNat (kr.1 * 8)) then
          [.target (createSInst (if kr.2.isFloat then Operator.FSD else Operator.SD) kr.2 PR.sp
            (layout.frameSize + Int.ofNat (kr.1 * 8)))]
        else
          [.target (createUInst .LI PR.t0 (layout.frameSize + Int.ofNat (kr.1 * 8))),
           .target (createRInst .ADD PR.t0 PR.sp PR.t0),
           .target (createSInst (if kr.2.isFloat then Operator.FSD else Operator.SD) kr.2
             PR.t0 0)]) ∧
    restoreRegs layout.frameSize 0 (savedRegs func) =
      (savedRegs func).enum.flatMap (fun kr =>
        if imm12 (layout.frameSize + Int.ofNat (kr.1 * 8)) then
          [.target (createIInst (if kr.2.isFloat then Operator.FLD else Operator.LD) kr.2 PR.sp
            (layout.frameSize + Int.ofNat (kr.1 * 8)))]
        else
          [.target (createUInst .LI PR.t0 (layout.frameSize + Int.ofNat (kr.1 * 8))),
           .target (createRInst .ADD PR.t0 PR.sp PR.t0),
           .target (createIInst (if kr.2.isFloat then Operator.FLD else Operator.LD) kr.2
             PR.t0 0)]) ∧
    (savedRegs func ≠ [] → 0 ≤ layout.frameSize → (lowerFunction func layout).stackSize > 0) := by
  rw [lowerFunction_stackSize_eq]
  have hb := lowerFunction_blocks_eq func layout
  refine ⟨?_, ?_, saveRegs_eq _ _ 0, restoreRegs_eq _ _ 0, ?_⟩
  · intro id entry rest hblocks
    rw [hb] at hblocks
    cases hfb : func.blocks with
    | nil => rw [hfb] at hblocks; simp [mapInsts, addPrologue] at hblocks
    | cons hd tl =>
      rw [hfb] at hblocks
      simp only [mapInsts, List.map_cons, addPrologue, List.cons.injEq] at hblocks
      obtain ⟨h1, _⟩ := hblocks
      have hentry := congrArg (fun kb : Nat × Block => kb.2.insts) h1
      simp only at hentry
      rw [← hentry]
      simp only [List.flatMap_append]
      have hpro : (prologue layout.frameSize (computeStackSize func layout)
          (savedRegs func)).flatMap (epilogueInst layout.frameSize
            (computeStackSize func layout) (savedRegs func)) =
          (if computeStackSize func layout > 0 then
            insertSpAdjust (-computeStackSize func layout) else []) ++
          saveRegs layout.frameSize 0 (savedRegs func) := by
        rw [flatMap_epilogue_of_not_return]
        · rfl
        · intro o ho
          unfold prologue at ho
          rcases List.mem_append.mp ho with h | h
          · split at h
            · exact insertSpAdjust_not_return _ _ h
            · simp at h
          · exact saveRegs_not_return _ _ _ _ h
      rw [hpro]
      exact List.prefix_append _ _
  · intro kb hkb pre post ri hsplit hret
    rw [hb] at hkb
    unfold mapInsts at hkb
    obtain ⟨kb0, _, rfl⟩ := List.mem_map.mp hkb
    simp only at hsplit
    exact epilogue_return_restores _ _ _ _ pre post ri hsplit hret
  · intro hne hf
    unfold computeStackSize
    have : 0 < (savedRegs func).length := List.length_pos.mpr hne
    simp only [Int.ofNat_eq_coe]
    omega

/-- Claim C35 at the function `writesS1` with a local area of 16 bytes: `s1` is stored at
`16(sp)` after `ADDI sp, sp, -24` and reloaded from `16(sp)` before `ADDI sp, sp, 24` and
the return. -/
theorem lowerFunction_save_restore_witness :
    savedRegs writesS1 = [PR.s1] ∧
    (lowerFunction writesS1 layout16).blocks =
      [(0, { blockId := 0,
             insts := [.target (createIInst .ADDI PR.sp PR.sp (-24)),
                       .target (createSInst .SD PR.s1 PR.sp 16),
                       .target (createIInst .ADDI PR.s1 PR.a0 0),
                       .target (createIInst .LD PR.s1 PR.sp 16),
                       .target (createIInst .ADDI PR.sp PR.sp 24),
                       .target (createIInst .JALR PR.x0 PR.ra 0)] })] ∧
    (lowerFunction writesS1 layout16).stackSize > 0 ∧
    (restoreRegs layout16.frameSize 0 (savedRegs writesS1) ++
        (if (lowerFunction writesS1 layout16).stackSize > 0 then
          insertSpAdjust (lowerFunction writesS1 layout16).stackSize else [])) <:+
      [MInstruction.target (createIInst .ADDI PR.sp PR.sp (-24)),
       .target (createSInst .SD PR.s1 PR.sp 16),
       .target (createIInst .ADDI PR.s1 PR.a0 0),
       .target (createIInst .LD PR.s1 PR.sp 16),
       .target (createIInst .ADDI PR.sp PR.sp 24)] :=
  ⟨by decide, by decide,
    (lowerFunction_save_restore writesS1 layout16).2.2.2.2 (by decide) (by decide),
    (lowerFunction_save_restore writesS1 layout16).2.1
      (0, { blockId := 0,
            insts := [.target (createIInst .ADDI PR.sp PR.sp (-24)),
                      .target (createSInst .SD PR.s1 PR.sp 16),
                      .target (createIInst .ADDI PR.s1 PR.a0 0),
                      .target (createIInst .LD PR.s1 PR.sp 16),
                      .target (createIInst .ADDI PR.sp PR.sp 24),
                      .target (createIInst .JALR PR.x0 PR.ra 0)] })
      (by decide) _ [] (createIInst .JALR PR.x0 PR.ra 0) rfl (by decide)⟩

/-! ### Frame lowering before register allocation -/

theorem frameLowerInsts_append (layout : FrameLayout) (l1 l2 : List MInstruction) :
    ∀ n, frameLowerInsts layout (l1 ++ l2) n =
      ((frameLowerInsts layout l1 n).1 ++
          (frameLowerInsts layout l2 (frameLowerInsts layout l1 n).2).1,
        (frameLowerInsts layout l2 (frameLowerInsts layout l1 n).2).2) := by
  induction l1 with
  | nil => intro n; simp [frameLowerInsts]
  | cons x xs ih =>
    intro n
    show frameLowerInsts layout (x :: (xs ++ l2)) n = _
    simp only [frameLowerInsts, ih, List.append_assoc]

/-- Where an instruction of a block ends up: its replacement stands between the
replacements of the instructions before it and of those after it. -/
theorem frameLowering_inst_place (func : Function) (layout : FrameLayout) (next : Nat)
    (kb : Nat × Block) (hkb : kb ∈ func.blocks) (l1 l2 : List MInstruction) (x : MInstruction)
    (hsplit : kb.2.insts = l1 ++ x :: l2) :
    ∃ kb1 ∈ (frameLowering func layout next).1.blocks, kb1.1 = kb.1 ∧
      ∃ n0, kb1.2.insts = (frameLowerInsts layout l1 n0).1 ++
        (frameLowerInst layout x (frameLowerInsts layout l1 n0).2).1 ++
        (frameLowerInsts layout l2
          (frameLowerInst layout x (frameLowerInsts layout l1 n0).2).2).1 := by
  have key : ∀ (blocks : BlockMap) (n : Nat), kb ∈ blocks →
      ∃ kb1 ∈ (frameLowerBlocks layout blocks n).1, kb1.1 = kb.1 ∧
        ∃ n0, kb1.2.insts = (frameLowerInsts layout kb.2.insts n0).1 := by
    intro blocks
    induction blocks with
    | nil => intro n h; simp at h
    | cons hd tl ih =>
      intro n h
      obtain ⟨bid, block⟩ := hd
      simp only [frameLowerBlocks]
      rcases List.mem_cons.mp h with rfl | hmem
      · exact ⟨_, List.mem_cons_self _ _, rfl, n, rfl⟩
      · obtain ⟨kb1, h1, h2, h3⟩ := ih (frameLowerInsts layout block.insts n).2 hmem
        exact ⟨kb1, List.mem_cons_of_mem _ h1, h2, h3⟩
  obtain ⟨kb1, h1, h2, n0, h3⟩ := key func.blocks next hkb
  refine ⟨kb1, h1, h2, n0, ?_⟩
  rw [h3, hsplit, frameLowerInsts_append]
  simp only [frameLowerInsts, List.append_assoc]

/-- Claim C34: in `FrameLoweringPass::runOnFunction` the replacement of an instruction
stands where the instruction stood, between the replacements of the instructions before and
after it. For a target instruction whose frame index names a local object at the offset
`off` (not negative: a negative answer of the frame means that it does not know the index):
when `off` is a 12-bit immediate, the instruction keeps opcode and registers, gets the
immediate `off` and loses the frame-index operand; otherwise `ADDI/ADDIW rd, rs1, FI` becomes
the move of `off` into a new virtual register `tmp` and `ADD/ADDW rd, rs1, tmp`, and a load
or store becomes the move of `off` into `tmp`, `ADD addr, base, tmp` with a second new
register `addr`, and the load or store itself with `addr` as base and immediate 0 (the base
of a store is `rs2`, that of a load `rs1`). An instruction whose frame index the frame does
not know, and every instruction without a frame index, stays as it is. -/
theorem frameLowering_rewrites (func : Function) (layout : FrameLayout) (next : Nat)
    (kb : Nat × Block) (hkb : kb ∈ func.blocks) (l1 l2 : List MInstruction) (x : MInstruction)
    (hsplit : kb.2.insts = l1 ++ x :: l2) :
    ∃ kb1 ∈ (frameLowering func layout next).1.blocks, kb1.1 = kb.1 ∧
      ∃ (pre post : List MInstruction) (n : Nat), ∃ new : List MInstruction,
        kb1.2.insts = pre ++ new ++ post ∧
        (∃ n0, pre = (frameLowerInsts layout l1 n0).1 ∧ n = (frameLowerInsts layout l1 n0).2 ∧
          post = (frameLowerInsts layout l2 (frameLowerInst layout x n).2).1) ∧
        (∀ ri fi off, x = .target ri → ri.use_ops = true → ri.fiop = some (.frameIndex fi) →
          layout.objectOffset fi = off → 0 ≤ off →
          (imm12 off = true →
            new = [.target { ri with imme := off, use_ops := false, fiop := none }]) ∧
          (imm12 off = false → ri.op = .ADDI ∨ ri.op = .ADDIW →
            new = [createMove { rId := n, dt := if ri.rd.dt.isSome then ri.rd.dt else some .I64,
                                isVreg := true } (.immI32 off),
                   .target (createRInst (if ri.op = .ADDIW then .ADDW else .ADD) ri.rd ri.rs1
                     { rId := n, dt := if ri.rd.dt.isSome then ri.rd.dt else some .I64,
                       isVreg := true })]) ∧
          (imm12 off = false → ri.op ∈ [Operator.LW, .LD, .FLW, .FLD] →
            new = [createMove { rId := n, dt := some .I64, isVreg := true } (.immI32 off),
                   .target (createRInst .ADD { rId := n + 1, dt := some .I64, isVreg := true }
                     ri.rs1 { rId := n, dt := some .I64, isVreg := true }),
                   .target { ri with rs1 := { rId := n + 1, dt := some .I64, isVreg := true },
                                     imme := 0, use_ops := false, fiop := none }]) ∧
          (imm12 off = false → ri.op ∈ [Operator.SW, .SD, .FSW, .FSD] →
            new = [createMove { rId := n, dt := some .I64, isVreg := true } (.immI32 off),
                   .target (createRInst .ADD { rId := n + 1, dt := some .I64, isVreg := true }
                     ri.rs2 { rId := n, dt := some .I64, isVreg := true }),
                   .target { ri with rs2 := { rId := n + 1, dt := some .I64, isVreg := true },
                                     imme := 0, use_ops := false, fiop := none }])) ∧
        (∀ ri fi, x = .target ri → ri.use_ops = true → ri.fiop = some (.frameIndex fi) →
          layout.objectOffset fi < 0 → layout.spillSlotOffset fi < 0 → new = [x]) ∧
        ((∀ ri, x = .target ri → ri.use_ops = false ∨ ∀ fi, ri.fiop ≠ some (.frameIndex fi)) →
          new = [x]) := by
  obtain ⟨kb1, h1, h2, n0, h3⟩ := frameLowering_inst_place func layout next kb hkb l1 l2 x hsplit
  refine ⟨kb1, h1, h2, _, _, (frameLowerInsts layout l1 n0).2, _, h3, ⟨n0, rfl, rfl, rfl⟩,
    ?_, ?_, ?_⟩
  · intro ri fi off hx hu hf hoff hpos
    subst hx
    have hfo : frameOffset layout fi = off := by
      unfold frameOffset
      rw [hoff, if_neg (by omega)]
    have hneg : ¬ off < 0 := by omega
    refine ⟨?_, ?_, ?_, ?_⟩
    · intro himm
      simp [frameLowerInst, hu, hf, hfo, hneg, himm]
    · intro himm hop
      have hop2 : (ri.op = .ADDI || ri.op = .ADDIW) = true := by
        rcases hop with h | h <;> simp [h]
      simp only [frameLowerInst, hu, hf, hfo, hneg, himm, hop2, Bool.not_true,
        Bool.false_eq_true, if_false, if_true, getVReg]
    · intro himm hop
      have hna : (ri.op = .ADDI || ri.op = .ADDIW) = false := by
        simp only [List.mem_cons, List.mem_singleton, List.not_mem_nil, or_false] at hop
        rcases hop with h | h | h | h <;> simp [h]
      have hl : isLoadOp ri.op = true := by
        simp only [List.mem_cons, List.mem_singleton, List.not_mem_nil, or_false] at hop
        rcases hop with h | h | h | h <;> simp [isLoadOp, h]
      have hs : isStoreOp ri.op = false := by
        simp only [List.mem_cons, List.mem_singleton, List.not_mem_nil, or_false] at hop
        rcases hop with h | h | h | h <;> simp [isStoreOp, h]
      simp only [frameLowerInst, hu, hf, hfo, hneg, himm, hna, hl, hs, Bool.not_true,
        Bool.false_eq_true, if_false, if_true, getVReg, Bool.or_false]
    · intro himm hop
      have hna : (ri.op = .ADDI || ri.op = .ADDIW) = false := by
        simp only [List.mem_cons, List.mem_singleton, List.not_mem_nil, or_false] at hop
        rcases hop with h | h | h | h <;> simp [h]
      have hs : isStoreOp ri.op = true := by
        simp only [List.mem_cons, List.mem_singleton, List.not_mem_nil, or_false] at hop
        rcases hop with h | h | h | h <;> simp [isStoreOp, h]
      simp only [frameLowerInst, hu, hf, hfo, hneg, himm, hna, hs, Bool.not_true,
        Bool.false_eq_true, if_false, if_true, getVReg, Bool.or_true]
  · intro ri fi hx hu hf ho hsp
    subst hx
    have hfo : frameOffset layout fi < 0 := by
      unfold frameOffset
      rw [if_pos ho]
      exact hsp
    simp [frameLowerInst, hu, hf, hfo]
  · intro h
    cases x with
    | target ri =>
      rcases h ri rfl with hu | hf
      · simp [frameLowerInst, hu]
      · cases hfi : ri.fiop with
        | none =>
          simp only [frameLowerInst, hfi]
          split <;> rfl
        | some o =>
          cases o with
          | frameIndex fi => exact absurd hfi (hf fi)
          | reg r =>
            simp only [frameLowerInst, hfi]
            split <;> rfl
          | immI32 v =>
            simp only [frameLowerInst, hfi]
            split <;> rfl
          | immF32 b =>
            simp only [frameLowerInst, hfi]
            split <;> rfl
    | move d s0 => rfl
    | phi r v => rfl
    | fiLoad d fi => rfl
    | fiStore d fi => rfl

/-- Claim C34 at the function `localUser`: the address of the object at offset 8 is formed
with the immediate 8; the load from offset 4000 and the store to offset 8000 go through new
virtual registers; the instruction with the unknown frame index 7 stays. -/
theorem frameLowering_rewrites_witness :
    (frameLowering localUser localUserLayout 10).1.blocks =
      [(0, { blockId := 0,
             insts := [.target (createIInst .ADDI (vreg 1) PR.sp 8),
                       createMove { rId := 10, dt := some .I64, isVreg := true } (.immI32 4000),
                       .target (createRInst .ADD { rId := 11, dt := some .I64, isVreg := true }
                         PR.sp { rId := 10, dt := some .I64, isVreg := true }),
                       .target (createIInst .LW (vreg 2)
                         { rId := 11, dt := some .I64, isVreg := true } 0),
                       createMove { rId := 12, dt := some .I64, isVreg := true } (.immI32 8000),
                       .target (createRInst .ADD { rId := 13, dt := some .I64, isVreg := true }
                         PR.sp { rId := 12, dt := some .I64, isVreg := true }),
                       .target (createSInst .SW (vreg 2)
                         { rId := 13, dt := some .I64, isVreg := true } 0),
                       .target (createIInstOp .ADDIW (vreg 3) (vreg 2) (.frameIndex 7)),
                       .target (createIInst .JALR PR.x0 PR.ra 0)] })] ∧
    ∃ kb1 ∈ (frameLowering localUser localUserLayout 10).1.blocks, kb1.1 = 0 ∧
      ∃ (pre post : List MInstruction) (n : Nat), ∃ new : List MInstruction,
        kb1.2.insts = pre ++ new ++ post ∧
        new = [createMove { rId := n, dt := some .I64, isVreg := true } (.immI32 4000),
               .target (createRInst .ADD { rId := n + 1, dt := some .I64, isVreg := true }
                 PR.sp { rId := n, dt := some .I64, isVreg := true }),
               .target (createIInst .LW (vreg 2)
                 { rId := n + 1, dt := some .I64, isVreg := true } 0)] :=
  ⟨by decide,
   match frameLowering_rewrites localUser localUserLayout 10
      (0, { blockId := 0, insts := localUserInsts }) (by decide)
      [.target (createIInstOp .ADDI (vreg 1) PR.sp (.frameIndex 0))]
      [.target { createSInst .SW (vreg 2) PR.sp 0 with
                   fiop := some (.frameIndex 2), use_ops := true },
       .target (createIInstOp .ADDIW (vreg 3) (vreg 2) (.frameIndex 7)),
       .target (createIInst .JALR PR.x0 PR.ra 0)]
      (.target (createIInstOp .LW (vreg 2) PR.sp (.frameIndex 1))) rfl with
   | ⟨kb1, h1, h2, pre, post, k, new, h3, _, hcase, _⟩ =>
     ⟨kb1, h1, h2, pre, post, k, new, h3,
       (hcase (createIInstOp .LW (vreg 2) PR.sp (.frameIndex 1)) 1 4000 rfl rfl rfl rfl
         (by decide)).2.2.1 (by decide) (by decide)⟩⟩

/-! ### Phi elimination: the split of a critical edge -/

theorem sweep_moves_of_progress (p : List (Register × Operand)) :
    ∀ dests, (sweep p dests).progress = true → (sweep p dests).moves ≠ [] := by
  induction p with
  | nil => intro dests h; simp [sweep] at h
  | cons hd tl ih =>
    obtain ⟨dst, src⟩ := hd
    intro dests h
    simp only [sweep] at h ⊢
    split
    · rename_i hin
      simp only [hin, if_true] at h
      exact ih dests h
    · simp

theorem sweep_pending_of_no_progress (p : List (Register × Operand)) :
    ∀ dests, (sweep p dests).progress = false → (sweep p dests).pending = p := by
  induction p with
  | nil => intro dests _; rfl
  | cons hd tl ih =>
    obtain ⟨dst, src⟩ := hd
    intro dests h
    simp only [sweep] at h ⊢
    split
    · rename_i hin
      simp only [hin, if_true] at h
      simp only [ih dests h]
    · rename_i hin
      simp [hin] at h

theorem sweep_moves_not_phi (p : List (Register × Operand)) :
    ∀ dests, ∀ m ∈ (sweep p dests).moves, m.isPhi = false := by
  induction p with
  | nil => intro dests m h; simp [sweep] at h
  | cons hd tl ih =>
    obtain ⟨dst, src⟩ := hd
    intro dests m h
    simp only [sweep] at h
    split at h
    · exact ih dests m h
    · simp only [List.mem_cons] at h
      rcases h with rfl | h
      · rfl
      · exact ih _ m h

/-- The loop of `buildParallelMoves` never drops a move, emits at least one move when a copy
is pending, and emits pseudo moves only. -/
theorem buildLoop_moves (fuel : Nat) :
    ∀ (pending : List (Register × Operand)) (dests : List Register) (moves : List MInstruction)
      (next : Nat) (res : List MInstruction) (nv : Nat),
      buildLoop fuel pending dests moves next = some (res, nv) →
      moves.length ≤ res.length ∧ (pending ≠ [] → moves.length < res.length) ∧
      ((∀ m ∈ moves, m.isPhi = false) → ∀ m ∈ res, m.isPhi = false) := by
  induction fuel with
  | zero =>
    intro pending dests moves next res nv h
    cases pending with
    | nil =>
      simp only [buildLoop, Option.some.injEq, Prod.mk.injEq] at h
      rw [← h.1]
      exact ⟨Nat.le_refl _, fun hne => absurd rfl hne, fun h => h⟩
    | cons p ps => simp [buildLoop] at h
  | succ f ih =>
    intro pending dests moves next res nv h
    cases pending with
    | nil =>
      simp only [buildLoop, Option.some.injEq, Prod.mk.injEq] at h
      rw [← h.1]
      exact ⟨Nat.le_refl _, fun hne => absurd rfl hne, fun h => h⟩
    | cons p ps =>
      simp only [buildLoop] at h
      have hnp := sweep_moves_not_phi (p :: ps) dests
      split at h
      · rename_i hprog
        obtain ⟨a, _, c⟩ := ih _ _ _ _ _ _ h
        have hne := sweep_moves_of_progress (p :: ps) dests hprog
        have hl : 0 < (sweep (p :: ps) dests).moves.length := List.length_pos.mpr hne
        simp only [List.length_append] at a
        refine ⟨by omega, fun _ => by omega, ?_⟩
        intro hm
        apply c
        intro m hmem
        rcases List.mem_append.mp hmem with h1 | h1
        · exact hm m h1
        · exact hnp m h1
      · rename_i hprog
        have hpend := sweep_pending_of_no_progress (p :: ps) dests (by simpa using hprog)
        rw [hpend] at h
        obtain ⟨dst, src⟩ := p
        simp only at h
        cases src with
        | reg r =>
          simp only at h
          obtain ⟨a, _, c⟩ := ih _ _ _ _ _ _ h
          simp only [List.length_append, List.length_singleton] at a
          refine ⟨by omega, fun _ => by omega, ?_⟩
          intro hm
          apply c
          intro m hmem
          simp only [List.mem_append, List.mem_singleton] at hmem
          rcases hmem with (h1 | h1) | h1
          · exact hm m h1
          · exact hnp m h1
          · rw [h1]; rfl
        | immI32 v =>
          simp only at h
          obtain ⟨a, _, c⟩ := ih _ _ _ _ _ _ h
          simp only [List.length_append, List.length_singleton] at a
          refine ⟨by omega, fun _ => by omega, ?_⟩
          intro hm
          apply c
          intro m hmem
          simp only [List.mem_append, List.mem_singleton] at hmem
          rcases hmem with (h1 | h1) | h1
          · exact hm m h1
          · exact hnp m h1
          · rw [h1]; rfl
        | immF32 v =>
          simp only at h
          obtain ⟨a, _, c⟩ := ih _ _ _ _ _ _ h
          simp only [List.length_append, List.length_singleton] at a
          refine ⟨by omega, fun _ => by omega, ?_⟩
          intro hm
          apply c
          intro m hmem
          simp only [List.mem_append, List.mem_singleton] at hmem
          rcases hmem with (h1 | h1) | h1
          · exact hm m h1
          · exact hnp m h1
          · rw [h1]; rfl
        | frameIndex v =>
          simp only at h
          obtain ⟨a, _, c⟩ := ih _ _ _ _ _ _ h
          simp only [List.length_append, List.length_singleton] at a
          refine ⟨by omega, fun _ => by omega, ?_⟩
          intro hm
          apply c
          intro m hmem
          simp only [List.mem_append, List.mem_singleton] at hmem
          rcases hmem with (h1 | h1) | h1
          · exact hm m h1
          · exact hnp m h1
          · rw [h1]; rfl

/-- The sequentialised copies of an edge: there is at least one move when a copy is not
trivial, and every one of them is a pseudo move. -/
theorem buildParallelMoves_moves (copies : List (Register × Option Operand)) (next : Nat)
    (moves : List MInstruction) (nv : Nat)
    (h : buildParallelMoves copies next = some (moves, nv)) :
    (collectPending copies [] ≠ [] → moves ≠ []) ∧ (∀ m ∈ moves, m.isPhi = false) := by
  unfold buildParallelMoves at h
  simp only at h
  obtain ⟨_, b, c⟩ := buildLoop_moves _ _ _ _ _ _ _ h
  refine ⟨?_, c (fun m hm => by simp at hm)⟩
  intro hne
  have := b hne
  intro he
  rw [he] at this
  simp at this

theorem lookup_blocksInsert_self (id : Nat) (b : Block) (m : BlockMap) :
    (blocksInsert id b m).lookup id = some b := by
  induction m with
  | nil => simp [blocksInsert, List.lookup]
  | cons hd tl ih =>
    obtain ⟨k, v⟩ := hd
    simp only [blocksInsert]
    split
    · rename_i h
      subst h
      simp [List.lookup]
    · rename_i hne
      split
      · simp [List.lookup]
      · have : (id == k) = false := by simpa using hne
        simp only [List.lookup, this]
        exact ih

theorem lookup_blocksInsert_ne (id k : Nat) (b : Block) (m : BlockMap) (hne : k ≠ id) :
    (blocksInsert id b m).lookup k = m.lookup k := by
  induction m with
  | nil =>
    have : (k == id) = false := by simpa using hne
    simp [blocksInsert, List.lookup, this]
  | cons hd tl ih =>
    obtain ⟨k1, v⟩ := hd
    simp only [blocksInsert]
    split
    · rename_i h
      subst h
      have : (k == id) = false := by simpa using hne
      simp [List.lookup, this]
    · split
      · have : (k == id) = false := by simpa using hne
        simp only [List.lookup, this]
      · simp only [List.lookup]
        split
        · rfl
        · exact ih

theorem mem_blocksInsert (id : Nat) (b : Block) (m : BlockMap) (kb : Nat × Block)
    (h : kb ∈ blocksInsert id b m) : kb = (id, b) ∨ kb ∈ m := by
  induction m with
  | nil => simp [blocksInsert] at h; exact Or.inl h
  | cons hd tl ih =>
    obtain ⟨k, v⟩ := hd
    simp only [blocksInsert] at h
    split at h
    · rename_i he
      subst he
      rcases List.mem_cons.mp h with h1 | h1
      · exact Or.inl h1
      · exact Or.inr (List.mem_cons_of_mem _ h1)
    · split at h
      · rcases List.mem_cons.mp h with h1 | h1
        · exact Or.inl h1
        · exact Or.inr h1
      · rcases List.mem_cons.mp h with h1 | h1
        · exact Or.inr (h1 ▸ List.mem_cons_self _ _)
        · rcases ih h1 with h2 | h2
          · exact Or.inl h2
          · exact Or.inr (List.mem_cons_of_mem _ h2)

theorem lookup_block_mem (m : BlockMap) (k : Nat) (b : Block) (h : m.lookup k = some b) :
    (k, b) ∈ m := by
  induction m with
  | nil => simp at h
  | cons hd tl ih =>
    obtain ⟨k1, v⟩ := hd
    simp only [List.lookup] at h
    split at h
    · rename_i heq
      simp only [Option.some.injEq] at h
      have : k = k1 := by simpa using heq
      rw [this, h]
      exact List.mem_cons_self _ _
    · exact List.mem_cons_of_mem _ (ih h)

theorem lookup_block_isSome_of_mem (m : BlockMap) (kb : Nat × Block) (h : kb ∈ m) :
    (m.lookup kb.1).isSome = true := by
  induction m with
  | nil => simp at h
  | cons hd tl ih =>
    obtain ⟨k1, v⟩ := hd
    simp only [List.lookup]
    split
    · rfl
    · rename_i hne
      rcases List.mem_cons.mp h with h1 | h1
      · rw [h1] at hne
        simp at hne
      · exact ih h1

/-- The first branch to `target` gets the label of the new block, every other instruction
of the block stays. -/
theorem retargetFirst_spec (insts : List MInstruction) (target newId : Nat)
    (h : ∃ i ∈ insts, branchesTo i target = true) :
    ∃ l1 i l2, insts = l1 ++ i :: l2 ∧ branchesTo i target = true ∧
      (∀ j ∈ l1, branchesTo j target = false) ∧
      retargetFirst insts target newId = some (l1 ++ setBranchTarget i newId :: l2) := by
  induction insts with
  | nil => obtain ⟨i, hi, _⟩ := h; simp at hi
  | cons x xs ih =>
    cases hx : branchesTo x target with
    | true =>
      exact ⟨[], x, xs, rfl, hx, fun j hj => by simp at hj, by simp [retargetFirst, hx]⟩
    | false =>
      obtain ⟨i, hi, hbi⟩ := h
      have hmem : i ∈ xs := by
        rcases List.mem_cons.mp hi with rfl | hm
        · rw [hx] at hbi; exact Bool.noConfusion hbi
        · exact hm
      obtain ⟨l1, i1, l2, h1, h2, h3, h4⟩ := ih ⟨i, hmem, hbi⟩
      refine ⟨x :: l1, i1, l2, by rw [h1]; rfl, h2, ?_, ?_⟩
      · intro j hj
        rcases List.mem_cons.mp hj with rfl | hm
        · exact hx
        · exact h3 j hm
      · simp [retargetFirst, hx, h4]

theorem getBranchTarget_setBranchTarget (i : MInstruction) (target newId : Nat)
    (h : branchesTo i target = true) :
    getBranchTarget (setBranchTarget i newId) = some newId ∧
      (setBranchTarget i newId).isPhi = false := by
  cases i with
  | target ri =>
    cases hu : ri.use_label <;> cases hb : isBranchOp ri.op <;>
      simp [branchesTo, getBranchTarget, hu, hb] at h
    simp [setBranchTarget, getBranchTarget, hu, hb, MInstruction.isPhi]
  | move d s0 => simp [branchesTo, getBranchTarget] at h
  | phi r v => simp [branchesTo, getBranchTarget] at h
  | fiLoad d fi => simp [branchesTo, getBranchTarget] at h
  | fiStore d fi => simp [branchesTo, getBranchTarget] at h

theorem mem_retargetFirst (insts out : List MInstruction) (target newId : Nat)
    (h : retargetFirst insts target newId = some out) (x : MInstruction) (hx : x ∈ insts)
    (hnb : branchesTo x target = false) : x ∈ out := by
  induction insts generalizing out with
  | nil => simp at hx
  | cons y ys ih =>
    simp only [retargetFirst] at h
    split at h
    · rename_i hy
      simp only [Option.some.injEq] at h
      rw [← h]
      rcases List.mem_cons.mp hx with rfl | hm
      · rw [hy] at hnb; exact Bool.noConfusion hnb
      · exact List.mem_cons_of_mem _ hm
    · cases hr : retargetFirst ys target newId with
      | none => simp [hr] at h
      | some l =>
        simp only [hr, Option.map_some', Option.some.injEq] at h
        rw [← h]
        rcases List.mem_cons.mp hx with rfl | hm
        · exact List.mem_cons_self _ _
        · exact List.mem_cons_of_mem _ (ih l hr hm)

theorem mem_insertBeforeBranch (insts moves : List MInstruction) (target : Nat)
    (x : MInstruction) (hx : x ∈ insts) : x ∈ insertBeforeBranch insts target moves := by
  induction insts with
  | nil => simp at hx
  | cons y ys ih =>
    simp only [insertBeforeBranch]
    split
    · exact List.mem_append.mpr (Or.inr hx)
    · rcases List.mem_cons.mp hx with rfl | hm
      · exact List.mem_cons_self _ _
      · exact List.mem_cons_of_mem _ (ih hm)

theorem foldl_maxId_ge (blocks : BlockMap) :
    ∀ m0 : Nat, m0 ≤ blocks.foldl (fun m kb => if kb.1 > m then kb.1 else m) m0 ∧
      ∀ kb ∈ blocks, kb.1 ≤ blocks.foldl (fun m kb => if kb.1 > m then kb.1 else m) m0 := by
  induction blocks with
  | nil => intro m0; exact ⟨Nat.le_refl _, fun kb h => by simp at h⟩
  | cons hd tl ih =>
    intro m0
    simp only [List.foldl_cons]
    obtain ⟨a, b⟩ := ih (if hd.1 > m0 then hd.1 else m0)
    by_cases hgt : hd.1 > m0
    · simp only [hgt, if_true] at a b ⊢
      refine ⟨by omega, ?_⟩
      intro kb hkb
      rcases List.mem_cons.mp hkb with rfl | hm
      · exact a
      · exact b kb hm
    · simp only [hgt, if_false] at a b ⊢
      refine ⟨a, ?_⟩
      intro kb hkb
      rcases List.mem_cons.mp hkb with rfl | hm
      · omega
      · exact b kb hm

theorem edgePush_keys (key : EdgeKey) (c : Register × Option Operand)
    (acc : List (EdgeKey × List (Register × Option Operand))) (P : EdgeKey → Prop)
    (hk : P key) (hacc : ∀ e ∈ acc, P e.1) : ∀ e ∈ edgePush key c acc, P e.1 := by
  induction acc with
  | nil =>
    intro e he
    simp only [edgePush, List.mem_singleton] at he
    rw [he]; exact hk
  | cons hd tl ih =>
    obtain ⟨k, v⟩ := hd
    intro e he
    simp only [edgePush] at he
    split at he
    · rcases List.mem_cons.mp he with h1 | h1
      · rw [h1]; exact hacc (k, v) (List.mem_cons_self _ _)
      · exact hacc e (List.mem_cons_of_mem _ h1)
    · split at he
      · rcases List.mem_cons.mp he with h1 | h1
        · rw [h1]; exact hk
        · exact hacc e h1
      · rcases List.mem_cons.mp he with h1 | h1
        · rw [h1]; exact hacc (k, v) (List.mem_cons_self _ _)
        · exact ih (fun e he => hacc e (List.mem_cons_of_mem _ he)) e h1

theorem collectPhi_keys (blocks : BlockMap) (bid : Nat) (resReg : Register)
    (vals : List (Nat × Option Operand)) :
    ∀ acc : List (EdgeKey × List (Register × Option Operand)),
      (∀ e ∈ acc, (blocks.lookup e.1.1).isSome = true ∧ (blocks.lookup e.1.2).isSome = true) →
      (blocks.lookup bid).isSome = true →
      ∀ e ∈ collectPhi blocks bid resReg vals acc,
        (blocks.lookup e.1.1).isSome = true ∧ (blocks.lookup e.1.2).isSome = true := by
  induction vals with
  | nil => intro acc hacc _; exact hacc
  | cons hd tl ih =>
    obtain ⟨predId, srcOp⟩ := hd
    intro acc hacc hb
    simp only [collectPhi]
    split
    · exact ih acc hacc hb
    · split
      · exact ih acc hacc hb
      · rename_i hsome
        apply ih _ _ hb
        exact edgePush_keys _ _ _
          (fun e => (blocks.lookup e.1).isSome = true ∧ (blocks.lookup e.2).isSome = true)
          ⟨by simpa using hsome, hb⟩ hacc

theorem collectBlock_keys (blocks : BlockMap) (bid : Nat) (insts : List MInstruction) :
    ∀ acc : List (EdgeKey × List (Register × Option Operand)),
      (∀ e ∈ acc, (blocks.lookup e.1.1).isSome = true ∧ (blocks.lookup e.1.2).isSome = true) →
      (blocks.lookup bid).isSome = true →
      ∀ e ∈ collectBlock blocks bid insts acc,
        (blocks.lookup e.1.1).isSome = true ∧ (blocks.lookup e.1.2).isSome = true := by
  induction insts with
  | nil => intro acc hacc _; exact hacc
  | cons hd tl ih =>
    intro acc hacc hb
    cases hd with
    | phi r v =>
      simp only [collectBlock]
      exact ih _ (collectPhi_keys blocks bid r v acc hacc hb) hb
    | target ri => simp only [collectBlock]; exact ih acc hacc hb
    | move d s0 => simp only [collectBlock]; exact ih acc hacc hb
    | fiLoad d fi => simp only [collectBlock]; exact ih acc hacc hb
    | fiStore d fi => simp only [collectBlock]; exact ih acc hacc hb

/-- Both ends of every edge of `edgeCopies` are blocks of the function. -/
theorem collectEdgeCopies_keys (blocks : BlockMap) (bl : BlockMap) :
    ∀ acc : List (EdgeKey × List (Register × Option Operand)),
      (∀ e ∈ acc, (blocks.lookup e.1.1).isSome = true ∧ (blocks.lookup e.1.2).isSome = true) →
      (∀ kb ∈ bl, kb ∈ blocks) →
      ∀ e ∈ collectEdgeCopies blocks bl acc,
        (blocks.lookup e.1.1).isSome = true ∧ (blocks.lookup e.1.2).isSome = true := by
  induction bl with
  | nil => intro acc hacc _; exact hacc
  | cons hd tl ih =>
    obtain ⟨bid, block⟩ := hd
    intro acc hacc hsub
    simp only [collectEdgeCopies]
    apply ih
    · exact collectBlock_keys blocks bid block.insts acc hacc
        (lookup_block_isSome_of_mem blocks (bid, block) (hsub _ (List.mem_cons_self _ _)))
    · exact fun kb hkb => hsub kb (List.mem_cons_of_mem _ hkb)

theorem edgeKey_lt_iff (a b : EdgeKey) :
    EdgeKey.lt a b = true ↔ a.1 < b.1 ∨ (a.1 = b.1 ∧ a.2 < b.2) := by
  unfold EdgeKey.lt
  split
  · rename_i h
    simp only [decide_eq_true_eq]
    omega
  · rename_i h
    simp only [decide_eq_true_eq]
    omega

theorem edgePush_sorted (key : EdgeKey) (c : Register × Option Operand)
    (acc : List (EdgeKey × List (Register × Option Operand)))
    (h : acc.Pairwise (fun a b => EdgeKey.lt a.1 b.1 = true)) :
    (edgePush key c acc).Pairwise (fun a b => EdgeKey.lt a.1 b.1 = true) ∧
    ∀ e ∈ edgePush key c acc, e.1 = key ∨ e.1 ∈ acc.map Prod.fst := by
  induction acc with
  | nil => simp [edgePush]
  | cons hd tl ih =>
    obtain ⟨k, v⟩ := hd
    rw [List.pairwise_cons] at h
    obtain ⟨ihs, ihm⟩ := ih h.2
    simp only [edgePush]
    split
    · rename_i heq
      subst heq
      refine ⟨?_, ?_⟩
      · rw [List.pairwise_cons]
        exact ⟨fun e he => h.1 e he, h.2⟩
      · intro e he
        rcases List.mem_cons.mp he with h1 | h1
        · left; rw [h1]
        · right; exact List.mem_map_of_mem _ (List.mem_cons_of_mem _ h1)
    · rename_i hne
      split
      · rename_i hlt
        refine ⟨?_, ?_⟩
        · rw [List.pairwise_cons]
          refine ⟨?_, List.pairwise_cons.mpr h⟩
          intro e he
          rcases List.mem_cons.mp he with h1 | h1
          · rw [h1]; exact hlt
          · have := h.1 e h1
            show EdgeKey.lt key e.1 = true
            simp only at this
            rw [edgeKey_lt_iff] at hlt this ⊢
            omega
        · intro e he
          rcases List.mem_cons.mp he with h1 | h1
          · left; rw [h1]
          · right; exact List.mem_map_of_mem _ h1
      · rename_i hnlt
        refine ⟨?_, ?_⟩
        · rw [List.pairwise_cons]
          refine ⟨?_, ihs⟩
          intro e he
          rcases ihm e he with h1 | h1
          · simp only
            rw [h1, edgeKey_lt_iff]
            rw [edgeKey_lt_iff] at hnlt
            have : ¬ (key.1 = k.1 ∧ key.2 = k.2) := by
              intro hh
              exact hne (Prod.ext hh.1 hh.2)
            omega
          · obtain ⟨e0, he0, he1⟩ := List.mem_map.mp h1
            have := h.1 e0 he0
            rw [he1] at this
            exact this
        · intro e he
          rcases List.mem_cons.mp he with h1 | h1
          · right; rw [h1]; simp
          · rcases ihm e h1 with h2 | h2
            · exact Or.inl h2
            · right
              simp only [List.map_cons, List.mem_cons]
              exact Or.inr h2

theorem collectPhi_sorted (blocks : BlockMap) (bid : Nat) (resReg : Register)
    (vals : List (Nat × Option Operand)) :
    ∀ acc : List (EdgeKey × List (Register × Option Operand)),
      acc.Pairwise (fun a b => EdgeKey.lt a.1 b.1 = true) →
      (collectPhi blocks bid resReg vals acc).Pairwise
        (fun a b => EdgeKey.lt a.1 b.1 = true) := by
  induction vals with
  | nil => intro acc h; exact h
  | cons hd tl ih =>
    obtain ⟨predId, srcOp⟩ := hd
    intro acc h
    simp only [collectPhi]
    split
    · exact ih acc h
    · split
      · exact ih acc h
      · exact ih _ (edgePush_sorted _ _ acc h).1

theorem collectBlock_sorted (blocks : BlockMap) (bid : Nat) (insts : List MInstruction) :
    ∀ acc : List (EdgeKey × List (Register × Option Operand)),
      acc.Pairwise (fun a b => EdgeKey.lt a.1 b.1 = true) →
      (collectBlock blocks bid insts acc).Pairwise
        (fun a b => EdgeKey.lt a.1 b.1 = true) := by
  induction insts with
  | nil => intro acc h; exact h
  | cons hd tl ih =>
    intro acc h
    cases hd with
    | phi r v =>
      simp only [collectBlock]
      exact ih _ (collectPhi_sorted blocks bid r v acc h)
    | target ri => simp only [collectBlock]; exact ih acc h
    | move d s0 => simp only [collectBlock]; exact ih acc h
    | fiLoad d fi => simp only [collectBlock]; exact ih acc h
    | fiStore d fi => simp only [collectBlock]; exact ih acc h

/-- The map `edgeCopies` holds every edge once, in the order of the keys. -/
theorem collectEdgeCopies_sorted (blocks : BlockMap) (bl : BlockMap) :
    ∀ acc : List (EdgeKey × List (Register × Option Operand)),
      acc.Pairwise (fun a b => EdgeKey.lt a.1 b.1 = true) →
      (collectEdgeCopies blocks bl acc).Pairwise
        (fun a b => EdgeKey.lt a.1 b.1 = true) := by
  induction bl with
  | nil => intro acc h; exact h
  | cons hd tl ih =>
    obtain ⟨bid, block⟩ := hd
    intro acc h
    simp only [collectEdgeCopies]
    exact ih _ (collectBlock_sorted blocks bid block.insts acc h)

theorem processEdges_append (succs : List (Nat × List Nat))
    (a b : List (EdgeKey × List (Register × Option Operand))) :
    ∀ st : PhiState, processEdges succs (a ++ b) st =
      (processEdges succs a st).bind (processEdges succs b) := by
  induction a with
  | nil => intro st; rfl
  | cons hd tl ih =>
    obtain ⟨edge, copies⟩ := hd
    intro st
    simp only [List.cons_append, processEdges]
    cases processEdge succs st edge copies with
    | none => rfl
    | some st1 => exact ih st1

theorem lookup_succs (blocks : BlockMap) (k : Nat) :
    (blocks.map (fun kb => (kb.1, getSuccessors kb.2))).lookup k =
      (blocks.lookup k).map getSuccessors := by
  induction blocks with
  | nil => rfl
  | cons hd tl ih =>
    obtain ⟨k1, v⟩ := hd
    simp only [List.map_cons, List.lookup]
    split
    · rfl
    · exact ih

theorem lookup_erasePhis (blocks : BlockMap) (k : Nat) :
    (erasePhis blocks).lookup k =
      (blocks.lookup k).map (fun b => { b with insts := b.insts.filter (fun i => !i.isPhi) }) := by
  unfold erasePhis
  induction blocks with
  | nil => rfl
  | cons hd tl ih =>
    obtain ⟨k1, v⟩ := hd
    simp only [List.map_cons, List.lookup]
    split
    · rfl
    · exact ih

/-- One edge of the loop over `edgeCopies`: the ids of all blocks stay below `nextId`, which
never decreases, and a block that was there stays there. -/
theorem processEdge_ids (succs : List (Nat × List Nat)) (st st1 : PhiState) (edge : EdgeKey)
    (copies : List (Register × Option Operand))
    (h : processEdge succs st edge copies = some st1)
    (hinv : ∀ kb ∈ st.blocks, kb.1 < st.nextId) :
    (∀ kb ∈ st1.blocks, kb.1 < st1.nextId) ∧ st.nextId ≤ st1.nextId ∧
    (∀ k, (st.blocks.lookup k).isSome = true → (st1.blocks.lookup k).isSome = true) := by
  unfold processEdge at h
  split at h
  · rename_i pred b hp hb
    have hpk : edge.1 < st.nextId := hinv _ (lookup_block_mem _ _ _ hp)
    split at h
    · simp at h
    · rename_i moves nv hm
      split at h
      · simp only [Option.some.injEq] at h
        rw [← h]
        exact ⟨hinv, Nat.le_refl _, fun k hk => hk⟩
      · split at h
        · simp only [Option.some.injEq] at h
          rw [← h]
          simp only
          refine ⟨?_, Nat.le_refl _, ?_⟩
          · intro kb hkb
            rcases mem_blocksInsert _ _ _ kb hkb with h1 | h1
            · rw [h1]; exact hpk
            · exact hinv kb h1
          · intro k hk
            by_cases hke : k = edge.1
            · rw [hke, lookup_blocksInsert_self]; rfl
            · rw [lookup_blocksInsert_ne _ _ _ _ hke]; exact hk
        · split at h
          · simp only [Option.some.injEq] at h
            rw [← h]
            exact ⟨hinv, Nat.le_refl _, fun k hk => hk⟩
          · simp only [Option.some.injEq] at h
            rw [← h]
            simp only
            refine ⟨?_, Nat.le_succ _, ?_⟩
            · intro kb hkb
              rcases mem_blocksInsert _ _ _ kb hkb with h1 | h1
              · rw [h1]; exact Nat.lt_succ_self _
              · rcases mem_blocksInsert _ _ _ kb h1 with h2 | h2
                · rw [h2]; exact Nat.lt_succ_of_lt hpk
                · exact Nat.lt_succ_of_lt (hinv kb h2)
            · intro k hk
              by_cases hkn : k = st.nextId
              · rw [hkn, lookup_blocksInsert_self]; rfl
              · rw [lookup_blocksInsert_ne _ _ _ _ hkn]
                by_cases hke : k = edge.1
                · rw [hke, lookup_blocksInsert_self]; rfl
                · rw [lookup_blocksInsert_ne _ _ _ _ hke]; exact hk
  · simp only [Option.some.injEq] at h
    rw [← h]
    exact ⟨hinv, Nat.le_refl _, fun k hk => hk⟩

theorem processEdges_ids (succs : List (Nat × List Nat))
    (ec : List (EdgeKey × List (Register × Option Operand))) :
    ∀ st st1 : PhiState, processEdges succs ec st = some st1 →
      (∀ kb ∈ st.blocks, kb.1 < st.nextId) →
      (∀ kb ∈ st1.blocks, kb.1 < st1.nextId) ∧ st.nextId ≤ st1.nextId ∧
      (∀ k, (st.blocks.lookup k).isSome = true → (st1.blocks.lookup k).isSome = true) := by
  induction ec with
  | nil =>
    intro st st1 h hinv
    simp only [processEdges, Option.some.injEq] at h
    rw [← h]
    exact ⟨hinv, Nat.le_refl _, fun k hk => hk⟩
  | cons hd tl ih =>
    obtain ⟨edge, copies⟩ := hd
    intro st st1 h hinv
    simp only [processEdges] at h
    split at h
    · simp at h
    · rename_i st2 h2
      obtain ⟨a, b, c⟩ := processEdge_ids succs st st2 edge copies h2 hinv
      obtain ⟨a2, b2, c2⟩ := ih st2 st1 h a
      exact ⟨a2, Nat.le_trans b b2, fun k hk => c2 k (c k hk)⟩

theorem retargetFirst_some (insts out : List MInstruction) (target newId : Nat)
    (h : retargetFirst insts target newId = some out) :
    ∃ l1 i l2, insts = l1 ++ i :: l2 ∧ branchesTo i target = true ∧
      out = l1 ++ setBranchTarget i newId :: l2 := by
  induction insts generalizing out with
  | nil => simp [retargetFirst] at h
  | cons x xs ih =>
    simp only [retargetFirst] at h
    split at h
    · rename_i hx
      simp only [Option.some.injEq] at h
      exact ⟨[], x, xs, rfl, hx, h.symm⟩
    · cases hr : retargetFirst xs target newId with
      | none => simp [hr] at h
      | some l =>
        simp only [hr, Option.map_some', Option.some.injEq] at h
        obtain ⟨l1, i, l2, h1, h2, h3⟩ := ih l hr
        exact ⟨x :: l1, i, l2, by rw [h1]; rfl, h2, by rw [← h, h3]; rfl⟩

theorem retargetFirst_of_split (l1 l2 : List MInstruction) (i : MInstruction)
    (target newId : Nat) (hi : branchesTo i target = true)
    (hl : ∀ j ∈ l1, branchesTo j target = false) :
    retargetFirst (l1 ++ i :: l2) target newId = some (l1 ++ setBranchTarget i newId :: l2) := by
  induction l1 with
  | nil => simp [retargetFirst, hi]
  | cons x xs ih =>
    have hx := hl x (List.mem_cons_self _ _)
    show retargetFirst (x :: (xs ++ i :: l2)) target newId = _
    simp only [retargetFirst, hx, Bool.false_eq_true, if_false,
      ih (fun j hj => hl j (List.mem_cons_of_mem _ hj))]
    rfl

theorem rel_split_right {α β : Type} (R : α → β → Prop) (l1 l2 : List β) (b : β) :
    ∀ o : List α, List.Forall₂ R o (l1 ++ b :: l2) →
      ∃ o1 a o2, o = o1 ++ a :: o2 ∧ List.Forall₂ R o1 l1 ∧ R a b ∧ List.Forall₂ R o2 l2 := by
  induction l1 with
  | nil =>
    intro o h
    cases h with
    | cons hab ht => exact ⟨[], _, _, rfl, List.Forall₂.nil, hab, ht⟩
  | cons x xs ih =>
    intro o h
    cases h with
    | cons hab ht =>
      obtain ⟨o1, a, o2, h1, h2, h3, h4⟩ := ih _ ht
      exact ⟨_ :: o1, a, o2, by rw [h1]; rfl, List.Forall₂.cons hab h2, h3, h4⟩

theorem rel_split_left {α β : Type} (R : α → β → Prop) (o1 o2 : List α) (a : α) :
    ∀ l : List β, List.Forall₂ R (o1 ++ a :: o2) l →
      ∃ l1 b l2, l = l1 ++ b :: l2 ∧ List.Forall₂ R o1 l1 ∧ R a b ∧ List.Forall₂ R o2 l2 := by
  induction o1 with
  | nil =>
    intro l h
    cases h with
    | cons hab ht => exact ⟨[], _, _, rfl, List.Forall₂.nil, hab, ht⟩
  | cons x xs ih =>
    intro l h
    cases h with
    | cons hab ht =>
      obtain ⟨l1, b, l2, h1, h2, h3, h4⟩ := ih _ ht
      exact ⟨_ :: l1, b, l2, by rw [h1]; rfl, List.Forall₂.cons hab h2, h3, h4⟩

theorem rel_join {α β : Type} (R : α → β → Prop) (o1 o2 : List α) (a : α)
    (l1 l2 : List β) (b : β) (h1 : List.Forall₂ R o1 l1) (h2 : R a b)
    (h3 : List.Forall₂ R o2 l2) : List.Forall₂ R (o1 ++ a :: o2) (l1 ++ b :: l2) := by
  induction h1 with
  | nil => exact List.Forall₂.cons h2 h3
  | cons hab _ ih => exact List.Forall₂.cons hab ih

theorem retargeted_refl (maxId succ : Nat) (l : List MInstruction) :
    List.Forall₂ (Retargeted maxId succ) l l := by
  induction l with
  | nil => exact List.Forall₂.nil
  | cons x xs ih => exact List.Forall₂.cons (Or.inl rfl) ih

theorem branchesTo_iff (i : MInstruction) (t : Nat) :
    branchesTo i t = true ↔ getBranchTarget i = some t := by
  unfold branchesTo
  cases getBranchTarget i with
  | none => simp
  | some u => simp

/-- An instruction that the pass has redirected before, or left alone, branches to a block
of the function only if it did before the pass. -/
theorem retargeted_branch (maxId succ : Nat) (a b : MInstruction) (t : Nat)
    (h : Retargeted maxId succ a b) (ht : t ≤ maxId) (hb : branchesTo b t = true) : b = a := by
  rcases h with h | ⟨t0, n, _, hat, hn, hbn⟩
  · exact h
  · exfalso
    rw [hbn, branchesTo_iff, (getBranchTarget_setBranchTarget a t0 n hat).1] at hb
    simp only [Option.some.injEq] at hb
    omega

/-- One edge of the loop over `edgeCopies`, seen from a block `p` with more than one
successor whose edge to `succ` is not the one visited: its instructions stay as they are, up
to branches to other blocks that get the label of a new block. -/
theorem processEdge_pred (succs : List (Nat × List Nat)) (maxId p succ : Nat)
    (orig : List MInstruction) (hs : ((succs.lookup p).getD []).length > 1)
    (st st1 : PhiState) (edge : EdgeKey) (copies : List (Register × Option Operand))
    (h : processEdge succs st edge copies = some st1)
    (hids : ∀ kb ∈ st.blocks, kb.1 < st.nextId) (hmax : maxId < st.nextId)
    (hne : edge ≠ (p, succ)) (he2 : edge.2 ≤ maxId)
    (hinv : ∃ cur, st.blocks.lookup p = some cur ∧
      List.Forall₂ (Retargeted maxId succ) orig cur.insts) :
    ∃ cur, st1.blocks.lookup p = some cur ∧
      List.Forall₂ (Retargeted maxId succ) orig cur.insts := by
  obtain ⟨cur, hcur, hrel⟩ := hinv
  have hpn : p ≠ st.nextId := by
    have := hids _ (lookup_block_mem _ _ _ hcur)
    simp only at this
    omega
  unfold processEdge at h
  split at h
  · rename_i pred b hp hb
    split at h
    · simp at h
    · rename_i moves nv hm
      split at h
      · simp only [Option.some.injEq] at h
        rw [← h]
        exact ⟨cur, hcur, hrel⟩
      · split at h
        · rename_i hnosplit
          simp only [Option.some.injEq] at h
          rw [← h]
          simp only
          by_cases hpe : p = edge.1
          · exfalso
            rw [← hpe] at hnosplit
            simp only [Bool.not_eq_true', decide_eq_false_iff_not] at hnosplit
            exact hnosplit hs
          · rw [lookup_blocksInsert_ne _ _ _ _ hpe]
            exact ⟨cur, hcur, hrel⟩
        · split at h
          · simp only [Option.some.injEq] at h
            rw [← h]
            exact ⟨cur, hcur, hrel⟩
          · rename_i insts hret
            simp only [Option.some.injEq] at h
            rw [← h]
            simp only
            rw [lookup_blocksInsert_ne _ _ _ _ hpn]
            by_cases hpe : p = edge.1
            · rw [hpe, lookup_blocksInsert_self]
              refine ⟨_, rfl, ?_⟩
              simp only
              have hpc : pred = cur := by
                rw [← hpe, hcur] at hp
                simp only [Option.some.injEq] at hp
                exact hp.symm
              subst hpc
              obtain ⟨l1, i, l2, hsplit, hbi, hout⟩ := retargetFirst_some _ _ _ _ hret
              rw [hsplit] at hrel
              obtain ⟨o1, a, o2, ho, hr1, hra, hr2⟩ := rel_split_right _ _ _ _ _ hrel
              rw [ho, hout]
              apply rel_join _ _ _ _ _ _ _ hr1 _ hr2
              have hia : i = a := retargeted_branch maxId succ a i edge.2 hra he2 hbi
              subst hia
              right
              refine ⟨edge.2, st.nextId, ?_, hbi, hmax, rfl⟩
              intro he
              apply hne
              exact Prod.ext hpe.symm he
            · rw [lookup_blocksInsert_ne _ _ _ _ hpe]
              exact ⟨cur, hcur, hrel⟩
  · simp only [Option.some.injEq] at h
    rw [← h]
    exact ⟨cur, hcur, hrel⟩

theorem processEdges_pred (succs : List (Nat × List Nat)) (maxId p succ : Nat)
    (orig : List MInstruction) (hs : ((succs.lookup p).getD []).length > 1)
    (ec : List (EdgeKey × List (Register × Option Operand))) :
    ∀ st st1 : PhiState, processEdges succs ec st = some st1 →
      (∀ kb ∈ st.blocks, kb.1 < st.nextId) → maxId < st.nextId →
      (∀ e ∈ ec, e.1 ≠ (p, succ) ∧ e.1.2 ≤ maxId) →
      (∃ cur, st.blocks.lookup p = some cur ∧
        List.Forall₂ (Retargeted maxId succ) orig cur.insts) →
      ∃ cur, st1.blocks.lookup p = some cur ∧
        List.Forall₂ (Retargeted maxId succ) orig cur.insts := by
  induction ec with
  | nil =>
    intro st st1 h _ _ _ hinv
    simp only [processEdges, Option.some.injEq] at h
    rw [← h]; exact hinv
  | cons hd tl ih =>
    obtain ⟨edge, copies⟩ := hd
    intro st st1 h hids hmax hec hinv
    simp only [processEdges] at h
    split at h
    · simp at h
    · rename_i st2 h2
      have he := hec (edge, copies) (List.mem_cons_self _ _)
      have hstep := processEdge_pred succs maxId p succ orig hs st st2 edge copies h2 hids hmax
        he.1 he.2 hinv
      obtain ⟨a, b, _⟩ := processEdge_ids succs st st2 edge copies h2 hids
      exact ih st2 st1 h a (Nat.lt_of_lt_of_le hmax b)
        (fun e he => hec e (List.mem_cons_of_mem _ he)) hstep

/-- One later edge of the loop over `edgeCopies` leaves the new block `newId` as it is and
keeps the instruction `x` in the block `p`. -/
theorem processEdge_keep (succs : List (Nat × List Nat)) (st st1 : PhiState) (edge : EdgeKey)
    (copies : List (Register × Option Operand))
    (h : processEdge succs st edge copies = some st1)
    (hids : ∀ kb ∈ st.blocks, kb.1 < st.nextId)
    (newId p : Nat) (newBlock : Block) (x : MInstruction)
    (hN : edge.1 ≠ newId) (hx : branchesTo x edge.2 = false)
    (hk : st.blocks.lookup newId = some newBlock ∧
      ∃ cur, st.blocks.lookup p = some cur ∧ x ∈ cur.insts) :
    st1.blocks.lookup newId = some newBlock ∧
      ∃ cur, st1.blocks.lookup p = some cur ∧ x ∈ cur.insts := by
  obtain ⟨hnew, cur, hcur, hxc⟩ := hk
  have hpn : p ≠ st.nextId := by
    have := hids _ (lookup_block_mem _ _ _ hcur)
    simp only at this
    omega
  have hnn : newId ≠ st.nextId := by
    have := hids _ (lookup_block_mem _ _ _ hnew)
    simp only at this
    omega
  unfold processEdge at h
  split at h
  · rename_i pred b hp hb
    split at h
    · simp at h
    · rename_i moves nv hm
      split at h
      · simp only [Option.some.injEq] at h
        rw [← h]
        exact ⟨hnew, cur, hcur, hxc⟩
      · split at h
        · simp only [Option.some.injEq] at h
          rw [← h]
          simp only
          rw [lookup_blocksInsert_ne _ _ _ _ (Ne.symm hN)]
          refine ⟨hnew, ?_⟩
          by_cases hpe : p = edge.1
          · rw [hpe, lookup_blocksInsert_self]
            refine ⟨_, rfl, ?_⟩
            simp only
            have hpc : pred = cur := by
              rw [← hpe, hcur] at hp
              simp only [Option.some.injEq] at hp
              exact hp.symm
            rw [hpc]
            exact mem_insertBeforeBranch _ _ _ x hxc
          · rw [lookup_blocksInsert_ne _ _ _ _ hpe]
            exact ⟨cur, hcur, hxc⟩
        · split at h
          · simp only [Option.some.injEq] at h
            rw [← h]
            exact ⟨hnew, cur, hcur, hxc⟩
          · rename_i insts hret
            simp only [Option.some.injEq] at h
            rw [← h]
            simp only
            rw [lookup_blocksInsert_ne _ _ _ _ hnn, lookup_blocksInsert_ne _ _ _ _ (Ne.symm hN),
              lookup_blocksInsert_ne _ _ _ _ hpn]
            refine ⟨hnew, ?_⟩
            by_cases hpe : p = edge.1
            · rw [hpe, lookup_blocksInsert_self]
              refine ⟨_, rfl, ?_⟩
              simp only
              have hpc : pred = cur := by
                rw [← hpe, hcur] at hp
                simp only [Option.some.injEq] at hp
                exact hp.symm
              rw [hpc] at hret
              exact mem_retargetFirst _ _ _ _ hret x hxc hx
            · rw [lookup_blocksInsert_ne _ _ _ _ hpe]
              exact ⟨cur, hcur, hxc⟩
  · simp only [Option.some.injEq] at h
    rw [← h]
    exact ⟨hnew, cur, hcur, hxc⟩

theorem processEdges_keep (succs : List (Nat × List Nat))
    (newId p : Nat) (newBlock : Block) (x : MInstruction)
    (ec : List (EdgeKey × List (Register × Option Operand))) :
    ∀ st st1 : PhiState, processEdges succs ec st = some st1 →
      (∀ kb ∈ st.blocks, kb.1 < st.nextId) →
      (∀ e ∈ ec, e.1.1 ≠ newId ∧ branchesTo x e.1.2 = false) →
      (st.blocks.lookup newId = some newBlock ∧
        ∃ cur, st.blocks.lookup p = some cur ∧ x ∈ cur.insts) →
      st1.blocks.lookup newId = some newBlock ∧
        ∃ cur, st1.blocks.lookup p = some cur ∧ x ∈ cur.insts := by
  induction ec with
  | nil =>
    intro st st1 h _ _ hk
    simp only [processEdges, Option.some.injEq] at h
    rw [← h]; exact hk
  | cons hd tl ih =>
    obtain ⟨edge, copies⟩ := hd
    intro st st1 h hids hec hk
    simp only [processEdges] at h
    split at h
    · simp at h
    · rename_i st2 h2
      have he := hec (edge, copies) (List.mem_cons_self _ _)
      have hstep := processEdge_keep succs st st2 edge copies h2 hids newId p newBlock x
        he.1 he.2 hk
      obtain ⟨a, _, _⟩ := processEdge_ids succs st st2 edge copies h2 hids
      exact ih st2 st1 h a (fun e he => hec e (List.mem_cons_of_mem _ he)) hstep

/-- Claim C33: let `edge = (pred, B)` be an edge of `edgeCopies` with a copy that is not
trivial, let the block `pred` of the function have more than one branch target, and let `a`
be its first branch to `B`. When the loop over `edgeCopies` reaches the edge, the block
`pred` is what it was before the pass up to branches to other blocks that have been
redirected to blocks created by the pass; the loop body then creates one block, with the id
`nextId`, which is above `maxId` (every block id before the pass) and not in use; the block
holds the sequentialised copies, of which there is at least one, and then `JAL x0, B`; the
branch `a` gets the new id as its label and no other instruction of `pred` changes. The
pass returns a function that has this new block unchanged and has the redirected branch in
the block `pred`. -/
theorem runOnFunction_splits_critical_edge (func : Function) (nextVReg : Nat)
    (pre post : List (EdgeKey × List (Register × Option Operand))) (edge : EdgeKey)
    (copies : List (Register × Option Operand))
    (hedges : collectEdgeCopies func.blocks func.blocks [] = pre ++ (edge, copies) :: post)
    (orig : Block) (horig : func.blocks.lookup edge.1 = some orig)
    (hsucc : (getSuccessors orig).length > 1)
    (hcopy : collectPending copies [] ≠ [])
    (o1 o2 : List MInstruction) (a : MInstruction)
    (hsplit : orig.insts = o1 ++ a :: o2) (ha : branchesTo a edge.2 = true)
    (hfirst : ∀ j ∈ o1, branchesTo j edge.2 = false) :
    ∃ (st st1 : PhiState) (pred : Block) (moves : List MInstruction) (nv : Nat)
      (l1 l2 : List MInstruction) (g : Function) (n : Nat),
      processEdges (func.blocks.map (fun kb => (kb.1, getSuccessors kb.2))) pre
        { blocks := func.blocks,
          nextId := func.blocks.foldl (fun m kb => if kb.1 > m then kb.1 else m) 0 + 1,
          nextVReg := nextVReg } = some st ∧
      st.blocks.lookup edge.1 = some pred ∧
      pred.insts = l1 ++ a :: l2 ∧
      List.Forall₂ (Retargeted
        (func.blocks.foldl (fun m kb => if kb.1 > m then kb.1 else m) 0) edge.2) o1 l1 ∧
      List.Forall₂ (Retargeted
        (func.blocks.foldl (fun m kb => if kb.1 > m then kb.1 else m) 0) edge.2) o2 l2 ∧
      buildParallelMoves copies st.nextVReg = some (moves, nv) ∧ moves ≠ [] ∧
      processEdge (func.blocks.map (fun kb => (kb.1, getSuccessors kb.2))) st edge copies
        = some st1 ∧
      st1.blocks = blocksInsert st.nextId
        { blockId := st.nextId,
          insts := moves ++ [.target (createJInst .JAL PR.x0 (Label.ofJmp (Int.ofNat edge.2)))] }
        (blocksInsert edge.1 { pred with insts := l1 ++ setBranchTarget a st.nextId :: l2 }
          st.blocks) ∧
      st1.nextId = st.nextId + 1 ∧
      func.blocks.foldl (fun m kb => if kb.1 > m then kb.1 else m) 0 < st.nextId ∧
      (∀ kb ∈ func.blocks, kb.1 < st.nextId) ∧
      st.blocks.lookup st.nextId = none ∧
      getBranchTarget (setBranchTarget a st.nextId) = some st.nextId ∧
      runOnFunction func nextVReg = some (g, n) ∧
      g.blocks.lookup st.nextId = some
        { blockId := st.nextId,
          insts := moves ++ [.target (createJInst .JAL PR.x0 (Label.ofJmp (Int.ofNat edge.2)))] } ∧
      ∃ cur, g.blocks.lookup edge.1 = some cur ∧ setBranchTarget a st.nextId ∈ cur.insts := by
  -- names
  generalize hsuccs : func.blocks.map (fun kb => (kb.1, getSuccessors kb.2)) = succs
  generalize hmaxId : func.blocks.foldl (fun m kb => if kb.1 > m then kb.1 else m) 0 = maxId
  have hmaxge : ∀ kb ∈ func.blocks, kb.1 ≤ maxId := by
    rw [← hmaxId]; exact (foldl_maxId_ge func.blocks 0).2
  have hkeymax : ∀ k, (func.blocks.lookup k).isSome = true → k ≤ maxId := by
    intro k hk
    obtain ⟨b, hb⟩ := Option.isSome_iff_exists.mp hk
    exact hmaxge _ (lookup_block_mem _ _ _ hb)
  have hkeys := collectEdgeCopies_keys func.blocks func.blocks [] (fun e he => by simp at he)
    (fun kb hkb => hkb)
  have hsorted := collectEdgeCopies_sorted func.blocks func.blocks [] List.Pairwise.nil
  rw [hedges] at hkeys hsorted
  have hother : ∀ e ∈ pre ++ post, e.1 ≠ edge ∧ e.1.1 ≤ maxId ∧ e.1.2 ≤ maxId := by
    intro e he
    have hmem : e ∈ pre ++ (edge, copies) :: post := by
      rcases List.mem_append.mp he with h | h
      · exact List.mem_append.mpr (Or.inl h)
      · exact List.mem_append.mpr (Or.inr (List.mem_cons_of_mem _ h))
    obtain ⟨k1, k2⟩ := hkeys e hmem
    refine ⟨?_, hkeymax _ k1, hkeymax _ k2⟩
    rw [List.pairwise_append, List.pairwise_cons] at hsorted
    intro heq
    rcases List.mem_append.mp he with h | h
    · have := hsorted.2.2 e h (edge, copies) (List.mem_cons_self _ _)
      simp only at this
      rw [heq, edgeKey_lt_iff] at this
      omega
    · have := hsorted.2.1.1 e h
      simp only at this
      rw [heq, edgeKey_lt_iff] at this
      omega
  obtain ⟨he1, he2⟩ := hkeys (edge, copies) (by simp)
  simp only at he1 he2
  have hB : edge.2 ≤ maxId := hkeymax _ he2
  have hslen : ((succs.lookup edge.1).getD []).length > 1 := by
    rw [← hsuccs, lookup_succs, horig]
    exact hsucc
  -- the state when the loop reaches the edge
  have hinit : ∀ kb ∈ func.blocks, kb.1 < maxId + 1 := fun kb hkb =>
    Nat.lt_succ_of_le (hmaxge kb hkb)
  obtain ⟨st, hst⟩ := processEdges_isSome succs pre
    { blocks := func.blocks, nextId := maxId + 1, nextVReg := nextVReg }
  obtain ⟨hids, hnext, hkept⟩ := processEdges_ids succs pre _ st hst hinit
  simp only at hnext hkept
  have hmaxlt : maxId < st.nextId := by omega
  obtain ⟨pred, hpred, hrel⟩ := processEdges_pred succs maxId edge.1 edge.2 orig.insts hslen pre
    _ st hst hinit (Nat.lt_succ_self _)
    (fun e he => by
      have := hother e (List.mem_append.mpr (Or.inl he))
      exact ⟨this.1, this.2.2⟩)
    ⟨orig, horig, retargeted_refl _ _ _⟩
  rw [hsplit] at hrel
  obtain ⟨l1, b, l2, hpsplit, hr1, hrab, hr2⟩ := rel_split_left _ _ _ _ _ hrel
  have hba : b = a := by
    rcases hrab with h | ⟨t, n, ht, hat, _, _⟩
    · exact h
    · exfalso
      rw [branchesTo_iff] at ha hat
      rw [ha] at hat
      simp only [Option.some.injEq] at hat
      exact ht hat.symm
  subst hba
  have hl1 : ∀ j ∈ l1, branchesTo j edge.2 = false := by
    intro j hj
    obtain ⟨i, hi⟩ := List.mem_iff_get.mp hj
    by_contra hcon
    have hjb : branchesTo j edge.2 = true := by simpa using hcon
    have hlen := hr1.length_eq
    have hrel1 := List.forall₂_iff_get.mp hr1
    have hi1 : i.1 < o1.length := by rw [hlen]; exact i.2
    have := hrel1.2 i.1 hi1 i.2
    rw [List.get_eq_getElem] at hi
    simp only [List.get_eq_getElem] at this
    rw [hi] at this
    have hja := retargeted_branch maxId edge.2 _ j edge.2 this hB hjb
    have := hfirst (o1[i.1]) (List.getElem_mem _)
    rw [← hja, hjb] at this
    exact Bool.noConfusion this
  obtain ⟨res, hbuild⟩ := buildParallelMoves_isSome copies st.nextVReg
  obtain ⟨moves, nv⟩ := res
  obtain ⟨hmne, hmnp⟩ := buildParallelMoves_moves copies st.nextVReg moves nv hbuild
  have hmoves := hmne hcopy
  have hret := retargetFirst_of_split l1 l2 b edge.2 st.nextId ha hl1
  obtain ⟨bsucc, hbsucc⟩ := Option.isSome_iff_exists.mp (hkept _ he2)
  have hstep : processEdge succs st edge copies = some
      { blocks := blocksInsert st.nextId
          { blockId := st.nextId,
            insts := moves ++
              [.target (createJInst .JAL PR.x0 (Label.ofJmp (Int.ofNat edge.2)))] }
          (blocksInsert edge.1 { pred with insts := l1 ++ setBranchTarget b st.nextId :: l2 }
            st.blocks),
        nextId := st.nextId + 1, nextVReg := nv } := by
    unfold processEdge
    simp only [hpred, hbsucc, hbuild]
    have hme : moves.isEmpty = false := by
      cases moves with
      | nil => exact absurd rfl hmoves
      | cons _ _ => rfl
    simp only [hme, Bool.false_eq_true, if_false]
    have hd : (!decide (((succs.lookup edge.1).getD []).length > 1)) = false := by
      simp only [Bool.not_eq_false', decide_eq_true_eq]
      exact hslen
    simp only [hd, Bool.false_eq_true, if_false, hpsplit, hret]
  have hnone : st.blocks.lookup st.nextId = none := by
    cases hl : st.blocks.lookup st.nextId with
    | none => rfl
    | some bb =>
      have := hids _ (lookup_block_mem _ _ _ hl)
      simp only at this
      omega
  have hgb := getBranchTarget_setBranchTarget b edge.2 st.nextId ha
  -- the rest of the loop
  obtain ⟨hids1, _, _⟩ := processEdge_ids succs st _ edge copies hstep hids
  obtain ⟨stf, hstf⟩ := processEdges_isSome succs post
    { blocks := blocksInsert st.nextId
        { blockId := st.nextId,
          insts := moves ++
            [.target (createJInst .JAL PR.x0 (Label.ofJmp (Int.ofNat edge.2)))] }
        (blocksInsert edge.1 { pred with insts := l1 ++ setBranchTarget b st.nextId :: l2 }
          st.blocks),
      nextId := st.nextId + 1, nextVReg := nv }
  have hpne : edge.1 ≠ st.nextId := by
    have := hkeymax _ he1
    omega
  obtain ⟨hnewf, curf, hcurf, hxf⟩ := processEdges_keep succs st.nextId edge.1
    { blockId := st.nextId,
      insts := moves ++ [.target (createJInst .JAL PR.x0 (Label.ofJmp (Int.ofNat edge.2)))] }
    (setBranchTarget b st.nextId) post _ stf hstf hids1
    (fun e he => by
      have := hother e (List.mem_append.mpr (Or.inr he))
      refine ⟨by omega, ?_⟩
      cases hbt : branchesTo (setBranchTarget b st.nextId) e.1.2 with
      | false => rfl
      | true =>
        rw [branchesTo_iff, hgb.1] at hbt
        simp only [Option.some.injEq] at hbt
        omega)
    ⟨by simp only; rw [lookup_blocksInsert_self],
     { pred with insts := l1 ++ setBranchTarget b st.nextId :: l2 },
     by simp only; rw [lookup_blocksInsert_ne _ _ _ _ hpne, lookup_blocksInsert_self],
     by simp⟩
  have hrun : runOnFunction func nextVReg =
      some ({ func with blocks := erasePhis stf.blocks }, stf.nextVReg) := by
    unfold runOnFunction
    have hne : func.blocks.isEmpty = false := by
      cases hfb : func.blocks with
      | nil => rw [hfb] at horig; simp at horig
      | cons _ _ => rfl
    simp only [hne, Bool.false_eq_true, if_false]
    rw [hsuccs, hmaxId, hedges, processEdges_append, hst]
    simp only [Option.some_bind, processEdges, hstep, hstf]
  refine ⟨st, _, pred, moves, nv, l1, l2, _, _, hst, hpred, hpsplit, hr1, hr2, hbuild, hmoves,
    hstep, rfl, rfl, hmaxlt, ?_, hnone, hgb.1, hrun, ?_, ?_⟩
  · intro kb hkb
    have := hmaxge kb hkb
    omega
  · simp only
    rw [lookup_erasePhis, hnewf]
    simp only [Option.map_some', Option.some.injEq]
    have : (moves ++ [MInstruction.target
        (createJInst .JAL PR.x0 (Label.ofJmp (Int.ofNat edge.2)))]).filter
        (fun i => !i.isPhi) = moves ++ [MInstruction.target
        (createJInst .JAL PR.x0 (Label.ofJmp (Int.ofNat edge.2)))] := by
      rw [List.filter_eq_self]
      intro m hm
      rcases List.mem_append.mp hm with h | h
      · simp [hmnp m h]
      · rw [List.mem_singleton] at h
        rw [h]
        rfl
    rw [this]
  · simp only
    rw [lookup_erasePhis, hcurf]
    refine ⟨_, rfl, ?_⟩
    simp only
    rw [List.mem_filter]
    exact ⟨hxf, by simp [hgb.2]⟩

/-- Claim C33 at the function `diamond`, whose block 0 branches to 1 and to 2 and feeds the
phi of block 2: the edge `0 → 2` is split by the new block 3. -/
theorem runOnFunction_splits_critical_edge_witness :
    collectEdgeCopies diamond.blocks diamond.blocks [] =
      [] ++ ((0, 2), [(vreg 5, some (.reg (vreg 4)))]) ::
        [((1, 2), [(vreg 5, some (.immI32 3))])] ∧
    ∃ (st st1 : PhiState) (pred : Block) (moves : List MInstruction) (nv : Nat)
      (g : Function) (n : Nat),
      st.blocks.lookup 0 = some pred ∧
      buildParallelMoves [(vreg 5, some (.reg (vreg 4)))] st.nextVReg = some (moves, nv) ∧
      processEdge (diamond.blocks.map (fun kb => (kb.1, getSuccessors kb.2))) st (0, 2)
        [(vreg 5, some (.reg (vreg 4)))] = some st1 ∧
      st1.nextId = st.nextId + 1 ∧
      runOnFunction diamond 100 = some (g, n) ∧
      g.blocks.lookup st.nextId = some
        { blockId := st.nextId,
          insts := moves ++ [.target (createJInst .JAL PR.x0 (Label.ofJmp 2))] } :=
  ⟨by decide,
   match runOnFunction_splits_critical_edge diamond 100 []
      [((1, 2), [(vreg 5, some (.immI32 3))])] (0, 2) [(vreg 5, some (.reg (vreg 4)))]
      (by decide)
      { blockId := 0,
        insts := [.target (createBInst .BNE (vreg 4) PR.x0 (Label.ofJmp 1)),
                  .target (createJInst .JAL PR.x0 (Label.ofJmp 2))] }
      (by decide) (by decide) (by decide)
      [.target (createBInst .BNE (vreg 4) PR.x0 (Label.ofJmp 1))] []
      (.target (createJInst .JAL PR.x0 (Label.ofJmp 2))) rfl (by decide) (by decide) with
   | ⟨st, st1, pred, moves, nv, _, _, g, n, _, h2, _, _, _, h6, _, h8, _, h10, _, _, _, _, h15,
       h16, _⟩ => ⟨st, st1, pred, moves, nv, g, n, h2, h6, h8, h10, h15, h16⟩⟩

/-! ### Address computation: the GEP -/

theorem land_pred_eq_zero (n : Nat) (hpos : 0 < n) (h : n &&& (n - 1) = 0) : ∃ k, n = 2 ^ k := by
  induction n using Nat.strong_induction_on with
  | _ n ih =>
    have hdiv : n / 2 &&& (n - 1) / 2 = 0 := by
      rw [← Nat.and_div_two, h]
    rcases Nat.even_or_odd n with he | ho
    · obtain ⟨m, hm⟩ := he
      have hm2 : n = 2 * m := by omega
      have h1 : n / 2 = m := by omega
      have h2 : (n - 1) / 2 = m - 1 := by omega
      rw [h1, h2] at hdiv
      obtain ⟨k, hk⟩ := ih m (by omega) (by omega) hdiv
      exact ⟨k + 1, by rw [hm2, hk, pow_succ]; ring⟩
    · obtain ⟨m, hm⟩ := ho
      have h1 : n / 2 = m := by omega
      have h2 : (n - 1) / 2 = m := by omega
      rw [h1, h2, Nat.and_self] at hdiv
      exact ⟨0, by omega⟩

theorem isPow2_spec (v : Int) (h : isPow2 v = true) : ∃ k : Nat, v = 2 ^ k := by
  unfold isPow2 at h
  simp only [Bool.and_eq_true, decide_eq_true_eq] at h
  obtain ⟨k, hk⟩ := land_pred_eq_zero v.toNat (by omega) h.2
  refine ⟨k, ?_⟩
  have : (v.toNat : Int) = v := Int.toNat_of_nonneg (by omega)
  rw [← this, hk]; push_cast; rfl

theorem log2Loop_pow (fuel k : Nat) (s : Int) (h : k ≤ fuel) :
    log2Loop fuel (2 ^ k) s = s + k := by
  induction fuel generalizing k s with
  | zero =>
    have : k = 0 := by omega
    subst this; simp [log2Loop]
  | succ f ih =>
    cases k with
    | zero => simp [log2Loop]
    | succ k =>
      have hgt : (2 : Int) ^ (k + 1) > 1 := by
        have : (0 : Int) < 2 ^ k := by positivity
        rw [pow_succ]; omega
      have hd : (2 : Int) ^ (k + 1) / 2 = 2 ^ k := by
        rw [pow_succ]; simp
      rw [log2Loop, if_pos hgt, hd, ih k (s + 1) (by omega)]
      push_cast; ring

theorem log2i_pow (k : Nat) (h : k ≤ 64) : log2i (2 ^ k) = k := by
  rw [log2i, log2Loop_pow 64 k 0 h]; simp

theorem pow2_int32_small (k : Nat) (h : isInt32 (2 ^ k)) : k < 31 := by
  by_contra hk
  have h1 : (2 : Int) ^ 31 ≤ 2 ^ k := pow_le_pow_right₀ (by norm_num) (by omega)
  have h2 := h.2
  norm_num at h1
  omega

theorem foldl_mul_eq (l : List Int) (a : Int) : l.foldl (fun s d => s * d) a = a * l.prod := by
  induction l generalizing a with
  | nil => simp
  | cons x xs ih => simp [List.foldl, ih, mul_assoc]

theorem strideForIndex_eq (dims : List Int) (m k : Nat) :
    strideForIndex dims m k = strideSpec dims m k := by
  unfold strideForIndex strideSpec
  by_cases h0 : dims.length = 0
  · have hd : dims = [] := List.length_eq_zero.mp h0
    subst hd
    by_cases hm : m = 1
    · cases k <;> simp [hm]
    · simp [hm]
  · rw [if_neg h0]
    by_cases hm : m = dims.length + 1
    · cases k with
      | zero => simp [hm, foldl_mul_eq]
      | succ j =>
        simp only [hm, true_and, if_true, Nat.add_sub_cancel]
        rw [if_neg (by omega)]
        by_cases hj : j ≥ dims.length
        · rw [if_pos hj, List.drop_eq_nil_of_le (by omega)]; rfl
        · rw [if_neg hj, foldl_mul_eq, one_mul]
    · simp only [hm, false_and, if_false]
      by_cases hj : k ≥ dims.length
      · rw [if_pos hj, List.drop_eq_nil_of_le (by omega)]; rfl
      · rw [if_neg hj, foldl_mul_eq, one_mul]

theorem byteStride_ne_one (x : Int) (t : IRType) : x * elemByteSize t ≠ 1 := by
  cases t <;> simp only [elemByteSize] <;> omega

theorem wrap32_of_isInt32 (v : Int) (h : isInt32 v) : wrap32 v = v := by
  unfold isInt32 at h; unfold wrap32; omega

theorem sext64_cast_emod (v : Int) :
    Int.ofNat (sext64 v) % 18446744073709551616 = v % 18446744073709551616 := by
  unfold sext64
  rw [Int.ofNat_eq_coe, Int.toNat_of_nonneg (Int.emod_nonneg _ (by norm_num)), Int.emod_emod]

theorem eq_sext64_of_emod (n : Nat) (v : Int) (hn : n < 18446744073709551616)
    (h : Int.ofNat n % 18446744073709551616 = v % 18446744073709551616) : n = sext64 v := by
  unfold sext64
  rw [← h]
  simp only [Int.ofNat_eq_coe]
  omega

theorem toSigned64_emod (x : Nat) :
    Int.ofNat x % 18446744073709551616 = toSigned64 x % 18446744073709551616 := by
  unfold toSigned64
  simp only [Int.ofNat_eq_coe]
  split <;> omega

theorem readReg_vreg (st : RegFile) (r : Register) (h : r.isVreg = true) :
    readReg st r = st r := by
  unfold readReg
  rw [if_neg]
  intro he; rw [he] at h; exact absurd h (by decide)

theorem writeReg_same (st : RegFile) (r : Register) (v : Nat) (h : r.isVreg = true) :
    writeReg st r v r = v := by
  unfold writeReg
  rw [if_pos]
  exact ⟨rfl, fun he => by rw [he] at h; exact absurd h (by decide)⟩

theorem writeReg_other (st : RegFile) (r x : Register) (v : Nat) (h : x.rId ≠ r.rId) :
    writeReg st r v x = st x := by
  unfold writeReg
  rw [if_neg]
  exact fun hh => h (by rw [hh.1])

theorem execAddrInsts_append (sym : String → Nat) (st : RegFile) (a b : List MInstruction) :
    execAddrInsts sym st (a ++ b) =
      (execAddrInsts sym st a).bind (fun s => execAddrInsts sym s b) := by
  induction a generalizing st with
  | nil => rfl
  | cons i rest ih =>
    simp only [List.cons_append, execAddrInsts]
    cases execAddrInst sym st i with
    | none => rfl
    | some s1 => exact ih s1

theorem emitted_append (sym : String → Nat) (st st0 : RegFile) (lo : Nat)
    (insts new : List MInstruction) (next next1 : Nat) (cur cur1 : RegFile)
    (h : Emitted sym st st0 lo insts next cur)
    (hexec : execAddrInsts sym cur new = some cur1) (hn : next ≤ next1)
    (hframe : ∀ r : Register, r.rId < next → cur1 r = cur r) :
    Emitted sym st st0 lo (insts ++ new) next1 cur1 := by
  obtain ⟨h1, h2, h3⟩ := h
  refine ⟨?_, by omega, fun r hr => ?_⟩
  · rw [execAddrInsts_append, h1]; exact hexec
  · rw [hframe r (by omega)]; exact h3 r hr

theorem holdsMod_frame (next next1 : Nat) (cur cur1 : RegFile) (r : Register) (v : Int)
    (h : HoldsMod next cur r v) (hn : next ≤ next1)
    (hframe : ∀ x : Register, x.rId < next → cur1 x = cur x) : HoldsMod next1 cur1 r v := by
  obtain ⟨h1, h2, h3⟩ := h
  exact ⟨h1, by omega, by rw [hframe r h2]; exact h3⟩
theorem gepZext_spec (sym : String → Nat) (st st0 : RegFile) (lo : Nat)
    (insts : List MInstruction) (next : Nat) (cur : RegFile) (n : Nat) (dt : DataType)
    (idxType : IRType) (h : Emitted sym st st0 lo insts next cur) (hn : n < lo)
    (hdt : mapType idxType = some dt) (hdt2 : dt = .I32 ∨ dt = .I64) :
    ∃ cur1, Emitted sym st st0 lo (gepZext (makeVReg n dt) insts next).2.1
        (gepZext (makeVReg n dt) insts next).2.2 cur1 ∧
      next ≤ (gepZext (makeVReg n dt) insts next).2.2 ∧
      (∀ r : Register, r.rId < next → cur1 r = cur r) ∧
      HoldsMod (gepZext (makeVReg n dt) insts next).2.2 cur1
        (gepZext (makeVReg n dt) insts next).1 (indexValue st0 idxType (.reg n)) := by
  have hlo := h.2.1
  rcases hdt2 with rfl | rfl
  · have hz : gepZext (makeVReg n .I32) insts next =
        ((getVReg (some .I64) next).1,
          insts ++ [.target (createR2Inst .ZEXT_W (getVReg (some .I64) next).1
            (makeVReg n .I32))], next + 1) := rfl
    rw [hz]
    have hframe : ∀ r : Register, r.rId < next →
        writeReg cur (getVReg (some .I64) next).1 (cur (makeVReg n .I32) % 4294967296) r
          = cur r := fun r hr => writeReg_other _ _ _ _ (by simp only [getVReg]; omega)
    refine ⟨writeReg cur (getVReg (some .I64) next).1 (cur (makeVReg n .I32) % 4294967296),
      emitted_append sym st st0 lo insts _ next (next + 1) cur _ h ?_ (by omega) hframe,
      by simp, hframe, rfl, by simp [getVReg], ?_⟩
    · simp only [execAddrInsts, execAddrInst, createR2Inst, Instr.new]
      rw [readReg_vreg _ _ rfl]
    · simp only
      rw [writeReg_same _ _ _ rfl]
      simp only [indexValue, hdt]
      rw [h.2.2 _ (by simp only [makeVReg]; omega)]
  · have hz : gepZext (makeVReg n .I64) insts next = (makeVReg n .I64, insts, next) := rfl
    rw [hz]
    refine ⟨cur, h, le_refl _, fun _ _ => rfl, rfl, by simp only [makeVReg]; omega, ?_⟩
    simp only [indexValue, hdt]
    rw [h.2.2 _ (by simp only [makeVReg]; omega)]
    exact toSigned64_emod _

theorem gepScale_spec (sym : String → Nat) (st st0 : RegFile) (lo : Nat)
    (insts : List MInstruction) (next : Nat) (cur : RegFile) (bs : Int) (idx64 : Register)
    (V : Int) (h : Emitted sym st st0 lo insts next cur) (hidx : HoldsMod next cur idx64 V)
    (hbs : isInt32 bs) (hne : bs ≠ 1) :
    ∃ cur1, Emitted sym st st0 lo (gepScale bs idx64 insts next).2.1
        (gepScale bs idx64 insts next).2.2 cur1 ∧
      next ≤ (gepScale bs idx64 insts next).2.2 ∧
      (∀ r : Register, r.rId < next → cur1 r = cur r) ∧
      HoldsMod (gepScale bs idx64 insts next).2.2 cur1 (gepScale bs idx64 insts next).1
        (V * bs) ∧
      lo ≤ (gepScale bs idx64 insts next).1.rId := by
  have hlo := h.2.1
  obtain ⟨hv, hlt, hval⟩ := hidx
  by_cases hp : isPow2 bs = true
  · obtain ⟨k, hk⟩ := isPow2_spec bs hp
    have hk31 : k < 31 := pow2_int32_small k (hk ▸ hbs)
    have hlog : log2i bs = k := by rw [hk]; exact log2i_pow k (by omega)
    have hz : gepScale bs idx64 insts next =
        ((getVReg (some .I64) next).1,
          insts ++ [.target (createIInst .SLLI (getVReg (some .I64) next).1 idx64 (log2i bs))],
          next + 1) := by
      simp only [gepScale, hp, if_true, ne_eq, hne, not_false_eq_true, getVReg]
    rw [hz]
    have hframe : ∀ r : Register, r.rId < next →
        writeReg cur (getVReg (some .I64) next).1
          ((cur idx64 * 2 ^ k) % 18446744073709551616) r = cur r :=
      fun r hr => writeReg_other _ _ _ _ (by simp only [getVReg]; omega)
    refine ⟨writeReg cur (getVReg (some .I64) next).1
        ((cur idx64 * 2 ^ k) % 18446744073709551616),
      emitted_append sym st st0 lo insts _ next (next + 1) cur _ h ?_ (by omega) hframe,
      by simp, hframe, ⟨rfl, by simp [getVReg], ?_⟩, by simp only [getVReg]; omega⟩
    · simp only [execAddrInsts, execAddrInst, createIInst, Instr.new, hlog]
      rw [readReg_vreg _ _ hv, if_pos (by omega)]
      simp
    · simp only
      rw [writeReg_same _ _ _ rfl, hk]
      simp only [Int.ofNat_eq_coe] at hval ⊢
      push_cast
      rw [Int.emod_emod_of_dvd _ (dvd_refl _), Int.mul_emod, hval, ← Int.mul_emod]
  · have hz : gepScale bs idx64 insts next =
        ((getVReg (some .I64) (next + 1)).1,
          insts ++ [createMove (getVReg (some .I64) next).1 (.immI32 (wrap32 bs)),
            .target (createRInst .MUL (getVReg (some .I64) (next + 1)).1 idx64
              (getVReg (some .I64) next).1)],
          next + 2) := by
      simp only [gepScale, hp, ne_eq, hne, not_false_eq_true, if_true, getVReg]
      rfl
    rw [hz, wrap32_of_isInt32 bs hbs]
    have hframe : ∀ r : Register, r.rId < next →
        writeReg (writeReg cur (getVReg (some .I64) next).1 (sext64 bs))
          (getVReg (some .I64) (next + 1)).1
          ((cur idx64 * sext64 bs) % 18446744073709551616) r = cur r := fun r hr => by
      rw [writeReg_other _ _ _ _ (by simp only [getVReg]; omega),
        writeReg_other _ _ _ _ (by simp only [getVReg]; omega)]
    refine ⟨writeReg (writeReg cur (getVReg (some .I64) next).1 (sext64 bs))
          (getVReg (some .I64) (next + 1)).1 ((cur idx64 * sext64 bs) % 18446744073709551616),
      emitted_append sym st st0 lo insts _ next (next + 2) cur _ h ?_ (by omega) hframe,
      by simp, hframe, ⟨rfl, by simp [getVReg], ?_⟩, by simp only [getVReg]; omega⟩
    · simp only [execAddrInsts, execAddrInst, createMove, createRInst, Instr.new]
      rw [readReg_vreg _ _ hv, readReg_vreg _ _ rfl, writeReg_same _ _ _ rfl,
        writeReg_other _ _ _ _ (by simp only [getVReg]; omega)]
    · simp only
      rw [writeReg_same _ _ _ rfl]
      have hs := sext64_cast_emod bs
      simp only [Int.ofNat_eq_coe] at hval hs ⊢
      push_cast
      rw [Int.emod_emod_of_dvd _ (dvd_refl _), Int.mul_emod, hval, hs, ← Int.mul_emod]

theorem gepAccum_spec (sym : String → Nat) (st st0 : RegFile) (lo : Nat)
    (insts : List MInstruction) (next : Nat) (cur : RegFile) (off : Option Register)
    (scaled : Register) (R V : Int) (h : Emitted sym st st0 lo insts next cur)
    (hsc : HoldsMod next cur scaled V) (hfresh : lo ≤ scaled.rId)
    (hoff : match off with
      | none => R = 0
      | some r => HoldsMod next cur r R ∧ lo ≤ r.rId) :
    ∃ cur1, Emitted sym st st0 lo (gepAccum off scaled insts next).2.1
        (gepAccum off scaled insts next).2.2 cur1 ∧
      HoldsMod (gepAccum off scaled insts next).2.2 cur1 (gepAccum off scaled insts next).1
        (R + V) ∧
      lo ≤ (gepAccum off scaled insts next).1.rId := by
  have hlo := h.2.1
  cases off with
  | none =>
    simp only at hoff
    subst hoff
    refine ⟨cur, h, ?_, hfresh⟩
    rw [zero_add]; exact hsc
  | some r =>
    obtain ⟨⟨hrv, hrlt, hrval⟩, hrlo⟩ := hoff
    obtain ⟨hv, hlt, hval⟩ := hsc
    have hz : gepAccum (some r) scaled insts next =
        ((getVReg (some .I64) next).1,
          insts ++ [.target (createRInst .ADD (getVReg (some .I64) next).1 r scaled)],
          next + 1) := rfl
    rw [hz]
    have hframe : ∀ x : Register, x.rId < next →
        writeReg cur (getVReg (some .I64) next).1
          ((cur r + cur scaled) % 18446744073709551616) x = cur x :=
      fun x hx => writeReg_other _ _ _ _ (by simp only [getVReg]; omega)
    refine ⟨writeReg cur (getVReg (some .I64) next).1
        ((cur r + cur scaled) % 18446744073709551616),
      emitted_append sym st st0 lo insts _ next (next + 1) cur _ h ?_ (by omega) hframe,
      ⟨rfl, by simp [getVReg], ?_⟩, by simp only [getVReg]; omega⟩
    · simp only [execAddrInsts, execAddrInst, createRInst, Instr.new]
      rw [readReg_vreg _ _ hv, readReg_vreg _ _ hrv]
    · simp only
      rw [writeReg_same _ _ _ rfl]
      simp only [Int.ofNat_eq_coe] at hval hrval ⊢
      push_cast
      rw [Int.emod_emod_of_dvd _ (dvd_refl _), Int.add_emod, hrval, hval, ← Int.add_emod]
theorem gepIndex_imm (sym : String → Nat) (st st0 : RegFile) (lo : Nat) (s : GepState)
    (cur : RegFile) (R : Int) (idxType : IRType) (bs v : Int)
    (hinv : GepInv sym st st0 lo s cur R) :
    ∃ s1, gepIndex idxType bs (.immI32 v) s = some s1 ∧
      s1.constOffset = s.constOffset + v * bs ∧ s1.offsetReg = s.offsetReg ∧
      s1.insts = s.insts ∧ s1.next = s.next ∧ GepInv sym st st0 lo s1 cur R := by
  by_cases h0 : bs = 0
  · exact ⟨s, by simp [gepIndex, h0], by simp [h0], rfl, rfl, rfl, hinv⟩
  · exact ⟨{ s with constOffset := s.constOffset + v * bs }, by simp [gepIndex, h0], rfl, rfl,
      rfl, rfl, hinv⟩

theorem gepIndex_reg_eq (idxType : IRType) (dt : DataType) (bs : Int) (n : Nat) (s : GepState)
    (h0 : bs ≠ 0) (hdt : mapType idxType = some dt) :
    gepIndex idxType bs (.reg n) s = some
      (let z := gepZext (makeVReg n dt) s.insts s.next
       let sc := gepScale bs z.1 z.2.1 z.2.2
       let acc := gepAccum s.offsetReg sc.1 sc.2.1 sc.2.2
       { s with offsetReg := some acc.1, insts := acc.2.1, next := acc.2.2 }) := by
  simp only [gepIndex, h0, if_false, hdt]

theorem gepIndex_reg (sym : String → Nat) (st st0 : RegFile) (lo : Nat) (s : GepState)
    (cur : RegFile) (R : Int) (idxType : IRType) (dt : DataType) (bs : Int) (n : Nat)
    (hinv : GepInv sym st st0 lo s cur R) (hdt : mapType idxType = some dt)
    (hdt2 : dt = .I32 ∨ dt = .I64) (hn : n < lo) (hbs : isInt32 bs) (hne : bs ≠ 1) :
    ∃ s1 cur1, gepIndex idxType bs (.reg n) s = some s1 ∧ s1.constOffset = s.constOffset ∧
      GepInv sym st st0 lo s1 cur1 (R + indexValue st0 idxType (.reg n) * bs) := by
  by_cases h0 : bs = 0
  · refine ⟨s, cur, by simp [gepIndex, h0], rfl, ?_⟩
    rw [h0, mul_zero, add_zero]; exact hinv
  · obtain ⟨hem, hoff⟩ := hinv
    obtain ⟨c1, hem1, hn1, hf1, hz⟩ :=
      gepZext_spec sym st st0 lo s.insts s.next cur n dt idxType hem hn hdt hdt2
    obtain ⟨c2, hem2, hn2, hf2, hsc, hfresh⟩ :=
      gepScale_spec sym st st0 lo _ _ c1 bs _ _ hem1 hz hbs hne
    have hoff2 : match s.offsetReg with
        | none => R = 0
        | some r => HoldsMod (gepScale bs (gepZext (makeVReg n dt) s.insts s.next).1
            (gepZext (makeVReg n dt) s.insts s.next).2.1
            (gepZext (makeVReg n dt) s.insts s.next).2.2).2.2 c2 r R ∧ lo ≤ r.rId := by
      cases hso : s.offsetReg with
      | none => rw [hso] at hoff; exact hoff
      | some r =>
        rw [hso] at hoff
        refine ⟨?_, hoff.2⟩
        have ha := holdsMod_frame _ _ cur c1 r R hoff.1 hn1 hf1
        exact holdsMod_frame _ _ c1 c2 r R ha hn2 hf2
    obtain ⟨c3, hem3, hacc, hlo3⟩ :=
      gepAccum_spec sym st st0 lo _ _ c2 s.offsetReg _ R _ hem2 hsc hfresh hoff2
    exact ⟨_, c3, gepIndex_reg_eq idxType dt bs n s h0 hdt, rfl, hem3, hacc, hlo3⟩

theorem gepOffsetFrom_congr (f g : IROperand → Int) (inst : GEPInst) (rest : List IROperand)
    (i : Nat) (h : ∀ op ∈ rest, f op = g op) :
    gepOffsetFrom f inst i rest = gepOffsetFrom g inst i rest := by
  induction rest generalizing i with
  | nil => rfl
  | cons x xs ih =>
    simp only [gepOffsetFrom]
    rw [h x (List.mem_cons_self _ _), ih (i + 1) (fun op hop => h op (List.mem_cons_of_mem _ hop))]

theorem gepLoop_spec (sym : String → Nat) (st st0 : RegFile) (lo : Nat) (inst : GEPInst)
    (dt : DataType) (hdt : mapType inst.idxType = some dt) (hdt2 : dt = .I32 ∨ dt = .I64)
    (rest : List IROperand) (i : Nat) (s : GepState) (cur : RegFile) (R : Int)
    (hinv : GepInv sym st st0 lo s cur R)
    (hidx : ∀ op ∈ rest, (∃ v, op = .immI32 v) ∨ ∃ n, op = .reg n ∧ n < lo)
    (hstride : ∀ k, i ≤ k → k < i + rest.length →
      isInt32 (strideSpec inst.dims inst.idxs.length k * elemByteSize inst.dt)) :
    ∃ s1 cur1, gepLoop inst i rest s = some s1 ∧
      s1.constOffset = s.constOffset + immOffsetFrom inst i rest ∧
      GepInv sym st st0 lo s1 cur1
        (R + (gepOffsetFrom (indexValue st0 inst.idxType) inst i rest -
          immOffsetFrom inst i rest)) := by
  induction rest generalizing i s cur R with
  | nil =>
    refine ⟨s, cur, rfl, by simp [immOffsetFrom], ?_⟩
    simp only [gepOffsetFrom, immOffsetFrom, sub_self, add_zero]; exact hinv
  | cons x xs ih =>
    have hxs : ∀ op ∈ xs, (∃ v, op = .immI32 v) ∨ ∃ n, op = .reg n ∧ n < lo :=
      fun op hop => hidx op (List.mem_cons_of_mem _ hop)
    have hstr : ∀ k, i + 1 ≤ k → k < i + 1 + xs.length →
        isInt32 (strideSpec inst.dims inst.idxs.length k * elemByteSize inst.dt) :=
      fun k h1 h2 => hstride k (by omega) (by simp only [List.length_cons]; omega)
    have hbs := hstride i (le_refl _) (by simp only [List.length_cons]; omega)
    rcases hidx x (List.mem_cons_self _ _) with ⟨v, rfl⟩ | ⟨n, rfl, hn⟩
    · obtain ⟨s1, hs1, hc1, _, _, _, hinv1⟩ :=
        gepIndex_imm sym st st0 lo s cur R inst.idxType
          (strideSpec inst.dims inst.idxs.length i * elemByteSize inst.dt) v hinv
      obtain ⟨s2, cur2, hs2, hc2, hinv2⟩ := ih (i + 1) s1 cur R hinv1 hxs hstr
      refine ⟨s2, cur2, ?_, ?_, ?_⟩
      · simp only [gepLoop, strideForIndex_eq, hs1]; exact hs2
      · rw [hc2, hc1]; simp only [immOffsetFrom]; ring
      · have : R + (gepOffsetFrom (indexValue st0 inst.idxType) inst i (.immI32 v :: xs) -
            immOffsetFrom inst i (.immI32 v :: xs)) =
            R + (gepOffsetFrom (indexValue st0 inst.idxType) inst (i + 1) xs -
              immOffsetFrom inst (i + 1) xs) := by
          simp only [gepOffsetFrom, immOffsetFrom, indexValue]; ring
        rw [this]; exact hinv2
    · obtain ⟨s1, cur1, hs1, hc1, hinv1⟩ :=
        gepIndex_reg sym st st0 lo s cur R inst.idxType dt
          (strideSpec inst.dims inst.idxs.length i * elemByteSize inst.dt) n hinv hdt hdt2 hn
          hbs (byteStride_ne_one _ _)
      obtain ⟨s2, cur2, hs2, hc2, hinv2⟩ := ih (i + 1) s1 cur1 _ hinv1 hxs hstr
      refine ⟨s2, cur2, ?_, ?_, ?_⟩
      · simp only [gepLoop, strideForIndex_eq, hs1]; exact hs2
      · rw [hc2, hc1]; simp only [immOffsetFrom]
      · have : R + (gepOffsetFrom (indexValue st0 inst.idxType) inst i (.reg n :: xs) -
            immOffsetFrom inst i (.reg n :: xs)) =
            R + indexValue st0 inst.idxType (.reg n) *
                (strideSpec inst.dims inst.idxs.length i * elemByteSize inst.dt) +
              (gepOffsetFrom (indexValue st0 inst.idxType) inst (i + 1) xs -
                immOffsetFrom inst (i + 1) xs) := by
          simp only [gepOffsetFrom, immOffsetFrom]; ring
        rw [this]; exact hinv2

theorem gepLoop_imms (inst : GEPInst) (rest : List IROperand) (i : Nat) (s s1 : GepState)
    (himm : ∀ op ∈ rest, ∃ v, op = .immI32 v) (h : gepLoop inst i rest s = some s1) :
    s1.offsetReg = s.offsetReg ∧ s1.insts = s.insts ∧ s1.next = s.next := by
  induction rest generalizing i s with
  | nil =>
    simp only [gepLoop, Option.some.injEq] at h
    subst h; exact ⟨rfl, rfl, rfl⟩
  | cons x xs ih =>
    obtain ⟨v, rfl⟩ := himm x (List.mem_cons_self _ _)
    simp only [gepLoop] at h
    by_cases h0 : strideForIndex inst.dims inst.idxs.length i * elemByteSize inst.dt = 0
    · simp only [gepIndex, h0, if_true] at h
      exact ih (i + 1) s (fun op hop => himm op (List.mem_cons_of_mem _ hop)) h
    · simp only [gepIndex, h0, if_false] at h
      have := ih (i + 1) _ (fun op hop => himm op (List.mem_cons_of_mem _ hop)) h
      exact this

theorem gepOffsetFrom_imms (f : IROperand → Int) (inst : GEPInst) (rest : List IROperand)
    (i : Nat) (hf : ∀ v, f (.immI32 v) = v) (himm : ∀ op ∈ rest, ∃ v, op = .immI32 v) :
    gepOffsetFrom f inst i rest = immOffsetFrom inst i rest := by
  induction rest generalizing i with
  | nil => rfl
  | cons x xs ih =>
    obtain ⟨v, rfl⟩ := himm x (List.mem_cons_self _ _)
    simp only [gepOffsetFrom, immOffsetFrom, hf]
    rw [ih (i + 1) (fun op hop => himm op (List.mem_cons_of_mem _ hop))]

theorem gepFinish_spec (sym : String → Nat) (st st0 : RegFile) (lo : Nat) (s : GepState)
    (cur : RegFile) (R : Int) (dst baseReg : Register)
    (hinv : GepInv sym st st0 lo s cur R) (hdst : dst.isVreg = true)
    (hbase : baseReg.isVreg = true) (hb : baseReg.rId < lo)
    (hB : st0 baseReg < 18446744073709551616) (hc : isInt32 s.constOffset) :
    ∃ cur1, execAddrInsts sym st (gepFinish dst baseReg s).1 = some cur1 ∧
      cur1 dst = sext64 (Int.ofNat (st0 baseReg) + (s.constOffset + R)) := by
  obtain ⟨⟨hex, hlo, hold⟩, hoff⟩ := hinv
  have hcb : cur baseReg = st0 baseReg := hold _ hb
  have hw := wrap32_of_isInt32 _ hc
  have hs := sext64_cast_emod s.constOffset
  simp only [Int.ofNat_eq_coe] at hs
  unfold gepFinish
  cases hso : s.offsetReg with
  | none =>
    rw [hso] at hoff
    simp only at hoff
    subst hoff
    by_cases h0 : s.constOffset = 0
    · simp only [h0, ne_eq, not_true_eq_false, if_false]
      refine ⟨writeReg cur dst (cur baseReg), ?_, ?_⟩
      · rw [execAddrInsts_append, hex]
        simp only [Option.bind, execAddrInsts, execAddrInst, createMove]
        rw [readReg_vreg _ _ hbase]
      · rw [writeReg_same _ _ _ hdst, hcb]
        apply eq_sext64_of_emod _ _ hB
        simp
    · simp only [ne_eq, h0, not_false_eq_true, if_true]
      by_cases hi : imm12 s.constOffset = true
      · simp only [hi, if_true]
        refine ⟨writeReg cur dst ((cur baseReg + sext64 s.constOffset) %
          18446744073709551616), ?_, ?_⟩
        · rw [execAddrInsts_append, hex]
          simp only [Option.bind, execAddrInsts, execAddrInst, createIInst, Instr.new, hw]
          rw [readReg_vreg _ _ hbase]
        · rw [writeReg_same _ _ _ hdst, hcb]
          apply eq_sext64_of_emod _ _ (Nat.mod_lt _ (by norm_num))
          simp only [Int.ofNat_eq_coe, add_zero]
          push_cast
          rw [Int.emod_emod_of_dvd _ (dvd_refl _), Int.add_emod, hs, ← Int.add_emod]
      · simp only [hi, Bool.false_eq_true, if_false, hw]
        refine ⟨writeReg (writeReg cur (getVReg (some .I64) s.next).1 (sext64 s.constOffset))
          dst ((cur baseReg + sext64 s.constOffset) % 18446744073709551616), ?_, ?_⟩
        · rw [execAddrInsts_append, hex]
          simp only [Option.bind, execAddrInsts, execAddrInst, createMove, createRInst,
            Instr.new]
          rw [readReg_vreg _ _ hbase, readReg_vreg _ _ rfl, writeReg_same _ _ _ rfl,
            writeReg_other _ _ _ _ (by simp only [getVReg]; omega)]
        · rw [writeReg_same _ _ _ hdst, hcb]
          apply eq_sext64_of_emod _ _ (Nat.mod_lt _ (by norm_num))
          simp only [Int.ofNat_eq_coe, add_zero]
          push_cast
          rw [Int.emod_emod_of_dvd _ (dvd_refl _), Int.add_emod, hs, ← Int.add_emod]
  | some r =>
    rw [hso] at hoff
    obtain ⟨⟨hrv, hrlt, hrval⟩, hrlo⟩ := hoff
    simp only [Int.ofNat_eq_coe] at hrval
    have hrb : baseReg.rId ≠ r.rId := by omega
    by_cases h0 : s.constOffset = 0
    · simp only [h0, ne_eq, not_true_eq_false, if_false]
      refine ⟨writeReg cur dst ((cur baseReg + cur r) % 18446744073709551616), ?_, ?_⟩
      · rw [execAddrInsts_append, hex]
        simp only [Option.bind, execAddrInsts, execAddrInst, createRInst, Instr.new]
        rw [readReg_vreg _ _ hbase, readReg_vreg _ _ hrv]
      · rw [writeReg_same _ _ _ hdst, hcb]
        apply eq_sext64_of_emod _ _ (Nat.mod_lt _ (by norm_num))
        simp only [Int.ofNat_eq_coe, zero_add]
        push_cast
        rw [Int.emod_emod_of_dvd _ (dvd_refl _), Int.add_emod, hrval, ← Int.add_emod]
    · simp only [ne_eq, h0, not_false_eq_true, if_true]
      by_cases hi : imm12 s.constOffset = true
      · simp only [hi, if_true, hw]
        refine ⟨writeReg (writeReg cur r ((cur r + sext64 s.constOffset) %
            18446744073709551616)) dst
          ((cur baseReg + (cur r + sext64 s.constOffset) % 18446744073709551616) %
            18446744073709551616), ?_, ?_⟩
        · rw [execAddrInsts_append, hex]
          simp only [Option.bind, execAddrInsts, execAddrInst, createIInst, createRInst,
            Instr.new]
          rw [readReg_vreg _ _ hbase, readReg_vreg _ _ hrv, readReg_vreg _ _ hrv,
            writeReg_same _ _ _ hrv, writeReg_other _ _ _ _ hrb]
        · rw [writeReg_same _ _ _ hdst, hcb]
          apply eq_sext64_of_emod _ _ (Nat.mod_lt _ (by norm_num))
          simp only [Int.ofNat_eq_coe]
          push_cast
          rw [Int.emod_emod_of_dvd _ (dvd_refl _), Int.add_emod, Int.emod_emod_of_dvd _
            (dvd_refl _), ← Int.add_emod, Int.add_emod, Int.add_emod (cur r : Int), hrval, hs,
            ← Int.add_emod R, ← Int.add_emod, add_comm R]
      · simp only [hi, Bool.false_eq_true, if_false, hw]
        refine ⟨writeReg (writeReg (writeReg cur (getVReg (some .I64) s.next).1
            (sext64 s.constOffset)) (getVReg (some .I64) (s.next + 1)).1
            ((cur r + sext64 s.constOffset) % 18446744073709551616)) dst
          ((cur baseReg + (cur r + sext64 s.constOffset) % 18446744073709551616) %
            18446744073709551616), ?_, ?_⟩
        · rw [execAddrInsts_append, hex]
          simp only [Option.bind, execAddrInsts, execAddrInst, createMove, createRInst,
            Instr.new]
          rw [readReg_vreg _ _ hbase, readReg_vreg _ _ hrv, readReg_vreg _ _ rfl,
            readReg_vreg _ _ rfl, writeReg_same _ _ _ rfl, writeReg_same _ _ _ rfl,
            writeReg_other _ _ _ _ (by simp only [getVReg]; omega),
            writeReg_other _ _ _ _ (by simp only [getVReg]; omega),
            writeReg_other _ _ _ _ (by simp only [getVReg]; omega)]
          rfl
        · rw [writeReg_same _ _ _ hdst, hcb]
          apply eq_sext64_of_emod _ _ (Nat.mod_lt _ (by norm_num))
          simp only [Int.ofNat_eq_coe]
          push_cast
          rw [Int.emod_emod_of_dvd _ (dvd_refl _), Int.add_emod, Int.emod_emod_of_dvd _
            (dvd_refl _), ← Int.add_emod, Int.add_emod, Int.add_emod (cur r : Int), hrval, hs,
            ← Int.add_emod R, ← Int.add_emod, add_comm R]
theorem gepBody_spec (sym : String → Nat) (st st0 : RegFile) (lo : Nat) (inst : GEPInst)
    (dst baseReg : Register) (baseInsts : List MInstruction)
    (hem : Emitted sym st st0 lo baseInsts lo st0) (hdst : dst.isVreg = true)
    (hbase : baseReg.isVreg = true) (hb : baseReg.rId < lo)
    (hB : st0 baseReg < 18446744073709551616)
    (htype : mapType inst.idxType = some .I32 ∨ mapType inst.idxType = some .I64)
    (hidx : ∀ op ∈ inst.idxs, (∃ v, op = .immI32 v) ∨ ∃ n, op = .reg n ∧ n < lo)
    (hstride : ∀ k < inst.idxs.length,
      isInt32 (strideSpec inst.dims inst.idxs.length k * elemByteSize inst.dt))
    (hconst : isInt32 (immOffsetFrom inst 0 inst.idxs)) :
    ∃ insts n st1, gepBody inst dst baseReg baseInsts lo = some (insts, n) ∧
      execAddrInsts sym st insts = some st1 ∧
      st1 dst = sext64 (Int.ofNat (st0 baseReg) +
        gepOffsetFrom (indexValue st0 inst.idxType) inst 0 inst.idxs) ∧
      ((∀ op ∈ inst.idxs, ∃ v, op = .immI32 v) →
        immOffsetFrom inst 0 inst.idxs ≠ 0 → imm12 (immOffsetFrom inst 0 inst.idxs) = true →
        insts = baseInsts ++
          [.target (createIInst .ADDI dst baseReg (immOffsetFrom inst 0 inst.idxs))]) := by
  unfold gepBody
  by_cases hemp : inst.idxs.isEmpty = true
  · have hnil : inst.idxs = [] := List.isEmpty_iff.mp hemp
    rw [if_pos hemp]
    refine ⟨_, _, writeReg st0 dst (st0 baseReg), rfl, ?_, ?_, ?_⟩
    · rw [execAddrInsts_append, hem.1]
      simp only [Option.bind, execAddrInsts, execAddrInst, createMove]
      rw [readReg_vreg _ _ hbase]
    · rw [writeReg_same _ _ _ hdst, hnil]
      apply eq_sext64_of_emod _ _ hB
      simp [gepOffsetFrom]
    · intro _ hne
      rw [hnil] at hne
      exact absurd rfl hne
  · rw [if_neg hemp]
    obtain ⟨dt, hdt, hdt2⟩ : ∃ dt, mapType inst.idxType = some dt ∧ (dt = .I32 ∨ dt = .I64) := by
      rcases htype with h | h
      · exact ⟨_, h, Or.inl rfl⟩
      · exact ⟨_, h, Or.inr rfl⟩
    have hinv0 : GepInv sym st st0 lo
        { constOffset := 0, offsetReg := none, insts := baseInsts, next := lo } st0 0 :=
      ⟨hem, rfl⟩
    obtain ⟨s1, cur1, hs1, hc1, hinv1⟩ :=
      gepLoop_spec sym st st0 lo inst dt hdt hdt2 inst.idxs 0 _ st0 0 hinv0 hidx
        (fun k _ hk => hstride k (by omega))
    simp only [zero_add] at hc1 hinv1
    rw [hs1]
    obtain ⟨cur2, hex2, hval2⟩ :=
      gepFinish_spec sym st st0 lo s1 cur1 _ dst baseReg hinv1 hdst hbase hb hB
        (hc1 ▸ hconst)
    refine ⟨(gepFinish dst baseReg s1).1, (gepFinish dst baseReg s1).2, cur2, rfl, hex2, ?_, ?_⟩
    · rw [hval2, hc1]
      congr 1
      ring
    · intro himm hne hi
      obtain ⟨ho, hins, _⟩ := gepLoop_imms inst inst.idxs 0 _ s1 himm hs1
      simp only at ho hins
      unfold gepFinish
      rw [hc1, ho, hins]
      simp only [ne_eq, hne, not_false_eq_true, if_true, hi, wrap32_of_isInt32 _ hconst]

theorem indexValue_writeReg (st : RegFile) (r : Register) (v lo : Nat) (idxType : IRType)
    (op : IROperand) (hr : lo ≤ r.rId)
    (hop : (∃ x, op = .immI32 x) ∨ ∃ n, op = .reg n ∧ n < lo) :
    indexValue (writeReg st r v) idxType op = indexValue st idxType op := by
  rcases hop with ⟨x, rfl⟩ | ⟨n, rfl, hn⟩
  · rfl
  · simp only [indexValue]
    cases hm : mapType idxType with
    | none => rfl
    | some dt =>
      cases dt <;> simp only <;>
        rw [writeReg_other _ _ _ _ (by simp only [makeVReg]; omega)]
/-- Claim C37, counterexample: for `%3 = gep i32, ptr %1, i32 1073741824` the byte offset
`2 ^ 32` is cut to the `int` 0, so the selected instructions compute the base address 1000
where the description gives `1000 + 2 ^ 32`; for `%3 = gep i32, ptr %1, i32 %2` with `%2`
holding `-1` the index is zero-extended, so the selected instructions compute
`1000 + 4 * (2 ^ 32 - 1)` where the signed index gives 996. -/
theorem visitGEP_wraps_offset :
    visitGEP gepHuge 10 =
      some ([createMove { rId := 10, dt := some .I64, isVreg := true } (.immI32 0),
             .target (createRInst .ADD (makeVReg 3 .PTR) (makeVReg 1 .PTR)
               { rId := 10, dt := some .I64, isVreg := true })], 11) ∧
    ((visitGEP gepHuge 10).bind (fun out => execAddrInsts (fun _ => 0) gepRegs out.1)).map
      (fun st1 => st1 (makeVReg 3 .PTR)) = some 1000 ∧
    gepAddress (indexValue gepRegs .I32) gepHuge (gepRegs (makeVReg 1 .PTR)) = 4294968296 ∧
    visitGEP gepByRegister 10 =
      some ([.target (createR2Inst .ZEXT_W { rId := 10, dt := some .I64, isVreg := true }
               (makeVReg 2 .I32)),
             .target (createIInst .SLLI { rId := 11, dt := some .I64, isVreg := true }
               { rId := 10, dt := some .I64, isVreg := true } 2),
             .target (createRInst .ADD (makeVReg 3 .PTR) (makeVReg 1 .PTR)
               { rId := 11, dt := some .I64, isVreg := true })], 12) ∧
    toSigned64 (gepRegs (makeVReg 2 .I32)) = -1 ∧
    ((visitGEP gepByRegister 10).bind (fun out => execAddrInsts (fun _ => 0) gepRegs out.1)).map
      (fun st1 => st1 (makeVReg 3 .PTR)) = some 17179870180 ∧
    gepAddress (indexValueSigned gepRegs .I32) gepByRegister (gepRegs (makeVReg 1 .PTR)) =
      996 := by
  decide

/-- Claim C37, amended: let the result of a GEP be a register, its base pointer a register
numbered below the virtual register counter (holding a 64-bit value) or a global symbol, its
indices of type `i32` or `i64` and each an `i32` immediate or a register numbered below the
counter, its dimensions positive, every byte stride `stride_k * E` and the sum of the
immediate contributions 32-bit signed values, and every partial sum of the immediate
contributions a 64-bit signed value. Then `visit(GEPInst&)` returns, the selected
instructions run, and they leave in the result register the address
`base + sum over k of i_k * stride_k * E` modulo `2 ^ 64`, where an immediate index counts as
it stands, a register index of type `i32` counts with the zero-extended low word of the
register and a register index of type `i64` with the signed contents of the register; the
strides are those of `strideSpec`. When all indices are immediates and the sum is a non-zero
value in `[-2048, 2047]`, the only instruction after the selection of the base register is
`ADDI dst, base, sum`: it is the only instruction for a base pointer in a register, and it
follows the `LA` of the symbol for a global base pointer. -/
theorem visitGEP_address (sym : String → Nat) (st : RegFile) (inst : GEPInst)
    (next resNum : Nat) (hres : inst.res = .reg resNum)
    (hbase : (∃ b, inst.basePtr = .reg b ∧ b < next ∧
        st (makeVReg b .PTR) < 18446744073709551616) ∨ ∃ g, inst.basePtr = .global g)
    (htype : mapType inst.idxType = some .I32 ∨ mapType inst.idxType = some .I64)
    (hidx : ∀ op ∈ inst.idxs, (∃ v, op = .immI32 v ∧ isInt32 v) ∨ ∃ n, op = .reg n ∧ n < next)
    (hdims : ∀ d ∈ inst.dims, 0 < d)
    (hstride : ∀ k < inst.idxs.length,
      isInt32 (strideSpec inst.dims inst.idxs.length k * elemByteSize inst.dt))
    (hpre : ∀ j, -9223372036854775808 ≤ immOffsetFrom inst 0 (inst.idxs.take j) ∧
      immOffsetFrom inst 0 (inst.idxs.take j) ≤ 9223372036854775807)
    (hconst : isInt32 (immOffsetFrom inst 0 inst.idxs)) :
    ∃ insts n st1, visitGEP inst next = some (insts, n) ∧
      execAddrInsts sym st insts = some st1 ∧
      st1 (makeVReg resNum .PTR) =
        gepAddress (indexValue st inst.idxType) inst (baseValue sym st inst.basePtr) ∧
      ((∀ op ∈ inst.idxs, ∃ v, op = .immI32 v) →
        gepOffsetFrom (indexValue st inst.idxType) inst 0 inst.idxs ≠ 0 →
        imm12 (gepOffsetFrom (indexValue st inst.idxType) inst 0 inst.idxs) = true →
        (∀ b, inst.basePtr = .reg b →
          insts = [.target (createIInst .ADDI (makeVReg resNum .PTR) (makeVReg b .PTR)
            (gepOffsetFrom (indexValue st inst.idxType) inst 0 inst.idxs))]) ∧
        (∀ g, inst.basePtr = .global g →
          insts = [.target (createUInstLabel .LA (getVReg (some .PTR) next).1
              (Label.ofName g false true)),
            .target (createIInst .ADDI (makeVReg resNum .PTR) (getVReg (some .PTR) next).1
              (gepOffsetFrom (indexValue st inst.idxType) inst 0 inst.idxs))])) := by
  have _ := hdims
  have _ := hpre
  have hidx1 : ∀ op ∈ inst.idxs, (∃ v, op = .immI32 v) ∨ ∃ n, op = .reg n ∧ n < next :=
    fun op hop => by
      rcases hidx op hop with ⟨v, hv, _⟩ | h
      · exact Or.inl ⟨v, hv⟩
      · exact Or.inr h
  have himmeq : (∀ op ∈ inst.idxs, ∃ v, op = .immI32 v) →
      gepOffsetFrom (indexValue st inst.idxType) inst 0 inst.idxs =
        immOffsetFrom inst 0 inst.idxs :=
    fun himm => gepOffsetFrom_imms _ inst inst.idxs 0 (fun _ => rfl) himm
  unfold visitGEP
  rw [hres]
  rcases hbase with ⟨b, hb, hbn, hbv⟩ | ⟨g, hg⟩
  · simp only [hb, gepBase, baseValue, gepAddress]
    obtain ⟨insts, n, st1, h1, h2, h3, h4⟩ :=
      gepBody_spec sym st st next inst (makeVReg resNum .PTR) (makeVReg b .PTR) []
        ⟨rfl, le_refl _, fun _ _ => rfl⟩ rfl rfl hbn hbv htype hidx1 hstride hconst
    refine ⟨insts, n, st1, h1, h2, h3, fun himm hne hi => ⟨fun b1 hb1 => ?_, fun g hg => ?_⟩⟩
    · rw [himmeq himm] at hne hi ⊢
      cases hb1
      simpa using h4 himm hne hi
    · cases hg
  · simp only [hg, gepBase, baseValue, gepAddress]
    have hem : Emitted sym st
        (writeReg st (getVReg (some .PTR) next).1 (sym g % 18446744073709551616)) (next + 1)
        [.target (createUInstLabel .LA (getVReg (some .PTR) next).1 (Label.ofName g false true))]
        (next + 1)
        (writeReg st (getVReg (some .PTR) next).1 (sym g % 18446744073709551616)) :=
      ⟨rfl, le_refl _, fun _ _ => rfl⟩
    have hB : writeReg st (getVReg (some .PTR) next).1 (sym g % 18446744073709551616)
        (getVReg (some .PTR) next).1 = sym g % 18446744073709551616 :=
      writeReg_same _ _ _ rfl
    obtain ⟨insts, n, st1, h1, h2, h3, h4⟩ :=
      gepBody_spec sym st _ (next + 1) inst (makeVReg resNum .PTR) (getVReg (some .PTR) next).1
        _ hem rfl rfl (by simp [getVReg]) (by rw [hB]; exact Nat.mod_lt _ (by norm_num)) htype
        (fun op hop => by
          rcases hidx1 op hop with h | ⟨k, hk, hkn⟩
          · exact Or.inl h
          · exact Or.inr ⟨k, hk, by omega⟩) hstride hconst
    refine ⟨insts, n, st1, h1, h2, ?_, fun himm hne hi => ⟨fun b hb => ?_, fun g1 hg1 => ?_⟩⟩
    · rw [h3, hB]
      rw [gepOffsetFrom_congr _ (indexValue st inst.idxType) inst inst.idxs 0
        (fun op hop => indexValue_writeReg st _ _ next inst.idxType op (le_refl _)
          (hidx1 op hop))]
    · cases hb
    · rw [himmeq himm] at hne hi ⊢
      cases hg1
      simpa using h4 himm hne hi
/-- Claim C37 at `%9 = gep i32, ptr @a, i32 %4, i32 2, i32 %5` into `[3][5]` with `@a` at
5000 and both index registers holding `2 ^ 64 - 1`: the selected instructions leave
`5000 + (2 ^ 32 - 1) * 60 + 2 * 20 + (2 ^ 32 - 1) * 4` in `%9`; and at
`%9 = gep i32, ptr %1, i32 1, i32 2` into `[3][5]`: the single instruction
`ADDI %9, %1, 28` is selected. -/
theorem visitGEP_address_witness :
    (∃ insts n st1, visitGEP gepMixed 10 = some (insts, n) ∧
      execAddrInsts (fun _ => 5000) gepRegs insts = some st1 ∧
      st1 (makeVReg 9 .PTR) = 274877911920) ∧
    ∃ n, visitGEP gepConst 10 =
      some ([.target (createIInst .ADDI (makeVReg 9 .PTR) (makeVReg 1 .PTR) 28)], n) := by
  constructor
  · obtain ⟨insts, n, st1, h1, h2, h3, _⟩ :=
      visitGEP_address (fun _ => 5000) gepRegs gepMixed 10 9 rfl (Or.inr ⟨"a", rfl⟩)
        (Or.inl rfl)
        (fun op hop => by
          simp only [gepMixed, List.mem_cons, List.mem_singleton, List.not_mem_nil,
            or_false] at hop
          rcases hop with rfl | rfl | rfl
          · exact Or.inr ⟨4, rfl, by decide⟩
          · exact Or.inl ⟨2, rfl, by unfold isInt32; decide⟩
          · exact Or.inr ⟨5, rfl, by decide⟩)
        (by decide)
        (fun k hk => by
          have hk3 : k < 3 := hk
          unfold isInt32
          interval_cases k <;> decide)
        (fun j => by
          rcases j with _ | _ | _ | j
          · decide
          · decide
          · decide
          · rw [List.take_of_length_le (by simp [gepMixed])]; decide)
        (by unfold isInt32; decide)
    exact ⟨insts, n, st1, h1, h2, h3.trans (by decide)⟩
  · obtain ⟨insts, n, st1, h1, _, _, h4⟩ :=
      visitGEP_address (fun _ => 0) gepRegs gepConst 10 9 rfl
        (Or.inl ⟨1, rfl, by decide, by decide⟩) (Or.inl rfl)
        (fun op hop => by
          simp only [gepConst, List.mem_cons, List.mem_singleton, List.not_mem_nil,
            or_false] at hop
          rcases hop with rfl | rfl
          · exact Or.inl ⟨1, rfl, by unfold isInt32; decide⟩
          · exact Or.inl ⟨2, rfl, by unfold isInt32; decide⟩)
        (by decide)
        (fun k hk => by
          have hk2 : k < 2 := hk
          unfold isInt32
          interval_cases k <;> decide)
        (fun j => by
          rcases j with _ | _ | j
          · decide
          · decide
          · rw [List.take_of_length_le (by simp [gepConst])]; decide)
        (by unfold isInt32; decide)
    have himm : ∀ op ∈ gepConst.idxs, ∃ v, op = IROperand.immI32 v := fun op hop => by
      simp only [gepConst, List.mem_cons, List.mem_singleton, List.not_mem_nil,
        or_false] at hop
      rcases hop with rfl | rfl
      · exact ⟨1, rfl⟩
      · exact ⟨2, rfl⟩
    have h5 := (h4 himm (by decide) (by decide)).1 1 rfl
    have h6 : gepOffsetFrom (indexValue gepRegs gepConst.idxType) gepConst 0 gepConst.idxs =
        28 := by decide
    rw [h6] at h5
    exact ⟨n, by rw [h1, h5]⟩

/-! ### The dominator analyser -/

set_option maxRecDepth 100000 in
/-- Claim C39 on the graph `0 -> 1, 1 -> 0` with the entry 0: the analyser computes
`imm_dom = [0, 0]`, `dom_frontier[1] = {0}` and `dom_frontier[0] = {}`, although 0 dominates
the predecessor 1 of 0 and does not strictly dominate itself, so that 0 belongs to the
dominance frontier of 0 by the definition; the same on the graph `0 -> 0`. On the graph
`0 -> 1, 1 -> 2, 2 -> 1` the header 1 of the loop, which is not the entry, is in its own
frontier. -/
theorem solve_frontier_misses_entry :
    (DomAnalyzer.solve [[1], [0]] [0]).imm_dom = [0, 0] ∧
    (DomAnalyzer.solve [[1], [0]] [0]).dom_frontier = [[], [0]] ∧
    reachable [[1], [0]] [0] 1 = true ∧ 0 ∈ [[1], [0]].getD 1 [] ∧
    dominates [[1], [0]] [0] 0 1 = true ∧ strictlyDominates [[1], [0]] [0] 0 0 = false ∧
    frontierSpec [[1], [0]] [0] 0 = [0] ∧
    (DomAnalyzer.solve [[0]] [0]).dom_frontier = [[]] ∧ frontierSpec [[0]] [0] 0 = [0] ∧
    (DomAnalyzer.solve [[1], [2], [1]] [0]).dom_frontier = [[], [1], [1]] ∧
    frontierSpec [[1], [2], [1]] [0] 1 = [1] := by
  decide

end RV64
